import Mathlib

/-!
# lldb B+tree: a shallow embedding of `lldb/btree.go`

Pages are byte strings (`List Nat`, one `Nat` per byte).  Go `int` values are
`Int`, handles (`int64`, never negative here) are `Nat`.  Every Go run-time
panic (index or slice bounds out of range) is the error `Err.panic`, a store
error is `Err.ilseq`, `io.EOF` is `Err.eof`.

Slices are modelled by value.  The embedding does not track slice capacity:
growing a slice (`setLen`, `insert`) appends zero bytes.  In Go a slice grown
inside its capacity shows the old bytes of the backing array instead; every
caller overwrites the grown region before it is read, so the two agree on all
bytes that are ever read.  The one place that reads past `len` on purpose
(`btreeIndexPage.split`) is commented there.
-/

namespace Lldb

/-! ## Constants -/

def kData : Nat := 256
def kIndex : Nat := 256
def kKV : Nat := 19
def kSz : Nat := kKV - 1 - 7
def kH : Nat := kKV - 7
def tagBTreeDataPage : Nat := 1
def tagBTreeIndexPage : Nat := 0

abbrev Bytes := List Nat

/-- Errors of the embedding. -/
inductive Err where
  | ilseq (h : Nat)
  | eof
  | nilReceiver
  | panic
  | upd
  | fuel
  deriving DecidableEq, Repr

/-! ## Go slice primitives -/

/-- Go `p[lo:]`. -/
def sliceFrom (p : Bytes) (lo : Int) : Except Err Bytes :=
  if 0 ≤ lo ∧ lo ≤ p.length then .ok (p.drop lo.toNat) else .error .panic

/-- Go `p[lo:hi]`. -/
def slice (p : Bytes) (lo hi : Int) : Except Err Bytes :=
  if 0 ≤ lo ∧ lo ≤ hi ∧ hi ≤ p.length then .ok ((p.drop lo.toNat).take (hi - lo).toNat)
  else .error .panic

/-- Go `p[i]`. -/
def byteAt (p : Bytes) (i : Int) : Except Err Nat :=
  if 0 ≤ i then
    match p.get? i.toNat with
    | some v => .ok v
    | none => .error .panic
  else .error .panic

/-- Go `p[i] = v`; the updated slice is returned. -/
def setByte (p : Bytes) (i : Int) (v : Nat) : Except Err Bytes :=
  if 0 ≤ i ∧ i < p.length then .ok (p.set i.toNat v) else .error .panic

/-- Go `copy(p[lo:hi], src)`; the updated `p` is returned.  `src` is a value, so an
overlapping copy behaves like Go's memmove. -/
def copyTo (p : Bytes) (lo hi : Int) (src : Bytes) : Except Err Bytes :=
  if 0 ≤ lo ∧ lo ≤ hi ∧ hi ≤ p.length then
    let n := min (hi - lo).toNat src.length
    .ok (p.take lo.toNat ++ src.take n ++ p.drop (lo.toNat + n))
  else .error .panic

/-- Go `copy(p[lo:], src)`. -/
def copyFrom (p : Bytes) (lo : Int) (src : Bytes) : Except Err Bytes :=
  copyTo p lo p.length src

/-- Go `make([]byte, n)`. -/
def zeros (n : Nat) : Bytes := List.replicate n 0

/-- Modelled from the spec: `b2h` is not under src/.  "Handles are 7 bytes,
big-endian": the handle in the first 7 bytes of `b`. -/
def b2h (b : Bytes) : Except Err Nat :=
  if 7 ≤ b.length then .ok ((b.take 7).foldl (fun h v => h * 256 + v) 0) else .error .panic

/-- The 7 big-endian bytes of `h` (the low 56 bits). -/
def h2bBytes (h : Nat) : Bytes :=
  [h / 2 ^ 48 % 256, h / 2 ^ 40 % 256, h / 2 ^ 32 % 256, h / 2 ^ 24 % 256,
   h / 2 ^ 16 % 256, h / 2 ^ 8 % 256, h % 256]

/-- Modelled from the spec: `h2b` is not under src/.  "Handles are 7 bytes,
big-endian": writes `h` into the first 7 bytes of `b` and returns `b`. -/
def h2b (b : Bytes) (h : Nat) : Except Err Bytes :=
  if 7 ≤ b.length then .ok (h2bBytes h ++ b.drop 7) else .error .panic

/-- Go `b2h(p[off:])`. -/
def b2hAt (p : Bytes) (off : Int) : Except Err Nat := do
  let t ← sliceFrom p off
  b2h t

/-- Go `h2b(p[off:], h)`; the updated `p` is returned. -/
def h2bAt (p : Bytes) (off : Int) (h : Nat) : Except Err Bytes := do
  let t ← sliceFrom p off
  let t ← h2b t h
  pure (p.take off.toNat ++ t)

/-! ## memBTreeStore -/

/-- Go `map[int64][]byte` lookup. -/
def mget (m : List (Nat × Bytes)) (k : Nat) : Option Bytes :=
  match m with
  | [] => none
  | (k1, v) :: r => if k1 = k then some v else mget r k

/-- Go `delete(m, k)`. -/
def mdel (m : List (Nat × Bytes)) (k : Nat) : List (Nat × Bytes) :=
  match m with
  | [] => []
  | (k1, v) :: r => if k1 = k then mdel r k else (k1, v) :: mdel r k

/-- Go `m[k] = v`. -/
def mset (m : List (Nat × Bytes)) (k : Nat) (v : Bytes) : List (Nat × Bytes) :=
  (k, v) :: mdel m k

structure memBTreeStore where
  h : Nat
  m : List (Nat × Bytes)
  deriving DecidableEq, Repr

def newMemBTreeStore : memBTreeStore := ⟨0, []⟩

/-- Store computations.  The store is a Go pointer: what an operation did to it before
an error stays done, so the store is returned next to the result or the error. -/
def M (α : Type) : Type := memBTreeStore → Except Err α × memBTreeStore

instance : Monad M where
  pure a := fun s => (.ok a, s)
  bind x f := fun s =>
    match x s with
    | (.ok a, s1) => f a s1
    | (.error e, s1) => (.error e, s1)

instance : MonadLift (Except Err) M where
  monadLift x := fun s => (x, s)

/-- Fail with `e`. -/
def M.fail {α : Type} (e : Err) : M α := fun s => (.error e, s)

/-- Run `x` and hand its error, if any, to the caller as a value (a Go call whose
`err` result the caller inspects, or overwrites, itself).  A panic is not an `error`
value and keeps propagating, and so does running out of fuel. -/
def M.attempt {α : Type} (x : M α) : M (Except Err α) := fun s =>
  match x s with
  | (.error .panic, s1) => (.error .panic, s1)
  | (.error .fuel, s1) => (.error .fuel, s1)
  | (r, s1) => (.ok r, s1)

/-- The current store (used for loop bounds only). -/
def M.store : M memBTreeStore := fun s => (.ok s, s)

/-- Modelled from the spec: `bpack` is not under src/.  The store "allocates a blob holding
an immutable snapshot of `bytes`": `bpack b` is the value that `b` has at the call, and no
later write to the buffer of the caller changes what was made of it. -/
@[reducible] def bpack (b : Bytes) : Bytes := b

def memBTreeStore.Alloc (b : Bytes) : M Nat := fun s =>
  (.ok (s.h + 1), ⟨s.h + 1, mset s.m (s.h + 1) (bpack b)⟩)

def memBTreeStore.Free (handle : Nat) : M Unit := fun s =>
  match mget s.m handle with
  | none => (.error (.ilseq handle), s)
  | some _ => (.ok (), ⟨s.h, mdel s.m handle⟩)

def memBTreeStore.Get (handle : Nat) : M Bytes := fun s =>
  match mget s.m handle with
  | none => (.error (.ilseq handle), s)
  | some r => (.ok r, s)

def memBTreeStore.Realloc (handle : Nat) (b : Bytes) : M Unit := fun s =>
  match mget s.m handle with
  | none => (.error (.ilseq handle), s)
  | some _ => (.ok (), ⟨s.h, mset s.m handle (bpack b)⟩)

/-! ## btreeIndexPage (page-local part) -/

def newBTreeIndexPage (leftmostChild : Nat) : Except Err Bytes := do
  let p ← setByte (zeros 8) 0 tagBTreeIndexPage
  h2bAt p 1 leftmostChild

def btreeIndexPage.len (p : Bytes) : Int := ((p.length - 8) / 14 : Nat)

def btreeIndexPage.child (p : Bytes) (index : Int) : Except Err Nat :=
  b2hAt p (1 + 14 * index)

def btreeIndexPage.setChild (p : Bytes) (index : Int) (dp : Nat) : Except Err Bytes :=
  h2bAt p (1 + 14 * index) dp

def btreeIndexPage.dataPage (p : Bytes) (index : Int) : Except Err Nat :=
  b2hAt p (8 + 14 * index)

def btreeIndexPage.setDataPage (p : Bytes) (index : Int) (dp : Nat) : Except Err Bytes :=
  h2bAt p (8 + 14 * index) dp

def btreeIndexPage.insert (p : Bytes) (index : Int) : Except Err Bytes :=
  let len0 := btreeIndexPage.len p
  if index < len0 then do
    let q := p ++ zeros 14
    let src ← sliceFrom q (8 + 14 * index)
    copyTo q (8 + 14 * (index + 1)) (8 + 14 * (index + 1) + 2 * (len0 - index) * 7) src
  else if index = len0 then pure (p ++ zeros 14)
  else pure p

def btreeIndexPage.insert3 (p : Bytes) (index : Int) (dataPage child : Nat) :
    Except Err Bytes := do
  let p ← btreeIndexPage.insert p index
  let p ← btreeIndexPage.setDataPage p index dataPage
  btreeIndexPage.setChild p (index + 1) child

def btreeIndexPage.setLen (p : Bytes) (n : Int) : Except Err Bytes :=
  let need : Int := 8 + 14 * n
  if need < p.length then slice p 0 need
  else pure (p ++ zeros (need - p.length).toNat)

/-- The receiver is dirty on return. -/
def btreeIndexPage.extract (p : Bytes) (index : Int) : Except Err Bytes := do
  let n := btreeIndexPage.len p - 1
  let p ← (if index < n then do
      let sz := (n - index) * 14 + 7
      let src ← sliceFrom p (1 + 14 * (index + 1))
      copyTo p (1 + 14 * index) (1 + 14 * index + sz) src
    else pure p)
  btreeIndexPage.setLen p n

/-! ## btreeDataPage (page-local part) -/

def newBTreeDataPage : Except Err Bytes :=
  setByte (zeros (1 + 2 * 7)) 0 tagBTreeDataPage

def btreeDataPage.len (p : Bytes) : Int := ((p.length - 15) / (2 * kKV) : Nat)

def btreeDataPage.setLen (p : Bytes) (n : Int) : Except Err Bytes :=
  let need : Int := 15 + 2 * kKV * n
  if need < p.length then slice p 0 need
  else pure (p ++ zeros (need - p.length).toNat)

def btreeDataPage.prev (p : Bytes) : Except Err Nat := b2hAt p 1

def btreeDataPage.next (p : Bytes) : Except Err Nat := b2hAt p 8

def btreeDataPage.setPrev (p : Bytes) (h : Nat) : Except Err Bytes := h2bAt p 1 h

def btreeDataPage.setNext (p : Bytes) (h : Nat) : Except Err Bytes := h2bAt p 8 h

/-- Go `p.copy(src, di, si, n)`; the updated `p` is returned. -/
def btreeDataPage.copy (p src : Bytes) (di si n : Int) : Except Err Bytes := do
  let dO : Int := 15 + 2 * kKV * di
  let sO : Int := 15 + 2 * kKV * si
  let s ← sliceFrom src sO
  copyTo p dO (dO + 2 * kKV * n) s

def btreeDataPage.insert (p : Bytes) (index : Int) : Except Err Bytes :=
  let len0 := btreeDataPage.len p
  if index < len0 then do
    let q := p ++ zeros (2 * kKV)
    btreeDataPage.copy q q (index + 1) index (len0 - index)
  else if index = len0 then pure (p ++ zeros (2 * kKV))
  else pure p

def btreeDataPage.contentField (p : Bytes) (off : Int) : Except Err (Bytes × Nat) := do
  let q ← sliceFrom p off
  let n ← byteAt q 0
  if n ≥ kKV then do
    let b ← slice q 1 (1 + kSz)
    let t ← sliceFrom q kH
    let h ← b2h t
    pure (b, h)
  else do
    let b ← slice q 1 (1 + n)
    pure (b, 0)

def btreeDataPage.keyField (p : Bytes) (index : Int) : Except Err (Bytes × Nat) :=
  btreeDataPage.contentField p (15 + 2 * kKV * index)

def btreeDataPage.valueField (p : Bytes) (index : Int) : Except Err (Bytes × Nat) :=
  btreeDataPage.contentField p (15 + kKV + 2 * kKV * index)

/-- Returns `(p, left)`, both dirty. -/
def btreeDataPage.moveLeft (p left : Bytes) (n : Int) : Except Err (Bytes × Bytes) := do
  let nl := btreeDataPage.len left
  let np := btreeDataPage.len p
  let left ← btreeDataPage.setLen left (nl + n)
  let left ← btreeDataPage.copy left p nl 0 n
  let p ← btreeDataPage.copy p p 0 n (np - n)
  let p ← btreeDataPage.setLen p (np - n)
  pure (p, left)

/-- Returns `(p, right)`, both dirty. -/
def btreeDataPage.moveRight (p right : Bytes) (n : Int) : Except Err (Bytes × Bytes) := do
  let nr := btreeDataPage.len right
  let np := btreeDataPage.len p
  let right ← btreeDataPage.setLen right (nr + n)
  let right ← btreeDataPage.copy right right n 0 nr
  let right ← btreeDataPage.copy right p 0 (np - n) n
  let p ← btreeDataPage.setLen p (np - n)
  pure (p, right)

/-! ## btreeDataPage: content codec and items -/

/-- Non-nil on success: a sub-slice of the page, or `append` onto the `kSz` prefix. -/
def btreeDataPage.content (p : Bytes) (off : Int) : M Bytes := do
  let (b, h) ← btreeDataPage.contentField p off
  if h = 0 then pure b
  else do
    let b2 ← memBTreeStore.Get h
    pure (b ++ b2)

/-- The page is mutated in place in Go; here the updated page is returned. -/
def btreeDataPage.setContent (p : Bytes) (off : Int) (b : Bytes) : M Bytes := do
  let _ ← sliceFrom p off
  let p0 ← byteAt p off
  let n : Int := b.length
  if p0 ≥ kKV then
    if n < kKV then do
      let p ← setByte p off b.length
      let h ← b2hAt p (off + kH)
      memBTreeStore.Free h
      copyFrom p (off + 1) b
    else do
      let p ← copyTo p (off + 1) (off + 1 + kSz) b
      let h ← b2hAt p (off + kH)
      let t ← sliceFrom b kSz
      memBTreeStore.Realloc h t
      pure p
  else
    if n < kKV then do
      let p ← setByte p off b.length
      copyFrom p (off + 1) b
    else do
      let p ← setByte p off 0xff
      let p ← copyTo p (off + 1) (off + 1 + kSz) b
      let t ← sliceFrom b kSz
      let h ← memBTreeStore.Alloc t
      h2bAt p (off + kH) h

def btreeDataPage.key (p : Bytes) (index : Int) : M Bytes :=
  btreeDataPage.content p (15 + 2 * kKV * index)

def btreeDataPage.value (p : Bytes) (index : Int) : M Bytes :=
  btreeDataPage.content p (15 + kKV + 2 * kKV * index)

/-- Go `append([]byte(nil), b...)`: the nil slice when `b` is empty. -/
def appendNil (b : Bytes) : Option Bytes := if b = [] then none else some b

def btreeDataPage.valueCopy (p : Bytes) (index : Int) : M (Option Bytes) := do
  let b ← btreeDataPage.content p (15 + kKV + 2 * kKV * index)
  pure (appendNil b)

def btreeDataPage.setKey (p : Bytes) (index : Int) (key : Bytes) : M Bytes :=
  btreeDataPage.setContent p (15 + 2 * kKV * index) key

def btreeDataPage.setValue (p : Bytes) (index : Int) (value : Bytes) : M Bytes :=
  btreeDataPage.setContent p (15 + kKV + 2 * kKV * index) value

def btreeDataPage.cmp (p : Bytes) (c : Bytes → Bytes → Int) (keyA : Bytes)
    (keyBIndex : Int) : M Int := do
  let keyB ← btreeDataPage.content p (15 + 2 * kKV * keyBIndex)
  pure (c keyA keyB)

def btreeDataPage.insertItem (p : Bytes) (index : Int) (key value : Bytes) : M Bytes := do
  let p ← btreeDataPage.insert p index
  let di : Int := 15 + 2 * kKV * index
  let sz : Int := 2 * kKV
  let p ← copyTo p di (di + sz) (zeros (2 * kKV))
  let p ← btreeDataPage.setKey p index key
  btreeDataPage.setValue p index value

/-- Returns `(oldValue, p)`. -/
def btreeDataPage.swap (p : Bytes) (di : Int) (value : Bytes) (canOverwrite : Bool) :
    M (Option Bytes × Bytes) := do
  let oldValue ← btreeDataPage.value p di
  if !canOverwrite then pure (some oldValue, p)
  else do
    let p ← btreeDataPage.setValue p di value
    pure (appendNil oldValue, p)

/-- The two `Free` calls of `btreeDataPage.extract`. -/
def btreeDataPage.extractFree (p : Bytes) (index : Int) : M Unit := do
  let (_, h) ← btreeDataPage.keyField p index
  if h ≠ 0 then memBTreeStore.Free h
  let (_, h) ← btreeDataPage.valueField p index
  if h ≠ 0 then memBTreeStore.Free h

/-- Returns `(value, p, err)`; `p` is dirty after extract.  The error is a result and
not a failure, because `btree.extract` and `btree.deleteAny` go on after it. -/
def btreeDataPage.extract (p : Bytes) (index : Int) : M (Option Bytes × Bytes × Option Err) := do
  match ← M.attempt (btreeDataPage.valueCopy p index) with
  | .error e => pure (none, p, some e)
  | .ok value =>
    match ← M.attempt (btreeDataPage.extractFree p index) with
    | .error e => pure (value, p, some e)
    | .ok _ =>
      let n := btreeDataPage.len p - 1
      let p ← (if index < n then btreeDataPage.copy p p index (index + 1) (n - index)
               else pure p)
      let p ← btreeDataPage.setLen p n
      pure (value, p, none)

def btreeIndexPage.cmp (p : Bytes) (c : Bytes → Bytes → Int) (keyA : Bytes)
    (keyBIndex : Int) : M Int := do
  let dh ← btreeIndexPage.dataPage p keyBIndex
  let dp ← memBTreeStore.Get dh
  btreeDataPage.cmp dp c keyA 0

/-! ## btreePage -/

def btreePage.isIndex (p : Bytes) : Except Err Bool := do
  let t ← byteAt p 0
  pure (t = tagBTreeIndexPage)

def btreePage.len (p : Bytes) : Except Err Int := do
  if (← btreePage.isIndex p) then pure (btreeIndexPage.len p) else pure (btreeDataPage.len p)

/-- Go `bytes.Compare`. -/
def bytesCompare : Bytes → Bytes → Int
  | [], [] => 0
  | [], _ :: _ => -1
  | _ :: _, [] => 1
  | a :: as, b :: bs => if a < b then -1 else if b < a then 1 else bytesCompare as bs

/-- The loop body of `btreePage.find`, `fuel` bounding the number of iterations. -/
def btreePage.findLoop (p : Bytes) (isIndex : Bool) (c : Bytes → Bytes → Int) (key : Bytes) :
    Nat → Int → Int → M (Int × Bool)
  | 0, _, _ => M.fail .fuel
  | fuel + 1, l, h =>
    if l ≤ h then do
      let index := (l + h) / 2
      let cmp ← (if isIndex then btreeIndexPage.cmp p c key index
                 else btreeDataPage.cmp p c key index)
      if cmp > 0 then btreePage.findLoop p isIndex c key fuel (index + 1) h
      else if cmp = 0 then pure (index, true)
      else btreePage.findLoop p isIndex c key fuel l (index - 1)
    else pure (l, false)

/-- Binary search; every iteration shrinks `h - l`, so `len + 1` iterations suffice. -/
def btreePage.find (p : Bytes) (c : Option (Bytes → Bytes → Int)) (key : Bytes) :
    M (Int × Bool) := do
  let l : Int := 0
  let h := (← btreePage.len p) - 1
  let isIndex ← btreePage.isIndex p
  let c := match c with
    | none => bytesCompare
    | some c => c
  btreePage.findLoop p isIndex c key (h + 2).toNat l h

def checkSiblings (parent : Nat) (parentIndex : Int) : M (Nat × Nat) := do
  if parentIndex ≥ 0 then do
    let p ← memBTreeStore.Get parent
    let left ← (if parentIndex > 0 then btreeIndexPage.child p (parentIndex - 1) else pure 0)
    let right ← (if parentIndex < btreeIndexPage.len p then
        btreeIndexPage.child p (parentIndex + 1) else pure 0)
    pure (left, right)
  else pure (0, 0)

/-! ## btreeIndexPage: split, underflow, concat -/

/-- Returns `(p, ph, index)`.  Go reads the promoted separator, `p.dataPage(kIndex)`,
after `p.setLen(kIndex)`: the read goes past `len` into the backing array, which
`setLen` kept and which still holds the bytes of before the truncation.  Here it is
read from the page as it was before `setLen`. -/
def btreeIndexPage.split (p : Bytes) (root : Nat) (ph parent : Nat) (parentIndex index : Int) :
    M (Bytes × Nat × Int) := do
  let right ← newBTreeIndexPage 0
  let right ← btreeIndexPage.setLen right kIndex
  let src ← sliceFrom p (1 + 14 * (kIndex + 1))
  let right ← copyTo right 1 (1 + (2 * kIndex + 1) * 7) src
  let sep ← btreeIndexPage.dataPage p kIndex
  let p ← btreeIndexPage.setLen p kIndex
  memBTreeStore.Realloc ph p
  let rh ← memBTreeStore.Alloc right
  if parentIndex ≥ 0 then do
    let pp ← memBTreeStore.Get parent
    let pp ← btreeIndexPage.insert3 pp parentIndex sep rh
    memBTreeStore.Realloc parent pp
  else do
    let nr ← newBTreeIndexPage ph
    let nr ← btreeIndexPage.insert3 nr 0 sep rh
    let nrh ← memBTreeStore.Alloc nr
    let b ← h2b (zeros 7) nrh
    memBTreeStore.Realloc root b
  if index > kIndex then pure (right, rh, index - (kIndex + 1))
  else pure (p, ph, index)

/-- Returns the dirty receiver `p`; must persist all changes made. -/
def btreeIndexPage.concat (p : Bytes) (root iroot parent ph rh : Nat) (parentIndex : Int) :
    M Bytes := do
  let pp ← memBTreeStore.Get parent
  let right ← memBTreeStore.Get rh
  let pc := btreeIndexPage.len p
  let rc := btreeIndexPage.len right
  let p ← btreeIndexPage.setLen p (pc + rc + 1)
  let p ← btreeIndexPage.setDataPage p pc (← btreeIndexPage.dataPage pp parentIndex)
  let di : Int := 1 + 14 * (pc + 1)
  let si : Int := 1 + 0 * 14
  let sz : Int := (2 * rc + 1) * 7
  let p ← copyTo p di (di + sz) (← sliceFrom right si)
  memBTreeStore.Realloc ph p
  memBTreeStore.Free rh
  let pc := btreeIndexPage.len pp
  if pc > 1 then do
    let pp ← (if parentIndex < pc - 1 then do
        let di : Int := 8 + parentIndex * 14
        let si : Int := 8 + (parentIndex + 1) * 14
        let sz : Int := 2 * (pc - 1 - parentIndex) * 7
        copyTo pp di (si + sz) (← sliceFrom pp si)
      else pure pp)
    let pp ← btreeIndexPage.setLen pp (pc - 1)
    memBTreeStore.Realloc parent pp
    pure p
  else do
    memBTreeStore.Free iroot
    let b ← h2b (zeros 7) ph
    memBTreeStore.Realloc root b
    pure p

/-- Returns `(p, ph, index)`; must persist all changes made. -/
def btreeIndexPage.underflow (p : Bytes) (root iroot parent ph : Nat) (parentIndex index : Int) :
    M (Bytes × Nat × Int) := do
  let (lh, rh) ← checkSiblings parent parentIndex
  let left ← (if lh ≠ 0 then memBTreeStore.Get lh else pure [])
  let lc := btreeIndexPage.len left
  if lh ≠ 0 ∧ lc > kIndex then do
    let pp ← memBTreeStore.Get parent
    let pc := btreeIndexPage.len p
    let p ← btreeIndexPage.setLen p (pc + 1)
    let di : Int := 1 + 1 * 14
    let si : Int := 1 + 0 * 14
    let sz : Int := (2 * pc + 1) * 7
    let p ← copyTo p di (di + sz) (← sliceFrom p si)
    let p ← btreeIndexPage.setChild p 0 (← btreeIndexPage.child left lc)
    let p ← btreeIndexPage.setDataPage p 0 (← btreeIndexPage.dataPage pp (parentIndex - 1))
    let index := index + 1
    let pp ← btreeIndexPage.setDataPage pp (parentIndex - 1)
      (← btreeIndexPage.dataPage left (lc - 1))
    let left ← btreeIndexPage.setLen left (lc - 1)
    memBTreeStore.Realloc parent pp
    memBTreeStore.Realloc ph p
    memBTreeStore.Realloc lh left
    pure (p, ph, index)
  else do
    let right ← (if rh ≠ 0 then memBTreeStore.Get rh else pure [])
    let rc := btreeIndexPage.len right
    if rh ≠ 0 ∧ rc > kIndex then do
      let pp ← memBTreeStore.Get parent
      let pc := btreeIndexPage.len p
      let p ← btreeIndexPage.setLen p (pc + 1)
      let p ← btreeIndexPage.setDataPage p pc (← btreeIndexPage.dataPage pp parentIndex)
      let pc := pc + 1
      let p ← btreeIndexPage.setChild p pc (← btreeIndexPage.child right 0)
      let pp ← btreeIndexPage.setDataPage pp parentIndex (← btreeIndexPage.dataPage right 0)
      let di : Int := 1 + 0 * 14
      let si : Int := 1 + 1 * 14
      let sz : Int := (2 * rc + 1) * 7
      let right ← copyTo right di (di + sz) (← sliceFrom right si)
      let right ← btreeIndexPage.setLen right (rc - 1)
      memBTreeStore.Realloc parent pp
      memBTreeStore.Realloc ph p
      memBTreeStore.Realloc rh right
      pure (p, ph, index)
    else if lh ≠ 0 then do
      let index := index + (btreeIndexPage.len left + 1)
      let left ← btreeIndexPage.concat left root iroot parent lh ph (parentIndex - 1)
      pure (left, lh, index)
    else do
      let p ← btreeIndexPage.concat p root iroot parent ph rh parentIndex
      pure (p, ph, index)

/-! ## btreeDataPage: split, overflow, underflow, concat -/

/-- Returns `(p, h)`. -/
def newBTreeDataPageAlloc : M (Bytes × Nat) := do
  let p ← newBTreeDataPage
  let h ← memBTreeStore.Alloc p
  pure (p, h)

def btreeDataPage.split (p : Bytes) (root ph parent : Nat) (parentIndex index : Int)
    (key value : Bytes) : M Unit := do
  let (right, rh) ← newBTreeDataPageAlloc
  let next ← btreeDataPage.next p
  let right ← (if next ≠ 0 then do
      let right ← btreeDataPage.setNext right (← btreeDataPage.next p)
      let nxh ← btreeDataPage.next right
      let nx ← memBTreeStore.Get nxh
      let nx ← btreeDataPage.setPrev nx rh
      memBTreeStore.Realloc nxh nx
      pure right
    else pure right)
  let p ← btreeDataPage.setNext p rh
  let right ← btreeDataPage.setPrev right ph
  let right ← btreeDataPage.setLen right kData
  let right ← btreeDataPage.copy right p 0 kData kData
  let p ← btreeDataPage.setLen p kData
  if parentIndex ≥ 0 then do
    let pp ← memBTreeStore.Get parent
    let pp ← btreeIndexPage.insert3 pp parentIndex rh rh
    memBTreeStore.Realloc parent pp
  else do
    let nr ← newBTreeIndexPage ph
    let nr ← btreeIndexPage.insert3 nr 0 rh rh
    let nrh ← memBTreeStore.Alloc nr
    let b ← h2b (zeros 7) nrh
    memBTreeStore.Realloc root b
  let (p, right) ← (if index > kData then do
      let right ← btreeDataPage.insertItem right (index - kData) key value
      pure (p, right)
    else do
      let p ← btreeDataPage.insertItem p index key value
      pure (p, right))
  memBTreeStore.Realloc ph p
  memBTreeStore.Realloc rh right

def btreeDataPage.overflow (p : Bytes) (root ph parent : Nat) (parentIndex index : Int)
    (key value : Bytes) : M Unit := do
  let (leftH, rightH) ← checkSiblings parent parentIndex
  let left ← (if leftH ≠ 0 then memBTreeStore.Get leftH else pure [])
  if leftH ≠ 0 ∧ btreeDataPage.len left < 2 * kData then do
    let (p, left) ← btreeDataPage.moveLeft p left 1
    memBTreeStore.Realloc leftH left
    let p ← btreeDataPage.insertItem p (index - 1) key value
    memBTreeStore.Realloc ph p
  else do
    let right ← (if rightH ≠ 0 then memBTreeStore.Get rightH else pure [])
    if rightH ≠ 0 ∧ btreeDataPage.len right < 2 * kData then
      if index < 2 * kData then do
        let (p, right) ← btreeDataPage.moveRight p right 1
        memBTreeStore.Realloc rightH right
        let p ← btreeDataPage.insertItem p index key value
        memBTreeStore.Realloc ph p
      else do
        let right ← btreeDataPage.insertItem right 0 key value
        memBTreeStore.Realloc rightH right
    else btreeDataPage.split p root ph parent parentIndex index key value

/-- Must persist all changes made. -/
def btreeDataPage.concat (p : Bytes) (root iroot parent ph rh : Nat) (parentIndex : Int) :
    M Unit := do
  let right ← memBTreeStore.Get rh
  let (right, p) ← btreeDataPage.moveLeft right p (btreeDataPage.len right)
  let nxh ← btreeDataPage.next right
  if nxh ≠ 0 then do
    let nx ← memBTreeStore.Get nxh
    let nx ← btreeDataPage.setPrev nx ph
    memBTreeStore.Realloc nxh nx
  let p ← btreeDataPage.setNext p nxh
  memBTreeStore.Free rh
  let pp ← memBTreeStore.Get parent
  if btreeIndexPage.len pp > 1 then do
    let pp ← btreeIndexPage.extract pp parentIndex
    let pp ← btreeIndexPage.setChild pp parentIndex ph
    memBTreeStore.Realloc parent pp
    memBTreeStore.Realloc ph p
  else do
    memBTreeStore.Free iroot
    memBTreeStore.Realloc ph p
    let b ← h2b (zeros 7) ph
    memBTreeStore.Realloc root b

/-- Must persist all changes made. -/
def btreeDataPage.underflow (p : Bytes) (root iroot parent ph : Nat) (parentIndex : Int) :
    M Unit := do
  let (lh, rh) ← checkSiblings parent parentIndex
  let left ← (if lh ≠ 0 then memBTreeStore.Get lh else pure [])
  if lh ≠ 0 ∧ btreeDataPage.len left + btreeDataPage.len p ≥ 2 * kData then do
    let (left, p) ← btreeDataPage.moveRight left p 1
    memBTreeStore.Realloc lh left
    memBTreeStore.Realloc ph p
  else do
    let right ← (if rh ≠ 0 then memBTreeStore.Get rh else pure [])
    if rh ≠ 0 ∧ btreeDataPage.len p + btreeDataPage.len right > 2 * kData then do
      let (right, p) ← btreeDataPage.moveLeft right p 1
      memBTreeStore.Realloc rh right
      memBTreeStore.Realloc ph p
    else if lh ≠ 0 then do
      let left ← memBTreeStore.Get lh
      memBTreeStore.Realloc ph p
      btreeDataPage.concat left root iroot parent lh ph (parentIndex - 1)
    else btreeDataPage.concat p root iroot parent ph rh parentIndex

/-! ## btree -/

/-- The fuel that bounds a descent: a well-formed tree has one page per level and every
page handle was returned by `Alloc`, so the height is at most the allocation counter. -/
def descentFuel : M Nat := do
  let s ← M.store
  pure (s.h + 1)

def newBTree : M Nat := memBTreeStore.Alloc (zeros 7)

/-- The loop of `btree.get`. -/
def btree.getLoop (c : Option (Bytes → Bytes → Int)) (key : Bytes) : Nat → Nat → M (Option Bytes)
  | 0, _ => M.fail .fuel
  | fuel + 1, ph => do
    let p ← memBTreeStore.Get ph
    let (index, ok) ← btreePage.find p c key
    if ok then
      if (← btreePage.isIndex p) then do
        let dh ← btreeIndexPage.dataPage p index
        let dp ← memBTreeStore.Get dh
        let v ← btreeDataPage.value dp 0
        pure (some v)
      else do
        let v ← btreeDataPage.value p index
        pure (some v)
    else if (← btreePage.isIndex p) then do
      let ph ← btreeIndexPage.child p index
      btree.getLoop c key fuel ph
    else pure none

def btree.get (root : Nat) (c : Option (Bytes → Bytes → Int)) (key : Bytes) :
    M (Option Bytes) := do
  let r ← memBTreeStore.Get root
  let iroot ← b2h r
  if iroot = 0 then pure none
  else btree.getLoop c key (← descentFuel) iroot

/-- The updater of `Put`: `upd(key, old) (new, write, err)`; `old` is `none` for the nil
slice. -/
abbrev Updater := Bytes → Option Bytes → Except Err (Bytes × Bool)

/-- The result of `put2`: `old`, `written`, and (not a Go result) the arguments of every
call of the updater, in order. -/
abbrev PutResult := Option Bytes × Bool × List (Bytes × Option Bytes)

/-- Found `key` in data page `p` (handle `ph`) at `index`: the two `ok` branches of
`put2` run this same code. -/
def btree.put2Found (p : Bytes) (ph : Nat) (index : Int) (key : Bytes) (upd : Updater) :
    M PutResult := do
  let old ← btreeDataPage.valueCopy p index
  let (value, written) ← upd key old
  if !written then pure (old, written, [(key, old)])
  else do
    let (_, p) ← btreeDataPage.swap p index value true
    memBTreeStore.Realloc ph p
    pure (old, written, [(key, old)])

/-- The loop of `btree.put2`. -/
def btree.put2Loop (root : Nat) (c : Option (Bytes → Bytes → Int)) (key : Bytes)
    (upd : Updater) : Nat → Nat → Nat → Int → M PutResult
  | 0, _, _, _ => M.fail .fuel
  | fuel + 1, ph, parent, parentIndex => do
    let p ← memBTreeStore.Get ph
    let (index, ok) ← btreePage.find p c key
    if ok then
      if (← btreePage.isIndex p) then do
        let ph ← btreeIndexPage.dataPage p index
        let p ← memBTreeStore.Get ph
        btree.put2Found p ph 0 key upd
      else btree.put2Found p ph index key upd
    else if (← btreePage.isIndex p) then do
      let (p, ph, index) ← (if (← btreePage.len p) > 2 * kIndex then
          btreeIndexPage.split p root ph parent parentIndex index
        else pure (p, ph, index))
      let parentIndex := index
      let parent := ph
      let ph ← btreeIndexPage.child p index
      btree.put2Loop root c key upd fuel ph parent parentIndex
    else do
      let (value, written) ← upd key none
      if !written then pure (none, written, [(key, none)])
      else if (← btreePage.len p) < 2 * kData then do
        let p ← btreeDataPage.insertItem p index key value
        memBTreeStore.Realloc ph p
        pure (none, written, [(key, none)])
      else do
        btreeDataPage.overflow p root ph parent parentIndex index key value
        pure (none, written, [(key, none)])

def btree.put2 (root : Nat) (c : Option (Bytes → Bytes → Int)) (key : Bytes) (upd : Updater) :
    M PutResult := do
  let r ← memBTreeStore.Get root
  let iroot ← b2h r
  if iroot = 0 then do
    let p ← newBTreeDataPage
    let (value, written) ← upd key none
    if !written then pure (none, written, [(key, none)])
    else do
      let p ← btreeDataPage.insertItem p 0 key value
      let h ← memBTreeStore.Alloc p
      let b ← slice (← h2b r h) 0 7
      memBTreeStore.Realloc root b
      pure (none, written, [(key, none)])
  else btree.put2Loop root c key upd (← descentFuel) iroot 0 (-1)

def btree.put (root : Nat) (c : Option (Bytes → Bytes → Int)) (key value : Bytes)
    (_canOverwrite : Bool) : M (Option Bytes) := do
  let (prev, _, _) ← btree.put2 root c key (fun _ _ => pure (value, true))
  pure prev

/-- The end of `btree.extract` and of `btree.deleteAny` once an item was taken out of the
leaf `p`: returns `true` iff the tree became empty. -/
def btree.afterLeafExtract (p : Bytes) (root iroot parent ph : Nat) (parentIndex : Int) :
    M Bool := do
  if (← btreePage.len p) ≥ kData then do
    memBTreeStore.Realloc ph p
    pure false
  else if ph ≠ iroot then do
    btreeDataPage.underflow p root iroot parent ph parentIndex
    pure false
  else if (← btreePage.len p) = 0 then do
    memBTreeStore.Free ph
    memBTreeStore.Realloc root (zeros 7)
    pure true
  else do
    memBTreeStore.Realloc ph p
    pure false

/-- The loop of `btree.extract`. -/
def btree.extractLoop (root iroot : Nat) (c : Option (Bytes → Bytes → Int)) (key : Bytes) :
    Nat → Nat → Nat → Int → M (Option Bytes)
  | 0, _, _, _ => M.fail .fuel
  | fuel + 1, ph, parent, parentIndex => do
    let p ← memBTreeStore.Get ph
    let (index, ok) ← btreePage.find p c key
    if ok then
      if (← btreePage.isIndex p) then do
        let dph ← btreeIndexPage.dataPage p index
        let dp ← memBTreeStore.Get dph
        if btreeDataPage.len dp > kData then do
          let (value, dp, err) ← btreeDataPage.extract dp 0
          match err with
          | some e => M.fail e
          | none =>
            memBTreeStore.Realloc dph dp
            pure value
        else do
          let (p, ph, index) ← (if btreeIndexPage.len p < kIndex ∧ ph ≠ iroot then
              btreeIndexPage.underflow p root iroot parent ph parentIndex index
            else pure (p, ph, index))
          let parentIndex := index + 1
          let parent := ph
          let ph ← btreeIndexPage.child p parentIndex
          btree.extractLoop root iroot c key fuel ph parent parentIndex
      else do
        let (value, p, _) ← btreeDataPage.extract p index
        let _ ← btree.afterLeafExtract p root iroot parent ph parentIndex
        pure value
    else if !(← btreePage.isIndex p) then pure none
    else do
      let (p, ph, index) ← (if (← btreePage.len p) < kIndex ∧ ph ≠ iroot then
          btreeIndexPage.underflow p root iroot parent ph parentIndex index
        else pure (p, ph, index))
      let parentIndex := index
      let parent := ph
      let ph ← btreeIndexPage.child p index
      btree.extractLoop root iroot c key fuel ph parent parentIndex

def btree.extract (root : Nat) (c : Option (Bytes → Bytes → Int)) (key : Bytes) :
    M (Option Bytes) := do
  let r ← memBTreeStore.Get root
  let iroot ← b2h r
  if iroot = 0 then pure none
  else btree.extractLoop root iroot c key (← descentFuel) iroot 0 (-1)

/-- The loop of `btree.deleteAny`. -/
def btree.deleteAnyLoop (root iroot : Nat) : Nat → Nat → Nat → Int → M Bool
  | 0, _, _, _ => M.fail .fuel
  | fuel + 1, ph, parent, parentIndex => do
    let p ← memBTreeStore.Get ph
    let index := (← btreePage.len p) / 2
    if (← btreePage.isIndex p) then do
      let dph ← btreeIndexPage.dataPage p index
      let dp ← memBTreeStore.Get dph
      if btreeDataPage.len dp > kData then do
        let (_, dp, err) ← btreeDataPage.extract dp 0
        match err with
        | some e => M.fail e
        | none =>
          memBTreeStore.Realloc dph dp
          pure false
      else do
        let (p, ph, index) ← (if btreeIndexPage.len p < kIndex ∧ ph ≠ iroot then
            btreeIndexPage.underflow p root iroot parent ph parentIndex index
          else pure (p, ph, index))
        let parentIndex := index + 1
        let parent := ph
        let ph ← btreeIndexPage.child p parentIndex
        btree.deleteAnyLoop root iroot fuel ph parent parentIndex
    else do
      let (_, p, _) ← btreeDataPage.extract p index
      btree.afterLeafExtract p root iroot parent ph parentIndex

def btree.deleteAny (root : Nat) : M Bool := do
  let r ← memBTreeStore.Get root
  let iroot ← b2h r
  if iroot = 0 then pure true
  else btree.deleteAnyLoop root iroot (← descentFuel) iroot 0 (-1)

/-- The loop of `btree.first`; `p` is `none` for the nil slice. -/
def btree.firstLoop : Nat → Nat → Option Bytes → M (Nat × Option Bytes)
  | 0, _, _ => M.fail .fuel
  | fuel + 1, ph, p =>
    if ph = 0 then pure (ph, p)
    else do
      let p ← memBTreeStore.Get ph
      if !(← btreePage.isIndex p) then pure (ph, some p)
      else do
        let ph ← btreeIndexPage.child p 0
        btree.firstLoop fuel ph (some p)

def btree.first (root : Nat) : M (Nat × Option Bytes) := do
  let r ← memBTreeStore.Get root
  btree.firstLoop ((← descentFuel) + 1) (← b2h r) none

/-- The loop of `btree.last`. -/
def btree.lastLoop : Nat → Nat → Option Bytes → M (Nat × Option Bytes)
  | 0, _, _ => M.fail .fuel
  | fuel + 1, ph, p =>
    if ph = 0 then pure (ph, p)
    else do
      let p ← memBTreeStore.Get ph
      if !(← btreePage.isIndex p) then pure (ph, some p)
      else do
        let ph ← btreeIndexPage.child p (btreeIndexPage.len p)
        btree.lastLoop fuel ph (some p)

def btree.last (root : Nat) : M (Nat × Option Bytes) := do
  let r ← memBTreeStore.Get root
  btree.lastLoop ((← descentFuel) + 1) (← b2h r) none

/-- The loop of `btree.seek`: returns `(p, index, equal)`. -/
def btree.seekLoop (c : Option (Bytes → Bytes → Int)) (key : Bytes) :
    Nat → Nat → Option Bytes → Int → Bool → M (Option Bytes × Int × Bool)
  | 0, _, _, _, _ => M.fail .fuel
  | fuel + 1, ph, p, index, equal =>
    if ph = 0 then pure (p, index, equal)
    else do
      let p ← memBTreeStore.Get ph
      let (index, equal) ← btreePage.find p c key
      if equal then
        if !(← btreePage.isIndex p) then pure (some p, index, equal)
        else do
          let p ← memBTreeStore.Get (← btreeIndexPage.dataPage p index)
          pure (some p, 0, equal)
      else if !(← btreePage.isIndex p) then pure (some p, index, equal)
      else do
        let ph ← btreeIndexPage.child p index
        btree.seekLoop c key fuel ph (some p) index equal

/-- The comment in the source reads `key >= p[index].key`. -/
def btree.seek (root : Nat) (c : Option (Bytes → Bytes → Int)) (key : Bytes) :
    M (Option Bytes × Int × Bool) := do
  let r ← memBTreeStore.Get root
  btree.seekLoop c key ((← descentFuel) + 1) (← b2h r) none 0 false

/-- Go `for i := lo; i < hi; i++ { body(i) }` over a mutable local `x`. -/
def forRange {α : Type} (body : Int → α → M α) : Nat → Int → α → M α
  | 0, _, x => pure x
  | n + 1, i, x => do
    let x ← body i x
    forRange body n (i + 1) x

/-- Recursive post-order free; the result of the recursive calls is dropped, as in the
source. -/
def btree.clear2 : Nat → Nat → M Unit
  | 0, _ => M.fail .fuel
  | fuel + 1, ph => do
    let p ← memBTreeStore.Get ph
    if (← btreePage.isIndex p) then do
      let _ ← forRange (fun i _ => do
          let _ ← M.attempt (btree.clear2 fuel (← btreeIndexPage.child p i))
          pure ()) (btreeIndexPage.len p + 1).toNat 0 ()
      pure ()
    else do
      let _ ← forRange (fun i dp => do
          let dp ← btreeDataPage.setKey dp i []
          btreeDataPage.setValue dp i []) (btreeDataPage.len p).toNat 0 p
      pure ()
    memBTreeStore.Free ph

def btree.clear (root : Nat) : M Unit := do
  let r ← memBTreeStore.Get root
  let iroot ← b2h r
  if iroot = 0 then pure ()
  else do
    btree.clear2 (← descentFuel) iroot
    memBTreeStore.Realloc root (zeros 7)

/-! ## BTree: the public methods

A Go `*BTree` receiver is an `Option BTree`, `none` being the nil pointer.  A method that
mutates the tree returns the tree next to its result: the store of the tree is what the
method left behind, also when it returns an error. -/

structure BTree where
  store : memBTreeStore
  root : Nat
  collate : Option (Bytes → Bytes → Int)

/-- Runs a store computation on the store of a tree. -/
def BTree.run {α : Type} (t : BTree) (x : M α) : Except Err α × BTree :=
  match x t.store with
  | (r, s) => (r, { t with store := s })

/-- A new, memory-only BTree.  `newBTree` cannot fail on a memory store. -/
def NewBTree (collate : Option (Bytes → Bytes → Int)) : BTree :=
  match newBTree newMemBTreeStore with
  | (.ok root, s) => ⟨s, root, collate⟩
  | (.error _, s) => ⟨s, 0, collate⟩

def BTree.Clear : Option BTree → Except Err Unit × Option BTree
  | none => (.error .nilReceiver, none)
  | some t => let (r, t) := t.run (btree.clear t.root); (r, some t)

def BTree.Delete (t : Option BTree) (key : Bytes) : Except Err Unit × Option BTree :=
  match t with
  | none => (.error .nilReceiver, none)
  | some t =>
    let (r, t) := t.run (btree.extract t.root t.collate key)
    (r.map (fun _ => ()), some t)

def BTree.DeleteAny : Option BTree → Except Err Bool × Option BTree
  | none => (.error .nilReceiver, none)
  | some t => let (r, t) := t.run (btree.deleteAny t.root); (r, some t)

def BTree.Extract (t : Option BTree) (key : Bytes) : Except Err (Option Bytes) × Option BTree :=
  match t with
  | none => (.error .nilReceiver, none)
  | some t => let (r, t) := t.run (btree.extract t.root t.collate key); (r, some t)

/-- Returns `(key, value)`, `none` for nil. -/
def BTree.First : Option BTree → Except Err (Option Bytes × Option Bytes)
  | none => .error .nilReceiver
  | some t =>
    (t.run (do
      let (_, p) ← btree.first t.root
      match p with
      | none => pure (none, none)
      | some p => do
        let key ← btreeDataPage.key p 0
        let value ← btreeDataPage.value p 0
        pure (some key, some value))).1

def BTree.Get (t : Option BTree) (key : Bytes) : Except Err (Option Bytes) :=
  match t with
  | none => .error .nilReceiver
  | some t => (t.run (btree.get t.root t.collate key)).1

def BTree.Last : Option BTree → Except Err (Option Bytes × Option Bytes)
  | none => .error .nilReceiver
  | some t =>
    (t.run (do
      let (_, p) ← btree.last t.root
      match p with
      | none => pure (none, none)
      | some p => do
        let index := btreeDataPage.len p - 1
        let key ← btreeDataPage.key p index
        let value ← btreeDataPage.value p index
        pure (some key, some value))).1

/-- Returns `(old, written)` and the log of updater calls of `PutResult`. -/
def BTree.Put (t : Option BTree) (key : Bytes) (upd : Updater) :
    Except Err PutResult × Option BTree :=
  match t with
  | none => (.error .nilReceiver, none)
  | some t => let (r, t) := t.run (btree.put2 t.root t.collate key upd); (r, some t)

def BTree.Set (t : Option BTree) (key value : Bytes) : Except Err Unit × Option BTree :=
  match t with
  | none => (.error .nilReceiver, none)
  | some t =>
    let (r, t) := t.run (btree.put t.root t.collate key value true)
    (r.map (fun _ => ()), some t)

/-- A closure of a BTree and a position.  `a` is the store of the tree, which the
enumerator shares with it; the enumerator cannot be used after its tree was mutated, so
the store it was created with is the store it reads. -/
structure BTreeEnumerator where
  a : memBTreeStore
  collate : Option (Bytes → Bytes → Int)
  p : Option Bytes
  index : Int

/-- Returns `(enum, hit)`. -/
def BTree.Seek (t : Option BTree) (key : Bytes) : Except Err (BTreeEnumerator × Bool) :=
  match t with
  | none => .error .nilReceiver
  | some t =>
    match (t.run (btree.seek t.root t.collate key)).1 with
    | .error e => .error e
    | .ok (p, index, hit) => .ok (⟨t.store, t.collate, p, index⟩, hit)

def BTree.SeekFirst : Option BTree → Except Err BTreeEnumerator
  | none => .error .nilReceiver
  | some t =>
    match (t.run (btree.first t.root)).1 with
    | .error e => .error e
    | .ok (_, none) => .error .eof
    | .ok (_, some p) => .ok ⟨t.store, t.collate, some p, 0⟩

def BTree.SeekLast : Option BTree → Except Err BTreeEnumerator
  | none => .error .nilReceiver
  | some t =>
    match (t.run (btree.last t.root)).1 with
    | .error e => .error e
    | .ok (_, none) => .error .eof
    | .ok (_, some p) => .ok ⟨t.store, t.collate, some p, btreeDataPage.len p - 1⟩

/-- Returns `(key, value)`. -/
def BTreeEnumerator.Current : Option BTreeEnumerator → Except Err (Bytes × Bytes)
  | none => .error .nilReceiver
  | some e =>
    match e.p with
    | none => .error .eof
    | some p =>
      if e.index = btreeDataPage.len p then .error .eof
      else
        ((do
          let key ← btreeDataPage.key p e.index
          let value ← btreeDataPage.value p e.index
          pure (key, value) : M (Bytes × Bytes)) e.a).1

/-- Returns the error, if any, and the enumerator as the call left it. -/
def BTreeEnumerator.Next : Option BTreeEnumerator → Option Err × Option BTreeEnumerator
  | none => (some .nilReceiver, none)
  | some e =>
    match e.p with
    | none => (some .eof, some e)
    | some p =>
      if e.index < btreeDataPage.len p - 1 then (none, some { e with index := e.index + 1 })
      else
        match btreeDataPage.next p with
        | .error err => (some err, some e)
        | .ok ph =>
          if ph = 0 then (some .eof, some e)
          else
            match (memBTreeStore.Get ph e.a).1 with
            | .error err => (some err, some { e with p := none })
            | .ok q => (none, some { e with p := some q, index := 0 })

/-- Returns the error, if any, and the enumerator as the call left it. -/
def BTreeEnumerator.Prev : Option BTreeEnumerator → Option Err × Option BTreeEnumerator
  | none => (some .nilReceiver, none)
  | some e =>
    match e.p with
    | none => (some .eof, some e)
    | some p =>
      if e.index > 0 then (none, some { e with index := e.index - 1 })
      else
        match btreeDataPage.prev p with
        | .error err => (some err, some e)
        | .ok ph =>
          if ph = 0 then (some .eof, some e)
          else
            match (memBTreeStore.Get ph e.a).1 with
            | .error err => (some err, some { e with p := none })
            | .ok q => (none, some { e with p := some q, index := btreeDataPage.len q - 1 })

/-! ## Concrete trees used by the evaluated theorems -/

deriving instance DecidableEq for Except

/-- `Set` every pair of the list, in order. -/
def setAll (t : Option BTree) : List (Bytes × Bytes) → Option BTree
  | [] => t
  | (k, v) :: r => setAll (BTree.Set t k v).2 r

/-- A memory tree holding the one key `[1]` with the empty value. -/
def emptyValueTree : Option BTree := setAll (some (NewBTree none)) [([1], [])]

/-- An updater that never writes. -/
def neverWrite : Updater := fun _ _ => .ok ([], false)

/-- The two-byte big-endian key `2 * i`. -/
def evenKey (i : Nat) : Bytes := [2 * i / 256, 2 * i % 256]

/-- The item of a data page holding key `evenKey i` and value `[1]`, both inline. -/
def evenSlot (i : Nat) : Bytes := [2] ++ evenKey i ++ zeros 16 ++ [1, 1] ++ zeros 17

/-- The data page with links `prev`, `next` and the items of keys `evenKey lo`, ...,
`evenKey (lo + n - 1)`. -/
def evenLeaf (prev next lo n : Nat) : Bytes :=
  [tagBTreeDataPage] ++ h2bBytes prev ++ h2bBytes next ++
    ((List.range n).map (fun i => evenSlot (lo + i))).flatten

/-- The memory tree after `Set(evenKey i, [1])` for `i = 0, ..., 512`, in this order: the
513th `Set` splits the root leaf (handle 2, keys 0..510) and leaves the keys 512..1024 in
the new leaf (handle 3) under a new root index page (handle 4). -/
def twoLeafTree : Option BTree :=
  some ⟨⟨4, [(3, evenLeaf 2 0 256 257), (2, evenLeaf 0 3 0 256), (1, h2bBytes 4),
             (4, [tagBTreeIndexPage] ++ h2bBytes 2 ++ h2bBytes 3 ++ h2bBytes 3)]⟩, 1, none⟩

/-- What `Current` returns right after `Seek(key)`. -/
def seekCurrent (t : Option BTree) (key : Bytes) : Except Err (Bytes × Bytes) :=
  match BTree.Seek t key with
  | .error e => .error e
  | .ok (e, _) => BTreeEnumerator.Current (some e)

/-- What `Current` returns after `Seek(key)` and one `Next`. -/
def seekNextCurrent (t : Option BTree) (key : Bytes) : Except Err (Bytes × Bytes) :=
  match BTree.Seek t key with
  | .error e => .error e
  | .ok (e, _) => BTreeEnumerator.Current (BTreeEnumerator.Next (some e)).2

/-! ## BTree: the methods without a nil check of their own

`IsMem` and `Handle` read a field of the receiver at once; on the nil receiver that is a
nil dereference, `Err.panic` here.  `Dump` starts with `t.SeekFirst()`, which checks the
receiver. -/

/-- Reports if `t` is a memory only BTree.  The only store of this development is the
memory store. -/
def BTree.IsMem : Option BTree → Except Err Bool
  | none => .error .panic
  | some _ => .ok true

/-- Reports the handle of `t`. -/
def BTree.Handle : Option BTree → Except Err Nat
  | none => .error .panic
  | some t => .ok t.root

/-- The part of `Dump` that renders one decoded key or value: the list of its rendered
scalars, `["null"]` for a nil one. -/
def dumpElems : Option (List String) → List String
  | none => ["null"]
  | some l => l

/-- The loop of `Dump`.  `decode` stands for `DecodeScalars` followed by `elem` on every
scalar (`none` for a nil result), `w` for the writer, which returns its error if any.
Returns the error of `Dump` and the lines written. -/
def BTree.dumpLoop (decode : Bytes → Except Err (Option (List String)))
    (w : String → Option Err) :
    Nat → Option BTreeEnumerator → List String → Option Err × List String
  | 0, _, out => (some .fuel, out)
  | fuel + 1, enum, out =>
    match BTreeEnumerator.Current enum with
    | .error err => (some err, out)
    | .ok (bkey, bval) =>
      match decode bkey with
      | .error err => (some err, out)
      | .ok key =>
        match decode bval with
        | .error err => (some err, out)
        | .ok val =>
          let kk := dumpElems key
          let vv := dumpElems val
          let skey := ", ".intercalate kk
          let sval := ", ".intercalate vv
          let sval := if vv.length > 1 then "[]interface\x7b" ++ sval ++ "\x7d" else sval
          let line := skey ++ " → " ++ sval ++ "\n"
          match w line with
          | some err => (some err, out)
          | none =>
            match BTreeEnumerator.Next enum with
            | (some .eof, _) => (none, out ++ [line])
            | (some err, _) => (some err, out ++ [line])
            | (none, enum) => BTree.dumpLoop decode w fuel enum (out ++ [line])

/-- Every pair of a tree takes at least one byte of its store: the bytes of the store
bound the number of turns of the loop of `Dump`. -/
def dumpFuel (s : memBTreeStore) : Nat := (s.m.map (fun e => e.2.length)).sum + 1

/-- Outputs a dump of `t` to `w`; the error of `SeekFirst` is returned as it is. -/
def BTree.Dump (t : Option BTree) (decode : Bytes → Except Err (Option (List String)))
    (w : String → Option Err) : Option Err × List String :=
  match BTree.SeekFirst t with
  | .error err => (some err, [])
  | .ok enum => BTree.dumpLoop decode w (dumpFuel enum.a) (some enum) []

/-! ## Specification vocabulary: page encodings -/

/-- An item of a data page: its key field and its value field, `kKV` bytes each. -/
abbrev Slot := Bytes × Bytes

/-- The bytes of an item. -/
def Slot.bytes (x : Slot) : Bytes := x.1 ++ x.2

/-- The bytes of the data page with links `prev`, `next` and items `S`. -/
def encD (prev next : Nat) (S : List Slot) : Bytes :=
  tagBTreeDataPage :: (h2bBytes prev ++ (h2bBytes next ++ (S.map Slot.bytes).flatten))

/-- The bytes of an index-page entry: separator data page, then child. -/
def entryBytes (e : Nat × Nat) : Bytes := h2bBytes e.1 ++ h2bBytes e.2

/-- The bytes of the index page with leftmost child `c0` and entries `E`. -/
def encI (c0 : Nat) (E : List (Nat × Nat)) : Bytes :=
  tagBTreeIndexPage :: (h2bBytes c0 ++ (E.map entryBytes).flatten)

/-- Every field of every item has `kKV` bytes. -/
def SlotsLen (S : List Slot) : Prop := ∀ x ∈ S, x.1.length = 19 ∧ x.2.length = 19

/-- The item `insertItem` starts from. -/
def zeroSlot : Slot := (zeros 19, zeros 19)

/-- The handle in the first 7 bytes of `b`, without the bounds check of `b2h`. -/
def b2hN (b : Bytes) : Nat := (b.take 7).foldl (fun h v => h * 256 + v) 0

/-- The bytes of the index page whose handles, in page order (child 0, separator 0,
child 1, separator 1, ...), are `hs`. -/
def encH (hs : List Nat) : Bytes := tagBTreeIndexPage :: (hs.map h2bBytes).flatten

/-! ## Specification vocabulary: content fields -/

/-- The overflow handle of a content field, 0 for an inline field. -/
def fieldH (f : Bytes) : Nat := if f.headD 0 ≥ 19 then b2hN (f.drop 12) else 0

/-- The bytes of the content that the field itself holds. -/
def fieldB (f : Bytes) : Bytes :=
  if f.headD 0 ≥ 19 then (f.drop 1).take 11 else (f.drop 1).take (f.headD 0)

/-- The content of a field, the overflow blob read in the map `m`. -/
def fieldVal (m : List (Nat × Bytes)) (f : Bytes) : Bytes :=
  if fieldH f = 0 then fieldB f else fieldB f ++ (mget m (fieldH f)).getD []

/-- A well-formed field: `kKV` bytes, inline or with a live overflow blob. -/
def FieldOk (m : List (Nat × Bytes)) (f : Bytes) : Prop :=
  f.length = 19 ∧ (f.headD 0 < 19 ∨ (fieldH f ≠ 0 ∧ (mget m (fieldH f)).isSome = true))

/-- The field after an inline write of `b` over the field `f`. -/
def fieldSetInline (f b : Bytes) : Bytes := b.length :: (b ++ f.drop (1 + b.length))

/-- The field after an overflow write of `b` with the overflow handle bytes `hb`. -/
def fieldSetOv (t : Nat) (b hb : Bytes) : Bytes := t :: (b.take 11 ++ hb)

/-- What `setContent` leaves behind when it writes `b` over the field `f`: the new field and
the new store. -/
def setField (s : memBTreeStore) (f b : Bytes) : Bytes × memBTreeStore :=
  if f.headD 0 ≥ 19 then
    if b.length < 19 then (fieldSetInline f b, ⟨s.h, mdel s.m (fieldH f)⟩)
    else (fieldSetOv (f.headD 0) b (f.drop 12), ⟨s.h, mset s.m (fieldH f) (b.drop 11)⟩)
  else
    if b.length < 19 then (fieldSetInline f b, s)
    else (fieldSetOv 255 b (h2bBytes (s.h + 1)), ⟨s.h + 1, mset s.m (s.h + 1) (b.drop 11)⟩)

/-! ## Specification vocabulary: comparators -/

/-- The comparator a tree uses: `bytes.Compare` when `collate` is nil. -/
def cmpOf (collate : Option (Bytes → Bytes → Int)) : Bytes → Bytes → Int :=
  match collate with
  | none => bytesCompare
  | some c => c

/-- A total-order comparator: `c a b < 0` reads `a < b`, `c a b = 0` reads "`a` and `b`
compare equal"; the order is total and transitive. -/
structure TotalCmp (c : Bytes → Bytes → Int) : Prop where
  antisymm : ∀ a b, c a b < 0 ↔ 0 < c b a
  le_trans : ∀ a b d, c a b ≤ 0 → c b d ≤ 0 → c a d ≤ 0

/-! ## A client of the public methods

A client holds a tree and the enumerator of its last `Seek`, `SeekFirst` or `SeekLast`
(nil after one that failed), and calls the public methods one after the other. -/

/-- One call of a public method. -/
inductive Op where
  | isMem
  | clear
  | delete (key : Bytes)
  | deleteAny
  | dump (decode : Bytes → Except Err (Option (List String))) (w : String → Option Err)
  | extract (key : Bytes)
  | first
  | get (key : Bytes)
  | handle
  | last
  | put (key : Bytes) (upd : Updater)
  | seek (key : Bytes)
  | seekFirst
  | seekLast
  | set (key value : Bytes)
  | current
  | next
  | prev

/-- What a call returns to the client, an enumerator apart: the enumerator goes to the
variable of the client. -/
inductive Res where
  | unit (r : Except Err Unit)
  | flag (r : Except Err Bool)
  | handle (r : Except Err Nat)
  | value (r : Except Err (Option Bytes))
  | pair (r : Except Err (Option Bytes × Option Bytes))
  | put (r : Except Err PutResult)
  | current (r : Except Err (Bytes × Bytes))
  | err (r : Option Err)
  | dump (r : Option Err × List String)

structure Client where
  t : Option BTree
  e : Option BTreeEnumerator

/-- The error of an `Except`, if any. -/
def errOf {α : Type} : Except Err α → Option Err
  | .error e => some e
  | .ok _ => none

def Client.step (c : Client) : Op → Res × Client
  | .isMem => (.flag (BTree.IsMem c.t), c)
  | .clear => (.unit (BTree.Clear c.t).1, { c with t := (BTree.Clear c.t).2 })
  | .delete key => (.unit (BTree.Delete c.t key).1, { c with t := (BTree.Delete c.t key).2 })
  | .deleteAny => (.flag (BTree.DeleteAny c.t).1, { c with t := (BTree.DeleteAny c.t).2 })
  | .dump decode w => (.dump (BTree.Dump c.t decode w), c)
  | .extract key =>
    (.value (BTree.Extract c.t key).1, { c with t := (BTree.Extract c.t key).2 })
  | .first => (.pair (BTree.First c.t), c)
  | .get key => (.value (BTree.Get c.t key), c)
  | .handle => (.handle (BTree.Handle c.t), c)
  | .last => (.pair (BTree.Last c.t), c)
  | .put key upd => (.put (BTree.Put c.t key upd).1, { c with t := (BTree.Put c.t key upd).2 })
  | .seek key =>
    match BTree.Seek c.t key with
    | .error err => (.flag (.error err), { c with e := none })
    | .ok (e, hit) => (.flag (.ok hit), { c with e := some e })
  | .seekFirst =>
    match BTree.SeekFirst c.t with
    | .error err => (.err (some err), { c with e := none })
    | .ok e => (.err none, { c with e := some e })
  | .seekLast =>
    match BTree.SeekLast c.t with
    | .error err => (.err (some err), { c with e := none })
    | .ok e => (.err none, { c with e := some e })
  | .set key value =>
    (.unit (BTree.Set c.t key value).1, { c with t := (BTree.Set c.t key value).2 })
  | .current => (.current (BTreeEnumerator.Current c.e), c)
  | .next => (.err (BTreeEnumerator.Next c.e).1, { c with e := (BTreeEnumerator.Next c.e).2 })
  | .prev => (.err (BTreeEnumerator.Prev c.e).1, { c with e := (BTreeEnumerator.Prev c.e).2 })

/-- The results of a sequence of calls, in order, and the client they leave. -/
def Client.run (c : Client) : List Op → List Res × Client
  | [] => ([], c)
  | op :: ops =>
    let (r, c) := c.step op
    let (rs, c) := c.run ops
    (r :: rs, c)

/-- The tree of store `s` and root `root` whose comparator is `collate`, and no
enumerator yet. -/
def clientOf (s : memBTreeStore) (root : Nat) (collate : Option (Bytes → Bytes → Int)) :
    Client :=
  ⟨some ⟨s, root, collate⟩, none⟩

/-- The store of the tree of a client, if the tree is not nil. -/
def Client.store (c : Client) : Option memBTreeStore := c.t.map (fun t => t.store)

/-- Two enumerators that differ at most in the comparator they carry. -/
def enumSim : Option BTreeEnumerator → Option BTreeEnumerator → Prop
  | none, none => True
  | some e1, some e2 => e1.a = e2.a ∧ e1.p = e2.p ∧ e1.index = e2.index
  | _, _ => False

/-- Two clients that differ at most in the comparator: that of the first is nil, that of
the second is `bytesCompare`. -/
def Client.sim (c1 c2 : Client) : Prop :=
  (∃ s r, c1.t = some ⟨s, r, none⟩ ∧ c2.t = some ⟨s, r, some bytesCompare⟩) ∧
    enumSim c1.e c2.e

/-- The blob stored at the root handle of a tree, if any. -/
def BTree.rootBlob (t : Option BTree) : Option Bytes :=
  t.bind (fun t => mget t.store.m t.root)

/-! ## Specification vocabulary: trees

A tree is described by the list of its leaves, in chain order, and by the index pages
above them.  An index page refers to its separators by the handle of a leaf, so the index
structure is described over leaf handles alone. -/

/-- The blobs of a store. -/
abbrev Blobs := List (Nat × Bytes)

/-- A leaf: the handle of a data page and its items. -/
structure Leaf where
  h : Nat
  S : List Slot

/-- The handle of the first leaf of `G`, `nx` if there is none. -/
def headH (G : List Leaf) (nx : Nat) : Nat :=
  match G with
  | [] => nx
  | l :: _ => l.h

/-- The handle of the last leaf of `G`, `pv` if there is none. -/
def lastH (pv : Nat) : List Leaf → Nat
  | [] => pv
  | l :: ls => lastH l.h ls

/-- The data pages of the leaves `G` are in `m`, doubly linked in this order, after the
leaf `pv` and before the leaf `nx` (0 for none). -/
def Chain (m : Blobs) : Nat → List Leaf → Nat → Prop
  | _, [], _ => True
  | pv, l :: ls, nx => mget m l.h = some (encD pv (headH ls nx) l.S) ∧ Chain m l.h ls nx

/-- The key and the value of an item. -/
def slotKV (m : Blobs) (x : Slot) : Bytes × Bytes := (fieldVal m x.1, fieldVal m x.2)

/-- The pairs of the leaves `G`, in order. -/
def kvs (m : Blobs) (G : List Leaf) : List (Bytes × Bytes) :=
  G.flatMap (fun l => l.S.map (slotKV m))

/-- The overflow handles of an item. -/
def slotOv (x : Slot) : List Nat := [fieldH x.1, fieldH x.2].filter (fun h => h ≠ 0)

/-- The overflow handles of the leaves `G`. -/
def ovs (G : List Leaf) : List Nat := G.flatMap (fun l => l.S.flatMap slotOv)

/-- A child of an index page: its handle, the handles of the leaves under it and the
handles of the index pages under it (itself included). -/
abbrev Kid := Nat × List Nat × List Nat

/-- The separator and child handles of the entries of an index page whose children,
the leftmost apart, are `cs`: the separator of a child is its leftmost leaf. -/
def sepsOf (cs : List Kid) : List Nat := cs.flatMap (fun c => [c.2.1.headD 0, c.1])

/-- The handles of an index page of children `kids`, in page order. -/
def hsOf : List Kid → List Nat
  | [] => []
  | k :: ks => k.1 :: sepsOf ks

/-- The leaves under the children `kids`. -/
def frOf (kids : List Kid) : List Nat := (kids.map (fun k => k.2.1)).flatten

/-- The index pages under the children `kids`. -/
def ixOf (kids : List Kid) : List Nat := (kids.map (fun k => k.2.2)).flatten

/-- The page `ph` is the root of a subtree of `d` index levels whose leaves are `F` and
whose index pages are `I`; the page `ph` itself has between `lo` and `hi` entries, the
index pages below it between `kIndex - 1` and `2 * kIndex + 1`. -/
def Idx (m : Blobs) : Nat → Nat → Nat → Nat → List Nat → List Nat → Prop
  | _, _, 0, ph, F, I => F = [ph] ∧ I = []
  | lo, hi, d + 1, ph, F, I =>
    ∃ kids : List Kid, mget m ph = some (encH (hsOf kids)) ∧
      lo + 1 ≤ kids.length ∧ kids.length ≤ hi + 1 ∧
      F = frOf kids ∧ I = ph :: ixOf kids ∧
      ∀ k ∈ kids, Idx m (kIndex - 1) (2 * kIndex + 1) d k.1 k.2.1 k.2.2

/-- The handles of a tree, or of a part of it: the handles `O` (root record, other
index pages), the index pages `I`, the leaves `G` and their overflow blobs. -/
def handles (O I : List Nat) (G : List Leaf) : Multiset Nat :=
  (O : Multiset Nat) + (I : Multiset Nat) + ((G.map Leaf.h : List Nat) : Multiset Nat) +
    (ovs G : Multiset Nat)

/-- The handles `M` are distinct, were returned by `Alloc`, and are the blobs of the
store. -/
structure CtxM (s : memBTreeStore) (M : Multiset Nat) : Prop where
  nodup : M.Nodup
  bound : ∀ h ∈ M, 0 < h ∧ h ≤ s.h
  live : ∀ h, (mget s.m h).isSome = true → h ∈ M

/-- The handles of a tree are distinct, were returned by `Alloc`, and are the blobs of
the store. -/
abbrev Ctx (s : memBTreeStore) (O I : List Nat) (G : List Leaf) : Prop :=
  CtxM s (handles O I G)

/-- The overflow handle of a field, if it has one. -/
def ovF (f : Bytes) : List Nat := if fieldH f = 0 then [] else [fieldH f]

/-- The leaves of a tree: chained, every field well formed, keys strictly ascending,
between `lo` and `2 * kData` items per leaf. -/
structure LeavesOk (m : Blobs) (c : Bytes → Bytes → Int) (lo : Nat) (G : List Leaf) :
    Prop where
  chain : Chain m 0 G 0
  fields : ∀ l ∈ G, ∀ x ∈ l.S, FieldOk m x.1 ∧ FieldOk m x.2
  sorted : ((kvs m G).map Prod.fst).Pairwise (fun a b => c a b < 0)
  occ : ∀ l ∈ G, lo ≤ l.S.length ∧ l.S.length ≤ 2 * kData

/-- The non-empty tree of root record `root`: `d` index levels, internal root `iroot`,
index pages `I`, leaves `G`. -/
structure TreeOk (s : memBTreeStore) (root : Nat) (c : Bytes → Bytes → Int) (d iroot : Nat)
    (I : List Nat) (G : List Leaf) : Prop where
  hroot : mget s.m root = some (h2bBytes iroot)
  idx : Idx s.m 1 (2 * kIndex + 1) d iroot (G.map Leaf.h) I
  leaves : LeavesOk s.m c (if d = 0 then 1 else kData) G
  ctx : Ctx s [root] I G
  hlt : s.h < 2 ^ 56

/-- The empty tree of root record `root`: the root record is the one blob of the
store. -/
structure EmptyOk (s : memBTreeStore) (root : Nat) : Prop where
  hroot : mget s.m root = some (zeros 7)
  bound : 0 < root ∧ root ≤ s.h
  hlt : s.h < 2 ^ 56
  live : ∀ h, (mget s.m h).isSome = true → h = root

/-- The store `s` holds, under the root record `root`, a well-formed tree whose pairs are
`K`, in ascending order of the keys. -/
def Rep (s : memBTreeStore) (root : Nat) (c : Bytes → Bytes → Int)
    (K : List (Bytes × Bytes)) : Prop :=
  (K = [] ∧ EmptyOk s root) ∨
  ∃ d iroot I G, TreeOk s root c d iroot I G ∧ K = kvs s.m G

/-- The value of `key` in the pairs `K`, `none` if no key of `K` compares equal to
`key`. -/
def lookupK (c : Bytes → Bytes → Int) (K : List (Bytes × Bytes)) (key : Bytes) :
    Option Bytes :=
  (K.find? (fun kv => c key kv.1 = 0)).map Prod.snd

/-- The keys of the items `S`. -/
def keysOf (m : Blobs) (S : List Slot) : List Bytes := S.map (fun x => fieldVal m x.1)

/-- Every field of the items `S` is well formed. -/
def FieldsOk (m : Blobs) (S : List Slot) : Prop := ∀ x ∈ S, FieldOk m x.1 ∧ FieldOk m x.2

/-- The blob `h` is a data page whose first key is `k`. -/
def LeafKey0 (m : Blobs) (h : Nat) (k : Bytes) : Prop :=
  ∃ pv nx kf vf rest, mget m h = some (encD pv nx ((kf, vf) :: rest)) ∧ FieldOk m kf ∧
    fieldVal m kf = k

/-- What `find` returns for `key` on a page of `n` keys, key `i` being `K i`: an index
and whether the key there compares equal to `key`; if none does, the index is the
insertion point. -/
def FindSpec (c : Bytes → Bytes → Int) (key : Bytes) (K : Nat → Bytes) (n : Nat) (j : Nat)
    (ok : Bool) : Prop :=
  j ≤ n ∧ (ok = true → j < n ∧ c key (K j) = 0) ∧
    (ok = false → (∀ i, i < j → 0 < c key (K i)) ∧ (∀ i, j ≤ i → i < n → c key (K i) < 0))

/-- The keys of the leaves `G`, in order. -/
def keysG (m : Blobs) (G : List Leaf) : List Bytes := (kvs m G).map Prod.fst

/-- The first key of the leaves `G`. -/
def minKey (m : Blobs) (G : List Leaf) : Bytes := (keysG m G).headD []

/-- The leaves under the children of an index page, child by child. -/
structure Parts (kids : List Kid) (parts : List (List Leaf)) : Prop where
  map : parts.map (List.map Leaf.h) = kids.map (fun k => k.2.1)
  ne : ∀ P ∈ parts, P ≠ []

/-- The items of the leaves `G`, in order. -/
def slots (G : List Leaf) : List Slot := G.flatMap Leaf.S

/-- The overflow handles of the items `S`. -/
def ovsS (S : List Slot) : List Nat := S.flatMap slotOv

/-- The item that `insertItem` writes for `key` and `value` on the store `s`, and the
store it leaves. -/
def newItem (s : memBTreeStore) (key value : Bytes) : Slot × memBTreeStore :=
  (((setField s (zeros 19) key).1, (setField (setField s (zeros 19) key).2 (zeros 19) value).1),
    (setField (setField s (zeros 19) key).2 (zeros 19) value).2)

/-! ## Specification vocabulary: the pairs of a tree after `Put` -/

/-- The pairs `K`, in ascending order of the keys, after the value of `key` was set to
`v`: the pair of a key that compares equal keeps its key and has the value `v`;
otherwise the pair of `key` and `v` is put before the first greater key. -/
def upsertK (c : Bytes → Bytes → Int) : List (Bytes × Bytes) → Bytes → Bytes →
    List (Bytes × Bytes)
  | [], key, v => [(key, v)]
  | (k1, v1) :: r, key, v =>
    if c key k1 < 0 then (key, v) :: (k1, v1) :: r
    else if c key k1 = 0 then (k1, v) :: r
    else (k1, v1) :: upsertK c r key v

/-- The value that `put2` hands to the updater and returns as `old`: the value of `key`
in the pairs `K` through `valueCopy`, nil for an absent key. -/
def oldOf (c : Bytes → Bytes → Int) (K : List (Bytes × Bytes)) (key : Bytes) : Option Bytes :=
  (lookupK c K key).bind appendNil

/-- What `put2` returns on a tree of pairs `K` and the pairs `K2` it leaves: the updater
is called once with `key` and the old value; the pairs change only if the updater asks
for a write. -/
def PutSpec (c : Bytes → Bytes → Int) (K K2 : List (Bytes × Bytes)) (key : Bytes)
    (upd : Updater) (r : Except Err PutResult) : Prop :=
  match upd key (oldOf c K key) with
  | .error e => r = .error e ∧ K2 = K
  | .ok (v, w) =>
    r = .ok (oldOf c K key, w, [(key, oldOf c K key)]) ∧
      K2 = if w then upsertK c K key v else K

/-- What `put2Loop` leaves behind when it is run on the child `k` of the page `P`, between
the children `pre` and `post`, the leaves of the tree being `GA ++ Gk ++ GB` with `Gk`
under `k`: the child is still there or was split (`n` children in its place at most), the
leaves before and after it are the same pages, the tree is well formed, the pages outside
are untouched, and the pairs are those that `PutSpec` describes. -/
def PutPost (c : Bytes → Bytes → Int) (key : Bytes) (upd : Updater) (s : memBTreeStore)
    (O : List Nat) (P : Nat) (pre post : List Kid) (k : Kid) (GA Gk GB : List Leaf) (d n : Nat)
    (r : Except Err PutResult) (s2 : memBTreeStore) : Prop :=
  ∃ (ks : List Kid) (GA2 Gk2 GB2 : List Leaf),
    mget s2.m P = some (encH (hsOf (pre ++ ks ++ post))) ∧
    1 ≤ ks.length ∧ ks.length ≤ n ∧
    (ks.head?).map Prod.fst = some k.1 ∧ (frOf ks).headD 0 = k.2.1.headD 0 ∧
    (∀ q ∈ ks, Idx s2.m (kIndex - 1) (2 * kIndex + 1) d q.1 q.2.1 q.2.2) ∧
    GA2.map Leaf.h = GA.map Leaf.h ∧ GB2.map Leaf.h = GB.map Leaf.h ∧
    Gk2.map Leaf.h = frOf ks ∧
    LeavesOk s2.m c kData (GA2 ++ Gk2 ++ GB2) ∧
    Ctx s2 O (P :: ixOf (pre ++ ks ++ post)) (GA2 ++ Gk2 ++ GB2) ∧
    (∀ a ∈ O ++ (ixOf pre ++ ixOf post), mget s2.m a = mget s.m a) ∧
    s.h ≤ s2.h ∧ s2.h ≤ s.h + d + n + 1 ∧
    PutSpec c (kvs s.m (GA ++ Gk ++ GB)) (kvs s2.m (GA2 ++ Gk2 ++ GB2)) key upd r

/-- What `put2Loop` is run on when it goes down to the child `k` of the page `P`, between
the children `pre` and `post`: the leaves of the tree are `GA ++ Gk ++ GB`, with `Gk` under
`k`, the leaves under `pre` at the end of `GA` and the leaves under `post` at the start of
`GB`; `P` has room for one more child; `key` lies above the keys of `GA` and below the
keys of `GB`, and above the first key of `Gk` unless `k` is the first child. -/
structure PutPre (c : Bytes → Bytes → Int) (key : Bytes) (s : memBTreeStore) (O : List Nat)
    (P : Nat) (pre post : List Kid) (k : Kid) (GA Gk GB : List Leaf) (Fa Fb : List Nat)
    (d : Nat) : Prop where
  page : mget s.m P = some (encH (hsOf (pre ++ k :: post)))
  room : pre.length + post.length + 1 ≤ 2 * kIndex + 1
  kid : Idx s.m (kIndex - 1) (2 * kIndex + 1) d k.1 k.2.1 k.2.2
  sib : ∀ q ∈ pre ++ post, Idx s.m (kIndex - 1) (2 * kIndex + 1) d q.1 q.2.1 q.2.2
  hk : Gk.map Leaf.h = k.2.1
  ha : GA.map Leaf.h = Fa ++ frOf pre
  hb : GB.map Leaf.h = frOf post ++ Fb
  leaves : LeavesOk s.m c kData (GA ++ Gk ++ GB)
  ctx : Ctx s O (P :: ixOf (pre ++ k :: post)) (GA ++ Gk ++ GB)
  low : ∀ a ∈ keysG s.m GA, c a key < 0
  high : ∀ b ∈ keysG s.m GB, c key b < 0
  min : pre ≠ [] → c (minKey s.m Gk) key < 0

/-- What holds when `put2Loop` is at the index page `ph`, a child of the page `P`, and
goes down to the child `cj` of `ph`: the children of `ph` are `preK ++ cj :: postK`, the
leaves under them are `Ppre`, `Pk` and `Ppost`, child by child. -/
structure PutAt (c : Bytes → Bytes → Int) (key : Bytes) (s : memBTreeStore) (O : List Nat)
    (P : Nat) (pre post : List Kid) (ph : Nat) (preK postK : List Kid) (cj : Kid)
    (GA GB : List Leaf) (Ppre : List (List Leaf)) (Pk : List Leaf) (Ppost : List (List Leaf))
    (d : Nat) : Prop where
  page : mget s.m P = some (encH (hsOf (pre ++
    (ph, frOf (preK ++ cj :: postK), ph :: ixOf (preK ++ cj :: postK)) :: post)))
  leaves : LeavesOk s.m c kData (GA ++ (Ppre.flatten ++ Pk ++ Ppost.flatten) ++ GB)
  ctx : Ctx s O (P :: ixOf (pre ++
    (ph, frOf (preK ++ cj :: postK), ph :: ixOf (preK ++ cj :: postK)) :: post))
    (GA ++ (Ppre.flatten ++ Pk ++ Ppost.flatten) ++ GB)
  low : ∀ a ∈ keysG s.m GA, c a key < 0
  high : ∀ b ∈ keysG s.m GB, c key b < 0
  hpage : mget s.m ph = some (encH (hsOf (preK ++ cj :: postK)))
  count : kIndex ≤ (preK ++ cj :: postK).length
  kids : ∀ q ∈ preK ++ cj :: postK, Idx s.m (kIndex - 1) (2 * kIndex + 1) d q.1 q.2.1 q.2.2
  ppre : Parts preK Ppre
  pk : Pk.map Leaf.h = cj.2.1
  ppost : Parts postK Ppost
  lowK : ∀ a ∈ keysG s.m Ppre.flatten, c a key < 0
  highK : ∀ b ∈ keysG s.m Ppost.flatten, c key b < 0
  min : preK ≠ [] → c (minKey s.m Pk) key < 0
  hlt : s.h < 2 ^ 56

/-- What holds when `put2Loop` is at the root index page `ph` and goes down to the child
`cj` of `ph`: the children of `ph` are `preK ++ cj :: postK`, the leaves under them are
`Ppre`, `Pk` and `Ppost`, child by child. -/
structure RootAt (c : Bytes → Bytes → Int) (key : Bytes) (s : memBTreeStore) (root ph : Nat)
    (preK postK : List Kid) (cj : Kid) (Ppre : List (List Leaf)) (Pk : List Leaf)
    (Ppost : List (List Leaf)) (d : Nat) : Prop where
  hroot : mget s.m root = some (h2bBytes ph)
  leaves : LeavesOk s.m c kData (Ppre.flatten ++ Pk ++ Ppost.flatten)
  ctx : Ctx s [root] (ph :: ixOf (preK ++ cj :: postK)) (Ppre.flatten ++ Pk ++ Ppost.flatten)
  hpage : mget s.m ph = some (encH (hsOf (preK ++ cj :: postK)))
  kids : ∀ q ∈ preK ++ cj :: postK, Idx s.m (kIndex - 1) (2 * kIndex + 1) d q.1 q.2.1 q.2.2
  ppre : Parts preK Ppre
  pk : Pk.map Leaf.h = cj.2.1
  ppost : Parts postK Ppost
  lowK : ∀ a ∈ keysG s.m Ppre.flatten, c a key < 0
  highK : ∀ b ∈ keysG s.m Ppost.flatten, c key b < 0
  min : preK ≠ [] → c (minKey s.m Pk) key < 0
  hlt : s.h < 2 ^ 56

/-! ## dbm: Slice.Do

`Slice.Do` is a client of `BTree.Seek` and of the enumerator.  What it reads of its `Slice`
and of the `Array` of the slice are the fields of `Slice` below; the database lock
(`db.enter`, `db.leave`), `validate`, `collate`, `DecodeScalars` and the callback are not
under src/ and are parameters. -/

/-- The fields of a `Slice` and of its `Array` that `Do` reads: `s.a.tree`, `s.a.prefix`,
`len(s.prefix)`, `s.from` and `s.to` (`none` is nil). -/
structure Slice where
  tree : Option BTree
  aprefix : Bytes
  skip : Nat
  sfrom : Option Bytes
  sto : Option Bytes

/-- What `Do` is given from outside src/: the result `(ok, err)` of `s.a.validate(false)`,
the result of `db.enter()`, `db.leave(&err)` as the function from the error so far to its
result and to the error from then on, the collation of dbm, `DecodeScalars` (`none` is the
nil slice) and the callback `f`. -/
structure DoEnv where
  validate : Bool × Option Err
  enter : Option Err
  leave : Option Err → Option Err × Option Err
  collate : Bytes → Bytes → Int
  decode : Bytes → Except Err (Option (List String))
  f : Option (List String) → Option (List String) → Bool × Option Err

/-- The dbm helper `noEof`: io.EOF becomes nil, every other error is kept. -/
def noEof : Option Err → Option Err
  | some .eof => none
  | e => e

/-- Go `k[skip:]` on a slice of scalars; nil stays nil. -/
def scalarsFrom (k : Option (List String)) (skip : Nat) : Except Err (Option (List String)) :=
  match k with
  | none => if skip = 0 then .ok none else .error .panic
  | some l => if skip ≤ l.length then .ok (some (l.drop skip)) else .error .panic

/-- The test of the loops of the first and the third case of `Do`:
`len(bprefix) != 0 && collate(bk[:len(bprefix)], bprefix) > 0`. -/
def prefixPassed (env : DoEnv) ( bprefix bk : Bytes) : Except Err Bool :=
  if bprefix.length ≠ 0 then do
    let b ← slice bk 0 bprefix.length
    pure (decide (env.collate b bprefix > 0))
  else pure false

/-- The test of the loops of the second and the fourth case of `Do`: `collate(bk, to) > 0`. -/
def toPassed (env : DoEnv) (sto bk : Bytes) : Except Err Bool :=
  pure (decide (env.collate bk sto > 0))

/-- The `for` loop of `Do`; the four cases of the `switch` have the same loop but for its
second statement, the test `done` here.  Entered with `doLeave == true`; a return with
`doLeave == true` runs `db.leave(&err)` in the deferred function, and a panic is recovered
there into an error.  Returns the error of `Do` and the calls of `f`, in order. -/
def Slice.doLoop (env : DoEnv) (tree : Option BTree) (skip : Nat) (noVal : Bool)
    (done : Bytes → Except Err Bool) :
    Nat → Option BTreeEnumerator → List (Option (List String) × Option (List String)) →
      Option Err × List (Option (List String) × Option (List String))
  | 0, _, out => (some .fuel, out)
  | fuel + 1, enum, out =>
    match BTreeEnumerator.Current enum with
    | .error err => ((env.leave (noEof (some err))).2, out)
    | .ok (bk, bv) =>
      match done bk with
      | .error err => ((env.leave (some err)).2, out)
      | .ok true => ((env.leave none).2, out)
      | .ok false =>
        match env.decode bk with
        | .error err => ((env.leave (noEof (some err))).2, out)
        | .ok k =>
          match env.decode bv with
          | .error err => ((env.leave (noEof (some err))).2, out)
          | .ok v =>
            match env.leave none with
            | (some _, err) => (err, out)
            | (none, _) =>
              let v := if noVal ∧ v ≠ none then some ["0"] else v
              match scalarsFrom k skip with
              | .error err => (some err, out)
              | .ok ks =>
                let out := out ++ [(ks, v)]
                match env.f ks v with
                | (more, err) =>
                  if !more ∨ err ≠ none then (noEof err, out)
                  else
                    match env.enter with
                    | some err => (some err, out)
                    | none =>
                      match BTree.Seek tree bk with
                      | .error err => ((env.leave (noEof (some err))).2, out)
                      | .ok (enum, hit) =>
                        if hit then
                          match BTreeEnumerator.Next (some enum) with
                          | (some err, _) => ((env.leave (noEof (some err))).2, out)
                          | (none, enum) => Slice.doLoop env tree skip noVal done fuel enum out
                        else Slice.doLoop env tree skip noVal done fuel (some enum) out

/-- Calls `f` for every subscripts-value pair in `s`.  Returns the error of `Do` and the
calls of `f`, in order.  Every pair of a tree takes at least one byte of its store, which
bounds the number of turns of the loop. -/
def Slice.Do (s : Slice) (env : DoEnv) :
    Option Err × List (Option (List String) × Option (List String)) :=
  let sfrom := bpack (Slice.aprefix s) ++ s.sfrom.getD []
  let sto := bpack (Slice.aprefix s) ++ s.sto.getD []
  let bprefix := Slice.aprefix s
  match env.validate with
  | (ok, err) =>
    if !ok ∧ err ≠ none then (err, [])
    else
      match s.tree with
      | none => (err, [])
      | some t =>
        match BTree.IsMem (some t), BTree.Handle (some t) with
        | .ok isMem, .ok handle =>
          let noVal : Bool := !isMem ∧ handle = 1
          match env.enter with
          | some err => (some err, [])
          | none =>
            let key := if s.sfrom = none ∧ s.sto = none then bprefix else sfrom
            let done := if s.sto = none then prefixPassed env bprefix else toPassed env sto
            match BTree.Seek (some t) key with
            | .error err => ((env.leave (noEof (some err))).2, [])
            | .ok (enum, _) =>
              Slice.doLoop env (some t) s.skip noVal done (dumpFuel t.store) (some enum) []
        | _, _ => (some .panic, [])

/-- An environment of `Do` in which nothing fails: every scalar is a byte, the callback asks
for more. -/
def plainEnv : DoEnv :=
  ⟨(true, none), none, fun e => (none, e), bytesCompare,
    fun b => .ok (some (b.map toString)), fun _ _ => (true, none)⟩

/-! ## Specification vocabulary: sequences of calls of the memory page store -/

/-- A call of one of the methods of the memory page store. -/
inductive StoreOp where
  | alloc (b : Bytes)
  | free (handle : Nat)
  | get (handle : Nat)
  | realloc (handle : Nat) (b : Bytes)

/-- The store a call leaves behind (also when the call returns an error). -/
def StoreOp.run : StoreOp → memBTreeStore → memBTreeStore
  | .alloc b, s => (memBTreeStore.Alloc b s).2
  | .free handle, s => (memBTreeStore.Free handle s).2
  | .get handle, s => (memBTreeStore.Get handle s).2
  | .realloc handle b, s => (memBTreeStore.Realloc handle b s).2

/-- The handle that a call returned: `Alloc` is the only method that returns one. -/
def StoreOp.returned : StoreOp → memBTreeStore → List Nat
  | .alloc b, s =>
    match (memBTreeStore.Alloc b s).1 with
    | .ok handle => [handle]
    | .error _ => []
  | _, _ => []

/-- The store after the calls `ops`, made in order on `s`. -/
def runOps : List StoreOp → memBTreeStore → memBTreeStore
  | [], s => s
  | op :: r, s => runOps r (op.run s)

/-- Every handle that an `Alloc` call of `ops` returned, the calls made in order on `s`. -/
def returnedBy : List StoreOp → memBTreeStore → List Nat
  | [], _ => []
  | op :: r, s => op.returned s ++ returnedBy r (op.run s)

/-- Modelled from the spec: the claims call a handle live when it was "returned by Alloc"
and not "already freed".  The live handles after the calls `ops`, made in order on `s`
whose live handles are `L`. -/
def liveAfter : List StoreOp → memBTreeStore → List Nat → List Nat
  | [], _, L => L
  | .free handle :: r, s, L =>
    liveAfter r ((StoreOp.free handle).run s) (L.filter (fun k => k ≠ handle))
  | op :: r, s, L => liveAfter r (op.run s) (op.returned s ++ L)

/-- The call writes or frees the blob of `handle`. -/
def StoreOp.touches (handle : Nat) : StoreOp → Prop
  | .free k => k = handle
  | .realloc k _ => k = handle
  | _ => False

/-! ## The slot indices `find` compares at -/

/-- The loop of `btreePage.find`, returning next to its result the slot indices it
compared `key` at, in the order of the comparisons. -/
def btreePage.findLoopProbes (p : Bytes) (isIndex : Bool) (c : Bytes → Bytes → Int)
    (key : Bytes) : Nat → Int → Int → M ((Int × Bool) × List Int)
  | 0, _, _ => M.fail .fuel
  | fuel + 1, l, h =>
    if l ≤ h then do
      let index := (l + h) / 2
      let cmp ← (if isIndex then btreeIndexPage.cmp p c key index
                 else btreeDataPage.cmp p c key index)
      if cmp > 0 then do
        let (r, probes) ← btreePage.findLoopProbes p isIndex c key fuel (index + 1) h
        pure (r, index :: probes)
      else if cmp = 0 then pure ((index, true), [index])
      else do
        let (r, probes) ← btreePage.findLoopProbes p isIndex c key fuel l (index - 1)
        pure (r, index :: probes)
    else pure ((l, false), [])

/-- The function `btreePage.find`, returning next to its result the slot indices it
compared `key` at. -/
def btreePage.findProbes (p : Bytes) (c : Option (Bytes → Bytes → Int)) (key : Bytes) :
    M ((Int × Bool) × List Int) := do
  let l : Int := 0
  let h := (← btreePage.len p) - 1
  let isIndex ← btreePage.isIndex p
  let c := match c with
    | none => bytesCompare
    | some c => c
  btreePage.findLoopProbes p isIndex c key (h + 2).toNat l h

/-- The page `p` holds the keys `K`, in slot order: the keys of its items if it is a data
page; if it is an index page, the keys its entries are compared through, the first key of
the data page that each separator names. -/
def PageKeys (m : Blobs) (p : Bytes) (K : List Bytes) : Prop :=
  (∃ pv nx S, p = encD pv nx S ∧ FieldsOk m S ∧ keysOf m S = K) ∨
  (∃ hs, p = encH hs ∧ hs.length = 2 * K.length + 1 ∧
    ∀ i, i < K.length →
      hs.getD (2 * i + 1) 0 < 2 ^ 56 ∧ LeafKey0 m (hs.getD (2 * i + 1) 0) (K.getD i []))

/-! ## Extraction of an item -/

/-- The store after the two `Free` calls of `btreeDataPage.extract` on the item `x`: the
overflow blobs of its key and of its value are gone. -/
def freeItem (s : memBTreeStore) (x : Slot) : memBTreeStore :=
  let s1 : memBTreeStore := if fieldH x.1 = 0 then s else ⟨s.h, mdel s.m (fieldH x.1)⟩
  if fieldH x.2 = 0 then s1 else ⟨s1.h, mdel s1.m (fieldH x.2)⟩

/-! ## Sequences of `Set` -/

/-- The results of `Set` on every pair of the list, in order, from the tree `t` on. -/
def setResults (t : Option BTree) : List (Bytes × Bytes) → List (Except Err Unit)
  | [] => []
  | (k, v) :: r => (BTree.Set t k v).1 :: setResults (BTree.Set t k v).2 r

/-! ## A concrete tree of two leaves, the right one full -/

/-- The two-byte big-endian key `i`. -/
def wKey (i : Nat) : Bytes := [i / 256, i % 256]

/-- The item of key `wKey i` and value `[1]`, both inline. -/
def wSlot (i : Nat) : Slot := (2 :: (wKey i ++ zeros 16), 1 :: 1 :: zeros 17)

/-- The `n` items of the even keys `wKey (2 * lo)`, `wKey (2 * (lo + 1))`, ... -/
def wSlots (lo n : Nat) : List Slot := (List.range n).map (fun i => wSlot (2 * (lo + i)))

/-- The store of a tree of root record 1 whose root index page 4 has two leaves: the
leaf 2 of the 256 keys 0, 2, ..., 510 and the full leaf 3 of the 512 keys 512, 514, ...,
1534. -/
def wStore : memBTreeStore :=
  ⟨4, [(1, h2bBytes 4), (2, encD 0 3 (wSlots 0 256)), (3, encD 2 0 (wSlots 256 512)),
       (4, encH [2, 3, 3])]⟩

/-- The store of a tree of root record 1 that is the one full leaf 2 of the 512 keys 0, 2,
..., 1022. -/
def wFullLeaf : memBTreeStore := ⟨2, [(1, h2bBytes 2), (2, encD 0 0 (wSlots 0 512))]⟩

/-- The pairs of the keys `wKey 0`, ..., `wKey (n - 1)`, each with the value `[1]`. -/
def wPairs (n : Nat) : List (Bytes × Bytes) := (List.range n).map (fun i => (wKey i, [1]))

/-- The store of a tree of root record 1 that is the one leaf 2 of the one key
`wKey 5`. -/
def wOneLeaf : memBTreeStore := ⟨2, [(1, h2bBytes 2), (2, encD 0 0 [wSlot 5])]⟩

/-- The store of a tree of root record 1 whose root index page 3 has the one child 2, an
index page of `2 * kIndex + 1` entries: its first `kIndex + 1` children and `kIndex`
separators are the handle 10, the separator at `kIndex` is 30, the last `kIndex + 1`
children and `kIndex` separators are 11. -/
def wIndexStore : memBTreeStore :=
  ⟨3, [(1, h2bBytes 3),
       (2, encH (List.replicate (2 * kIndex + 1) 10 ++ 30 :: List.replicate (2 * kIndex + 1) 11)),
       (3, encH [2])]⟩

/-! ## Constants and handles -/

theorem kKV_eq : kKV = 19 := rfl
theorem kSz_eq : kSz = 11 := rfl
theorem kH_eq : kH = 12 := rfl
theorem kData_eq : kData = 256 := rfl
theorem kIndex_eq : kIndex = 256 := rfl
theorem kKV_cast : ((kKV : Nat) : Int) = 19 := rfl
theorem kSz_cast : ((kSz : Nat) : Int) = 11 := rfl
theorem kH_cast : ((kH : Nat) : Int) = 12 := rfl
theorem kData_cast : ((kData : Nat) : Int) = 256 := rfl
theorem kIndex_cast : ((kIndex : Nat) : Int) = 256 := rfl

@[simp] theorem h2bBytes_length (h : Nat) : (h2bBytes h).length = 7 := rfl

@[simp] theorem zeros_length (n : Nat) : (zeros n).length = n := by simp [zeros]

theorem b2hN_h2bBytes (h : Nat) (hh : h < 2 ^ 56) (r : Bytes) :
    b2hN (h2bBytes h ++ r) = h := by
  have e : (h2bBytes h ++ r).take 7 = h2bBytes h := by simp [h2bBytes]
  unfold b2hN
  rw [e]
  simp only [h2bBytes, List.foldl]
  norm_num at hh ⊢
  omega

theorem b2h_eq (b : Bytes) (hb : 7 ≤ b.length) : b2h b = .ok (b2hN b) := by
  unfold b2h b2hN
  rw [if_pos hb]

theorem b2h_h2bBytes (h : Nat) (hh : h < 2 ^ 56) (r : Bytes) :
    b2h (h2bBytes h ++ r) = .ok h := by
  rw [b2h_eq _ (by simp), b2hN_h2bBytes h hh]

theorem h2b_eq (b : Bytes) (h : Nat) (hb : 7 ≤ b.length) :
    h2b b h = .ok (h2bBytes h ++ b.drop 7) := by
  unfold h2b
  rw [if_pos hb]

/-! ## The store monad -/

@[simp] theorem M_pure {α : Type} (a : α) (s : memBTreeStore) :
    (pure a : M α) s = (.ok a, s) := rfl

@[simp] theorem M_bind {α β : Type} (x : M α) (f : α → M β) (s : memBTreeStore) :
    (x >>= f) s = match x s with
      | (.ok a, s1) => f a s1
      | (.error e, s1) => (.error e, s1) := rfl

@[simp] theorem M_monadLift {α : Type} (x : Except Err α) (s : memBTreeStore) :
    (monadLift x : M α) s = (x, s) := rfl

@[simp] theorem M_liftM {α : Type} (x : Except Err α) (s : memBTreeStore) :
    (liftM x : M α) s = (x, s) := rfl

theorem M_bind_ok {α β : Type} (x : M α) (f : α → M β) (s s1 : memBTreeStore) (a : α)
    (h : x s = (.ok a, s1)) : (x >>= f) s = f a s1 := by
  simp [h]

/-! ## Slices of natural offsets -/

theorem sliceFrom_of (p : Bytes) (z : Int) (n : Nat) (hz : z = n) (hn : n ≤ p.length) :
    sliceFrom p z = .ok (p.drop n) := by
  subst hz
  unfold sliceFrom
  rw [if_pos ⟨by omega, by omega⟩]
  simp

theorem slice_of (p : Bytes) (lo hi : Int) (a b : Nat) (ha : lo = a) (hb : hi = b)
    (hab : a ≤ b) (hbl : b ≤ p.length) :
    slice p lo hi = .ok ((p.drop a).take (b - a)) := by
  subst ha hb
  unfold slice
  rw [if_pos ⟨by omega, by omega, by omega⟩]
  congr 2
  omega

theorem byteAt_of (p : Bytes) (z : Int) (n : Nat) (hz : z = n) (v : Nat)
    (hv : p.get? n = some v) : byteAt p z = .ok v := by
  subst hz
  unfold byteAt
  rw [if_pos (by omega)]
  simp only [Int.toNat_ofNat, hv]

theorem setByte_of (p : Bytes) (z : Int) (n : Nat) (hz : z = n) (v : Nat)
    (hn : n < p.length) : setByte p z v = .ok (p.set n v) := by
  subst hz
  unfold setByte
  rw [if_pos ⟨by omega, by omega⟩]
  simp

theorem copyTo_of (p : Bytes) (lo hi : Int) (a b : Nat) (src : Bytes) (ha : lo = a)
    (hb : hi = b) (hab : a ≤ b) (hbl : b ≤ p.length) (hs : b - a ≤ src.length) :
    copyTo p lo hi src = .ok (p.take a ++ src.take (b - a) ++ p.drop b) := by
  subst ha hb
  unfold copyTo
  rw [if_pos ⟨by omega, by omega, by omega⟩]
  have e1 : ((b : Int) - (a : Int)).toNat = b - a := by omega
  simp only [Int.toNat_ofNat, e1, Nat.min_eq_left hs]
  congr 2
  congr 1
  omega

theorem b2hAt_of (p : Bytes) (z : Int) (n : Nat) (hz : z = n) (hn : n + 7 ≤ p.length) :
    b2hAt p z = .ok (b2hN (p.drop n)) := by
  unfold b2hAt
  rw [sliceFrom_of p z n hz (by omega)]
  show b2h (p.drop n) = _
  rw [b2h_eq _ (by simp; omega)]

theorem h2bAt_of (p : Bytes) (z : Int) (n : Nat) (hz : z = n) (h : Nat)
    (hn : n + 7 ≤ p.length) :
    h2bAt p z h = .ok (p.take n ++ h2bBytes h ++ p.drop (n + 7)) := by
  unfold h2bAt
  rw [sliceFrom_of p z n hz (by omega)]
  show (do let t ← h2b (p.drop n) h; pure (p.take z.toNat ++ t)) = _
  rw [h2b_eq _ _ (by simp; omega)]
  subst hz
  simp [List.append_assoc, Nat.add_comm]

/-! ## Stepping through `Except` computations -/

theorem E_ok_bind {α β : Type} (a : α) (f : α → Except Err β) :
    (Except.ok a >>= f) = f a := rfl

theorem E_pure_eq {α : Type} (a : α) : (pure a : Except Err α) = Except.ok a := rfl

/-! ## Lists of chunks of one width -/

theorem flatten_length_uniform {α β : Type} (f : α → List β) (w : Nat) (S : List α)
    (h : ∀ x ∈ S, (f x).length = w) : ((S.map f).flatten).length = w * S.length := by
  induction S with
  | nil => simp
  | cons a S ih =>
    simp only [List.map_cons, List.flatten_cons, List.length_append, List.length_cons]
    rw [ih (fun x hx => h x (List.mem_cons_of_mem _ hx)), h a (List.mem_cons_self _ _)]
    ring

theorem flatten_drop_uniform {α β : Type} (f : α → List β) (w : Nat) (S : List α)
    (h : ∀ x ∈ S, (f x).length = w) (i : Nat) :
    ((S.map f).flatten).drop (w * i) = ((S.drop i).map f).flatten := by
  induction S generalizing i with
  | nil => simp
  | cons a S ih =>
    cases i with
    | zero => simp
    | succ i =>
      have ha := h a (List.mem_cons_self _ _)
      simp only [List.map_cons, List.flatten_cons, List.drop_succ_cons]
      rw [show w * (i + 1) = (f a).length + w * i by rw [ha]; ring, ← List.drop_drop,
        List.drop_left, ih (fun x hx => h x (List.mem_cons_of_mem _ hx))]

theorem flatten_take_uniform {α β : Type} (f : α → List β) (w : Nat) (S : List α)
    (h : ∀ x ∈ S, (f x).length = w) (i : Nat) :
    ((S.map f).flatten).take (w * i) = ((S.take i).map f).flatten := by
  induction S generalizing i with
  | nil => simp
  | cons a S ih =>
    cases i with
    | zero => simp
    | succ i =>
      have ha := h a (List.mem_cons_self _ _)
      simp only [List.map_cons, List.flatten_cons, List.take_succ_cons]
      rw [show w * (i + 1) = (f a).length + w * i by rw [ha]; ring,
        List.take_append, ih (fun x hx => h x (List.mem_cons_of_mem _ hx))]

/-! ## Data pages as encodings -/

theorem slot_bytes_length (S : List Slot) (hS : SlotsLen S) :
    ∀ x ∈ S, (Slot.bytes x).length = 38 := by
  intro x hx
  have := hS x hx
  simp [Slot.bytes, this.1, this.2]

theorem SlotsLen_take {S : List Slot} (hS : SlotsLen S) (i : Nat) : SlotsLen (S.take i) :=
  fun x hx => hS x (List.mem_of_mem_take hx)

theorem SlotsLen_drop {S : List Slot} (hS : SlotsLen S) (i : Nat) : SlotsLen (S.drop i) :=
  fun x hx => hS x (List.mem_of_mem_drop hx)

theorem SlotsLen_append {S T : List Slot} (hS : SlotsLen S) (hT : SlotsLen T) :
    SlotsLen (S ++ T) := by
  intro x hx
  rcases List.mem_append.1 hx with h | h
  · exact hS x h
  · exact hT x h

theorem SlotsLen_cons {x : Slot} {S : List Slot} (hx : x.1.length = 19 ∧ x.2.length = 19)
    (hS : SlotsLen S) : SlotsLen (x :: S) := by
  intro y hy
  rcases List.mem_cons.1 hy with h | h
  · subst h; exact hx
  · exact hS y h

theorem SlotsLen_zero : SlotsLen [zeroSlot] := by
  intro x hx
  simp only [List.mem_singleton] at hx
  subst hx
  simp [zeroSlot]

theorem encD_length (pr nx : Nat) (S : List Slot) (hS : SlotsLen S) :
    (encD pr nx S).length = 15 + 38 * S.length := by
  simp only [encD, List.length_cons, List.length_append, h2bBytes_length,
    flatten_length_uniform _ 38 S (slot_bytes_length S hS)]
  omega

theorem encD_drop (pr nx : Nat) (S : List Slot) (hS : SlotsLen S) (i : Nat) :
    (encD pr nx S).drop (15 + 38 * i) = ((S.drop i).map Slot.bytes).flatten := by
  have e : encD pr nx S = (tagBTreeDataPage :: (h2bBytes pr ++ h2bBytes nx)) ++
      (S.map Slot.bytes).flatten := by simp [encD]
  rw [e, ← List.drop_drop, show (15 : Nat) =
    (tagBTreeDataPage :: (h2bBytes pr ++ h2bBytes nx)).length by simp, List.drop_left,
    flatten_drop_uniform _ 38 S (slot_bytes_length S hS)]

theorem encD_take (pr nx : Nat) (S : List Slot) (hS : SlotsLen S) (i : Nat) :
    (encD pr nx S).take (15 + 38 * i) = encD pr nx (S.take i) := by
  have e : ∀ T, encD pr nx T = (tagBTreeDataPage :: (h2bBytes pr ++ h2bBytes nx)) ++
      (T.map Slot.bytes).flatten := by intro T; simp [encD]
  rw [e, e, show (15 : Nat) =
    (tagBTreeDataPage :: (h2bBytes pr ++ h2bBytes nx)).length by simp, List.take_append,
    flatten_take_uniform _ 38 S (slot_bytes_length S hS)]

theorem encD_append (pr nx : Nat) (S T : List Slot) :
    encD pr nx (S ++ T) = encD pr nx S ++ (T.map Slot.bytes).flatten := by
  simp [encD]

theorem encD_split (pr nx : Nat) (S : List Slot) (i : Nat) :
    encD pr nx S = encD pr nx (S.take i) ++ ((S.drop i).map Slot.bytes).flatten := by
  rw [← encD_append, List.take_append_drop]

theorem dataLen_encD (pr nx : Nat) (S : List Slot) (hS : SlotsLen S) :
    btreeDataPage.len (encD pr nx S) = S.length := by
  unfold btreeDataPage.len
  rw [encD_length pr nx S hS, kKV_eq]
  congr 1
  omega

theorem prev_encD (pr nx : Nat) (S : List Slot) (hp : pr < 2 ^ 56) :
    btreeDataPage.prev (encD pr nx S) = .ok pr := by
  unfold btreeDataPage.prev
  rw [b2hAt_of _ 1 1 rfl (by simp [encD])]
  simp only [encD, List.drop_succ_cons, List.drop_zero]
  rw [b2hN_h2bBytes pr hp]

theorem next_encD (pr nx : Nat) (S : List Slot) (hn : nx < 2 ^ 56) :
    btreeDataPage.next (encD pr nx S) = .ok nx := by
  unfold btreeDataPage.next
  rw [b2hAt_of _ 8 8 rfl (by simp [encD]; omega)]
  have : (encD pr nx S).drop 8 = h2bBytes nx ++ (S.map Slot.bytes).flatten := by
    simp [encD, h2bBytes]
  rw [this, b2hN_h2bBytes nx hn]

theorem setPrev_encD (pr nx : Nat) (S : List Slot) (h : Nat) :
    btreeDataPage.setPrev (encD pr nx S) h = .ok (encD h nx S) := by
  unfold btreeDataPage.setPrev
  rw [h2bAt_of _ 1 1 rfl h (by simp [encD])]
  simp [encD, h2bBytes]

theorem setNext_encD (pr nx : Nat) (S : List Slot) (h : Nat) :
    btreeDataPage.setNext (encD pr nx S) h = .ok (encD pr h S) := by
  unfold btreeDataPage.setNext
  rw [h2bAt_of _ 8 8 rfl h (by simp [encD]; omega)]
  simp [encD, h2bBytes]

/-! ## Data pages: setLen, copy, insert, moveLeft, moveRight -/

theorem zeros_flatten (k : Nat) :
    zeros (38 * k) = ((List.replicate k zeroSlot).map Slot.bytes).flatten := by
  induction k with
  | zero => simp [zeros]
  | succ k ih =>
    rw [List.replicate_succ, List.map_cons, List.flatten_cons, ← ih]
    simp only [zeros, Slot.bytes, zeroSlot, ← List.replicate_add]
    congr 1
    omega

theorem SlotsLen_replicate (k : Nat) : SlotsLen (List.replicate k zeroSlot) := by
  intro x hx
  rw [List.eq_of_mem_replicate hx]
  simp [zeroSlot]

theorem SlotsLen_append_left {S T : List Slot} (h : SlotsLen (S ++ T)) : SlotsLen S :=
  fun x hx => h x (List.mem_append_left _ hx)

theorem SlotsLen_append_right {S T : List Slot} (h : SlotsLen (S ++ T)) : SlotsLen T :=
  fun x hx => h x (List.mem_append_right _ hx)

theorem encD_take_left (pr nx : Nat) (A B : List Slot) (hA : SlotsLen A) (hB : SlotsLen B)
    (n : Nat) (hn : n = 15 + 38 * A.length) :
    (encD pr nx (A ++ B)).take n = encD pr nx A := by
  subst hn
  rw [encD_take pr nx _ (SlotsLen_append hA hB), List.take_left']
  rfl

theorem encD_drop_left (pr nx : Nat) (A B : List Slot) (hA : SlotsLen A) (hB : SlotsLen B)
    (n : Nat) (hn : n = 15 + 38 * A.length) :
    (encD pr nx (A ++ B)).drop n = (B.map Slot.bytes).flatten := by
  subst hn
  rw [encD_drop pr nx _ (SlotsLen_append hA hB), List.drop_left']
  rfl

theorem flatten_take_left (X Z : List Slot) (hX : SlotsLen X) (hZ : SlotsLen Z) (n : Nat)
    (hn : n = 38 * X.length) :
    (((X ++ Z).map Slot.bytes).flatten).take n = (X.map Slot.bytes).flatten := by
  subst hn
  rw [flatten_take_uniform _ 38 _ (slot_bytes_length _ (SlotsLen_append hX hZ)),
    List.take_left']
  rfl

theorem setLen_shrink (pr nx : Nat) (A B : List Slot) (hA : SlotsLen A) (hB : SlotsLen B)
    (z : Int) (hz : z = A.length) :
    btreeDataPage.setLen (encD pr nx (A ++ B)) z = .ok (encD pr nx A) := by
  subst hz
  unfold btreeDataPage.setLen
  simp only [kKV_cast]
  have hl := encD_length pr nx _ (SlotsLen_append hA hB)
  rw [List.length_append] at hl
  by_cases h : B.length = 0
  · rw [if_neg (by rw [hl]; push_cast; omega)]
    have hB0 : B = [] := List.length_eq_zero.1 h
    subst hB0
    have : (15 + 2 * 19 * (A.length : Int) - ((encD pr nx (A ++ [])).length : Int)).toNat = 0 := by
      rw [hl]; push_cast; omega
    rw [this]
    simp [zeros]
    rfl
  · rw [if_pos (by rw [hl]; push_cast; omega)]
    rw [slice_of _ 0 _ 0 (15 + 38 * A.length) rfl (by push_cast; ring) (by omega)
      (by rw [hl]; omega)]
    rw [List.drop_zero, Nat.sub_zero, encD_take_left pr nx A B hA hB _ rfl]

theorem setLen_grow (pr nx : Nat) (S : List Slot) (hS : SlotsLen S) (z : Int) (k : Nat)
    (hz : z = (S.length + k : Nat)) :
    btreeDataPage.setLen (encD pr nx S) z =
      .ok (encD pr nx (S ++ List.replicate k zeroSlot)) := by
  subst hz
  unfold btreeDataPage.setLen
  simp only [kKV_cast]
  rw [if_neg (by rw [encD_length pr nx S hS]; push_cast; omega)]
  rw [encD_append, ← zeros_flatten, encD_length pr nx S hS]
  show Except.ok _ = _
  congr 3
  push_cast
  omega

/-- Overwrite the items `X` of a page by the items `Y`. -/
theorem copyTo_encD (pr nx : Nat) (A X B Y Z : List Slot) (hA : SlotsLen A) (hX : SlotsLen X)
    (hB : SlotsLen B) (hY : SlotsLen Y) (hZ : SlotsLen Z) (hXY : X.length = Y.length)
    (lo hi : Int) (hlo : lo = (15 + 38 * A.length : Nat))
    (hhi : hi = (15 + 38 * (A.length + X.length) : Nat)) :
    copyTo (encD pr nx (A ++ X ++ B)) lo hi (((Y ++ Z).map Slot.bytes).flatten) =
      .ok (encD pr nx (A ++ Y ++ B)) := by
  have hAX : SlotsLen (A ++ X) := SlotsLen_append hA hX
  rw [copyTo_of _ lo hi (15 + 38 * A.length) (15 + 38 * (A.length + X.length)) _ hlo hhi
    (by omega)
    (by rw [encD_length pr nx _ (SlotsLen_append hAX hB)]; simp)
    (by rw [flatten_length_uniform _ 38 _ (slot_bytes_length _ (SlotsLen_append hY hZ))]
        simp; omega)]
  rw [List.append_assoc A X B, encD_take_left pr nx A (X ++ B) hA (SlotsLen_append hX hB) _ rfl,
    ← List.append_assoc A X B,
    encD_drop_left pr nx (A ++ X) B hAX hB _ (by simp),
    flatten_take_left Y Z hY hZ _ (by rw [← hXY]; omega), encD_append, encD_append]

theorem copy_encD (pr nx pr2 nx2 : Nat) (A X B A2 Y B2 : List Slot) (hA : SlotsLen A)
    (hX : SlotsLen X) (hB : SlotsLen B) (hA2 : SlotsLen A2) (hY : SlotsLen Y)
    (hB2 : SlotsLen B2) (hXY : X.length = Y.length) (S S2 : List Slot)
    (hS : S = A ++ X ++ B) (hS2 : S2 = A2 ++ Y ++ B2)
    (zd zs zn : Int) (hd : zd = A.length) (hs : zs = A2.length) (hn : zn = X.length) :
    btreeDataPage.copy (encD pr nx S) (encD pr2 nx2 S2) zd zs zn =
      .ok (encD pr nx (A ++ Y ++ B)) := by
  subst hd hs hn hS hS2
  unfold btreeDataPage.copy
  simp only [kKV_cast]
  have hAY : SlotsLen (A2 ++ Y) := SlotsLen_append hA2 hY
  rw [sliceFrom_of _ _ (15 + 38 * A2.length) (by push_cast; ring)
    (by rw [encD_length pr2 nx2 _ (SlotsLen_append hAY hB2)]; simp),
    List.append_assoc A2 Y B2,
    encD_drop_left pr2 nx2 A2 (Y ++ B2) hA2 (SlotsLen_append hY hB2) _ rfl]
  show copyTo _ _ _ _ = _
  rw [copyTo_encD pr nx A X B Y B2 hA hX hB hY hB2 hXY _ _ (by push_cast; ring)
    (by push_cast; ring)]

/-- `insert` followed by the zeroing of the new item, as `insertItem` does it. -/
theorem insert_zero_encD (pr nx : Nat) (A B : List Slot) (hA : SlotsLen A) (hB : SlotsLen B)
    (z : Int) (hz : z = A.length) :
    (do let p ← btreeDataPage.insert (encD pr nx (A ++ B)) z
        copyTo p (15 + 2 * kKV * z) (15 + 2 * kKV * z + 2 * kKV) (zeros (2 * kKV))) =
      .ok (encD pr nx (A ++ zeroSlot :: B)) := by
  subst hz
  have hAB : SlotsLen (A ++ B) := SlotsLen_append hA hB
  have hz38 : zeros (2 * kKV) = ((([zeroSlot] ++ []: List Slot)).map Slot.bytes).flatten := by
    simp [kKV_eq, Slot.bytes, zeroSlot, zeros, ← List.replicate_add]
  have hzz : zeros (2 * kKV) = ((([zeroSlot] : List Slot)).map Slot.bytes).flatten := by
    simp [kKV_eq, Slot.bytes, zeroSlot, zeros, ← List.replicate_add]
  unfold btreeDataPage.insert
  simp only [kKV_cast, dataLen_encD pr nx _ hAB]
  cases B with
  | nil =>
    rw [if_neg (by simp), if_pos (by simp)]
    show copyTo _ _ _ _ = _
    rw [hzz, ← encD_append]
    conv_lhs => rw [← hzz, hz38]
    have := copyTo_encD pr nx (A ++ []) [zeroSlot] [] [zeroSlot] [] (by simpa using hA)
      SlotsLen_zero (by intro x hx; simp at hx) SlotsLen_zero (by intro x hx; simp at hx) rfl
      (15 + 2 * 19 * (A.length : Int)) (15 + 2 * 19 * (A.length : Int) + 2 * 19)
      (by simp) (by simp; ring)
    simpa using this
  | cons b B =>
    rw [if_pos (by simp)]
    have hb : SlotsLen [b] := fun x hx => hAB x (by simp at hx; simp [hx])
    have hB' : SlotsLen B := fun x hx => hAB x (by simp [hx])
    rw [hzz, ← encD_append]
    rw [copy_encD pr nx pr nx (A ++ [b]) (B ++ [zeroSlot]) [] A (b :: B) [zeroSlot]
      (SlotsLen_append hA hb) (SlotsLen_append hB' SlotsLen_zero) (by intro x hx; simp at hx)
      hA (SlotsLen_cons (hb b (by simp)) hB') SlotsLen_zero (by simp) _ _ (by simp) (by simp)
      (↑A.length + 1) (↑A.length) (↑(A ++ b :: B).length - ↑A.length) (by simp) rfl (by simp)]
    show copyTo _ _ _ _ = _
    conv_lhs => rw [← hzz, hz38]
    have := copyTo_encD pr nx A [b] (b :: B) [zeroSlot] [] hA hb (SlotsLen_cons (hb b (by simp)) hB')
      SlotsLen_zero (by intro x hx; simp at hx) rfl
      (15 + 2 * 19 * (A.length : Int)) (15 + 2 * 19 * (A.length : Int) + 2 * 19)
      (by simp) (by simp; ring)
    simpa using this

theorem moveLeft_encD (pr nx pr2 nx2 : Nat) (X P2 L : List Slot) (hX : SlotsLen X)
    (hP2 : SlotsLen P2) (hL : SlotsLen L) (z : Int) (hz : z = X.length) :
    btreeDataPage.moveLeft (encD pr nx (X ++ P2)) (encD pr2 nx2 L) z =
      .ok (encD pr nx P2, encD pr2 nx2 (L ++ X)) := by
  subst hz
  have hn : SlotsLen ([] : List Slot) := by intro x hx; simp at hx
  have hR := SlotsLen_replicate X.length
  unfold btreeDataPage.moveLeft
  simp only [dataLen_encD _ _ _ (SlotsLen_append hX hP2), dataLen_encD _ _ _ hL]
  rw [setLen_grow pr2 nx2 L hL (↑L.length + ↑X.length) X.length (by push_cast; ring)]
  show (do let left ← btreeDataPage.copy _ _ _ _ _; _) = _
  rw [copy_encD pr2 nx2 pr nx L (List.replicate X.length zeroSlot) [] [] X P2 hL hR hn hn hX hP2
    (by simp) _ _ (by simp) (by simp) (↑L.length) 0 (↑X.length) rfl rfl (by simp)]
  show (do let p ← btreeDataPage.copy _ _ _ _ _; _) = _
  have hXP : SlotsLen (X ++ P2) := SlotsLen_append hX hP2
  rw [copy_encD pr nx pr nx [] ((X ++ P2).take P2.length) ((X ++ P2).drop P2.length) X P2 []
    hn (SlotsLen_take hXP _) (SlotsLen_drop hXP _) hX hP2 hn (by simp) _ _
    (by simp) (by simp) 0 (↑X.length) (↑(X ++ P2).length - ↑X.length) rfl rfl (by simp)]
  show (do let p ← btreeDataPage.setLen _ _; _) = _
  rw [setLen_shrink pr nx ([] ++ P2) _ (by simpa using hP2) (SlotsLen_drop hXP _) _ (by simp)]
  simp

theorem moveRight_encD (pr nx pr2 nx2 : Nat) (P1 X R : List Slot) (hP1 : SlotsLen P1)
    (hX : SlotsLen X) (hR : SlotsLen R) (z : Int) (hz : z = X.length) :
    btreeDataPage.moveRight (encD pr nx (P1 ++ X)) (encD pr2 nx2 R) z =
      .ok (encD pr nx P1, encD pr2 nx2 (X ++ R)) := by
  subst hz
  have hn : SlotsLen ([] : List Slot) := by intro x hx; simp at hx
  have hZ := SlotsLen_replicate X.length
  have hRZ : SlotsLen (R ++ List.replicate X.length zeroSlot) := SlotsLen_append hR hZ
  unfold btreeDataPage.moveRight
  simp only [dataLen_encD _ _ _ (SlotsLen_append hP1 hX), dataLen_encD _ _ _ hR]
  rw [setLen_grow pr2 nx2 R hR (↑R.length + ↑X.length) X.length (by push_cast; ring)]
  show (do let right ← btreeDataPage.copy _ _ _ _ _; _) = _
  rw [copy_encD pr2 nx2 pr2 nx2 ((R ++ List.replicate X.length zeroSlot).take X.length)
    ((R ++ List.replicate X.length zeroSlot).drop X.length) [] [] R
    (List.replicate X.length zeroSlot) (SlotsLen_take hRZ _) (SlotsLen_drop hRZ _) hn hn hR hZ
    (by simp) _ _ (by simp) (by simp) (↑X.length) 0 (↑R.length) (by simp) rfl (by simp)]
  show (do let right ← btreeDataPage.copy _ _ _ _ _; _) = _
  rw [copy_encD pr2 nx2 pr nx [] ((R ++ List.replicate X.length zeroSlot).take X.length)
    (R ++ []) P1 X [] hn (SlotsLen_take hRZ _) (by simpa using hR) hP1 hX hn (by simp) _ _
    (by simp) (by simp) 0 (↑(P1 ++ X).length - ↑X.length) (↑X.length) rfl (by simp) (by simp)]
  show (do let p ← btreeDataPage.setLen _ _; _) = _
  rw [setLen_shrink pr nx P1 X hP1 hX _ (by simp)]
  simp

/-! ## The memory store -/

theorem mget_cons (k1 : Nat) (v : Bytes) (r : List (Nat × Bytes)) (k : Nat) :
    mget ((k1, v) :: r) k = if k1 = k then some v else mget r k := rfl

theorem mdel_cons (k1 : Nat) (v : Bytes) (r : List (Nat × Bytes)) (k : Nat) :
    mdel ((k1, v) :: r) k = if k1 = k then mdel r k else (k1, v) :: mdel r k := rfl

theorem mget_mdel (m : List (Nat × Bytes)) (k k2 : Nat) :
    mget (mdel m k) k2 = if k = k2 then none else mget m k2 := by
  induction m with
  | nil => simp [mget, mdel]
  | cons a m ih =>
    obtain ⟨k1, v⟩ := a
    rw [mdel_cons, mget_cons]
    by_cases h1 : k1 = k
    · rw [if_pos h1, ih]
      by_cases h2 : k = k2
      · rw [if_pos h2, if_pos h2]
      · rw [if_neg h2, if_neg h2, if_neg (by omega)]
    · rw [if_neg h1, mget_cons, ih]
      by_cases h2 : k1 = k2
      · rw [if_pos h2, if_neg (by omega), if_pos h2]
      · rw [if_neg h2, if_neg h2]

theorem mget_mset (m : List (Nat × Bytes)) (k k2 : Nat) (v : Bytes) :
    mget (mset m k v) k2 = if k = k2 then some v else mget m k2 := by
  unfold mset
  show (if k = k2 then some v else mget (mdel m k) k2) = _
  by_cases h : k = k2
  · rw [if_pos h, if_pos h]
  · rw [if_neg h, if_neg h, mget_mdel, if_neg h]

theorem Get_ok (s : memBTreeStore) (h : Nat) (b : Bytes) (hb : mget s.m h = some b) :
    memBTreeStore.Get h s = (.ok b, s) := by
  unfold memBTreeStore.Get
  rw [hb]

theorem Realloc_ok (s : memBTreeStore) (h : Nat) (b b0 : Bytes) (hb : mget s.m h = some b0) :
    memBTreeStore.Realloc h b s = (.ok (), ⟨s.h, mset s.m h b⟩) := by
  unfold memBTreeStore.Realloc
  rw [hb]

theorem Free_ok (s : memBTreeStore) (h : Nat) (b0 : Bytes) (hb : mget s.m h = some b0) :
    memBTreeStore.Free h s = (.ok (), ⟨s.h, mdel s.m h⟩) := by
  unfold memBTreeStore.Free
  rw [hb]

theorem Alloc_ok (s : memBTreeStore) (b : Bytes) :
    memBTreeStore.Alloc b s = (.ok (s.h + 1), ⟨s.h + 1, mset s.m (s.h + 1) b⟩) := rfl

/-! ## Content fields -/

theorem fieldH_cons (f0 : Nat) (ft : Bytes) :
    fieldH (f0 :: ft) = if f0 ≥ 19 then b2hN (ft.drop 11) else 0 := by
  simp [fieldH]

theorem fieldB_cons (f0 : Nat) (ft : Bytes) :
    fieldB (f0 :: ft) = if f0 ≥ 19 then ft.take 11 else ft.take f0 := by
  simp [fieldB]

theorem b2hN_append (a r : Bytes) (ha : a.length = 7) : b2hN (a ++ r) = b2hN a := by
  unfold b2hN
  rw [List.take_append_of_le_length (by omega)]

/-- Reading the field `f` found at offset `n` of the page. -/
theorem contentField_of (p : Bytes) (off : Int) (n : Nat) (hoff : off = n) (f rest : Bytes)
    (hp : p.drop n = f ++ rest) (hf : f.length = 19) :
    btreeDataPage.contentField p off = .ok (fieldB f, fieldH f) := by
  have hn : n ≤ p.length := by
    by_contra hc
    rw [List.drop_of_length_le (by omega)] at hp
    have := congrArg List.length hp
    simp at this
    omega
  unfold btreeDataPage.contentField
  rw [sliceFrom_of p off n hoff hn, hp]
  obtain ⟨f0, ft, rfl⟩ : ∃ f0 ft, f = f0 :: ft := by
    cases f with
    | nil => simp at hf
    | cons a l => exact ⟨a, l, rfl⟩
  have hft : ft.length = 18 := by simpa using hf
  show (do let n ← byteAt (f0 :: ft ++ rest) 0; _) = _
  rw [byteAt_of _ 0 0 rfl f0 (by simp)]
  show (if f0 ≥ kKV then _ else _) = _
  rw [kKV_eq, fieldB_cons, fieldH_cons]
  by_cases h0 : f0 ≥ 19
  · rw [if_pos h0, if_pos h0, if_pos h0]
    rw [slice_of _ 1 _ 1 12 rfl (by simp [kSz_eq]) (by omega) (by simp; omega)]
    rw [sliceFrom_of _ _ 12 (by simp [kH_eq]) (by simp; omega)]
    show (do let h ← b2h (List.drop 12 (f0 :: ft ++ rest)); _) = _
    rw [b2h_eq _ (by simp; omega)]
    show Except.ok _ = _
    congr 2
    · simp only [List.cons_append, List.drop_succ_cons, List.drop_zero]
      rw [List.take_append_of_le_length (by omega)]
    · have : List.drop 12 (f0 :: ft ++ rest) = ft.drop 11 ++ rest := by
        simp only [List.cons_append, List.drop_succ_cons]
        rw [List.drop_append_of_le_length (by omega)]
      rw [this, b2hN_append _ _ (by simp; omega)]
  · rw [if_neg h0, if_neg h0, if_neg h0]
    rw [slice_of _ 1 _ 1 (1 + f0) rfl (by push_cast; ring) (by omega) (by simp; omega)]
    show Except.ok _ = _
    congr 2
    simp only [List.cons_append, List.drop_succ_cons, List.drop_zero]
    rw [show 1 + f0 - 1 = f0 by omega, List.take_append_of_le_length (by omega)]

theorem content_of (p : Bytes) (off : Int) (n : Nat) (hoff : off = n) (f rest : Bytes)
    (hp : p.drop n = f ++ rest) (s : memBTreeStore) (hf : FieldOk s.m f) :
    btreeDataPage.content p off s = (.ok (fieldVal s.m f), s) := by
  unfold btreeDataPage.content
  simp only [M_bind, M_monadLift, contentField_of p off n hoff f rest hp hf.1]
  unfold fieldVal
  by_cases h : fieldH f = 0
  · rw [if_pos h, if_pos h]
    rfl
  · rw [if_neg h, if_neg h]
    rcases hf.2 with h1 | ⟨_, h2⟩
    · exfalso
      apply h
      unfold fieldH
      rw [if_neg (by omega)]
    · obtain ⟨blob, hb⟩ := Option.isSome_iff_exists.1 h2
      simp only [M_bind, Get_ok s _ blob hb, hb, Option.getD_some]
      rfl

/-! ## Writing content fields -/

theorem take_pre {α : Type} (pre X : List α) (n : Nat) (h : pre.length = n) :
    (pre ++ X).take n = pre := by
  subst h; exact List.take_left' rfl

theorem drop_pre {α : Type} (pre X : List α) (n : Nat) (h : pre.length = n) :
    (pre ++ X).drop n = X := by
  subst h; exact List.drop_left' rfl

theorem drop_pre_add {α : Type} (pre X : List α) (n k m : Nat) (h : pre.length = n)
    (hm : m = n + k) : (pre ++ X).drop m = X.drop k := by
  subst h hm
  rw [← List.drop_drop, List.drop_left' rfl]

theorem take_pre_add {α : Type} (pre X : List α) (n k m : Nat) (h : pre.length = n)
    (hm : m = n + k) : (pre ++ X).take m = pre ++ X.take k := by
  subst h hm
  rw [List.take_append]

theorem set_pre {α : Type} (pre Y : List α) (x v : α) (n : Nat) (h : pre.length = n) :
    (pre ++ x :: Y).set n v = pre ++ v :: Y := by
  subst h
  induction pre with
  | nil => rfl
  | cons a l ih => simp [ih]

theorem get?_pre {α : Type} (pre Y : List α) (x : α) (n : Nat) (h : pre.length = n) :
    (pre ++ x :: Y).get? n = some x := by
  subst h
  induction pre with
  | nil => rfl
  | cons a l ih => simpa using ih

theorem copyTo_short (p : Bytes) (lo hi : Int) (a b : Nat) (src : Bytes) (ha : lo = a)
    (hb : hi = b) (hbl : b ≤ p.length) (hs : a + src.length ≤ b) :
    copyTo p lo hi src = .ok (p.take a ++ src ++ p.drop (a + src.length)) := by
  subst ha hb
  unfold copyTo
  rw [if_pos ⟨by omega, by omega, by omega⟩]
  have e1 : ((b : Int) - (a : Int)).toNat = b - a := by omega
  simp only [Int.toNat_ofNat, e1, Nat.min_eq_right (show src.length ≤ b - a by omega),
    List.take_length]

theorem fieldSetInline_length (f b : Bytes) (hf : f.length = 19) (hb : b.length < 19) :
    (fieldSetInline f b).length = 19 := by
  simp [fieldSetInline]
  omega

theorem fieldSetOv_length (t : Nat) (b hb : Bytes) (hb7 : hb.length = 7) (hbl : 19 ≤ b.length) :
    (fieldSetOv t b hb).length = 19 := by
  simp [fieldSetOv, hb7]
  omega

/-- Writing `b` over the field `f` that starts at offset `n` of the page. -/
theorem setContent_of (off : Int) (n : Nat) (hoff : off = n) (pre f rest b : Bytes)
    (hpre : pre.length = n) (s : memBTreeStore) (hf : FieldOk s.m f) :
    btreeDataPage.setContent (pre ++ f ++ rest) off b s =
      (.ok (pre ++ (setField s f b).1 ++ rest), (setField s f b).2) := by
  obtain ⟨f0, ft, rfl⟩ : ∃ f0 ft, f = f0 :: ft := by
    cases f with
    | nil => have := hf.1; simp at this
    | cons a l => exact ⟨a, l, rfl⟩
  have hft : ft.length = 18 := by simpa using hf.1
  have hp : pre ++ f0 :: ft ++ rest = pre ++ f0 :: (ft ++ rest) := by simp
  have hlen : (pre ++ f0 :: (ft ++ rest)).length = n + 19 + rest.length := by
    simp [hpre, hft]; omega
  unfold btreeDataPage.setContent setField
  simp only [M_bind, M_monadLift, hp, List.headD_cons, kKV_cast, kKV_eq]
  rw [sliceFrom_of _ off n hoff (by omega)]
  simp only [M_bind, M_liftM, M_monadLift, M_pure]
  rw [byteAt_of _ off n hoff f0 (get?_pre pre _ f0 n hpre)]
  simp only [M_bind, M_liftM, M_monadLift, M_pure]
  by_cases h0 : f0 ≥ 19
  · rw [if_pos h0, if_pos h0]
    have hH : fieldH (f0 :: ft) ≠ 0 ∧ (mget s.m (fieldH (f0 :: ft))).isSome = true := by
      rcases hf.2 with h1 | h2
      · simp at h1; omega
      · exact h2
    obtain ⟨blob, hblob⟩ := Option.isSome_iff_exists.1 hH.2
    have hHe : fieldH (f0 :: ft) = b2hN (ft.drop 11) := by rw [fieldH_cons, if_pos h0]
    by_cases hb : b.length < 19
    · rw [if_pos (by omega), if_pos hb]
      rw [setByte_of _ off n hoff _ (by omega), set_pre pre _ f0 _ n hpre]
      simp only [M_bind, M_liftM, M_monadLift, M_pure]
      rw [b2hAt_of _ _ (n + 12) (by rw [hoff, kH_cast]; push_cast; ring)
        (by simp [hpre, hft]; omega)]
      simp only [M_bind, M_liftM, M_monadLift, M_pure]
      rw [drop_pre_add pre _ n 12 _ hpre rfl]
      have e12 : List.drop 12 (b.length :: (ft ++ rest)) = ft.drop 11 ++ rest := by
        simp only [List.drop_succ_cons]
        rw [List.drop_append_of_le_length (by omega)]
      rw [e12, b2hN_append _ _ (by simp; omega), ← hHe, Free_ok s _ blob hblob]
      simp only [M_monadLift]
      unfold copyFrom
      rw [copyTo_short _ _ _ (n + 1) _ b (by rw [hoff]; push_cast; ring) rfl (le_refl _)
        (by simp [hpre, hft]; omega)]
      congr 2
      rw [take_pre_add pre _ n 1 _ hpre rfl, drop_pre_add pre _ n (1 + b.length) _ hpre (by omega)]
      simp only [fieldSetInline, List.take_succ_cons, List.take_zero, List.append_assoc,
        List.cons_append, List.nil_append, List.drop_succ_cons]
      rw [show 1 + b.length = b.length + 1 by omega]
      simp only [List.drop_succ_cons]
      rw [List.drop_append_of_le_length (by omega)]
    · rw [if_neg (by omega), if_neg hb]
      rw [copyTo_of _ _ _ (n + 1) (n + 12) b (by rw [hoff]; push_cast; ring)
        (by rw [hoff, kSz_cast]; push_cast; ring) (by omega) (by omega) (by omega)]
      simp only [M_bind, M_liftM, M_monadLift, M_pure]
      have e1 : List.take (n + 1) (pre ++ f0 :: (ft ++ rest)) ++ List.take (n + 12 - (n + 1)) b ++
          List.drop (n + 12) (pre ++ f0 :: (ft ++ rest)) =
          pre ++ (fieldSetOv f0 b ((f0 :: ft).drop 12)) ++ rest := by
        rw [take_pre_add pre _ n 1 _ hpre rfl, drop_pre_add pre _ n 12 _ hpre rfl]
        simp only [fieldSetOv, List.take_succ_cons, List.take_zero, List.append_assoc,
          List.cons_append, List.nil_append, List.drop_succ_cons]
        rw [List.drop_append_of_le_length (by omega), show n + 12 - (n + 1) = 11 by omega]
      rw [e1]
      rw [b2hAt_of _ _ (n + 12) (by rw [hoff, kH_cast]; push_cast; ring)
        (by simp [fieldSetOv, hpre, hft]; omega)]
      simp only [M_bind, M_liftM, M_monadLift, M_pure]
      have e2 : List.drop (n + 12) (pre ++ fieldSetOv f0 b (List.drop 12 (f0 :: ft)) ++ rest) =
          ft.drop 11 ++ rest := by
        rw [List.append_assoc, drop_pre_add pre _ n 12 _ hpre rfl]
        simp only [fieldSetOv, List.cons_append, List.drop_succ_cons]
        rw [List.drop_append_of_le_length (by simp; omega),
          List.drop_append_of_le_length (by simp; omega), List.drop_of_length_le (by simp)]
        simp
      rw [e2, b2hN_append _ _ (by simp; omega), ← hHe]
      rw [sliceFrom_of _ _ 11 (by rw [kSz_cast]; rfl) (by omega)]
      simp only [M_bind, M_liftM, M_monadLift, M_pure]
      rw [Realloc_ok s _ _ blob hblob]
  · rw [if_neg h0, if_neg h0]
    by_cases hb : b.length < 19
    · rw [if_pos (by omega), if_pos hb]
      rw [setByte_of _ off n hoff _ (by omega), set_pre pre _ f0 _ n hpre]
      simp only [M_bind, M_liftM, M_monadLift, M_pure]
      unfold copyFrom
      rw [copyTo_short _ _ _ (n + 1) _ b (by rw [hoff]; push_cast; ring) rfl (le_refl _)
        (by simp [hpre, hft]; omega)]
      congr 2
      rw [take_pre_add pre _ n 1 _ hpre rfl, drop_pre_add pre _ n (1 + b.length) _ hpre (by omega)]
      simp only [fieldSetInline, List.take_succ_cons, List.take_zero, List.append_assoc,
        List.cons_append, List.nil_append, List.drop_succ_cons]
      rw [show 1 + b.length = b.length + 1 by omega]
      simp only [List.drop_succ_cons]
      rw [List.drop_append_of_le_length (by omega)]
    · rw [if_neg (by omega), if_neg hb]
      rw [setByte_of _ off n hoff _ (by omega), set_pre pre _ f0 _ n hpre]
      simp only [M_bind, M_liftM, M_monadLift, M_pure]
      rw [copyTo_of _ _ _ (n + 1) (n + 12) b (by rw [hoff]; push_cast; ring)
        (by rw [hoff, kSz_cast]; push_cast; ring) (by omega) (by simp [hpre, hft]; omega)
        (by omega)]
      simp only [M_bind, M_liftM, M_monadLift, M_pure]
      have e1 : List.take (n + 1) (pre ++ 255 :: (ft ++ rest)) ++ List.take (n + 12 - (n + 1)) b ++
          List.drop (n + 12) (pre ++ 255 :: (ft ++ rest)) =
          (pre ++ 255 :: List.take 11 b) ++ (ft.drop 11 ++ rest) := by
        rw [take_pre_add pre _ n 1 _ hpre rfl, drop_pre_add pre _ n 12 _ hpre rfl]
        simp only [List.take_succ_cons, List.take_zero, List.append_assoc,
          List.cons_append, List.nil_append, List.drop_succ_cons]
        rw [List.drop_append_of_le_length (by omega), show n + 12 - (n + 1) = 11 by omega]
      rw [e1]
      have hl2 : (pre ++ 255 :: List.take 11 b).length = n + 12 := by
        simp [hpre]; omega
      rw [sliceFrom_of _ _ 11 (by rw [kSz_cast]; rfl) (by omega)]
      simp only [M_bind, M_liftM, M_monadLift, M_pure, Alloc_ok]
      rw [h2bAt_of _ _ (n + 12) (by rw [hoff, kH_cast]; push_cast; ring) _
        (by rw [List.length_append, hl2]; simp; omega)]
      congr 2
      rw [take_pre _ _ (n + 12) hl2, drop_pre_add _ _ (n + 12) 7 _ hl2 rfl,
        List.drop_append_of_le_length (by simp; omega), List.drop_of_length_le (by simp; omega)]
      simp [fieldSetOv]

/-! ## Items of a data page -/

theorem encD_mid (pr nx : Nat) (A B : List Slot) (kf vf : Bytes) :
    encD pr nx (A ++ (kf, vf) :: B) = encD pr nx A ++ kf ++ (vf ++ (B.map Slot.bytes).flatten) := by
  rw [encD_append]
  simp [Slot.bytes]

theorem encD_mid2 (pr nx : Nat) (A B : List Slot) (kf vf : Bytes) :
    encD pr nx (A ++ (kf, vf) :: B) = (encD pr nx A ++ kf) ++ vf ++ (B.map Slot.bytes).flatten := by
  rw [encD_append]
  simp [Slot.bytes]

theorem encD_drop_key (pr nx : Nat) (A B : List Slot) (kf vf : Bytes) (hA : SlotsLen A) :
    (encD pr nx (A ++ (kf, vf) :: B)).drop (15 + 38 * A.length) =
      kf ++ (vf ++ (B.map Slot.bytes).flatten) := by
  rw [encD_mid, List.append_assoc, drop_pre _ _ _ (encD_length pr nx A hA)]

theorem encD_drop_val (pr nx : Nat) (A B : List Slot) (kf vf : Bytes) (hA : SlotsLen A)
    (hk : kf.length = 19) :
    (encD pr nx (A ++ (kf, vf) :: B)).drop (15 + 19 + 38 * A.length) =
      vf ++ (B.map Slot.bytes).flatten := by
  rw [encD_mid2, List.append_assoc, drop_pre _ _ _ (by
    rw [List.length_append, encD_length pr nx A hA, hk]; omega)]

theorem key_encD (pr nx : Nat) (A B : List Slot) (kf vf : Bytes) (hA : SlotsLen A)
    (z : Int) (hz : z = A.length) (s : memBTreeStore) (hf : FieldOk s.m kf) :
    btreeDataPage.key (encD pr nx (A ++ (kf, vf) :: B)) z s = (.ok (fieldVal s.m kf), s) := by
  unfold btreeDataPage.key
  exact content_of _ _ (15 + 38 * A.length) (by rw [hz, kKV_cast]; push_cast; ring) kf _
    (encD_drop_key pr nx A B kf vf hA) s hf

theorem value_encD (pr nx : Nat) (A B : List Slot) (kf vf : Bytes) (hA : SlotsLen A)
    (hk : kf.length = 19) (z : Int) (hz : z = A.length) (s : memBTreeStore)
    (hf : FieldOk s.m vf) :
    btreeDataPage.value (encD pr nx (A ++ (kf, vf) :: B)) z s = (.ok (fieldVal s.m vf), s) := by
  unfold btreeDataPage.value
  exact content_of _ _ (15 + 19 + 38 * A.length) (by rw [hz, kKV_cast]; push_cast; ring) vf _
    (encD_drop_val pr nx A B kf vf hA hk) s hf

theorem valueCopy_encD (pr nx : Nat) (A B : List Slot) (kf vf : Bytes) (hA : SlotsLen A)
    (hk : kf.length = 19) (z : Int) (hz : z = A.length) (s : memBTreeStore)
    (hf : FieldOk s.m vf) :
    btreeDataPage.valueCopy (encD pr nx (A ++ (kf, vf) :: B)) z s =
      (.ok (appendNil (fieldVal s.m vf)), s) := by
  have := value_encD pr nx A B kf vf hA hk z hz s hf
  unfold btreeDataPage.value at this
  unfold btreeDataPage.valueCopy
  simp only [M_bind, this, M_pure]

theorem cmp_encD (pr nx : Nat) (A B : List Slot) (kf vf : Bytes) (hA : SlotsLen A)
    (c : Bytes → Bytes → Int) (keyA : Bytes) (z : Int) (hz : z = A.length) (s : memBTreeStore)
    (hf : FieldOk s.m kf) :
    btreeDataPage.cmp (encD pr nx (A ++ (kf, vf) :: B)) c keyA z s =
      (.ok (c keyA (fieldVal s.m kf)), s) := by
  have := key_encD pr nx A B kf vf hA z hz s hf
  unfold btreeDataPage.key at this
  unfold btreeDataPage.cmp
  simp only [M_bind, this, M_pure]

theorem keyField_encD (pr nx : Nat) (A B : List Slot) (kf vf : Bytes) (hA : SlotsLen A)
    (hk : kf.length = 19) (z : Int) (hz : z = A.length) :
    btreeDataPage.keyField (encD pr nx (A ++ (kf, vf) :: B)) z = .ok (fieldB kf, fieldH kf) := by
  unfold btreeDataPage.keyField
  exact contentField_of _ _ (15 + 38 * A.length) (by rw [hz, kKV_cast]; push_cast; ring) kf _
    (encD_drop_key pr nx A B kf vf hA) hk

theorem valueField_encD (pr nx : Nat) (A B : List Slot) (kf vf : Bytes) (hA : SlotsLen A)
    (hk : kf.length = 19) (hv : vf.length = 19) (z : Int) (hz : z = A.length) :
    btreeDataPage.valueField (encD pr nx (A ++ (kf, vf) :: B)) z =
      .ok (fieldB vf, fieldH vf) := by
  unfold btreeDataPage.valueField
  exact contentField_of _ _ (15 + 19 + 38 * A.length) (by rw [hz, kKV_cast]; push_cast; ring) vf _
    (encD_drop_val pr nx A B kf vf hA hk) hv

theorem setKey_encD (pr nx : Nat) (A B : List Slot) (kf vf : Bytes) (hA : SlotsLen A)
    (z : Int) (hz : z = A.length) (b : Bytes) (s : memBTreeStore) (hf : FieldOk s.m kf) :
    btreeDataPage.setKey (encD pr nx (A ++ (kf, vf) :: B)) z b s =
      (.ok (encD pr nx (A ++ ((setField s kf b).1, vf) :: B)), (setField s kf b).2) := by
  unfold btreeDataPage.setKey
  rw [encD_mid, encD_mid]
  exact setContent_of _ (15 + 38 * A.length) (by rw [hz, kKV_cast]; push_cast; ring) _ kf _ b
    (encD_length pr nx A hA) s hf

theorem setValue_encD (pr nx : Nat) (A B : List Slot) (kf vf : Bytes) (hA : SlotsLen A)
    (hk : kf.length = 19) (z : Int) (hz : z = A.length) (b : Bytes) (s : memBTreeStore)
    (hf : FieldOk s.m vf) :
    btreeDataPage.setValue (encD pr nx (A ++ (kf, vf) :: B)) z b s =
      (.ok (encD pr nx (A ++ (kf, (setField s vf b).1) :: B)), (setField s vf b).2) := by
  unfold btreeDataPage.setValue
  rw [encD_mid2, encD_mid2]
  exact setContent_of _ (15 + 19 + 38 * A.length) (by rw [hz, kKV_cast]; push_cast; ring) _ vf _ b
    (by rw [List.length_append, encD_length pr nx A hA, hk]; omega) s hf

theorem FieldOk_zeros (m : List (Nat × Bytes)) : FieldOk m (zeros 19) := by
  refine ⟨by simp, Or.inl ?_⟩
  simp [zeros, List.replicate]

theorem setField_length (s : memBTreeStore) (f b : Bytes) (hf : f.length = 19) :
    (setField s f b).1.length = 19 := by
  unfold setField
  split_ifs with h1 h2 h2
  · exact fieldSetInline_length f b hf h2
  · exact fieldSetOv_length _ b _ (by simp; omega) (by omega)
  · exact fieldSetInline_length f b hf h2
  · exact fieldSetOv_length _ b _ (by simp) (by omega)

theorem insertItem_encD (pr nx : Nat) (A B : List Slot) (hA : SlotsLen A) (hB : SlotsLen B)
    (z : Int) (hz : z = A.length) (key value : Bytes) (s : memBTreeStore) :
    btreeDataPage.insertItem (encD pr nx (A ++ B)) z key value s =
      (.ok (encD pr nx (A ++ ((setField s (zeros 19) key).1,
          (setField (setField s (zeros 19) key).2 (zeros 19) value).1) :: B)),
       (setField (setField s (zeros 19) key).2 (zeros 19) value).2) := by
  have h := insert_zero_encD pr nx A B hA hB z hz
  unfold btreeDataPage.insertItem
  simp only [M_bind, M_liftM, M_monadLift, M_pure]
  cases hi : btreeDataPage.insert (encD pr nx (A ++ B)) z with
  | error e => rw [hi] at h; exact absurd h (by simp [bind, Except.bind])
  | ok p1 =>
    rw [hi] at h
    have h2 : copyTo p1 (15 + 2 * ↑kKV * z) (15 + 2 * ↑kKV * z + 2 * ↑kKV) (zeros (2 * kKV)) =
        .ok (encD pr nx (A ++ zeroSlot :: B)) := h
    simp only [h2]
    rw [show zeroSlot = (zeros 19, zeros 19) from rfl,
      setKey_encD pr nx A B _ _ hA z hz key s (FieldOk_zeros _)]
    simp only []
    rw [setValue_encD pr nx A B _ _ hA (setField_length s _ key (by simp)) z hz value _
      (FieldOk_zeros _)]

/-! ## What a field write does -/

theorem fieldH_inline (f b : Bytes) (hb : b.length < 19) : fieldH (fieldSetInline f b) = 0 := by
  simp [fieldH, fieldSetInline]
  omega

theorem fieldB_inline (f b : Bytes) (hb : b.length < 19) : fieldB (fieldSetInline f b) = b := by
  unfold fieldB fieldSetInline
  simp only [List.headD_cons, List.drop_succ_cons, List.drop_zero]
  rw [if_neg (by omega), List.take_left' rfl]

theorem fieldH_ov (t : Nat) (b hb : Bytes) (ht : 19 ≤ t) (hbl : 19 ≤ b.length) :
    fieldH (fieldSetOv t b hb) = b2hN hb := by
  unfold fieldH fieldSetOv
  simp only [List.headD_cons, List.drop_succ_cons]
  rw [if_pos ht, drop_pre _ _ 11 (by simp; omega)]

theorem fieldB_ov (t : Nat) (b hb : Bytes) (ht : 19 ≤ t) (hbl : 19 ≤ b.length) :
    fieldB (fieldSetOv t b hb) = b.take 11 := by
  unfold fieldB fieldSetOv
  simp only [List.headD_cons, List.drop_succ_cons, List.drop_zero]
  rw [if_pos ht, take_pre _ _ 11 (by simp; omega)]

theorem fieldH_of_ov (f : Bytes) (h : f.headD 0 ≥ 19) : fieldH f = b2hN (f.drop 12) := by
  unfold fieldH; rw [if_pos h]

theorem fieldH_of_inline (f : Bytes) (h : f.headD 0 < 19) : fieldH f = 0 := by
  unfold fieldH; rw [if_neg (by omega)]

theorem FieldOk.handle_live {m : List (Nat × Bytes)} {f : Bytes} (hf : FieldOk m f)
    (h : fieldH f ≠ 0) : (mget m (fieldH f)).isSome = true := by
  rcases hf.2 with h1 | h2
  · exact absurd (fieldH_of_inline f h1) h
  · exact h2.2

theorem setField_h (s : memBTreeStore) (f b : Bytes) :
    (setField s f b).2.h = if f.headD 0 < 19 ∧ 19 ≤ b.length then s.h + 1 else s.h := by
  unfold setField
  split_ifs <;> first | rfl | omega

theorem setField_h_le (s : memBTreeStore) (f b : Bytes) :
    s.h ≤ (setField s f b).2.h ∧ (setField s f b).2.h ≤ s.h + 1 := by
  rw [setField_h]
  split_ifs <;> omega

/-- The overflow handle of the written field. -/
theorem fieldH_setField (s : memBTreeStore) (f b : Bytes) (hs : s.h + 1 < 2 ^ 56) :
    fieldH (setField s f b).1 =
      if b.length < 19 then 0 else if f.headD 0 ≥ 19 then fieldH f else s.h + 1 := by
  unfold setField
  by_cases h0 : f.headD 0 ≥ 19
  · by_cases hb : b.length < 19
    · rw [if_pos h0, if_pos hb, if_pos hb]; exact fieldH_inline f b hb
    · rw [if_pos h0, if_neg hb, if_neg hb, if_pos h0]
      show fieldH (fieldSetOv _ _ _) = _
      rw [fieldH_ov _ _ _ h0 (by omega), fieldH_of_ov f h0]
  · by_cases hb : b.length < 19
    · rw [if_neg h0, if_pos hb, if_pos hb]; exact fieldH_inline f b hb
    · rw [if_neg h0, if_neg hb, if_neg hb, if_neg h0]
      show fieldH (fieldSetOv _ _ _) = _
      rw [fieldH_ov _ _ _ (by omega) (by omega)]
      have := b2hN_h2bBytes (s.h + 1) hs []
      simpa using this

/-- The store map after a field write, at another handle. -/
theorem mget_setField (s : memBTreeStore) (f b : Bytes) (k : Nat) (h1 : k ≠ fieldH f)
    (h2 : k ≠ s.h + 1) : mget (setField s f b).2.m k = mget s.m k := by
  unfold setField
  split_ifs
  · show mget (mdel _ _) _ = _
    rw [mget_mdel, if_neg (fun h => h1 h.symm)]
  · show mget (mset _ _ _) _ = _
    rw [mget_mset, if_neg (fun h => h1 h.symm)]
  · rfl
  · show mget (mset _ _ _) _ = _
    rw [mget_mset, if_neg (fun h => h2 h.symm)]

/-- The written field is well formed and holds `b`. -/
theorem setField_ok (s : memBTreeStore) (f b : Bytes) (hf : FieldOk s.m f)
    (hs : s.h + 1 < 2 ^ 56) :
    FieldOk (setField s f b).2.m (setField s f b).1 ∧
      fieldVal (setField s f b).2.m (setField s f b).1 = b := by
  have hH := fieldH_setField s f b hs
  have hl := setField_length s f b hf.1
  unfold fieldVal FieldOk
  rw [hH]
  unfold setField at hl ⊢
  by_cases h0 : f.headD 0 ≥ 19
  · have hlive := hf.handle_live (by
      rcases hf.2 with h1 | h2
      · omega
      · exact h2.1)
    have hne : fieldH f ≠ 0 := by
      rcases hf.2 with h1 | h2
      · omega
      · exact h2.1
    by_cases hb : b.length < 19
    · simp only [if_pos h0, if_pos hb] at hl ⊢
      refine ⟨⟨hl, Or.inl ?_⟩, fieldB_inline f b hb⟩
      simp [fieldSetInline]; omega
    · simp only [if_pos h0, if_neg hb, if_neg hne] at hl ⊢
      refine ⟨⟨hl, Or.inr ⟨hne, ?_⟩⟩, ?_⟩
      · rw [mget_mset, if_pos rfl]; rfl
      · rw [mget_mset, if_pos rfl, fieldB_ov _ _ _ h0 (by omega)]
        simp
  · by_cases hb : b.length < 19
    · simp only [if_neg h0, if_pos hb] at hl ⊢
      refine ⟨⟨hl, Or.inl ?_⟩, fieldB_inline f b hb⟩
      simp [fieldSetInline]; omega
    · simp only [if_neg h0, if_neg hb, if_neg (Nat.succ_ne_zero s.h)] at hl ⊢
      refine ⟨⟨hl, Or.inr ⟨Nat.succ_ne_zero _, ?_⟩⟩, ?_⟩
      · rw [mget_mset, if_pos rfl]; rfl
      · rw [mget_mset, if_pos rfl, fieldB_ov _ _ _ (by omega) (by omega)]
        simp

/-! ## Index pages as lists of handles -/

theorem h2b_len7 (S : List Nat) : ∀ x ∈ S, (h2bBytes x).length = 7 := fun _ _ => rfl

theorem encH_length (hs : List Nat) : (encH hs).length = 1 + 7 * hs.length := by
  simp only [encH, List.length_cons, flatten_length_uniform _ 7 hs (h2b_len7 hs)]
  omega

theorem encH_append (A B : List Nat) :
    encH (A ++ B) = encH A ++ (B.map h2bBytes).flatten := by
  simp [encH]

theorem encH_take_left (A B : List Nat) (n : Nat) (hn : n = 1 + 7 * A.length) :
    (encH (A ++ B)).take n = encH A := by
  subst hn
  rw [encH_append, take_pre _ _ _ (encH_length A)]

theorem encH_drop_left (A B : List Nat) (n : Nat) (hn : n = 1 + 7 * A.length) :
    (encH (A ++ B)).drop n = (B.map h2bBytes).flatten := by
  subst hn
  rw [encH_append, drop_pre _ _ _ (encH_length A)]

theorem hflatten_take_left (Y Z : List Nat) (n : Nat) (hn : n = 7 * Y.length) :
    (((Y ++ Z).map h2bBytes).flatten).take n = (Y.map h2bBytes).flatten := by
  subst hn
  rw [flatten_take_uniform _ 7 _ (h2b_len7 _), List.take_left' rfl]

theorem hflatten_length (Y : List Nat) : ((Y.map h2bBytes).flatten).length = 7 * Y.length :=
  flatten_length_uniform _ 7 Y (h2b_len7 Y)

theorem indexLen_encH (hs : List Nat) :
    btreeIndexPage.len (encH hs) = ((hs.length - 1) / 2 : Nat) := by
  unfold btreeIndexPage.len
  rw [encH_length]
  congr 1
  omega

theorem b2hAt_encH (A B : List Nat) (x : Nat) (hx : x < 2 ^ 56) (z : Int)
    (hz : z = (1 + 7 * A.length : Nat)) : b2hAt (encH (A ++ x :: B)) z = .ok x := by
  rw [b2hAt_of _ z _ hz (by rw [encH_length]; simp; omega), encH_drop_left A _ _ rfl]
  simp only [List.map_cons, List.flatten_cons]
  rw [b2hN_h2bBytes x hx]

theorem h2bAt_encH (A B : List Nat) (x y : Nat) (z : Int)
    (hz : z = (1 + 7 * A.length : Nat)) :
    h2bAt (encH (A ++ x :: B)) z y = .ok (encH (A ++ y :: B)) := by
  rw [h2bAt_of _ z _ hz y (by rw [encH_length]; simp; omega), encH_take_left A _ _ rfl]
  congr 1
  rw [show A ++ x :: B = (A ++ [x]) ++ B by simp,
    encH_drop_left (A ++ [x]) B _ (by simp; omega), encH_append]
  simp

theorem child_encH (A B : List Nat) (x : Nat) (hx : x < 2 ^ 56) (z : Int) (i : Nat)
    (hz : z = i) (hA : A.length = 2 * i) :
    btreeIndexPage.child (encH (A ++ x :: B)) z = .ok x := by
  unfold btreeIndexPage.child
  exact b2hAt_encH A B x hx _ (by rw [hz, hA]; push_cast; ring)

theorem dataPage_encH (A B : List Nat) (x : Nat) (hx : x < 2 ^ 56) (z : Int) (i : Nat)
    (hz : z = i) (hA : A.length = 2 * i + 1) :
    btreeIndexPage.dataPage (encH (A ++ x :: B)) z = .ok x := by
  unfold btreeIndexPage.dataPage
  exact b2hAt_encH A B x hx _ (by rw [hz, hA]; push_cast; ring)

theorem setChild_encH (A B : List Nat) (x y : Nat) (z : Int) (i : Nat)
    (hz : z = i) (hA : A.length = 2 * i) :
    btreeIndexPage.setChild (encH (A ++ x :: B)) z y = .ok (encH (A ++ y :: B)) := by
  unfold btreeIndexPage.setChild
  exact h2bAt_encH A B x y _ (by rw [hz, hA]; push_cast; ring)

theorem setDataPage_encH (A B : List Nat) (x y : Nat) (z : Int) (i : Nat)
    (hz : z = i) (hA : A.length = 2 * i + 1) :
    btreeIndexPage.setDataPage (encH (A ++ x :: B)) z y = .ok (encH (A ++ y :: B)) := by
  unfold btreeIndexPage.setDataPage
  exact h2bAt_encH A B x y _ (by rw [hz, hA]; push_cast; ring)

theorem hzeros_flatten (k : Nat) :
    zeros (7 * k) = ((List.replicate k 0).map h2bBytes).flatten := by
  induction k with
  | zero => simp [zeros]
  | succ k ih =>
    rw [List.replicate_succ, List.map_cons, List.flatten_cons, ← ih]
    simp only [zeros, h2bBytes]
    rw [show 7 * (k + 1) = 7 + 7 * k by ring, List.replicate_add]
    rfl

/-- Truncating an index page to `n` entries. -/
theorem indexSetLen_shrink (A B : List Nat) (z : Int) (n : Nat) (hz : z = n)
    (hA : A.length = 2 * n + 1) :
    btreeIndexPage.setLen (encH (A ++ B)) z = .ok (encH A) := by
  subst hz
  unfold btreeIndexPage.setLen
  have hl := encH_length (A ++ B)
  rw [List.length_append] at hl
  by_cases h : B.length = 0
  · rw [if_neg (by rw [hl]; push_cast; omega)]
    have hB0 : B = [] := List.length_eq_zero.1 h
    subst hB0
    have : (8 + 14 * (n : Int) - ((encH (A ++ [])).length : Int)).toNat = 0 := by
      rw [hl]; push_cast; omega
    rw [this]
    simp [zeros]
    rfl
  · rw [if_pos (by rw [hl]; push_cast; omega)]
    rw [slice_of _ 0 _ 0 (8 + 14 * n) rfl (by push_cast; ring) (by omega)
      (by rw [hl]; omega)]
    rw [List.drop_zero, Nat.sub_zero, encH_take_left A B _ (by omega)]

/-- Growing an index page by `k` entries of zero handles. -/
theorem indexSetLen_grow (hs : List Nat) (z : Int) (n k : Nat) (hn : hs.length = 2 * n + 1)
    (hz : z = (n + k : Nat)) :
    btreeIndexPage.setLen (encH hs) z = .ok (encH (hs ++ List.replicate (2 * k) 0)) := by
  subst hz
  unfold btreeIndexPage.setLen
  rw [if_neg (by rw [encH_length]; push_cast; omega)]
  rw [encH_append, ← hzeros_flatten, encH_length]
  show Except.ok _ = _
  congr 3
  push_cast
  omega

/-- Overwrite the handles `X` of an index page by the handles `Y`, the source being at least
as long. -/
theorem copyTo_encH (A X B Y Z : List Nat) (hXY : X.length = Y.length) (lo hi : Int)
    (hlo : lo = (1 + 7 * A.length : Nat)) (hhi : hi = (1 + 7 * (A.length + X.length) : Nat)) :
    copyTo (encH (A ++ X ++ B)) lo hi (((Y ++ Z).map h2bBytes).flatten) =
      .ok (encH (A ++ Y ++ B)) := by
  rw [copyTo_of _ lo hi (1 + 7 * A.length) (1 + 7 * (A.length + X.length)) _ hlo hhi
    (by omega) (by rw [encH_length]; simp) (by rw [hflatten_length]; simp; omega)]
  rw [List.append_assoc A X B, encH_take_left A (X ++ B) _ rfl, ← List.append_assoc A X B,
    encH_drop_left (A ++ X) B _ (by simp),
    hflatten_take_left Y Z _ (by rw [← hXY]; omega), encH_append, encH_append]

/-- The same with a source `Y` that is shorter than the destination range. -/
theorem copyTo_encH_short (A X1 X2 B Y : List Nat) (hXY : X1.length = Y.length) (lo hi : Int)
    (hlo : lo = (1 + 7 * A.length : Nat))
    (hhi : hi = (1 + 7 * (A.length + X1.length + X2.length) : Nat)) :
    copyTo (encH (A ++ X1 ++ X2 ++ B)) lo hi ((Y.map h2bBytes).flatten) =
      .ok (encH (A ++ Y ++ X2 ++ B)) := by
  rw [copyTo_short _ lo hi (1 + 7 * A.length) (1 + 7 * (A.length + X1.length + X2.length)) _
    hlo hhi (by rw [encH_length]; simp; omega) (by rw [hflatten_length]; omega)]
  rw [List.append_assoc (A ++ X1), List.append_assoc A X1, encH_take_left A _ _ rfl,
    ← List.append_assoc A X1, encH_drop_left (A ++ X1) (X2 ++ B) _
      (by rw [hflatten_length]; simp; omega),
    encH_append, encH_append (A ++ Y), encH_append A Y]
  simp

/-- The same with a source of exactly the length of the destination range. -/
theorem copyTo_encH0 (A X B Y : List Nat) (hXY : X.length = Y.length) (lo hi : Int)
    (hlo : lo = (1 + 7 * A.length : Nat)) (hhi : hi = (1 + 7 * (A.length + X.length) : Nat)) :
    copyTo (encH (A ++ X ++ B)) lo hi ((Y.map h2bBytes).flatten) = .ok (encH (A ++ Y ++ B)) := by
  have := copyTo_encH A X B Y [] hXY lo hi hlo hhi
  simpa using this

/-! ## Index pages: new page, insert3, extract -/

theorem newBTreeIndexPage_eq (c : Nat) : newBTreeIndexPage c = .ok (encH [c]) := by
  unfold newBTreeIndexPage
  rw [setByte_of _ 0 0 rfl _ (by simp)]
  simp only [E_ok_bind, E_pure_eq, bind_assoc]
  rw [h2bAt_of _ 1 1 rfl c (by simp [zeros])]
  simp [encH, zeros]

theorem encH_zeros14 (hs : List Nat) : encH hs ++ zeros 14 = encH (hs ++ [0, 0]) := by
  rw [encH_append]
  rfl

theorem indexLen_of (hs : List Nat) (n : Nat) (h : hs.length = 2 * n + 1) :
    btreeIndexPage.len (encH hs) = n := by
  rw [indexLen_encH, h]
  congr 1
  omega

/-- `insert3` at entry `i`: the new separator and child go in after the handles `A`. -/
theorem insert3_encH (A B : List Nat) (z : Int) (i : Nat) (hz : z = i) (hA : A.length = 2 * i + 1)
    (hB : B.length % 2 = 0) (d c : Nat) :
    btreeIndexPage.insert3 (encH (A ++ B)) z d c = .ok (encH (A ++ d :: c :: B)) := by
  subst hz
  obtain ⟨k, hk⟩ : ∃ k, B.length = 2 * k := ⟨B.length / 2, by omega⟩
  have hlen : btreeIndexPage.len (encH (A ++ B)) = (i + k : Nat) :=
    indexLen_of _ (i + k) (by simp [hA, hk]; ring)
  unfold btreeIndexPage.insert3 btreeIndexPage.insert
  simp only [hlen]
  cases B with
  | nil =>
    have hk0 : k = 0 := by simpa using hk.symm
    subst hk0
    rw [if_neg (by simp), if_pos (by simp)]
    simp only [E_ok_bind, E_pure_eq, bind_assoc]
    rw [encH_zeros14, List.append_assoc, List.nil_append,
      setDataPage_encH A [0] 0 d _ i rfl hA]
    simp only [E_ok_bind, E_pure_eq, bind_assoc]
    rw [show A ++ [d, 0] = (A ++ [d]) ++ 0 :: [] by simp,
      setChild_encH (A ++ [d]) [] 0 c _ (i + 1) (by push_cast; ring) (by simp [hA]; ring)]
    simp
  | cons b0 B =>
    cases B with
    | nil => simp at hB
    | cons b1 B =>
      have hkk : B.length + 2 = 2 * k := by simpa using hk
      rw [if_pos (by push_cast; omega), encH_zeros14]
      rw [sliceFrom_of _ _ (1 + 7 * A.length) (by rw [hA]; push_cast; ring)
        (by rw [encH_length]; simp <;> omega),
        List.append_assoc, encH_drop_left A _ _ rfl]
      simp only [E_ok_bind, E_pure_eq, bind_assoc]
      have hsrc : b0 :: b1 :: B ++ [0, 0] = (b0 :: b1 :: B) ++ [0, 0] := rfl
      have hdst : A ++ (b0 :: b1 :: B ++ [0, 0]) = (A ++ [b0, b1]) ++ (B ++ [0, 0]) ++ [] := by
        simp
      rw [hsrc, hdst, copyTo_encH (A ++ [b0, b1]) (B ++ [0, 0]) [] (b0 :: b1 :: B) [0, 0]
        (by simp) _ _ (by simp [hA]; ring) (by simp [hA]; push_cast; omega)]
      simp only [E_ok_bind, E_pure_eq, bind_assoc]
      rw [show A ++ [b0, b1] ++ b0 :: b1 :: B ++ [] = A ++ b0 :: (b1 :: b0 :: b1 :: B) by simp,
        setDataPage_encH A _ b0 d _ i rfl hA]
      simp only [E_ok_bind, E_pure_eq, bind_assoc]
      rw [show A ++ d :: b1 :: b0 :: b1 :: B = (A ++ [d]) ++ b1 :: (b0 :: b1 :: B) by simp,
        setChild_encH (A ++ [d]) _ b1 c _ (i + 1) (by push_cast; ring) (by simp [hA]; ring)]
      simp

/-- `extract` at entry `i` followed by `setChild(i, x)`, `x` being child `i` already: what
`btreeDataPage.concat` does to the parent.  The separator `d` and the child `r` go. -/
theorem extract_setChild_encH (A B : List Nat) (x d r : Nat) (z : Int) (i : Nat) (hz : z = i)
    (hA : A.length = 2 * i) (hB : B.length % 2 = 0) :
    (do let pp ← btreeIndexPage.extract (encH (A ++ x :: d :: r :: B)) z
        btreeIndexPage.setChild pp z x) = .ok (encH (A ++ x :: B)) := by
  subst hz
  obtain ⟨k, hk⟩ : ∃ k, B.length = 2 * k := ⟨B.length / 2, by omega⟩
  have hlen : btreeIndexPage.len (encH (A ++ x :: d :: r :: B)) = (i + 1 + k : Nat) :=
    indexLen_of _ (i + 1 + k) (by simp [hA, hk]; ring)
  unfold btreeIndexPage.extract
  simp only [hlen]
  cases B with
  | nil =>
    have hk0 : k = 0 := by simpa using hk.symm
    subst hk0
    rw [if_neg (by push_cast; omega)]
    simp only [E_ok_bind, E_pure_eq, bind_assoc]
    rw [show A ++ [x, d, r] = (A ++ [x]) ++ [d, r] by simp,
      indexSetLen_shrink (A ++ [x]) [d, r] _ i (by push_cast; ring) (by simp [hA])]
    simp only [E_ok_bind, E_pure_eq, bind_assoc]
    rw [show A ++ [x] = A ++ x :: [] by simp, setChild_encH A [] x x _ i rfl hA]
  | cons b0 B =>
    have hkk : B.length + 1 = 2 * k := by simpa using hk
    rw [if_pos (by push_cast; omega)]
    rw [sliceFrom_of _ _ (1 + 7 * (A ++ [x, d]).length) (by simp [hA]; ring)
      (by rw [encH_length]; simp <;> omega),
      show A ++ x :: d :: r :: b0 :: B = (A ++ [x, d]) ++ (r :: b0 :: B) by simp,
      encH_drop_left (A ++ [x, d]) _ _ rfl]
    simp only [E_ok_bind, E_pure_eq, bind_assoc]
    have hXl : ((x :: d :: r :: b0 :: B).take (B.length + 2)).length = B.length + 2 := by
      simp; omega
    have hdst : A ++ [x, d] ++ r :: b0 :: B =
        A ++ (x :: d :: r :: b0 :: B).take (B.length + 2) ++
          (x :: d :: r :: b0 :: B).drop (B.length + 2) := by
      rw [List.append_assoc, List.append_assoc, List.take_append_drop]
      simp
    rw [hdst, copyTo_encH0 A _ _ (r :: b0 :: B) (by rw [hXl]; simp) _ _ (by simp [hA]; ring)
        (by rw [hXl]; simp [hA]; push_cast; omega)]
    simp only [E_ok_bind, E_pure_eq, bind_assoc]
    rw [indexSetLen_shrink (A ++ r :: b0 :: B) _ _ (i + k) (by push_cast; omega)
      (by simp [hA]; omega)]
    simp only [E_ok_bind, E_pure_eq, bind_assoc]
    rw [setChild_encH A _ r x _ i rfl hA]

/-! ## The nil comparator

`btreePage.find` is the only reader of the comparator and replaces nil by
`bytesCompare`. -/

theorem find_nil (p key : Bytes) :
    btreePage.find p none key = btreePage.find p (some bytesCompare) key := rfl

theorem getLoop_nil (key : Bytes) : ∀ (fuel ph : Nat),
    btree.getLoop none key fuel ph = btree.getLoop (some bytesCompare) key fuel ph
  | 0, _ => rfl
  | fuel + 1, ph => by
    simp only [btree.getLoop, find_nil, getLoop_nil key fuel]

theorem get_nil (root : Nat) (key : Bytes) :
    btree.get root none key = btree.get root (some bytesCompare) key := by
  simp only [btree.get, getLoop_nil]

theorem put2Loop_nil (root : Nat) (key : Bytes) (upd : Updater) :
    ∀ (fuel ph parent : Nat) (parentIndex : Int),
    btree.put2Loop root none key upd fuel ph parent parentIndex =
      btree.put2Loop root (some bytesCompare) key upd fuel ph parent parentIndex
  | 0, _, _, _ => rfl
  | fuel + 1, ph, parent, parentIndex => by
    simp only [btree.put2Loop, find_nil, put2Loop_nil root key upd fuel]

theorem put2_nil (root : Nat) (key : Bytes) (upd : Updater) :
    btree.put2 root none key upd = btree.put2 root (some bytesCompare) key upd := by
  simp only [btree.put2, put2Loop_nil]

theorem put_nil (root : Nat) (key value : Bytes) (b : Bool) :
    btree.put root none key value b = btree.put root (some bytesCompare) key value b := by
  simp only [btree.put, put2_nil]

theorem extractLoop_nil (root iroot : Nat) (key : Bytes)
    (fuel ph parent : Nat) (parentIndex : Int) :
    btree.extractLoop root iroot none key fuel ph parent parentIndex =
      btree.extractLoop root iroot (some bytesCompare) key fuel ph parent parentIndex := by
  delta btree.extractLoop
  rfl

theorem extract_nil (root : Nat) (key : Bytes) :
    btree.extract root none key = btree.extract root (some bytesCompare) key := by
  simp only [btree.extract, extractLoop_nil]

theorem seekLoop_nil (key : Bytes) :
    ∀ (fuel ph : Nat) (p : Option Bytes) (index : Int) (equal : Bool),
    btree.seekLoop none key fuel ph p index equal =
      btree.seekLoop (some bytesCompare) key fuel ph p index equal
  | 0, _, _, _, _ => rfl
  | fuel + 1, ph, p, index, equal => by
    simp only [btree.seekLoop, find_nil, seekLoop_nil key fuel]

theorem seek_nil (root : Nat) (key : Bytes) :
    btree.seek root none key = btree.seek root (some bytesCompare) key := by
  simp only [btree.seek, seekLoop_nil]

theorem run_nil {α : Type} (s : memBTreeStore) (r : Nat) (x : M α) :
    ((⟨s, r, none⟩ : BTree).run x).1 = ((⟨s, r, some bytesCompare⟩ : BTree).run x).1 ∧
    ((⟨s, r, none⟩ : BTree).run x).2 = ⟨(x s).2, r, none⟩ ∧
    ((⟨s, r, some bytesCompare⟩ : BTree).run x).2 = ⟨(x s).2, r, some bytesCompare⟩ :=
  ⟨rfl, rfl, rfl⟩

theorem Current_sim (e1 e2 : Option BTreeEnumerator) (h : enumSim e1 e2) :
    BTreeEnumerator.Current e1 = BTreeEnumerator.Current e2 := by
  cases e1 with
  | none => cases e2 with
    | none => rfl
    | some e2 => exact h.elim
  | some e1 => cases e2 with
    | none => exact h.elim
    | some e2 =>
      obtain ⟨a1, c1, p1, i1⟩ := e1
      obtain ⟨a2, c2, p2, i2⟩ := e2
      obtain ⟨ha, hp, hi⟩ := h
      simp only at ha hp hi
      subst ha hp hi
      rfl

theorem Next_sim (e1 e2 : Option BTreeEnumerator) (h : enumSim e1 e2) :
    (BTreeEnumerator.Next e1).1 = (BTreeEnumerator.Next e2).1 ∧
    enumSim (BTreeEnumerator.Next e1).2 (BTreeEnumerator.Next e2).2 := by
  cases e1 with
  | none => cases e2 with
    | none => exact ⟨rfl, trivial⟩
    | some e2 => exact h.elim
  | some e1 => cases e2 with
    | none => exact h.elim
    | some e2 =>
      obtain ⟨a1, c1, p1, i1⟩ := e1
      obtain ⟨a2, c2, p2, i2⟩ := e2
      obtain ⟨ha, hp, hi⟩ := h
      simp only at ha hp hi
      subst ha hp hi
      simp only [BTreeEnumerator.Next]
      cases p1 with
      | none => exact ⟨rfl, rfl, rfl, rfl⟩
      | some p =>
        simp only
        split_ifs with h1
        · exact ⟨rfl, rfl, rfl, rfl⟩
        · cases btreeDataPage.next p with
          | error err => exact ⟨rfl, rfl, rfl, rfl⟩
          | ok ph =>
            simp only
            split_ifs with h2
            · exact ⟨rfl, rfl, rfl, rfl⟩
            · cases (memBTreeStore.Get ph a1).1 with
              | error err => exact ⟨rfl, rfl, rfl, rfl⟩
              | ok q => exact ⟨rfl, rfl, rfl, rfl⟩

theorem Prev_sim (e1 e2 : Option BTreeEnumerator) (h : enumSim e1 e2) :
    (BTreeEnumerator.Prev e1).1 = (BTreeEnumerator.Prev e2).1 ∧
    enumSim (BTreeEnumerator.Prev e1).2 (BTreeEnumerator.Prev e2).2 := by
  cases e1 with
  | none => cases e2 with
    | none => exact ⟨rfl, trivial⟩
    | some e2 => exact h.elim
  | some e1 => cases e2 with
    | none => exact h.elim
    | some e2 =>
      obtain ⟨a1, c1, p1, i1⟩ := e1
      obtain ⟨a2, c2, p2, i2⟩ := e2
      obtain ⟨ha, hp, hi⟩ := h
      simp only at ha hp hi
      subst ha hp hi
      simp only [BTreeEnumerator.Prev]
      cases p1 with
      | none => exact ⟨rfl, rfl, rfl, rfl⟩
      | some p =>
        simp only
        split_ifs with h1
        · exact ⟨rfl, rfl, rfl, rfl⟩
        · cases btreeDataPage.prev p with
          | error err => exact ⟨rfl, rfl, rfl, rfl⟩
          | ok ph =>
            simp only
            split_ifs with h2
            · exact ⟨rfl, rfl, rfl, rfl⟩
            · cases (memBTreeStore.Get ph a1).1 with
              | error err => exact ⟨rfl, rfl, rfl, rfl⟩
              | ok q => exact ⟨rfl, rfl, rfl, rfl⟩

theorem dumpLoop_sim (decode : Bytes → Except Err (Option (List String)))
    (w : String → Option Err) : ∀ (fuel : Nat) (e1 e2 : Option BTreeEnumerator)
    (out : List String), enumSim e1 e2 →
    BTree.dumpLoop decode w fuel e1 out = BTree.dumpLoop decode w fuel e2 out
  | 0, _, _, _, _ => rfl
  | fuel + 1, e1, e2, out, h => by
    have hn := Next_sim e1 e2 h
    have ih := dumpLoop_sim decode w fuel (BTreeEnumerator.Next e1).2
      (BTreeEnumerator.Next e2).2
    simp only [BTree.dumpLoop, Current_sim e1 e2 h]
    cases BTreeEnumerator.Current e2 with
    | error err => rfl
    | ok kv =>
      obtain ⟨bkey, bval⟩ := kv
      simp only
      cases decode bkey with
      | error err => rfl
      | ok key =>
        simp only
        cases decode bval with
        | error err => rfl
        | ok val =>
          simp only
          split
          · rfl
          · revert hn ih
            generalize BTreeEnumerator.Next e1 = n1
            generalize BTreeEnumerator.Next e2 = n2
            obtain ⟨r1, f1⟩ := n1
            obtain ⟨r2, f2⟩ := n2
            rintro ⟨hr, hs⟩ ih
            simp only at hr hs ih
            subst hr
            cases r1 with
            | none => exact ih _ hs
            | some err => cases err <;> rfl

theorem SeekFirst_sim (s : memBTreeStore) (r : Nat) :
    errOf (BTree.SeekFirst (some ⟨s, r, none⟩)) =
      errOf (BTree.SeekFirst (some ⟨s, r, some bytesCompare⟩)) ∧
    enumSim (BTree.SeekFirst (some ⟨s, r, none⟩)).toOption
      (BTree.SeekFirst (some ⟨s, r, some bytesCompare⟩)).toOption := by
  simp only [BTree.SeekFirst, BTree.run]
  cases (btree.first r s).1 with
  | error e => exact ⟨rfl, trivial⟩
  | ok x =>
    obtain ⟨h, p⟩ := x
    cases p with
    | none => exact ⟨rfl, trivial⟩
    | some p => exact ⟨rfl, rfl, rfl, rfl⟩

theorem SeekLast_sim (s : memBTreeStore) (r : Nat) :
    errOf (BTree.SeekLast (some ⟨s, r, none⟩)) =
      errOf (BTree.SeekLast (some ⟨s, r, some bytesCompare⟩)) ∧
    enumSim (BTree.SeekLast (some ⟨s, r, none⟩)).toOption
      (BTree.SeekLast (some ⟨s, r, some bytesCompare⟩)).toOption := by
  simp only [BTree.SeekLast, BTree.run]
  cases (btree.last r s).1 with
  | error e => exact ⟨rfl, trivial⟩
  | ok x =>
    obtain ⟨h, p⟩ := x
    cases p with
    | none => exact ⟨rfl, trivial⟩
    | some p => exact ⟨rfl, rfl, rfl, rfl⟩

theorem Dump_sim (s : memBTreeStore) (r : Nat)
    (decode : Bytes → Except Err (Option (List String))) (w : String → Option Err) :
    BTree.Dump (some ⟨s, r, none⟩) decode w =
      BTree.Dump (some ⟨s, r, some bytesCompare⟩) decode w := by
  simp only [BTree.Dump, BTree.SeekFirst, BTree.run]
  cases (btree.first r s).1 with
  | error e => rfl
  | ok x =>
    obtain ⟨h, p⟩ := x
    cases p with
    | none => rfl
    | some p => exact dumpLoop_sim decode w _ _ _ _ ⟨rfl, rfl, rfl⟩

theorem step_sim (c1 c2 : Client) (h : Client.sim c1 c2) (op : Op) :
    (c1.step op).1 = (c2.step op).1 ∧ Client.sim (c1.step op).2 (c2.step op).2 := by
  obtain ⟨t1, e1⟩ := c1
  obtain ⟨t2, e2⟩ := c2
  obtain ⟨⟨s, r, h1, h2⟩, he⟩ := h
  simp only at h1 h2 he
  subst h1 h2
  cases op with
  | isMem => exact ⟨by trivial, ⟨s, r, rfl, rfl⟩, he⟩
  | clear => exact ⟨by trivial, ⟨_, r, rfl, rfl⟩, he⟩
  | delete key =>
    simp only [Client.step, BTree.Delete, BTree.run, extract_nil]
    exact ⟨by trivial, ⟨_, r, rfl, rfl⟩, he⟩
  | deleteAny => exact ⟨by trivial, ⟨_, r, rfl, rfl⟩, he⟩
  | dump decode w =>
    simp only [Client.step, Dump_sim]
    exact ⟨by trivial, ⟨s, r, rfl, rfl⟩, he⟩
  | extract key =>
    simp only [Client.step, BTree.Extract, BTree.run, extract_nil]
    exact ⟨by trivial, ⟨_, r, rfl, rfl⟩, he⟩
  | first => exact ⟨by trivial, ⟨s, r, rfl, rfl⟩, he⟩
  | get key =>
    simp only [Client.step, BTree.Get, BTree.run, get_nil]
    exact ⟨by trivial, ⟨s, r, rfl, rfl⟩, he⟩
  | handle => exact ⟨by trivial, ⟨s, r, rfl, rfl⟩, he⟩
  | last => exact ⟨by trivial, ⟨s, r, rfl, rfl⟩, he⟩
  | put key upd =>
    simp only [Client.step, BTree.Put, BTree.run, put2_nil]
    exact ⟨by trivial, ⟨_, r, rfl, rfl⟩, he⟩
  | seek key =>
    simp only [Client.step, BTree.Seek, BTree.run, seek_nil]
    cases (btree.seek r (some bytesCompare) key s).1 with
    | error e => exact ⟨by trivial, ⟨s, r, rfl, rfl⟩, trivial⟩
    | ok x =>
      obtain ⟨p, index, hit⟩ := x
      exact ⟨by trivial, ⟨s, r, rfl, rfl⟩, rfl, rfl, rfl⟩
  | seekFirst =>
    have hs := SeekFirst_sim s r
    simp only [Client.step]
    revert hs
    cases BTree.SeekFirst (some ⟨s, r, none⟩) with
    | error x =>
      cases BTree.SeekFirst (some ⟨s, r, some bytesCompare⟩) with
      | error y =>
        rintro ⟨hs1, _⟩
        simp only [errOf, Option.some.injEq] at hs1
        subst hs1
        exact ⟨by trivial, ⟨s, r, rfl, rfl⟩, trivial⟩
      | ok y => rintro ⟨hs1, _⟩; simp [errOf] at hs1
    | ok x =>
      cases BTree.SeekFirst (some ⟨s, r, some bytesCompare⟩) with
      | error y => rintro ⟨hs1, _⟩; simp [errOf] at hs1
      | ok y =>
        rintro ⟨_, hs2⟩
        exact ⟨by trivial, ⟨s, r, rfl, rfl⟩, hs2⟩
  | seekLast =>
    have hs := SeekLast_sim s r
    simp only [Client.step]
    revert hs
    cases BTree.SeekLast (some ⟨s, r, none⟩) with
    | error x =>
      cases BTree.SeekLast (some ⟨s, r, some bytesCompare⟩) with
      | error y =>
        rintro ⟨hs1, _⟩
        simp only [errOf, Option.some.injEq] at hs1
        subst hs1
        exact ⟨by trivial, ⟨s, r, rfl, rfl⟩, trivial⟩
      | ok y => rintro ⟨hs1, _⟩; simp [errOf] at hs1
    | ok x =>
      cases BTree.SeekLast (some ⟨s, r, some bytesCompare⟩) with
      | error y => rintro ⟨hs1, _⟩; simp [errOf] at hs1
      | ok y =>
        rintro ⟨_, hs2⟩
        exact ⟨by trivial, ⟨s, r, rfl, rfl⟩, hs2⟩
  | set key value =>
    simp only [Client.step, BTree.Set, BTree.run, put_nil]
    exact ⟨by trivial, ⟨_, r, rfl, rfl⟩, he⟩
  | current =>
    simp only [Client.step, Current_sim e1 e2 he]
    exact ⟨by trivial, ⟨s, r, rfl, rfl⟩, he⟩
  | next =>
    have hn := Next_sim e1 e2 he
    simp only [Client.step, hn.1]
    exact ⟨by trivial, ⟨s, r, rfl, rfl⟩, hn.2⟩
  | prev =>
    have hn := Prev_sim e1 e2 he
    simp only [Client.step, hn.1]
    exact ⟨by trivial, ⟨s, r, rfl, rfl⟩, hn.2⟩

theorem run_sim : ∀ (ops : List Op) (c1 c2 : Client), Client.sim c1 c2 →
    (c1.run ops).1 = (c2.run ops).1 ∧ Client.sim (c1.run ops).2 (c2.run ops).2
  | [], _, _, h => ⟨rfl, h⟩
  | op :: ops, c1, c2, h => by
    have hs := step_sim c1 c2 h op
    have ih := run_sim ops (c1.step op).2 (c2.step op).2 hs.2
    simp only [Client.run]
    exact ⟨by rw [hs.1, ih.1], ih.2⟩

theorem sim_store (c1 c2 : Client) (h : Client.sim c1 c2) : c1.store = c2.store := by
  obtain ⟨⟨s, r, h1, h2⟩, _⟩ := h
  simp only [Client.store, h1, h2, Option.map]

/-! ## Clear -/

theorem b2hN_eq_zero (r : Bytes) (hl : r.length = 7) (h : b2hN r = 0) : r = zeros 7 := by
  match r, hl with
  | [a, b, c, d, e, f, g], _ =>
    simp only [b2hN, List.take, List.foldl] at h
    have : a = 0 ∧ b = 0 ∧ c = 0 ∧ d = 0 ∧ e = 0 ∧ f = 0 ∧ g = 0 := by omega
    obtain ⟨rfl, rfl, rfl, rfl, rfl, rfl, rfl⟩ := this
    rfl

/-- If `clear` returns without error on a store whose root record has 7 bytes, the root
record is 7 zero bytes afterwards. -/
theorem clear_root (root : Nat) (s : memBTreeStore)
    (h7 : (mget s.m root).map List.length = some 7)
    (hok : (btree.clear root s).1 = .ok ()) :
    mget (btree.clear root s).2.m root = some (zeros 7) := by
  cases hg : mget s.m root with
  | none => rw [hg] at h7; cases h7
  | some r =>
    rw [hg] at h7
    have hl : r.length = 7 := by simpa using h7
    revert hok
    simp only [btree.clear, M_bind, M_liftM, M_monadLift, M_pure, Get_ok s root r hg,
      b2h_eq r (by omega)]
    by_cases h0 : b2hN r = 0
    · simp only [h0, if_true, M_pure]
      intro _
      rw [hg, b2hN_eq_zero r hl h0]
    · simp only [h0, if_false, M_bind, descentFuel, M.store, M_pure]
      cases hc : btree.clear2 (s.h + 1) (b2hN r) s with
      | mk res s1 =>
        cases res with
        | error e => simp
        | ok u =>
          simp only
          cases hr : mget s1.m root with
          | none => simp [memBTreeStore.Realloc, hr]
          | some b0 =>
            rw [Realloc_ok s1 root _ b0 hr]
            intro _
            simp only [mget_mset, if_true]

/-- On a store whose root record is 7 zero bytes, `first` finds no page. -/
theorem first_of_zero_root (root : Nat) (s : memBTreeStore)
    (h : mget s.m root = some (zeros 7)) : btree.first root s = (.ok (0, none), s) := by
  simp only [btree.first, M_bind, M_liftM, M_monadLift, M_pure, Get_ok s root _ h,
    descentFuel, M.store]
  rfl

theorem last_of_zero_root (root : Nat) (s : memBTreeStore)
    (h : mget s.m root = some (zeros 7)) : btree.last root s = (.ok (0, none), s) := by
  simp only [btree.last, M_bind, M_liftM, M_monadLift, M_pure, Get_ok s root _ h,
    descentFuel, M.store]
  rfl

theorem get_of_zero_root (root : Nat) (c : Option (Bytes → Bytes → Int)) (key : Bytes)
    (s : memBTreeStore) (h : mget s.m root = some (zeros 7)) :
    btree.get root c key s = (.ok none, s) := by
  simp only [btree.get, M_bind, M_liftM, M_monadLift, M_pure, Get_ok s root _ h]
  rfl

/-! ## Comparators -/

theorem TotalCmp.refl {c : Bytes → Bytes → Int} (hc : TotalCmp c) (a : Bytes) : c a a = 0 := by
  have h := hc.antisymm a a
  omega

theorem TotalCmp.eq_symm {c : Bytes → Bytes → Int} (hc : TotalCmp c) {a b : Bytes}
    (h : c a b = 0) : c b a = 0 := by
  have h1 := hc.antisymm a b
  have h2 := hc.antisymm b a
  omega

theorem TotalCmp.lt_of_lt_of_le {c : Bytes → Bytes → Int} (hc : TotalCmp c) {a b d : Bytes}
    (h1 : c a b < 0) (h2 : c b d ≤ 0) : c a d < 0 := by
  by_contra hn
  have h3 : c d a ≤ 0 := by
    have := hc.antisymm a d
    have := hc.antisymm d a
    omega
  have h4 := hc.le_trans b d a h2 h3
  have := hc.antisymm a b
  omega

theorem TotalCmp.lt_of_le_of_lt {c : Bytes → Bytes → Int} (hc : TotalCmp c) {a b d : Bytes}
    (h1 : c a b ≤ 0) (h2 : c b d < 0) : c a d < 0 := by
  by_contra hn
  have h3 : c d a ≤ 0 := by
    have := hc.antisymm a d
    have := hc.antisymm d a
    omega
  have h4 := hc.le_trans d a b h3 h1
  have := hc.antisymm b d
  omega

theorem TotalCmp.lt_trans {c : Bytes → Bytes → Int} (hc : TotalCmp c) {a b d : Bytes}
    (h1 : c a b < 0) (h2 : c b d < 0) : c a d < 0 :=
  hc.lt_of_lt_of_le h1 (by omega)

theorem TotalCmp.gt_iff {c : Bytes → Bytes → Int} (hc : TotalCmp c) (a b : Bytes) :
    0 < c a b ↔ c b a < 0 := (hc.antisymm b a).symm

/-! ## Binary search -/

/-- The loop of `find` over a page whose key `i` is `K i`, the keys being strictly
ascending: it ends on a key that compares equal, or on the insertion point. -/
theorem findLoop_spec (p : Bytes) (isIndex : Bool) (c : Bytes → Bytes → Int) (hc : TotalCmp c)
    (key : Bytes) (s : memBTreeStore) (K : Nat → Bytes) (n : Nat)
    (hK : ∀ i j, i < j → j < n → c (K i) (K j) < 0)
    (hF : ∀ i : Nat, i < n →
      (if isIndex then btreeIndexPage.cmp p c key (i : Int)
        else btreeDataPage.cmp p c key (i : Int)) s = (.ok (c key (K i)), s)) :
    ∀ (fuel l h : Nat), l ≤ h → h ≤ n → h - l < fuel →
      (∀ i, i < l → 0 < c key (K i)) → (∀ i, h ≤ i → i < n → c key (K i) < 0) →
      ∃ (j : Nat) (ok : Bool),
        btreePage.findLoop p isIndex c key fuel (l : Int) ((h : Int) - 1) s =
          (.ok ((j : Int), ok), s) ∧
        j ≤ n ∧
        (ok = true → j < n ∧ c key (K j) = 0) ∧
        (ok = false → (∀ i, i < j → 0 < c key (K i)) ∧
          (∀ i, j ≤ i → i < n → c key (K i) < 0)) := by
  intro fuel
  induction fuel with
  | zero => intro l h _ _ hf; omega
  | succ fuel ih =>
    intro l h hlh hhn hf hlo hhi
    unfold btreePage.findLoop
    by_cases hlt : l < h
    · rw [if_pos (by omega)]
      have hmid : ((l : Int) + ((h : Int) - 1)) / 2 = (((l + (h - 1)) / 2 : Nat) : Int) := by
        omega
      set mid := (l + (h - 1)) / 2 with hmid_def
      have hm1 : l ≤ mid := by omega
      have hm2 : mid < h := by omega
      simp only [M_bind, hmid, hF mid (by omega)]
      by_cases hgt : c key (K mid) > 0
      · rw [if_pos hgt]
        have := ih (mid + 1) h (by omega) hhn (by omega)
          (by
            intro i hi
            by_cases him : i = mid
            · subst him; exact hgt
            · have h1 := hK i mid (by omega) (by omega)
              have h2 := (hc.gt_iff key (K mid)).1 hgt
              exact (hc.gt_iff key (K i)).2 (hc.lt_trans h1 h2))
          hhi
        simpa using this
      · rw [if_neg hgt]
        by_cases heq : c key (K mid) = 0
        · rw [if_pos heq]
          refine ⟨mid, true, rfl, by omega, fun _ => ⟨by omega, heq⟩, ?_⟩
          intro h; cases h
        · rw [if_neg heq]
          have hlt2 : c key (K mid) < 0 := by omega
          have := ih l mid (by omega) (by omega) (by omega) hlo
            (by
              intro i hi hin
              by_cases him : i = mid
              · subst him; exact hlt2
              · exact hc.lt_trans hlt2 (hK mid i (by omega) hin))
          have e : ((mid : Int) - 1) = ((mid : Nat) : Int) - 1 := rfl
          simpa using this
    · rw [if_neg (by omega)]
      have hle : l = h := by omega
      subst hle
      refine ⟨l, false, rfl, hhn, ?_, fun _ => ⟨hlo, hhi⟩⟩
      intro h; cases h

/-! ## find on a data page and on an index page -/

theorem FieldsOk.slotsLen {m : Blobs} {S : List Slot} (h : FieldsOk m S) : SlotsLen S :=
  fun x hx => ⟨(h x hx).1.1, (h x hx).2.1⟩

theorem split_at {α : Type} (S : List α) (i : Nat) (hi : i < S.length) :
    S = S.take i ++ S[i] :: S.drop (i + 1) := by
  rw [← List.drop_eq_getElem_cons hi, List.take_append_drop]

theorem isIndex_encD (pv nx : Nat) (S : List Slot) :
    btreePage.isIndex (encD pv nx S) = .ok false := rfl

theorem isIndex_encH (hs : List Nat) : btreePage.isIndex (encH hs) = .ok true := rfl

theorem len_encD (pv nx : Nat) (S : List Slot) (hS : SlotsLen S) :
    btreePage.len (encD pv nx S) = .ok (S.length : Int) := by
  simp only [btreePage.len, isIndex_encD, E_ok_bind, dataLen_encD pv nx S hS]
  rfl

theorem len_encH (hs : List Nat) (n : Nat) (hn : hs.length = 2 * n + 1) :
    btreePage.len (encH hs) = .ok (n : Int) := by
  simp only [btreePage.len, isIndex_encH, E_ok_bind, indexLen_of hs n hn]
  rfl

theorem cmp_data_at (pv nx : Nat) (S : List Slot) (c : Bytes → Bytes → Int) (key : Bytes)
    (s : memBTreeStore) (hS : FieldsOk s.m S) (i : Nat) (hi : i < S.length) :
    btreeDataPage.cmp (encD pv nx S) c key (i : Int) s =
      (.ok (c key ((keysOf s.m S).getD i [])), s) := by
  have hd := split_at S i hi
  have hx := hS S[i] (List.getElem_mem hi)
  have hk : (keysOf s.m S).getD i [] = fieldVal s.m S[i].1 := by
    simp [keysOf, List.getD, hi]
  rw [hk]
  have := cmp_encD pv nx (S.take i) (S.drop (i + 1)) S[i].1 S[i].2
    (SlotsLen_take hS.slotsLen i) c key (i : Int)
    (by simp [List.length_take]; omega) s hx.1
  rw [← hd] at this
  exact this

theorem find_data (c : Option (Bytes → Bytes → Int)) (hc : TotalCmp (cmpOf c)) (pv nx : Nat)
    (S : List Slot) (key : Bytes) (s : memBTreeStore) (hS : FieldsOk s.m S)
    (hK : (keysOf s.m S).Pairwise (fun a b => cmpOf c a b < 0)) :
    ∃ (j : Nat) (ok : Bool),
      btreePage.find (encD pv nx S) c key s = (.ok ((j : Int), ok), s) ∧
      FindSpec (cmpOf c) key (fun i => (keysOf s.m S).getD i []) S.length j ok := by
  have hlen : (keysOf s.m S).length = S.length := by simp [keysOf]
  have hsp := findLoop_spec (encD pv nx S) false (cmpOf c) hc key s
    (fun i => (keysOf s.m S).getD i []) S.length
    (by
      intro i j hij hj
      have := List.pairwise_iff_getElem.1 hK i j (by omega) (by omega) hij
      simpa [List.getD, hlen, hj, (by omega : i < S.length)] using this)
    (by
      intro i hi
      simpa using cmp_data_at pv nx S (cmpOf c) key s hS i hi)
    (S.length + 1) 0 S.length (by omega) (by omega) (by omega)
    (by intro i hi; omega) (by intro i h1 h2; omega)
  obtain ⟨j, ok, h1, h2⟩ := hsp
  refine ⟨j, ok, ?_, h2⟩
  simp only [btreePage.find, M_bind, M_liftM, M_monadLift, M_pure, len_encD pv nx S hS.slotsLen,
    isIndex_encD]
  have e : ((S.length : Int) - 1 + 2).toNat = S.length + 1 := by omega
  rw [e]
  cases c with
  | none => exact h1
  | some c => exact h1

theorem dataPage_at (hs : List Nat) (i : Nat) (hi : 2 * i + 1 < hs.length)
    (hb : hs.getD (2 * i + 1) 0 < 2 ^ 56) :
    btreeIndexPage.dataPage (encH hs) (i : Int) = .ok (hs.getD (2 * i + 1) 0) := by
  have hd := split_at hs (2 * i + 1) hi
  have hg : hs.getD (2 * i + 1) 0 = hs[2 * i + 1] := by simp [List.getD, hi]
  rw [hg] at hb ⊢
  have := dataPage_encH (hs.take (2 * i + 1)) (hs.drop (2 * i + 1 + 1)) hs[2 * i + 1] hb
    (i : Int) i rfl (by simp [List.length_take]; omega)
  rw [← hd] at this
  exact this

theorem child_at (hs : List Nat) (i : Nat) (hi : 2 * i < hs.length)
    (hb : hs.getD (2 * i) 0 < 2 ^ 56) :
    btreeIndexPage.child (encH hs) (i : Int) = .ok (hs.getD (2 * i) 0) := by
  have hd := split_at hs (2 * i) hi
  have hg : hs.getD (2 * i) 0 = hs[2 * i] := by simp [List.getD, hi]
  rw [hg] at hb ⊢
  have := child_encH (hs.take (2 * i)) (hs.drop (2 * i + 1)) hs[2 * i] hb
    (i : Int) i rfl (by simp [List.length_take]; omega)
  rw [← hd] at this
  exact this

theorem cmp_index_at (hs : List Nat) (c : Bytes → Bytes → Int) (key : Bytes)
    (s : memBTreeStore) (i : Nat) (hi : 2 * i + 1 < hs.length)
    (hb : hs.getD (2 * i + 1) 0 < 2 ^ 56) (k : Bytes)
    (hk : LeafKey0 s.m (hs.getD (2 * i + 1) 0) k) :
    btreeIndexPage.cmp (encH hs) c key (i : Int) s = (.ok (c key k), s) := by
  obtain ⟨pv, nx, kf, vf, rest, hm, hf, hv⟩ := hk
  simp only [btreeIndexPage.cmp, M_bind, M_liftM, M_monadLift, dataPage_at hs i hi hb,
    Get_ok s _ _ hm]
  have := cmp_encD pv nx [] rest kf vf (by intro x hx; cases hx) c key 0 rfl s hf
  rw [hv] at this
  exact this

theorem find_index (c : Option (Bytes → Bytes → Int)) (hc : TotalCmp (cmpOf c))
    (hs : List Nat) (n : Nat) (hn : hs.length = 2 * n + 1) (key : Bytes) (s : memBTreeStore)
    (K : Nat → Bytes)
    (hL : ∀ i, i < n → hs.getD (2 * i + 1) 0 < 2 ^ 56 ∧ LeafKey0 s.m (hs.getD (2 * i + 1) 0) (K i))
    (hK : ∀ i j, i < j → j < n → cmpOf c (K i) (K j) < 0) :
    ∃ (j : Nat) (ok : Bool),
      btreePage.find (encH hs) c key s = (.ok ((j : Int), ok), s) ∧
      FindSpec (cmpOf c) key K n j ok := by
  have hsp := findLoop_spec (encH hs) true (cmpOf c) hc key s K n hK
    (by
      intro i hi
      simpa using cmp_index_at hs (cmpOf c) key s i (by omega) (hL i hi).1 (K i) (hL i hi).2)
    (n + 1) 0 n (by omega) (by omega) (by omega)
    (by intro i hi; omega) (by intro i h1 h2; omega)
  obtain ⟨j, ok, h1, h2⟩ := hsp
  refine ⟨j, ok, ?_, h2⟩
  simp only [btreePage.find, M_bind, M_liftM, M_monadLift, M_pure, len_encH hs n hn,
    isIndex_encH]
  have e : ((n : Int) - 1 + 2).toNat = n + 1 := by omega
  rw [e]
  cases c with
  | none => exact h1
  | some c => exact h1

/-! ## Leaves: chains, pairs, overflow handles -/

theorem headH_append (A B : List Leaf) (nx : Nat) :
    headH (A ++ B) nx = headH A (headH B nx) := by
  cases A <;> rfl

theorem lastH_append (pv : Nat) (A B : List Leaf) :
    lastH pv (A ++ B) = lastH (lastH pv A) B := by
  induction A generalizing pv with
  | nil => rfl
  | cons a A ih => exact ih a.h

theorem Chain_append (m : Blobs) (pv nx : Nat) (A B : List Leaf) :
    Chain m pv (A ++ B) nx ↔ Chain m pv A (headH B nx) ∧ Chain m (lastH pv A) B nx := by
  induction A generalizing pv with
  | nil => simp [Chain, lastH]
  | cons a A ih =>
    show (mget m a.h = some (encD pv (headH (A ++ B) nx) a.S) ∧ Chain m a.h (A ++ B) nx) ↔
      (mget m a.h = some (encD pv (headH A (headH B nx)) a.S) ∧ Chain m a.h A (headH B nx)) ∧
        Chain m (lastH a.h A) B nx
    rw [ih, headH_append, and_assoc]

theorem Chain_congr (m m2 : Blobs) (pv nx : Nat) (G : List Leaf)
    (h : ∀ l ∈ G, mget m2 l.h = mget m l.h) (hc : Chain m pv G nx) : Chain m2 pv G nx := by
  induction G generalizing pv with
  | nil => trivial
  | cons a G ih =>
    refine ⟨?_, ih a.h (fun l hl => h l (List.mem_cons_of_mem _ hl)) hc.2⟩
    rw [h a (List.mem_cons_self _ _)]
    exact hc.1

/-- The page of a leaf of a chain. -/
theorem Chain_mid (m : Blobs) (pv nx : Nat) (A B : List Leaf) (l : Leaf)
    (hc : Chain m pv (A ++ l :: B) nx) :
    mget m l.h = some (encD (lastH pv A) (headH B nx) l.S) :=
  ((Chain_append m pv nx A (l :: B)).1 hc).2.1

theorem kvs_append (m : Blobs) (A B : List Leaf) : kvs m (A ++ B) = kvs m A ++ kvs m B := by
  simp [kvs]

theorem kvs_cons (m : Blobs) (l : Leaf) (B : List Leaf) :
    kvs m (l :: B) = l.S.map (slotKV m) ++ kvs m B := by
  simp [kvs]

theorem kvs_nil (m : Blobs) : kvs m [] = [] := rfl

theorem ovs_append (A B : List Leaf) : ovs (A ++ B) = ovs A ++ ovs B := by
  simp [ovs]

theorem ovs_cons (l : Leaf) (B : List Leaf) : ovs (l :: B) = l.S.flatMap slotOv ++ ovs B := by
  simp [ovs]

theorem mem_slotOv (x : Slot) (h : Nat) :
    h ∈ slotOv x ↔ (h = fieldH x.1 ∨ h = fieldH x.2) ∧ h ≠ 0 := by
  simp [slotOv, List.mem_filter]

theorem mem_ovs (G : List Leaf) (h : Nat) :
    h ∈ ovs G ↔ ∃ l ∈ G, ∃ x ∈ l.S, (h = fieldH x.1 ∨ h = fieldH x.2) ∧ h ≠ 0 := by
  simp only [ovs, List.mem_flatMap, mem_slotOv]

/-! ## Fields under a change of the store -/

theorem fieldVal_congr (m m2 : Blobs) (f : Bytes)
    (h : fieldH f ≠ 0 → mget m2 (fieldH f) = mget m (fieldH f)) :
    fieldVal m2 f = fieldVal m f := by
  unfold fieldVal
  by_cases h0 : fieldH f = 0
  · rw [if_pos h0, if_pos h0]
  · rw [if_neg h0, if_neg h0, h h0]

theorem FieldOk_congr (m m2 : Blobs) (f : Bytes)
    (h : fieldH f ≠ 0 → mget m2 (fieldH f) = mget m (fieldH f)) (hf : FieldOk m f) :
    FieldOk m2 f := by
  refine ⟨hf.1, ?_⟩
  rcases hf.2 with h1 | ⟨h1, h2⟩
  · exact Or.inl h1
  · exact Or.inr ⟨h1, by rw [h h1]; exact h2⟩

/-- A change of the store that keeps the overflow blobs of the items `S` keeps their
fields and contents. -/
theorem FieldsOk_congr (m m2 : Blobs) (S : List Slot)
    (h : ∀ x ∈ S, ∀ k ∈ slotOv x, mget m2 k = mget m k) (hf : FieldsOk m S) :
    FieldsOk m2 S := by
  intro x hx
  refine ⟨FieldOk_congr m m2 _ ?_ (hf x hx).1, FieldOk_congr m m2 _ ?_ (hf x hx).2⟩
  · intro h0; exact h x hx _ ((mem_slotOv x _).2 ⟨Or.inl rfl, h0⟩)
  · intro h0; exact h x hx _ ((mem_slotOv x _).2 ⟨Or.inr rfl, h0⟩)

theorem slotKV_congr (m m2 : Blobs) (x : Slot) (h : ∀ k ∈ slotOv x, mget m2 k = mget m k) :
    slotKV m2 x = slotKV m x := by
  unfold slotKV
  rw [fieldVal_congr m m2 x.1 (fun h0 => h _ ((mem_slotOv x _).2 ⟨Or.inl rfl, h0⟩)),
    fieldVal_congr m m2 x.2 (fun h0 => h _ ((mem_slotOv x _).2 ⟨Or.inr rfl, h0⟩))]

theorem kvs_congr (m m2 : Blobs) (G : List Leaf) (h : ∀ k ∈ ovs G, mget m2 k = mget m k) :
    kvs m2 G = kvs m G := by
  induction G with
  | nil => rfl
  | cons l G ih =>
    rw [kvs_cons, kvs_cons, ih (fun k hk => h k (by rw [ovs_cons]; exact List.mem_append_right _ hk))]
    congr 1
    apply List.map_congr_left
    intro x hx
    apply slotKV_congr
    intro k hk
    apply h
    rw [ovs_cons]
    exact List.mem_append_left _ (List.mem_flatMap.2 ⟨x, hx, hk⟩)

/-! ## Index pages under a change of the store -/

theorem Idx_congr (m m2 : Blobs) : ∀ (d lo hi ph : Nat) (F I : List Nat),
    (∀ h ∈ I, mget m2 h = mget m h) → Idx m lo hi d ph F I → Idx m2 lo hi d ph F I
  | 0, _, _, _, _, _, _, h => h
  | d + 1, lo, hi, ph, F, I, hm, h => by
    obtain ⟨kids, h1, h2, h3, h4, h5, h6⟩ := h
    refine ⟨kids, ?_, h2, h3, h4, h5, fun k hk => ?_⟩
    · rw [hm ph (by rw [h5]; exact List.mem_cons_self _ _)]
      exact h1
    · refine Idx_congr m m2 d _ _ _ _ _ (fun h hh => hm h ?_) (h6 k hk)
      rw [h5]
      refine List.mem_cons_of_mem _ ?_
      simp only [ixOf, List.mem_flatten, List.mem_map]
      exact ⟨k.2.2, ⟨k, hk, rfl⟩, hh⟩

theorem Idx_bounds (m : Blobs) (d lo hi lo2 hi2 ph : Nat) (F I : List Nat)
    (h : Idx m lo hi (d + 1) ph F I) (hlo : ∀ n, lo + 1 ≤ n → n ≤ hi + 1 → lo2 + 1 ≤ n ∧ n ≤ hi2 + 1) :
    Idx m lo2 hi2 (d + 1) ph F I := by
  obtain ⟨kids, h1, h2, h3, h4, h5, h6⟩ := h
  exact ⟨kids, h1, (hlo _ h2 h3).1, (hlo _ h2 h3).2, h4, h5, h6⟩

theorem Idx_zero (m : Blobs) (lo hi lo2 hi2 ph : Nat) (F I : List Nat)
    (h : Idx m lo hi 0 ph F I) : Idx m lo2 hi2 0 ph F I := h

theorem Idx_fr_ne (m : Blobs) : ∀ (d lo hi ph : Nat) (F I : List Nat),
    Idx m lo hi d ph F I → F ≠ []
  | 0, _, _, _, _, _, h => by rw [h.1]; simp
  | d + 1, lo, hi, ph, F, I, h => by
    obtain ⟨kids, _, h2, _, h4, _, h6⟩ := h
    match kids, h2, h6 with
    | k :: ks, _, h6 =>
      have := Idx_fr_ne m d _ _ _ _ _ (h6 k (List.mem_cons_self _ _))
      rw [h4]
      simp only [frOf, List.map_cons, List.flatten_cons]
      intro hn
      exact this (List.append_eq_nil.1 hn).1

theorem Idx_depth_le (m : Blobs) : ∀ (d lo hi ph : Nat) (F I : List Nat),
    Idx m lo hi d ph F I → d ≤ I.length
  | 0, _, _, _, _, _, _ => Nat.zero_le _
  | d + 1, lo, hi, ph, F, I, h => by
    obtain ⟨kids, _, h2, _, _, h5, h6⟩ := h
    match kids, h2, h6 with
    | k :: ks, _, h6 =>
      have := Idx_depth_le m d _ _ _ _ _ (h6 k (List.mem_cons_self _ _))
      rw [h5]
      simp only [ixOf, List.map_cons, List.flatten_cons, List.length_cons, List.length_append]
      omega

/-! ## Lists cut along the children of an index page -/

theorem map_eq_flatten {α β : Type} (f : α → β) : ∀ (Ls : List (List β)) (L : List α),
    L.map f = Ls.flatten →
    ∃ parts : List (List α), L = parts.flatten ∧ parts.map (List.map f) = Ls
  | [], L, h => by
    refine ⟨[], ?_, rfl⟩
    simpa using h
  | X :: Ls, L, h => by
    rw [List.flatten_cons] at h
    obtain ⟨L1, L2, h1, h2, h3⟩ := List.map_eq_append_iff.1 h
    obtain ⟨parts, h4, h5⟩ := map_eq_flatten f Ls L2 h3
    exact ⟨L1 :: parts, by rw [h1, h4]; rfl, by rw [List.map_cons, h2, h5]⟩

theorem sepsOf_append (A B : List Kid) : sepsOf (A ++ B) = sepsOf A ++ sepsOf B := by
  simp [sepsOf]

theorem sepsOf_cons (k : Kid) (B : List Kid) :
    sepsOf (k :: B) = k.2.1.headD 0 :: k.1 :: sepsOf B := by
  simp [sepsOf]

theorem sepsOf_length (A : List Kid) : (sepsOf A).length = 2 * A.length := by
  induction A with
  | nil => rfl
  | cons a A ih => rw [sepsOf_cons]; simp only [List.length_cons, ih]; omega

theorem hsOf_cons (k : Kid) (ks : List Kid) : hsOf (k :: ks) = k.1 :: sepsOf ks := rfl

theorem hsOf_length (k : Kid) (ks : List Kid) : (hsOf (k :: ks)).length = 2 * ks.length + 1 := by
  rw [hsOf_cons, List.length_cons, sepsOf_length]

/-- The handles of an index page, cut before the separator of the child `q`. -/
theorem hsOf_sep (k : Kid) (pre post : List Kid) (q : Kid) :
    hsOf (k :: pre ++ q :: post) = hsOf (k :: pre) ++ q.2.1.headD 0 :: q.1 :: sepsOf post := by
  simp only [hsOf_cons, List.cons_append, sepsOf_append, sepsOf_cons]

/-- The handles of an index page, cut before the child `q`. -/
theorem hsOf_child (k : Kid) (pre post : List Kid) (q : Kid) :
    hsOf (k :: pre ++ q :: post) =
      (hsOf (k :: pre) ++ [q.2.1.headD 0]) ++ q.1 :: sepsOf post := by
  rw [hsOf_sep]; simp

theorem frOf_append (A B : List Kid) : frOf (A ++ B) = frOf A ++ frOf B := by
  simp [frOf]

theorem frOf_cons (k : Kid) (B : List Kid) : frOf (k :: B) = k.2.1 ++ frOf B := by
  simp [frOf]

theorem ixOf_append (A B : List Kid) : ixOf (A ++ B) = ixOf A ++ ixOf B := by
  simp [ixOf]

theorem ixOf_cons (k : Kid) (B : List Kid) : ixOf (k :: B) = k.2.2 ++ ixOf B := by
  simp [ixOf]

theorem getD_of_decomp {α : Type} (A B : List α) (x d : α) (n : Nat) (h : A.length = n) :
    (A ++ x :: B).getD n d = x := by
  subst h
  rw [List.getD_eq_getElem?_getD, List.getElem?_append_right (Nat.le_refl _)]
  simp

/-! ## Keys of sorted leaves -/

theorem keysG_append (m : Blobs) (A B : List Leaf) :
    keysG m (A ++ B) = keysG m A ++ keysG m B := by
  simp [keysG, kvs_append]

theorem keysG_cons (m : Blobs) (l : Leaf) (B : List Leaf) :
    keysG m (l :: B) = keysOf m l.S ++ keysG m B := by
  simp [keysG, kvs_cons, keysOf, slotKV]

theorem keysG_nil (m : Blobs) : keysG m [] = [] := rfl

theorem keysG_flatten_mem (m : Blobs) (parts : List (List Leaf)) (P : List Leaf)
    (hP : P ∈ parts) (k : Bytes) (hk : k ∈ keysG m P) : k ∈ keysG m parts.flatten := by
  induction parts with
  | nil => cases hP
  | cons Q parts ih =>
    rw [List.flatten_cons, keysG_append]
    rcases List.mem_cons.1 hP with h | h
    · subst h; exact List.mem_append_left _ hk
    · exact List.mem_append_right _ (ih h)

theorem minKey_mem (m : Blobs) (P : List Leaf) (h : keysG m P ≠ []) :
    minKey m P ∈ keysG m P := by
  unfold minKey
  cases hk : keysG m P with
  | nil => exact absurd hk h
  | cons a t => simp

/-- In a sorted list of keys, a key is not below the first one. -/
theorem minKey_le {c : Bytes → Bytes → Int} (hc : TotalCmp c) (m : Blobs) (P : List Leaf)
    (hs : (keysG m P).Pairwise (fun a b => c a b < 0)) (k : Bytes) (hk : k ∈ keysG m P) :
    c (minKey m P) k ≤ 0 := by
  unfold minKey
  cases hkk : keysG m P with
  | nil => rw [hkk] at hk; cases hk
  | cons a t =>
    rw [hkk] at hk hs
    simp only [List.headD_cons]
    rcases List.mem_cons.1 hk with h | h
    · subst h; rw [hc.refl]
    · exact Int.le_of_lt ((List.pairwise_cons.1 hs).1 k h)

theorem keysG_ne_nil (m : Blobs) (P : List Leaf) (hP : P ≠ [])
    (hocc : ∀ l ∈ P, 1 ≤ l.S.length) : keysG m P ≠ [] := by
  cases P with
  | nil => exact absurd rfl hP
  | cons l P =>
    rw [keysG_cons]
    have := hocc l (List.mem_cons_self _ _)
    intro hn
    have h2 := (List.append_eq_nil.1 hn).1
    simp [keysOf] at h2
    rw [h2] at this
    simp at this

/-! ## lookupK -/

theorem lookupK_found (c : Bytes → Bytes → Int) (A B : List (Bytes × Bytes)) (k v key : Bytes)
    (hA : ∀ a ∈ A, c key a.1 ≠ 0) (hk : c key k = 0) :
    lookupK c (A ++ (k, v) :: B) key = some v := by
  unfold lookupK
  induction A with
  | nil => simp [List.find?, hk]
  | cons a A ih =>
    have h1 := hA a (List.mem_cons_self _ _)
    simp only [List.cons_append, List.find?_cons, decide_eq_true_eq, h1, decide_False]
    exact ih (fun x hx => hA x (List.mem_cons_of_mem _ hx))

theorem lookupK_none (c : Bytes → Bytes → Int) (K : List (Bytes × Bytes)) (key : Bytes)
    (hK : ∀ a ∈ K, c key a.1 ≠ 0) : lookupK c K key = none := by
  unfold lookupK
  rw [List.find?_eq_none.2]
  · rfl
  · intro x hx
    simpa using hK x hx

/-! ## find on a leaf, in terms of the items before and after the index -/

theorem keysOf_getD (m : Blobs) (S : List Slot) (i : Nat) (hi : i < S.length) :
    (keysOf m S).getD i [] = fieldVal m S[i].1 := by
  simp [keysOf, List.getD, hi]

theorem keysOf_append (m : Blobs) (A B : List Slot) :
    keysOf m (A ++ B) = keysOf m A ++ keysOf m B := by
  simp [keysOf]

theorem keysOf_cons (m : Blobs) (x : Slot) (B : List Slot) :
    keysOf m (x :: B) = fieldVal m x.1 :: keysOf m B := rfl

/-- The result of `find` on a leaf: the items before the index are below `key`, the
items after it (from it, if no key compares equal) are above. -/
theorem leaf_find (c : Option (Bytes → Bytes → Int)) (hc : TotalCmp (cmpOf c)) (pv nx : Nat)
    (S : List Slot) (key : Bytes) (s : memBTreeStore) (hS : FieldsOk s.m S)
    (hK : (keysOf s.m S).Pairwise (fun a b => cmpOf c a b < 0)) :
    ∃ (j : Nat) (ok : Bool),
      btreePage.find (encD pv nx S) c key s = (.ok ((j : Int), ok), s) ∧
      ∃ A B, A.length = j ∧ (∀ a ∈ A, cmpOf c (fieldVal s.m a.1) key < 0) ∧
        (∀ b ∈ B, cmpOf c key (fieldVal s.m b.1) < 0) ∧
        ((ok = true ∧ ∃ x, S = A ++ x :: B ∧ cmpOf c key (fieldVal s.m x.1) = 0) ∨
         (ok = false ∧ S = A ++ B)) := by
  obtain ⟨j, ok, hf, hj, h1, h2⟩ := find_data c hc pv nx S key s hS hK
  refine ⟨j, ok, hf, ?_⟩
  cases ok with
  | true =>
    obtain ⟨hjn, he⟩ := h1 rfl
    beta_reduce at he
    rw [keysOf_getD s.m S j hjn] at he
    have hd := split_at S j hjn
    refine ⟨S.take j, S.drop (j + 1), by simp [List.length_take]; omega, ?_, ?_,
      Or.inl ⟨rfl, S[j], hd, he⟩⟩
    · intro a ha
      rw [hd, keysOf_append, keysOf_cons] at hK
      have := (List.pairwise_append.1 hK).2.2 (fieldVal s.m a.1)
        (by simp only [keysOf, List.mem_map]; exact ⟨a, ha, rfl⟩) (fieldVal s.m S[j].1)
        (List.mem_cons_self _ _)
      exact hc.lt_of_lt_of_le this (by rw [hc.eq_symm he])
    · intro b hb
      rw [hd, keysOf_append, keysOf_cons] at hK
      have := (List.pairwise_cons.1 (List.pairwise_append.1 hK).2.1).1 (fieldVal s.m b.1)
        (by simp only [keysOf, List.mem_map]; exact ⟨b, hb, rfl⟩)
      exact hc.lt_of_le_of_lt (by rw [he]) this
  | false =>
    obtain ⟨hlo, hhi⟩ := h2 rfl
    refine ⟨S.take j, S.drop j, by simp [List.length_take]; omega, ?_, ?_,
      Or.inr ⟨rfl, (List.take_append_drop j S).symm⟩⟩
    · intro a ha
      obtain ⟨i, hi, rfl⟩ := List.mem_iff_getElem.1 ha
      have hi2 : i < j ∧ i < S.length := by
        simp [List.length_take] at hi; omega
      have := hlo i hi2.1
      beta_reduce at this
      rw [keysOf_getD s.m S i hi2.2] at this
      have h3 := (hc.gt_iff _ _).1 this
      simpa using h3
    · intro b hb
      obtain ⟨i, hi, rfl⟩ := List.mem_iff_getElem.1 hb
      have hi2 : j + i < S.length := by
        simp at hi; omega
      have := hhi (j + i) (by omega) hi2
      beta_reduce at this
      rw [keysOf_getD s.m S (j + i) hi2] at this
      simpa using this

/-! ## find on an index page, in terms of the children before and after the index -/

theorem LeavesOk.page {m : Blobs} {c : Bytes → Bytes → Int} {lo : Nat} {G : List Leaf}
    (hL : LeavesOk m c lo G) (l : Leaf) (hl : l ∈ G) :
    ∃ pv nx, mget m l.h = some (encD pv nx l.S) := by
  obtain ⟨A, B, rfl⟩ := List.append_of_mem hl
  exact ⟨_, _, Chain_mid m 0 0 A B l hL.chain⟩

theorem minKey_cons (m : Blobs) (l : Leaf) (rest : List Leaf) (x : Slot) (xs : List Slot)
    (h : l.S = x :: xs) : minKey m (l :: rest) = fieldVal m x.1 := by
  simp [minKey, keysG_cons, h, keysOf_cons]

theorem LeavesOk.leafKey0 {m : Blobs} {c : Bytes → Bytes → Int} {lo : Nat} {G : List Leaf}
    (hL : LeavesOk m c lo G) (hlo : 1 ≤ lo) (l : Leaf) (rest : List Leaf) (hl : l ∈ G) :
    LeafKey0 m l.h (minKey m (l :: rest)) := by
  obtain ⟨pv, nx, hp⟩ := hL.page l hl
  have hocc := (hL.occ l hl).1
  cases hS : l.S with
  | nil => rw [hS] at hocc; simp at hocc; omega
  | cons x xs =>
    rw [hS] at hp
    exact ⟨pv, nx, x.1, x.2, xs, hp, (hL.fields l hl x (by rw [hS]; exact List.mem_cons_self _ _)).1,
      (minKey_cons m l rest x xs hS).symm⟩

theorem Parts.length {kids : List Kid} {parts : List (List Leaf)} (h : Parts kids parts) :
    parts.length = kids.length := by
  have := congrArg List.length h.map
  simpa using this

/-- Cutting the children cuts the leaves under them. -/
theorem Parts.split {kids : List Kid} {parts : List (List Leaf)} (h : Parts kids parts)
    (pre post : List Kid) (k : Kid) (hk : kids = pre ++ k :: post) :
    ∃ Ppre Pk Ppost, parts = Ppre ++ Pk :: Ppost ∧ Ppre.length = pre.length ∧
      Pk.map Leaf.h = k.2.1 ∧ Parts pre Ppre ∧ Parts post Ppost := by
  have hm := h.map
  rw [hk, List.map_append, List.map_cons] at hm
  obtain ⟨Ppre, Q, h1, h2, h3⟩ := List.map_eq_append_iff.1 hm
  obtain ⟨Pk, Ppost, h4, h5, h6⟩ := List.map_eq_cons_iff.1 h3
  subst h4 h1
  refine ⟨Ppre, Pk, Ppost, rfl, ?_, h5, ⟨h2, fun P hP => h.ne P ?_⟩, ⟨h6, fun P hP => h.ne P ?_⟩⟩
  · have := congrArg List.length h2
    simpa using this
  · exact List.mem_append_left _ hP
  · exact List.mem_append_right _ (List.mem_cons_of_mem _ hP)

theorem headD_map_h (P : List Leaf) (hP : P ≠ []) :
    ∃ l rest, P = l :: rest ∧ (P.map Leaf.h).headD 0 = l.h := by
  cases P with
  | nil => exact absurd rfl hP
  | cons l rest => exact ⟨l, rest, rfl, rfl⟩

/-- Keys of sorted leaves cut in two: the keys of the first part are below the keys of
the second. -/
theorem parts_lt {c : Bytes → Bytes → Int} (m : Blobs) (Ga Gb : List Leaf)
    (X Y : List (List Leaf))
    (hs : (keysG m (Ga ++ (X ++ Y).flatten ++ Gb)).Pairwise (fun a b => c a b < 0)) :
    ∀ x ∈ keysG m X.flatten, ∀ y ∈ keysG m Y.flatten, c x y < 0 := by
  intro x hx y hy
  rw [List.flatten_append, keysG_append, keysG_append, keysG_append] at hs
  have h1 := (List.pairwise_append.1 hs).1
  have h2 := (List.pairwise_append.1 h1).2.1
  exact (List.pairwise_append.1 h2).2.2 x hx y hy

theorem parts_sorted {c : Bytes → Bytes → Int} (m : Blobs) (Ga Gb : List Leaf)
    (X Y : List (List Leaf))
    (hs : (keysG m (Ga ++ (X ++ Y).flatten ++ Gb)).Pairwise (fun a b => c a b < 0)) :
    (keysG m Y.flatten).Pairwise (fun a b => c a b < 0) := by
  rw [List.flatten_append, keysG_append, keysG_append, keysG_append] at hs
  have h1 := (List.pairwise_append.1 hs).1
  have h2 := (List.pairwise_append.1 h1).2.1
  exact (List.pairwise_append.1 h2).2.1

theorem Parts.at {kids : List Kid} {parts : List (List Leaf)} (h : Parts kids parts)
    (i : Nat) (hi : i < kids.length) :
    ∃ pre k post Ppre Pk Ppost, kids = pre ++ k :: post ∧ parts = Ppre ++ Pk :: Ppost ∧
      pre.length = i ∧ Ppre.length = i ∧ Pk.map Leaf.h = k.2.1 ∧ Pk ≠ [] ∧
      parts.getD i [] = Pk := by
  have hd := split_at kids i hi
  obtain ⟨Ppre, Pk, Ppost, h1, h2, h3, _, _⟩ := h.split _ _ _ hd
  have hl : (kids.take i).length = i := by simp [List.length_take]; omega
  refine ⟨_, _, _, Ppre, Pk, Ppost, hd, h1, hl, by omega, h3, ?_, ?_⟩
  · exact h.ne Pk (by rw [h1]; simp)
  · rw [h1]; exact getD_of_decomp _ _ _ _ _ (by omega)

theorem hsOf_getD_sep (pre post : List Kid) (k : Kid) (i : Nat) (hi : pre.length = i + 1) :
    (hsOf (pre ++ k :: post)).getD (2 * i + 1) 0 = k.2.1.headD 0 := by
  cases pre with
  | nil => simp at hi
  | cons k0 pre =>
    rw [hsOf_sep]
    exact getD_of_decomp _ _ _ _ _ (by rw [hsOf_length]; simp at hi; omega)

theorem hsOf_getD_child (pre post : List Kid) (k : Kid) (i : Nat) (hi : pre.length = i) :
    (hsOf (pre ++ k :: post)).getD (2 * i) 0 = k.1 := by
  cases pre with
  | nil =>
    simp at hi
    subst hi
    rfl
  | cons k0 pre =>
    rw [hsOf_child]
    exact getD_of_decomp _ _ _ _ _ (by rw [List.length_append, hsOf_length]; simp at hi ⊢; omega)

theorem hsOf_length_of (kids : List Kid) (hk : kids ≠ []) :
    (hsOf kids).length = 2 * (kids.length - 1) + 1 := by
  cases kids with
  | nil => exact absurd rfl hk
  | cons k ks => rw [hsOf_length]; simp

/-! ## find on an index page -/

theorem mem_flatten_of {α : Type} (parts : List (List α)) (P : List α) (x : α)
    (hP : P ∈ parts) (hx : x ∈ P) : x ∈ parts.flatten :=
  List.mem_flatten.2 ⟨P, hP, hx⟩

/-- The result of `find` on an index page: the leaves under the children before the
index are below `key`, the leaves under the children after it are above; on a hit, the
first key under the child after the index compares equal to `key`. -/
theorem index_find (c : Option (Bytes → Bytes → Int)) (hc : TotalCmp (cmpOf c))
    (kids : List Kid) (parts : List (List Leaf)) (hP : Parts kids parts) (hk : kids ≠ [])
    (key : Bytes) (s : memBTreeStore) (Ga Gb : List Leaf) (lo : Nat) (hlo : 1 ≤ lo)
    (hL : LeavesOk s.m (cmpOf c) lo (Ga ++ parts.flatten ++ Gb))
    (hb : ∀ l ∈ parts.flatten, l.h < 2 ^ 56) :
    ∃ (j : Nat) (ok : Bool),
      btreePage.find (encH (hsOf kids)) c key s = (.ok ((j : Int), ok), s) ∧
      ∃ pre k post Ppre Pk Ppost, kids = pre ++ k :: post ∧ parts = Ppre ++ Pk :: Ppost ∧
        pre.length = j ∧ Ppre.length = j ∧ Pk.map Leaf.h = k.2.1 ∧
        ((ok = false ∧ (∀ x ∈ keysG s.m Ppre.flatten, cmpOf c x key < 0) ∧
            (∀ y ∈ keysG s.m Ppost.flatten, cmpOf c key y < 0) ∧
            (j ≠ 0 → cmpOf c (minKey s.m Pk) key < 0)) ∨
         (ok = true ∧ ∃ q post2 Pq Ppost2, post = q :: post2 ∧ Ppost = Pq :: Ppost2 ∧
            Pq.map Leaf.h = q.2.1 ∧ Pq ≠ [] ∧ cmpOf c key (minKey s.m Pq) = 0 ∧
            (∀ x ∈ keysG s.m (Ppre ++ [Pk]).flatten, cmpOf c x key < 0) ∧
            (∀ y ∈ keysG s.m Ppost2.flatten, cmpOf c key y < 0))) := by
  have hsorted : (keysG s.m (Ga ++ parts.flatten ++ Gb)).Pairwise
      (fun a b => cmpOf c a b < 0) := hL.sorted
  have hne : ∀ P ∈ parts, keysG s.m P ≠ [] := by
    intro P hPm
    refine keysG_ne_nil s.m P (hP.ne P hPm) (fun l hl => ?_)
    have := (hL.occ l (List.mem_append_left _ (List.mem_append_right _
      (mem_flatten_of parts P l hPm hl)))).1
    omega
  have hlen := hP.length
  -- the separators
  have hsep : ∀ i, i < kids.length - 1 →
      (hsOf kids).getD (2 * i + 1) 0 < 2 ^ 56 ∧
      LeafKey0 s.m ((hsOf kids).getD (2 * i + 1) 0) (minKey s.m (parts.getD (i + 1) [])) := by
    intro i hi
    obtain ⟨pre, q, post, Ppre, Pq, Ppost, h1, h2, h3, h4, h5, h6, h7⟩ :=
      hP.at (i + 1) (by omega)
    obtain ⟨l, rest, h8, h9⟩ := headD_map_h Pq h6
    have hlm : l ∈ parts.flatten :=
      mem_flatten_of parts Pq l (by rw [h2]; simp) (by rw [h8]; simp)
    rw [h1, hsOf_getD_sep pre post q i h3, ← h5, h9, h7, h8]
    exact ⟨hb l hlm, hL.leafKey0 hlo l rest
      (List.mem_append_left _ (List.mem_append_right _ hlm))⟩
  -- the separators ascend
  have hasc : ∀ i j, i < j → j < kids.length - 1 →
      cmpOf c (minKey s.m (parts.getD (i + 1) [])) (minKey s.m (parts.getD (j + 1) [])) < 0 := by
    intro i j hij hj
    obtain ⟨pre, q, post, Ppre, Pq, Ppost, h1, h2, h3, h4, h5, h6, h7⟩ :=
      hP.at (j + 1) (by omega)
    have hi : parts.getD (i + 1) [] ∈ Ppre := by
      rw [h2, List.getD_eq_getElem?_getD, List.getElem?_append_left (by omega)]
      rw [List.getElem?_eq_getElem (by omega)]
      exact List.getElem_mem _
    rw [h7]
    rw [h2] at hsorted
    refine parts_lt s.m Ga Gb Ppre (Pq :: Ppost) hsorted _ ?_ _ ?_
    · exact keysG_flatten_mem s.m Ppre _ hi _
        (minKey_mem s.m _ (hne _ (by
          have := List.mem_append_left (Pq :: Ppost) hi
          rw [← h2] at this
          exact this)))
    · exact keysG_flatten_mem s.m (Pq :: Ppost) Pq (List.mem_cons_self _ _) _
        (minKey_mem s.m _ (hne _ (by rw [h2]; simp)))
  obtain ⟨j, ok, hf, hj, h1, h2⟩ := find_index c hc (hsOf kids) (kids.length - 1)
    (hsOf_length_of kids hk) key s (fun i => minKey s.m (parts.getD (i + 1) [])) hsep hasc
  refine ⟨j, ok, hf, ?_⟩
  have hk1 : 1 ≤ kids.length := by
    cases kids with
    | nil => exact absurd rfl hk
    | cons a b => simp
  obtain ⟨pre, k, post, Ppre, Pk, Ppost, e1, e2, e3, e4, e5, e6, e7⟩ := hP.at j (by omega)
  refine ⟨pre, k, post, Ppre, Pk, Ppost, e1, e2, e3, e4, e5, ?_⟩
  have hPk : minKey s.m Pk ∈ keysG s.m Pk := minKey_mem s.m _ (hne _ (by rw [e2]; simp))
  cases ok with
  | false =>
    obtain ⟨hlo2, hhi2⟩ := h2 rfl
    refine Or.inl ⟨rfl, ?_, ?_, ?_⟩
    rotate_left 2
    · intro hj0
      cases j with
      | zero => exact absurd rfl hj0
      | succ j =>
        have hgt := hlo2 j (by omega)
        beta_reduce at hgt
        rw [e7] at hgt
        exact (hc.gt_iff _ _).1 hgt
    · intro x hx
      cases j with
      | zero =>
        have : Ppre = [] := List.eq_nil_of_length_eq_zero e4
        rw [this] at hx
        cases hx
      | succ j =>
        have hgt := hlo2 j (by omega)
        beta_reduce at hgt
        rw [e7] at hgt
        rw [e2] at hsorted
        have := parts_lt s.m Ga Gb Ppre (Pk :: Ppost) hsorted x hx (minKey s.m Pk)
          (keysG_flatten_mem s.m _ Pk (List.mem_cons_self _ _) _ hPk)
        exact hc.lt_trans this ((hc.gt_iff _ _).1 hgt)
    · intro y hy
      cases Ppost with
      | nil => cases hy
      | cons Pq Ppost2 =>
        have hjn : j < kids.length - 1 := by
          have := congrArg List.length e2
          simp at this
          omega
        have hlt := hhi2 j (Nat.le_refl _) hjn
        beta_reduce at hlt
        have hq : parts.getD (j + 1) [] = Pq := by
          rw [e2]
          have : Ppre ++ Pk :: Pq :: Ppost2 = (Ppre ++ [Pk]) ++ Pq :: Ppost2 := by simp
          rw [this]
          exact getD_of_decomp _ _ _ _ _ (by simp; omega)
        rw [hq] at hlt
        have e2b : parts = (Ppre ++ [Pk]) ++ (Pq :: Ppost2) := by rw [e2]; simp
        rw [e2b] at hsorted
        have hs2 := parts_sorted s.m Ga Gb _ _ hsorted
        have hle := minKey_le hc s.m _ hs2 y hy
        have hm : minKey s.m (Pq :: Ppost2).flatten = minKey s.m Pq := by
          have hq1 := hne Pq (by rw [e2]; simp)
          unfold minKey
          rw [List.flatten_cons, keysG_append]
          cases hkq : keysG s.m Pq with
          | nil => exact absurd hkq hq1
          | cons a t => rfl
        rw [hm] at hle
        exact hc.lt_of_lt_of_le hlt hle
  | true =>
    obtain ⟨hjn, he⟩ := h1 rfl
    beta_reduce at he
    cases Ppost with
    | nil =>
      have := congrArg List.length e2
      simp at this
      omega
    | cons Pq Ppost2 =>
      cases post with
      | nil =>
        have := congrArg List.length e1
        simp at this
        omega
      | cons q post2 =>
        have hq : parts.getD (j + 1) [] = Pq := by
          rw [e2]
          have : Ppre ++ Pk :: Pq :: Ppost2 = (Ppre ++ [Pk]) ++ Pq :: Ppost2 := by simp
          rw [this]
          exact getD_of_decomp _ _ _ _ _ (by simp; omega)
        rw [hq] at he
        have hPq : minKey s.m Pq ∈ keysG s.m Pq := minKey_mem s.m _ (hne _ (by rw [e2]; simp))
        have hmapq : Pq.map Leaf.h = q.2.1 := by
          have := hP.map
          rw [e1, e2] at this
          simp only [List.map_append, List.map_cons] at this
          have h3 := List.append_inj_right this (by simp; omega)
          simp only [List.cons.injEq] at h3
          exact h3.2.1
        refine Or.inr ⟨rfl, q, post2, Pq, Ppost2, rfl, rfl, hmapq, hP.ne Pq (by rw [e2]; simp),
          he, ?_, ?_⟩
        · intro x hx
          have e2b : parts = (Ppre ++ [Pk]) ++ (Pq :: Ppost2) := by rw [e2]; simp
          rw [e2b] at hsorted
          have := parts_lt s.m Ga Gb _ _ hsorted x hx (minKey s.m Pq)
            (keysG_flatten_mem s.m _ Pq (List.mem_cons_self _ _) _ hPq)
          exact hc.lt_of_lt_of_le this (by rw [hc.eq_symm he])
        · intro y hy
          have e2b : parts = (Ppre ++ [Pk, Pq]) ++ Ppost2 := by rw [e2]; simp
          rw [e2b] at hsorted
          have := parts_lt s.m Ga Gb _ _ hsorted (minKey s.m Pq)
            (keysG_flatten_mem s.m _ Pq (by simp) _ hPq) y hy
          exact hc.lt_of_le_of_lt (by rw [he]) this

/-! ## get -/

theorem mem_keysG_of_mem_kvs (m : Blobs) (G : List Leaf) (a : Bytes × Bytes) (h : a ∈ kvs m G) :
    a.1 ∈ keysG m G := List.mem_map_of_mem _ h

theorem Idx_self_mem (m : Blobs) (d lo hi ph : Nat) (F I : List Nat)
    (h : Idx m lo hi d ph F I) : ph ∈ F ++ I := by
  cases d with
  | zero => rw [h.1]; simp
  | succ d =>
    obtain ⟨kids, _, _, _, _, h5, _⟩ := h
    rw [h5]; simp

/-- The children of an index page and the leaves under each of them. -/
theorem Idx_parts (m : Blobs) (d lo hi ph : Nat) (Gs : List Leaf) (I : List Nat)
    (h : Idx m lo hi (d + 1) ph (Gs.map Leaf.h) I) :
    ∃ kids parts, mget m ph = some (encH (hsOf kids)) ∧ kids ≠ [] ∧
      lo + 1 ≤ kids.length ∧ kids.length ≤ hi + 1 ∧ Gs = parts.flatten ∧ Parts kids parts ∧
      I = ph :: ixOf kids ∧
      ∀ k ∈ kids, Idx m (kIndex - 1) (2 * kIndex + 1) d k.1 k.2.1 k.2.2 := by
  obtain ⟨kids, h1, h2, h3, h4, h5, h6⟩ := h
  have h4b : Gs.map Leaf.h = (kids.map (fun k => k.2.1)).flatten := h4
  obtain ⟨parts, h7, h8⟩ := map_eq_flatten Leaf.h (kids.map (fun k => k.2.1)) Gs h4b
  refine ⟨kids, parts, h1, ?_, h2, h3, h7, ⟨h8, ?_⟩, h5, h6⟩
  · intro hn; rw [hn] at h2; simp at h2
  · intro P hP hn
    have : P.map Leaf.h ∈ parts.map (List.map Leaf.h) := List.mem_map_of_mem _ hP
    rw [h8] at this
    obtain ⟨k, hk, hk2⟩ := List.mem_map.1 this
    have := Idx_fr_ne m d _ _ _ _ _ (h6 k hk)
    rw [hk2, hn] at this
    exact this rfl

theorem getLoop_leaf (c : Option (Bytes → Bytes → Int)) (hc : TotalCmp (cmpOf c))
    (key : Bytes) (s : memBTreeStore) (fuel : Nat) (Ga Gb : List Leaf) (l : Leaf) (lo : Nat)
    (hL : LeavesOk s.m (cmpOf c) lo (Ga ++ l :: Gb))
    (hlow : ∀ k ∈ keysG s.m Ga, cmpOf c k key < 0)
    (hhigh : ∀ k ∈ keysG s.m Gb, cmpOf c key k < 0) :
    btree.getLoop c key (fuel + 1) l.h s =
      (.ok (lookupK (cmpOf c) (kvs s.m (Ga ++ l :: Gb)) key), s) := by
  have hpage := Chain_mid s.m 0 0 Ga Gb l hL.chain
  have hS : FieldsOk s.m l.S := hL.fields l (by simp)
  have hsorted := hL.sorted
  change (keysG s.m (Ga ++ l :: Gb)).Pairwise _ at hsorted
  rw [keysG_append, keysG_cons] at hsorted
  have hKl := (List.pairwise_append.1 (List.pairwise_append.1 hsorted).2.1).1
  obtain ⟨j, ok, hf, A, B, hA, hlt, hgt, hcase⟩ :=
    leaf_find c hc (lastH 0 Ga) (headH Gb 0) l.S key s hS hKl
  have hne : ∀ a b : Bytes, cmpOf c a b < 0 → cmpOf c b a ≠ 0 := by
    intro a b h h0
    have := hc.eq_symm h0
    omega
  have hne2 : ∀ a b : Bytes, cmpOf c a b < 0 → cmpOf c a b ≠ 0 := by
    intro a b h; omega
  rcases hcase with ⟨hok, x, hx, he⟩ | ⟨hok, hx⟩
  · subst hok
    obtain ⟨kf, vf⟩ := x
    have hSA : SlotsLen A := SlotsLen_append_left (hx ▸ hS.slotsLen)
    have hfx := hS (kf, vf) (by rw [hx]; simp)
    have hv := value_encD (lastH 0 Ga) (headH Gb 0) A B kf vf hSA hfx.1.1 (j : Int)
      (by rw [hA]) s hfx.2
    rw [← hx] at hv
    simp only [btree.getLoop, M_bind, M_liftM, M_monadLift, M_pure, Get_ok s _ _ hpage, hf,
      isIndex_encD, hv, if_true, Bool.false_eq_true, if_false]
    have hk : kvs s.m (Ga ++ l :: Gb) =
        (kvs s.m Ga ++ A.map (slotKV s.m)) ++ (fieldVal s.m kf, fieldVal s.m vf) ::
          (B.map (slotKV s.m) ++ kvs s.m Gb) := by
      rw [kvs_append, kvs_cons, hx]
      simp [slotKV]
    rw [hk, lookupK_found]
    · intro a ha
      rcases List.mem_append.1 ha with h | h
      · exact hne _ _ (hlow _ (mem_keysG_of_mem_kvs _ _ _ h))
      · obtain ⟨y, hy, rfl⟩ := List.mem_map.1 h
        exact hne _ _ (hlt y hy)
    · exact he
  · subst hok
    simp only [btree.getLoop, M_bind, M_liftM, M_monadLift, M_pure, Get_ok s _ _ hpage, hf,
      isIndex_encD, if_true, Bool.false_eq_true, if_false]
    rw [lookupK_none]
    intro a ha
    rw [kvs_append, kvs_cons, hx] at ha
    rcases List.mem_append.1 ha with h | h
    · exact hne _ _ (hlow _ (mem_keysG_of_mem_kvs _ _ _ h))
    · rcases List.mem_append.1 h with h | h
      · obtain ⟨y, hy, rfl⟩ := List.mem_map.1 h
        rcases List.mem_append.1 hy with h2 | h2
        · exact hne _ _ (hlt y h2)
        · exact hne2 _ _ (hgt y h2)
      · exact hne2 _ _ (hhigh _ (mem_keysG_of_mem_kvs _ _ _ h))

theorem map_h_singleton (Gs : List Leaf) (ph : Nat) (h : Gs.map Leaf.h = [ph]) :
    ∃ l, Gs = [l] ∧ l.h = ph := by
  match Gs, h with
  | [l], h => exact ⟨l, rfl, by simpa using h⟩

theorem ixOf_mem (kids : List Kid) (k : Kid) (hk : k ∈ kids) (h : Nat) (hh : h ∈ k.2.2) :
    h ∈ ixOf kids := by
  simp only [ixOf, List.mem_flatten, List.mem_map]
  exact ⟨k.2.2, ⟨k, hk, rfl⟩, hh⟩

theorem frOf_mem (kids : List Kid) (k : Kid) (hk : k ∈ kids) (h : Nat) (hh : h ∈ k.2.1) :
    h ∈ frOf kids := by
  simp only [frOf, List.mem_flatten, List.mem_map]
  exact ⟨k.2.1, ⟨k, hk, rfl⟩, hh⟩

/-- The descent of `get` from the page `ph`, under which the leaves `Gs` are, finds the
value of `key` among all the pairs, when the leaves before `Gs` are below `key` and the
leaves after `Gs` are above. -/
theorem getLoop_spec (c : Option (Bytes → Bytes → Int)) (hc : TotalCmp (cmpOf c))
    (key : Bytes) (s : memBTreeStore) (lo0 : Nat) (hlo0 : 1 ≤ lo0) :
    ∀ (d fuel lo hi ph : Nat) (I : List Nat) (Ga Gs Gb : List Leaf), d < fuel →
      Idx s.m lo hi d ph (Gs.map Leaf.h) I →
      LeavesOk s.m (cmpOf c) lo0 (Ga ++ Gs ++ Gb) →
      (∀ h ∈ I, h < 2 ^ 56) → (∀ l ∈ Gs, l.h < 2 ^ 56) →
      (∀ k ∈ keysG s.m Ga, cmpOf c k key < 0) →
      (∀ k ∈ keysG s.m Gb, cmpOf c key k < 0) →
      btree.getLoop c key fuel ph s =
        (.ok (lookupK (cmpOf c) (kvs s.m (Ga ++ Gs ++ Gb)) key), s)
  | 0, fuel, lo, hi, ph, I, Ga, Gs, Gb, hf, hI, hL, _, _, hlow, hhigh => by
    obtain ⟨l, rfl, rfl⟩ := map_h_singleton Gs ph hI.1
    obtain ⟨fuel, rfl⟩ : ∃ f, fuel = f + 1 := ⟨fuel - 1, by omega⟩
    have e : Ga ++ [l] ++ Gb = Ga ++ l :: Gb := by simp
    rw [e] at hL ⊢
    exact getLoop_leaf c hc key s fuel Ga Gb l lo0 hL hlow hhigh
  | d + 1, fuel, lo, hi, ph, I, Ga, Gs, Gb, hf, hI, hL, hbI, hbG, hlow, hhigh => by
    obtain ⟨fuel, rfl⟩ : ∃ f, fuel = f + 1 := ⟨fuel - 1, by omega⟩
    obtain ⟨kids, parts, hpage, hkne, _, _, rfl, hP, rfl, hkids⟩ :=
      Idx_parts s.m d lo hi ph Gs I hI
    obtain ⟨j, ok, hfind, pre, k, post, Ppre, Pk, Ppost, e1, e2, e3, e4, e5, hcase⟩ :=
      index_find c hc kids parts hP hkne key s Ga Gb lo0 hlo0 hL hbG
    have hkm : k ∈ kids := by rw [e1]; simp
    rcases hcase with ⟨hok, hx, hy, -⟩ | ⟨hok, q, post2, Pq, Ppost2, e6, e7, e8, e9, he, hx, hy⟩
    · subst hok
      have hkb : k.1 < 2 ^ 56 := by
        rcases List.mem_append.1 (Idx_self_mem _ _ _ _ _ _ _ (hkids k hkm)) with h | h
        · rw [← e5] at h
          obtain ⟨l, hl, hl2⟩ := List.mem_map.1 h
          rw [← hl2]
          exact hbG l (mem_flatten_of parts Pk l (by rw [e2]; simp) hl)
        · exact hbI _ (List.mem_cons_of_mem _ (ixOf_mem kids k hkm _ h))
      have hch : btreeIndexPage.child (encH (hsOf kids)) (j : Int) = .ok k.1 := by
        have := child_at (hsOf kids) j
          (by rw [hsOf_length_of kids hkne, e1]; simp; omega)
          (by rw [e1, hsOf_getD_child pre post k j e3]; exact hkb)
        rw [this, e1, hsOf_getD_child pre post k j e3]
      simp only [btree.getLoop, M_bind, M_liftM, M_monadLift, M_pure, Get_ok s _ _ hpage,
        hfind, isIndex_encH, hch, if_true, Bool.false_eq_true, if_false]
      have eG : Ga ++ parts.flatten ++ Gb = (Ga ++ Ppre.flatten) ++ Pk ++ (Ppost.flatten ++ Gb) := by
        rw [e2]; simp
      rw [eG] at hL ⊢
      refine getLoop_spec c hc key s lo0 hlo0 d fuel _ _ k.1 k.2.2 _ Pk _ (by omega)
        (by rw [e5]; exact hkids k hkm) hL ?_ ?_ ?_ ?_
      · intro h hh
        exact hbI _ (List.mem_cons_of_mem _ (ixOf_mem kids k hkm _ hh))
      · intro l hl
        exact hbG l (mem_flatten_of parts Pk l (by rw [e2]; simp) hl)
      · intro x hxx
        rw [keysG_append] at hxx
        rcases List.mem_append.1 hxx with h | h
        · exact hlow x h
        · exact hx x h
      · intro y hyy
        rw [keysG_append] at hyy
        rcases List.mem_append.1 hyy with h | h
        · exact hy y h
        · exact hhigh y h
    · subst hok
      subst e6 e7
      obtain ⟨l, rest, hl1, hl2⟩ := headD_map_h Pq e9
      have hlm : l ∈ parts.flatten :=
        mem_flatten_of parts Pq l (by rw [e2]; simp) (by rw [hl1]; simp)
      have hdp : btreeIndexPage.dataPage (encH (hsOf kids)) (j : Int) = .ok l.h := by
        have e1b : kids = (pre ++ [k]) ++ q :: post2 := by rw [e1]; simp
        have hg := hsOf_getD_sep (pre ++ [k]) post2 q j (by simp; omega)
        rw [← e1b, ← e8, hl2] at hg
        have := dataPage_at (hsOf kids) j
          (by rw [hsOf_length_of kids hkne, e1]; simp; omega)
          (by rw [hg]; exact hbG l hlm)
        rw [this, hg]
      have hlG : l ∈ Ga ++ parts.flatten ++ Gb :=
        List.mem_append_left _ (List.mem_append_right _ hlm)
      obtain ⟨pv, nx, hpl⟩ := hL.page l hlG
      have hocc := (hL.occ l hlG).1
      cases hS : l.S with
      | nil => rw [hS] at hocc; simp at hocc; omega
      | cons x xs =>
        obtain ⟨kf, vf⟩ := x
        rw [hS] at hpl
        have hfx := hL.fields l hlG (kf, vf) (by rw [hS]; simp)
        have hv := value_encD pv nx [] xs kf vf (by intro y hy; cases hy) hfx.1.1 0 rfl s hfx.2
        simp only [List.nil_append] at hv
        simp only [btree.getLoop, M_bind, M_liftM, M_monadLift, M_pure, Get_ok s _ _ hpage,
          hfind, isIndex_encH, hdp, Get_ok s _ _ hpl, hv, if_true]
        have hmk : minKey s.m Pq = fieldVal s.m kf := by
          rw [hl1]; exact minKey_cons s.m l rest (kf, vf) xs hS
        rw [hmk] at he
        have hk : kvs s.m (Ga ++ parts.flatten ++ Gb) =
            (kvs s.m Ga ++ kvs s.m (Ppre ++ [Pk]).flatten) ++
              (fieldVal s.m kf, fieldVal s.m vf) ::
                (xs.map (slotKV s.m) ++ kvs s.m rest ++ kvs s.m Ppost2.flatten ++ kvs s.m Gb) := by
          rw [e2, hl1]
          simp [kvs_append, kvs_cons, hS, slotKV]
        rw [hk, lookupK_found]
        · intro a ha
          have hne : ∀ a b : Bytes, cmpOf c a b < 0 → cmpOf c b a ≠ 0 := by
            intro a b h h0
            have := hc.eq_symm h0
            omega
          rcases List.mem_append.1 ha with h | h
          · exact hne _ _ (hlow _ (mem_keysG_of_mem_kvs _ _ _ h))
          · exact hne _ _ (hx _ (mem_keysG_of_mem_kvs _ _ _ h))
        · exact he

/-! ## Get on a well-formed tree -/

theorem b2h_h2bBytes0 (h : Nat) (hh : h < 2 ^ 56) : b2h (h2bBytes h) = .ok h := by
  have := b2h_h2bBytes h hh []
  simpa using this


theorem mem_handles (O I : List Nat) (G : List Leaf) (h : Nat) :
    h ∈ handles O I G ↔ h ∈ O ∨ h ∈ I ∨ (∃ l ∈ G, l.h = h) ∨ h ∈ ovs G := by
  simp only [handles, Multiset.mem_add, Multiset.mem_coe, List.mem_map, or_assoc]

theorem handles_card (O I : List Nat) (G : List Leaf) :
    Multiset.card (handles O I G) = O.length + I.length + G.length + (ovs G).length := by
  simp [handles]
  omega

theorem nodup_bounded_card (M : Multiset Nat) (n : Nat) (hn : M.Nodup)
    (hb : ∀ x ∈ M, 0 < x ∧ x ≤ n) : Multiset.card M ≤ n := by
  have h1 : M.toFinset ⊆ Finset.Icc 1 n := by
    intro x hx
    have := hb x (Multiset.mem_toFinset.1 hx)
    exact Finset.mem_Icc.2 ⟨this.1, this.2⟩
  have h2 := Finset.card_le_card h1
  rw [Multiset.toFinset_card_of_nodup hn] at h2
  simpa using h2

theorem TreeOk.lt {s : memBTreeStore} {root : Nat} {c : Bytes → Bytes → Int} {d iroot : Nat}
    {I : List Nat} {G : List Leaf} (h : TreeOk s root c d iroot I G) (x : Nat)
    (hx : x ∈ handles [root] I G) : x < 2 ^ 56 :=
  Nat.lt_of_le_of_lt (h.ctx.bound x hx).2 h.hlt

theorem TreeOk.iroot_mem {s : memBTreeStore} {root : Nat} {c : Bytes → Bytes → Int}
    {d iroot : Nat} {I : List Nat} {G : List Leaf} (h : TreeOk s root c d iroot I G) :
    iroot ∈ handles [root] I G := by
  have := Idx_self_mem _ _ _ _ _ _ _ h.idx
  rw [mem_handles]
  rcases List.mem_append.1 this with h1 | h1
  · obtain ⟨l, hl, hl2⟩ := List.mem_map.1 h1
    exact Or.inr (Or.inr (Or.inl ⟨l, hl, hl2⟩))
  · exact Or.inr (Or.inl h1)

theorem TreeOk.depth_lt {s : memBTreeStore} {root : Nat} {c : Bytes → Bytes → Int}
    {d iroot : Nat} {I : List Nat} {G : List Leaf} (h : TreeOk s root c d iroot I G) :
    d < s.h := by
  have h1 := Idx_depth_le _ _ _ _ _ _ _ h.idx
  have h2 := nodup_bounded_card _ s.h h.ctx.nodup h.ctx.bound
  rw [handles_card] at h2
  simp only [List.length_cons, List.length_nil] at h2
  omega

theorem TreeOk.lo_pos {d : Nat} : 1 ≤ (if d = 0 then 1 else kData) := by
  split <;> simp [kData]

theorem get_spec (s : memBTreeStore) (root : Nat) (c : Option (Bytes → Bytes → Int))
    (hc : TotalCmp (cmpOf c)) (K : List (Bytes × Bytes)) (h : Rep s root (cmpOf c) K)
    (key : Bytes) : btree.get root c key s = (.ok (lookupK (cmpOf c) K key), s) := by
  rcases h with ⟨rfl, he⟩ | ⟨d, iroot, I, G, ht, rfl⟩
  · rw [get_of_zero_root root c key s he.hroot]; rfl
  · have hi := ht.iroot_mem
    have hi0 := (ht.ctx.bound _ hi).1
    have hd := ht.depth_lt
    simp only [btree.get, M_bind, M_liftM, M_monadLift, M_pure, Get_ok s _ _ ht.hroot,
      b2h_h2bBytes0 iroot (ht.lt _ hi), descentFuel, M.store]
    rw [if_neg (by omega)]
    simp only [M_bind, M_pure, M.store]
    have := getLoop_spec c hc key s _ TreeOk.lo_pos d (s.h + 1) 1 (2 * kIndex + 1) iroot I [] G []
      (by omega) ht.idx (by simpa using ht.leaves)
      (fun h hh => ht.lt h ((mem_handles _ _ _ _).2 (Or.inr (Or.inl hh))))
      (fun l hl => ht.lt l.h ((mem_handles _ _ _ _).2 (Or.inr (Or.inr (Or.inl ⟨l, hl, rfl⟩)))))
      (by intro k hk; cases hk) (by intro k hk; cases hk)
    simpa using this

/-! ## Handles under the operations of the store -/

theorem CtxM.alloc {s : memBTreeStore} {M : Multiset Nat} (h : CtxM s M) (b : Bytes) :
    CtxM ⟨s.h + 1, mset s.m (s.h + 1) b⟩ (M + {s.h + 1}) := by
  refine ⟨?_, ?_, ?_⟩
  · rw [add_comm, Multiset.singleton_add, Multiset.nodup_cons]
    refine ⟨fun hm => ?_, h.nodup⟩
    have := (h.bound _ hm).2
    omega
  · intro x hx
    rcases Multiset.mem_add.1 hx with h1 | h1
    · have := h.bound x h1
      exact ⟨this.1, by show x ≤ s.h + 1; omega⟩
    · rw [Multiset.mem_singleton] at h1
      subst h1
      exact ⟨by omega, Nat.le_refl _⟩
  · intro x hx
    simp only [mget_mset] at hx
    by_cases hxe : s.h + 1 = x
    · exact Multiset.mem_add.2 (Or.inr (Multiset.mem_singleton.2 hxe.symm))
    · rw [if_neg hxe] at hx
      exact Multiset.mem_add.2 (Or.inl (h.live x hx))

theorem CtxM.free {s : memBTreeStore} {M : Multiset Nat} {x : Nat} (h : CtxM s (M + {x})) :
    CtxM ⟨s.h, mdel s.m x⟩ M := by
  have hn := h.nodup
  rw [add_comm, Multiset.singleton_add, Multiset.nodup_cons] at hn
  refine ⟨hn.2, fun y hy => h.bound y (Multiset.mem_add.2 (Or.inl hy)), ?_⟩
  intro y hy
  simp only [mget_mdel] at hy
  by_cases hxe : x = y
  · rw [if_pos hxe] at hy; cases hy
  · rw [if_neg hxe] at hy
    rcases Multiset.mem_add.1 (h.live y hy) with h1 | h1
    · exact h1
    · exact absurd (Multiset.mem_singleton.1 h1).symm hxe

theorem CtxM.realloc {s : memBTreeStore} {M : Multiset Nat} (h : CtxM s M) (x : Nat)
    (hx : x ∈ M) (b : Bytes) : CtxM ⟨s.h, mset s.m x b⟩ M := by
  refine ⟨h.nodup, h.bound, ?_⟩
  intro y hy
  simp only [mget_mset] at hy
  by_cases hxe : x = y
  · subst hxe; exact hx
  · rw [if_neg hxe] at hy
    exact h.live y hy

theorem CtxM.is_live {s : memBTreeStore} {M : Multiset Nat} (_h : CtxM s M) (x : Nat)
    (b : Bytes) (hx : mget s.m x = some b) : (mget s.m x).isSome = true := by
  rw [hx]; rfl

theorem ovF_nodup (f : Bytes) : (ovF f).Nodup := by
  unfold ovF; split <;> simp

theorem mem_ovF (f : Bytes) (h : Nat) : h ∈ ovF f ↔ h = fieldH f ∧ h ≠ 0 := by
  unfold ovF
  split
  · rename_i h0
    simp only [List.not_mem_nil, false_iff, not_and, not_not]
    intro e; rw [e, h0]
  · rename_i h0
    simp only [List.mem_singleton]
    constructor
    · intro e; exact ⟨e, by rw [e]; exact h0⟩
    · intro e; exact e.1

theorem slotOv_eq (x : Slot) : slotOv x = ovF x.1 ++ ovF x.2 := by
  unfold slotOv ovF
  by_cases h1 : fieldH x.1 = 0 <;> by_cases h2 : fieldH x.2 = 0 <;>
    simp [List.filter, h1, h2]

theorem ovF_zeros : ovF (zeros 19) = [] := rfl

/-- The handles of a store after `setContent` wrote `b` over the field `f`: the overflow
handle of the old field is replaced by that of the new one. -/
theorem CtxM.set_field {s : memBTreeStore} {M : Multiset Nat} (f b : Bytes)
    (hf : FieldOk s.m f) (hs : s.h + 1 < 2 ^ 56) (h : CtxM s (M + (ovF f : Multiset Nat))) :
    CtxM (setField s f b).2 (M + (ovF (setField s f b).1 : Multiset Nat)) := by
  have hH := fieldH_setField s f b hs
  unfold ovF at h ⊢
  rw [hH]
  unfold setField
  by_cases h0 : f.headD 0 ≥ 19
  · have hne : fieldH f ≠ 0 := by
      rcases hf.2 with h1 | h2
      · omega
      · exact h2.1
    rw [if_neg hne] at h
    by_cases hb : b.length < 19
    · simp only [if_pos h0, if_pos hb, if_true]
      have := h.free
      simpa using this
    · simp only [if_pos h0, if_neg hb, if_neg hne]
      exact h.realloc _ (by simp) _
  · have he : fieldH f = 0 := fieldH_of_inline f (by omega)
    rw [if_pos he] at h
    by_cases hb : b.length < 19
    · simp only [if_neg h0, if_pos hb, if_true]
      exact h
    · simp only [if_neg h0, if_neg hb]
      have h2 : CtxM s M := by simpa using h
      have := h2.alloc (b.drop 11)
      simpa using this

/-! ## Leaves as a list of items -/

theorem slots_append (A B : List Leaf) : slots (A ++ B) = slots A ++ slots B := by
  simp [slots]

theorem slots_cons (l : Leaf) (B : List Leaf) : slots (l :: B) = l.S ++ slots B := by
  simp [slots]

theorem slots_nil : slots [] = [] := rfl

theorem ovs_eq_slots (G : List Leaf) : ovs G = ovsS (slots G) := by
  induction G with
  | nil => rfl
  | cons l G ih => rw [ovs_cons, slots_cons, ih]; simp [ovsS]

theorem kvs_eq_slots (m : Blobs) (G : List Leaf) : kvs m G = (slots G).map (slotKV m) := by
  induction G with
  | nil => rfl
  | cons l G ih => rw [kvs_cons, slots_cons, ih]; simp

theorem keysG_eq_slots (m : Blobs) (G : List Leaf) : keysG m G = keysOf m (slots G) := by
  rw [keysG, kvs_eq_slots]
  simp [keysOf, slotKV]

theorem ovsS_append (A B : List Slot) : ovsS (A ++ B) = ovsS A ++ ovsS B := by
  simp [ovsS]

theorem ovsS_cons (x : Slot) (B : List Slot) : ovsS (x :: B) = ovF x.1 ++ (ovF x.2 ++ ovsS B) := by
  simp [ovsS, slotOv_eq]

theorem mem_slots (G : List Leaf) (x : Slot) : x ∈ slots G ↔ ∃ l ∈ G, x ∈ l.S := by
  simp [slots]

theorem mem_ovsS (S : List Slot) (h : Nat) :
    h ∈ ovsS S ↔ ∃ x ∈ S, h ∈ ovF x.1 ∨ h ∈ ovF x.2 := by
  simp only [ovsS, List.mem_flatMap, slotOv_eq, List.mem_append]

/-- The fields of all leaves are well formed iff the fields of all items are. -/
theorem fields_iff_slots (m : Blobs) (G : List Leaf) :
    (∀ l ∈ G, ∀ x ∈ l.S, FieldOk m x.1 ∧ FieldOk m x.2) ↔ FieldsOk m (slots G) := by
  constructor
  · intro h x hx
    obtain ⟨l, hl, hxl⟩ := (mem_slots G x).1 hx
    exact h l hl x hxl
  · intro h l hl x hx
    exact h x ((mem_slots G x).2 ⟨l, hl, hx⟩)

theorem FieldsOk_append {m : Blobs} {A B : List Slot} :
    FieldsOk m (A ++ B) ↔ FieldsOk m A ∧ FieldsOk m B := by
  simp only [FieldsOk, List.mem_append]
  constructor
  · intro h
    exact ⟨fun x hx => h x (Or.inl hx), fun x hx => h x (Or.inr hx)⟩
  · rintro ⟨h1, h2⟩ x (hx | hx)
    · exact h1 x hx
    · exact h2 x hx

theorem FieldsOk_cons {m : Blobs} {x : Slot} {B : List Slot} :
    FieldsOk m (x :: B) ↔ (FieldOk m x.1 ∧ FieldOk m x.2) ∧ FieldsOk m B := by
  simp only [FieldsOk, List.mem_cons]
  constructor
  · intro h
    exact ⟨h x (Or.inl rfl), fun y hy => h y (Or.inr hy)⟩
  · rintro ⟨h1, h2⟩ y (hy | hy)
    · subst hy; exact h1
    · exact h2 y hy

theorem FieldsOk_nil (m : Blobs) : FieldsOk m [] := by
  intro x hx; cases hx

/-- A change of the store that keeps the overflow blobs of the items `S` keeps their
fields, keys and values. -/
theorem FieldsOk_frame (m m2 : Blobs) (S : List Slot)
    (h : ∀ k ∈ ovsS S, mget m2 k = mget m k) (hf : FieldsOk m S) : FieldsOk m2 S := by
  refine FieldsOk_congr m m2 S (fun x hx k hk => h k ?_) hf
  rw [mem_ovsS]
  rw [slotOv_eq, List.mem_append] at hk
  exact ⟨x, hx, hk⟩

theorem slotKV_frame (m m2 : Blobs) (S : List Slot)
    (h : ∀ k ∈ ovsS S, mget m2 k = mget m k) : S.map (slotKV m2) = S.map (slotKV m) := by
  apply List.map_congr_left
  intro x hx
  apply slotKV_congr
  intro k hk
  apply h
  rw [mem_ovsS]
  rw [slotOv_eq, List.mem_append] at hk
  exact ⟨x, hx, hk⟩

theorem keysOf_frame (m m2 : Blobs) (S : List Slot)
    (h : ∀ k ∈ ovsS S, mget m2 k = mget m k) : keysOf m2 S = keysOf m S := by
  have := congrArg (List.map Prod.fst) (slotKV_frame m m2 S h)
  simpa [keysOf, slotKV] using this

/-- Leaves whose pages and overflow blobs a change of the store keeps stay well
formed. -/
theorem LeavesOk.frame {m : Blobs} {c : Bytes → Bytes → Int} {lo : Nat} {G : List Leaf}
    (hL : LeavesOk m c lo G) (m2 : Blobs) (h1 : ∀ l ∈ G, mget m2 l.h = mget m l.h)
    (h2 : ∀ k ∈ ovs G, mget m2 k = mget m k) : LeavesOk m2 c lo G := by
  rw [ovs_eq_slots] at h2
  refine ⟨Chain_congr m m2 0 0 G h1 hL.chain, ?_, ?_, hL.occ⟩
  · rw [fields_iff_slots]
    exact FieldsOk_frame m m2 _ h2 ((fields_iff_slots m G).1 hL.fields)
  · have := hL.sorted
    change (keysG m2 G).Pairwise _
    change (keysG m G).Pairwise _ at this
    rw [keysG_eq_slots] at this ⊢
    rw [keysOf_frame m m2 _ h2]
    exact this

/-! ## Rewriting one leaf -/

theorem LeavesOk.fieldsS {m : Blobs} {c : Bytes → Bytes → Int} {lo : Nat} {G : List Leaf}
    (hL : LeavesOk m c lo G) : FieldsOk m (slots G) := (fields_iff_slots m G).1 hL.fields

theorem LeavesOk.sortedS {m : Blobs} {c : Bytes → Bytes → Int} {lo : Nat} {G : List Leaf}
    (hL : LeavesOk m c lo G) : (keysOf m (slots G)).Pairwise (fun a b => c a b < 0) := by
  have := hL.sorted
  change (keysG m G).Pairwise _ at this
  rwa [keysG_eq_slots] at this

theorem LeavesOk.of_slots {m : Blobs} {c : Bytes → Bytes → Int} {lo : Nat} {G : List Leaf}
    (h1 : Chain m 0 G 0) (h2 : FieldsOk m (slots G))
    (h3 : (keysOf m (slots G)).Pairwise (fun a b => c a b < 0))
    (h4 : ∀ l ∈ G, lo ≤ l.S.length ∧ l.S.length ≤ 2 * kData) : LeavesOk m c lo G := by
  refine ⟨h1, (fields_iff_slots m G).2 h2, ?_, h4⟩
  change (keysG m G).Pairwise _
  rwa [keysG_eq_slots]

theorem headH_cons_h (l : Leaf) (S : List Slot) (B : List Leaf) (nx : Nat) :
    headH ((⟨l.h, S⟩ : Leaf) :: B) nx = headH (l :: B) nx := rfl

/-- The leaf `l` gets the items `S2`, the other leaves and their overflow blobs stay as
they are. -/
theorem LeavesOk.replace {m : Blobs} {c : Bytes → Bytes → Int} {lo : Nat} {A B : List Leaf}
    {l : Leaf} (hL : LeavesOk m c lo (A ++ l :: B)) (m2 : Blobs) (S2 : List Slot)
    (h1 : ∀ a ∈ A ++ B, mget m2 a.h = mget m a.h)
    (h2 : ∀ k ∈ ovs (A ++ B), mget m2 k = mget m k)
    (hp : mget m2 l.h = some (encD (lastH 0 A) (headH B 0) S2))
    (hf : FieldsOk m2 S2)
    (hs : (keysOf m (slots A) ++ keysOf m2 S2 ++ keysOf m (slots B)).Pairwise
      (fun a b => c a b < 0))
    (ho : lo ≤ S2.length ∧ S2.length ≤ 2 * kData) :
    LeavesOk m2 c lo (A ++ (⟨l.h, S2⟩ : Leaf) :: B) := by
  have hch := (Chain_append m 0 0 A (l :: B)).1 hL.chain
  have hfs := hL.fieldsS
  rw [slots_append, slots_cons] at hfs
  have hfA := (FieldsOk_append.1 hfs).1
  have hfB := (FieldsOk_append.1 (FieldsOk_append.1 hfs).2).2
  have hoA : ∀ k ∈ ovsS (slots A), mget m2 k = mget m k := by
    intro k hk
    apply h2
    rw [ovs_append]
    rw [← ovs_eq_slots] at hk
    exact List.mem_append_left _ hk
  have hoB : ∀ k ∈ ovsS (slots B), mget m2 k = mget m k := by
    intro k hk
    apply h2
    rw [ovs_append]
    rw [← ovs_eq_slots] at hk
    exact List.mem_append_right _ hk
  refine LeavesOk.of_slots ?_ ?_ ?_ ?_
  · rw [Chain_append]
    refine ⟨?_, hp, ?_⟩
    · exact Chain_congr m m2 _ _ A (fun a ha => h1 a (List.mem_append_left _ ha)) hch.1
    · exact Chain_congr m m2 _ _ B (fun a ha => h1 a (List.mem_append_right _ ha)) hch.2.2
  · rw [slots_append, slots_cons]
    exact FieldsOk_append.2 ⟨FieldsOk_frame m m2 _ hoA hfA,
      FieldsOk_append.2 ⟨hf, FieldsOk_frame m m2 _ hoB hfB⟩⟩
  · rw [slots_append, slots_cons, keysOf_append, keysOf_append, keysOf_frame m m2 _ hoA,
      keysOf_frame m m2 _ hoB, ← List.append_assoc]
    exact hs
  · intro x hx
    rcases List.mem_append.1 hx with h | h
    · exact hL.occ x (List.mem_append_left _ h)
    · rcases List.mem_cons.1 h with h | h
      · subst h; exact ho
      · exact hL.occ x (List.mem_append_right _ (List.mem_cons_of_mem _ h))

theorem kvs_replace (m m2 : Blobs) (A B : List Leaf) (h : Nat) (S2 : List Slot)
    (h2 : ∀ k ∈ ovs (A ++ B), mget m2 k = mget m k) :
    kvs m2 (A ++ (⟨h, S2⟩ : Leaf) :: B) = kvs m A ++ S2.map (slotKV m2) ++ kvs m B := by
  rw [kvs_append, kvs_cons, kvs_congr m m2 A, kvs_congr m m2 B]
  · simp
  · intro k hk; apply h2; rw [ovs_append]; exact List.mem_append_right _ hk
  · intro k hk; apply h2; rw [ovs_append]; exact List.mem_append_left _ hk

/-! ## Handles of a tree: distinctness -/

theorem Ctx.leaf_ne_ov {s : memBTreeStore} {O I : List Nat} {G : List Leaf} (h : Ctx s O I G)
    (l : Leaf) (hl : l ∈ G) (k : Nat) (hk : k ∈ ovs G) : l.h ≠ k := by
  intro e
  have hn := h.nodup
  unfold handles at hn
  have hd := (Multiset.nodup_add.1 hn).2.2
  have h1 : l.h ∈ (O : Multiset Nat) + (I : Multiset Nat) +
      ((G.map Leaf.h : List Nat) : Multiset Nat) :=
    Multiset.mem_add.2 (Or.inr (Multiset.mem_coe.2 (List.mem_map_of_mem _ hl)))
  exact Multiset.disjoint_left.1 hd h1 (by rw [e]; exact Multiset.mem_coe.2 hk)

theorem Ctx.leaves_nodup {s : memBTreeStore} {O I : List Nat} {G : List Leaf}
    (h : Ctx s O I G) : (G.map Leaf.h).Nodup := by
  have hn := h.nodup
  unfold handles at hn
  have h1 := (Multiset.nodup_add.1 hn).1
  exact Multiset.coe_nodup.1 (Multiset.nodup_add.1 h1).2.1

theorem Ctx.leaf_ne {s : memBTreeStore} {O I : List Nat} {A B : List Leaf} {l : Leaf}
    (h : Ctx s O I (A ++ l :: B)) (a : Leaf) (ha : a ∈ A ++ B) : a.h ≠ l.h := by
  have hn := h.leaves_nodup
  rw [List.map_append, List.map_cons] at hn
  have h1 := List.nodup_middle.1 hn
  intro e
  apply (List.nodup_cons.1 h1).1
  rw [← e, ← List.map_append]
  exact List.mem_map_of_mem _ ha

theorem Ctx.index_ne_leaf {s : memBTreeStore} {O I : List Nat} {G : List Leaf}
    (h : Ctx s O I G) (x : Nat) (hx : x ∈ O ++ I) (l : Leaf) (hl : l ∈ G) : x ≠ l.h := by
  intro e
  have hn := h.nodup
  unfold handles at hn
  have hd := (Multiset.nodup_add.1 (Multiset.nodup_add.1 hn).1).2.2
  have h1 : x ∈ (O : Multiset Nat) + (I : Multiset Nat) := by
    rw [Multiset.coe_add, Multiset.mem_coe]; exact hx
  exact Multiset.disjoint_left.1 hd h1 (by rw [e]; exact Multiset.mem_coe.2 (List.mem_map_of_mem _ hl))

theorem Ctx.index_ne_ov {s : memBTreeStore} {O I : List Nat} {G : List Leaf}
    (h : Ctx s O I G) (x : Nat) (hx : x ∈ O ++ I) (k : Nat) (hk : k ∈ ovs G) : x ≠ k := by
  intro e
  have hn := h.nodup
  unfold handles at hn
  have hd := (Multiset.nodup_add.1 hn).2.2
  have h1 : x ∈ (O : Multiset Nat) + (I : Multiset Nat) +
      ((G.map Leaf.h : List Nat) : Multiset Nat) := by
    refine Multiset.mem_add.2 (Or.inl ?_)
    rw [Multiset.coe_add, Multiset.mem_coe]; exact hx
  exact Multiset.disjoint_left.1 hd h1 (by rw [e]; exact Multiset.mem_coe.2 hk)

theorem Ctx.mem_leaf {s : memBTreeStore} {O I : List Nat} {G : List Leaf}
    (_h : Ctx s O I G) (l : Leaf) (hl : l ∈ G) : l.h ∈ handles O I G :=
  (mem_handles O I G l.h).2 (Or.inr (Or.inr (Or.inl ⟨l, hl, rfl⟩)))

theorem Ctx.mem_ov {s : memBTreeStore} {O I : List Nat} {G : List Leaf}
    (_h : Ctx s O I G) (k : Nat) (hk : k ∈ ovs G) : k ∈ handles O I G :=
  (mem_handles O I G k).2 (Or.inr (Or.inr (Or.inr hk)))

theorem Ctx.mem_index {s : memBTreeStore} {O I : List Nat} {G : List Leaf}
    (_h : Ctx s O I G) (x : Nat) (hx : x ∈ O ++ I) : x ∈ handles O I G := by
  rw [mem_handles]
  rcases List.mem_append.1 hx with h | h
  · exact Or.inl h
  · exact Or.inr (Or.inl h)

/-- The handles of a tree with the overflow handle of one value field set apart. -/
theorem handles_val (O I : List Nat) (A B : List Leaf) (h : Nat) (SA SB : List Slot)
    (kf vf : Bytes) :
    handles O I (A ++ (⟨h, SA ++ (kf, vf) :: SB⟩ : Leaf) :: B) =
      handles O I (A ++ (⟨h, SA ++ (kf, zeros 19) :: SB⟩ : Leaf) :: B) +
        (ovF vf : Multiset Nat) := by
  simp only [handles, ovs_eq_slots, slots_append, slots_cons, ovsS_append, ovsS_cons,
    ovF_zeros, List.map_append, List.map_cons, ← Multiset.coe_add, List.nil_append]
  abel

/-- The handles of a tree with the overflow handle of one key field set apart. -/
theorem handles_key (O I : List Nat) (A B : List Leaf) (h : Nat) (SA SB : List Slot)
    (kf vf : Bytes) :
    handles O I (A ++ (⟨h, SA ++ (kf, vf) :: SB⟩ : Leaf) :: B) =
      handles O I (A ++ (⟨h, SA ++ (zeros 19, vf) :: SB⟩ : Leaf) :: B) +
        (ovF kf : Multiset Nat) := by
  simp only [handles, ovs_eq_slots, slots_append, slots_cons, ovsS_append, ovsS_cons,
    ovF_zeros, List.map_append, List.map_cons, ← Multiset.coe_add, List.nil_append]
  abel

/-- A blob that is not the overflow blob of the field is not touched by `setContent`. -/
theorem CtxM.setField_frame {s : memBTreeStore} {M : Multiset Nat} (f b : Bytes)
    (h : CtxM s (M + (ovF f : Multiset Nat))) (k : Nat) (hk : k ∈ M) :
    mget (setField s f b).2.m k = mget s.m k := by
  have hb := h.bound k (Multiset.mem_add.2 (Or.inl hk))
  refine mget_setField s f b k ?_ (by omega)
  intro e
  have h0 : fieldH f ≠ 0 := by rw [← e]; omega
  have hm : k ∈ (ovF f : Multiset Nat) := Multiset.mem_coe.2 ((mem_ovF f k).2 ⟨e, by omega⟩)
  exact Multiset.disjoint_left.1 (Multiset.nodup_add.1 h.nodup).2.2 hk hm

/-! ## put2: the key exists -/

/-- What `put2` does once it found the key at an item of a leaf. -/
theorem put2Found_eq (pv nx : Nat) (SA SB : List Slot) (kf vf : Bytes) (ph : Nat)
    (key : Bytes) (upd : Updater) (s : memBTreeStore) (hSA : SlotsLen SA)
    (hk : kf.length = 19) (hv : FieldOk s.m vf) (z : Int) (hz : z = SA.length) :
    btree.put2Found (encD pv nx (SA ++ (kf, vf) :: SB)) ph z key upd s =
      match upd key (appendNil (fieldVal s.m vf)) with
      | .error e => (.error e, s)
      | .ok (v, w) =>
        if w then
          match mget (setField s vf v).2.m ph with
          | none => (.error (.ilseq ph), (setField s vf v).2)
          | some _ =>
            (.ok (appendNil (fieldVal s.m vf), true, [(key, appendNil (fieldVal s.m vf))]),
              ⟨(setField s vf v).2.h, mset (setField s vf v).2.m ph
                (encD pv nx (SA ++ (kf, (setField s vf v).1) :: SB))⟩)
        else
          (.ok (appendNil (fieldVal s.m vf), false, [(key, appendNil (fieldVal s.m vf))]), s) := by
  have h1 := valueCopy_encD pv nx SA SB kf vf hSA hk z hz s hv
  have h2 := value_encD pv nx SA SB kf vf hSA hk z hz s hv
  simp only [btree.put2Found, M_bind, M_liftM, M_monadLift, M_pure, h1]
  cases hu : upd key (appendNil (fieldVal s.m vf)) with
  | error e => rfl
  | ok r =>
    obtain ⟨v, w⟩ := r
    cases w with
    | false => rfl
    | true =>
      have h3 := setValue_encD pv nx SA SB kf vf hSA hk z hz v s hv
      simp only [btreeDataPage.swap, M_bind, M_pure, h2, h3, Bool.not_true, Bool.false_eq_true,
        if_false, if_true, memBTreeStore.Realloc]
      cases mget (setField s vf v).2.m ph <;> rfl

/-- `put2` overwrites the value of an item: the tree is the tree of before with the new
value at that item. -/
theorem put2Found_write (c : Bytes → Bytes → Int) (lo : Nat) (O I : List Nat)
    (A B : List Leaf) (h : Nat) (SA SB : List Slot) (kf vf v : Bytes) (s : memBTreeStore)
    (hL : LeavesOk s.m c lo (A ++ (⟨h, SA ++ (kf, vf) :: SB⟩ : Leaf) :: B))
    (hC : Ctx s O I (A ++ (⟨h, SA ++ (kf, vf) :: SB⟩ : Leaf) :: B))
    (hs : s.h + 1 < 2 ^ 56) :
    ∃ (s2 : memBTreeStore) (vf2 : Bytes),
      mget (setField s vf v).2.m h = some (encD (lastH 0 A) (headH B 0) (SA ++ (kf, vf) :: SB)) ∧
      s2 = ⟨(setField s vf v).2.h, mset (setField s vf v).2.m h
        (encD (lastH 0 A) (headH B 0) (SA ++ (kf, (setField s vf v).1) :: SB))⟩ ∧
      vf2 = (setField s vf v).1 ∧
      LeavesOk s2.m c lo (A ++ (⟨h, SA ++ (kf, vf2) :: SB⟩ : Leaf) :: B) ∧
      Ctx s2 O I (A ++ (⟨h, SA ++ (kf, vf2) :: SB⟩ : Leaf) :: B) ∧
      (∀ x ∈ O ++ I, mget s2.m x = mget s.m x) ∧ s.h ≤ s2.h ∧ s2.h ≤ s.h + 1 ∧
      kvs s2.m (A ++ (⟨h, SA ++ (kf, vf2) :: SB⟩ : Leaf) :: B) =
        kvs s.m A ++ (SA.map (slotKV s.m) ++ (fieldVal s.m kf, v) :: SB.map (slotKV s.m)) ++
          kvs s.m B := by
  set l : Leaf := ⟨h, SA ++ (kf, vf) :: SB⟩ with hl
  have hlG : l ∈ A ++ l :: B := by simp
  have hfl : FieldsOk s.m l.S := hL.fields l hlG
  have hfv : FieldOk s.m vf := (hfl (kf, vf) (by simp [hl])).2
  have hfk : FieldOk s.m kf := (hfl (kf, vf) (by simp [hl])).1
  have hfSA : FieldsOk s.m SA := fun x hx => hfl x (by simp [hl, hx])
  have hfSB : FieldsOk s.m SB := fun x hx => hfl x (by simp [hl, hx])
  have hpage := Chain_mid s.m 0 0 A B l hL.chain
  -- the handles, the overflow handle of the value apart
  have hH := handles_val O I A B h SA SB kf vf
  have hC1 : CtxM s (handles O I (A ++ (⟨h, SA ++ (kf, zeros 19) :: SB⟩ : Leaf) :: B) +
      (ovF vf : Multiset Nat)) := hH ▸ hC
  have hC2 := hC1.set_field vf v hfv hs
  have hframe := fun k hk => hC1.setField_frame vf v k hk
  have hmemM : ∀ k, k ∈ O ++ I ∨ (∃ a ∈ A ++ l :: B, a.h = k) ∨ k ∈ ovs (A ++ B) ∨ k ∈ ovsS SA ∨
      k ∈ ovF kf ∨ k ∈ ovsS SB →
      k ∈ handles O I (A ++ (⟨h, SA ++ (kf, zeros 19) :: SB⟩ : Leaf) :: B) := by
    intro k hk
    rw [mem_handles]
    rcases hk with h1 | ⟨a, h1, h2⟩ | h1 | h1
    · rcases List.mem_append.1 h1 with h1 | h1
      · exact Or.inl h1
      · exact Or.inr (Or.inl h1)
    · refine Or.inr (Or.inr (Or.inl ?_))
      rcases List.mem_append.1 h1 with h1 | h1
      · exact ⟨a, List.mem_append_left _ h1, h2⟩
      · rcases List.mem_cons.1 h1 with h1 | h1
        · exact ⟨_, List.mem_append_right _ (List.mem_cons_self _ _), by rw [← h2, h1]⟩
        · exact ⟨a, List.mem_append_right _ (List.mem_cons_of_mem _ h1), h2⟩
    · refine Or.inr (Or.inr (Or.inr ?_))
      rw [ovs_append] at h1
      rw [ovs_append, ovs_cons]
      rcases List.mem_append.1 h1 with h1 | h1
      · exact List.mem_append_left _ h1
      · exact List.mem_append_right _ (List.mem_append_right _ h1)
    · refine Or.inr (Or.inr (Or.inr ?_))
      rw [ovs_append, ovs_cons]
      refine List.mem_append_right _ (List.mem_append_left _ ?_)
      show k ∈ ovsS (SA ++ (kf, zeros 19) :: SB)
      rw [ovsS_append, ovsS_cons, ovF_zeros]
      simp only [List.mem_append, List.nil_append]
      tauto
  have hph : mget (setField s vf v).2.m h = some (encD (lastH 0 A) (headH B 0) l.S) := by
    rw [hframe h (hmemM h (Or.inr (Or.inl ⟨l, hlG, rfl⟩)))]
    exact hpage
  have hok := setField_ok s vf v hfv hs
  have hhle := setField_h_le s vf v
  -- the overflow handle of the new field is not the handle of the leaf
  have hvne : ∀ k ∈ ovF (setField s vf v).1, k ≠ h := by
    intro k hk e
    have hn := hC2.nodup
    exact Multiset.disjoint_left.1 (Multiset.nodup_add.1 hn).2.2
      (hmemM h (Or.inr (Or.inl ⟨l, hlG, rfl⟩))) (by rw [← e]; exact Multiset.mem_coe.2 hk)
  refine ⟨_, _, hph, rfl, rfl, ?_, ?_, ?_, hhle.1, hhle.2, ?_⟩
  · -- the leaves
    have hfr : ∀ k, k ≠ h → k ∈ handles O I (A ++ (⟨h, SA ++ (kf, zeros 19) :: SB⟩ : Leaf) :: B) →
        mget (mset (setField s vf v).2.m h
          (encD (lastH 0 A) (headH B 0) (SA ++ (kf, (setField s vf v).1) :: SB))) k =
          mget s.m k := by
      intro k hk hm
      rw [mget_mset, if_neg (fun e => hk e.symm)]
      exact hframe k hm
    refine LeavesOk.replace (l := l) hL _ _ ?_ ?_ ?_ ?_ ?_ ?_
    · intro a ha
      refine hfr a.h (hC.leaf_ne a ha) (hmemM _ (Or.inr (Or.inl ⟨a, ?_, rfl⟩)))
      rcases List.mem_append.1 ha with h1 | h1
      · exact List.mem_append_left _ h1
      · exact List.mem_append_right _ (List.mem_cons_of_mem _ h1)
    · intro k hk
      refine hfr k ?_ (hmemM _ (Or.inr (Or.inr (Or.inl hk))))
      refine (hC.leaf_ne_ov l hlG k ?_).symm
      rw [ovs_append] at hk
      rw [ovs_append, ovs_cons]
      rcases List.mem_append.1 hk with h1 | h1
      · exact List.mem_append_left _ h1
      · exact List.mem_append_right _ (List.mem_append_right _ h1)
    · show mget (mset _ h _) h = _
      rw [mget_mset, if_pos rfl]
    · have hov : ∀ k, k ∈ ovsS SA ∨ k ∈ ovF kf ∨ k ∈ ovsS SB → mget (mset (setField s vf v).2.m h
          (encD (lastH 0 A) (headH B 0) (SA ++ (kf, (setField s vf v).1) :: SB))) k =
          mget s.m k := by
        intro k hk
        refine hfr k ?_ (hmemM _ (Or.inr (Or.inr (Or.inr hk))))
        refine (hC.leaf_ne_ov l hlG k ?_).symm
        rw [ovs_append, ovs_cons]
        refine List.mem_append_right _ (List.mem_append_left _ ?_)
        show k ∈ ovsS (SA ++ (kf, vf) :: SB)
        rw [ovsS_append, ovsS_cons]
        simp only [List.mem_append]
        tauto
      refine FieldsOk_append.2 ⟨FieldsOk_frame _ _ _ (fun k hk => hov k (Or.inl hk)) hfSA,
        FieldsOk_cons.2 ⟨⟨?_, ?_⟩, FieldsOk_frame _ _ _ (fun k hk => hov k (Or.inr (Or.inr hk))) hfSB⟩⟩
      · exact FieldOk_congr _ _ _ (fun h0 => hov _ (Or.inr (Or.inl ((mem_ovF _ _).2 ⟨rfl, h0⟩)))) hfk
      · refine FieldOk_congr _ _ _ (fun h0 => ?_) hok.1
        rw [mget_mset, if_neg]
        exact fun e => hvne _ ((mem_ovF _ _).2 ⟨rfl, h0⟩) e.symm
    · have hov : ∀ k, k ∈ ovsS SA ∨ k ∈ ovF kf ∨ k ∈ ovsS SB → mget (mset (setField s vf v).2.m h
          (encD (lastH 0 A) (headH B 0) (SA ++ (kf, (setField s vf v).1) :: SB))) k =
          mget s.m k := by
        intro k hk
        refine hfr k ?_ (hmemM _ (Or.inr (Or.inr (Or.inr hk))))
        refine (hC.leaf_ne_ov l hlG k ?_).symm
        rw [ovs_append, ovs_cons]
        refine List.mem_append_right _ (List.mem_append_left _ ?_)
        show k ∈ ovsS (SA ++ (kf, vf) :: SB)
        rw [ovsS_append, ovsS_cons]
        simp only [List.mem_append]
        tauto
      have hkk : keysOf (mset (setField s vf v).2.m h
          (encD (lastH 0 A) (headH B 0) (SA ++ (kf, (setField s vf v).1) :: SB)))
          (SA ++ (kf, (setField s vf v).1) :: SB) = keysOf s.m l.S := by
        rw [keysOf_append, keysOf_cons, keysOf_frame _ _ SA (fun k hk => hov k (Or.inl hk)),
          keysOf_frame _ _ SB (fun k hk => hov k (Or.inr (Or.inr hk))),
          fieldVal_congr _ _ kf (fun h0 => hov _ (Or.inr (Or.inl ((mem_ovF _ _).2 ⟨rfl, h0⟩))))]
        show _ = keysOf s.m (SA ++ (kf, vf) :: SB)
        rw [keysOf_append, keysOf_cons]
      rw [hkk]
      have := hL.sortedS
      rw [slots_append, slots_cons, keysOf_append, keysOf_append, ← List.append_assoc] at this
      exact this
    · have := hL.occ l hlG
      simpa [hl] using this
  · -- the handles
    have := hC2.realloc h (Multiset.mem_add.2 (Or.inl (hmemM h (Or.inr (Or.inl ⟨l, hlG, rfl⟩)))))
      (encD (lastH 0 A) (headH B 0) (SA ++ (kf, (setField s vf v).1) :: SB))
    rw [← handles_val] at this
    exact this
  · intro x hx
    show mget (mset _ h _) x = _
    rw [mget_mset, if_neg (fun e => hC.index_ne_leaf x hx l hlG e.symm)]
    exact hframe x (hmemM x (Or.inl hx))
  · have hov : ∀ k, k ∈ ovsS SA ∨ k ∈ ovF kf ∨ k ∈ ovsS SB → mget (mset (setField s vf v).2.m h
        (encD (lastH 0 A) (headH B 0) (SA ++ (kf, (setField s vf v).1) :: SB))) k =
        mget s.m k := by
      intro k hk
      rw [mget_mset, if_neg]
      · exact hframe k (hmemM _ (Or.inr (Or.inr (Or.inr hk))))
      · refine hC.leaf_ne_ov l hlG k ?_
        rw [ovs_append, ovs_cons]
        refine List.mem_append_right _ (List.mem_append_left _ ?_)
        show k ∈ ovsS (SA ++ (kf, vf) :: SB)
        rw [ovsS_append, ovsS_cons]
        simp only [List.mem_append]
        tauto
    rw [kvs_replace s.m]
    · congr 2
      rw [List.map_append, List.map_cons, slotKV_frame _ _ SA (fun k hk => hov k (Or.inl hk)),
        slotKV_frame _ _ SB (fun k hk => hov k (Or.inr (Or.inr hk)))]
      congr 2
      unfold slotKV
      simp only
      rw [fieldVal_congr _ _ kf (fun h0 => hov _ (Or.inr (Or.inl ((mem_ovF _ _).2 ⟨rfl, h0⟩))))]
      congr 1
      refine (fieldVal_congr _ _ _ (fun h0 => ?_)).trans hok.2
      rw [mget_mset, if_neg]
      exact fun e => hvne _ ((mem_ovF _ _).2 ⟨rfl, h0⟩) e.symm
    · intro k hk
      rw [mget_mset, if_neg]
      · exact hframe k (hmemM _ (Or.inr (Or.inr (Or.inl hk))))
      · refine hC.leaf_ne_ov l hlG k ?_
        rw [ovs_append] at hk
        rw [ovs_append, ovs_cons]
        rcases List.mem_append.1 hk with h1 | h1
        · exact List.mem_append_left _ h1
        · exact List.mem_append_right _ (List.mem_append_right _ h1)

/-! ## Rewriting leaves -/

theorem lastH_cons (pv : Nat) (l : Leaf) (ls : List Leaf) : lastH pv (l :: ls) = lastH l.h ls :=
  rfl

/-- Leaves `Mid` in the middle of the tree are replaced by leaves `Mid2` that start with
the same handle: the tree stays well formed when the new pages are chained, the new
items well formed and in order, and the store keeps the other leaves and all the
overflow blobs of before. -/
theorem LeavesOk.update {m : Blobs} {c : Bytes → Bytes → Int} {lo : Nat}
    {A Mid B : List Leaf} (hL : LeavesOk m c lo (A ++ Mid ++ B)) (m2 : Blobs)
    (Mid2 : List Leaf)
    (hA : ∀ a ∈ A, mget m2 a.h = mget m a.h)
    (hov : ∀ k ∈ ovs (A ++ B), mget m2 k = mget m k)
    (hhead : headH (Mid2 ++ B) 0 = headH (Mid ++ B) 0)
    (hmid : Chain m2 (lastH 0 A) Mid2 (headH B 0))
    (hB : Chain m2 (lastH (lastH 0 A) Mid2) B 0)
    (hf : FieldsOk m2 (slots Mid2))
    (hs : (keysOf m (slots A) ++ keysOf m2 (slots Mid2) ++ keysOf m (slots B)).Pairwise
      (fun a b => c a b < 0))
    (ho : ∀ l ∈ Mid2, lo ≤ l.S.length ∧ l.S.length ≤ 2 * kData) :
    LeavesOk m2 c lo (A ++ Mid2 ++ B) := by
  rw [List.append_assoc] at hL ⊢
  have hch := (Chain_append m 0 0 A (Mid ++ B)).1 hL.chain
  have hfs := hL.fieldsS
  rw [slots_append, slots_append] at hfs
  have hfA := (FieldsOk_append.1 hfs).1
  have hfB := (FieldsOk_append.1 (FieldsOk_append.1 hfs).2).2
  have hoA : ∀ k ∈ ovsS (slots A), mget m2 k = mget m k := by
    intro k hk
    apply hov
    rw [ovs_append]
    rw [← ovs_eq_slots] at hk
    exact List.mem_append_left _ hk
  have hoB : ∀ k ∈ ovsS (slots B), mget m2 k = mget m k := by
    intro k hk
    apply hov
    rw [ovs_append]
    rw [← ovs_eq_slots] at hk
    exact List.mem_append_right _ hk
  refine LeavesOk.of_slots ?_ ?_ ?_ ?_
  · rw [Chain_append]
    refine ⟨?_, ?_⟩
    · rw [hhead]
      exact Chain_congr m m2 _ _ A hA hch.1
    · rw [Chain_append]
      exact ⟨hmid, hB⟩
  · rw [slots_append, slots_append]
    exact FieldsOk_append.2 ⟨FieldsOk_frame m m2 _ hoA hfA,
      FieldsOk_append.2 ⟨hf, FieldsOk_frame m m2 _ hoB hfB⟩⟩
  · rw [slots_append, slots_append, keysOf_append, keysOf_append, keysOf_frame m m2 _ hoA,
      keysOf_frame m m2 _ hoB, ← List.append_assoc]
    exact hs
  · intro x hx
    rcases List.mem_append.1 hx with h | h
    · exact hL.occ x (List.mem_append_left _ h)
    · rcases List.mem_append.1 h with h | h
      · exact ho x h
      · exact hL.occ x (List.mem_append_right _ (List.mem_append_right _ h))

theorem kvs_update (m m2 : Blobs) (A Mid2 B : List Leaf)
    (hov : ∀ k ∈ ovs (A ++ B), mget m2 k = mget m k) :
    kvs m2 (A ++ Mid2 ++ B) = kvs m A ++ (slots Mid2).map (slotKV m2) ++ kvs m B := by
  rw [kvs_append, kvs_append, kvs_congr m m2 A, kvs_congr m m2 B, kvs_eq_slots m2 Mid2]
  · intro k hk; apply hov; rw [ovs_append]; exact List.mem_append_right _ hk
  · intro k hk; apply hov; rw [ovs_append]; exact List.mem_append_left _ hk

/-! ## Handles: growth -/

/-- The store grew by the fresh handles `New`. -/
theorem CtxM.extend {s s2 : memBTreeStore} {M : Multiset Nat} (h : CtxM s M)
    (New : List Nat) (hn : New.Nodup) (hfresh : ∀ k ∈ New, s.h < k ∧ k ≤ s2.h)
    (hh : s.h ≤ s2.h)
    (hlive : ∀ k, (mget s2.m k).isSome = true → (mget s.m k).isSome = true ∨ k ∈ New) :
    CtxM s2 (M + (New : Multiset Nat)) := by
  refine ⟨?_, ?_, ?_⟩
  · rw [Multiset.nodup_add]
    refine ⟨h.nodup, Multiset.coe_nodup.2 hn, ?_⟩
    rw [Multiset.disjoint_left]
    intro a ha hb
    have := (h.bound a ha).2
    have := (hfresh a (Multiset.mem_coe.1 hb)).1
    omega
  · intro x hx
    rcases Multiset.mem_add.1 hx with h1 | h1
    · have := h.bound x h1
      exact ⟨this.1, by omega⟩
    · have := hfresh x (Multiset.mem_coe.1 h1)
      exact ⟨by omega, this.2⟩
  · intro x hx
    rcases hlive x hx with h1 | h1
    · exact Multiset.mem_add.2 (Or.inl (h.live x h1))
    · exact Multiset.mem_add.2 (Or.inr (Multiset.mem_coe.2 h1))

/-! ## The item of insertItem -/

theorem setField_zero (s : memBTreeStore) (b : Bytes) :
    setField s (zeros 19) b =
      if b.length < 19 then (fieldSetInline (zeros 19) b, s)
      else (fieldSetOv 255 b (h2bBytes (s.h + 1)),
        ⟨s.h + 1, mset s.m (s.h + 1) (b.drop 11)⟩) := by
  unfold setField
  rw [if_neg (by decide)]

/-- The store after `setContent` on a fresh field: the store of before, and at most one
new blob. -/
theorem setField_zero_facts (s : memBTreeStore) (b : Bytes) (hs : s.h + 1 < 2 ^ 56) :
    s.h ≤ (setField s (zeros 19) b).2.h ∧ (setField s (zeros 19) b).2.h ≤ s.h + 1 ∧
    (∀ k, k ≤ s.h → mget (setField s (zeros 19) b).2.m k = mget s.m k) ∧
    (∀ k, (mget (setField s (zeros 19) b).2.m k).isSome = true →
      (mget s.m k).isSome = true ∨ k ∈ ovF (setField s (zeros 19) b).1) ∧
    (∀ k ∈ ovF (setField s (zeros 19) b).1, k = s.h + 1 ∧ (setField s (zeros 19) b).2.h = s.h + 1) ∧
    FieldOk (setField s (zeros 19) b).2.m (setField s (zeros 19) b).1 ∧
    fieldVal (setField s (zeros 19) b).2.m (setField s (zeros 19) b).1 = b := by
  have hok := setField_ok s (zeros 19) b (FieldOk_zeros s.m) hs
  have hH := fieldH_setField s (zeros 19) b hs
  have hz : ¬ ((zeros 19).headD 0 ≥ 19) := by decide
  rw [if_neg hz] at hH
  refine ⟨(setField_h_le s _ b).1, (setField_h_le s _ b).2, ?_, ?_, ?_, hok.1, hok.2⟩
  · intro k hk
    rw [setField_zero]
    split
    · rfl
    · simp only [mget_mset]
      rw [if_neg (by omega)]
  · intro k hk
    unfold ovF
    rw [hH]
    rw [setField_zero] at hk
    by_cases hb : b.length < 19
    · rw [if_pos hb] at hk
      exact Or.inl hk
    · rw [if_neg hb] at hk
      simp only [mget_mset] at hk
      by_cases hk2 : s.h + 1 = k
      · right
        rw [if_neg hb, if_neg (by omega)]
        simp [hk2]
      · rw [if_neg hk2] at hk
        exact Or.inl hk
  · intro k hk
    unfold ovF at hk
    rw [hH] at hk
    by_cases hb : b.length < 19
    · rw [if_pos hb] at hk
      simp at hk
    · rw [if_neg hb, if_neg (by omega)] at hk
      simp only [List.mem_singleton] at hk
      refine ⟨hk, ?_⟩
      rw [setField_zero, if_neg hb]

/-! ## Inserting an item into the leaves -/

/-- The item and the store of `insertItem`. -/
theorem newItem_facts (s : memBTreeStore) (key value : Bytes) (hs : s.h + 2 < 2 ^ 56) :
    s.h ≤ (newItem s key value).2.h ∧ (newItem s key value).2.h ≤ s.h + 2 ∧
    (∀ k, k ≤ s.h → mget (newItem s key value).2.m k = mget s.m k) ∧
    (∀ k, (mget (newItem s key value).2.m k).isSome = true →
      (mget s.m k).isSome = true ∨
        k ∈ ovF (newItem s key value).1.1 ++ ovF (newItem s key value).1.2) ∧
    (ovF (newItem s key value).1.1 ++ ovF (newItem s key value).1.2).Nodup ∧
    (∀ k ∈ ovF (newItem s key value).1.1 ++ ovF (newItem s key value).1.2,
      s.h < k ∧ k ≤ (newItem s key value).2.h) ∧
    FieldOk (newItem s key value).2.m (newItem s key value).1.1 ∧
    FieldOk (newItem s key value).2.m (newItem s key value).1.2 ∧
    fieldVal (newItem s key value).2.m (newItem s key value).1.1 = key ∧
    fieldVal (newItem s key value).2.m (newItem s key value).1.2 = value := by
  obtain ⟨a1, a2, a3, a4, a5, a6, a7⟩ := setField_zero_facts s key (by omega)
  obtain ⟨b1, b2, b3, b4, b5, b6, b7⟩ :=
    setField_zero_facts (setField s (zeros 19) key).2 value (by omega)
  unfold newItem
  simp only
  have hk1 : ∀ k ∈ ovF (setField s (zeros 19) key).1, k ≤ (setField s (zeros 19) key).2.h := by
    intro k hk
    have := a5 k hk
    omega
  refine ⟨by omega, by omega, ?_, ?_, ?_, ?_, ?_, b6, ?_, b7⟩
  · intro k hk
    rw [b3 k (by omega), a3 k hk]
  · intro k hk
    rcases b4 k hk with h | h
    · rcases a4 k h with h2 | h2
      · exact Or.inl h2
      · exact Or.inr (List.mem_append_left _ h2)
    · exact Or.inr (List.mem_append_right _ h)
  · rw [List.nodup_append]
    refine ⟨ovF_nodup _, ovF_nodup _, ?_⟩
    intro k hk1' hk2
    have := a5 k hk1'
    have := b5 k hk2
    omega
  · intro k hk
    rcases List.mem_append.1 hk with h | h
    · have := a5 k h; omega
    · have := b5 k h; omega
  · exact FieldOk_congr _ _ _ (fun h0 => b3 _ (hk1 _ ((mem_ovF _ _).2 ⟨rfl, h0⟩))) a6
  · rw [fieldVal_congr _ _ _ (fun h0 => b3 _ (hk1 _ ((mem_ovF _ _).2 ⟨rfl, h0⟩)))]
    exact a7

/-- The leaves `Mid` are replaced by leaves `Mid2` that hold the items of `Mid` and one
new item, of a key that lies between the items before and after it. -/
theorem LeavesOk.insert {m : Blobs} {c : Bytes → Bytes → Int} {lo : Nat}
    {A Mid B : List Leaf} (hL : LeavesOk m c lo (A ++ Mid ++ B)) (m2 : Blobs)
    (Mid2 : List Leaf) (X Y : List Slot) (kf vf key : Bytes)
    (hX : slots Mid = X ++ Y) (hX2 : slots Mid2 = X ++ (kf, vf) :: Y)
    (hA : ∀ a ∈ A, mget m2 a.h = mget m a.h)
    (hov : ∀ k ∈ ovs (A ++ Mid ++ B), mget m2 k = mget m k)
    (hhead : headH (Mid2 ++ B) 0 = headH (Mid ++ B) 0)
    (hmid : Chain m2 (lastH 0 A) Mid2 (headH B 0))
    (hB : Chain m2 (lastH (lastH 0 A) Mid2) B 0)
    (hkf : FieldOk m2 kf) (hvf : FieldOk m2 vf) (hkey : fieldVal m2 kf = key)
    (hlow : ∀ k ∈ keysOf m (slots A ++ X), c k key < 0)
    (hhigh : ∀ k ∈ keysOf m (Y ++ slots B), c key k < 0)
    (ho : ∀ l ∈ Mid2, lo ≤ l.S.length ∧ l.S.length ≤ 2 * kData) :
    LeavesOk m2 c lo (A ++ Mid2 ++ B) ∧
    kvs m2 (A ++ Mid2 ++ B) =
      (slots A ++ X).map (slotKV m) ++ (key, fieldVal m2 vf) :: (Y ++ slots B).map (slotKV m) := by
  have hovAB : ∀ k ∈ ovs (A ++ B), mget m2 k = mget m k := by
    intro k hk
    apply hov
    rw [ovs_append] at hk
    rw [ovs_append, ovs_append]
    rcases List.mem_append.1 hk with h | h
    · exact List.mem_append_left _ (List.mem_append_left _ h)
    · exact List.mem_append_right _ h
  have hovM : ∀ k ∈ ovsS (X ++ Y), mget m2 k = mget m k := by
    intro k hk
    apply hov
    rw [ovs_append, ovs_append, ovs_eq_slots Mid, hX]
    exact List.mem_append_left _ (List.mem_append_right _ hk)
  have hovX : ∀ k ∈ ovsS X, mget m2 k = mget m k :=
    fun k hk => hovM k (by rw [ovsS_append]; exact List.mem_append_left _ hk)
  have hovY : ∀ k ∈ ovsS Y, mget m2 k = mget m k :=
    fun k hk => hovM k (by rw [ovsS_append]; exact List.mem_append_right _ hk)
  have hfs := hL.fieldsS
  rw [slots_append, slots_append, hX] at hfs
  have hfXY := (FieldsOk_append.1 (FieldsOk_append.1 hfs).1).2
  have hfX := (FieldsOk_append.1 hfXY).1
  have hfY := (FieldsOk_append.1 hfXY).2
  have hso := hL.sortedS
  rw [slots_append, slots_append, hX] at hso
  constructor
  · refine hL.update m2 Mid2 hA hovAB hhead hmid hB ?_ ?_ ho
    · rw [hX2]
      exact FieldsOk_append.2 ⟨FieldsOk_frame m m2 _ hovX hfX,
        FieldsOk_cons.2 ⟨⟨hkf, hvf⟩, FieldsOk_frame m m2 _ hovY hfY⟩⟩
    · rw [hX2, keysOf_append, keysOf_cons, keysOf_frame m m2 _ hovX, keysOf_frame m m2 _ hovY,
        hkey]
      have e1 : slots A ++ (X ++ Y) ++ slots B = (slots A ++ X) ++ (Y ++ slots B) := by simp
      rw [e1, keysOf_append] at hso
      have e3 : keysOf m (slots A) ++ (keysOf m X ++ key :: keysOf m Y) ++ keysOf m (slots B) =
          keysOf m (slots A ++ X) ++ key :: keysOf m (Y ++ slots B) := by
        simp [keysOf_append]
      rw [e3]
      rw [List.pairwise_append] at hso ⊢
      refine ⟨hso.1, List.pairwise_cons.2 ⟨hhigh, hso.2.1⟩, ?_⟩
      intro a ha b hb
      rcases List.mem_cons.1 hb with h | h
      · subst h; exact hlow a ha
      · exact hso.2.2 a ha b h
  · rw [kvs_update m m2 A Mid2 B hovAB, hX2, kvs_eq_slots, kvs_eq_slots]
    simp only [List.map_append, List.map_cons, List.append_assoc, List.cons_append]
    rw [slotKV_frame m m2 X hovX, slotKV_frame m m2 Y hovY]
    simp [slotKV, hkey]

/-! ## put2: a new item in a leaf that has room -/

theorem handles_insert (O I : List Nat) (A B : List Leaf) (h : Nat) (SA SB : List Slot)
    (x : Slot) :
    handles O I (A ++ (⟨h, SA ++ x :: SB⟩ : Leaf) :: B) =
      handles O I (A ++ (⟨h, SA ++ SB⟩ : Leaf) :: B) + ((ovF x.1 ++ ovF x.2 : List Nat) : Multiset Nat) := by
  simp only [handles, ovs_eq_slots, slots_append, slots_cons, ovsS_append, ovsS_cons,
    List.map_append, List.map_cons, ← Multiset.coe_add]
  abel

theorem Chain_single (m : Blobs) (pv nx : Nat) (l : Leaf) :
    Chain m pv [l] nx ↔ mget m l.h = some (encD pv nx l.S) := by
  simp [Chain, headH]

/-- `insertItem` and `Realloc` on a leaf that has room: the tree is the tree of before
with the new item in that leaf. -/
theorem leaf_insert (c : Bytes → Bytes → Int) (lo : Nat) (O I : List Nat)
    (A B : List Leaf) (h : Nat) (SA SB : List Slot) (key value : Bytes) (s : memBTreeStore)
    (hL : LeavesOk s.m c lo (A ++ (⟨h, SA ++ SB⟩ : Leaf) :: B))
    (hC : Ctx s O I (A ++ (⟨h, SA ++ SB⟩ : Leaf) :: B))
    (hlen : (SA ++ SB).length < 2 * kData)
    (hlow : ∀ k ∈ keysOf s.m (slots A ++ SA), c k key < 0)
    (hhigh : ∀ k ∈ keysOf s.m (SB ++ slots B), c key k < 0)
    (hs : s.h + 2 < 2 ^ 56) :
    ∃ (s2 : memBTreeStore) (x : Slot),
      btreeDataPage.insertItem (encD (lastH 0 A) (headH B 0) (SA ++ SB)) (SA.length : Int)
        key value s = (.ok (encD (lastH 0 A) (headH B 0) (SA ++ x :: SB)), (newItem s key value).2) ∧
      memBTreeStore.Realloc h (encD (lastH 0 A) (headH B 0) (SA ++ x :: SB))
        (newItem s key value).2 = (.ok (), s2) ∧
      LeavesOk s2.m c lo (A ++ (⟨h, SA ++ x :: SB⟩ : Leaf) :: B) ∧
      Ctx s2 O I (A ++ (⟨h, SA ++ x :: SB⟩ : Leaf) :: B) ∧
      (∀ k ∈ O ++ I, mget s2.m k = mget s.m k) ∧ s.h ≤ s2.h ∧ s2.h ≤ s.h + 2 ∧
      kvs s2.m (A ++ (⟨h, SA ++ x :: SB⟩ : Leaf) :: B) =
        (slots A ++ SA).map (slotKV s.m) ++ (key, value) :: (SB ++ slots B).map (slotKV s.m) := by
  obtain ⟨n1, n2, n3, n4, n5, n6, n7, n8, n9, n10⟩ := newItem_facts s key value hs
  have hlG : (⟨h, SA ++ SB⟩ : Leaf) ∈ A ++ (⟨h, SA ++ SB⟩ : Leaf) :: B := by simp
  have hfl : FieldsOk s.m (SA ++ SB) := hL.fields _ hlG
  have hpage := Chain_mid s.m 0 0 A B _ hL.chain
  have hhb : h ≤ s.h := (hC.bound h (hC.mem_leaf _ hlG)).2
  have hins := insertItem_encD (lastH 0 A) (headH B 0) SA SB
    (SlotsLen_append_left hfl.slotsLen) (SlotsLen_append_right hfl.slotsLen) (SA.length : Int) rfl
    key value s
  have hg1 : mget (newItem s key value).2.m h = some (encD (lastH 0 A) (headH B 0) (SA ++ SB)) := by
    rw [n3 h hhb]; exact hpage
  refine ⟨⟨(newItem s key value).2.h, mset (newItem s key value).2.m h
    (encD (lastH 0 A) (headH B 0) (SA ++ (newItem s key value).1 :: SB))⟩,
    (newItem s key value).1, hins, Realloc_ok _ _ _ _ hg1, ?_⟩
  -- the final store on the handles of before
  have hold : ∀ k, k ≤ s.h → k ≠ h → mget (mset (newItem s key value).2.m h
      (encD (lastH 0 A) (headH B 0) (SA ++ (newItem s key value).1 :: SB))) k = mget s.m k := by
    intro k hk hne
    rw [mget_mset, if_neg (fun e => hne e.symm)]
    exact n3 k hk
  have hnew : ∀ k ∈ ovF (newItem s key value).1.1 ++ ovF (newItem s key value).1.2,
      mget (mset (newItem s key value).2.m h
        (encD (lastH 0 A) (headH B 0) (SA ++ (newItem s key value).1 :: SB))) k =
        mget (newItem s key value).2.m k := by
    intro k hk
    rw [mget_mset, if_neg]
    have := (n6 k hk).1
    omega
  have hAB : ∀ a ∈ A ++ B, a.h ≤ s.h ∧ a.h ≠ h := by
    intro a ha
    refine ⟨(hC.bound _ (hC.mem_leaf a ?_)).2, hC.leaf_ne a ha⟩
    rcases List.mem_append.1 ha with h1 | h1
    · exact List.mem_append_left _ h1
    · exact List.mem_append_right _ (List.mem_cons_of_mem _ h1)
  have hovs : ∀ k ∈ ovs (A ++ (⟨h, SA ++ SB⟩ : Leaf) :: B), k ≤ s.h ∧ k ≠ h :=
    fun k hk => ⟨(hC.bound _ (hC.mem_ov k hk)).2, (hC.leaf_ne_ov _ hlG k hk).symm⟩
  have hins2 := @LeavesOk.insert _ _ _ A [(⟨h, SA ++ SB⟩ : Leaf)] B
    (by simpa using hL)
    (mset (newItem s key value).2.m h
      (encD (lastH 0 A) (headH B 0) (SA ++ (newItem s key value).1 :: SB)))
    [(⟨h, SA ++ (newItem s key value).1 :: SB⟩ : Leaf)] SA SB
    (newItem s key value).1.1 (newItem s key value).1.2 key
    (by simp [slots]) (by simp [slots])
    (fun a ha => hold a.h (hAB a (List.mem_append_left _ ha)).1 (hAB a (List.mem_append_left _ ha)).2)
    (fun k hk => hold k (hovs k (by simpa using hk)).1 (hovs k (by simpa using hk)).2)
    rfl
    (by rw [Chain_single, mget_mset, if_pos rfl])
    (by
      have hch := (Chain_append s.m 0 0 A _).1 hL.chain
      exact Chain_congr _ _ _ _ B
        (fun b hb => hold b.h (hAB b (List.mem_append_right _ hb)).1
          (hAB b (List.mem_append_right _ hb)).2) hch.2.2)
    (FieldOk_congr _ _ _ (fun h0 => hnew _ (List.mem_append_left _ ((mem_ovF _ _).2 ⟨rfl, h0⟩))) n7)
    (FieldOk_congr _ _ _ (fun h0 => hnew _ (List.mem_append_right _ ((mem_ovF _ _).2 ⟨rfl, h0⟩))) n8)
    (by rw [fieldVal_congr _ _ _
      (fun h0 => hnew _ (List.mem_append_left _ ((mem_ovF _ _).2 ⟨rfl, h0⟩)))]; exact n9)
    hlow hhigh
    (by
      intro l hl
      simp only [List.mem_singleton] at hl
      subst hl
      have := hL.occ _ hlG
      simp only [List.length_append, List.length_cons] at this hlen ⊢
      omega)
  have hv : fieldVal (mset (newItem s key value).2.m h
      (encD (lastH 0 A) (headH B 0) (SA ++ (newItem s key value).1 :: SB)))
      (newItem s key value).1.2 = value := by
    rw [fieldVal_congr _ _ _
      (fun h0 => hnew _ (List.mem_append_right _ ((mem_ovF _ _).2 ⟨rfl, h0⟩)))]
    exact n10
  refine ⟨by simpa using hins2.1, ?_, ?_, n1, n2, ?_⟩
  · have h1 : CtxM (newItem s key value).2 (handles O I (A ++ (⟨h, SA ++ SB⟩ : Leaf) :: B) +
        ((ovF (newItem s key value).1.1 ++ ovF (newItem s key value).1.2 : List Nat) :
          Multiset Nat)) := CtxM.extend hC _ n5 n6 n1 n4
    have h2 := h1.realloc h (Multiset.mem_add.2 (Or.inl (hC.mem_leaf _ hlG)))
      (encD (lastH 0 A) (headH B 0) (SA ++ (newItem s key value).1 :: SB))
    rw [← handles_insert] at h2
    exact h2
  · intro k hk
    exact hold k (hC.bound _ (hC.mem_index k hk)).2 (hC.index_ne_leaf k hk _ hlG)
  · have := hins2.2
    rw [hv] at this
    simpa using this

/-! ## put2: a new item in a full leaf, next to a sibling that has room -/

/-- The handles of two lists of leaves of the same handles, of which the second holds
one more item. -/
theorem handles_insert_slots (O I : List Nat) (G G2 : List Leaf) (X Y : List Slot) (x : Slot)
    (hh : G2.map Leaf.h = G.map Leaf.h) (hs : slots G = X ++ Y) (hs2 : slots G2 = X ++ x :: Y) :
    handles O I G2 = handles O I G + ((ovF x.1 ++ ovF x.2 : List Nat) : Multiset Nat) := by
  simp only [handles, ovs_eq_slots, hh, hs, hs2, ovsS_append, ovsS_cons, ← Multiset.coe_add]
  abel

/-- Two adjacent leaves are rewritten and hold, together, their items of before and one
new item. -/
theorem insert2_sem (c : Bytes → Bytes → Int) (lo : Nat) (O I : List Nat)
    (A B : List Leaf) (l1 l2 : Leaf) (S1 S2 X Y : List Slot) (x : Slot) (key value : Bytes)
    (s s2 : memBTreeStore)
    (hL : LeavesOk s.m c lo (A ++ l1 :: l2 :: B)) (hC : Ctx s O I (A ++ l1 :: l2 :: B))
    (hX : l1.S ++ l2.S = X ++ Y) (hX2 : S1 ++ S2 = X ++ x :: Y)
    (hlow : ∀ k ∈ keysOf s.m (slots A ++ X), c k key < 0)
    (hhigh : ∀ k ∈ keysOf s.m (Y ++ slots B), c key k < 0)
    (ho1 : lo ≤ S1.length ∧ S1.length ≤ 2 * kData) (ho2 : lo ≤ S2.length ∧ S2.length ≤ 2 * kData)
    (hp1 : mget s2.m l1.h = some (encD (lastH 0 A) l2.h S1))
    (hp2 : mget s2.m l2.h = some (encD l1.h (headH B 0) S2))
    (hold : ∀ k, k ≤ s.h → k ≠ l1.h → k ≠ l2.h → mget s2.m k = mget s.m k)
    (hh : s.h ≤ s2.h)
    (hfk : FieldOk s2.m x.1) (hfv : FieldOk s2.m x.2) (hvk : fieldVal s2.m x.1 = key)
    (hvv : fieldVal s2.m x.2 = value)
    (hnd : (ovF x.1 ++ ovF x.2).Nodup)
    (hfresh : ∀ k ∈ ovF x.1 ++ ovF x.2, s.h < k ∧ k ≤ s2.h)
    (hlive : ∀ k, (mget s2.m k).isSome = true →
      (mget s.m k).isSome = true ∨ k ∈ ovF x.1 ++ ovF x.2) :
    LeavesOk s2.m c lo (A ++ (⟨l1.h, S1⟩ : Leaf) :: (⟨l2.h, S2⟩ : Leaf) :: B) ∧
    Ctx s2 O I (A ++ (⟨l1.h, S1⟩ : Leaf) :: (⟨l2.h, S2⟩ : Leaf) :: B) ∧
    (∀ k ∈ O ++ I, mget s2.m k = mget s.m k) ∧
    kvs s2.m (A ++ (⟨l1.h, S1⟩ : Leaf) :: (⟨l2.h, S2⟩ : Leaf) :: B) =
      (slots A ++ X).map (slotKV s.m) ++ (key, value) :: (Y ++ slots B).map (slotKV s.m) := by
  have hl1 : l1 ∈ A ++ l1 :: l2 :: B := by simp
  have hl2 : l2 ∈ A ++ l1 :: l2 :: B := by simp
  have hne : ∀ a ∈ A ++ B, a.h ≤ s.h ∧ a.h ≠ l1.h ∧ a.h ≠ l2.h := by
    intro a ha
    have hn := hC.leaves_nodup
    have haG : a ∈ A ++ l1 :: l2 :: B := by
      rcases List.mem_append.1 ha with h | h
      · exact List.mem_append_left _ h
      · exact List.mem_append_right _ (List.mem_cons_of_mem _ (List.mem_cons_of_mem _ h))
    refine ⟨(hC.bound _ (hC.mem_leaf a haG)).2, ?_, ?_⟩
    · have := hC.leaf_ne (A := A) (B := l2 :: B) (l := l1) a (by
        rcases List.mem_append.1 ha with h | h
        · exact List.mem_append_left _ h
        · exact List.mem_append_right _ (List.mem_cons_of_mem _ h))
      exact this
    · have hC2 : Ctx s O I ((A ++ [l1]) ++ l2 :: B) := by simpa using hC
      have := hC2.leaf_ne (l := l2) a (by
        rcases List.mem_append.1 ha with h | h
        · exact List.mem_append_left _ (List.mem_append_left _ h)
        · exact List.mem_append_right _ h)
      exact this
  have hov : ∀ k ∈ ovs (A ++ l1 :: l2 :: B), k ≤ s.h ∧ k ≠ l1.h ∧ k ≠ l2.h :=
    fun k hk => ⟨(hC.bound _ (hC.mem_ov k hk)).2, (hC.leaf_ne_ov _ hl1 k hk).symm,
      (hC.leaf_ne_ov _ hl2 k hk).symm⟩
  have hins := @LeavesOk.insert _ _ _ A [l1, l2] B
    (by simpa using hL) s2.m [(⟨l1.h, S1⟩ : Leaf), (⟨l2.h, S2⟩ : Leaf)] X Y x.1 x.2 key
    (by simpa [slots] using hX) (by simpa [slots] using hX2)
    (fun a ha => hold a.h (hne a (List.mem_append_left _ ha)).1
      (hne a (List.mem_append_left _ ha)).2.1 (hne a (List.mem_append_left _ ha)).2.2)
    (fun k hk => hold k (hov k (by simpa using hk)).1 (hov k (by simpa using hk)).2.1
      (hov k (by simpa using hk)).2.2)
    rfl
    (by
      show (mget s2.m l1.h = _ ∧ mget s2.m l2.h = _ ∧ True)
      exact ⟨hp1, hp2, trivial⟩)
    (by
      have hch := (Chain_append s.m 0 0 (A ++ [l1, l2]) B).1 (by simpa using hL.chain)
      have e : lastH 0 (A ++ [l1, l2]) = l2.h := by rw [lastH_append]; rfl
      rw [e] at hch
      exact Chain_congr _ _ _ _ B
        (fun b hb => hold b.h (hne b (List.mem_append_right _ hb)).1
          (hne b (List.mem_append_right _ hb)).2.1 (hne b (List.mem_append_right _ hb)).2.2)
        hch.2)
    hfk hfv hvk hlow hhigh
    (by
      intro l hl
      simp only [List.mem_cons, List.mem_singleton, List.not_mem_nil, or_false] at hl
      rcases hl with h | h
      · subst h; exact ho1
      · subst h; exact ho2)
  refine ⟨by simpa using hins.1, ?_, ?_, ?_⟩
  · have h1 : CtxM s2 (handles O I (A ++ l1 :: l2 :: B) +
        ((ovF x.1 ++ ovF x.2 : List Nat) : Multiset Nat)) := CtxM.extend hC _ hnd hfresh hh hlive
    rw [← handles_insert_slots O I (A ++ l1 :: l2 :: B)
      (A ++ (⟨l1.h, S1⟩ : Leaf) :: (⟨l2.h, S2⟩ : Leaf) :: B) (slots A ++ X) (Y ++ slots B) x
      (by simp) (by simp [slots_append, slots_cons, ← List.append_assoc, hX])
      (by
        simp only [slots_append, slots_cons]
        rw [← List.append_assoc S1, hX2]
        simp)] at h1
    exact h1
  · intro k hk
    exact hold k (hC.bound _ (hC.mem_index k hk)).2 (hC.index_ne_leaf k hk _ hl1)
      (hC.index_ne_leaf k hk _ hl2)
  · have := hins.2
    rw [hvv] at this
    simpa using this

/-- The store after `Realloc` of a page, `insertItem`, and `Realloc` of a second page. -/
theorem two_step_store (s : memBTreeStore) (w w2 : Nat) (pw pw2 : Bytes) (key value : Bytes)
    (hw : w ≤ s.h) (hw2 : w2 ≤ s.h) (hne : w ≠ w2)
    (hlw : (mget s.m w).isSome = true) (hlw2 : (mget s.m w2).isSome = true)
    (hs : s.h + 2 < 2 ^ 56) :
    ∃ (s2 : memBTreeStore) (x : Slot),
      x = (newItem ⟨s.h, mset s.m w pw⟩ key value).1 ∧
      s2 = ⟨(newItem ⟨s.h, mset s.m w pw⟩ key value).2.h,
        mset (newItem ⟨s.h, mset s.m w pw⟩ key value).2.m w2 pw2⟩ ∧
      (∃ b0, mget (newItem ⟨s.h, mset s.m w pw⟩ key value).2.m w2 = some b0) ∧
      mget s2.m w = some pw ∧ mget s2.m w2 = some pw2 ∧
      (∀ k, k ≤ s.h → k ≠ w → k ≠ w2 → mget s2.m k = mget s.m k) ∧
      s.h ≤ s2.h ∧ s2.h ≤ s.h + 2 ∧
      FieldOk s2.m x.1 ∧ FieldOk s2.m x.2 ∧ fieldVal s2.m x.1 = key ∧ fieldVal s2.m x.2 = value ∧
      (ovF x.1 ++ ovF x.2).Nodup ∧ (∀ k ∈ ovF x.1 ++ ovF x.2, s.h < k ∧ k ≤ s2.h) ∧
      (∀ k, (mget s2.m k).isSome = true →
        (mget s.m k).isSome = true ∨ k ∈ ovF x.1 ++ ovF x.2) := by
  obtain ⟨n1, n2, n3, n4, n5, n6, n7, n8, n9, n10⟩ :=
    newItem_facts ⟨s.h, mset s.m w pw⟩ key value hs
  simp only at n1 n2 n3 n6
  have hnew : ∀ k ∈ ovF (newItem ⟨s.h, mset s.m w pw⟩ key value).1.1 ++
      ovF (newItem ⟨s.h, mset s.m w pw⟩ key value).1.2,
      mget (mset (newItem ⟨s.h, mset s.m w pw⟩ key value).2.m w2 pw2) k =
        mget (newItem ⟨s.h, mset s.m w pw⟩ key value).2.m k := by
    intro k hk
    rw [mget_mset, if_neg]
    have := (n6 k hk).1
    omega
  have hg2 : mget (newItem ⟨s.h, mset s.m w pw⟩ key value).2.m w2 = mget s.m w2 := by
    rw [n3 w2 hw2, mget_mset, if_neg hne]
  refine ⟨_, _, rfl, rfl, ?_, ?_, ?_, ?_, n1, n2, ?_, ?_, ?_, ?_, n5, n6, ?_⟩
  · rw [hg2]
    exact Option.isSome_iff_exists.1 hlw2
  · show mget (mset _ w2 pw2) w = _
    rw [mget_mset, if_neg (fun e => hne e.symm), n3 w hw, mget_mset, if_pos rfl]
  · show mget (mset _ w2 pw2) w2 = _
    rw [mget_mset, if_pos rfl]
  · intro k hk h1 h2
    show mget (mset _ w2 pw2) k = _
    rw [mget_mset, if_neg (fun e => h2 e.symm), n3 k hk, mget_mset, if_neg (fun e => h1 e.symm)]
  · exact FieldOk_congr _ _ _ (fun h0 => hnew _ (List.mem_append_left _ ((mem_ovF _ _).2 ⟨rfl, h0⟩))) n7
  · exact FieldOk_congr _ _ _ (fun h0 => hnew _ (List.mem_append_right _ ((mem_ovF _ _).2 ⟨rfl, h0⟩))) n8
  · rw [fieldVal_congr _ _ _ (fun h0 => hnew _ (List.mem_append_left _ ((mem_ovF _ _).2 ⟨rfl, h0⟩)))]
    exact n9
  · rw [fieldVal_congr _ _ _ (fun h0 => hnew _ (List.mem_append_right _ ((mem_ovF _ _).2 ⟨rfl, h0⟩)))]
    exact n10
  · intro k hk
    change (mget (mset _ w2 pw2) k).isSome = true at hk
    rw [mget_mset] at hk
    by_cases h2 : w2 = k
    · subst h2; exact Or.inl hlw2
    · rw [if_neg h2] at hk
      rcases n4 k hk with h3 | h3
      · simp only [mget_mset] at h3
        by_cases h1 : w = k
        · subst h1; exact Or.inl hlw
        · rw [if_neg h1] at h3; exact Or.inl h3
      · exact Or.inr h3

theorem lastH_snoc (pv : Nat) (A : List Leaf) (l : Leaf) : lastH pv (A ++ [l]) = l.h := by
  rw [lastH_append]; rfl

/-- `overflow` moves the first item of the full leaf to its left sibling, which has room,
and inserts. -/
theorem overflow_left (c : Bytes → Bytes → Int) (lo : Nat) (O I : List Nat)
    (A B : List Leaf) (left l : Leaf) (x0 : Slot) (SA SB : List Slot) (key value : Bytes)
    (s : memBTreeStore) (root P rh : Nat) (pi : Int)
    (hcs : checkSiblings P pi s = (.ok (left.h, rh), s))
    (hL : LeavesOk s.m c lo (A ++ left :: l :: B)) (hC : Ctx s O I (A ++ left :: l :: B))
    (hSl : l.S = x0 :: (SA ++ SB)) (hroom : left.S.length < 2 * kData)
    (hlow : ∀ k ∈ keysOf s.m (slots A ++ (left.S ++ x0 :: SA)), c k key < 0)
    (hhigh : ∀ k ∈ keysOf s.m (SB ++ slots B), c key k < 0)
    (hs : s.h + 2 < 2 ^ 56) :
    ∃ (s2 : memBTreeStore) (x : Slot),
      btreeDataPage.overflow (encD left.h (headH B 0) l.S) root l.h P pi
        ((SA.length + 1 : Nat) : Int) key value s = (.ok (), s2) ∧
      LeavesOk s2.m c lo (A ++ (⟨left.h, left.S ++ [x0]⟩ : Leaf) ::
        (⟨l.h, SA ++ x :: SB⟩ : Leaf) :: B) ∧
      Ctx s2 O I (A ++ (⟨left.h, left.S ++ [x0]⟩ : Leaf) :: (⟨l.h, SA ++ x :: SB⟩ : Leaf) :: B) ∧
      (∀ k ∈ O ++ I, mget s2.m k = mget s.m k) ∧ s.h ≤ s2.h ∧ s2.h ≤ s.h + 2 ∧
      kvs s2.m (A ++ (⟨left.h, left.S ++ [x0]⟩ : Leaf) :: (⟨l.h, SA ++ x :: SB⟩ : Leaf) :: B) =
        (slots A ++ (left.S ++ x0 :: SA)).map (slotKV s.m) ++
          (key, value) :: (SB ++ slots B).map (slotKV s.m) := by
  have hleft : left ∈ A ++ left :: l :: B := by simp
  have hlm : l ∈ A ++ left :: l :: B := by simp
  have hpl := Chain_mid s.m 0 0 A (l :: B) left hL.chain
  have hpp : mget s.m l.h = some (encD left.h (headH B 0) l.S) := by
    have := Chain_mid s.m 0 0 (A ++ [left]) B l (by simpa using hL.chain)
    rwa [lastH_snoc] at this
  have hfL : FieldsOk s.m left.S := hL.fields left hleft
  have hfl : FieldsOk s.m l.S := hL.fields l hlm
  rw [hSl] at hfl
  have hbl := hC.bound _ (hC.mem_leaf left hleft)
  have hbp := hC.bound _ (hC.mem_leaf l hlm)
  have hne : left.h ≠ l.h := by
    have := hC.leaf_ne (A := A) (B := l :: B) (l := left) l (by simp)
    exact fun e => this e.symm
  obtain ⟨s2, x, hx, hs2, ⟨b0, hg⟩, t1, t2, t3, t4, t5, t6, t7, t8, t9, t10, t11, t12⟩ :=
    two_step_store s left.h l.h (encD (lastH 0 A) l.h (left.S ++ [x0]))
      (encD left.h (headH B 0) (SA ++ (newItem ⟨s.h, mset s.m left.h
        (encD (lastH 0 A) l.h (left.S ++ [x0]))⟩ key value).1 :: SB)) key value
      hbl.2 hbp.2 hne (by rw [hpl]; rfl) (by rw [hpp]; rfl) hs
  have hfx0 : SlotsLen [x0] := fun y hy => by
    simp only [List.mem_singleton] at hy
    subst hy
    exact ⟨(hfl y (by simp)).1.1, (hfl y (by simp)).2.1⟩
  have hfSS : SlotsLen (SA ++ SB) := fun y hy => by
    exact ⟨(hfl y (List.mem_cons_of_mem _ hy)).1.1, (hfl y (List.mem_cons_of_mem _ hy)).2.1⟩
  have hml := moveLeft_encD left.h (headH B 0) (lastH 0 A) l.h [x0] (SA ++ SB) left.S hfx0 hfSS
    hfL.slotsLen 1 (by simp)
  have hins := insertItem_encD left.h (headH B 0) SA SB (SlotsLen_append_left hfSS)
    (SlotsLen_append_right hfSS) (((SA.length + 1 : Nat) : Int) - 1) (by push_cast; ring) key value
    ⟨s.h, mset s.m left.h (encD (lastH 0 A) l.h (left.S ++ [x0]))⟩
  refine ⟨s2, x, ?_, ?_⟩
  · have hlen : btreeDataPage.len (encD (lastH 0 A) (headH (l :: B) 0) left.S) < 2 * (kData : Int) := by
      rw [dataLen_encD _ _ _ hfL.slotsLen]
      exact_mod_cast hroom
    have hl0 : left.h ≠ 0 := by omega
    simp only [btreeDataPage.overflow, M_bind, M_liftM, M_monadLift, M_pure, hcs, hl0, ne_eq,
      not_false_eq_true, if_true, Get_ok s _ _ hpl, hlen, and_self, hSl]
    have hml2 : btreeDataPage.moveLeft (encD left.h (headH B 0) (x0 :: (SA ++ SB)))
        (encD (lastH 0 A) (headH (l :: B) 0) left.S) 1 =
        .ok (encD left.h (headH B 0) (SA ++ SB), encD (lastH 0 A) l.h (left.S ++ [x0])) := hml
    simp only [hml2, Realloc_ok s _ _ _ hpl, hins]
    have hg2 := hg
    simp only [newItem] at hg2
    simp only [memBTreeStore.Realloc, hg2]
    rw [hs2]
    rfl
  · subst hx
    have hsem := insert2_sem c lo O I A B left l (left.S ++ [x0])
      (SA ++ (newItem ⟨s.h, mset s.m left.h (encD (lastH 0 A) l.h (left.S ++ [x0]))⟩
        key value).1 :: SB) (left.S ++ x0 :: SA) SB _ key value s s2 hL hC
      (by rw [hSl]; simp) (by simp) hlow hhigh
      (by
        have := hL.occ left hleft
        simp only [List.length_append, List.length_singleton]
        omega)
      (by
        have := hL.occ l hlm
        rw [hSl] at this
        simp only [List.length_append, List.length_cons] at this ⊢
        omega)
      t1 t2 t3 t4 t6 t7 t8 t9 t10 t11 t12
    exact ⟨hsem.1, hsem.2.1, hsem.2.2.1, t4, t5, hsem.2.2.2⟩

/-! ## put2: a new item in a full leaf whose right sibling has room -/

/-- `overflow` moves the last item of the full leaf to its right sibling, which has room,
and inserts. -/
theorem overflow_right (c : Bytes → Bytes → Int) (lo : Nat) (O I : List Nat)
    (A B : List Leaf) (l right : Leaf) (xl : Slot) (SA SB : List Slot) (key value : Bytes)
    (s : memBTreeStore) (root P lh : Nat) (pi : Int)
    (hcs : checkSiblings P pi s = (.ok (lh, right.h), s))
    (hleft : lh = 0 ∨ ∃ pl, mget s.m lh = some pl ∧ ¬ (btreeDataPage.len pl < 2 * (kData : Int)))
    (hL : LeavesOk s.m c lo (A ++ l :: right :: B)) (hC : Ctx s O I (A ++ l :: right :: B))
    (hSl : l.S = SA ++ SB ++ [xl]) (hfull : l.S.length = 2 * kData)
    (hroom : right.S.length < 2 * kData)
    (hlow : ∀ k ∈ keysOf s.m (slots A ++ SA), c k key < 0)
    (hhigh : ∀ k ∈ keysOf s.m ((SB ++ xl :: right.S) ++ slots B), c key k < 0)
    (hs : s.h + 2 < 2 ^ 56) :
    ∃ (s2 : memBTreeStore) (x : Slot),
      btreeDataPage.overflow (encD (lastH 0 A) right.h l.S) root l.h P pi
        (SA.length : Int) key value s = (.ok (), s2) ∧
      LeavesOk s2.m c lo (A ++ (⟨l.h, SA ++ x :: SB⟩ : Leaf) ::
        (⟨right.h, xl :: right.S⟩ : Leaf) :: B) ∧
      Ctx s2 O I (A ++ (⟨l.h, SA ++ x :: SB⟩ : Leaf) :: (⟨right.h, xl :: right.S⟩ : Leaf) :: B) ∧
      (∀ k ∈ O ++ I, mget s2.m k = mget s.m k) ∧ s.h ≤ s2.h ∧ s2.h ≤ s.h + 2 ∧
      kvs s2.m (A ++ (⟨l.h, SA ++ x :: SB⟩ : Leaf) :: (⟨right.h, xl :: right.S⟩ : Leaf) :: B) =
        (slots A ++ SA).map (slotKV s.m) ++
          (key, value) :: ((SB ++ xl :: right.S) ++ slots B).map (slotKV s.m) := by
  have hright : right ∈ A ++ l :: right :: B := by simp
  have hlm : l ∈ A ++ l :: right :: B := by simp
  have hpp := Chain_mid s.m 0 0 A (right :: B) l hL.chain
  have hpr : mget s.m right.h = some (encD l.h (headH B 0) right.S) := by
    have := Chain_mid s.m 0 0 (A ++ [l]) B right (by simpa using hL.chain)
    rwa [lastH_snoc] at this
  have hfR : FieldsOk s.m right.S := hL.fields right hright
  have hfl : FieldsOk s.m l.S := hL.fields l hlm
  rw [hSl] at hfl
  have hbr := hC.bound _ (hC.mem_leaf right hright)
  have hbp := hC.bound _ (hC.mem_leaf l hlm)
  have hne : right.h ≠ l.h := hC.leaf_ne (A := A) (B := right :: B) (l := l) right (by simp)
  obtain ⟨s2, x, hx, hs2, ⟨b0, hg⟩, t1, t2, t3, t4, t5, t6, t7, t8, t9, t10, t11, t12⟩ :=
    two_step_store s right.h l.h (encD l.h (headH B 0) (xl :: right.S))
      (encD (lastH 0 A) right.h (SA ++ (newItem ⟨s.h, mset s.m right.h
        (encD l.h (headH B 0) (xl :: right.S))⟩ key value).1 :: SB)) key value
      hbr.2 hbp.2 hne (by rw [hpr]; rfl) (by rw [hpp]; rfl) hs
  have hfx : SlotsLen [xl] := fun y hy => by
    simp only [List.mem_singleton] at hy
    subst hy
    exact ⟨(hfl y (by simp)).1.1, (hfl y (by simp)).2.1⟩
  have hfSS : SlotsLen (SA ++ SB) := fun y hy =>
    ⟨(hfl y (List.mem_append_left _ hy)).1.1, (hfl y (List.mem_append_left _ hy)).2.1⟩
  have hmr := moveRight_encD (lastH 0 A) right.h l.h (headH B 0) (SA ++ SB) [xl] right.S hfSS hfx
    hfR.slotsLen 1 (by simp)
  have hins := insertItem_encD (lastH 0 A) right.h SA SB (SlotsLen_append_left hfSS)
    (SlotsLen_append_right hfSS) (SA.length : Int) rfl key value
    ⟨s.h, mset s.m right.h (encD l.h (headH B 0) (xl :: right.S))⟩
  refine ⟨s2, x, ?_, ?_⟩
  · have hlen : btreeDataPage.len (encD l.h (headH B 0) right.S) < 2 * (kData : Int) := by
      rw [dataLen_encD _ _ _ hfR.slotsLen]
      exact_mod_cast hroom
    have hr0 : right.h ≠ 0 := by omega
    have hidx : (SA.length : Int) < 2 * (kData : Int) := by
      have := congrArg List.length hSl
      simp only [List.length_append, List.length_singleton] at this
      omega
    have hg2 := hg
    simp only [newItem] at hg2
    have hmr2 : btreeDataPage.moveRight (encD (lastH 0 A) right.h (SA ++ SB ++ [xl]))
        (encD l.h (headH B 0) right.S) 1 =
        .ok (encD (lastH 0 A) right.h (SA ++ SB), encD l.h (headH B 0) (xl :: right.S)) := hmr
    rcases hleft with h0 | ⟨pl, hpl, hfullL⟩
    · subst h0
      simp only [btreeDataPage.overflow, M_bind, M_liftM, M_monadLift, M_pure, hcs, hr0, ne_eq,
        not_true_eq_false, not_false_eq_true, if_true, if_false, false_and, Get_ok s _ _ hpr,
        hlen, and_self, hSl, hidx, hmr2, Realloc_ok s _ _ _ hpr, hins]
      simp only [memBTreeStore.Realloc, hg2]
      rw [hs2]
      rfl
    · by_cases hl0 : lh = 0
      · subst hl0
        simp only [btreeDataPage.overflow, M_bind, M_liftM, M_monadLift, M_pure, hcs, hr0, ne_eq,
          not_true_eq_false, not_false_eq_true, if_true, if_false, false_and, Get_ok s _ _ hpr,
          hlen, and_self, hSl, hidx, hmr2, Realloc_ok s _ _ _ hpr, hins]
        simp only [memBTreeStore.Realloc, hg2]
        rw [hs2]
        rfl
      · simp only [btreeDataPage.overflow, M_bind, M_liftM, M_monadLift, M_pure, hcs, hr0, hl0,
          ne_eq, not_false_eq_true, if_true, if_false, Get_ok s _ _ hpl, hfullL, and_false,
          Get_ok s _ _ hpr, hlen, and_self, hSl, hidx, hmr2, Realloc_ok s _ _ _ hpr, hins]
        simp only [memBTreeStore.Realloc, hg2]
        rw [hs2]
        rfl
  · subst hx
    have hsem := insert2_sem c lo O I A B l right
      (SA ++ (newItem ⟨s.h, mset s.m right.h (encD l.h (headH B 0) (xl :: right.S))⟩
        key value).1 :: SB) (xl :: right.S) SA (SB ++ xl :: right.S) _ key value s s2 hL hC
      (by rw [hSl]; simp) (by simp) hlow
      (by simpa using hhigh)
      (by
        have := hL.occ l hlm
        rw [hSl] at this
        simp only [List.length_append, List.length_cons, List.length_singleton,
          List.length_nil] at this ⊢
        omega)
      (by
        have := hL.occ right hright
        simp only [List.length_cons]
        omega)
      t2 t1 (fun k h1 h2 h3 => t3 k h1 h3 h2) t4 t6 t7 t8 t9 t10 t11 t12
    refine ⟨hsem.1, hsem.2.1, hsem.2.2.1, t4, t5, ?_⟩
    have := hsem.2.2.2
    simpa using this

/-! ## put2: the pairs after an insertion or an overwrite -/

theorem upsertK_insert {c : Bytes → Bytes → Int} (hc : TotalCmp c)
    (X Y : List (Bytes × Bytes)) (key v : Bytes)
    (hlow : ∀ a ∈ X, c a.1 key < 0) (hhigh : ∀ b ∈ Y, c key b.1 < 0) :
    upsertK c (X ++ Y) key v = X ++ (key, v) :: Y := by
  induction X with
  | nil =>
    cases Y with
    | nil => rfl
    | cons y Y =>
      obtain ⟨k1, v1⟩ := y
      have := hhigh (k1, v1) (List.mem_cons_self _ _)
      simp only [List.nil_append, upsertK, if_pos this]
  | cons x X ih =>
    obtain ⟨k1, v1⟩ := x
    have h1 := hlow (k1, v1) (List.mem_cons_self _ _)
    have h2 : 0 < c key k1 := (hc.gt_iff key k1).2 h1
    have h3 : ¬ c key k1 < 0 := by omega
    have h4 : ¬ c key k1 = 0 := by omega
    have e := ih (fun a ha => hlow a (List.mem_cons_of_mem _ ha))
    simp only [List.cons_append, upsertK, if_neg h3, if_neg h4]
    exact congrArg _ e

theorem upsertK_found {c : Bytes → Bytes → Int} (hc : TotalCmp c)
    (X Y : List (Bytes × Bytes)) (k0 v0 key v : Bytes)
    (hlow : ∀ a ∈ X, c a.1 key < 0) (hk : c key k0 = 0) :
    upsertK c (X ++ (k0, v0) :: Y) key v = X ++ (k0, v) :: Y := by
  induction X with
  | nil =>
    have h3 : ¬ c key k0 < 0 := by omega
    simp only [List.nil_append, upsertK, if_neg h3, if_pos hk]
  | cons x X ih =>
    obtain ⟨k1, v1⟩ := x
    have h1 := hlow (k1, v1) (List.mem_cons_self _ _)
    have h2 : 0 < c key k1 := (hc.gt_iff key k1).2 h1
    have h3 : ¬ c key k1 < 0 := by omega
    have h4 : ¬ c key k1 = 0 := by omega
    have e := ih (fun a ha => hlow a (List.mem_cons_of_mem _ ha))
    simp only [List.cons_append, upsertK, if_neg h3, if_neg h4]
    exact congrArg _ e

theorem lookupK_absent {c : Bytes → Bytes → Int} (hc : TotalCmp c)
    (X Y : List (Bytes × Bytes)) (key : Bytes)
    (hlow : ∀ a ∈ X, c a.1 key < 0) (hhigh : ∀ b ∈ Y, c key b.1 < 0) :
    lookupK c (X ++ Y) key = none := by
  refine lookupK_none c _ key (fun a ha => ?_)
  rcases List.mem_append.1 ha with h | h
  · have := (hc.gt_iff key a.1).2 (hlow a h)
    omega
  · have := hhigh a h
    omega

theorem lookupK_present {c : Bytes → Bytes → Int} (hc : TotalCmp c)
    (X Y : List (Bytes × Bytes)) (k0 v0 key : Bytes)
    (hlow : ∀ a ∈ X, c a.1 key < 0) (hk : c key k0 = 0) :
    lookupK c (X ++ (k0, v0) :: Y) key = some v0 := by
  refine lookupK_found c X Y k0 v0 key (fun a ha => ?_) hk
  have := (hc.gt_iff key a.1).2 (hlow a ha)
  omega

/-- The specification of `put2` when `key` is absent and the updater is called with nil. -/
theorem PutSpec.absent {c : Bytes → Bytes → Int} (hc : TotalCmp c)
    (X Y : List (Bytes × Bytes)) (key : Bytes) (upd : Updater)
    (hlow : ∀ a ∈ X, c a.1 key < 0) (hhigh : ∀ b ∈ Y, c key b.1 < 0)
    (K2 : List (Bytes × Bytes)) (r : Except Err PutResult)
    (h : match upd key none with
      | .error e => r = .error e ∧ K2 = X ++ Y
      | .ok (v, w) => r = .ok (none, w, [(key, none)]) ∧
          K2 = if w then X ++ (key, v) :: Y else X ++ Y) :
    PutSpec c (X ++ Y) K2 key upd r := by
  have e : oldOf c (X ++ Y) key = none := by
    simp only [oldOf, lookupK_absent hc X Y key hlow hhigh, Option.none_bind]
  simp only [PutSpec, e]
  cases hu : upd key none with
  | error err => simpa [hu] using h
  | ok vw =>
    obtain ⟨v, w⟩ := vw
    rw [hu] at h
    simp only at h ⊢
    rw [upsertK_insert hc X Y key v hlow hhigh]
    exact h

/-- The specification of `put2` when a key that compares equal to `key` is present. -/
theorem PutSpec.present {c : Bytes → Bytes → Int} (hc : TotalCmp c)
    (X Y : List (Bytes × Bytes)) (k0 v0 key : Bytes) (upd : Updater)
    (hlow : ∀ a ∈ X, c a.1 key < 0) (hk : c key k0 = 0)
    (K2 : List (Bytes × Bytes)) (r : Except Err PutResult)
    (h : match upd key (appendNil v0) with
      | .error e => r = .error e ∧ K2 = X ++ (k0, v0) :: Y
      | .ok (v, w) => r = .ok (appendNil v0, w, [(key, appendNil v0)]) ∧
          K2 = if w then X ++ (k0, v) :: Y else X ++ (k0, v0) :: Y) :
    PutSpec c (X ++ (k0, v0) :: Y) K2 key upd r := by
  have e : oldOf c (X ++ (k0, v0) :: Y) key = appendNil v0 := by
    simp only [oldOf, lookupK_present hc X Y k0 v0 key hlow hk, Option.some_bind]
  simp only [PutSpec, e]
  cases hu : upd key (appendNil v0) with
  | error err => simpa [hu] using h
  | ok vw =>
    obtain ⟨v, w⟩ := vw
    rw [hu] at h
    simp only at h ⊢
    rw [upsertK_found hc X Y k0 v0 key v hlow hk]
    exact h

/-! ## put2: the siblings of a page -/

theorem M_ite_lift {α : Type} (c : Prop) [Decidable c] (x : Except Err α) (y : α)
    (s : memBTreeStore) :
    (if c then liftM x else pure y : M α) s = ((if c then x else .ok y), s) := by
  split <;> rfl

/-- The siblings that `checkSiblings` reads in the parent page: the children before and
after the child at `parentIndex`, 0 where there is none. -/
theorem checkSiblings_spec (s : memBTreeStore) (P : Nat) (pre post : List Kid) (k : Kid)
    (hP : mget s.m P = some (encH (hsOf (pre ++ k :: post))))
    (hb : ∀ q ∈ pre ++ k :: post, q.1 < 2 ^ 56) :
    checkSiblings P (pre.length : Int) s =
      (.ok (((pre.getLast?).map Prod.fst).getD 0, ((post.head?).map Prod.fst).getD 0), s) := by
  have hlen : (hsOf (pre ++ k :: post)).length = 2 * (pre.length + post.length) + 1 := by
    rw [hsOf_length_of _ (by simp)]
    simp only [List.length_append, List.length_cons]
    omega
  have hn := indexLen_of _ _ hlen
  have h0 : (pre.length : Int) ≥ 0 := Int.natCast_nonneg _
  simp only [checkSiblings, h0, if_true, M_bind, M_liftM, M_monadLift, M_pure,
    Get_ok s _ _ hP, hn]
  have hl : (if (pre.length : Int) > 0 then
      btreeIndexPage.child (encH (hsOf (pre ++ k :: post))) ((pre.length : Int) - 1)
      else .ok 0) = .ok (((pre.getLast?).map Prod.fst).getD 0) := by
    rcases List.eq_nil_or_concat pre with h | ⟨pre0, q, h⟩
    · subst h
      rfl
    · rw [List.concat_eq_append] at h
      subst h
      have h1 : ((pre0 ++ [q]).length : Int) > 0 := by
        simp only [List.length_append, List.length_singleton]
        omega
      rw [if_pos h1]
      have h2 : ((pre0 ++ [q]).length : Int) - 1 = (pre0.length : Nat) := by
        simp only [List.length_append, List.length_singleton]
        omega
      have h3 : (hsOf (pre0 ++ [q] ++ k :: post)).getD (2 * pre0.length) 0 = q.1 := by
        have := hsOf_getD_child pre0 (k :: post) q pre0.length rfl
        simpa using this
      rw [h2, child_at _ pre0.length (by rw [hlen]; simp; omega)
        (by rw [h3]; exact hb q (by simp)), h3]
      simp
  have hr : (if (pre.length : Int) < ((pre.length + post.length : Nat) : Int) then
      btreeIndexPage.child (encH (hsOf (pre ++ k :: post))) ((pre.length : Int) + 1)
      else .ok 0) = .ok (((post.head?).map Prod.fst).getD 0) := by
    cases post with
    | nil =>
      rw [if_neg (by simp)]
      rfl
    | cons q post0 =>
      have h1 : (pre.length : Int) < ((pre.length + (q :: post0).length : Nat) : Int) := by
        simp only [List.length_cons]
        omega
      rw [if_pos h1]
      have h2 : (pre.length : Int) + 1 = ((pre.length + 1 : Nat) : Int) := by omega
      have h3 : (hsOf (pre ++ k :: q :: post0)).getD (2 * (pre.length + 1)) 0 = q.1 := by
        have := hsOf_getD_child (pre ++ [k]) post0 q (pre.length + 1) (by simp)
        simpa using this
      rw [h2, child_at _ (pre.length + 1) (by rw [hlen]; simp; omega)
        (by rw [h3]; exact hb q (by simp)), h3]
      simp
  rw [M_ite_lift, hl]
  simp only [M_bind, M_liftM, M_monadLift, M_pure]
  rw [M_ite_lift, hr]

/-- `overflow` puts the new item, which goes after the last item of the full leaf, at the
start of the right sibling, which has room. -/
theorem overflow_right0 (c : Bytes → Bytes → Int) (lo : Nat) (O I : List Nat)
    (A B : List Leaf) (l right : Leaf) (key value : Bytes)
    (s : memBTreeStore) (root P lh : Nat) (pi : Int)
    (hcs : checkSiblings P pi s = (.ok (lh, right.h), s))
    (hleft : lh = 0 ∨ ∃ pl, mget s.m lh = some pl ∧ ¬ (btreeDataPage.len pl < 2 * (kData : Int)))
    (hL : LeavesOk s.m c lo (A ++ l :: right :: B)) (hC : Ctx s O I (A ++ l :: right :: B))
    (hroom : right.S.length < 2 * kData)
    (hlow : ∀ k ∈ keysOf s.m (slots A ++ l.S), c k key < 0)
    (hhigh : ∀ k ∈ keysOf s.m (right.S ++ slots B), c key k < 0)
    (hs : s.h + 2 < 2 ^ 56) :
    ∃ (s2 : memBTreeStore) (x : Slot),
      btreeDataPage.overflow (encD (lastH 0 A) right.h l.S) root l.h P pi
        ((2 * kData : Nat) : Int) key value s = (.ok (), s2) ∧
      LeavesOk s2.m c lo (A ++ l :: (⟨right.h, x :: right.S⟩ : Leaf) :: B) ∧
      Ctx s2 O I (A ++ l :: (⟨right.h, x :: right.S⟩ : Leaf) :: B) ∧
      (∀ k ∈ O ++ I, mget s2.m k = mget s.m k) ∧ s.h ≤ s2.h ∧ s2.h ≤ s.h + 2 ∧
      kvs s2.m (A ++ l :: (⟨right.h, x :: right.S⟩ : Leaf) :: B) =
        (slots A ++ l.S).map (slotKV s.m) ++
          (key, value) :: (right.S ++ slots B).map (slotKV s.m) := by
  have hright : right ∈ A ++ l :: right :: B := by simp
  have e0 : A ++ l :: right :: B = (A ++ [l]) ++ (⟨right.h, [] ++ right.S⟩ : Leaf) :: B := by
    simp
  have hpr : mget s.m right.h = some (encD l.h (headH B 0) right.S) := by
    have := Chain_mid s.m 0 0 (A ++ [l]) B right (by simpa using hL.chain)
    rwa [lastH_snoc] at this
  have hfR : FieldsOk s.m right.S := hL.fields right hright
  have hbr := hC.bound _ (hC.mem_leaf right hright)
  obtain ⟨s2, x, h1, h2, h3, h4, h5, h6, h7, h8⟩ :=
    leaf_insert c lo O I (A ++ [l]) B right.h [] right.S key value s
      (by rw [← e0]; exact hL) (by rw [← e0]; exact hC) (by simpa using hroom)
      (by simpa [slots_append, slots_cons, slots_nil] using hlow)
      (by simpa using hhigh) hs
  rw [lastH_snoc] at h1 h2
  refine ⟨s2, x, ?_, by simpa using h3, by simpa using h4, h5, h6, h7, ?_⟩
  · have hlen : btreeDataPage.len (encD l.h (headH B 0) right.S) < 2 * (kData : Int) := by
      rw [dataLen_encD _ _ _ hfR.slotsLen]
      exact_mod_cast hroom
    have hr0 : right.h ≠ 0 := by omega
    have hidx : ¬ (((2 * kData : Nat) : Int) < 2 * (kData : Int)) := by
      push_cast
      omega
    have h1b : btreeDataPage.insertItem (encD l.h (headH B 0) right.S) 0 key value s =
        (.ok (encD l.h (headH B 0) (x :: right.S)), (newItem s key value).2) := by
      simpa using h1
    have h2b : memBTreeStore.Realloc right.h (encD l.h (headH B 0) (x :: right.S))
        (newItem s key value).2 = (.ok (), s2) := by
      simpa using h2
    rcases hleft with h0 | ⟨pl, hpl, hfullL⟩
    · subst h0
      simp only [btreeDataPage.overflow, M_bind, M_liftM, M_monadLift, M_pure, hcs, hr0, ne_eq,
        not_true_eq_false, not_false_eq_true, if_true, if_false, false_and, Get_ok s _ _ hpr,
        hlen, and_self, hidx, h1b, h2b]
    · by_cases hl0 : lh = 0
      · subst hl0
        simp only [btreeDataPage.overflow, M_bind, M_liftM, M_monadLift, M_pure, hcs, hr0,
          ne_eq, not_true_eq_false, not_false_eq_true, if_true, if_false, false_and,
          Get_ok s _ _ hpr, hlen, and_self, hidx, h1b, h2b]
      · simp only [btreeDataPage.overflow, M_bind, M_liftM, M_monadLift, M_pure, hcs, hr0, hl0,
          ne_eq, not_false_eq_true, if_true, if_false, Get_ok s _ _ hpl, hfullL, and_false,
          Get_ok s _ _ hpr, hlen, and_self, hidx, h1b, h2b]
  · have := h8
    simpa [slots_append, slots_cons, slots_nil] using this

/-! ## put2: the split of a data page -/

theorem newBTreeDataPage_eq : newBTreeDataPage = .ok (encD 0 0 []) := by
  decide

theorem newBTreeDataPageAlloc_eq (s : memBTreeStore) :
    newBTreeDataPageAlloc s =
      (.ok (encD 0 0 [], s.h + 1), ⟨s.h + 1, mset s.m (s.h + 1) (encD 0 0 [])⟩) := by
  simp only [newBTreeDataPageAlloc, M_bind, M_liftM, M_monadLift, M_pure, newBTreeDataPage_eq,
    memBTreeStore.Alloc]

theorem hsOf_snoc_append (pre post : List Kid) (k : Kid) :
    hsOf (pre ++ k :: post) = hsOf (pre ++ [k]) ++ sepsOf post := by
  cases pre with
  | nil => simp [hsOf, sepsOf]
  | cons q pre =>
    simp only [List.cons_append, hsOf_cons]
    rw [show pre ++ k :: post = (pre ++ [k]) ++ post by simp, sepsOf_append]

theorem hsOf_snoc_length (pre : List Kid) (k : Kid) :
    (hsOf (pre ++ [k])).length = 2 * pre.length + 1 := by
  cases pre with
  | nil => rfl
  | cons q pre =>
    simp only [List.cons_append, hsOf_cons, List.length_cons, sepsOf_length,
      List.length_append, List.length_singleton, List.length_nil]

/-- The parent page after `insert3` put the new right sibling `rh` of the child `k`
behind it: the new leaf is its own separator. -/
theorem insert3_hsOf (pre post : List Kid) (k : Kid) (rh : Nat) (z : Int)
    (hz : z = pre.length) :
    btreeIndexPage.insert3 (encH (hsOf (pre ++ k :: post))) z rh rh =
      .ok (encH (hsOf (pre ++ k :: (rh, [rh], []) :: post))) := by
  rw [hsOf_snoc_append, insert3_encH _ _ z pre.length hz (hsOf_snoc_length pre k)
    (by rw [sepsOf_length]; exact Nat.mul_mod_right 2 _) rh rh,
    hsOf_snoc_append pre ((rh, [rh], []) :: post) k,
    sepsOf_cons]
  rfl

/-- The pages after the first half of `split`: the new right page holds the upper `kData`
items of the full page. -/
theorem split_pages (pv nx ph rh : Nat) (S1 S2 : List Slot) (h1 : SlotsLen S1)
    (h2 : SlotsLen S2) (hl1 : S1.length = kData) (hl2 : S2.length = kData) :
    btreeDataPage.setLen (encD ph nx []) kData =
      .ok (encD ph nx (List.replicate kData zeroSlot)) ∧
    btreeDataPage.copy (encD ph nx (List.replicate kData zeroSlot)) (encD pv rh (S1 ++ S2))
      0 kData kData = .ok (encD ph nx S2) ∧
    btreeDataPage.setLen (encD pv rh (S1 ++ S2)) kData = .ok (encD pv rh S1) := by
  refine ⟨?_, ?_, ?_⟩
  · have hg := setLen_grow ph nx [] (fun _ h => absurd h (List.not_mem_nil _)) (kData : Int) kData
      (by simp only [List.length_nil, Nat.zero_add])
    simp only [List.nil_append] at hg
    exact hg
  · have := copy_encD ph nx pv rh [] (List.replicate kData zeroSlot) [] S1 S2 []
      (fun _ h => absurd h (List.not_mem_nil _)) (SlotsLen_replicate _)
      (fun _ h => absurd h (List.not_mem_nil _)) h1 h2
      (fun _ h => absurd h (List.not_mem_nil _)) (by rw [List.length_replicate, hl2])
      ([] ++ List.replicate kData zeroSlot ++ []) (S1 ++ S2 ++ []) rfl rfl
      0 (kData : Int) (kData : Int) (by simp only [List.length_nil, Nat.cast_zero])
      (by rw [hl1]) (by rw [List.length_replicate])
    simp only [List.nil_append, List.append_nil] at this
    exact this
  · exact setLen_shrink pv rh S1 S2 h1 h2 (kData : Int) (by rw [hl1])

/-- The page that `split` inserts the new item into, at the index `find` returned: the
page itself up to index `kData`, the new right page above. -/
theorem split_insert (pv nx ph rh : Nat) (SA SB : List Slot) (hS : SlotsLen (SA ++ SB))
    (hlen : (SA ++ SB).length = 2 * kData) (key value : Bytes) (s : memBTreeStore) :
    ∃ L R, L ++ R = SA ++ (newItem s key value).1 :: SB ∧
      kData ≤ L.length ∧ L.length ≤ kData + 1 ∧ kData ≤ R.length ∧ R.length ≤ kData + 1 ∧
      (if (SA.length : Int) > (kData : Int) then do
          let right ← btreeDataPage.insertItem (encD ph nx ((SA ++ SB).drop kData))
            ((SA.length : Int) - (kData : Int)) key value
          pure (encD pv rh ((SA ++ SB).take kData), right)
        else do
          let p ← btreeDataPage.insertItem (encD pv rh ((SA ++ SB).take kData))
            (SA.length : Int) key value
          pure (p, encD ph nx ((SA ++ SB).drop kData))) s =
        (.ok (encD pv rh L, encD ph nx R), (newItem s key value).2) := by
  by_cases h : SA.length > kData
  · have e1 : (SA ++ SB).take kData = SA.take kData := by
      rw [List.take_append_of_le_length (by omega)]
    have e2 : (SA ++ SB).drop kData = SA.drop kData ++ SB := by
      rw [List.drop_append_of_le_length (by omega)]
    have hA : SA = SA.take kData ++ SA.drop kData := (List.take_append_drop _ _).symm
    have hS2 : SlotsLen (SA.drop kData ++ SB) := by
      rw [← e2]
      exact SlotsLen_drop hS _
    have hz : (SA.length : Int) - (kData : Int) = ((SA.drop kData).length : Nat) := by
      rw [List.length_drop]
      omega
    have hins := insertItem_encD ph nx (SA.drop kData) SB (SlotsLen_append_left hS2)
      (SlotsLen_append_right hS2) _ hz key value s
    refine ⟨SA.take kData, SA.drop kData ++ (newItem s key value).1 :: SB, ?_, ?_, ?_, ?_, ?_,
      ?_⟩
    · rw [← List.append_assoc, List.take_append_drop]
    · rw [List.length_take]; omega
    · rw [List.length_take]; omega
    · simp only [List.length_append, List.length_drop, List.length_cons] at hlen ⊢
      omega
    · simp only [List.length_append, List.length_drop, List.length_cons] at hlen ⊢
      omega
    · have hc : (SA.length : Int) > (kData : Int) := by omega
      rw [if_pos hc, e1, e2]
      simp only [M_bind, M_pure, hins]
      rfl
  · have e1 : (SA ++ SB).take kData = SA ++ SB.take (kData - SA.length) := by
      rw [List.take_append_eq_append_take, List.take_of_length_le (by omega)]
    have e2 : (SA ++ SB).drop kData = SB.drop (kData - SA.length) := by
      rw [List.drop_append_eq_append_drop, List.drop_of_length_le (by omega)]
      rfl
    have hS1 : SlotsLen (SA ++ SB.take (kData - SA.length)) := by
      rw [← e1]
      exact SlotsLen_take hS _
    have hins := insertItem_encD pv rh SA (SB.take (kData - SA.length))
      (SlotsLen_append_left hS1) (SlotsLen_append_right hS1) _ rfl key value s
    refine ⟨SA ++ (newItem s key value).1 :: SB.take (kData - SA.length),
      SB.drop (kData - SA.length), ?_, ?_, ?_, ?_, ?_, ?_⟩
    · simp
    · simp only [List.length_append, List.length_take, List.length_cons] at hlen ⊢
      omega
    · simp only [List.length_append, List.length_take, List.length_cons] at hlen ⊢
      omega
    · simp only [List.length_append, List.length_drop] at hlen ⊢
      omega
    · simp only [List.length_append, List.length_drop] at hlen ⊢
      omega
    · have hc : ¬ ((SA.length : Int) > (kData : Int)) := by omega
      rw [if_neg hc, e1, e2]
      simp only [M_bind, M_pure, hins]
      rfl

/-- The run of `split` on a full leaf under a parent page: the stores it goes through and
what the last one holds. -/
theorem split_parent_run (s : memBTreeStore) (pv nx nn : Nat) (Sn SA SB : List Slot)
    (ph root P : Nat) (pre post : List Kid) (k : Kid) (key value : Bytes)
    (hS : SlotsLen (SA ++ SB)) (hlen : (SA ++ SB).length = 2 * kData)
    (hph : (mget s.m ph).isSome = true)
    (hnx : nx ≠ 0 → mget s.m nx = some (encD ph nn Sn))
    (hP : mget s.m P = some (encH (hsOf (pre ++ k :: post))))
    (hb : ph ≤ s.h ∧ nx ≤ s.h ∧ P ≤ s.h) (hne : ph ≠ nx ∧ P ≠ ph ∧ P ≠ nx)
    (hs : s.h + 3 < 2 ^ 56) :
    ∃ (s2 : memBTreeStore) (x : Slot) (L R : List Slot),
      btreeDataPage.split (encD pv nx (SA ++ SB)) root ph P (pre.length : Int)
        (SA.length : Int) key value s = (.ok (), s2) ∧
      L ++ R = SA ++ x :: SB ∧
      kData ≤ L.length ∧ L.length ≤ kData + 1 ∧ kData ≤ R.length ∧ R.length ≤ kData + 1 ∧
      mget s2.m ph = some (encD pv (s.h + 1) L) ∧
      mget s2.m (s.h + 1) = some (encD ph nx R) ∧
      (nx ≠ 0 → mget s2.m nx = some (encD (s.h + 1) nn Sn)) ∧
      mget s2.m P = some (encH (hsOf (pre ++ k :: (s.h + 1, [s.h + 1], []) :: post))) ∧
      (∀ a, a ≤ s.h → a ≠ ph → a ≠ nx → a ≠ P → mget s2.m a = mget s.m a) ∧
      s.h + 1 ≤ s2.h ∧ s2.h ≤ s.h + 3 ∧
      FieldOk s2.m x.1 ∧ FieldOk s2.m x.2 ∧ fieldVal s2.m x.1 = key ∧
      fieldVal s2.m x.2 = value ∧
      (ovF x.1 ++ ovF x.2).Nodup ∧ (∀ a ∈ ovF x.1 ++ ovF x.2, s.h + 1 < a ∧ a ≤ s2.h) ∧
      (∀ a, (mget s2.m a).isSome = true →
        (mget s.m a).isSome = true ∨ a = s.h + 1 ∨ a ∈ ovF x.1 ++ ovF x.2) := by
  have hnxlt : nx < 2 ^ 56 := by omega
  have hT : SlotsLen ((SA ++ SB).take kData) := SlotsLen_take hS _
  have hD : SlotsLen ((SA ++ SB).drop kData) := SlotsLen_drop hS _
  have hlT : ((SA ++ SB).take kData).length = kData := by
    rw [List.length_take, hlen]
    omega
  have hlD : ((SA ++ SB).drop kData).length = kData := by
    rw [List.length_drop, hlen]
    omega
  obtain ⟨hp1, hp2, hp3⟩ := split_pages pv nx ph (s.h + 1) _ _ hT hD hlT hlD
  rw [List.take_append_drop] at hp2 hp3
  -- the store after the links of the next leaf were set
  obtain ⟨s1, hblock, f1, f2, f3, f4, f5⟩ : ∃ s1 : memBTreeStore,
      (if nx = 0 then (⟨s.h + 1, mset s.m (s.h + 1) (encD 0 0 [])⟩ : memBTreeStore)
        else ⟨s.h + 1, mset (mset s.m (s.h + 1) (encD 0 0 [])) nx (encD (s.h + 1) nn Sn)⟩) =
        s1 ∧ s1.h = s.h + 1 ∧
      (nx ≠ 0 → mget s1.m nx = some (encD (s.h + 1) nn Sn)) ∧
      (∀ a, a ≤ s.h → a ≠ nx → mget s1.m a = mget s.m a) ∧
      (mget s1.m (s.h + 1)).isSome = true ∧
      (∀ a, (mget s1.m a).isSome = true → (mget s.m a).isSome = true ∨ a = s.h + 1) := by
    refine ⟨_, rfl, ?_, ?_, ?_, ?_, ?_⟩
    · split <;> rfl
    · intro h0
      rw [if_neg h0]
      simp only [mget_mset, if_true]
    · intro a ha hane
      split
      · simp only [mget_mset]
        rw [if_neg (by omega)]
      · simp only [mget_mset]
        rw [if_neg (fun e => hane e.symm), if_neg (by omega)]
    · split
      · simp only [mget_mset, if_true, Option.isSome_some]
      · simp only [mget_mset]
        rw [if_neg (by omega)]
        simp only [if_true, Option.isSome_some]
    · intro a ha
      split at ha
      · simp only [mget_mset] at ha
        by_cases e : s.h + 1 = a
        · exact Or.inr e.symm
        · rw [if_neg e] at ha
          exact Or.inl ha
      · rename_i h0
        simp only [mget_mset] at ha
        by_cases e : s.h + 1 = a
        · exact Or.inr e.symm
        · by_cases e2 : nx = a
          · subst e2
            left
            rw [hnx h0]
            rfl
          · rw [if_neg e2, if_neg e] at ha
            exact Or.inl ha
  have hP1 : mget s1.m P = some (encH (hsOf (pre ++ k :: post))) := by
    rw [f3 P hb.2.2 hne.2.2]
    exact hP
  obtain ⟨L, R, hLR, hl1, hl2, hl3, hl4, hins⟩ := split_insert pv nx ph (s.h + 1) SA SB hS hlen
    key value ⟨s1.h, mset s1.m P (encH (hsOf (pre ++ k :: (s.h + 1, [s.h + 1], []) :: post)))⟩
  obtain ⟨n1, n2, n3, n4, n5, n6, n7, n8, n9, n10⟩ := newItem_facts
    ⟨s1.h, mset s1.m P (encH (hsOf (pre ++ k :: (s.h + 1, [s.h + 1], []) :: post)))⟩ key value
    (by show s1.h + 2 < 2 ^ 56; omega)
  generalize hs4 : (newItem ⟨s1.h, mset s1.m P
    (encH (hsOf (pre ++ k :: (s.h + 1, [s.h + 1], []) :: post)))⟩ key value).2 = s4
    at hins n1 n2 n3 n4 n6 n7 n8 n9 n10
  generalize hx : (newItem ⟨s1.h, mset s1.m P
    (encH (hsOf (pre ++ k :: (s.h + 1, [s.h + 1], []) :: post)))⟩ key value).1 = x
    at hins hLR n4 n5 n6 n7 n8 n9 n10
  simp only at n1 n2 n3 n6
  have g1 : (mget s4.m ph).isSome = true := by
    rw [n3 ph (by omega), mget_mset, if_neg hne.2.1, f3 ph hb.1 hne.1]
    exact hph
  have g2 : (mget (mset s4.m ph (encD pv (s.h + 1) L)) (s.h + 1)).isSome = true := by
    rw [mget_mset, if_neg (by omega), n3 _ (by omega), mget_mset, if_neg (by omega)]
    exact f4
  obtain ⟨b1, g1⟩ := Option.isSome_iff_exists.1 g1
  obtain ⟨b2, g2⟩ := Option.isSome_iff_exists.1 g2
  refine ⟨⟨s4.h, mset (mset s4.m ph (encD pv (s.h + 1) L)) (s.h + 1) (encD ph nx R)⟩, x, L, R,
    ?_, hLR, hl1, hl2, hl3, hl4, ?_, ?_, ?_, ?_, ?_, ?_, ?_, ?_, ?_, ?_, ?_, n5, ?_, ?_⟩
  · unfold btreeDataPage.split
    refine (M_bind_ok _ _ _ _ _ (newBTreeDataPageAlloc_eq s)).trans ?_
    dsimp only
    refine (M_bind_ok _ _ _ _ nx (by rw [M_liftM, next_encD _ _ _ hnxlt])).trans ?_
    refine (M_bind_ok _ _ _
      (if nx = 0 then (⟨s.h + 1, mset s.m (s.h + 1) (encD 0 0 [])⟩ : memBTreeStore)
        else ⟨s.h + 1, mset (mset s.m (s.h + 1) (encD 0 0 [])) nx (encD (s.h + 1) nn Sn)⟩)
      (encD 0 nx []) ?_).trans ?_
    · by_cases h0 : nx = 0
      · subst h0
        simp only [ne_eq, not_true_eq_false, if_false, if_true, M_pure]
      · have hg : mget (mset s.m (s.h + 1) (encD 0 0 [])) nx = some (encD ph nn Sn) := by
          rw [mget_mset, if_neg (by omega)]
          exact hnx h0
        simp only [ne_eq, h0, not_false_eq_true, if_true, if_false, M_bind, M_liftM, M_pure,
          next_encD _ _ _ hnxlt, setNext_encD, setPrev_encD,
          Get_ok ⟨s.h + 1, mset s.m (s.h + 1) (encD 0 0 [])⟩ nx _ hg,
          Realloc_ok ⟨s.h + 1, mset s.m (s.h + 1) (encD 0 0 [])⟩ nx _ _ hg]
    rw [hblock]
    have h0 : (pre.length : Int) ≥ 0 := Int.natCast_nonneg _
    simp only [M_bind, M_liftM, M_pure, setNext_encD, setPrev_encD, hp1, hp2, hp3, h0, if_true,
      Get_ok s1 P _ hP1, insert3_hsOf pre post k (s.h + 1) (pre.length : Int) rfl,
      Realloc_ok s1 P _ _ hP1, hins, Realloc_ok s4 ph _ _ g1,
      Realloc_ok ⟨s4.h, mset s4.m ph (encD pv (s.h + 1) L)⟩ (s.h + 1) _ _ g2]
  · show mget (mset (mset s4.m ph _) (s.h + 1) _) ph = _
    rw [mget_mset, if_neg (by omega), mget_mset, if_pos rfl]
  · show mget (mset (mset s4.m ph _) (s.h + 1) _) (s.h + 1) = _
    rw [mget_mset, if_pos rfl]
  · intro h0
    show mget (mset (mset s4.m ph _) (s.h + 1) _) nx = _
    rw [mget_mset, if_neg (by omega), mget_mset, if_neg hne.1, n3 nx (by omega), mget_mset,
      if_neg hne.2.2]
    exact f2 h0
  · show mget (mset (mset s4.m ph _) (s.h + 1) _) P = _
    rw [mget_mset, if_neg (by omega), mget_mset, if_neg (fun e => hne.2.1 e.symm),
      n3 P (by omega), mget_mset, if_pos rfl]
  · intro a ha h1 h2 h3
    show mget (mset (mset s4.m ph _) (s.h + 1) _) a = _
    rw [mget_mset, if_neg (by omega), mget_mset, if_neg (fun e => h1 e.symm),
      n3 a (by omega), mget_mset, if_neg (fun e => h3 e.symm)]
    exact f3 a ha h2
  · show s.h + 1 ≤ s4.h
    omega
  · show s4.h ≤ s.h + 3
    omega
  · refine FieldOk_congr s4.m _ _ (fun h0 => ?_) n7
    have := n6 _ (List.mem_append_left _ ((mem_ovF _ _).2 ⟨rfl, h0⟩))
    show mget (mset (mset s4.m ph _) (s.h + 1) _) _ = _
    rw [mget_mset, if_neg (by omega), mget_mset, if_neg (by omega)]
  · refine FieldOk_congr s4.m _ _ (fun h0 => ?_) n8
    have := n6 _ (List.mem_append_right _ ((mem_ovF _ _).2 ⟨rfl, h0⟩))
    show mget (mset (mset s4.m ph _) (s.h + 1) _) _ = _
    rw [mget_mset, if_neg (by omega), mget_mset, if_neg (by omega)]
  · rw [← n9]
    refine fieldVal_congr s4.m _ _ (fun h0 => ?_)
    have := n6 _ (List.mem_append_left _ ((mem_ovF _ _).2 ⟨rfl, h0⟩))
    show mget (mset (mset s4.m ph _) (s.h + 1) _) _ = _
    rw [mget_mset, if_neg (by omega), mget_mset, if_neg (by omega)]
  · rw [← n10]
    refine fieldVal_congr s4.m _ _ (fun h0 => ?_)
    have := n6 _ (List.mem_append_right _ ((mem_ovF _ _).2 ⟨rfl, h0⟩))
    show mget (mset (mset s4.m ph _) (s.h + 1) _) _ = _
    rw [mget_mset, if_neg (by omega), mget_mset, if_neg (by omega)]
  · intro a ha
    have := n6 a ha
    exact ⟨by omega, this.2⟩
  · intro a ha
    change (mget (mset (mset s4.m ph _) (s.h + 1) _) a).isSome = true at ha
    by_cases e1 : a = s.h + 1
    · exact Or.inr (Or.inl e1)
    · by_cases e2 : a = ph
      · subst e2
        exact Or.inl hph
      · rw [mget_mset, if_neg (fun e => e1 e.symm), mget_mset, if_neg (fun e => e2 e.symm)] at ha
        rcases n4 a ha with h | h
        · change (mget (mset s1.m P _) a).isSome = true at h
          by_cases e3 : a = P
          · subst e3
            left
            rw [hP]
            rfl
          · rw [mget_mset, if_neg (fun e => e3 e.symm)] at h
            rcases f5 a h with h | h
            · exact Or.inl h
            · exact absurd h e1
        · exact Or.inr (Or.inr h)

/-! ## put2: the tree after the split of a data page -/

/-- The handles of a tree in which a leaf was split in two, the two holding the items of
before and one new item. -/
theorem handles_split (O I : List Nat) (A B : List Leaf) (l : Leaf) (rh : Nat)
    (L R SA SB : List Slot) (x : Slot) (hS : l.S = SA ++ SB) (hLR : L ++ R = SA ++ x :: SB) :
    handles O I (A ++ (⟨l.h, L⟩ : Leaf) :: (⟨rh, R⟩ : Leaf) :: B) =
      handles O I (A ++ l :: B) +
        ((rh :: (ovF x.1 ++ ovF x.2) : List Nat) : Multiset Nat) := by
  have e : ovsS L ++ ovsS R = ovsS (SA ++ x :: SB) := by rw [← ovsS_append, hLR]
  simp only [handles, ovs_eq_slots, slots_append, slots_cons, ovsS_append, hS, List.map_append,
    List.map_cons, ← List.append_assoc]
  rw [List.append_assoc (ovsS (slots A)) (ovsS L), e]
  simp only [ovsS_append, ovsS_cons, ← Multiset.coe_add, ← Multiset.cons_coe,
    ← Multiset.singleton_add, ← List.append_assoc]
  abel

/-- A full leaf is split in two: the new right leaf `rh` is chained behind it, the two of
them hold the items of before and the new item, and the other pages that the split wrote
are among `Z`. -/
theorem split_sem (c : Bytes → Bytes → Int) (lo : Nat) (O I Z E : List Nat)
    (A B : List Leaf) (l : Leaf) (rh : Nat) (L R SA SB : List Slot) (x : Slot)
    (key value : Bytes) (s s2 : memBTreeStore)
    (hL : LeavesOk s.m c lo (A ++ l :: B)) (hC : Ctx s O I (A ++ l :: B))
    (hlo : lo ≤ kData) (hS : l.S = SA ++ SB) (hLR : L ++ R = SA ++ x :: SB)
    (hl1 : kData ≤ L.length) (hl2 : L.length ≤ kData + 1)
    (hl3 : kData ≤ R.length) (hl4 : R.length ≤ kData + 1)
    (hlow : ∀ k ∈ keysOf s.m (slots A ++ SA), c k key < 0)
    (hhigh : ∀ k ∈ keysOf s.m (SB ++ slots B), c key k < 0)
    (hp1 : mget s2.m l.h = some (encD (lastH 0 A) rh L))
    (hp2 : mget s2.m rh = some (encD l.h (headH B 0) R))
    (hp3 : ∀ nxt B2, B = nxt :: B2 → mget s2.m nxt.h = some (encD rh (headH B2 0) nxt.S))
    (hold : ∀ a, a ≤ s.h → a ≠ l.h → a ≠ headH B 0 → a ∉ Z → mget s2.m a = mget s.m a)
    (hZ : ∀ z ∈ Z, z ∈ O ++ I)
    (hh : s.h ≤ s2.h)
    (hfk : FieldOk s2.m x.1) (hfv : FieldOk s2.m x.2) (hvk : fieldVal s2.m x.1 = key)
    (hvv : fieldVal s2.m x.2 = value)
    (hnd : (rh :: (ovF x.1 ++ ovF x.2) ++ E).Nodup)
    (hfresh : ∀ k ∈ rh :: (ovF x.1 ++ ovF x.2) ++ E, s.h < k ∧ k ≤ s2.h)
    (hlive : ∀ k, (mget s2.m k).isSome = true →
      (mget s.m k).isSome = true ∨ k ∈ rh :: (ovF x.1 ++ ovF x.2) ++ E) :
    LeavesOk s2.m c lo (A ++ (⟨l.h, L⟩ : Leaf) :: (⟨rh, R⟩ : Leaf) :: B) ∧
    CtxM s2 (handles O I (A ++ (⟨l.h, L⟩ : Leaf) :: (⟨rh, R⟩ : Leaf) :: B) +
      (E : Multiset Nat)) ∧
    (∀ k ∈ O ++ I, k ∉ Z → mget s2.m k = mget s.m k) ∧
    kvs s2.m (A ++ (⟨l.h, L⟩ : Leaf) :: (⟨rh, R⟩ : Leaf) :: B) =
      (slots A ++ SA).map (slotKV s.m) ++ (key, value) :: (SB ++ slots B).map (slotKV s.m) := by
  have hlG : l ∈ A ++ l :: B := by simp
  have hZl : ∀ g ∈ A ++ l :: B, g.h ∉ Z := fun g hg hz =>
    hC.index_ne_leaf _ (hZ _ hz) g hg rfl
  have hZo : ∀ k ∈ ovs (A ++ l :: B), k ∉ Z := fun k hk hz =>
    hC.index_ne_ov _ (hZ _ hz) k hk rfl
  have hnd0 := hC.leaves_nodup
  have hneB : ∀ a ∈ A ++ B.tail, a.h ≠ headH B 0 := by
    intro a ha
    cases B with
    | nil =>
      simp only [headH]
      have := (hC.bound _ (hC.mem_leaf a (by
        simp only [List.tail_nil, List.append_nil] at ha
        exact List.mem_append_left _ ha))).1
      omega
    | cons nxt B2 =>
      have hC2 : Ctx s O I ((A ++ [l]) ++ nxt :: B2) := by simpa using hC
      exact hC2.leaf_ne a (by
        rcases List.mem_append.1 ha with h | h
        · exact List.mem_append_left _ (List.mem_append_left _ h)
        · exact List.mem_append_right _ h)
  have hA : ∀ a ∈ A, mget s2.m a.h = mget s.m a.h := fun a ha =>
    hold a.h (hC.bound _ (hC.mem_leaf a (List.mem_append_left _ ha))).2
      (hC.leaf_ne a (List.mem_append_left _ ha))
      (hneB a (List.mem_append_left _ ha)) (hZl a (List.mem_append_left _ ha))
  have hov : ∀ k ∈ ovs (A ++ l :: B), mget s2.m k = mget s.m k := by
    intro k hk
    refine hold k (hC.bound _ (hC.mem_ov k hk)).2 (hC.leaf_ne_ov _ hlG k hk).symm ?_ (hZo k hk)
    cases B with
    | nil =>
      simp only [headH]
      have := (hC.bound _ (hC.mem_ov k hk)).1
      omega
    | cons nxt B2 => exact (hC.leaf_ne_ov nxt (by simp) k hk).symm
  have hk256 : kData + 1 ≤ 2 * kData := by
    rw [kData_eq]
    omega
  have hins := @LeavesOk.insert _ _ _ A [l] B
    (by simpa using hL) s2.m [(⟨l.h, L⟩ : Leaf), (⟨rh, R⟩ : Leaf)] SA SB x.1 x.2 key
    (by simpa [slots] using hS) (by simpa [slots] using hLR)
    hA (fun k hk => hov k (by simpa using hk))
    rfl
    (by
      show (mget s2.m l.h = _ ∧ mget s2.m rh = _ ∧ True)
      exact ⟨hp1, hp2, trivial⟩)
    (by
      show Chain s2.m rh B 0
      cases B with
      | nil => trivial
      | cons nxt B2 =>
        refine ⟨hp3 nxt B2 rfl, ?_⟩
        have hch := (Chain_append s.m 0 0 (A ++ [l, nxt]) B2).1 (by simpa using hL.chain)
        have e : lastH 0 (A ++ [l, nxt]) = nxt.h := by rw [lastH_append]; rfl
        rw [e] at hch
        refine Chain_congr _ _ _ _ B2 (fun b hb => ?_) hch.2
        have hbG : b ∈ A ++ l :: nxt :: B2 := by simp [hb]
        refine hold b.h (hC.bound _ (hC.mem_leaf b hbG)).2 ?_ ?_ (hZl b hbG)
        · exact hC.leaf_ne b (by simp [hb])
        · exact hneB b (by simp [hb]))
    hfk hfv hvk hlow hhigh
    (by
      intro g hg
      simp only [List.mem_cons, List.mem_singleton, List.not_mem_nil, or_false] at hg
      rcases hg with h | h
      · subst h
        exact ⟨by show lo ≤ L.length; omega, by show L.length ≤ 2 * kData; omega⟩
      · subst h
        exact ⟨by show lo ≤ R.length; omega, by show R.length ≤ 2 * kData; omega⟩)
  refine ⟨by simpa using hins.1, ?_, ?_, ?_⟩
  · have h1 := CtxM.extend hC (rh :: (ovF x.1 ++ ovF x.2) ++ E) hnd hfresh hh hlive
    rw [handles_split O I A B l rh L R SA SB x hS hLR, add_assoc, Multiset.coe_add]
    exact h1
  · intro k hk hz
    cases B with
    | nil =>
      refine hold k (hC.bound _ (hC.mem_index k hk)).2 (hC.index_ne_leaf k hk _ hlG) ?_ hz
      simp only [headH]
      have := (hC.bound _ (hC.mem_index k hk)).1
      omega
    | cons nxt B2 =>
      exact hold k (hC.bound _ (hC.mem_index k hk)).2 (hC.index_ne_leaf k hk _ hlG)
        (hC.index_ne_leaf k hk nxt (by simp)) hz
  · have := hins.2
    rw [hvv] at this
    simpa using this

/-! ## put2: the split of a leaf under a parent page -/

/-- `split` on a full leaf under the parent page `P`: the upper half of the items moves to
a new right leaf, which `P` gets as a new child behind the leaf, and the new item goes
to the one of the two that its index says. -/
theorem split_parent (c : Bytes → Bytes → Int) (lo : Nat) (O I : List Nat)
    (A B : List Leaf) (l : Leaf) (SA SB : List Slot) (key value : Bytes)
    (s : memBTreeStore) (root P : Nat) (pre post : List Kid) (k : Kid)
    (hL : LeavesOk s.m c lo (A ++ l :: B)) (hC : Ctx s O I (A ++ l :: B))
    (hlo : lo ≤ kData) (hS : l.S = SA ++ SB) (hfull : l.S.length = 2 * kData)
    (hP : mget s.m P = some (encH (hsOf (pre ++ k :: post)))) (hPm : P ∈ O ++ I)
    (hlow : ∀ k ∈ keysOf s.m (slots A ++ SA), c k key < 0)
    (hhigh : ∀ k ∈ keysOf s.m (SB ++ slots B), c key k < 0)
    (hs : s.h + 3 < 2 ^ 56) :
    ∃ (s2 : memBTreeStore) (x : Slot) (L R : List Slot),
      btreeDataPage.split (encD (lastH 0 A) (headH B 0) l.S) root l.h P (pre.length : Int)
        (SA.length : Int) key value s = (.ok (), s2) ∧
      L ++ R = SA ++ x :: SB ∧
      LeavesOk s2.m c lo (A ++ (⟨l.h, L⟩ : Leaf) :: (⟨s.h + 1, R⟩ : Leaf) :: B) ∧
      Ctx s2 O I (A ++ (⟨l.h, L⟩ : Leaf) :: (⟨s.h + 1, R⟩ : Leaf) :: B) ∧
      mget s2.m P = some (encH (hsOf (pre ++ k :: (s.h + 1, [s.h + 1], []) :: post))) ∧
      (∀ a ∈ O ++ I, a ≠ P → mget s2.m a = mget s.m a) ∧ s.h ≤ s2.h ∧ s2.h ≤ s.h + 3 ∧
      kvs s2.m (A ++ (⟨l.h, L⟩ : Leaf) :: (⟨s.h + 1, R⟩ : Leaf) :: B) =
        (slots A ++ SA).map (slotKV s.m) ++ (key, value) :: (SB ++ slots B).map (slotKV s.m) := by
  have hlG : l ∈ A ++ l :: B := by simp
  have hpage := Chain_mid s.m 0 0 A B l hL.chain
  have hfl : FieldsOk s.m l.S := hL.fields l hlG
  have hbl := hC.bound _ (hC.mem_leaf l hlG)
  have hbP := hC.bound _ (hC.mem_index P hPm)
  have hPl : P ≠ l.h := hC.index_ne_leaf P hPm l hlG
  -- the next leaf
  obtain ⟨nn, Sn, hnx, hnxb, hnxl, hnxP, hp3x⟩ : ∃ nn Sn,
      (headH B 0 ≠ 0 → mget s.m (headH B 0) = some (encD l.h nn Sn)) ∧ headH B 0 ≤ s.h ∧
      l.h ≠ headH B 0 ∧ P ≠ headH B 0 ∧
      ∀ nxt B2, B = nxt :: B2 → nn = headH B2 0 ∧ Sn = nxt.S := by
    cases B with
    | nil =>
      refine ⟨0, [], fun h => absurd rfl h, Nat.zero_le _, ?_, ?_, fun _ _ h => by cases h⟩
      · show l.h ≠ 0
        omega
      · show P ≠ 0
        omega
    | cons nxt B2 =>
      have hnG : nxt ∈ A ++ l :: nxt :: B2 := by simp
      refine ⟨headH B2 0, nxt.S, fun _ => ?_, (hC.bound _ (hC.mem_leaf nxt hnG)).2, ?_,
        hC.index_ne_leaf P hPm nxt hnG, fun _ _ h => ?_⟩
      · have := Chain_mid s.m 0 0 (A ++ [l]) B2 nxt (by simpa using hL.chain)
        rwa [lastH_snoc] at this
      · exact (hC.leaf_ne nxt (by simp)).symm
      · simp only [List.cons.injEq] at h
        obtain ⟨rfl, rfl⟩ := h
        exact ⟨rfl, rfl⟩
  rw [hS] at hfl hfull
  obtain ⟨s2, x, L, R, hrun, hLR, hl1, hl2, hl3, hl4, hp1, hp2, hp3, hp4, hold, hh1, hh2, hfk,
    hfv, hvk, hvv, hnd, hfresh, hlive⟩ :=
    split_parent_run s (lastH 0 A) (headH B 0) nn Sn SA SB l.h root P pre post k key value
      hfl.slotsLen hfull (by rw [hpage]; rfl) hnx hP ⟨hbl.2, hnxb, hbP.2⟩ ⟨hnxl, hPl, hnxP⟩ hs
  have hrhx : s.h + 1 ∉ ovF x.1 ++ ovF x.2 := fun h => by
    have := (hfresh _ h).1
    omega
  have hsem := split_sem c lo O I [P] [] A B l (s.h + 1) L R SA SB x key value s s2 hL hC hlo hS
    hLR hl1 hl2 hl3 hl4 hlow hhigh hp1 hp2
    (fun nxt B2 hB => by
      obtain ⟨e1, e2⟩ := hp3x nxt B2 hB
      subst hB
      have := hp3 (by
        show nxt.h ≠ 0
        have := (hC.bound _ (hC.mem_leaf nxt (by simp))).1
        omega)
      rw [e1, e2] at this
      exact this)
    (fun a ha h1 h2 h3 => hold a ha h1 h2 (by simpa using h3))
    (fun z hz => by
      simp only [List.mem_singleton] at hz
      subst hz
      exact hPm)
    (by omega) hfk hfv hvk hvv
    (by
      simp only [List.append_nil]
      exact List.nodup_cons.2 ⟨hrhx, hnd⟩)
    (fun a ha => by
      simp only [List.append_nil, List.mem_cons] at ha
      rcases ha with h | h
      · subst h
        exact ⟨Nat.lt_succ_self _, hh1⟩
      · exact ⟨by have := (hfresh a h).1; omega, (hfresh a h).2⟩)
    (fun a ha => by
      rcases hlive a ha with h | h | h
      · exact Or.inl h
      · exact Or.inr (by simp [h])
      · exact Or.inr (by simp only [List.append_nil, List.mem_cons]; exact Or.inr h))
  rw [hS]
  refine ⟨s2, x, L, R, hrun, hLR, hsem.1, ?_, hp4, ?_, by omega, hh2, hsem.2.2.2⟩
  · have := hsem.2.1
    simpa using this
  · intro a ha hne
    exact hsem.2.2.1 a ha (by simpa using hne)

/-! ## put2: the loop on a leaf -/

/-- The turn of the loop of `put2` on a data page, given what `find` returns on it. -/
theorem put2Loop_leaf (root : Nat) (c : Option (Bytes → Bytes → Int)) (key : Bytes)
    (upd : Updater) (fuel ph P : Nat) (pi : Int) (s : memBTreeStore) (pv nx : Nat)
    (S : List Slot) (hS : SlotsLen S) (hp : mget s.m ph = some (encD pv nx S))
    (j : Nat) (ok : Bool)
    (hfind : btreePage.find (encD pv nx S) c key s = (.ok ((j : Int), ok), s)) :
    btree.put2Loop root c key upd (fuel + 1) ph P pi s =
      if ok then btree.put2Found (encD pv nx S) ph (j : Int) key upd s
      else
        match upd key none with
        | .error e => (.error e, s)
        | .ok (value, written) =>
          if written then
            if S.length < 2 * kData then
              (do
                let p ← btreeDataPage.insertItem (encD pv nx S) (j : Int) key value
                memBTreeStore.Realloc ph p
                pure (none, written, [(key, none)]) : M PutResult) s
            else
              (do
                btreeDataPage.overflow (encD pv nx S) root ph P pi (j : Int) key value
                pure (none, written, [(key, none)]) : M PutResult) s
          else (.ok (none, written, [(key, none)]), s) := by
  have hlen : btreePage.len (encD pv nx S) = .ok (S.length : Int) := len_encD pv nx S hS
  cases ok with
  | true =>
    simp only [btree.put2Loop, M_bind, M_liftM, M_monadLift, M_pure, Get_ok s _ _ hp, hfind,
      isIndex_encD, if_true, Bool.false_eq_true, if_false]
  | false =>
    simp only [btree.put2Loop, M_bind, M_liftM, M_monadLift, M_pure, Get_ok s _ _ hp, hfind,
      isIndex_encD, if_true, Bool.false_eq_true, if_false, hlen]
    cases hu : upd key none with
    | error e => rfl
    | ok vw =>
      obtain ⟨value, written⟩ := vw
      cases written with
      | false => rfl
      | true =>
        simp only [Bool.not_true, Bool.false_eq_true, if_false, if_true]
        by_cases h : S.length < 2 * kData
        · have h2 : (S.length : Int) < 2 * (kData : Int) := by exact_mod_cast h
          simp only [M_bind, M_liftM]
          rw [if_pos h2, if_pos h]
          rfl
        · have h2 : ¬ ((S.length : Int) < 2 * (kData : Int)) := by
            intro h3
            exact h (by exact_mod_cast h3)
          simp only [M_bind, M_liftM]
          rw [if_neg h2, if_neg h]
          rfl

/-! ## put2: the specification of the cases on a leaf -/

theorem PutSpec.absent_err {c : Bytes → Bytes → Int} (hc : TotalCmp c)
    (X Y : List (Bytes × Bytes)) (key : Bytes) (upd : Updater) (e : Err)
    (hlow : ∀ a ∈ X, c a.1 key < 0) (hhigh : ∀ b ∈ Y, c key b.1 < 0)
    (hu : upd key none = .error e) : PutSpec c (X ++ Y) (X ++ Y) key upd (.error e) :=
  PutSpec.absent hc X Y key upd hlow hhigh _ _ (by rw [hu]; exact ⟨rfl, rfl⟩)

theorem PutSpec.absent_skip {c : Bytes → Bytes → Int} (hc : TotalCmp c)
    (X Y : List (Bytes × Bytes)) (key v : Bytes) (upd : Updater)
    (hlow : ∀ a ∈ X, c a.1 key < 0) (hhigh : ∀ b ∈ Y, c key b.1 < 0)
    (hu : upd key none = .ok (v, false)) :
    PutSpec c (X ++ Y) (X ++ Y) key upd (.ok (none, false, [(key, none)])) :=
  PutSpec.absent hc X Y key upd hlow hhigh _ _ (by rw [hu]; exact ⟨rfl, rfl⟩)

theorem PutSpec.absent_write {c : Bytes → Bytes → Int} (hc : TotalCmp c)
    (X Y : List (Bytes × Bytes)) (key v : Bytes) (upd : Updater)
    (hlow : ∀ a ∈ X, c a.1 key < 0) (hhigh : ∀ b ∈ Y, c key b.1 < 0)
    (hu : upd key none = .ok (v, true)) :
    PutSpec c (X ++ Y) (X ++ (key, v) :: Y) key upd (.ok (none, true, [(key, none)])) :=
  PutSpec.absent hc X Y key upd hlow hhigh _ _ (by rw [hu]; exact ⟨rfl, rfl⟩)

theorem PutSpec.present_err {c : Bytes → Bytes → Int} (hc : TotalCmp c)
    (X Y : List (Bytes × Bytes)) (k0 v0 key : Bytes) (upd : Updater) (e : Err)
    (hlow : ∀ a ∈ X, c a.1 key < 0) (hk : c key k0 = 0)
    (hu : upd key (appendNil v0) = .error e) :
    PutSpec c (X ++ (k0, v0) :: Y) (X ++ (k0, v0) :: Y) key upd (.error e) :=
  PutSpec.present hc X Y k0 v0 key upd hlow hk _ _ (by rw [hu]; exact ⟨rfl, rfl⟩)

theorem PutSpec.present_skip {c : Bytes → Bytes → Int} (hc : TotalCmp c)
    (X Y : List (Bytes × Bytes)) (k0 v0 key v : Bytes) (upd : Updater)
    (hlow : ∀ a ∈ X, c a.1 key < 0) (hk : c key k0 = 0)
    (hu : upd key (appendNil v0) = .ok (v, false)) :
    PutSpec c (X ++ (k0, v0) :: Y) (X ++ (k0, v0) :: Y) key upd
      (.ok (appendNil v0, false, [(key, appendNil v0)])) :=
  PutSpec.present hc X Y k0 v0 key upd hlow hk _ _ (by rw [hu]; exact ⟨rfl, rfl⟩)

theorem PutSpec.present_write {c : Bytes → Bytes → Int} (hc : TotalCmp c)
    (X Y : List (Bytes × Bytes)) (k0 v0 key v : Bytes) (upd : Updater)
    (hlow : ∀ a ∈ X, c a.1 key < 0) (hk : c key k0 = 0)
    (hu : upd key (appendNil v0) = .ok (v, true)) :
    PutSpec c (X ++ (k0, v0) :: Y) (X ++ (k0, v) :: Y) key upd
      (.ok (appendNil v0, true, [(key, appendNil v0)])) :=
  PutSpec.present hc X Y k0 v0 key upd hlow hk _ _ (by rw [hu]; exact ⟨rfl, rfl⟩)

theorem ixOf_leaves (kids : List Kid) (h : ∀ q ∈ kids, q.2.2 = []) : ixOf kids = [] := by
  induction kids with
  | nil => rfl
  | cons q kids ih =>
    rw [ixOf_cons, h q (List.mem_cons_self _ _), ih (fun a ha => h a (List.mem_cons_of_mem _ ha))]
    rfl

theorem frOf_leaves (kids : List Kid) (h : ∀ q ∈ kids, q.2.1 = [q.1]) :
    frOf kids = kids.map Prod.fst := by
  induction kids with
  | nil => rfl
  | cons q kids ih =>
    rw [frOf_cons, h q (List.mem_cons_self _ _), ih (fun a ha => h a (List.mem_cons_of_mem _ ha))]
    rfl

/-- The pairs of a tree, cut inside the leaf `l`. -/
theorem kvs_cut (m : Blobs) (GA GB : List Leaf) (l : Leaf) (A B : List Slot)
    (hS : l.S = A ++ B) :
    kvs m (GA ++ l :: GB) =
      (slots GA ++ A).map (slotKV m) ++ (B ++ slots GB).map (slotKV m) := by
  rw [kvs_eq_slots, slots_append, slots_cons, hS]
  simp only [List.map_append, List.append_assoc]

theorem mem_slotKV_fst (m : Blobs) (X : List Slot) (a : Bytes × Bytes)
    (h : a ∈ X.map (slotKV m)) : a.1 ∈ keysOf m X := by
  obtain ⟨x, hx, rfl⟩ := List.mem_map.1 h
  exact List.mem_map.2 ⟨x, hx, rfl⟩

/-- When `put2Loop` changes nothing, what holds before holds after. -/
theorem PutPost.same {c : Bytes → Bytes → Int} {key : Bytes} {upd : Updater}
    {s : memBTreeStore} {O : List Nat} {P : Nat} {pre post : List Kid} {k : Kid}
    {GA Gk GB : List Leaf} {Fa Fb : List Nat} {d : Nat}
    (h : PutPre c key s O P pre post k GA Gk GB Fa Fb d) (r : Except Err PutResult)
    (hr : PutSpec c (kvs s.m (GA ++ Gk ++ GB)) (kvs s.m (GA ++ Gk ++ GB)) key upd r) :
    PutPost c key upd s O P pre post k GA Gk GB d 2 r s := by
  have e : pre ++ [k] ++ post = pre ++ k :: post := by simp
  refine ⟨[k], GA, Gk, GB, by rw [e]; exact h.page, by simp, by simp, rfl, ?_, ?_, rfl, rfl,
    ?_, h.leaves, by rw [e]; exact h.ctx, fun _ _ => rfl, Nat.le_refl _, by omega, hr⟩
  · simp [frOf]
  · intro q hq
    simp only [List.mem_singleton] at hq
    subst hq
    exact h.kid
  · rw [h.hk]
    simp [frOf]

/-- The precondition at a leaf: the child is the leaf itself and no index page lies under
the parent. -/
theorem PutPre.leaf {c : Bytes → Bytes → Int} {key : Bytes} {s : memBTreeStore}
    {O : List Nat} {P : Nat} {pre post : List Kid} {k : Kid} {GA Gk GB : List Leaf}
    {Fa Fb : List Nat} (h : PutPre c key s O P pre post k GA Gk GB Fa Fb 0) :
    ∃ l : Leaf, Gk = [l] ∧ l.h = k.1 ∧ k.2.1 = [k.1] ∧ k.2.2 = [] ∧
      (∀ ks : List Kid, (∀ q ∈ ks, q.2.2 = []) → ixOf (pre ++ ks ++ post) = []) ∧
      ixOf pre = [] ∧ ixOf post = [] ∧
      frOf pre = pre.map Prod.fst ∧ frOf post = post.map Prod.fst := by
  have hk := h.kid
  simp only [Idx] at hk
  obtain ⟨l, hl, hlh⟩ := map_h_singleton Gk k.1 (by rw [h.hk, hk.1])
  have hsib : ∀ q ∈ pre ++ post, q.2.1 = [q.1] ∧ q.2.2 = [] := fun q hq => by
    have := h.sib q hq
    simpa only [Idx] using this
  refine ⟨l, hl, hlh, hk.1, hk.2, fun ks hks => ?_, ?_, ?_, ?_, ?_⟩
  · refine ixOf_leaves _ (fun q hq => ?_)
    rcases List.mem_append.1 hq with h1 | h1
    · rcases List.mem_append.1 h1 with h2 | h2
      · exact (hsib q (List.mem_append_left _ h2)).2
      · exact hks q h2
    · exact (hsib q (List.mem_append_right _ h1)).2
  · exact ixOf_leaves _ (fun q hq => (hsib q (List.mem_append_left _ hq)).2)
  · exact ixOf_leaves _ (fun q hq => (hsib q (List.mem_append_right _ hq)).2)
  · exact frOf_leaves _ (fun q hq => (hsib q (List.mem_append_left _ hq)).1)
  · exact frOf_leaves _ (fun q hq => (hsib q (List.mem_append_right _ hq)).1)

/-- `put2Found` on the leaf that holds a key equal to `key`. -/
theorem put_leaf_found {c : Bytes → Bytes → Int} (hc : TotalCmp c) {key : Bytes}
    (upd : Updater) {s : memBTreeStore} {O : List Nat} {P : Nat} {pre post : List Kid}
    {k : Kid} {GA GB : List Leaf} {Fa Fb : List Nat} (l : Leaf)
    (h : PutPre c key s O P pre post k GA [l] GB Fa Fb 0)
    (A B : List Slot) (x : Slot) (hS : l.S = A ++ x :: B)
    (hA : ∀ a ∈ A, c (fieldVal s.m a.1) key < 0) (hx : c key (fieldVal s.m x.1) = 0)
    (hs : s.h + 1 < 2 ^ 56) :
    ∃ r s2, btree.put2Found (encD (lastH 0 GA) (headH GB 0) l.S) l.h (A.length : Int) key upd
        s = (r, s2) ∧
      PutPost c key upd s O P pre post k GA [l] GB 0 2 r s2 := by
  obtain ⟨l0, hl0, hlh, hk1, hk2, hix, hipre, hipost, -, -⟩ := h.leaf
  obtain ⟨lh, lS⟩ := l
  obtain ⟨kf, vf⟩ := x
  simp only at hS hlh
  subst hS
  have hlh : lh = k.1 := by
    cases hl0
    exact hlh
  have e0 : GA ++ [(⟨lh, A ++ (kf, vf) :: B⟩ : Leaf)] ++ GB =
      GA ++ (⟨lh, A ++ (kf, vf) :: B⟩ : Leaf) :: GB := by simp
  have hL := h.leaves
  have hC := h.ctx
  rw [e0] at hL hC
  have hlG : (⟨lh, A ++ (kf, vf) :: B⟩ : Leaf) ∈ GA ++ (⟨lh, A ++ (kf, vf) :: B⟩ : Leaf) :: GB := by
    simp
  have hf := hL.fields _ hlG
  have hfx := hf (kf, vf) (by simp)
  have hSA : SlotsLen A := fun a ha =>
    ⟨(hf a (List.mem_append_left _ ha)).1.1, (hf a (List.mem_append_left _ ha)).2.1⟩
  have heq := put2Found_eq (lastH 0 GA) (headH GB 0) A B kf vf lh key upd s hSA hfx.1.1 hfx.2
    (A.length : Int) rfl
  have hK := kvs_cut s.m GA GB ⟨lh, A ++ (kf, vf) :: B⟩ A ((kf, vf) :: B) rfl
  simp only [List.map_cons, List.cons_append] at hK
  have hlowX : ∀ a ∈ (slots GA ++ A).map (slotKV s.m), c a.1 key < 0 := by
    intro a ha
    have := mem_slotKV_fst _ _ _ ha
    rw [keysOf_append] at this
    rcases List.mem_append.1 this with h1 | h1
    · exact h.low _ (by rw [keysG_eq_slots]; exact h1)
    · obtain ⟨y, hy, hy2⟩ := List.mem_map.1 h1
      rw [← hy2]
      exact hA y hy
  have hxk : c key (slotKV s.m (kf, vf)).1 = 0 := hx
  rw [heq]
  cases hu : upd key (appendNil (fieldVal s.m vf)) with
  | error e =>
    refine ⟨_, _, rfl, PutPost.same h _ ?_⟩
    rw [e0, hK]
    exact PutSpec.present_err hc _ _ _ _ key upd e hlowX hxk hu
  | ok vw =>
    obtain ⟨v, w⟩ := vw
    cases w with
    | false =>
      refine ⟨_, _, rfl, PutPost.same h _ ?_⟩
      rw [e0, hK]
      exact PutSpec.present_skip hc _ _ _ _ key v upd hlowX hxk hu
    | true =>
      obtain ⟨s2, vf2, w1, w2, w3, w4, w5, w6, w7, w8, w9⟩ :=
        put2Found_write c kData O (P :: ixOf (pre ++ k :: post)) GA GB lh A B kf vf v s hL hC hs
      simp only [w1, if_true]
      rw [← w2]
      refine ⟨_, _, rfl, [k], GA, [(⟨lh, A ++ (kf, vf2) :: B⟩ : Leaf)], GB, ?_, by simp, by simp,
        rfl, by simp [frOf], ?_, rfl, rfl, ?_, by simpa using w4, ?_, ?_, w7, by omega, ?_⟩
      · rw [w6 P (by simp)]
        simpa using h.page
      · intro q hq
        simp only [List.mem_singleton] at hq
        subst hq
        simp only [Idx]
        exact ⟨hk1, hk2⟩
      · simp [frOf, hk1, hlh]
      · simpa using w5
      · intro a ha
        refine w6 a ?_
        rw [hipre, hipost] at ha
        simp only [List.append_nil, List.mem_append] at ha ⊢
        exact Or.inl ha
      · rw [e0, hK]
        have e2 : GA ++ [(⟨lh, A ++ (kf, vf2) :: B⟩ : Leaf)] ++ GB =
            GA ++ (⟨lh, A ++ (kf, vf2) :: B⟩ : Leaf) :: GB := by simp
        rw [e2, w9]
        have e3 : kvs s.m GA ++ (A.map (slotKV s.m) ++ (fieldVal s.m kf, v) ::
            B.map (slotKV s.m)) ++ kvs s.m GB =
            (slots GA ++ A).map (slotKV s.m) ++ ((slotKV s.m (kf, vf)).1, v) ::
              (B ++ slots GB).map (slotKV s.m) := by
          simp only [kvs_eq_slots, List.map_append, List.append_assoc, List.cons_append]
          rfl
        rw [e3]
        exact PutSpec.present_write hc _ _ _ _ key v upd hlowX hxk hu

/-! ## put2: a new item in a leaf under a parent page -/

/-- The result of `put2Loop` on a leaf that is still one leaf afterwards. -/
theorem PutPost.leaf1 {c : Bytes → Bytes → Int} {key : Bytes} {upd : Updater}
    {s : memBTreeStore} {O : List Nat} {P : Nat} {pre post : List Kid} {k : Kid}
    {GA Gk GB : List Leaf} {Fa Fb : List Nat}
    (h : PutPre c key s O P pre post k GA Gk GB Fa Fb 0) (r : Except Err PutResult)
    (s2 : memBTreeStore) (GA2 Gk2 GB2 : List Leaf)
    (h1 : GA2.map Leaf.h = GA.map Leaf.h) (h2 : GB2.map Leaf.h = GB.map Leaf.h)
    (h3 : Gk2.map Leaf.h = Gk.map Leaf.h)
    (hL : LeavesOk s2.m c kData (GA2 ++ Gk2 ++ GB2))
    (hC : Ctx s2 O [P] (GA2 ++ Gk2 ++ GB2))
    (hfr : ∀ a ∈ O ++ [P], mget s2.m a = mget s.m a) (hh : s.h ≤ s2.h) (hh2 : s2.h ≤ s.h + 3)
    (hr : PutSpec c (kvs s.m (GA ++ Gk ++ GB)) (kvs s2.m (GA2 ++ Gk2 ++ GB2)) key upd r) :
    PutPost c key upd s O P pre post k GA Gk GB 0 2 r s2 := by
  obtain ⟨l0, hl0, hlh, hk1, hk2, hix, hipre, hipost, -, -⟩ := h.leaf
  have e : pre ++ [k] ++ post = pre ++ k :: post := by simp
  refine ⟨[k], GA2, Gk2, GB2, ?_, by simp, by simp, rfl, by simp [frOf], ?_, h1, h2, ?_, hL, ?_,
    ?_, hh, by omega, hr⟩
  · rw [hfr P (by simp), e]
    exact h.page
  · intro q hq
    simp only [List.mem_singleton] at hq
    subst hq
    simp only [Idx]
    exact ⟨hk1, hk2⟩
  · rw [h3, h.hk]
    simp [frOf]
  · rw [hix [k] (by simp [hk2])]
    exact hC
  · intro a ha
    refine hfr a ?_
    rw [hipre, hipost] at ha
    simp only [List.append_nil, List.mem_append] at ha ⊢
    exact Or.inl ha

/-- What the precondition at a leaf says about the tree cut at the insertion point of
`key` in the leaf. -/
theorem PutPre.cut {c : Bytes → Bytes → Int} {key : Bytes} {s : memBTreeStore}
    {O : List Nat} {P : Nat} {pre post : List Kid} {k : Kid} {GA GB : List Leaf}
    {Fa Fb : List Nat} {l : Leaf} (h : PutPre c key s O P pre post k GA [l] GB Fa Fb 0)
    (A B : List Slot) (hS : l.S = A ++ B)
    (hA : ∀ a ∈ A, c (fieldVal s.m a.1) key < 0) (hB : ∀ b ∈ B, c key (fieldVal s.m b.1) < 0) :
    LeavesOk s.m c kData (GA ++ l :: GB) ∧ Ctx s O [P] (GA ++ l :: GB) ∧
    (∀ a ∈ keysOf s.m (slots GA ++ A), c a key < 0) ∧
    (∀ b ∈ keysOf s.m (B ++ slots GB), c key b < 0) ∧
    kvs s.m (GA ++ [l] ++ GB) =
      (slots GA ++ A).map (slotKV s.m) ++ (B ++ slots GB).map (slotKV s.m) ∧
    (∀ a ∈ (slots GA ++ A).map (slotKV s.m), c a.1 key < 0) ∧
    (∀ b ∈ (B ++ slots GB).map (slotKV s.m), c key b.1 < 0) := by
  obtain ⟨l0, hl0, hlh, hk1, hk2, hix, hipre, hipost, -, -⟩ := h.leaf
  have e0 : GA ++ [l] ++ GB = GA ++ l :: GB := by simp
  have hL := h.leaves
  have hC := h.ctx
  rw [e0] at hL hC
  have e1 : ixOf (pre ++ k :: post) = [] := by
    have := hix [k] (by simp [hk2])
    simpa using this
  rw [e1] at hC
  have hlow : ∀ a ∈ keysOf s.m (slots GA ++ A), c a key < 0 := by
    intro a ha
    rw [keysOf_append] at ha
    rcases List.mem_append.1 ha with h1 | h1
    · exact h.low _ (by rw [keysG_eq_slots]; exact h1)
    · obtain ⟨y, hy, hy2⟩ := List.mem_map.1 h1
      rw [← hy2]
      exact hA y hy
  have hhigh : ∀ b ∈ keysOf s.m (B ++ slots GB), c key b < 0 := by
    intro b hb
    rw [keysOf_append] at hb
    rcases List.mem_append.1 hb with h1 | h1
    · obtain ⟨y, hy, hy2⟩ := List.mem_map.1 h1
      rw [← hy2]
      exact hB y hy
    · exact h.high _ (by rw [keysG_eq_slots]; exact h1)
  refine ⟨hL, hC, hlow, hhigh, ?_, fun a ha => hlow _ (mem_slotKV_fst _ _ _ ha),
    fun b hb => hhigh _ (mem_slotKV_fst _ _ _ hb)⟩
  rw [e0]
  exact kvs_cut s.m GA GB l A B hS

/-- The new item goes into a leaf that has room. -/
theorem put_leaf_room {c : Bytes → Bytes → Int} (hc : TotalCmp c) {key : Bytes}
    (upd : Updater) (value : Bytes) {s : memBTreeStore} {O : List Nat} {P : Nat}
    {pre post : List Kid} {k : Kid} {GA GB : List Leaf} {Fa Fb : List Nat} (l : Leaf)
    (h : PutPre c key s O P pre post k GA [l] GB Fa Fb 0)
    (A B : List Slot) (hS : l.S = A ++ B)
    (hA : ∀ a ∈ A, c (fieldVal s.m a.1) key < 0) (hB : ∀ b ∈ B, c key (fieldVal s.m b.1) < 0)
    (hu : upd key none = .ok (value, true))
    (hlen : l.S.length < 2 * kData) (hs : s.h + 2 < 2 ^ 56) :
    ∃ s2, (do
        let p ← btreeDataPage.insertItem (encD (lastH 0 GA) (headH GB 0) l.S) (A.length : Int)
          key value
        memBTreeStore.Realloc l.h p
        pure (none, true, [(key, none)]) : M PutResult) s =
        (.ok (none, true, [(key, none)]), s2) ∧
      PutPost c key upd s O P pre post k GA [l] GB 0 2 (.ok (none, true, [(key, none)])) s2 := by
  obtain ⟨hL, hC, hlow, hhigh, hK, hlowX, hhighX⟩ := h.cut A B hS hA hB
  obtain ⟨lh, lS⟩ := l
  simp only at hS
  subst hS
  obtain ⟨s2, x, w1, w2, w3, w4, w5, w6, w7, w8⟩ :=
    leaf_insert c kData O [P] GA GB lh A B key value s hL hC hlen hlow hhigh hs
  refine ⟨s2, ?_, ?_⟩
  · simp only [M_bind, M_pure, w1, w2]
  · refine PutPost.leaf1 h _ s2 GA [(⟨lh, A ++ x :: B⟩ : Leaf)] GB rfl rfl rfl
      (by simpa using w3) (by simpa using w4) w5 w6 (by omega) ?_
    rw [hK]
    have e2 : GA ++ [(⟨lh, A ++ x :: B⟩ : Leaf)] ++ GB = GA ++ (⟨lh, A ++ x :: B⟩ : Leaf) :: GB := by
      simp
    rw [e2, w8]
    exact PutSpec.absent_write hc _ _ key value upd hlowX hhighX hu

/-- `overflow` ends in `split` when no sibling has room. -/
theorem overflow_to_split (p : Bytes) (root ph P : Nat) (pi z : Int) (key value : Bytes)
    (s : memBTreeStore) (lh rh : Nat)
    (hcs : checkSiblings P pi s = (.ok (lh, rh), s))
    (hleft : lh = 0 ∨ ∃ pl, mget s.m lh = some pl ∧ ¬ (btreeDataPage.len pl < 2 * (kData : Int)))
    (hright : rh = 0 ∨
      ∃ pr, mget s.m rh = some pr ∧ ¬ (btreeDataPage.len pr < 2 * (kData : Int))) :
    btreeDataPage.overflow p root ph P pi z key value s =
      btreeDataPage.split p root ph P pi z key value s := by
  have hl : ∃ left, (if lh ≠ 0 then memBTreeStore.Get lh else pure []) s = (.ok left, s) ∧
      ¬ (lh ≠ 0 ∧ btreeDataPage.len left < 2 * (kData : Int)) := by
    by_cases h0 : lh = 0
    · exact ⟨[], by simp [h0], fun h => h.1 h0⟩
    · rcases hleft with h | ⟨pl, h1, h2⟩
      · exact absurd h h0
      · exact ⟨pl, by simp [h0, Get_ok s _ _ h1], fun h => h2 h.2⟩
  have hr : ∃ right, (if rh ≠ 0 then memBTreeStore.Get rh else pure []) s = (.ok right, s) ∧
      ¬ (rh ≠ 0 ∧ btreeDataPage.len right < 2 * (kData : Int)) := by
    by_cases h0 : rh = 0
    · exact ⟨[], by simp [h0], fun h => h.1 h0⟩
    · rcases hright with h | ⟨pl, h1, h2⟩
      · exact absurd h h0
      · exact ⟨pl, by simp [h0, Get_ok s _ _ h1], fun h => h2 h.2⟩
  obtain ⟨left, hl1, hl2⟩ := hl
  obtain ⟨right, hr1, hr2⟩ := hr
  unfold btreeDataPage.overflow
  refine (M_bind_ok _ _ _ _ _ hcs).trans ?_
  dsimp only
  refine (M_bind_ok _ _ _ _ _ hl1).trans ?_
  rw [if_neg hl2]
  refine (M_bind_ok _ _ _ _ _ hr1).trans ?_
  rw [if_neg hr2]

/-! ## put2: the overflow of a leaf under a parent page -/

/-- The left sibling that `checkSiblings` finds for a leaf: none for the first child of
the parent, else the last leaf before the leaf. -/
theorem PutPre.left_sibling {c : Bytes → Bytes → Int} {key : Bytes} {s : memBTreeStore}
    {O : List Nat} {P : Nat} {pre post : List Kid} {k : Kid} {GA GB : List Leaf}
    {Fa Fb : List Nat} {l : Leaf} (h : PutPre c key s O P pre post k GA [l] GB Fa Fb 0) :
    (pre = [] ∧ ((pre.getLast?).map Prod.fst).getD 0 = 0) ∨
    ∃ GA0 left, GA = GA0 ++ [left] ∧ ((pre.getLast?).map Prod.fst).getD 0 = left.h ∧
      pre ≠ [] := by
  obtain ⟨l0, hl0, hlh, hk1, hk2, hix, hipre, hipost, hfpre, hfpost⟩ := h.leaf
  rcases List.eq_nil_or_concat pre with e | ⟨pre0, q, e⟩
  · subst e
    exact Or.inl ⟨rfl, rfl⟩
  · rw [List.concat_eq_append] at e
    subst e
    right
    have ha := h.ha
    rw [hfpre, List.map_append, ← List.append_assoc] at ha
    obtain ⟨GA0, G1, e1, e2, e3⟩ := List.map_eq_append_iff.1 ha
    obtain ⟨left, rfl, e4⟩ := map_h_singleton G1 q.1 (by simpa using e3)
    exact ⟨GA0, left, e1, by simp [e4], by simp⟩

/-- The right sibling that `checkSiblings` finds for a leaf: none for the last child of
the parent, else the first leaf after the leaf. -/
theorem PutPre.right_sibling {c : Bytes → Bytes → Int} {key : Bytes} {s : memBTreeStore}
    {O : List Nat} {P : Nat} {pre post : List Kid} {k : Kid} {GA GB : List Leaf}
    {Fa Fb : List Nat} {l : Leaf} (h : PutPre c key s O P pre post k GA [l] GB Fa Fb 0) :
    (post = [] ∧ ((post.head?).map Prod.fst).getD 0 = 0) ∨
    ∃ right GB0, GB = right :: GB0 ∧ ((post.head?).map Prod.fst).getD 0 = right.h := by
  obtain ⟨l0, hl0, hlh, hk1, hk2, hix, hipre, hipost, hfpre, hfpost⟩ := h.leaf
  cases post with
  | nil => exact Or.inl ⟨rfl, rfl⟩
  | cons q post0 =>
    right
    have hb := h.hb
    rw [hfpost, List.map_cons, List.cons_append] at hb
    cases GB with
    | nil => simp at hb
    | cons right GB0 =>
      simp only [List.map_cons, List.cons.injEq] at hb
      exact ⟨right, GB0, rfl, by simp [hb.1]⟩

/-- The handles of the children of the parent of a leaf fit a handle field. -/
theorem PutPre.kids_lt {c : Bytes → Bytes → Int} {key : Bytes} {s : memBTreeStore}
    {O : List Nat} {P : Nat} {pre post : List Kid} {k : Kid} {GA GB : List Leaf}
    {Fa Fb : List Nat} {l : Leaf} (h : PutPre c key s O P pre post k GA [l] GB Fa Fb 0)
    (hs : s.h < 2 ^ 56) : ∀ q ∈ pre ++ k :: post, q.1 < 2 ^ 56 := by
  obtain ⟨l0, hl0, hlh, hk1, hk2, hix, hipre, hipost, hfpre, hfpost⟩ := h.leaf
  have hall : ∀ x, x ∈ (GA ++ [l] ++ GB).map Leaf.h → x < 2 ^ 56 := by
    intro x hx
    obtain ⟨g, hg, rfl⟩ := List.mem_map.1 hx
    have := (h.ctx.bound _ (h.ctx.mem_leaf g hg)).2
    omega
  intro q hq
  refine hall q.1 ?_
  simp only [List.map_append, List.map_cons, List.map_nil, h.ha, h.hb, hfpre, hfpost,
    List.mem_append, List.mem_cons, List.mem_map, List.mem_singleton, List.not_mem_nil,
    or_false] at hq ⊢
  rcases hq with h1 | h1 | h1
  · exact Or.inl (Or.inl (Or.inr ⟨q, h1, rfl⟩))
  · left
    right
    cases hl0
    rw [h1]
    exact hlh.symm
  · exact Or.inr (Or.inl ⟨q, h1, rfl⟩)

theorem Ctx.other_ne_index {s : memBTreeStore} {O I : List Nat} {G : List Leaf}
    (h : Ctx s O I G) (a : Nat) (ha : a ∈ O) (b : Nat) (hb : b ∈ I) : a ≠ b := by
  intro e
  have hn := h.nodup
  unfold handles at hn
  have hd := (Multiset.nodup_add.1 (Multiset.nodup_add.1 (Multiset.nodup_add.1 hn).1).1).2.2
  exact Multiset.disjoint_left.1 hd (Multiset.mem_coe.2 ha) (by rw [e]; exact Multiset.mem_coe.2 hb)

theorem Ctx.index_nodup {s : memBTreeStore} {O I : List Nat} {G : List Leaf}
    (h : Ctx s O I G) : I.Nodup := by
  have hn := h.nodup
  unfold handles at hn
  exact Multiset.coe_nodup.1
    (Multiset.nodup_add.1 (Multiset.nodup_add.1 (Multiset.nodup_add.1 hn).1).1).2.1

/-- `overflow` on a full leaf under a parent page, after an updater that writes. -/
theorem put_leaf_overflow {c : Bytes → Bytes → Int} (hc : TotalCmp c) {key : Bytes}
    (upd : Updater) (value : Bytes) (root : Nat) {s : memBTreeStore} {O : List Nat} {P : Nat}
    {pre post : List Kid} {k : Kid} {GA GB : List Leaf} {Fa Fb : List Nat} (l : Leaf)
    (h : PutPre c key s O P pre post k GA [l] GB Fa Fb 0)
    (A B : List Slot) (hS : l.S = A ++ B)
    (hA : ∀ a ∈ A, c (fieldVal s.m a.1) key < 0) (hB : ∀ b ∈ B, c key (fieldVal s.m b.1) < 0)
    (hu : upd key none = .ok (value, true))
    (hlen : ¬ l.S.length < 2 * kData) (hs : s.h + 3 < 2 ^ 56) :
    ∃ s2, (do
        btreeDataPage.overflow (encD (lastH 0 GA) (headH GB 0) l.S) root l.h P
          (pre.length : Int) (A.length : Int) key value
        pure (none, true, [(key, none)]) : M PutResult) s =
        (.ok (none, true, [(key, none)]), s2) ∧
      PutPost c key upd s O P pre post k GA [l] GB 0 2 (.ok (none, true, [(key, none)])) s2 := by
  obtain ⟨hL, hC, hlow, hhigh, hK, hlowX, hhighX⟩ := h.cut A B hS hA hB
  obtain ⟨l0, hl0, hlh, hk1, hk2, hix, hipre, hipost, hfpre, hfpost⟩ := h.leaf
  have hlG : l ∈ GA ++ l :: GB := by simp
  have hfull : l.S.length = 2 * kData := by
    have := (hL.occ l hlG).2
    omega
  have hcs := checkSiblings_spec s P pre post k h.page (h.kids_lt (by omega))
  have hspec := PutSpec.absent_write hc _ _ key value upd hlowX hhighX hu
  rw [← hK] at hspec
  -- the left sibling has room
  by_cases hleftroom : ∃ GA0 left, GA = GA0 ++ [left] ∧ pre ≠ [] ∧
      ((pre.getLast?).map Prod.fst).getD 0 = left.h ∧ left.S.length < 2 * kData
  · obtain ⟨GA0, left, e1, hpre, e2, hroom⟩ := hleftroom
    subst e1
    rw [e2] at hcs
    have hmin := h.min hpre
    obtain ⟨x0, SA, rfl⟩ : ∃ x0 SA, A = x0 :: SA := by
      cases A with
      | nil =>
        exfalso
        cases B with
        | nil =>
          rw [hS] at hfull
          simp [kData_eq] at hfull
        | cons b B =>
          have h1 := hB b (List.mem_cons_self _ _)
          have h2 : minKey s.m [l] = fieldVal s.m b.1 := minKey_cons s.m l [] b B (by simpa using hS)
          rw [h2] at hmin
          have := (hc.antisymm key (fieldVal s.m b.1)).1 h1
          omega
      | cons x0 SA => exact ⟨x0, SA, rfl⟩
    have e3 : GA0 ++ [left] ++ l :: GB = GA0 ++ left :: l :: GB := by simp
    rw [e3] at hL hC
    obtain ⟨s2, x, w1, w2, w3, w4, w5, w6, w7⟩ := overflow_left c kData O [P] GA0 GB left l x0 SA
      B key value s root P _ (pre.length : Int) hcs hL hC hS hroom
      (by simpa [slots_append, slots_cons, slots_nil] using hlow) hhigh (by omega)
    rw [lastH_snoc]
    refine ⟨s2, ?_, ?_⟩
    · have e4 : (((x0 :: SA).length : Nat) : Int) = ((SA.length + 1 : Nat) : Int) := rfl
      rw [e4]
      simp only [M_bind, M_pure, w1]
    · refine PutPost.leaf1 h _ s2 (GA0 ++ [(⟨left.h, left.S ++ [x0]⟩ : Leaf)])
        [(⟨l.h, SA ++ x :: B⟩ : Leaf)] GB (by simp) rfl rfl (by simpa using w2)
        (by simpa using w3) w4 w5 (by omega) ?_
      have e5 : GA0 ++ [(⟨left.h, left.S ++ [x0]⟩ : Leaf)] ++ [(⟨l.h, SA ++ x :: B⟩ : Leaf)] ++ GB =
          GA0 ++ (⟨left.h, left.S ++ [x0]⟩ : Leaf) :: (⟨l.h, SA ++ x :: B⟩ : Leaf) :: GB := by simp
      rw [e5, w7]
      have e6 : (slots GA0 ++ (left.S ++ x0 :: SA)) = slots (GA0 ++ [left]) ++ (x0 :: SA) := by
        simp [slots_append, slots_cons, slots_nil]
      rw [e6]
      exact hspec
  · -- no room on the left
    have hleft : ((pre.getLast?).map Prod.fst).getD 0 = 0 ∨
        ∃ pl, mget s.m (((pre.getLast?).map Prod.fst).getD 0) = some pl ∧
          ¬ (btreeDataPage.len pl < 2 * (kData : Int)) := by
      rcases h.left_sibling with ⟨-, h2⟩ | ⟨GA0, left, e1, e2, hpre⟩
      · exact Or.inl h2
      · right
        subst e1
        have hp := Chain_mid s.m 0 0 GA0 (l :: GB) left (by simpa using hL.chain)
        have hfl : FieldsOk s.m left.S := hL.fields left (by simp)
        refine ⟨_, by rw [e2]; exact hp, ?_⟩
        rw [dataLen_encD _ _ _ hfl.slotsLen]
        intro h3
        exact hleftroom ⟨GA0, left, rfl, hpre, e2, by exact_mod_cast h3⟩
    by_cases hrightroom : ∃ right GB0, GB = right :: GB0 ∧
        ((post.head?).map Prod.fst).getD 0 = right.h ∧ right.S.length < 2 * kData
    · obtain ⟨right, GB0, e1, e2, hroom⟩ := hrightroom
      subst e1
      rw [e2] at hcs
      by_cases hidx : A.length < 2 * kData
      · obtain ⟨SB, xl, rfl⟩ : ∃ SB xl, B = SB ++ [xl] := by
          rcases List.eq_nil_or_concat B with e | ⟨SB, xl, e⟩
          · subst e
            rw [hS] at hfull
            simp only [List.append_nil] at hfull
            omega
          · exact ⟨SB, xl, by rw [e, List.concat_eq_append]⟩
        obtain ⟨s2, x, w1, w2, w3, w4, w5, w6, w7⟩ := overflow_right c kData O [P] GA GB0 l right
          xl A SB key value s root P _ (pre.length : Int) hcs hleft hL hC
          (by rw [hS, List.append_assoc]) hfull hroom hlow
          (by simpa [slots_cons] using hhigh) (by omega)
        refine ⟨s2, ?_, ?_⟩
        · show (_ : M PutResult) s = _
          simp only [headH, M_bind, M_pure, w1]
        · refine PutPost.leaf1 h _ s2 GA [(⟨l.h, A ++ x :: SB⟩ : Leaf)]
            ((⟨right.h, xl :: right.S⟩ : Leaf) :: GB0) rfl rfl rfl (by simpa using w2)
            (by simpa using w3) w4 w5 (by omega) ?_
          have e5 : GA ++ [(⟨l.h, A ++ x :: SB⟩ : Leaf)] ++ (⟨right.h, xl :: right.S⟩ : Leaf) :: GB0 =
              GA ++ (⟨l.h, A ++ x :: SB⟩ : Leaf) :: (⟨right.h, xl :: right.S⟩ : Leaf) :: GB0 := by
            simp
          rw [e5, w7]
          have e6 : (SB ++ xl :: right.S) ++ slots GB0 = (SB ++ [xl]) ++ slots (right :: GB0) := by
            simp [slots_cons]
          rw [e6]
          exact hspec
      · have hAl : A.length = 2 * kData := by
          have := congrArg List.length hS
          simp only [List.length_append] at this
          omega
        have hBn : B = [] := by
          have := congrArg List.length hS
          simp only [List.length_append] at this
          exact List.length_eq_zero.1 (by omega)
        subst hBn
        simp only [List.append_nil] at hS
        obtain ⟨s2, x, w1, w2, w3, w4, w5, w6, w7⟩ := overflow_right0 c kData O [P] GA GB0 l right
          key value s root P _ (pre.length : Int) hcs hleft hL hC hroom
          (by rw [hS]; exact hlow) (by simpa [slots_cons] using hhigh) (by omega)
        refine ⟨s2, ?_, ?_⟩
        · show (_ : M PutResult) s = _
          rw [hAl]
          simp only [headH, M_bind, M_pure, w1]
        · refine PutPost.leaf1 h _ s2 GA [l] ((⟨right.h, x :: right.S⟩ : Leaf) :: GB0) rfl rfl rfl
            (by simpa using w2) (by simpa using w3) w4 w5 (by omega) ?_
          have e5 : GA ++ [l] ++ (⟨right.h, x :: right.S⟩ : Leaf) :: GB0 =
              GA ++ l :: (⟨right.h, x :: right.S⟩ : Leaf) :: GB0 := by simp
          rw [e5, w7]
          have e6 : slots GA ++ l.S = slots GA ++ A := by rw [hS]
          have e7 : right.S ++ slots GB0 = [] ++ slots (right :: GB0) := by simp [slots_cons]
          rw [e6, e7]
          exact hspec
    · -- no room on the right: split
      have hright : ((post.head?).map Prod.fst).getD 0 = 0 ∨
          ∃ pr, mget s.m (((post.head?).map Prod.fst).getD 0) = some pr ∧
            ¬ (btreeDataPage.len pr < 2 * (kData : Int)) := by
        rcases h.right_sibling with ⟨-, h2⟩ | ⟨right, GB0, e1, e2⟩
        · exact Or.inl h2
        · right
          subst e1
          have hp := Chain_mid s.m 0 0 (GA ++ [l]) GB0 right (by simpa using hL.chain)
          have hfl : FieldsOk s.m right.S := hL.fields right (by simp)
          refine ⟨_, by rw [e2]; exact hp, ?_⟩
          rw [dataLen_encD _ _ _ hfl.slotsLen]
          intro h3
          exact hrightroom ⟨right, GB0, rfl, e2, by exact_mod_cast h3⟩
      obtain ⟨s2, x, L, R, w1, w2, w3, w4, w5, w6, w7, w8, w9⟩ := split_parent c kData O [P] GA GB
        l A B key value s root P pre post k hL hC (Nat.le_refl _) hS hfull h.page (by simp) hlow
        hhigh hs
      refine ⟨s2, ?_, ?_⟩
      · simp only [M_bind]
        rw [overflow_to_split _ root l.h P _ _ key value s _ _ hcs hleft hright]
        simp only [M_pure, w1]
      · have e5 : GA ++ [(⟨l.h, L⟩ : Leaf), (⟨s.h + 1, R⟩ : Leaf)] ++ GB =
            GA ++ (⟨l.h, L⟩ : Leaf) :: (⟨s.h + 1, R⟩ : Leaf) :: GB := by simp
        refine ⟨[k, (s.h + 1, [s.h + 1], [])], GA, [(⟨l.h, L⟩ : Leaf), (⟨s.h + 1, R⟩ : Leaf)], GB,
          by simpa using w5, by simp, by simp, rfl, by simp [frOf, hk1], ?_, rfl, rfl, ?_,
          by rw [e5]; exact w3, ?_, ?_, w7, by omega, ?_⟩
        · intro q hq
          simp only [List.mem_cons, List.mem_singleton, List.not_mem_nil, or_false] at hq
          rcases hq with h1 | h1
          · subst h1
            simp only [Idx]
            exact ⟨hk1, hk2⟩
          · subst h1
            simp [Idx]
        · have hlh2 : l.h = k.1 := by
            cases hl0
            exact hlh
          simp [frOf, hk1, hlh2]
        · rw [hix [k, (s.h + 1, [s.h + 1], [])] (by simp [hk2]), e5]
          exact w4
        · intro a ha
          rw [hipre, hipost] at ha
          simp only [List.append_nil, List.mem_append] at ha
          refine w6 a (by simp [ha]) ?_
          exact hC.other_ne_index a ha P (by simp)
        · rw [e5, w9]
          exact hspec

/-! ## put2: the loop on a leaf under a parent page -/

/-- `put2Loop` on a leaf under a parent page. -/
theorem put_leaf_under (c : Option (Bytes → Bytes → Int)) (hc : TotalCmp (cmpOf c))
    (root : Nat) (key : Bytes) (upd : Updater) (fuel : Nat) {s : memBTreeStore}
    {O : List Nat} {P : Nat} {pre post : List Kid} {k : Kid} {GA Gk GB : List Leaf}
    {Fa Fb : List Nat} (h : PutPre (cmpOf c) key s O P pre post k GA Gk GB Fa Fb 0)
    (hs : s.h + 3 < 2 ^ 56) :
    ∃ r s2, btree.put2Loop root c key upd (fuel + 1) k.1 P (pre.length : Int) s = (r, s2) ∧
      PutPost (cmpOf c) key upd s O P pre post k GA Gk GB 0 2 r s2 := by
  obtain ⟨l, hl, hlh, hk1, hk2, hix, hipre, hipost, hfpre, hfpost⟩ := h.leaf
  subst hl
  have hL := h.leaves
  have e0 : GA ++ [l] ++ GB = GA ++ l :: GB := by simp
  rw [e0] at hL
  have hpage := Chain_mid s.m 0 0 GA GB l hL.chain
  have hS : FieldsOk s.m l.S := hL.fields l (by simp)
  have hsorted := hL.sorted
  change (keysG s.m (GA ++ l :: GB)).Pairwise _ at hsorted
  rw [keysG_append, keysG_cons] at hsorted
  have hKl := (List.pairwise_append.1 (List.pairwise_append.1 hsorted).2.1).1
  obtain ⟨j, ok, hf, A, B, hA, hlt, hgt, hcase⟩ :=
    leaf_find c hc (lastH 0 GA) (headH GB 0) l.S key s hS hKl
  rw [← hlh, put2Loop_leaf root c key upd fuel l.h P _ s _ _ l.S hS.slotsLen hpage j ok hf]
  subst hA
  rcases hcase with ⟨hok, x, hx, he⟩ | ⟨hok, hx⟩
  · subst hok
    rw [if_pos rfl]
    exact put_leaf_found hc upd l h A B x hx hlt he (by omega)
  · subst hok
    rw [if_neg (by simp)]
    obtain ⟨-, -, -, -, hK, hlowX, hhighX⟩ := h.cut A B hx hlt hgt
    cases hu : upd key none with
    | error e =>
      refine ⟨_, _, rfl, PutPost.same h _ ?_⟩
      rw [hK]
      exact PutSpec.absent_err hc _ _ key upd e hlowX hhighX hu
    | ok vw =>
      obtain ⟨value, w⟩ := vw
      cases w with
      | false =>
        refine ⟨_, _, rfl, PutPost.same h _ ?_⟩
        rw [hK]
        exact PutSpec.absent_skip hc _ _ key value upd hlowX hhighX hu
      | true =>
        simp only [if_true]
        by_cases hlen : l.S.length < 2 * kData
        · rw [if_pos hlen]
          obtain ⟨s2, w1, w2⟩ := put_leaf_room hc upd value l h A B hx hlt hgt hu hlen (by omega)
          exact ⟨_, s2, w1, w2⟩
        · rw [if_neg hlen]
          obtain ⟨s2, w1, w2⟩ := put_leaf_overflow hc upd value root l h A B hx hlt hgt hu hlen hs
          exact ⟨_, s2, w1, w2⟩

/-! ## put2: the split of an index page -/

/-- The pages of the first half of the split of an index page whose handles are `H1`, the
separator `sep` and `H2`. -/
theorem indexSplit_pages (H1 H2 : List Nat) (sep : Nat) (h1 : H1.length = 2 * kIndex + 1)
    (h2 : H2.length = 2 * kIndex + 1) (hsep : sep < 2 ^ 56) :
    btreeIndexPage.setLen (encH [0]) kIndex = .ok (encH (0 :: List.replicate (2 * kIndex) 0)) ∧
    sliceFrom (encH (H1 ++ sep :: H2)) (1 + 14 * (kIndex + 1)) =
      .ok ((H2.map h2bBytes).flatten) ∧
    copyTo (encH (0 :: List.replicate (2 * kIndex) 0)) 1 (1 + (2 * kIndex + 1) * 7)
      ((H2.map h2bBytes).flatten) = .ok (encH H2) ∧
    btreeIndexPage.dataPage (encH (H1 ++ sep :: H2)) kIndex = .ok sep ∧
    btreeIndexPage.setLen (encH (H1 ++ sep :: H2)) kIndex = .ok (encH H1) := by
  refine ⟨?_, ?_, ?_, ?_, ?_⟩
  · have := indexSetLen_grow [0] (kIndex : Int) 0 kIndex rfl (by rw [Nat.zero_add])
    simpa using this
  · have e : H1 ++ sep :: H2 = (H1 ++ [sep]) ++ H2 := by simp
    rw [e, sliceFrom_of _ _ (1 + 7 * (H1 ++ [sep]).length)
      (by
        simp only [List.length_append, List.length_singleton, h1]
        push_cast
        omega)
      (by
        rw [encH_length]
        simp only [List.length_append, List.length_singleton]
        omega),
      encH_drop_left _ _ _ rfl]
  · have := copyTo_encH0 [] (0 :: List.replicate (2 * kIndex) 0) [] H2
      (by simp only [List.length_cons, List.length_replicate, h2]) 1
      (1 + (2 * (kIndex : Int) + 1) * 7)
      (by simp only [List.length_nil]; rfl)
      (by
        simp only [List.length_nil, List.length_cons, List.length_replicate]
        push_cast
        omega)
    simpa only [List.nil_append, List.append_nil] using this
  · exact dataPage_encH H1 H2 sep hsep (kIndex : Int) kIndex rfl h1
  · have e : H1 ++ sep :: H2 = H1 ++ (sep :: H2) := rfl
    exact indexSetLen_shrink H1 (sep :: H2) (kIndex : Int) kIndex rfl h1

/-- The handles of an index page depend on the handle and on the first leaf of a child
only. -/
theorem hsOf_congr_kid (pre post : List Kid) (k k2 : Kid) (h1 : k.1 = k2.1)
    (h2 : k.2.1.headD 0 = k2.2.1.headD 0) :
    hsOf (pre ++ k :: post) = hsOf (pre ++ k2 :: post) := by
  cases pre with
  | nil => simp only [List.nil_append, hsOf_cons, h1]
  | cons q pre =>
    simp only [List.cons_append, hsOf_cons, sepsOf_append, sepsOf_cons, h1, h2]

/-- The parent page after `insert3` put a new child `q` behind the child `k`. -/
theorem insert3_kid (pre post : List Kid) (k q : Kid) (z : Int) (hz : z = pre.length) :
    btreeIndexPage.insert3 (encH (hsOf (pre ++ k :: post))) z (q.2.1.headD 0) q.1 =
      .ok (encH (hsOf (pre ++ k :: q :: post))) := by
  rw [hsOf_snoc_append, insert3_encH _ _ z pre.length hz (hsOf_snoc_length pre k)
    (by rw [sepsOf_length]; exact Nat.mul_mod_right 2 _) _ _,
    hsOf_snoc_append pre (q :: post) k, sepsOf_cons]

/-- The handles of an index page, cut between two children. -/
theorem hsOf_cut (A B : List Kid) (q : Kid) (hA : A ≠ []) :
    hsOf (A ++ q :: B) = hsOf A ++ q.2.1.headD 0 :: hsOf (q :: B) := by
  cases A with
  | nil => exact absurd rfl hA
  | cons a A => simp only [List.cons_append, hsOf_cons, sepsOf_append, sepsOf_cons]

theorem hsOf_length_cons (A : List Kid) (hA : A ≠ []) : (hsOf A).length = 2 * A.length - 1 := by
  rw [hsOf_length_of A hA]
  cases A with
  | nil => exact absurd rfl hA
  | cons a A =>
    simp only [List.length_cons]
    omega

/-- The run of `split` on an index page of `2 * kIndex + 2` children under a parent page:
the upper half of the children moves to the new page `s.h + 1`, which the parent gets as
a new child behind the page. -/
theorem index_split_run (s : memBTreeStore) (kk1 kk2 : List Kid) (q : Kid) (ph root P : Nat)
    (pre post : List Kid) (k : Kid) (j : Int) (b0 : Bytes)
    (hl1 : kk1.length = kIndex + 1) (hl2 : (q :: kk2).length = kIndex + 1)
    (hq : q.2.1 ≠ []) (hsep : q.2.1.headD 0 < 2 ^ 56)
    (hph : mget s.m ph = some b0)
    (hP : mget s.m P = some (encH (hsOf (pre ++ k :: post)))) (hne : P ≠ ph)
    (hb : P ≤ s.h) :
    btreeIndexPage.split (encH (hsOf (kk1 ++ q :: kk2))) root ph P (pre.length : Int) j s =
      (.ok (if j > (kIndex : Int) then (encH (hsOf (q :: kk2)), s.h + 1, j - ((kIndex : Int) + 1))
          else (encH (hsOf kk1), ph, j)),
        ⟨s.h + 1, mset (mset (mset s.m ph (encH (hsOf kk1))) (s.h + 1) (encH (hsOf (q :: kk2)))) P
          (encH (hsOf (pre ++ k ::
            (s.h + 1, frOf (q :: kk2), (s.h + 1) :: ixOf (q :: kk2)) :: post)))⟩) := by
  have hk1 : kk1 ≠ [] := by
    intro e
    rw [e] at hl1
    simp at hl1
  have hH1 : (hsOf kk1).length = 2 * kIndex + 1 := by
    rw [hsOf_length_cons kk1 hk1, hl1]
    omega
  have hH2 : (hsOf (q :: kk2)).length = 2 * kIndex + 1 := by
    rw [hsOf_length_cons _ (by simp), hl2]
    omega
  obtain ⟨p1, p2, p3, p4, p5⟩ := indexSplit_pages (hsOf kk1) (hsOf (q :: kk2))
    (q.2.1.headD 0) hH1 hH2 hsep
  rw [← hsOf_cut kk1 kk2 q hk1] at p2 p4 p5
  have hg : mget (mset (mset s.m ph (encH (hsOf kk1))) (s.h + 1) (encH (hsOf (q :: kk2)))) P =
      some (encH (hsOf (pre ++ k :: post))) := by
    rw [mget_mset, if_neg (by omega), mget_mset, if_neg (fun e => hne e.symm)]
    exact hP
  have hfr : (frOf (q :: kk2)).headD 0 = q.2.1.headD 0 := by
    rw [frOf_cons]
    cases hq1 : q.2.1 with
    | nil => exact absurd hq1 hq
    | cons a t => rfl
  have hins := insert3_kid pre post k (s.h + 1, frOf (q :: kk2), (s.h + 1) :: ixOf (q :: kk2))
    (pre.length : Int) rfl
  simp only [hfr] at hins
  have h0 : (pre.length : Int) ≥ 0 := Int.natCast_nonneg _
  by_cases hj : j > (kIndex : Int)
  · simp only [btreeIndexPage.split, M_bind, M_liftM, M_monadLift, M_pure, newBTreeIndexPage_eq,
      p1, p2, p3, p4, p5, Realloc_ok s ph _ _ hph, memBTreeStore.Alloc, h0, if_true,
      Get_ok ⟨s.h + 1, mset (mset s.m ph (encH (hsOf kk1))) (s.h + 1)
        (encH (hsOf (q :: kk2)))⟩ P _ hg, hins,
      Realloc_ok ⟨s.h + 1, mset (mset s.m ph (encH (hsOf kk1))) (s.h + 1)
        (encH (hsOf (q :: kk2)))⟩ P _ _ hg, hj]
  · simp only [btreeIndexPage.split, M_bind, M_liftM, M_monadLift, M_pure, newBTreeIndexPage_eq,
      p1, p2, p3, p4, p5, Realloc_ok s ph _ _ hph, memBTreeStore.Alloc, h0, if_true,
      Get_ok ⟨s.h + 1, mset (mset s.m ph (encH (hsOf kk1))) (s.h + 1)
        (encH (hsOf (q :: kk2)))⟩ P _ hg, hins,
      Realloc_ok ⟨s.h + 1, mset (mset s.m ph (encH (hsOf kk1))) (s.h + 1)
        (encH (hsOf (q :: kk2)))⟩ P _ _ hg, hj, if_false]

/-! ## put2: from a page to the page above it -/

theorem headD_mid (X Y Y2 Z : List Nat) (hY : Y ≠ []) (hY2 : Y2 ≠ [])
    (h : Y.headD 0 = Y2.headD 0) : (X ++ Y ++ Z).headD 0 = (X ++ Y2 ++ Z).headD 0 := by
  cases X with
  | cons x xs => rfl
  | nil =>
    cases Y with
    | nil => exact absurd rfl hY
    | cons a b =>
      cases Y2 with
      | nil => exact absurd rfl hY2
      | cons a2 b2 => simpa using h

theorem Parts.frOf_eq {kids : List Kid} {parts : List (List Leaf)} (h : Parts kids parts) :
    parts.flatten.map Leaf.h = frOf kids := by
  rw [frOf, ← h.map, List.map_flatten]

theorem frOf_ne_nil (m : Blobs) (d : Nat) (ks : List Kid) (h1 : 1 ≤ ks.length)
    (h : ∀ q ∈ ks, Idx m (kIndex - 1) (2 * kIndex + 1) d q.1 q.2.1 q.2.2) : frOf ks ≠ [] := by
  cases ks with
  | nil => simp at h1
  | cons q r =>
    have := Idx_fr_ne m d _ _ _ _ _ (h q (List.mem_cons_self _ _))
    rw [frOf_cons]
    intro hn
    exact this (List.append_eq_nil.1 hn).1

/-- The handles of a tree, seen from the page `ph` under the page `P` and seen from
`P`. -/
theorem handles_under (O : List Nat) (P ph : Nat) (pre post kids : List Kid) (F : List Nat)
    (G : List Leaf) :
    handles (O ++ P :: (ixOf pre ++ ixOf post)) (ph :: ixOf kids) G =
      handles O (P :: ixOf (pre ++ (ph, F, ph :: ixOf kids) :: post)) G := by
  simp only [handles, ixOf_append, ixOf_cons, ← Multiset.coe_add, ← Multiset.cons_coe,
    ← Multiset.singleton_add, List.cons_append]
  abel

/-- The precondition of `put2Loop` on a child of the page `ph`, from what holds at `ph`
under the page `P`. -/
theorem PutPre.under {c : Bytes → Bytes → Int} {key : Bytes} {s : memBTreeStore}
    {O : List Nat} {P ph : Nat} {pre post kkA kkB : List Kid} {cj : Kid}
    {GA GB LA Gc LB : List Leaf} {d : Nat}
    (hL : LeavesOk s.m c kData (GA ++ (LA ++ Gc ++ LB) ++ GB))
    (hC : Ctx s O (P :: ixOf (pre ++
      (ph, frOf (kkA ++ cj :: kkB), ph :: ixOf (kkA ++ cj :: kkB)) :: post))
      (GA ++ (LA ++ Gc ++ LB) ++ GB))
    (hlowA : ∀ a ∈ keysG s.m GA, c a key < 0) (hhighB : ∀ b ∈ keysG s.m GB, c key b < 0)
    (hpage : mget s.m ph = some (encH (hsOf (kkA ++ cj :: kkB))))
    (hroom : (kkA ++ cj :: kkB).length ≤ 2 * kIndex + 1)
    (hkids : ∀ q ∈ kkA ++ cj :: kkB, Idx s.m (kIndex - 1) (2 * kIndex + 1) d q.1 q.2.1 q.2.2)
    (hLA : LA.map Leaf.h = frOf kkA) (hGc : Gc.map Leaf.h = cj.2.1)
    (hLB : LB.map Leaf.h = frOf kkB)
    (hlow : ∀ a ∈ keysG s.m LA, c a key < 0) (hhigh : ∀ b ∈ keysG s.m LB, c key b < 0)
    (hmin : kkA ≠ [] → c (minKey s.m Gc) key < 0) :
    PutPre c key s (O ++ P :: (ixOf pre ++ ixOf post)) ph kkA kkB cj (GA ++ LA) Gc (LB ++ GB)
      (GA.map Leaf.h) (GB.map Leaf.h) d := by
  have eG : GA ++ LA ++ Gc ++ (LB ++ GB) = GA ++ (LA ++ Gc ++ LB) ++ GB := by
    simp only [List.append_assoc]
  refine ⟨hpage, ?_, hkids cj (by simp), fun q hq => hkids q ?_, hGc, ?_, ?_, ?_, ?_, ?_, ?_,
    hmin⟩
  · simp only [List.length_append, List.length_cons] at hroom
    omega
  · rcases List.mem_append.1 hq with h1 | h1
    · exact List.mem_append_left _ h1
    · exact List.mem_append_right _ (List.mem_cons_of_mem _ h1)
  · rw [List.map_append, hLA]
  · rw [List.map_append, hLB]
  · rw [eG]
    exact hL
  · rw [eG]
    show CtxM s _
    rw [handles_under]
    exact hC
  · intro a ha
    rw [keysG_append] at ha
    rcases List.mem_append.1 ha with h1 | h1
    · exact hlowA a h1
    · exact hlow a h1
  · intro b hb
    rw [keysG_append] at hb
    rcases List.mem_append.1 hb with h1 | h1
    · exact hhigh b h1
    · exact hhighB b h1

theorem map_h_append_split (G A B : List Leaf) (h : G.map Leaf.h = (A ++ B).map Leaf.h) :
    ∃ A2 B2, G = A2 ++ B2 ∧ A2.map Leaf.h = A.map Leaf.h ∧ B2.map Leaf.h = B.map Leaf.h := by
  rw [List.map_append] at h
  obtain ⟨A2, B2, h1, h2, h3⟩ := List.map_eq_append_iff.1 h
  exact ⟨A2, B2, h1, h2, h3⟩

/-- What `put2Loop` leaves behind on a child of the page `ph`, seen from the page `P`
above `ph`: the page `ph` is still one child of `P`. -/
theorem PutPost.lift {c : Bytes → Bytes → Int} {key : Bytes} {upd : Updater}
    {s : memBTreeStore} {O : List Nat} {P ph : Nat} {pre post kkA kkB : List Kid} {cj : Kid}
    {GA GB LA Gc LB : List Leaf} {d : Nat} {r : Except Err PutResult} {s2 : memBTreeStore}
    (hP : mget s.m P = some (encH (hsOf (pre ++
      (ph, frOf (kkA ++ cj :: kkB), ph :: ixOf (kkA ++ cj :: kkB)) :: post))))
    (hcount : kIndex ≤ (kkA ++ cj :: kkB).length)
    (hroom : (kkA ++ cj :: kkB).length ≤ 2 * kIndex + 1)
    (hkids : ∀ q ∈ kkA ++ cj :: kkB, Idx s.m (kIndex - 1) (2 * kIndex + 1) d q.1 q.2.1 q.2.2)
    (hLA : LA.map Leaf.h = frOf kkA) (hLB : LB.map Leaf.h = frOf kkB)
    (hpost : PutPost c key upd s (O ++ P :: (ixOf pre ++ ixOf post)) ph kkA kkB cj (GA ++ LA)
      Gc (LB ++ GB) d 2 r s2) :
    PutPost c key upd s O P pre post
      (ph, frOf (kkA ++ cj :: kkB), ph :: ixOf (kkA ++ cj :: kkB)) GA (LA ++ Gc ++ LB) GB
      (d + 1) 1 r s2 := by
  obtain ⟨ks, GA2x, Gc2, GB2x, p1, p2, p3, p4, p5, p6, p7, p8, p9, p10, p11, p12, p13, p14,
    p15⟩ := hpost
  obtain ⟨GA2, LA2, rfl, a1, a2⟩ := map_h_append_split _ _ _ p7
  obtain ⟨LB2, GB2, rfl, b1, b2⟩ := map_h_append_split _ _ _ p8
  have hcj : cj.2.1 ≠ [] := Idx_fr_ne _ _ _ _ _ _ _ (hkids cj (by simp))
  have hks : frOf ks ≠ [] := frOf_ne_nil _ _ _ p2 p6
  have hhead : (frOf (kkA ++ ks ++ kkB)).headD 0 = (frOf (kkA ++ cj :: kkB)).headD 0 := by
    have e : kkA ++ cj :: kkB = kkA ++ [cj] ++ kkB := by simp
    rw [e]
    simp only [frOf_append]
    refine headD_mid _ _ _ _ hks ?_ ?_
    · simpa [frOf] using hcj
    · rw [p5]
      simp [frOf]
  have eG : GA2 ++ LA2 ++ Gc2 ++ (LB2 ++ GB2) = GA2 ++ (LA2 ++ Gc2 ++ LB2) ++ GB2 := by
    simp only [List.append_assoc]
  have eG0 : GA ++ LA ++ Gc ++ (LB ++ GB) = GA ++ (LA ++ Gc ++ LB) ++ GB := by
    simp only [List.append_assoc]
  have e1 : pre ++ [(ph, frOf (kkA ++ ks ++ kkB), ph :: ixOf (kkA ++ ks ++ kkB))] ++ post =
      pre ++ (ph, frOf (kkA ++ ks ++ kkB), ph :: ixOf (kkA ++ ks ++ kkB)) :: post := by simp
  refine ⟨[(ph, frOf (kkA ++ ks ++ kkB), ph :: ixOf (kkA ++ ks ++ kkB))], GA2,
    LA2 ++ Gc2 ++ LB2, GB2, ?_, by simp, by simp, rfl, ?_, ?_, a1, b2, ?_, ?_, ?_, ?_, p13,
    by omega, ?_⟩
  · rw [p12 P (by simp), hP, e1]
    exact congrArg _ (congrArg _ (hsOf_congr_kid pre post _ _ rfl hhead.symm))
  · simpa [frOf] using hhead
  · intro q hq
    simp only [List.mem_singleton] at hq
    subst hq
    refine ⟨kkA ++ ks ++ kkB, p1, ?_, ?_, rfl, rfl, fun q hq => ?_⟩
    · simp only [List.length_append, List.length_cons] at hcount ⊢
      omega
    · simp only [List.length_append, List.length_cons] at hroom ⊢
      omega
    · rcases List.mem_append.1 hq with h1 | h1
      · rcases List.mem_append.1 h1 with h2 | h2
        · refine Idx_congr s.m s2.m _ _ _ _ _ _ (fun a ha => p12 a ?_) (hkids q (by simp [h2]))
          exact List.mem_append_right _ (List.mem_append_left _ (ixOf_mem kkA q h2 a ha))
        · exact p6 q h2
      · refine Idx_congr s.m s2.m _ _ _ _ _ _ (fun a ha => p12 a ?_) (hkids q (by simp [h1]))
        exact List.mem_append_right _ (List.mem_append_right _ (ixOf_mem kkB q h1 a ha))
  · simp only [List.map_append, frOf_append, frOf_cons, frOf, List.map_nil, List.flatten_nil,
      List.append_nil, a2, b1, p9, hLA, hLB, List.map_cons, List.flatten_cons]
    simp [frOf]
  · rw [← eG]
    exact p10
  · rw [← eG, e1]
    show CtxM s2 _
    rw [← handles_under]
    exact p11
  · intro a ha
    refine p12 a (List.mem_append_left _ ?_)
    simp only [List.mem_append, List.mem_cons] at ha ⊢
    tauto
  · rw [← eG, ← eG0]
    exact p15

/-! ## put2: the key is found -/

/-- `put2Found` on the leaf that holds a key equal to `key`, anywhere in the tree. -/
theorem put_found_flat {c : Bytes → Bytes → Int} (hc : TotalCmp c) {key : Bytes}
    (upd : Updater) {s : memBTreeStore} (O I : List Nat) (GA GB : List Leaf) (l : Leaf)
    (lo : Nat) (hL : LeavesOk s.m c lo (GA ++ l :: GB)) (hC : Ctx s O I (GA ++ l :: GB))
    (A B : List Slot) (x : Slot) (hS : l.S = A ++ x :: B)
    (hlow : ∀ a ∈ keysG s.m GA, c a key < 0)
    (hA : ∀ a ∈ A, c (fieldVal s.m a.1) key < 0) (hx : c key (fieldVal s.m x.1) = 0)
    (hs : s.h + 1 < 2 ^ 56) :
    ∃ r s2 l2, btree.put2Found (encD (lastH 0 GA) (headH GB 0) l.S) l.h (A.length : Int) key
        upd s = (r, s2) ∧
      l2.h = l.h ∧ LeavesOk s2.m c lo (GA ++ l2 :: GB) ∧ Ctx s2 O I (GA ++ l2 :: GB) ∧
      (∀ a ∈ O ++ I, mget s2.m a = mget s.m a) ∧ s.h ≤ s2.h ∧ s2.h ≤ s.h + 1 ∧
      PutSpec c (kvs s.m (GA ++ l :: GB)) (kvs s2.m (GA ++ l2 :: GB)) key upd r := by
  obtain ⟨lh, lS⟩ := l
  obtain ⟨kf, vf⟩ := x
  simp only at hS
  subst hS
  have hlG : (⟨lh, A ++ (kf, vf) :: B⟩ : Leaf) ∈ GA ++ (⟨lh, A ++ (kf, vf) :: B⟩ : Leaf) :: GB := by
    simp
  have hf := hL.fields _ hlG
  have hfx := hf (kf, vf) (by simp)
  have hSA : SlotsLen A := fun a ha =>
    ⟨(hf a (List.mem_append_left _ ha)).1.1, (hf a (List.mem_append_left _ ha)).2.1⟩
  have heq := put2Found_eq (lastH 0 GA) (headH GB 0) A B kf vf lh key upd s hSA hfx.1.1 hfx.2
    (A.length : Int) rfl
  have hK := kvs_cut s.m GA GB ⟨lh, A ++ (kf, vf) :: B⟩ A ((kf, vf) :: B) rfl
  simp only [List.map_cons, List.cons_append] at hK
  have hlowX : ∀ a ∈ (slots GA ++ A).map (slotKV s.m), c a.1 key < 0 := by
    intro a ha
    have := mem_slotKV_fst _ _ _ ha
    rw [keysOf_append] at this
    rcases List.mem_append.1 this with h1 | h1
    · exact hlow _ (by rw [keysG_eq_slots]; exact h1)
    · obtain ⟨y, hy, hy2⟩ := List.mem_map.1 h1
      rw [← hy2]
      exact hA y hy
  have hxk : c key (slotKV s.m (kf, vf)).1 = 0 := hx
  rw [heq]
  cases hu : upd key (appendNil (fieldVal s.m vf)) with
  | error e =>
    refine ⟨_, _, ⟨lh, A ++ (kf, vf) :: B⟩, rfl, rfl, hL, hC, fun _ _ => rfl, Nat.le_refl _,
      by omega, ?_⟩
    rw [hK]
    exact PutSpec.present_err hc _ _ _ _ key upd e hlowX hxk hu
  | ok vw =>
    obtain ⟨v, w⟩ := vw
    cases w with
    | false =>
      refine ⟨_, _, ⟨lh, A ++ (kf, vf) :: B⟩, rfl, rfl, hL, hC, fun _ _ => rfl, Nat.le_refl _,
        by omega, ?_⟩
      rw [hK]
      exact PutSpec.present_skip hc _ _ _ _ key v upd hlowX hxk hu
    | true =>
      obtain ⟨s2, vf2, w1, w2, w3, w4, w5, w6, w7, w8, w9⟩ :=
        put2Found_write c lo O I GA GB lh A B kf vf v s hL hC hs
      simp only [w1, if_true]
      rw [← w2]
      refine ⟨_, _, ⟨lh, A ++ (kf, vf2) :: B⟩, rfl, rfl, w4, w5, w6, w7, w8, ?_⟩
      rw [hK, w9]
      have e3 : kvs s.m GA ++ (A.map (slotKV s.m) ++ (fieldVal s.m kf, v) ::
          B.map (slotKV s.m)) ++ kvs s.m GB =
          (slots GA ++ A).map (slotKV s.m) ++ ((slotKV s.m (kf, vf)).1, v) ::
            (B ++ slots GB).map (slotKV s.m) := by
        simp only [kvs_eq_slots, List.map_append, List.append_assoc, List.cons_append]
        rfl
      rw [e3]
      exact PutSpec.present_write hc _ _ _ _ key v upd hlowX hxk hu

/-! ## put2: the loop on an index page -/

/-- The turn of the loop of `put2` on an index page that holds a separator equal to
`key`: the value is overwritten in the leaf of the separator. -/
theorem put2Loop_index_found (root : Nat) (c : Option (Bytes → Bytes → Int)) (key : Bytes)
    (upd : Updater) (fuel ph P : Nat) (pi : Int) (s : memBTreeStore) (hs : List Nat)
    (hp : mget s.m ph = some (encH hs)) (j : Int)
    (hfind : btreePage.find (encH hs) c key s = (.ok (j, true), s))
    (dh : Nat) (hd : btreeIndexPage.dataPage (encH hs) j = .ok dh) (p : Bytes)
    (hdp : mget s.m dh = some p) :
    btree.put2Loop root c key upd (fuel + 1) ph P pi s = btree.put2Found p dh 0 key upd s := by
  simp only [btree.put2Loop, M_bind, M_liftM, M_monadLift, M_pure, Get_ok s _ _ hp, hfind,
    isIndex_encH, if_true, hd, Get_ok s _ _ hdp]

/-- The turn of the loop of `put2` on an index page that has room: down to the child. -/
theorem put2Loop_index_room (root : Nat) (c : Option (Bytes → Bytes → Int)) (key : Bytes)
    (upd : Updater) (fuel ph P : Nat) (pi : Int) (s : memBTreeStore) (hs : List Nat)
    (n : Nat) (hn : hs.length = 2 * n + 1) (hroom : n ≤ 2 * kIndex)
    (hp : mget s.m ph = some (encH hs)) (j : Int)
    (hfind : btreePage.find (encH hs) c key s = (.ok (j, false), s))
    (ch : Nat) (hch : btreeIndexPage.child (encH hs) j = .ok ch) :
    btree.put2Loop root c key upd (fuel + 1) ph P pi s =
      btree.put2Loop root c key upd fuel ch ph j s := by
  have h2 : ¬ ((n : Int) > 2 * (kIndex : Int)) := by
    intro h3
    have : 2 * kIndex < n := by exact_mod_cast h3
    omega
  simp only [btree.put2Loop, M_bind, M_liftM, M_monadLift, M_pure, Get_ok s _ _ hp, hfind,
    isIndex_encH, if_true, Bool.false_eq_true, if_false, len_encH hs n hn]
  rw [if_neg h2]
  simp only [M_bind, M_liftM, M_monadLift, M_pure, hch]

/-- The turn of the loop of `put2` on a full index page: the page is split, then down to
the child. -/
theorem put2Loop_index_split (root : Nat) (c : Option (Bytes → Bytes → Int)) (key : Bytes)
    (upd : Updater) (fuel ph P : Nat) (pi : Int) (s : memBTreeStore) (hs : List Nat)
    (n : Nat) (hn : hs.length = 2 * n + 1) (hfull : 2 * kIndex < n)
    (hp : mget s.m ph = some (encH hs)) (j : Int)
    (hfind : btreePage.find (encH hs) c key s = (.ok (j, false), s))
    (p2 : Bytes) (ph2 : Nat) (j2 : Int) (s1 : memBTreeStore)
    (hsplit : btreeIndexPage.split (encH hs) root ph P pi j s = (.ok (p2, ph2, j2), s1))
    (ch : Nat) (hch : btreeIndexPage.child p2 j2 = .ok ch) :
    btree.put2Loop root c key upd (fuel + 1) ph P pi s =
      btree.put2Loop root c key upd fuel ch ph2 j2 s1 := by
  have h2 : (n : Int) > 2 * (kIndex : Int) := by exact_mod_cast hfull
  simp only [btree.put2Loop, M_bind, M_liftM, M_monadLift, M_pure, Get_ok s _ _ hp, hfind,
    isIndex_encH, if_true, Bool.false_eq_true, if_false, len_encH hs n hn]
  rw [if_pos h2]
  simp only [M_bind, M_liftM, M_monadLift, M_pure, hsplit, hch]

/-! ## put2: the key is a separator of an index page -/

/-- The turn of the loop of `put2` on an index page that holds a separator equal to
`key`: the leaf of the separator is read and the value of its first item overwritten. -/
theorem index_found_flat (c : Option (Bytes → Bytes → Int)) (hc : TotalCmp (cmpOf c))
    (key : Bytes) (upd : Updater) (s : memBTreeStore) (O I : List Nat) (kids : List Kid)
    (parts : List (List Leaf)) (Ga Gb : List Leaf) (lo : Nat) (hlo : 1 ≤ lo)
    (hL : LeavesOk s.m (cmpOf c) lo (Ga ++ parts.flatten ++ Gb))
    (hC : Ctx s O I (Ga ++ parts.flatten ++ Gb))
    (hlow : ∀ a ∈ keysG s.m Ga, cmpOf c a key < 0) (hlt : s.h + 1 < 2 ^ 56)
    (j : Nat) (pre post2 : List Kid) (k q : Kid) (Ppre Ppost2 : List (List Leaf))
    (Pk Pq : List Leaf) (e1 : kids = pre ++ k :: q :: post2)
    (e2 : parts = Ppre ++ Pk :: Pq :: Ppost2) (e3 : pre.length = j)
    (e8 : Pq.map Leaf.h = q.2.1) (e9 : Pq ≠ [])
    (he : cmpOf c key (minKey s.m Pq) = 0)
    (hx : ∀ x ∈ keysG s.m (Ppre ++ [Pk]).flatten, cmpOf c x key < 0) :
    ∃ dh p r s2 G2, btreeIndexPage.dataPage (encH (hsOf kids)) (j : Int) = .ok dh ∧
      mget s.m dh = some p ∧ btree.put2Found p dh 0 key upd s = (r, s2) ∧
      G2.map Leaf.h = (Ga ++ parts.flatten ++ Gb).map Leaf.h ∧
      LeavesOk s2.m (cmpOf c) lo G2 ∧ Ctx s2 O I G2 ∧
      (∀ a ∈ O ++ I, mget s2.m a = mget s.m a) ∧ s.h ≤ s2.h ∧ s2.h ≤ s.h + 1 ∧
      PutSpec (cmpOf c) (kvs s.m (Ga ++ parts.flatten ++ Gb)) (kvs s2.m G2) key upd r := by
  obtain ⟨l, rest, hl1, hl2⟩ := headD_map_h Pq e9
  have eG : Ga ++ parts.flatten ++ Gb =
      (Ga ++ (Ppre ++ [Pk]).flatten) ++ l :: (rest ++ Ppost2.flatten ++ Gb) := by
    rw [e2, hl1]
    simp
  rw [eG] at hL hC ⊢
  have hlG : l ∈ (Ga ++ (Ppre ++ [Pk]).flatten) ++ l :: (rest ++ Ppost2.flatten ++ Gb) := by
    simp
  have hlb : l.h < 2 ^ 56 := by
    have := (hC.bound _ (hC.mem_leaf l hlG)).2
    omega
  have hkne : kids ≠ [] := by rw [e1]; simp
  have hdp : btreeIndexPage.dataPage (encH (hsOf kids)) (j : Int) = .ok l.h := by
    have e1b : kids = (pre ++ [k]) ++ q :: post2 := by rw [e1]; simp
    have hg := hsOf_getD_sep (pre ++ [k]) post2 q j (by simp; omega)
    rw [← e1b, ← e8, hl2] at hg
    have := dataPage_at (hsOf kids) j
      (by rw [hsOf_length_of kids hkne, e1]; simp; omega)
      (by rw [hg]; exact hlb)
    rw [this, hg]
  have hpl := Chain_mid s.m 0 0 _ _ l hL.chain
  have hocc := (hL.occ l hlG).1
  cases hS : l.S with
  | nil => rw [hS] at hocc; simp at hocc; omega
  | cons x xs =>
    have hmk : minKey s.m Pq = fieldVal s.m x.1 := by
      rw [hl1]; exact minKey_cons s.m l rest x xs hS
    rw [hmk] at he
    obtain ⟨r, s2, l2, w1, w2, w3, w4, w5, w6, w7, w8⟩ :=
      put_found_flat hc upd O I _ _ l lo hL hC [] xs x hS
        (by
          intro a ha
          rw [keysG_append] at ha
          rcases List.mem_append.1 ha with h | h
          · exact hlow a h
          · exact hx a h)
        (by intro a ha; cases ha) he hlt
    refine ⟨l.h, _, r, s2, _, hdp, hpl, w1, ?_, w3, w4, w5, w6, w7, w8⟩
    simp [w2]

/-! ## put2: the split of an index page under a parent page -/

/-- The result of `put2Loop` under a child whose pages are the pages of before. -/
theorem PutPost.flat {c : Bytes → Bytes → Int} {key : Bytes} {upd : Updater}
    {s : memBTreeStore} {O : List Nat} {P : Nat} {pre post : List Kid} {k : Kid}
    {GA Gk GB : List Leaf} {d n : Nat} (hn : 1 ≤ n)
    (hP : mget s.m P = some (encH (hsOf (pre ++ k :: post))))
    (hkid : Idx s.m (kIndex - 1) (2 * kIndex + 1) d k.1 k.2.1 k.2.2)
    (hk : Gk.map Leaf.h = k.2.1)
    (r : Except Err PutResult) (s2 : memBTreeStore) (G2 : List Leaf)
    (hG2 : G2.map Leaf.h = (GA ++ Gk ++ GB).map Leaf.h)
    (hL : LeavesOk s2.m c kData G2) (hC : Ctx s2 O (P :: ixOf (pre ++ k :: post)) G2)
    (hfr : ∀ a ∈ O ++ P :: ixOf (pre ++ k :: post), mget s2.m a = mget s.m a)
    (hh : s.h ≤ s2.h) (hh2 : s2.h ≤ s.h + d + n + 1)
    (hr : PutSpec c (kvs s.m (GA ++ Gk ++ GB)) (kvs s2.m G2) key upd r) :
    PutPost c key upd s O P pre post k GA Gk GB d n r s2 := by
  obtain ⟨G2a, GB2, rfl, a1, a2⟩ := map_h_append_split _ _ _ hG2
  obtain ⟨GA2, Gk2, rfl, b1, b2⟩ := map_h_append_split _ _ _ a1
  have e : pre ++ [k] ++ post = pre ++ k :: post := by simp
  refine ⟨[k], GA2, Gk2, GB2, ?_, by simp, by simpa using hn, rfl, by simp [frOf], ?_, b1, a2,
    ?_, hL, by rw [e]; exact hC, ?_, hh, hh2, hr⟩
  · rw [hfr P (by simp), e]
    exact hP
  · intro q hq
    simp only [List.mem_singleton] at hq
    subst hq
    refine Idx_congr s.m s2.m _ _ _ _ _ _ (fun a ha => hfr a ?_) hkid
    refine List.mem_append_right _ (List.mem_cons_of_mem _ ?_)
    exact ixOf_mem _ q (by simp) a ha
  · rw [b2, hk]
    simp [frOf]
  · intro a ha
    refine hfr a ?_
    simp only [List.mem_append, List.mem_cons, ixOf_append, ixOf_cons] at ha ⊢
    tauto

/-- The tree after the split of the index page `ph` under the parent page `P`: the two
halves are index pages of the same level, the leaves are untouched. -/
theorem index_split_sem {c : Bytes → Bytes → Int} {lo : Nat} {s : memBTreeStore}
    {O : List Nat} {P ph : Nat} {pre post kk1 kk2 : List Kid} {q : Kid} {G : List Leaf}
    {d : Nat} (hL : LeavesOk s.m c lo G)
    (hC : Ctx s O (P :: ixOf (pre ++
      (ph, frOf (kk1 ++ q :: kk2), ph :: ixOf (kk1 ++ q :: kk2)) :: post)) G)
    (hkids : ∀ x ∈ kk1 ++ q :: kk2, Idx s.m (kIndex - 1) (2 * kIndex + 1) d x.1 x.2.1 x.2.2)
    (hk1 : kk1 ≠ []) (b0 b1 : Bytes) (hP : mget s.m P = some b0) (hph : mget s.m ph = some b1)
    (s1 : memBTreeStore)
    (hs1 : s1 = ⟨s.h + 1, mset (mset (mset s.m ph (encH (hsOf kk1))) (s.h + 1)
      (encH (hsOf (q :: kk2)))) P (encH (hsOf (pre ++
        (ph, frOf (kk1 ++ q :: kk2), ph :: ixOf (kk1 ++ q :: kk2)) ::
          (s.h + 1, frOf (q :: kk2), (s.h + 1) :: ixOf (q :: kk2)) :: post)))⟩) :
    mget s1.m P = some (encH (hsOf (pre ++ (ph, frOf kk1, ph :: ixOf kk1) ::
      (s.h + 1, frOf (q :: kk2), (s.h + 1) :: ixOf (q :: kk2)) :: post))) ∧
    mget s1.m ph = some (encH (hsOf kk1)) ∧
    mget s1.m (s.h + 1) = some (encH (hsOf (q :: kk2))) ∧
    (∀ x ∈ kk1 ++ q :: kk2, Idx s1.m (kIndex - 1) (2 * kIndex + 1) d x.1 x.2.1 x.2.2) ∧
    LeavesOk s1.m c lo G ∧
    Ctx s1 O (P :: ixOf (pre ++ (ph, frOf kk1, ph :: ixOf kk1) ::
      (s.h + 1, frOf (q :: kk2), (s.h + 1) :: ixOf (q :: kk2)) :: post)) G ∧
    (∀ a ∈ O ++ (ixOf pre ++ ixOf post), mget s1.m a = mget s.m a) ∧
    (∀ a ∈ ovs G, mget s1.m a = mget s.m a) := by
  have hnd := hC.index_nodup
  rw [ixOf_append pre, ixOf_cons] at hnd
  dsimp only at hnd
  have hnd1 : P ∉ ixOf pre ++ (ph :: ixOf (kk1 ++ q :: kk2) ++ ixOf post) :=
    (List.nodup_cons.1 hnd).1
  have hnd2 : ph ∉ ixOf pre ++ (ixOf (kk1 ++ q :: kk2) ++ ixOf post) := by
    have := (List.nodup_cons.1 hnd).2
    simp only [List.cons_append] at this
    exact (List.nodup_cons.1 (List.nodup_middle.1 this)).1
  have hPi : P ∈ O ++ P :: ixOf (pre ++
      (ph, frOf (kk1 ++ q :: kk2), ph :: ixOf (kk1 ++ q :: kk2)) :: post) := by simp
  have hphi : ph ∈ O ++ P :: ixOf (pre ++
      (ph, frOf (kk1 ++ q :: kk2), ph :: ixOf (kk1 ++ q :: kk2)) :: post) := by
    simp [ixOf_append, ixOf_cons]
  have hbP := hC.bound _ (hC.mem_index P hPi)
  have hbph := hC.bound _ (hC.mem_index ph hphi)
  have hPph : P ≠ ph := by
    intro h
    exact hnd1 (by rw [h]; simp)
  have hfr : ∀ a, a ≠ ph → a ≠ s.h + 1 → a ≠ P → mget s1.m a = mget s.m a := by
    intro a h1 h2 h3
    subst hs1
    simp only [mget_mset]
    rw [if_neg (Ne.symm h3), if_neg (Ne.symm h2), if_neg (Ne.symm h1)]
  have hle : ∀ a ∈ handles O (P :: ixOf (pre ++
      (ph, frOf (kk1 ++ q :: kk2), ph :: ixOf (kk1 ++ q :: kk2)) :: post)) G, a ≠ s.h + 1 := by
    intro a ha h
    have := (hC.bound a ha).2
    omega
  have hix : ∀ a ∈ ixOf pre ++ ixOf (kk1 ++ q :: kk2) ++ ixOf post, a ≠ ph ∧ a ≠ s.h + 1 ∧ a ≠ P := by
    intro a ha
    refine ⟨?_, ?_, ?_⟩
    · intro h
      subst h
      refine hnd2 ?_
      simp only [List.mem_append] at ha ⊢
      tauto
    · refine hle a ?_
      rw [mem_handles]
      refine Or.inr (Or.inl (List.mem_cons_of_mem _ ?_))
      simp only [ixOf_append, ixOf_cons, List.mem_append, List.mem_cons] at ha ⊢
      tauto
    · intro h
      subst h
      refine hnd1 ?_
      simp only [List.mem_append, List.mem_cons] at ha ⊢
      tauto
  have hO : ∀ a ∈ O, a ≠ ph ∧ a ≠ s.h + 1 ∧ a ≠ P := by
    intro a ha
    refine ⟨hC.other_ne_index a ha ph ?_, hle a ?_, hC.other_ne_index a ha P (by simp)⟩
    · simp [ixOf_append, ixOf_cons]
    · rw [mem_handles]
      exact Or.inl ha
  have hlf : ∀ l ∈ G, l.h ≠ ph ∧ l.h ≠ s.h + 1 ∧ l.h ≠ P := fun l hl =>
    ⟨(hC.index_ne_leaf ph hphi l hl).symm, hle _ (hC.mem_leaf l hl),
      (hC.index_ne_leaf P hPi l hl).symm⟩
  have hov : ∀ a ∈ ovs G, a ≠ ph ∧ a ≠ s.h + 1 ∧ a ≠ P := fun a ha =>
    ⟨(hC.index_ne_ov ph hphi a ha).symm, hle _ (hC.mem_ov a ha),
      (hC.index_ne_ov P hPi a ha).symm⟩
  have hhead : (frOf (kk1 ++ q :: kk2)).headD 0 = (frOf kk1).headD 0 := by
    cases kk1 with
    | nil => exact absurd rfl hk1
    | cons x xs =>
      have := Idx_fr_ne _ _ _ _ _ _ _ (hkids x (by simp))
      simp only [List.cons_append, frOf_cons]
      cases hx : x.2.1 with
      | nil => exact absurd hx this
      | cons a b => rfl
  refine ⟨?_, ?_, ?_, ?_, ?_, ?_, ?_, ?_⟩
  · subst hs1
    simp only [mget_mset, if_true]
    exact congrArg _ (congrArg _ (hsOf_congr_kid pre _ _ _ rfl hhead))
  · subst hs1
    simp only [mget_mset]
    rw [if_neg hPph, if_neg (by omega), if_pos trivial]
  · subst hs1
    simp only [mget_mset]
    rw [if_neg (by omega), if_pos trivial]
  · intro x hx
    refine Idx_congr s.m s1.m _ _ _ _ _ _ (fun a ha => ?_) (hkids x hx)
    have := hix a (List.mem_append_left _ (List.mem_append_right _ (ixOf_mem _ x hx a ha)))
    exact hfr a this.1 this.2.1 this.2.2
  · exact hL.frame s1.m (fun l hl => hfr _ (hlf l hl).1 (hlf l hl).2.1 (hlf l hl).2.2)
      (fun a ha => hfr _ (hov a ha).1 (hov a ha).2.1 (hov a ha).2.2)
  · have hM : handles O (P :: ixOf (pre ++ (ph, frOf kk1, ph :: ixOf kk1) ::
        (s.h + 1, frOf (q :: kk2), (s.h + 1) :: ixOf (q :: kk2)) :: post)) G =
        handles O (P :: ixOf (pre ++
          (ph, frOf (kk1 ++ q :: kk2), ph :: ixOf (kk1 ++ q :: kk2)) :: post)) G +
          (([s.h + 1] : List Nat) : Multiset Nat) := by
      simp only [handles, ixOf_append, ixOf_cons, ← Multiset.coe_add, ← Multiset.cons_coe,
        ← Multiset.singleton_add, List.cons_append, Multiset.coe_nil]
      abel
    show CtxM s1 _
    rw [hM]
    refine hC.extend [s.h + 1] (by simp) (fun k hk => ?_) (by subst hs1; simp) (fun k hk => ?_)
    · simp only [List.mem_singleton] at hk
      subst hk
      subst hs1
      simp
    · by_cases h1 : k = s.h + 1
      · exact Or.inr (by simp [h1])
      · left
        by_cases h2 : k = P
        · rw [h2, hP]; rfl
        · by_cases h3 : k = ph
          · rw [h3, hph]; rfl
          · rw [← hfr k h3 h1 h2]
            exact hk
  · intro a ha
    rcases List.mem_append.1 ha with h | h
    · exact hfr a (hO a h).1 (hO a h).2.1 (hO a h).2.2
    · have := hix a (by
        simp only [List.mem_append] at h ⊢
        tauto)
      exact hfr a this.1 this.2.1 this.2.2
  · exact fun a ha => hfr _ (hov a ha).1 (hov a ha).2.1 (hov a ha).2.2

/-! ## put2: down an index page, and back -/

/-- `put2Loop` on a child of the index page `ph`, itself a child of the page `P`, when
`put2Loop` is known on the level below: the page `ph` is still one child of `P`. -/
theorem put_descend (c : Option (Bytes → Bytes → Int)) (root : Nat) (key : Bytes)
    (upd : Updater) (fuel d : Nat)
    (IH : ∀ (s : memBTreeStore) (O : List Nat) (P : Nat) (pre post : List Kid) (k : Kid)
      (GA Gk GB : List Leaf) (Fa Fb : List Nat),
      PutPre (cmpOf c) key s O P pre post k GA Gk GB Fa Fb d → s.h + d + 3 < 2 ^ 56 →
      ∃ r s2, btree.put2Loop root c key upd fuel k.1 P (pre.length : Int) s = (r, s2) ∧
        PutPost (cmpOf c) key upd s O P pre post k GA Gk GB d 2 r s2)
    {s : memBTreeStore} {O : List Nat} {P ph : Nat} {pre post kkA kkB : List Kid} {cj : Kid}
    {GA GB LA Gc LB : List Leaf}
    (hP : mget s.m P = some (encH (hsOf (pre ++
      (ph, frOf (kkA ++ cj :: kkB), ph :: ixOf (kkA ++ cj :: kkB)) :: post))))
    (hL : LeavesOk s.m (cmpOf c) kData (GA ++ (LA ++ Gc ++ LB) ++ GB))
    (hC : Ctx s O (P :: ixOf (pre ++
      (ph, frOf (kkA ++ cj :: kkB), ph :: ixOf (kkA ++ cj :: kkB)) :: post))
      (GA ++ (LA ++ Gc ++ LB) ++ GB))
    (hlowA : ∀ a ∈ keysG s.m GA, cmpOf c a key < 0)
    (hhighB : ∀ b ∈ keysG s.m GB, cmpOf c key b < 0)
    (hpage : mget s.m ph = some (encH (hsOf (kkA ++ cj :: kkB))))
    (hcount : kIndex ≤ (kkA ++ cj :: kkB).length)
    (hroom : (kkA ++ cj :: kkB).length ≤ 2 * kIndex + 1)
    (hkids : ∀ q ∈ kkA ++ cj :: kkB, Idx s.m (kIndex - 1) (2 * kIndex + 1) d q.1 q.2.1 q.2.2)
    (hLA : LA.map Leaf.h = frOf kkA) (hGc : Gc.map Leaf.h = cj.2.1)
    (hLB : LB.map Leaf.h = frOf kkB)
    (hlow : ∀ a ∈ keysG s.m LA, cmpOf c a key < 0)
    (hhigh : ∀ b ∈ keysG s.m LB, cmpOf c key b < 0)
    (hmin : kkA ≠ [] → cmpOf c (minKey s.m Gc) key < 0)
    (hs : s.h + d + 3 < 2 ^ 56) :
    ∃ r s2, btree.put2Loop root c key upd fuel cj.1 ph (kkA.length : Int) s = (r, s2) ∧
      PutPost (cmpOf c) key upd s O P pre post
        (ph, frOf (kkA ++ cj :: kkB), ph :: ixOf (kkA ++ cj :: kkB)) GA (LA ++ Gc ++ LB) GB
        (d + 1) 1 r s2 := by
  obtain ⟨r, s2, hrun, hpost⟩ := IH s _ ph kkA kkB cj _ Gc _ _ _
    (PutPre.under hL hC hlowA hhighB hpage hroom hkids hLA hGc hLB hlow hhigh hmin) hs
  exact ⟨r, s2, hrun, PutPost.lift hP hcount hroom hkids hLA hLB hpost⟩

/-- What `put2Loop` leaves behind under one half of a page that was split, seen as what
it leaves behind under the page of before. -/
theorem PutPost.unsplit {c : Bytes → Bytes → Int} {key : Bytes} {upd : Updater}
    {s s1 : memBTreeStore} {O : List Nat} {P : Nat} {pre post topA topB : List Kid}
    {kX k : Kid} {GA TA GX TB GB : List Leaf} {d : Nat} {r : Except Err PutResult}
    {s2 : memBTreeStore}
    (hpost : PutPost c key upd s1 O P (pre ++ topA) (topB ++ post) kX (GA ++ TA) GX (TB ++ GB)
      (d + 1) 1 r s2)
    (hlen : topA.length + topB.length ≤ 1)
    (htop : ∀ q ∈ topA ++ topB, Idx s1.m (kIndex - 1) (2 * kIndex + 1) (d + 1) q.1 q.2.1 q.2.2)
    (hTA : TA.map Leaf.h = frOf topA) (hTB : TB.map Leaf.h = frOf topB)
    (hh1 : ((topA ++ kX :: topB).head?).map Prod.fst = some k.1)
    (hh2 : (frOf (topA ++ kX :: topB)).headD 0 = k.2.1.headD 0)
    (hkX : kX.2.1 ≠ [])
    (hfr : ∀ a ∈ O ++ (ixOf pre ++ ixOf post), mget s1.m a = mget s.m a)
    (hs1 : s.h ≤ s1.h ∧ s1.h ≤ s.h + 1)
    (hkv : kvs s1.m (GA ++ (TA ++ GX ++ TB) ++ GB) = kvs s.m (GA ++ (TA ++ GX ++ TB) ++ GB)) :
    PutPost c key upd s O P pre post k GA (TA ++ GX ++ TB) GB (d + 1) 2 r s2 := by
  obtain ⟨ks, GA2x, GX2, GB2x, p1, p2, p3, p4, p5, p6, p7, p8, p9, p10, p11, p12, p13, p14,
    p15⟩ := hpost
  obtain ⟨GA2, TA2, rfl, a1, a2⟩ := map_h_append_split _ _ _ p7
  obtain ⟨TB2, GB2, rfl, b1, b2⟩ := map_h_append_split _ _ _ p8
  have hks : frOf ks ≠ [] := frOf_ne_nil _ _ _ p2 p6
  have eI : pre ++ topA ++ ks ++ (topB ++ post) = pre ++ (topA ++ ks ++ topB) ++ post := by
    simp only [List.append_assoc]
  have eG : GA2 ++ TA2 ++ GX2 ++ (TB2 ++ GB2) = GA2 ++ (TA2 ++ GX2 ++ TB2) ++ GB2 := by
    simp only [List.append_assoc]
  have eG0 : GA ++ TA ++ GX ++ (TB ++ GB) = GA ++ (TA ++ GX ++ TB) ++ GB := by
    simp only [List.append_assoc]
  rw [eI] at p1 p11
  rw [eG] at p10 p11 p15
  rw [eG0, hkv] at p15
  refine ⟨topA ++ ks ++ topB, GA2, TA2 ++ GX2 ++ TB2, GB2, p1, ?_, ?_, ?_, ?_, ?_, a1, b2, ?_,
    p10, p11, ?_, by omega, by omega, p15⟩
  · simp only [List.length_append]
    omega
  · simp only [List.length_append]
    omega
  · cases topA with
    | cons a as => simpa using hh1
    | nil =>
      simp only [List.nil_append] at hh1 ⊢
      cases ks with
      | nil => simp at p2
      | cons q0 qs =>
        simp only [List.head?_cons, Option.map_some', Option.some.injEq, List.cons_append] at p4 hh1 ⊢
        rw [p4, hh1]
  · rw [← hh2]
    have e : topA ++ kX :: topB = topA ++ [kX] ++ topB := by simp
    rw [e]
    simp only [frOf_append]
    refine headD_mid _ _ _ _ hks ?_ ?_
    · simpa [frOf] using hkX
    · rw [p5]
      simp [frOf]
  · intro q hq
    have hc : ∀ q ∈ topA ++ topB, Idx s2.m (kIndex - 1) (2 * kIndex + 1) (d + 1) q.1 q.2.1 q.2.2 := by
      intro q hq
      refine Idx_congr s1.m s2.m _ _ _ _ _ _ (fun a ha => p12 a ?_) (htop q hq)
      refine List.mem_append_right _ ?_
      rcases List.mem_append.1 hq with h | h
      · exact List.mem_append_left _ (ixOf_mem _ q (List.mem_append_right _ h) a ha)
      · exact List.mem_append_right _ (ixOf_mem _ q (List.mem_append_left _ h) a ha)
    rcases List.mem_append.1 hq with h1 | h1
    · rcases List.mem_append.1 h1 with h2 | h2
      · exact hc q (List.mem_append_left _ h2)
      · exact p6 q h2
    · exact hc q (List.mem_append_right _ h1)
  · simp only [List.map_append, frOf_append, a2, b1, p9, hTA, hTB]
  · intro a ha
    rw [p12 a ?_, hfr a ha]
    simp only [List.mem_append, ixOf_append] at ha ⊢
    tauto

/-! ## put2: the loop on an index page under a parent page -/

theorem Parts.of_append {A B : List Kid} {parts : List (List Leaf)} (h : Parts (A ++ B) parts) :
    ∃ PA PB, parts = PA ++ PB ∧ Parts A PA ∧ Parts B PB := by
  have hm := h.map
  rw [List.map_append] at hm
  obtain ⟨PA, PB, h1, h2, h3⟩ := List.map_eq_append_iff.1 hm
  subst h1
  exact ⟨PA, PB, rfl, ⟨h2, fun X hX => h.ne X (List.mem_append_left _ hX)⟩,
    ⟨h3, fun X hX => h.ne X (List.mem_append_right _ hX)⟩⟩

theorem keysG_frame (m m2 : Blobs) (X : List Leaf) (h : ∀ a ∈ ovs X, mget m2 a = mget m a) :
    keysG m2 X = keysG m X := by
  unfold keysG
  rw [kvs_congr m m2 X h]

theorem minKey_frame (m m2 : Blobs) (X : List Leaf) (h : ∀ a ∈ ovs X, mget m2 a = mget m a) :
    minKey m2 X = minKey m X := by
  unfold minKey
  rw [keysG_frame m m2 X h]

/-- The handle of a child of an index page of the tree is a handle of the store. -/
theorem PutAt.kid_lt {c : Bytes → Bytes → Int} {key : Bytes} {s : memBTreeStore}
    {O : List Nat} {P : Nat} {pre post : List Kid} {ph : Nat} {preK postK : List Kid}
    {cj : Kid} {GA GB : List Leaf} {Ppre : List (List Leaf)} {Pk : List Leaf}
    {Ppost : List (List Leaf)} {d : Nat}
    (h : PutAt c key s O P pre post ph preK postK cj GA GB Ppre Pk Ppost d) :
    cj.1 < 2 ^ 56 := by
  have hm := Idx_self_mem _ _ _ _ _ _ _ (h.kids cj (by simp))
  have hlt := h.hlt
  rcases List.mem_append.1 hm with h1 | h1
  · rw [← h.pk] at h1
    obtain ⟨l, hl, hl2⟩ := List.mem_map.1 h1
    have := (h.ctx.bound _ (h.ctx.mem_leaf l (by simp [hl]))).2
    omega
  · have := (h.ctx.bound _ (h.ctx.mem_index cj.1 (by
      simp only [ixOf_append, ixOf_cons, List.mem_append, List.mem_cons]
      tauto))).2
    omega

theorem PutPost.mono {c : Bytes → Bytes → Int} {key : Bytes} {upd : Updater}
    {s : memBTreeStore} {O : List Nat} {P : Nat} {pre post : List Kid} {k : Kid}
    {GA Gk GB : List Leaf} {d n n2 : Nat} {r : Except Err PutResult} {s2 : memBTreeStore}
    (hn : n ≤ n2) (h : PutPost c key upd s O P pre post k GA Gk GB d n r s2) :
    PutPost c key upd s O P pre post k GA Gk GB d n2 r s2 := by
  obtain ⟨ks, GA2, Gk2, GB2, p1, p2, p3, p4, p5, p6, p7, p8, p9, p10, p11, p12, p13, p14,
    p15⟩ := h
  exact ⟨ks, GA2, Gk2, GB2, p1, p2, by omega, p4, p5, p6, p7, p8, p9, p10, p11, p12, p13,
    by omega, p15⟩

/-- `put2Loop` on an index page that has room, a child of the page `P`. -/
theorem put_at_room (c : Option (Bytes → Bytes → Int)) (root : Nat) (key : Bytes)
    (upd : Updater) (fuel d : Nat)
    (IH : ∀ (s : memBTreeStore) (O : List Nat) (P : Nat) (pre post : List Kid) (k : Kid)
      (GA Gk GB : List Leaf) (Fa Fb : List Nat),
      PutPre (cmpOf c) key s O P pre post k GA Gk GB Fa Fb d → s.h + d + 3 < 2 ^ 56 →
      ∃ r s2, btree.put2Loop root c key upd fuel k.1 P (pre.length : Int) s = (r, s2) ∧
        PutPost (cmpOf c) key upd s O P pre post k GA Gk GB d 2 r s2)
    {s : memBTreeStore} {O : List Nat} {P : Nat} {pre post : List Kid} {ph : Nat}
    {preK postK : List Kid} {cj : Kid} {GA GB : List Leaf} {Ppre : List (List Leaf)}
    {Pk : List Leaf} {Ppost : List (List Leaf)}
    (h : PutAt (cmpOf c) key s O P pre post ph preK postK cj GA GB Ppre Pk Ppost d)
    (hroom : (preK ++ cj :: postK).length ≤ 2 * kIndex + 1)
    (pi : Int) (j : Nat) (hj : preK.length = j)
    (hfind : btreePage.find (encH (hsOf (preK ++ cj :: postK))) c key s =
      (.ok ((j : Int), false), s))
    (hs : s.h + d + 3 < 2 ^ 56) :
    ∃ r s2, btree.put2Loop root c key upd (fuel + 1) ph P pi s = (r, s2) ∧
      PutPost (cmpOf c) key upd s O P pre post
        (ph, frOf (preK ++ cj :: postK), ph :: ixOf (preK ++ cj :: postK)) GA
        (Ppre.flatten ++ Pk ++ Ppost.flatten) GB (d + 1) 1 r s2 := by
  have hkne : preK ++ cj :: postK ≠ [] := by simp
  have hch : btreeIndexPage.child (encH (hsOf (preK ++ cj :: postK))) (j : Int) = .ok cj.1 := by
    have := child_at (hsOf (preK ++ cj :: postK)) j
      (by rw [hsOf_length_of _ hkne]; simp; omega)
      (by rw [hsOf_getD_child preK postK cj j hj]; exact h.kid_lt)
    rw [this, hsOf_getD_child preK postK cj j hj]
  rw [put2Loop_index_room root c key upd fuel ph P pi s _ ((preK ++ cj :: postK).length - 1)
    (hsOf_length_of _ hkne) (by omega) h.hpage _ hfind _ hch, ← hj]
  exact put_descend c root key upd fuel d IH h.page h.leaves h.ctx h.low h.high h.hpage h.count
    hroom h.kids h.ppre.frOf_eq h.pk h.ppost.frOf_eq h.lowK h.highK h.min hs

/-! ## put2: the loop on a full index page under a parent page, the key in the left half -/

theorem headD_append_ne (A X : List Nat) (hA : A ≠ []) : (A ++ X).headD 0 = A.headD 0 := by
  cases A with
  | nil => exact absurd rfl hA
  | cons a t => rfl

/-- The parent page is not the page under it, and is a handle of the store. -/
theorem parent_ne_kid {s : memBTreeStore} {O : List Nat} {P ph : Nat} {pre post : List Kid}
    {F I : List Nat} {G : List Leaf}
    (hC : Ctx s O (P :: ixOf (pre ++ (ph, F, ph :: I) :: post)) G) : P ≠ ph ∧ P ≤ s.h := by
  have hnd := hC.index_nodup
  refine ⟨fun e => (List.nodup_cons.1 hnd).1 ?_, (hC.bound _ (hC.mem_index P (by simp))).2⟩
  rw [e]
  simp [ixOf_append, ixOf_cons]

/-- The first leaf under a child of an index page is a handle of the store. -/
theorem sep_le {s : memBTreeStore} {O I : List Nat} {G : List Leaf} (hC : Ctx s O I G)
    (q : Kid) (X : List Leaf) (hX : ∀ l ∈ X, l ∈ G) (hq : q.2.1 ≠ [])
    (hm : ∀ a ∈ q.2.1, a ∈ X.map Leaf.h) : q.2.1.headD 0 ≤ s.h := by
  cases hq1 : q.2.1 with
  | nil => exact absurd hq1 hq
  | cons a t =>
    obtain ⟨l, hl, hl2⟩ := List.mem_map.1 (hm a (by rw [hq1]; simp))
    have := (hC.bound _ (hC.mem_leaf l (hX l hl))).2
    simp only [List.headD_cons]
    omega

/-- `put2Loop` on a full index page, a child of the page `P`, when the key goes to the
left half. -/
theorem put_at_full_left (c : Option (Bytes → Bytes → Int)) (root : Nat) (key : Bytes)
    (upd : Updater) (fuel d : Nat)
    (IH : ∀ (s : memBTreeStore) (O : List Nat) (P : Nat) (pre post : List Kid) (k : Kid)
      (GA Gk GB : List Leaf) (Fa Fb : List Nat),
      PutPre (cmpOf c) key s O P pre post k GA Gk GB Fa Fb d → s.h + d + 3 < 2 ^ 56 →
      ∃ r s2, btree.put2Loop root c key upd fuel k.1 P (pre.length : Int) s = (r, s2) ∧
        PutPost (cmpOf c) key upd s O P pre post k GA Gk GB d 2 r s2)
    {s : memBTreeStore} {O : List Nat} {P : Nat} {pre post : List Kid} {ph : Nat}
    {preK xB kk2 : List Kid} {q cj : Kid} {GA GB : List Leaf} {Ppre PxB PR : List (List Leaf)}
    {Pk : List Leaf}
    (h : PutAt (cmpOf c) key s O P pre post ph preK (xB ++ q :: kk2) cj GA GB Ppre Pk
      (PxB ++ PR) d)
    (hxB : Parts xB PxB) (hPR : Parts (q :: kk2) PR)
    (hl1 : (preK ++ cj :: xB).length = kIndex + 1) (hl2 : (q :: kk2).length = kIndex + 1)
    (j : Nat) (hj : preK.length = j)
    (hfind : btreePage.find (encH (hsOf (preK ++ cj :: (xB ++ q :: kk2)))) c key s =
      (.ok ((j : Int), false), s))
    (hs : s.h + d + 4 < 2 ^ 56) :
    ∃ r s2, btree.put2Loop root c key upd (fuel + 1) ph P (pre.length : Int) s = (r, s2) ∧
      PutPost (cmpOf c) key upd s O P pre post
        (ph, frOf (preK ++ cj :: (xB ++ q :: kk2)), ph :: ixOf (preK ++ cj :: (xB ++ q :: kk2)))
        GA (Ppre.flatten ++ Pk ++ (PxB ++ PR).flatten) GB (d + 1) 2 r s2 := by
  have e : preK ++ cj :: (xB ++ q :: kk2) = (preK ++ cj :: xB) ++ q :: kk2 := by simp
  have eG : GA ++ (Ppre.flatten ++ Pk ++ (PxB ++ PR).flatten) ++ GB =
      GA ++ (Ppre.flatten ++ Pk ++ PxB.flatten) ++ (PR.flatten ++ GB) := by
    simp only [List.flatten_append, List.append_assoc]
  have eG2 : Ppre.flatten ++ Pk ++ (PxB ++ PR).flatten =
      [] ++ (Ppre.flatten ++ Pk ++ PxB.flatten) ++ PR.flatten := by
    simp only [List.flatten_append, List.append_assoc, List.nil_append]
  have hkl := h.kid_lt
  have hpageP := h.page
  have hL := h.leaves
  have hC := h.ctx
  have hkids := h.kids
  have hpage := h.hpage
  have hhighK := h.highK
  rw [e] at hpageP hC hkids hpage hfind
  rw [eG] at hL hC
  rw [e, eG2]
  rw [List.flatten_append, keysG_append] at hhighK
  have hqne : q.2.1 ≠ [] := Idx_fr_ne _ _ _ _ _ _ _ (hkids q (by simp))
  have hsep : q.2.1.headD 0 < 2 ^ 56 := by
    have := sep_le hC q PR.flatten (fun l hl => by simp [hl]) hqne (fun a ha => by
      rw [hPR.frOf_eq]
      exact frOf_mem _ q (by simp) a ha)
    omega
  obtain ⟨hne, hb⟩ := parent_ne_kid hC
  have hjk : j ≤ kIndex := by
    simp only [List.length_append, List.length_cons] at hl1
    omega
  have hrun := index_split_run s (preK ++ cj :: xB) kk2 q ph root P pre post
    (ph, frOf ((preK ++ cj :: xB) ++ q :: kk2), ph :: ixOf ((preK ++ cj :: xB) ++ q :: kk2))
    (j : Int) _ hl1 hl2 hqne hsep hpage hpageP hne hb
  rw [if_neg (by omega)] at hrun
  obtain ⟨s1, hs1⟩ : ∃ s1 : memBTreeStore, s1 = ⟨s.h + 1, mset (mset (mset s.m ph
      (encH (hsOf (preK ++ cj :: xB)))) (s.h + 1) (encH (hsOf (q :: kk2)))) P (encH (hsOf (pre ++
        (ph, frOf ((preK ++ cj :: xB) ++ q :: kk2), ph :: ixOf ((preK ++ cj :: xB) ++ q :: kk2)) ::
          (s.h + 1, frOf (q :: kk2), (s.h + 1) :: ixOf (q :: kk2)) :: post)))⟩ := ⟨_, rfl⟩
  rw [← hs1] at hrun
  obtain ⟨a1, a2, a3, a4, a5, a6, a7, a8⟩ :=
    index_split_sem hL hC hkids (by simp) _ _ hpageP hpage s1 hs1
  have hh : s1.h = s.h + 1 := by rw [hs1]
  have hch : btreeIndexPage.child (encH (hsOf (preK ++ cj :: xB))) (j : Int) = .ok cj.1 := by
    have := child_at (hsOf (preK ++ cj :: xB)) j
      (by rw [hsOf_length_of _ (by simp)]; simp; omega)
      (by rw [hsOf_getD_child preK xB cj j hj]; exact hkl)
    rw [this, hsOf_getD_child preK xB cj j hj]
  rw [put2Loop_index_split root c key upd fuel ph P _ s _
    (((preK ++ cj :: xB) ++ q :: kk2).length - 1) (hsOf_length_of _ (by simp))
    (by
      simp only [List.length_append, List.length_cons] at hl1 hl2 ⊢
      omega) hpage _ hfind _ _ _ _ hrun _ hch, ← hj]
  have hsub : ∀ X : List Leaf, (∀ a ∈ ovs X, a ∈ ovs (GA ++
      (Ppre.flatten ++ Pk ++ PxB.flatten) ++ (PR.flatten ++ GB))) →
      ∀ a ∈ ovs X, mget s1.m a = mget s.m a := fun X hX a ha => a8 a (hX a ha)
  have f1 := hsub GA (fun a ha => by simp only [ovs_append, List.mem_append]; tauto)
  have f2 := hsub Ppre.flatten (fun a ha => by simp only [ovs_append, List.mem_append]; tauto)
  have f3 := hsub Pk (fun a ha => by simp only [ovs_append, List.mem_append]; tauto)
  have f4 := hsub PxB.flatten (fun a ha => by simp only [ovs_append, List.mem_append]; tauto)
  have f5 := hsub (PR.flatten ++ GB) (fun a ha => by
    simp only [ovs_append, List.mem_append] at ha ⊢; tauto)
  obtain ⟨r, s2, hrun2, hpost⟩ := put_descend c root key upd fuel d IH a1 a5 a6
    (by rw [keysG_frame _ _ _ f1]; exact h.low)
    (by
      rw [keysG_frame _ _ _ f5, keysG_append]
      intro b hb
      rcases List.mem_append.1 hb with h1 | h1
      · exact hhighK b (List.mem_append_right _ h1)
      · exact h.high b h1)
    a2 (by rw [hl1]; omega) (by rw [hl1]; omega)
    (fun x hx => a4 x (List.mem_append_left _ hx)) h.ppre.frOf_eq h.pk hxB.frOf_eq
    (by rw [keysG_frame _ _ _ f2]; exact h.lowK)
    (by
      rw [keysG_frame _ _ _ f4]
      exact fun b hb => hhighK b (List.mem_append_left _ hb))
    (by rw [minKey_frame _ _ _ f3]; exact h.min) (by omega)
  refine ⟨r, s2, hrun2, ?_⟩
  have hpost2 : PutPost (cmpOf c) key upd s1 O P (pre ++ [])
      ([(s.h + 1, frOf (q :: kk2), (s.h + 1) :: ixOf (q :: kk2))] ++ post)
      (ph, frOf (preK ++ cj :: xB), ph :: ixOf (preK ++ cj :: xB)) (GA ++ [])
      (Ppre.flatten ++ Pk ++ PxB.flatten) (PR.flatten ++ GB) (d + 1) 1 r s2 := by
    rw [List.append_nil, List.append_nil]
    exact hpost
  refine PutPost.unsplit hpost2 (by simp) ?_ rfl ?_ rfl ?_ ?_ a7 (by omega) ?_
  · intro x hx
    simp only [List.nil_append, List.mem_singleton] at hx
    subst hx
    refine ⟨q :: kk2, a3, ?_, ?_, rfl, rfl, fun y hy => a4 y (List.mem_append_right _ hy)⟩
    · rw [hl2]; omega
    · rw [hl2]; omega
  · rw [hPR.frOf_eq]
    simp [frOf]
  · simp only [List.nil_append, frOf_cons, frOf_append]
    have hne1 : cj.2.1 ≠ [] := Idx_fr_ne _ _ _ _ _ _ _ (hkids cj (by simp))
    cases preK with
    | nil =>
      simp only [frOf, List.map_nil, List.flatten_nil, List.nil_append]
      cases hc1 : cj.2.1 with
      | nil => exact absurd hc1 hne1
      | cons a t => rfl
    | cons p0 pk =>
      have hne0 : p0.2.1 ≠ [] := Idx_fr_ne _ _ _ _ _ _ _ (hkids p0 (by simp))
      simp only [frOf_cons]
      cases hc1 : p0.2.1 with
      | nil => exact absurd hc1 hne0
      | cons a t => rfl
  · exact frOf_ne_nil s1.m d _ (by rw [hl1]; omega) (fun x hx => a4 x (List.mem_append_left _ hx))
  · simp only [List.nil_append, List.append_nil]
    refine kvs_congr _ _ _ (fun a ha => a8 a ?_)
    simp only [ovs_append, List.mem_append] at ha ⊢
    tauto

/-! ## put2: the loop on a full index page under a parent page, the key in the right half -/

/-- `put2Loop` on a full index page, a child of the page `P`, when the key goes to the
right half. -/
theorem put_at_full_right (c : Option (Bytes → Bytes → Int)) (root : Nat) (key : Bytes)
    (upd : Updater) (fuel d : Nat)
    (IH : ∀ (s : memBTreeStore) (O : List Nat) (P : Nat) (pre post : List Kid) (k : Kid)
      (GA Gk GB : List Leaf) (Fa Fb : List Nat),
      PutPre (cmpOf c) key s O P pre post k GA Gk GB Fa Fb d → s.h + d + 3 < 2 ^ 56 →
      ∃ r s2, btree.put2Loop root c key upd fuel k.1 P (pre.length : Int) s = (r, s2) ∧
        PutPost (cmpOf c) key upd s O P pre post k GA Gk GB d 2 r s2)
    {s : memBTreeStore} {O : List Nat} {P : Nat} {pre post : List Kid} {ph : Nat}
    {kk1 xA postK : List Kid} {cj : Kid} {GA GB : List Leaf} {P1 PxA Ppost : List (List Leaf)}
    {Pk : List Leaf}
    (h : PutAt (cmpOf c) key s O P pre post ph (kk1 ++ xA) postK cj GA GB (P1 ++ PxA) Pk
      Ppost d)
    (hP1 : Parts kk1 P1) (hxA : Parts xA PxA)
    (hl1 : kk1.length = kIndex + 1) (hl2 : (xA ++ cj :: postK).length = kIndex + 1)
    (j : Nat) (hj : (kk1 ++ xA).length = j)
    (hfind : btreePage.find (encH (hsOf ((kk1 ++ xA) ++ cj :: postK))) c key s =
      (.ok ((j : Int), false), s))
    (hs : s.h + d + 4 < 2 ^ 56) :
    ∃ r s2, btree.put2Loop root c key upd (fuel + 1) ph P (pre.length : Int) s = (r, s2) ∧
      PutPost (cmpOf c) key upd s O P pre post
        (ph, frOf ((kk1 ++ xA) ++ cj :: postK), ph :: ixOf ((kk1 ++ xA) ++ cj :: postK))
        GA ((P1 ++ PxA).flatten ++ Pk ++ Ppost.flatten) GB (d + 1) 2 r s2 := by
  obtain ⟨q, kk2, hq⟩ : ∃ q kk2, xA ++ cj :: postK = q :: kk2 := by
    cases xA with
    | nil => exact ⟨cj, postK, rfl⟩
    | cons a t => exact ⟨a, t ++ cj :: postK, rfl⟩
  have e : (kk1 ++ xA) ++ cj :: postK = kk1 ++ q :: kk2 := by
    rw [List.append_assoc, hq]
  have eG : GA ++ ((P1 ++ PxA).flatten ++ Pk ++ Ppost.flatten) ++ GB =
      (GA ++ P1.flatten) ++ (PxA.flatten ++ Pk ++ Ppost.flatten) ++ GB := by
    simp only [List.flatten_append, List.append_assoc]
  have eG2 : (P1 ++ PxA).flatten ++ Pk ++ Ppost.flatten =
      P1.flatten ++ (PxA.flatten ++ Pk ++ Ppost.flatten) ++ [] := by
    simp only [List.flatten_append, List.append_assoc, List.append_nil]
  have hkl := h.kid_lt
  have hpageP := h.page
  have hL := h.leaves
  have hC := h.ctx
  have hkids := h.kids
  have hpage := h.hpage
  have hlowK := h.lowK
  have hk1 : kk1 ≠ [] := by
    intro e0
    rw [e0] at hl1
    simp at hl1
  rw [e] at hpageP hC hkids hpage hfind
  rw [eG] at hL hC
  rw [e, eG2]
  rw [List.flatten_append, keysG_append] at hlowK
  have hqne : q.2.1 ≠ [] := Idx_fr_ne _ _ _ _ _ _ _ (hkids q (by simp))
  have hPR : (PxA.flatten ++ Pk ++ Ppost.flatten).map Leaf.h = frOf (q :: kk2) := by
    rw [← hq]
    simp only [List.map_append, frOf_append, frOf_cons, hxA.frOf_eq, h.pk, h.ppost.frOf_eq,
      List.append_assoc]
  have hsep : q.2.1.headD 0 < 2 ^ 56 := by
    have := sep_le hC q (PxA.flatten ++ Pk ++ Ppost.flatten)
      (fun l hl => by
        simp only [List.mem_append] at hl ⊢
        tauto) hqne (fun a ha => by
      rw [hPR]
      exact frOf_mem _ q (by simp) a ha)
    omega
  obtain ⟨hne, hb⟩ := parent_ne_kid hC
  have hjk : j = kIndex + 1 + xA.length := by
    rw [← hj, List.length_append, hl1]
  have hrun := index_split_run s kk1 kk2 q ph root P pre post
    (ph, frOf (kk1 ++ q :: kk2), ph :: ixOf (kk1 ++ q :: kk2))
    (j : Int) _ hl1 (by rw [← hq]; exact hl2) hqne hsep hpage hpageP hne hb
  rw [if_pos (by omega)] at hrun
  have ej : (j : Int) - ((kIndex : Int) + 1) = (xA.length : Int) := by omega
  rw [ej] at hrun
  obtain ⟨s1, hs1⟩ : ∃ s1 : memBTreeStore, s1 = ⟨s.h + 1, mset (mset (mset s.m ph
      (encH (hsOf kk1))) (s.h + 1) (encH (hsOf (q :: kk2)))) P (encH (hsOf (pre ++
        (ph, frOf (kk1 ++ q :: kk2), ph :: ixOf (kk1 ++ q :: kk2)) ::
          (s.h + 1, frOf (q :: kk2), (s.h + 1) :: ixOf (q :: kk2)) :: post)))⟩ := ⟨_, rfl⟩
  rw [← hs1] at hrun
  obtain ⟨a1, a2, a3, a4, a5, a6, a7, a8⟩ :=
    index_split_sem hL hC hkids hk1 _ _ hpageP hpage s1 hs1
  have hh : s1.h = s.h + 1 := by rw [hs1]
  have hch : btreeIndexPage.child (encH (hsOf (q :: kk2))) (xA.length : Int) = .ok cj.1 := by
    rw [← hq]
    have := child_at (hsOf (xA ++ cj :: postK)) xA.length
      (by rw [hsOf_length_of _ (by simp)]; simp; omega)
      (by rw [hsOf_getD_child xA postK cj _ rfl]; exact hkl)
    rw [this, hsOf_getD_child xA postK cj _ rfl]
  rw [put2Loop_index_split root c key upd fuel ph P _ s _
    ((kk1 ++ q :: kk2).length - 1) (hsOf_length_of _ (by simp))
    (by
      rw [← hq] at *
      simp only [List.length_append, List.length_cons] at hl1 hl2 ⊢
      omega) hpage _ hfind _ _ _ _ hrun _ hch]
  have e2 : pre ++ (ph, frOf kk1, ph :: ixOf kk1) ::
      (s.h + 1, frOf (q :: kk2), (s.h + 1) :: ixOf (q :: kk2)) :: post =
      (pre ++ [(ph, frOf kk1, ph :: ixOf kk1)]) ++
        (s.h + 1, frOf (q :: kk2), (s.h + 1) :: ixOf (q :: kk2)) :: post := by simp
  rw [e2] at a1 a6
  have hkidsq : ∀ x ∈ q :: kk2, Idx s1.m (kIndex - 1) (2 * kIndex + 1) d x.1 x.2.1 x.2.2 :=
    fun x hx => a4 x (List.mem_append_right _ hx)
  rw [← hq] at a1 a3 a6 hkidsq ⊢
  have hsub : ∀ X : List Leaf, (∀ a ∈ ovs X, a ∈ ovs ((GA ++ P1.flatten) ++
      (PxA.flatten ++ Pk ++ Ppost.flatten) ++ GB)) →
      ∀ a ∈ ovs X, mget s1.m a = mget s.m a := fun X hX a ha => a8 a (hX a ha)
  have f1 := hsub (GA ++ P1.flatten) (fun a ha => by
    simp only [ovs_append, List.mem_append] at ha ⊢; tauto)
  have f2 := hsub PxA.flatten (fun a ha => by simp only [ovs_append, List.mem_append]; tauto)
  have f3 := hsub Pk (fun a ha => by simp only [ovs_append, List.mem_append]; tauto)
  have f4 := hsub Ppost.flatten (fun a ha => by simp only [ovs_append, List.mem_append]; tauto)
  have f5 := hsub GB (fun a ha => by simp only [ovs_append, List.mem_append]; tauto)
  obtain ⟨r, s2, hrun2, hpost⟩ := put_descend c root key upd fuel d IH a1 a5 a6
    (by
      rw [keysG_frame _ _ _ f1, keysG_append]
      intro b hb
      rcases List.mem_append.1 hb with h1 | h1
      · exact h.low b h1
      · exact hlowK b (List.mem_append_left _ h1))
    (by rw [keysG_frame _ _ _ f5]; exact h.high)
    a3 (by rw [hl2]; omega) (by rw [hl2]; omega) hkidsq hxA.frOf_eq h.pk h.ppost.frOf_eq
    (by
      rw [keysG_frame _ _ _ f2]
      exact fun b hb => hlowK b (List.mem_append_right _ hb))
    (by rw [keysG_frame _ _ _ f4]; exact h.highK)
    (by
      rw [minKey_frame _ _ _ f3]
      intro _
      refine h.min ?_
      intro e0
      exact hk1 (List.append_eq_nil.1 e0).1) (by omega)
  refine ⟨r, s2, hrun2, ?_⟩
  have hpost2 : PutPost (cmpOf c) key upd s1 O P (pre ++ [(ph, frOf kk1, ph :: ixOf kk1)])
      ([] ++ post)
      (s.h + 1, frOf (xA ++ cj :: postK), (s.h + 1) :: ixOf (xA ++ cj :: postK))
      (GA ++ P1.flatten) (PxA.flatten ++ Pk ++ Ppost.flatten) ([] ++ GB) (d + 1) 1 r s2 := hpost
  refine PutPost.unsplit hpost2 (by simp) ?_ ?_ rfl rfl ?_ ?_ a7 (by omega) ?_
  · intro x hx
    simp only [List.append_nil, List.mem_singleton] at hx
    subst hx
    refine ⟨kk1, a2, ?_, ?_, rfl, rfl, fun y hy => a4 y (List.mem_append_left _ hy)⟩
    · rw [hl1]; omega
    · rw [hl1]; omega
  · rw [hP1.frOf_eq]
    simp [frOf]
  · have hne1 : frOf kk1 ≠ [] := frOf_ne_nil s1.m d _ (by rw [hl1]; omega)
      (fun x hx => a4 x (List.mem_append_left _ hx))
    simp only [List.cons_append, List.nil_append, frOf_cons, frOf_append]
    rw [headD_append_ne _ _ hne1, headD_append_ne _ _ hne1]
  · exact frOf_ne_nil s1.m d _ (by rw [hl2]; omega) hkidsq
  · simp only [List.append_nil]
    refine kvs_congr _ _ _ (fun a ha => a8 a ?_)
    simp only [ovs_append, List.mem_append] at ha ⊢
    tauto

/-! ## put2: the loop under a parent page -/

theorem split_take {α : Type} (L : List α) (n : Nat) (hn : n < L.length) :
    ∃ A x B, L = A ++ x :: B ∧ A.length = n := by
  refine ⟨L.take n, L[n], L.drop (n + 1), ?_, ?_⟩
  · exact split_at L n hn
  · rw [List.length_take]
    omega

/-- `put2Loop` on an index page under a parent page, when `put2Loop` is known on the
level below. -/
theorem put_index_under (c : Option (Bytes → Bytes → Int)) (hc : TotalCmp (cmpOf c))
    (root : Nat) (key : Bytes) (upd : Updater) (fuel d : Nat)
    (IH : ∀ (s : memBTreeStore) (O : List Nat) (P : Nat) (pre post : List Kid) (k : Kid)
      (GA Gk GB : List Leaf) (Fa Fb : List Nat),
      PutPre (cmpOf c) key s O P pre post k GA Gk GB Fa Fb d → s.h + d + 3 < 2 ^ 56 →
      ∃ r s2, btree.put2Loop root c key upd fuel k.1 P (pre.length : Int) s = (r, s2) ∧
        PutPost (cmpOf c) key upd s O P pre post k GA Gk GB d 2 r s2)
    {s : memBTreeStore} {O : List Nat} {P : Nat} {pre post : List Kid} {k : Kid}
    {GA Gk GB : List Leaf} {Fa Fb : List Nat}
    (h : PutPre (cmpOf c) key s O P pre post k GA Gk GB Fa Fb (d + 1))
    (hs : s.h + d + 4 < 2 ^ 56) :
    ∃ r s2, btree.put2Loop root c key upd (fuel + 1) k.1 P (pre.length : Int) s = (r, s2) ∧
      PutPost (cmpOf c) key upd s O P pre post k GA Gk GB (d + 1) 2 r s2 := by
  obtain ⟨kids, parts, hpage, hkne, hc1, hc2, hGk, hParts, hI, hkids⟩ :=
    Idx_parts s.m d _ _ k.1 Gk k.2.2 (by rw [h.hk]; exact h.kid)
  have hF : k.2.1 = frOf kids := by rw [← h.hk, hGk, hParts.frOf_eq]
  obtain ⟨ph, kF, kI⟩ := k
  simp only at hI hF hpage
  subst hI hF hGk
  have hL := h.leaves
  have hC := h.ctx
  have hbG : ∀ l ∈ parts.flatten, l.h < 2 ^ 56 := by
    intro l hl
    have := (hC.bound _ (hC.mem_leaf l (by simp [hl]))).2
    omega
  obtain ⟨j, ok, hfind, preK, cj, postK, Ppre, Pk, Ppost, e1, e2, e3, e4, e5, hcase⟩ :=
    index_find c hc kids parts hParts hkne key s GA GB kData (by decide) hL hbG
  subst e1 e2
  rcases hcase with ⟨hok, hx, hy, hmin⟩ | ⟨hok, q, post2, Pq, Ppost2, e6, e7, e8, e9, he, hx, hy⟩
  · subst hok
    obtain ⟨Ppre2, Pk2, Ppost2, e6, e7, e8, hppre, hppost⟩ := hParts.split preK postK cj rfl
    obtain ⟨e9, e10⟩ := List.append_inj e6 (by omega)
    simp only [List.cons.injEq] at e10
    obtain ⟨e10, e11⟩ := e10
    subst e9 e10 e11
    have eGk : (Ppre ++ Pk :: Ppost).flatten = Ppre.flatten ++ Pk ++ Ppost.flatten := by simp
    rw [eGk] at hL hC ⊢
    have hat : PutAt (cmpOf c) key s O P pre post ph preK postK cj GA GB Ppre Pk Ppost d :=
      ⟨h.page, hL, hC, h.low, h.high, hpage, by omega, hkids, hppre, e5, hppost, hx, hy,
        fun hne => hmin (by
          intro e0
          rw [e0] at e3
          exact hne (List.length_eq_zero.1 e3)), by omega⟩
    by_cases hroom : (preK ++ cj :: postK).length ≤ 2 * kIndex + 1
    · obtain ⟨r, s2, w1, w2⟩ := put_at_room c root key upd fuel d IH hat hroom
        (pre.length : Int) j e3 hfind (by omega)
      exact ⟨r, s2, w1, w2.mono (by omega)⟩
    · have hfull : (preK ++ cj :: postK).length = 2 * kIndex + 2 := by omega
      simp only [List.length_append, List.length_cons] at hfull
      by_cases hjk : j ≤ kIndex
      · obtain ⟨xB, q, kk2, rfl, hl⟩ := split_take postK (kIndex - j) (by omega)
        obtain ⟨PxB, PR, rfl, hxB, hPR⟩ := Parts.of_append hppost
        simp only [List.length_append, List.length_cons] at hfull
        exact put_at_full_left c root key upd fuel d IH hat hxB hPR
          (by simp only [List.length_append, List.length_cons]; omega)
          (by simp only [List.length_cons]; omega) j e3 hfind hs
      · obtain ⟨kk1, x, xA, rfl, hl⟩ := split_take preK kIndex (by omega)
        have e0 : kk1 ++ x :: xA = (kk1 ++ [x]) ++ xA := by simp
        rw [e0] at hppre hat hfind e3 ⊢
        obtain ⟨P1, PxA, rfl, hP1, hxA⟩ := Parts.of_append hppre
        simp only [List.length_append, List.length_cons, List.length_nil] at hfull e3
        exact put_at_full_right c root key upd fuel d IH hat hP1 hxA
          (by simp only [List.length_append, List.length_cons, List.length_nil]; omega)
          (by simp only [List.length_append, List.length_cons]; omega) j
          (by simp only [List.length_append, List.length_cons, List.length_nil]; omega) hfind hs
  · subst hok e6 e7
    obtain ⟨dh, p, r, s2, G2, w1, w2, w3, w4, w5, w6, w7, w8, w9, w10⟩ :=
      index_found_flat c hc key upd s O _ _ _ GA GB kData (by decide) hL hC h.low (by omega)
        j preK post2 cj q Ppre Ppost2 Pk Pq rfl rfl e3 e8 e9 he hx
    rw [put2Loop_index_found root c key upd fuel ph P _ s _ hpage _ hfind dh w1 p w2]
    exact ⟨r, s2, w3, PutPost.flat (by omega) h.page h.kid h.hk r s2 G2 w4 w5 w6 w7 w8
      (by omega) w10⟩

/-- `put2Loop` on a page of a tree under its parent page: the key is put in the leaves
under the page, the page is still there or was split in two, and the rest of the tree is
untouched. -/
theorem put_under (c : Option (Bytes → Bytes → Int)) (hc : TotalCmp (cmpOf c))
    (root : Nat) (key : Bytes) (upd : Updater) :
    ∀ (d fuel : Nat) (s : memBTreeStore) (O : List Nat) (P : Nat) (pre post : List Kid)
      (k : Kid) (GA Gk GB : List Leaf) (Fa Fb : List Nat), d < fuel →
      PutPre (cmpOf c) key s O P pre post k GA Gk GB Fa Fb d → s.h + d + 3 < 2 ^ 56 →
      ∃ r s2, btree.put2Loop root c key upd fuel k.1 P (pre.length : Int) s = (r, s2) ∧
        PutPost (cmpOf c) key upd s O P pre post k GA Gk GB d 2 r s2
  | 0, fuel, s, O, P, pre, post, k, GA, Gk, GB, Fa, Fb, hf, h, hs => by
    obtain ⟨fuel, rfl⟩ : ∃ f, fuel = f + 1 := ⟨fuel - 1, by omega⟩
    exact put_leaf_under c hc root key upd fuel h (by omega)
  | d + 1, fuel, s, O, P, pre, post, k, GA, Gk, GB, Fa, Fb, hf, h, hs => by
    obtain ⟨fuel, rfl⟩ : ∃ f, fuel = f + 1 := ⟨fuel - 1, by omega⟩
    exact put_index_under c hc root key upd fuel d
      (fun s O P pre post k GA Gk GB Fa Fb h hs =>
        put_under c hc root key upd d fuel s O P pre post k GA Gk GB Fa Fb (by omega) h hs)
      h (by omega)

/-! ## put2: the split of the root leaf -/

theorem h2b_zeros (h : Nat) : h2b (zeros 7) h = .ok (h2bBytes h) := by
  rw [h2b_eq _ _ (by decide)]
  simp [zeros]

/-- The run of `split` on a full leaf that is the root of the tree: the upper half of
the items moves to the new leaf `s.h + 1`, the new index page `s.h + 2` has the two
leaves as children and becomes the root. -/
theorem split_root_run (s : memBTreeStore) (SA SB : List Slot) (ph root : Nat)
    (key value : Bytes) (hS : SlotsLen (SA ++ SB)) (hlen : (SA ++ SB).length = 2 * kData)
    (hph : (mget s.m ph).isSome = true) (hroot : (mget s.m root).isSome = true)
    (hb : ph ≤ s.h ∧ root ≤ s.h) (hne : root ≠ ph) (hs : s.h + 4 < 2 ^ 56) :
    ∃ (s2 : memBTreeStore) (x : Slot) (L R : List Slot),
      btreeDataPage.split (encD 0 0 (SA ++ SB)) root ph 0 (-1) (SA.length : Int) key value s =
        (.ok (), s2) ∧
      L ++ R = SA ++ x :: SB ∧
      kData ≤ L.length ∧ L.length ≤ kData + 1 ∧ kData ≤ R.length ∧ R.length ≤ kData + 1 ∧
      mget s2.m ph = some (encD 0 (s.h + 1) L) ∧
      mget s2.m (s.h + 1) = some (encD ph 0 R) ∧
      mget s2.m (s.h + 2) = some (encH [ph, s.h + 1, s.h + 1]) ∧
      mget s2.m root = some (h2bBytes (s.h + 2)) ∧
      (∀ a, a ≤ s.h → a ≠ ph → a ≠ root → mget s2.m a = mget s.m a) ∧
      s.h + 2 ≤ s2.h ∧ s2.h ≤ s.h + 4 ∧
      FieldOk s2.m x.1 ∧ FieldOk s2.m x.2 ∧ fieldVal s2.m x.1 = key ∧
      fieldVal s2.m x.2 = value ∧
      (ovF x.1 ++ ovF x.2).Nodup ∧ (∀ a ∈ ovF x.1 ++ ovF x.2, s.h + 2 < a ∧ a ≤ s2.h) ∧
      (∀ a, (mget s2.m a).isSome = true →
        (mget s.m a).isSome = true ∨ a = s.h + 1 ∨ a = s.h + 2 ∨ a ∈ ovF x.1 ++ ovF x.2) := by
  have hT : SlotsLen ((SA ++ SB).take kData) := SlotsLen_take hS _
  have hD : SlotsLen ((SA ++ SB).drop kData) := SlotsLen_drop hS _
  have hlT : ((SA ++ SB).take kData).length = kData := by
    rw [List.length_take, hlen]
    omega
  have hlD : ((SA ++ SB).drop kData).length = kData := by
    rw [List.length_drop, hlen]
    omega
  obtain ⟨hp1, hp2, hp3⟩ := split_pages 0 0 ph (s.h + 1) _ _ hT hD hlT hlD
  rw [List.take_append_drop] at hp2 hp3
  obtain ⟨b0, hroot0⟩ := Option.isSome_iff_exists.1 hroot
  -- the store after the new root was written
  obtain ⟨s3, hs3⟩ : ∃ s3 : memBTreeStore, s3 = ⟨s.h + 2, mset (mset (mset s.m (s.h + 1)
      (encD 0 0 [])) (s.h + 2) (encH [ph, s.h + 1, s.h + 1])) root (h2bBytes (s.h + 2))⟩ :=
    ⟨_, rfl⟩
  have hg3 : mget (mset (mset s.m (s.h + 1) (encD 0 0 [])) (s.h + 2)
      (encH [ph, s.h + 1, s.h + 1])) root = some b0 := by
    rw [mget_mset, if_neg (by omega), mget_mset, if_neg (by omega)]
    exact hroot0
  have h3h : s3.h = s.h + 2 := by rw [hs3]
  have h3 : ∀ a, mget s3.m a = if root = a then some (h2bBytes (s.h + 2))
      else if s.h + 2 = a then some (encH [ph, s.h + 1, s.h + 1])
      else if s.h + 1 = a then some (encD 0 0 []) else mget s.m a := by
    intro a
    rw [hs3]
    simp only [mget_mset]
  obtain ⟨L, R, hLR, hl1, hl2, hl3, hl4, hins⟩ := split_insert 0 0 ph (s.h + 1) SA SB hS hlen
    key value s3
  obtain ⟨n1, n2, n3, n4, n5, n6, n7, n8, n9, n10⟩ := newItem_facts s3 key value (by omega)
  generalize hs4 : (newItem s3 key value).2 = s4 at hins n1 n2 n3 n4 n6 n7 n8 n9 n10
  generalize hx : (newItem s3 key value).1 = x at hins hLR n4 n5 n6 n7 n8 n9 n10
  have g1 : (mget s4.m ph).isSome = true := by
    rw [n3 ph (by omega), h3, if_neg hne, if_neg (by omega), if_neg (by omega)]
    exact hph
  have g2 : (mget (mset s4.m ph (encD 0 (s.h + 1) L)) (s.h + 1)).isSome = true := by
    rw [mget_mset, if_neg (by omega), n3 _ (by omega), h3, if_neg (by omega),
      if_neg (by omega), if_pos rfl]
    rfl
  obtain ⟨b1, g1⟩ := Option.isSome_iff_exists.1 g1
  obtain ⟨b2, g2⟩ := Option.isSome_iff_exists.1 g2
  have hins3 : btreeIndexPage.insert3 (encH [ph]) 0 (s.h + 1) (s.h + 1) =
      .ok (encH [ph, s.h + 1, s.h + 1]) :=
    insert3_encH [ph] [] 0 0 rfl rfl rfl (s.h + 1) (s.h + 1)
  refine ⟨⟨s4.h, mset (mset s4.m ph (encD 0 (s.h + 1) L)) (s.h + 1) (encD ph 0 R)⟩, x, L, R,
    ?_, hLR, hl1, hl2, hl3, hl4, ?_, ?_, ?_, ?_, ?_, ?_, ?_, ?_, ?_, ?_, ?_, n5, ?_, ?_⟩
  · unfold btreeDataPage.split
    refine (M_bind_ok _ _ _ _ _ (newBTreeDataPageAlloc_eq s)).trans ?_
    dsimp only
    refine (M_bind_ok _ _ _ _ 0 (by rw [M_liftM, next_encD _ _ _ (by omega)])).trans ?_
    have hn0 : ¬ ((-1 : Int) ≥ 0) := by omega
    simp only [ne_eq, not_true_eq_false, if_false, M_bind, M_liftM, M_pure, setNext_encD,
      setPrev_encD, hp1, hp2, hp3, hn0, newBTreeIndexPage_eq, hins3, memBTreeStore.Alloc,
      h2b_zeros,
      Realloc_ok ⟨s.h + 1 + 1, mset (mset s.m (s.h + 1) (encD 0 0 [])) (s.h + 1 + 1)
        (encH [ph, s.h + 1, s.h + 1])⟩ root _ _ hg3]
    rw [← hs3]
    simp only [M_bind, M_liftM, M_pure, hins, Realloc_ok s4 ph _ _ g1,
      Realloc_ok ⟨s4.h, mset s4.m ph (encD 0 (s.h + 1) L)⟩ (s.h + 1) _ _ g2]
  · show mget (mset (mset s4.m ph _) (s.h + 1) _) ph = _
    rw [mget_mset, if_neg (by omega), mget_mset, if_pos rfl]
  · show mget (mset (mset s4.m ph _) (s.h + 1) _) (s.h + 1) = _
    rw [mget_mset, if_pos rfl]
  · show mget (mset (mset s4.m ph _) (s.h + 1) _) (s.h + 2) = _
    rw [mget_mset, if_neg (by omega), mget_mset, if_neg (by omega), n3 _ (by omega), h3,
      if_neg (by omega), if_pos rfl]
  · show mget (mset (mset s4.m ph _) (s.h + 1) _) root = _
    rw [mget_mset, if_neg (by omega), mget_mset, if_neg (fun e => hne e.symm),
      n3 _ (by omega), h3, if_pos rfl]
  · intro a ha h1 h2
    show mget (mset (mset s4.m ph _) (s.h + 1) _) a = _
    rw [mget_mset, if_neg (by omega), mget_mset, if_neg (fun e => h1 e.symm),
      n3 a (by omega), h3, if_neg (fun e => h2 e.symm), if_neg (by omega), if_neg (by omega)]
  · show s.h + 2 ≤ s4.h
    omega
  · show s4.h ≤ s.h + 4
    omega
  · refine FieldOk_congr s4.m _ _ (fun h0 => ?_) n7
    have := n6 _ (List.mem_append_left _ ((mem_ovF _ _).2 ⟨rfl, h0⟩))
    show mget (mset (mset s4.m ph _) (s.h + 1) _) _ = _
    rw [mget_mset, if_neg (by omega), mget_mset, if_neg (by omega)]
  · refine FieldOk_congr s4.m _ _ (fun h0 => ?_) n8
    have := n6 _ (List.mem_append_right _ ((mem_ovF _ _).2 ⟨rfl, h0⟩))
    show mget (mset (mset s4.m ph _) (s.h + 1) _) _ = _
    rw [mget_mset, if_neg (by omega), mget_mset, if_neg (by omega)]
  · rw [← n9]
    refine fieldVal_congr s4.m _ _ (fun h0 => ?_)
    have := n6 _ (List.mem_append_left _ ((mem_ovF _ _).2 ⟨rfl, h0⟩))
    show mget (mset (mset s4.m ph _) (s.h + 1) _) _ = _
    rw [mget_mset, if_neg (by omega), mget_mset, if_neg (by omega)]
  · rw [← n10]
    refine fieldVal_congr s4.m _ _ (fun h0 => ?_)
    have := n6 _ (List.mem_append_right _ ((mem_ovF _ _).2 ⟨rfl, h0⟩))
    show mget (mset (mset s4.m ph _) (s.h + 1) _) _ = _
    rw [mget_mset, if_neg (by omega), mget_mset, if_neg (by omega)]
  · intro a ha
    have := n6 a ha
    exact ⟨by omega, this.2⟩
  · intro a ha
    change (mget (mset (mset s4.m ph _) (s.h + 1) _) a).isSome = true at ha
    by_cases e1 : a = s.h + 1
    · exact Or.inr (Or.inl e1)
    · by_cases e2 : a = ph
      · subst e2
        exact Or.inl hph
      · rw [mget_mset, if_neg (fun e => e1 e.symm), mget_mset, if_neg (fun e => e2 e.symm)] at ha
        rcases n4 a ha with h | h
        · rw [h3] at h
          by_cases e3 : a = root
          · subst e3
            exact Or.inl hroot
          · rw [if_neg (fun e => e3 e.symm)] at h
            by_cases e4 : a = s.h + 2
            · exact Or.inr (Or.inr (Or.inl e4))
            · rw [if_neg (fun e => e4 e.symm), if_neg (fun e => e1 e.symm)] at h
              exact Or.inl h
        · exact Or.inr (Or.inr (Or.inr h))

/-! ## put2: the tree after the split of the root leaf -/

theorem LeavesOk.raise {m : Blobs} {c : Bytes → Bytes → Int} {lo lo2 : Nat} {G : List Leaf}
    (h : LeavesOk m c lo G) (h2 : ∀ l ∈ G, lo2 ≤ l.S.length) : LeavesOk m c lo2 G :=
  ⟨h.chain, h.fields, h.sorted, fun l hl => ⟨h2 l hl, (h.occ l hl).2⟩⟩

/-- `split` on a full leaf that is the root of the tree: the tree has one index level
more, the new root has two leaves. -/
theorem split_root (c : Bytes → Bytes → Int) (lo : Nat) (l : Leaf) (SA SB : List Slot)
    (key value : Bytes) (s : memBTreeStore) (root : Nat)
    (hL : LeavesOk s.m c lo [l]) (hC : Ctx s [root] [] [l])
    (hroot : (mget s.m root).isSome = true)
    (hlo : lo ≤ kData) (hS : l.S = SA ++ SB) (hfull : l.S.length = 2 * kData)
    (hlow : ∀ k ∈ keysOf s.m SA, c k key < 0)
    (hhigh : ∀ k ∈ keysOf s.m SB, c key k < 0)
    (hs : s.h + 4 < 2 ^ 56) :
    ∃ (s2 : memBTreeStore) (L R : List Slot),
      btreeDataPage.split (encD 0 0 l.S) root l.h 0 (-1) (SA.length : Int) key value s =
        (.ok (), s2) ∧
      TreeOk s2 root c 1 (s.h + 2) [s.h + 2] [(⟨l.h, L⟩ : Leaf), (⟨s.h + 1, R⟩ : Leaf)] ∧
      s.h ≤ s2.h ∧ s2.h ≤ s.h + 4 ∧
      kvs s2.m [(⟨l.h, L⟩ : Leaf), (⟨s.h + 1, R⟩ : Leaf)] =
        SA.map (slotKV s.m) ++ (key, value) :: SB.map (slotKV s.m) := by
  have hlG : l ∈ ([] : List Leaf) ++ l :: [] := by simp
  have hpage : mget s.m l.h = some (encD 0 0 l.S) := Chain_mid s.m 0 0 [] [] l hL.chain
  have hfl : FieldsOk s.m l.S := hL.fields l (by simp)
  have hbl := hC.bound _ (hC.mem_leaf l (by simp))
  have hbr := hC.bound _ (hC.mem_index root (by simp))
  have hrl : root ≠ l.h := hC.index_ne_leaf root (by simp) l (by simp)
  rw [hS] at hfl hfull
  obtain ⟨s2, x, L, R, hrun, hLR, hl1, hl2, hl3, hl4, hp1, hp2, hp3, hp4, hold, hh1, hh2, hfk,
    hfv, hvk, hvv, hnd, hfresh, hlive⟩ :=
    split_root_run s SA SB l.h root key value hfl.slotsLen hfull (by rw [hpage]; rfl) hroot
      ⟨hbl.2, hbr.2⟩ hrl hs
  have hrhx : s.h + 1 ∉ ovF x.1 ++ ovF x.2 := fun h => by
    have := (hfresh _ h).1
    omega
  have hrhx2 : s.h + 2 ∉ ovF x.1 ++ ovF x.2 := fun h => by
    have := (hfresh _ h).1
    omega
  have hsem := split_sem c lo [root] [] [root] [s.h + 2] [] [] l (s.h + 1) L R SA SB x key value
    s s2 hL hC hlo hS hLR hl1 hl2 hl3 hl4
    (by simpa [slots_nil] using hlow) (by simpa [slots_nil] using hhigh) hp1 hp2
    (fun nxt B2 hB => by cases hB)
    (fun a ha h1 _ h3 => hold a ha h1 (by simpa using h3))
    (fun z hz => by simpa using hz)
    (by omega) hfk hfv hvk hvv
    (by
      rw [List.nodup_append]
      refine ⟨List.nodup_cons.2 ⟨hrhx, hnd⟩, by simp, ?_⟩
      intro a ha hb
      simp only [List.mem_singleton] at hb
      subst hb
      simp only [List.mem_cons] at ha
      rcases ha with h | h
      · omega
      · exact hrhx2 h)
    (by
      intro k hk
      rcases List.mem_append.1 hk with h | h
      · rcases List.mem_cons.1 h with h | h
        · omega
        · have := hfresh k h
          omega
      · have := List.mem_singleton.1 h
        omega)
    (by
      intro k hk
      rcases hlive k hk with h | h | h | h
      · exact Or.inl h
      · exact Or.inr (by simp [h])
      · exact Or.inr (by simp [h])
      · right
        simp only [List.cons_append, List.mem_cons, List.mem_append, List.mem_singleton]
        rcases List.mem_append.1 h with h | h
        · exact Or.inr (Or.inl (Or.inl h))
        · exact Or.inr (Or.inl (Or.inr h)))
  obtain ⟨q1, q2, q3, q4⟩ := hsem
  simp only [List.nil_append] at q1 q2 q4
  refine ⟨s2, L, R, by rw [hS]; exact hrun, ⟨hp4, ?_, ?_, ?_, by omega⟩, by omega, hh2, ?_⟩
  · refine ⟨[(l.h, [l.h], []), (s.h + 1, [s.h + 1], [])], ?_, by simp, by simp, by simp [frOf],
      by simp [ixOf], ?_⟩
    · rw [hp3]
      rfl
    · intro k hk
      simp only [List.mem_cons, List.mem_singleton, List.not_mem_nil, or_false] at hk
      rcases hk with h | h <;> subst h <;> simp [Idx]
  · refine q1.raise (fun a ha => ?_)
    simp only [List.mem_cons, List.mem_singleton, List.not_mem_nil, or_false] at ha
    rcases ha with h | h <;> subst h <;> simpa using (by omega)
  · have e : handles [root] [s.h + 2] [(⟨l.h, L⟩ : Leaf), (⟨s.h + 1, R⟩ : Leaf)] =
        handles [root] [] [(⟨l.h, L⟩ : Leaf), (⟨s.h + 1, R⟩ : Leaf)] +
          (([s.h + 2] : List Nat) : Multiset Nat) := by
      simp only [handles, ← Multiset.coe_add, ← Multiset.cons_coe, ← Multiset.singleton_add,
        Multiset.coe_nil]
      abel
    show CtxM s2 _
    rw [e]
    exact q2
  · rw [q4]
    simp [slots_nil]

/-! ## put2: the loop on the root leaf -/

theorem checkSiblings_root (s : memBTreeStore) : checkSiblings 0 (-1) s = (.ok (0, 0), s) := by
  have hn0 : ¬ ((-1 : Int) ≥ 0) := by omega
  simp only [checkSiblings, hn0, if_false, M_pure]

/-- `put2Loop` on a tree that is one leaf. -/
theorem put_root_leaf (c : Option (Bytes → Bytes → Int)) (hc : TotalCmp (cmpOf c))
    (root : Nat) (key : Bytes) (upd : Updater) (fuel : Nat) {s : memBTreeStore} {iroot : Nat}
    {I : List Nat} {G : List Leaf} (ht : TreeOk s root (cmpOf c) 0 iroot I G)
    (hs : s.h + 4 < 2 ^ 56) :
    ∃ r s2 d2 iroot2 I2 G2,
      btree.put2Loop root c key upd (fuel + 1) iroot 0 (-1) s = (r, s2) ∧
      TreeOk s2 root (cmpOf c) d2 iroot2 I2 G2 ∧
      PutSpec (cmpOf c) (kvs s.m G) (kvs s2.m G2) key upd r ∧ s.h ≤ s2.h ∧ s2.h ≤ s.h + 4 := by
  have hidx := ht.idx
  simp only [Idx] at hidx
  obtain ⟨l, hl, hlh⟩ := map_h_singleton G iroot hidx.1
  obtain ⟨-, hI⟩ := hidx
  subst hl hI hlh
  have hL : LeavesOk s.m (cmpOf c) 1 [l] := by simpa using ht.leaves
  have hC := ht.ctx
  have hpage : mget s.m l.h = some (encD 0 0 l.S) := Chain_mid s.m 0 0 [] [] l hL.chain
  have hS : FieldsOk s.m l.S := hL.fields l (by simp)
  have hsorted := hL.sorted
  change (keysG s.m [l]).Pairwise _ at hsorted
  rw [keysG_cons, keysG_nil, List.append_nil] at hsorted
  obtain ⟨j, ok, hf, A, B, hA, hlt, hgt, hcase⟩ := leaf_find c hc 0 0 l.S key s hS hsorted
  rw [put2Loop_leaf root c key upd fuel l.h 0 _ s _ _ l.S hS.slotsLen hpage j ok hf]
  subst hA
  have hrootS : (mget s.m root).isSome = true := by rw [ht.hroot]; rfl
  rcases hcase with ⟨hok, x, hx, he⟩ | ⟨hok, hx⟩
  · subst hok
    rw [if_pos rfl]
    obtain ⟨r, s2, l2, w1, w2, w3, w4, w5, w6, w7, w8⟩ :=
      put_found_flat hc upd [root] [] [] [] l 1 hL hC A B x hx (by intro a ha; cases ha) hlt he
        (by omega)
    refine ⟨r, s2, 0, l.h, [], [l2], w1, ⟨?_, ?_, by simpa using w3, w4, by omega⟩, w8, w6,
      by omega⟩
    · rw [w5 root (by simp)]
      exact ht.hroot
    · simp [Idx, w2]
  · subst hok
    rw [if_neg (by simp)]
    have hK := kvs_cut s.m [] [] l A B hx
    simp only [List.nil_append, slots_nil, List.append_nil] at hK
    have hlowX : ∀ a ∈ A.map (slotKV s.m), cmpOf c a.1 key < 0 := by
      intro a ha
      obtain ⟨y, hy, rfl⟩ := List.mem_map.1 ha
      exact hlt y hy
    have hhighX : ∀ b ∈ B.map (slotKV s.m), cmpOf c key b.1 < 0 := by
      intro a ha
      obtain ⟨y, hy, rfl⟩ := List.mem_map.1 ha
      exact hgt y hy
    have hlow : ∀ k ∈ keysOf s.m A, cmpOf c k key < 0 := by
      intro a ha
      obtain ⟨y, hy, rfl⟩ := List.mem_map.1 ha
      exact hlt y hy
    have hhigh : ∀ k ∈ keysOf s.m B, cmpOf c key k < 0 := by
      intro a ha
      obtain ⟨y, hy, rfl⟩ := List.mem_map.1 ha
      exact hgt y hy
    cases hu : upd key none with
    | error e =>
      refine ⟨_, _, 0, l.h, [], [l], rfl, ht, ?_, Nat.le_refl _, by omega⟩
      rw [hK]
      exact PutSpec.absent_err hc _ _ key upd e hlowX hhighX hu
    | ok vw =>
      obtain ⟨value, w⟩ := vw
      cases w with
      | false =>
        refine ⟨_, _, 0, l.h, [], [l], rfl, ht, ?_, Nat.le_refl _, by omega⟩
        rw [hK]
        exact PutSpec.absent_skip hc _ _ key value upd hlowX hhighX hu
      | true =>
        simp only [if_true]
        have hspec := PutSpec.absent_write hc _ _ key value upd hlowX hhighX hu
        rw [← hK] at hspec
        obtain ⟨lh, lS⟩ := l
        simp only at hx
        subst hx
        by_cases hlen : (A ++ B).length < 2 * kData
        · rw [if_pos hlen]
          obtain ⟨s2, x, w1, w2, w3, w4, w5, w6, w7, w8⟩ :=
            leaf_insert (cmpOf c) 1 [root] [] [] [] lh A B key value s hL hC hlen
              (by simpa [slots_nil] using hlow) (by simpa [slots_nil] using hhigh) (by omega)
          simp only [List.nil_append, lastH, headH] at w1 w2 w3 w4 w8
          refine ⟨.ok (none, true, [(key, none)]), s2, 0, lh, [], [⟨lh, A ++ x :: B⟩], ?_,
            ⟨?_, ?_, by simpa using w3, w4,
            by omega⟩, ?_, w6, by omega⟩
          · simp only [M_bind, M_pure, w1, w2]
          · rw [w5 root (by simp)]
            exact ht.hroot
          · simp [Idx]
          · rw [w8]
            simpa [slots_nil] using hspec
        · rw [if_neg hlen]
          have hfull : (A ++ B).length = 2 * kData := by
            have := (hL.occ ⟨lh, A ++ B⟩ (by simp)).2
            simp only at this
            omega
          obtain ⟨s2, L, R, w1, w2, w3, w4, w5⟩ := split_root (cmpOf c) 1 ⟨lh, A ++ B⟩ A B key
            value s root hL hC hrootS (by decide) rfl hfull hlow hhigh hs
          refine ⟨.ok (none, true, [(key, none)]), s2, 1, s.h + 2, [s.h + 2], _, ?_, w2, ?_, w3,
            w4⟩
          · simp only [M_bind]
            rw [overflow_to_split _ root lh 0 _ _ key value s 0 0 (checkSiblings_root s)
              (Or.inl rfl) (Or.inl rfl)]
            simp only [M_pure, w1]
          · rw [w5]
            exact hspec

/-! ## put2: the split of the root index page -/

/-- The run of `split` on a root index page of `2 * kIndex + 2` children: the upper half
of the children moves to the new page `s.h + 1`, and the new index page `s.h + 2`, whose
children are the two halves, becomes the root. -/
theorem index_split_root_run (s : memBTreeStore) (kk1 kk2 : List Kid) (q : Kid)
    (ph root : Nat) (j : Int) (b0 b1 : Bytes)
    (hl1 : kk1.length = kIndex + 1) (hl2 : (q :: kk2).length = kIndex + 1)
    (hq : q.2.1 ≠ []) (hsep : q.2.1.headD 0 < 2 ^ 56)
    (hph : mget s.m ph = some b0) (hroot : mget s.m root = some b1) (hb : root ≤ s.h)
    (hne : root ≠ ph) :
    btreeIndexPage.split (encH (hsOf (kk1 ++ q :: kk2))) root ph 0 (-1) j s =
      (.ok (if j > (kIndex : Int) then (encH (hsOf (q :: kk2)), s.h + 1, j - ((kIndex : Int) + 1))
          else (encH (hsOf kk1), ph, j)),
        ⟨s.h + 2, mset (mset (mset (mset s.m ph (encH (hsOf kk1))) (s.h + 1)
          (encH (hsOf (q :: kk2)))) (s.h + 2)
          (encH (hsOf [(ph, frOf kk1, ph :: ixOf kk1),
            (s.h + 1, frOf (q :: kk2), (s.h + 1) :: ixOf (q :: kk2))]))) root
          (h2bBytes (s.h + 2))⟩) := by
  have hk1 : kk1 ≠ [] := by
    intro e
    rw [e] at hl1
    simp at hl1
  have hH1 : (hsOf kk1).length = 2 * kIndex + 1 := by
    rw [hsOf_length_cons kk1 hk1, hl1]
    omega
  have hH2 : (hsOf (q :: kk2)).length = 2 * kIndex + 1 := by
    rw [hsOf_length_cons _ (by simp), hl2]
    omega
  obtain ⟨p1, p2, p3, p4, p5⟩ := indexSplit_pages (hsOf kk1) (hsOf (q :: kk2))
    (q.2.1.headD 0) hH1 hH2 hsep
  rw [← hsOf_cut kk1 kk2 q hk1] at p2 p4 p5
  have hfr : (frOf (q :: kk2)).headD 0 = q.2.1.headD 0 := by
    rw [frOf_cons]
    cases hq1 : q.2.1 with
    | nil => exact absurd hq1 hq
    | cons a t => rfl
  have hins : btreeIndexPage.insert3 (encH [ph]) 0 (q.2.1.headD 0) (s.h + 1) =
      .ok (encH (hsOf [(ph, frOf kk1, ph :: ixOf kk1),
        (s.h + 1, frOf (q :: kk2), (s.h + 1) :: ixOf (q :: kk2))])) := by
    rw [show hsOf [(ph, frOf kk1, ph :: ixOf kk1),
        (s.h + 1, frOf (q :: kk2), (s.h + 1) :: ixOf (q :: kk2))] =
        [ph, (frOf (q :: kk2)).headD 0, s.h + 1] from rfl, hfr]
    exact insert3_encH [ph] [] 0 0 rfl rfl rfl (q.2.1.headD 0) (s.h + 1)
  have hg : mget (mset (mset (mset s.m ph (encH (hsOf kk1))) (s.h + 1)
      (encH (hsOf (q :: kk2)))) (s.h + 1 + 1)
      (encH (hsOf [(ph, frOf kk1, ph :: ixOf kk1),
        (s.h + 1, frOf (q :: kk2), (s.h + 1) :: ixOf (q :: kk2))]))) root = some b1 := by
    rw [mget_mset, if_neg (by omega), mget_mset, if_neg (by omega), mget_mset,
      if_neg (fun h => hne h.symm)]
    exact hroot
  have hn0 : ¬ ((-1 : Int) ≥ 0) := by omega
  by_cases hj : j > (kIndex : Int)
  · simp only [btreeIndexPage.split, M_bind, M_liftM, M_monadLift, M_pure, newBTreeIndexPage_eq,
      p1, p2, p3, p4, p5, Realloc_ok s ph _ _ hph, memBTreeStore.Alloc, hn0, if_false, if_true,
      hins, h2b_zeros,
      Realloc_ok ⟨s.h + 1 + 1, mset (mset (mset s.m ph (encH (hsOf kk1))) (s.h + 1)
        (encH (hsOf (q :: kk2)))) (s.h + 1 + 1)
        (encH (hsOf [(ph, frOf kk1, ph :: ixOf kk1),
          (s.h + 1, frOf (q :: kk2), (s.h + 1) :: ixOf (q :: kk2))]))⟩ root _ _ hg, hj]
  · simp only [btreeIndexPage.split, M_bind, M_liftM, M_monadLift, M_pure, newBTreeIndexPage_eq,
      p1, p2, p3, p4, p5, Realloc_ok s ph _ _ hph, memBTreeStore.Alloc, hn0, if_false, if_true,
      hins, h2b_zeros,
      Realloc_ok ⟨s.h + 1 + 1, mset (mset (mset s.m ph (encH (hsOf kk1))) (s.h + 1)
        (encH (hsOf (q :: kk2)))) (s.h + 1 + 1)
        (encH (hsOf [(ph, frOf kk1, ph :: ixOf kk1),
          (s.h + 1, frOf (q :: kk2), (s.h + 1) :: ixOf (q :: kk2))]))⟩ root _ _ hg, hj]

/-- The tree after the split of the root index page `ph`: the two halves are the children
of the new root, the leaves are untouched. -/
theorem index_split_root_sem {c : Bytes → Bytes → Int} {lo : Nat} {s : memBTreeStore}
    {root ph : Nat} {kk1 kk2 : List Kid} {q : Kid} {G : List Leaf} {d : Nat}
    (hL : LeavesOk s.m c lo G)
    (hC : Ctx s [root] (ph :: ixOf (kk1 ++ q :: kk2)) G)
    (hkids : ∀ x ∈ kk1 ++ q :: kk2, Idx s.m (kIndex - 1) (2 * kIndex + 1) d x.1 x.2.1 x.2.2)
    (b0 b1 : Bytes) (hroot : mget s.m root = some b0) (hph : mget s.m ph = some b1)
    (s1 : memBTreeStore)
    (hs1 : s1 = ⟨s.h + 2, mset (mset (mset (mset s.m ph (encH (hsOf kk1))) (s.h + 1)
      (encH (hsOf (q :: kk2)))) (s.h + 2)
      (encH (hsOf [(ph, frOf kk1, ph :: ixOf kk1),
        (s.h + 1, frOf (q :: kk2), (s.h + 1) :: ixOf (q :: kk2))]))) root
      (h2bBytes (s.h + 2))⟩) :
    mget s1.m (s.h + 2) = some (encH (hsOf [(ph, frOf kk1, ph :: ixOf kk1),
      (s.h + 1, frOf (q :: kk2), (s.h + 1) :: ixOf (q :: kk2))])) ∧
    mget s1.m ph = some (encH (hsOf kk1)) ∧
    mget s1.m (s.h + 1) = some (encH (hsOf (q :: kk2))) ∧
    mget s1.m root = some (h2bBytes (s.h + 2)) ∧
    (∀ x ∈ kk1 ++ q :: kk2, Idx s1.m (kIndex - 1) (2 * kIndex + 1) d x.1 x.2.1 x.2.2) ∧
    LeavesOk s1.m c lo G ∧
    Ctx s1 [root] ((s.h + 2) :: ixOf [(ph, frOf kk1, ph :: ixOf kk1),
      (s.h + 1, frOf (q :: kk2), (s.h + 1) :: ixOf (q :: kk2))]) G ∧
    (∀ a ∈ ovs G, mget s1.m a = mget s.m a) := by
  have hnd := hC.index_nodup
  have hnd2 : ph ∉ ixOf (kk1 ++ q :: kk2) := (List.nodup_cons.1 hnd).1
  have hri : root ∈ [root] ++ ph :: ixOf (kk1 ++ q :: kk2) := by simp
  have hphi : ph ∈ [root] ++ ph :: ixOf (kk1 ++ q :: kk2) := by simp
  have hbr := hC.bound _ (hC.mem_index root hri)
  have hbph := hC.bound _ (hC.mem_index ph hphi)
  have hrph : root ≠ ph := hC.other_ne_index root (by simp) ph (by simp)
  have hfr : ∀ a, a ≠ ph → a ≠ s.h + 1 → a ≠ s.h + 2 → a ≠ root →
      mget s1.m a = mget s.m a := by
    intro a h1 h2 h3 h4
    subst hs1
    simp only [mget_mset]
    rw [if_neg (Ne.symm h4), if_neg (Ne.symm h3), if_neg (Ne.symm h2), if_neg (Ne.symm h1)]
  have hle : ∀ a ∈ handles [root] (ph :: ixOf (kk1 ++ q :: kk2)) G, a ≤ s.h :=
    fun a ha => (hC.bound a ha).2
  have hix : ∀ a ∈ ixOf (kk1 ++ q :: kk2), a ≠ ph ∧ a ≠ s.h + 1 ∧ a ≠ s.h + 2 ∧ a ≠ root := by
    intro a ha
    have h1 := hle a ((mem_handles _ _ _ _).2 (Or.inr (Or.inl (List.mem_cons_of_mem _ ha))))
    refine ⟨fun h => hnd2 (h ▸ ha), by omega, by omega, ?_⟩
    exact (hC.other_ne_index root (by simp) a (List.mem_cons_of_mem _ ha)).symm
  have hlf : ∀ l ∈ G, l.h ≠ ph ∧ l.h ≠ s.h + 1 ∧ l.h ≠ s.h + 2 ∧ l.h ≠ root := fun l hl => by
    have h1 := hle _ (hC.mem_leaf l hl)
    exact ⟨(hC.index_ne_leaf ph hphi l hl).symm, by omega, by omega,
      (hC.index_ne_leaf root hri l hl).symm⟩
  have hov : ∀ a ∈ ovs G, a ≠ ph ∧ a ≠ s.h + 1 ∧ a ≠ s.h + 2 ∧ a ≠ root := fun a ha => by
    have h1 := hle _ (hC.mem_ov a ha)
    exact ⟨(hC.index_ne_ov ph hphi a ha).symm, by omega, by omega,
      (hC.index_ne_ov root hri a ha).symm⟩
  refine ⟨?_, ?_, ?_, ?_, ?_, ?_, ?_, ?_⟩
  · subst hs1
    simp only [mget_mset]
    rw [if_neg (by omega), if_pos trivial]
  · subst hs1
    simp only [mget_mset]
    rw [if_neg hrph, if_neg (by omega), if_neg (by omega), if_pos trivial]
  · subst hs1
    simp only [mget_mset]
    rw [if_neg (by omega), if_neg (by omega), if_pos trivial]
  · subst hs1
    simp only [mget_mset, if_true]
  · intro x hx
    refine Idx_congr s.m s1.m _ _ _ _ _ _ (fun a ha => ?_) (hkids x hx)
    have := hix a (ixOf_mem _ x hx a ha)
    exact hfr a this.1 this.2.1 this.2.2.1 this.2.2.2
  · exact hL.frame s1.m
      (fun l hl => hfr _ (hlf l hl).1 (hlf l hl).2.1 (hlf l hl).2.2.1 (hlf l hl).2.2.2)
      (fun a ha => hfr _ (hov a ha).1 (hov a ha).2.1 (hov a ha).2.2.1 (hov a ha).2.2.2)
  · have hM : handles [root] ((s.h + 2) :: ixOf [(ph, frOf kk1, ph :: ixOf kk1),
        (s.h + 1, frOf (q :: kk2), (s.h + 1) :: ixOf (q :: kk2))]) G =
        handles [root] (ph :: ixOf (kk1 ++ q :: kk2)) G +
          (([s.h + 1, s.h + 2] : List Nat) : Multiset Nat) := by
      rw [show ixOf [(ph, frOf kk1, ph :: ixOf kk1),
        (s.h + 1, frOf (q :: kk2), (s.h + 1) :: ixOf (q :: kk2))] =
        (ph :: ixOf kk1) ++ ((s.h + 1) :: ixOf (q :: kk2)) by simp [ixOf]]
      simp only [handles, ixOf_append, ← Multiset.coe_add, ← Multiset.cons_coe,
        ← Multiset.singleton_add, List.cons_append, Multiset.coe_nil]
      abel
    show CtxM s1 _
    rw [hM]
    refine hC.extend [s.h + 1, s.h + 2] (by simp) (fun k hk => ?_) (by subst hs1; simp)
      (fun k hk => ?_)
    · simp only [List.mem_cons, List.mem_singleton, List.not_mem_nil, or_false] at hk
      subst hs1
      rcases hk with h | h <;> subst h <;> simp
    · by_cases h1 : k = s.h + 1
      · exact Or.inr (by simp [h1])
      · by_cases h2 : k = s.h + 2
        · exact Or.inr (by simp [h2])
        · left
          by_cases h3 : k = root
          · rw [h3, hroot]; rfl
          · by_cases h4 : k = ph
            · rw [h4, hph]; rfl
            · rw [← hfr k h4 h1 h2 h3]
              exact hk
  · exact fun a ha => hfr _ (hov a ha).1 (hov a ha).2.1 (hov a ha).2.2.1 (hov a ha).2.2.2

/-! ## put2: from the root index page to the tree -/

/-- What `put2Loop` leaves behind under a child of the root index page is a tree. -/
theorem PutPost.tree {c : Bytes → Bytes → Int} {key : Bytes} {upd : Updater}
    {s : memBTreeStore} {root P : Nat} {pre post : List Kid} {k : Kid}
    {GA Gk GB : List Leaf} {d n : Nat} {r : Except Err PutResult} {s2 : memBTreeStore}
    (hpost : PutPost c key upd s [root] P pre post k GA Gk GB d n r s2)
    (hroot : mget s.m root = some (h2bBytes P))
    (hsib : ∀ q ∈ pre ++ post, Idx s.m (kIndex - 1) (2 * kIndex + 1) d q.1 q.2.1 q.2.2)
    (hGA : GA.map Leaf.h = frOf pre) (hGB : GB.map Leaf.h = frOf post)
    (hlo : 2 ≤ pre.length + 1 + post.length)
    (hhi : pre.length + n + post.length ≤ 2 * kIndex + 2)
    (hlt : s.h + d + n + 1 < 2 ^ 56) :
    ∃ I2 G2, TreeOk s2 root c (d + 1) P I2 G2 ∧
      PutSpec c (kvs s.m (GA ++ Gk ++ GB)) (kvs s2.m G2) key upd r ∧ s.h ≤ s2.h ∧
      s2.h ≤ s.h + d + n + 1 := by
  obtain ⟨ks, GA2, Gk2, GB2, p1, p2, p3, p4, p5, p6, p7, p8, p9, p10, p11, p12, p13, p14,
    p15⟩ := hpost
  refine ⟨P :: ixOf (pre ++ ks ++ post), GA2 ++ Gk2 ++ GB2, ⟨?_, ?_, ?_, p11, by omega⟩, p15,
    p13, p14⟩
  · rw [p12 root (by simp)]
    exact hroot
  · refine ⟨pre ++ ks ++ post, p1, ?_, ?_, ?_, rfl, fun q hq => ?_⟩
    · simp only [List.length_append]
      omega
    · simp only [List.length_append]
      omega
    · simp only [List.map_append, frOf_append, p7, p8, p9, hGA, hGB]
    · rcases List.mem_append.1 hq with h1 | h1
      · rcases List.mem_append.1 h1 with h2 | h2
        · refine Idx_congr s.m s2.m _ _ _ _ _ _ (fun a ha => p12 a ?_)
            (hsib q (List.mem_append_left _ h2))
          exact List.mem_append_right _ (List.mem_append_left _ (ixOf_mem pre q h2 a ha))
        · exact p6 q h2
      · refine Idx_congr s.m s2.m _ _ _ _ _ _ (fun a ha => p12 a ?_)
          (hsib q (List.mem_append_right _ h1))
        exact List.mem_append_right _ (List.mem_append_right _ (ixOf_mem post q h1 a ha))
  · simpa using p10

/-! ## put2: the loop on the root index page -/

theorem RootAt.root_kid_lt {c : Bytes → Bytes → Int} {key : Bytes} {s : memBTreeStore}
    {root ph : Nat} {preK postK : List Kid} {cj : Kid} {Ppre : List (List Leaf)}
    {Pk : List Leaf} {Ppost : List (List Leaf)} {d : Nat}
    (h : RootAt c key s root ph preK postK cj Ppre Pk Ppost d) : cj.1 < 2 ^ 56 := by
  have hm := Idx_self_mem _ _ _ _ _ _ _ (h.kids cj (by simp))
  have hlt := h.hlt
  rcases List.mem_append.1 hm with h1 | h1
  · rw [← h.pk] at h1
    obtain ⟨l, hl, hl2⟩ := List.mem_map.1 h1
    have := (h.ctx.bound _ (h.ctx.mem_leaf l (by simp [hl]))).2
    omega
  · have := (h.ctx.bound _ (h.ctx.mem_index cj.1 (by
      simp only [ixOf_append, ixOf_cons, List.mem_append, List.mem_cons]
      tauto))).2
    omega

/-- `put2Loop` on a root index page that has room. -/
theorem put_root_room (c : Option (Bytes → Bytes → Int)) (hc : TotalCmp (cmpOf c))
    (root : Nat) (key : Bytes) (upd : Updater) (fuel d : Nat) (hf : d < fuel)
    {s : memBTreeStore} {ph : Nat} {preK postK : List Kid} {cj : Kid}
    {Ppre : List (List Leaf)} {Pk : List Leaf} {Ppost : List (List Leaf)}
    (h : RootAt (cmpOf c) key s root ph preK postK cj Ppre Pk Ppost d)
    (hlo : 2 ≤ (preK ++ cj :: postK).length)
    (hroom : (preK ++ cj :: postK).length ≤ 2 * kIndex + 1)
    (j : Nat) (hj : preK.length = j)
    (hfind : btreePage.find (encH (hsOf (preK ++ cj :: postK))) c key s =
      (.ok ((j : Int), false), s))
    (hs : s.h + d + 3 < 2 ^ 56) :
    ∃ r s2 I2 G2, btree.put2Loop root c key upd (fuel + 1) ph 0 (-1) s = (r, s2) ∧
      TreeOk s2 root (cmpOf c) (d + 1) ph I2 G2 ∧
      PutSpec (cmpOf c) (kvs s.m (Ppre.flatten ++ Pk ++ Ppost.flatten)) (kvs s2.m G2) key upd r ∧
      s.h ≤ s2.h ∧ s2.h ≤ s.h + d + 3 := by
  have hkne : preK ++ cj :: postK ≠ [] := by simp
  have hch : btreeIndexPage.child (encH (hsOf (preK ++ cj :: postK))) (j : Int) = .ok cj.1 := by
    have := child_at (hsOf (preK ++ cj :: postK)) j
      (by rw [hsOf_length_of _ hkne]; simp; omega)
      (by rw [hsOf_getD_child preK postK cj j hj]; exact h.root_kid_lt)
    rw [this, hsOf_getD_child preK postK cj j hj]
  rw [put2Loop_index_room root c key upd fuel ph 0 (-1) s _ ((preK ++ cj :: postK).length - 1)
    (hsOf_length_of _ hkne) (by omega) h.hpage _ hfind _ hch, ← hj]
  have hpre : PutPre (cmpOf c) key s [root] ph preK postK cj Ppre.flatten Pk Ppost.flatten
      [] [] d :=
    ⟨h.hpage, by simp only [List.length_append, List.length_cons] at hroom; omega,
      h.kids cj (by simp),
      fun q hq => h.kids q (by
        simp only [List.mem_append, List.mem_cons] at hq ⊢
        tauto),
      h.pk, by simpa using h.ppre.frOf_eq, by simpa using h.ppost.frOf_eq, h.leaves, h.ctx,
      h.lowK, h.highK, h.min⟩
  obtain ⟨r, s2, hrun, hpost⟩ := put_under c hc root key upd d fuel s [root] ph preK postK cj
    _ _ _ [] [] hf hpre hs
  obtain ⟨I2, G2, w1, w2, w3, w4⟩ := hpost.tree h.hroot
    (fun q hq => h.kids q (by
      simp only [List.mem_append, List.mem_cons] at hq ⊢
      tauto))
    h.ppre.frOf_eq h.ppost.frOf_eq
    (by simp only [List.length_append, List.length_cons] at hlo; omega)
    (by simp only [List.length_append, List.length_cons] at hroom; omega) (by omega)
  exact ⟨r, s2, I2, G2, hrun, w1, w2, w3, by omega⟩

/-! ## put2: the loop on a full root index page, the key in the left half -/

/-- `put2Loop` on a full root index page when the key goes to the left half. -/
theorem put_root_full_left (c : Option (Bytes → Bytes → Int)) (hc : TotalCmp (cmpOf c))
    (root : Nat) (key : Bytes) (upd : Updater) (fuel d : Nat) (hf : d < fuel)
    {s : memBTreeStore} {ph : Nat} {preK xB kk2 : List Kid} {q cj : Kid}
    {Ppre PxB PR : List (List Leaf)} {Pk : List Leaf}
    (h : RootAt (cmpOf c) key s root ph preK (xB ++ q :: kk2) cj Ppre Pk (PxB ++ PR) d)
    (hxB : Parts xB PxB) (hPR : Parts (q :: kk2) PR)
    (hl1 : (preK ++ cj :: xB).length = kIndex + 1) (hl2 : (q :: kk2).length = kIndex + 1)
    (j : Nat) (hj : preK.length = j)
    (hfind : btreePage.find (encH (hsOf (preK ++ cj :: (xB ++ q :: kk2)))) c key s =
      (.ok ((j : Int), false), s))
    (hs : s.h + d + 5 < 2 ^ 56) :
    ∃ r s2 I2 G2, btree.put2Loop root c key upd (fuel + 1) ph 0 (-1) s = (r, s2) ∧
      TreeOk s2 root (cmpOf c) (d + 2) (s.h + 2) I2 G2 ∧
      PutSpec (cmpOf c) (kvs s.m (Ppre.flatten ++ Pk ++ (PxB ++ PR).flatten)) (kvs s2.m G2)
        key upd r ∧
      s.h ≤ s2.h ∧ s2.h ≤ s.h + d + 5 := by
  have e : preK ++ cj :: (xB ++ q :: kk2) = (preK ++ cj :: xB) ++ q :: kk2 := by simp
  have eG : Ppre.flatten ++ Pk ++ (PxB ++ PR).flatten =
      [] ++ (Ppre.flatten ++ Pk ++ PxB.flatten) ++ PR.flatten := by
    simp only [List.flatten_append, List.append_assoc, List.nil_append]
  have hkl := h.root_kid_lt
  have hL := h.leaves
  have hC := h.ctx
  have hkids := h.kids
  have hpage := h.hpage
  have hhighK := h.highK
  rw [e] at hC hkids hpage hfind
  rw [eG] at hL hC ⊢
  rw [List.flatten_append, keysG_append] at hhighK
  have hqne : q.2.1 ≠ [] := Idx_fr_ne _ _ _ _ _ _ _ (hkids q (by simp))
  have hsep : q.2.1.headD 0 < 2 ^ 56 := by
    have := sep_le hC q PR.flatten (fun l hl => by simp [hl]) hqne (fun a ha => by
      rw [hPR.frOf_eq]
      exact frOf_mem _ q (by simp) a ha)
    have := h.hlt
    omega
  have hb := (hC.bound _ (hC.mem_index root (by simp))).2
  have hne : root ≠ ph := hC.other_ne_index root (by simp) ph (by simp)
  have hjk : j ≤ kIndex := by
    simp only [List.length_append, List.length_cons] at hl1
    omega
  have hrun := index_split_root_run s (preK ++ cj :: xB) kk2 q ph root (j : Int) _ _ hl1 hl2
    hqne hsep hpage h.hroot hb hne
  rw [if_neg (by omega)] at hrun
  obtain ⟨s1, hs1⟩ : ∃ s1 : memBTreeStore, s1 = ⟨s.h + 2, mset (mset (mset (mset s.m ph
      (encH (hsOf (preK ++ cj :: xB)))) (s.h + 1) (encH (hsOf (q :: kk2)))) (s.h + 2)
      (encH (hsOf [(ph, frOf (preK ++ cj :: xB), ph :: ixOf (preK ++ cj :: xB)),
        (s.h + 1, frOf (q :: kk2), (s.h + 1) :: ixOf (q :: kk2))]))) root
      (h2bBytes (s.h + 2))⟩ := ⟨_, rfl⟩
  rw [← hs1] at hrun
  obtain ⟨a1, a2, a3, a4, a5, a6, a7, a8⟩ :=
    index_split_root_sem hL hC hkids _ _ h.hroot hpage s1 hs1
  have hh : s1.h = s.h + 2 := by rw [hs1]
  have hch : btreeIndexPage.child (encH (hsOf (preK ++ cj :: xB))) (j : Int) = .ok cj.1 := by
    have := child_at (hsOf (preK ++ cj :: xB)) j
      (by rw [hsOf_length_of _ (by simp)]; simp; omega)
      (by rw [hsOf_getD_child preK xB cj j hj]; exact hkl)
    rw [this, hsOf_getD_child preK xB cj j hj]
  rw [put2Loop_index_split root c key upd fuel ph 0 _ s _
    (((preK ++ cj :: xB) ++ q :: kk2).length - 1) (hsOf_length_of _ (by simp))
    (by
      simp only [List.length_append, List.length_cons] at hl1 hl2 ⊢
      omega) hpage _ hfind _ _ _ _ hrun _ hch, ← hj]
  have hsub : ∀ X : List Leaf, (∀ a ∈ ovs X, a ∈ ovs ([] ++
      (Ppre.flatten ++ Pk ++ PxB.flatten) ++ PR.flatten)) →
      ∀ a ∈ ovs X, mget s1.m a = mget s.m a := fun X hX a ha => a8 a (hX a ha)
  have f2 := hsub Ppre.flatten (fun a ha => by
    simp only [ovs_append, List.mem_append, List.nil_append]; tauto)
  have f3 := hsub Pk (fun a ha => by
    simp only [ovs_append, List.mem_append, List.nil_append]; tauto)
  have f4 := hsub PxB.flatten (fun a ha => by
    simp only [ovs_append, List.mem_append, List.nil_append]; tauto)
  have f5 := hsub PR.flatten (fun a ha => by
    simp only [ovs_append, List.mem_append, List.nil_append]; tauto)
  have b1 : mget s1.m (s.h + 2) = some (encH (hsOf ([] ++
      (ph, frOf (preK ++ cj :: xB), ph :: ixOf (preK ++ cj :: xB)) ::
        [(s.h + 1, frOf (q :: kk2), (s.h + 1) :: ixOf (q :: kk2))]))) := a1
  have b7 : Ctx s1 [root] ((s.h + 2) :: ixOf ([] ++
      (ph, frOf (preK ++ cj :: xB), ph :: ixOf (preK ++ cj :: xB)) ::
        [(s.h + 1, frOf (q :: kk2), (s.h + 1) :: ixOf (q :: kk2))]))
      ([] ++ (Ppre.flatten ++ Pk ++ PxB.flatten) ++ PR.flatten) := a7
  obtain ⟨r, s2, hrun2, hpost⟩ := put_descend c root key upd fuel d
    (fun s O P pre post k GA Gk GB Fa Fb h hs =>
      put_under c hc root key upd d fuel s O P pre post k GA Gk GB Fa Fb hf h hs)
    b1 a6 b7 (by intro a ha; cases ha)
    (by
      rw [keysG_frame _ _ _ f5]
      exact fun b hb => hhighK b (List.mem_append_right _ hb))
    a2 (by rw [hl1]; omega) (by rw [hl1]; omega)
    (fun x hx => a5 x (List.mem_append_left _ hx)) h.ppre.frOf_eq h.pk hxB.frOf_eq
    (by rw [keysG_frame _ _ _ f2]; exact h.lowK)
    (by
      rw [keysG_frame _ _ _ f4]
      exact fun b hb => hhighK b (List.mem_append_left _ hb))
    (by rw [minKey_frame _ _ _ f3]; exact h.min) (by omega)
  obtain ⟨I2, G2, w1, w2, w3, w4⟩ := hpost.tree a4
    (fun x hx => by
      simp only [List.nil_append, List.mem_singleton] at hx
      subst hx
      refine ⟨q :: kk2, a3, ?_, ?_, rfl, rfl, fun y hy => a5 y (List.mem_append_right _ hy)⟩
      · rw [hl2]; omega
      · rw [hl2]; omega)
    rfl
    (by
      rw [hPR.frOf_eq]
      simp [frOf])
    (by simp only [List.length_nil, List.length_cons]; omega)
    (by simp only [List.length_nil, List.length_cons]; omega) (by omega)
  refine ⟨r, s2, I2, G2, hrun2, w1, ?_, by omega, by omega⟩
  rw [← kvs_congr s.m s1.m _ a8]
  exact w2

/-! ## put2: the loop on a full root index page, the key in the right half -/

/-- `put2Loop` on a full root index page when the key goes to the right half. -/
theorem put_root_full_right (c : Option (Bytes → Bytes → Int)) (hc : TotalCmp (cmpOf c))
    (root : Nat) (key : Bytes) (upd : Updater) (fuel d : Nat) (hf : d < fuel)
    {s : memBTreeStore} {ph : Nat} {kk1 xA postK : List Kid} {cj : Kid}
    {P1 PxA Ppost : List (List Leaf)} {Pk : List Leaf}
    (h : RootAt (cmpOf c) key s root ph (kk1 ++ xA) postK cj (P1 ++ PxA) Pk Ppost d)
    (hP1 : Parts kk1 P1) (hxA : Parts xA PxA)
    (hl1 : kk1.length = kIndex + 1) (hl2 : (xA ++ cj :: postK).length = kIndex + 1)
    (j : Nat) (hj : (kk1 ++ xA).length = j)
    (hfind : btreePage.find (encH (hsOf ((kk1 ++ xA) ++ cj :: postK))) c key s =
      (.ok ((j : Int), false), s))
    (hs : s.h + d + 5 < 2 ^ 56) :
    ∃ r s2 I2 G2, btree.put2Loop root c key upd (fuel + 1) ph 0 (-1) s = (r, s2) ∧
      TreeOk s2 root (cmpOf c) (d + 2) (s.h + 2) I2 G2 ∧
      PutSpec (cmpOf c) (kvs s.m ((P1 ++ PxA).flatten ++ Pk ++ Ppost.flatten)) (kvs s2.m G2)
        key upd r ∧
      s.h ≤ s2.h ∧ s2.h ≤ s.h + d + 5 := by
  obtain ⟨q, kk2, hq⟩ : ∃ q kk2, xA ++ cj :: postK = q :: kk2 := by
    cases xA with
    | nil => exact ⟨cj, postK, rfl⟩
    | cons a t => exact ⟨a, t ++ cj :: postK, rfl⟩
  have e : (kk1 ++ xA) ++ cj :: postK = kk1 ++ q :: kk2 := by
    rw [List.append_assoc, hq]
  have eG : (P1 ++ PxA).flatten ++ Pk ++ Ppost.flatten =
      P1.flatten ++ (PxA.flatten ++ Pk ++ Ppost.flatten) ++ [] := by
    simp only [List.flatten_append, List.append_assoc, List.append_nil]
  have hkl := h.root_kid_lt
  have hL := h.leaves
  have hC := h.ctx
  have hkids := h.kids
  have hpage := h.hpage
  have hlowK := h.lowK
  have hk1 : kk1 ≠ [] := by
    intro e0
    rw [e0] at hl1
    simp at hl1
  rw [e] at hC hkids hpage hfind
  rw [eG] at hL hC ⊢
  rw [List.flatten_append, keysG_append] at hlowK
  have hqne : q.2.1 ≠ [] := Idx_fr_ne _ _ _ _ _ _ _ (hkids q (by simp))
  have hPR : (PxA.flatten ++ Pk ++ Ppost.flatten).map Leaf.h = frOf (q :: kk2) := by
    rw [← hq]
    simp only [List.map_append, frOf_append, frOf_cons, hxA.frOf_eq, h.pk, h.ppost.frOf_eq,
      List.append_assoc]
  have hsep : q.2.1.headD 0 < 2 ^ 56 := by
    have := sep_le hC q (PxA.flatten ++ Pk ++ Ppost.flatten)
      (fun l hl => by
        simp only [List.mem_append] at hl ⊢
        tauto) hqne (fun a ha => by
      rw [hPR]
      exact frOf_mem _ q (by simp) a ha)
    have := h.hlt
    omega
  have hb := (hC.bound _ (hC.mem_index root (by simp))).2
  have hne : root ≠ ph := hC.other_ne_index root (by simp) ph (by simp)
  have hjk : j = kIndex + 1 + xA.length := by
    rw [← hj, List.length_append, hl1]
  have hrun := index_split_root_run s kk1 kk2 q ph root (j : Int) _ _ hl1
    (by rw [← hq]; exact hl2) hqne hsep hpage h.hroot hb hne
  rw [if_pos (by omega)] at hrun
  have ej : (j : Int) - ((kIndex : Int) + 1) = (xA.length : Int) := by omega
  rw [ej] at hrun
  obtain ⟨s1, hs1⟩ : ∃ s1 : memBTreeStore, s1 = ⟨s.h + 2, mset (mset (mset (mset s.m ph
      (encH (hsOf kk1))) (s.h + 1) (encH (hsOf (q :: kk2)))) (s.h + 2)
      (encH (hsOf [(ph, frOf kk1, ph :: ixOf kk1),
        (s.h + 1, frOf (q :: kk2), (s.h + 1) :: ixOf (q :: kk2))]))) root
      (h2bBytes (s.h + 2))⟩ := ⟨_, rfl⟩
  rw [← hs1] at hrun
  obtain ⟨a1, a2, a3, a4, a5, a6, a7, a8⟩ :=
    index_split_root_sem hL hC hkids _ _ h.hroot hpage s1 hs1
  have hh : s1.h = s.h + 2 := by rw [hs1]
  have hch : btreeIndexPage.child (encH (hsOf (q :: kk2))) (xA.length : Int) = .ok cj.1 := by
    rw [← hq]
    have := child_at (hsOf (xA ++ cj :: postK)) xA.length
      (by rw [hsOf_length_of _ (by simp)]; simp; omega)
      (by rw [hsOf_getD_child xA postK cj _ rfl]; exact hkl)
    rw [this, hsOf_getD_child xA postK cj _ rfl]
  rw [put2Loop_index_split root c key upd fuel ph 0 _ s _
    ((kk1 ++ q :: kk2).length - 1) (hsOf_length_of _ (by simp))
    (by
      rw [← hq] at *
      simp only [List.length_append, List.length_cons] at hl1 hl2 ⊢
      omega) hpage _ hfind _ _ _ _ hrun _ hch]
  have hkidsq : ∀ x ∈ q :: kk2, Idx s1.m (kIndex - 1) (2 * kIndex + 1) d x.1 x.2.1 x.2.2 :=
    fun x hx => a5 x (List.mem_append_right _ hx)
  rw [← hq] at a1 a3 a7 hkidsq
  have hsub : ∀ X : List Leaf, (∀ a ∈ ovs X, a ∈ ovs (P1.flatten ++
      (PxA.flatten ++ Pk ++ Ppost.flatten) ++ [])) →
      ∀ a ∈ ovs X, mget s1.m a = mget s.m a := fun X hX a ha => a8 a (hX a ha)
  have f1 := hsub P1.flatten (fun a ha => by simp only [ovs_append, List.mem_append]; tauto)
  have f2 := hsub PxA.flatten (fun a ha => by simp only [ovs_append, List.mem_append]; tauto)
  have f3 := hsub Pk (fun a ha => by simp only [ovs_append, List.mem_append]; tauto)
  have f4 := hsub Ppost.flatten (fun a ha => by simp only [ovs_append, List.mem_append]; tauto)
  have b1 : mget s1.m (s.h + 2) = some (encH (hsOf ([(ph, frOf kk1, ph :: ixOf kk1)] ++
      (s.h + 1, frOf (xA ++ cj :: postK), (s.h + 1) :: ixOf (xA ++ cj :: postK)) :: []))) := a1
  have b7 : Ctx s1 [root] ((s.h + 2) :: ixOf ([(ph, frOf kk1, ph :: ixOf kk1)] ++
      (s.h + 1, frOf (xA ++ cj :: postK), (s.h + 1) :: ixOf (xA ++ cj :: postK)) :: []))
      (P1.flatten ++ (PxA.flatten ++ Pk ++ Ppost.flatten) ++ []) := a7
  obtain ⟨r, s2, hrun2, hpost⟩ := put_descend c root key upd fuel d
    (fun s O P pre post k GA Gk GB Fa Fb h hs =>
      put_under c hc root key upd d fuel s O P pre post k GA Gk GB Fa Fb hf h hs)
    b1 a6 b7
    (by
      rw [keysG_frame _ _ _ f1]
      exact fun b hb => hlowK b (List.mem_append_left _ hb))
    (by intro a ha; cases ha)
    a3 (by rw [hl2]; omega) (by rw [hl2]; omega) hkidsq hxA.frOf_eq h.pk h.ppost.frOf_eq
    (by
      rw [keysG_frame _ _ _ f2]
      exact fun b hb => hlowK b (List.mem_append_right _ hb))
    (by rw [keysG_frame _ _ _ f4]; exact h.highK)
    (by
      rw [minKey_frame _ _ _ f3]
      intro _
      refine h.min ?_
      intro e0
      exact hk1 (List.append_eq_nil.1 e0).1) (by omega)
  obtain ⟨I2, G2, w1, w2, w3, w4⟩ := hpost.tree a4
    (fun x hx => by
      simp only [List.append_nil, List.mem_singleton] at hx
      subst hx
      refine ⟨kk1, a2, ?_, ?_, rfl, rfl, fun y hy => a5 y (List.mem_append_left _ hy)⟩
      · rw [hl1]; omega
      · rw [hl1]; omega)
    (by
      rw [hP1.frOf_eq]
      simp [frOf])
    rfl
    (by simp only [List.length_nil, List.length_cons]; omega)
    (by simp only [List.length_nil, List.length_cons]; omega) (by omega)
  refine ⟨r, s2, I2, G2, hrun2, w1, ?_, by omega, by omega⟩
  rw [← kvs_congr s.m s1.m _ a8]
  exact w2

/-! ## put2: the loop from the root -/

/-- `put2Loop` on a tree whose root is an index page. -/
theorem put_root_index (c : Option (Bytes → Bytes → Int)) (hc : TotalCmp (cmpOf c))
    (root : Nat) (key : Bytes) (upd : Updater) (fuel d : Nat) (hf : d < fuel)
    {s : memBTreeStore} {iroot : Nat} {I : List Nat} {G : List Leaf}
    (ht : TreeOk s root (cmpOf c) (d + 1) iroot I G) (hs : s.h + d + 5 < 2 ^ 56) :
    ∃ r s2 d2 iroot2 I2 G2,
      btree.put2Loop root c key upd (fuel + 1) iroot 0 (-1) s = (r, s2) ∧
      TreeOk s2 root (cmpOf c) d2 iroot2 I2 G2 ∧
      PutSpec (cmpOf c) (kvs s.m G) (kvs s2.m G2) key upd r ∧ s.h ≤ s2.h ∧
      s2.h ≤ s.h + d + 5 := by
  obtain ⟨kids, parts, hpage, hkne, hc1, hc2, hG, hParts, hI, hkids⟩ :=
    Idx_parts s.m d _ _ iroot G I ht.idx
  subst hG hI
  have hL : LeavesOk s.m (cmpOf c) kData ([] ++ parts.flatten ++ []) := by
    simpa using ht.leaves
  have hC : Ctx s [root] (iroot :: ixOf kids) ([] ++ parts.flatten ++ []) := by
    simpa using ht.ctx
  have hlt := ht.hlt
  have hbG : ∀ l ∈ parts.flatten, l.h < 2 ^ 56 := by
    intro l hl
    have := (ht.ctx.bound _ (ht.ctx.mem_leaf l hl)).2
    omega
  obtain ⟨j, ok, hfind, preK, cj, postK, Ppre, Pk, Ppost, e1, e2, e3, e4, e5, hcase⟩ :=
    index_find c hc kids parts hParts hkne key s [] [] kData (by decide) hL hbG
  subst e1 e2
  rcases hcase with ⟨hok, hx, hy, hmin⟩ | ⟨hok, q, post2, Pq, Ppost2, e6, e7, e8, e9, he, hx, hy⟩
  · subst hok
    obtain ⟨Ppre2, Pk2, Ppost2, e6, e7, e8, hppre, hppost⟩ := hParts.split preK postK cj rfl
    obtain ⟨e9, e10⟩ := List.append_inj e6 (by omega)
    simp only [List.cons.injEq] at e10
    obtain ⟨e10, e11⟩ := e10
    subst e9 e10 e11
    have eGk : (Ppre ++ Pk :: Ppost).flatten = Ppre.flatten ++ Pk ++ Ppost.flatten := by simp
    rw [eGk] at hL hC ⊢
    simp only [List.nil_append, List.append_nil] at hL hC
    have hat : RootAt (cmpOf c) key s root iroot preK postK cj Ppre Pk Ppost d :=
      ⟨ht.hroot, hL, hC, hpage, hkids, hppre, e5, hppost, hx, hy,
        fun hne => hmin (by
          intro e0
          rw [e0] at e3
          exact hne (List.length_eq_zero.1 e3)), hlt⟩
    by_cases hroom : (preK ++ cj :: postK).length ≤ 2 * kIndex + 1
    · obtain ⟨r, s2, I2, G2, w1, w2, w3, w4, w5⟩ := put_root_room c hc root key upd fuel d hf
        hat hc1 hroom j e3 hfind (by omega)
      exact ⟨r, s2, d + 1, iroot, I2, G2, w1, w2, w3, w4, by omega⟩
    · have hfull : (preK ++ cj :: postK).length = 2 * kIndex + 2 := by omega
      simp only [List.length_append, List.length_cons] at hfull
      by_cases hjk : j ≤ kIndex
      · obtain ⟨xB, q, kk2, rfl, hl⟩ := split_take postK (kIndex - j) (by omega)
        obtain ⟨PxB, PR, rfl, hxB, hPR⟩ := Parts.of_append hppost
        simp only [List.length_append, List.length_cons] at hfull
        obtain ⟨r, s2, I2, G2, w1, w2, w3, w4, w5⟩ := put_root_full_left c hc root key upd fuel
          d hf hat hxB hPR
          (by simp only [List.length_append, List.length_cons]; omega)
          (by simp only [List.length_cons]; omega) j e3 hfind hs
        exact ⟨r, s2, d + 2, s.h + 2, I2, G2, w1, w2, w3, w4, w5⟩
      · obtain ⟨kk1, x, xA, rfl, hl⟩ := split_take preK kIndex (by omega)
        have e0 : kk1 ++ x :: xA = (kk1 ++ [x]) ++ xA := by simp
        rw [e0] at hppre hat hfind e3
        obtain ⟨P1, PxA, rfl, hP1, hxA⟩ := Parts.of_append hppre
        simp only [List.length_append, List.length_cons, List.length_nil] at hfull e3
        obtain ⟨r, s2, I2, G2, w1, w2, w3, w4, w5⟩ := put_root_full_right c hc root key upd
          fuel d hf hat hP1 hxA
          (by simp only [List.length_append, List.length_cons, List.length_nil]; omega)
          (by simp only [List.length_append, List.length_cons]; omega) j
          (by simp only [List.length_append, List.length_cons, List.length_nil]; omega) hfind hs
        exact ⟨r, s2, d + 2, s.h + 2, I2, G2, w1, w2, w3, w4, w5⟩
  · subst hok e6 e7
    obtain ⟨dh, p, r, s2, G2, w1, w2, w3, w4, w5, w6, w7, w8, w9, w10⟩ :=
      index_found_flat c hc key upd s [root] _ _ _ [] [] kData (by decide) hL hC
        (by intro a ha; cases ha) (by omega)
        j preK post2 cj q Ppre Ppost2 Pk Pq rfl rfl e3 e8 e9 he hx
    rw [put2Loop_index_found root c key upd fuel iroot 0 _ s _ hpage _ hfind dh w1 p w2]
    simp only [List.nil_append, List.append_nil] at w4 w10
    refine ⟨r, s2, d + 1, iroot, _, G2, w3, ⟨?_, ?_, ?_, w6, by omega⟩, w10, w8, by omega⟩
    · rw [w7 root (by simp)]
      exact ht.hroot
    · rw [w4]
      exact Idx_congr s.m s2.m _ _ _ _ _ _ (fun a ha => w7 a (by simp [ha])) ht.idx
    · simpa using w5

/-- `put2Loop` from the root of a tree: the key is put, and the store holds a tree. -/
theorem put_root (c : Option (Bytes → Bytes → Int)) (hc : TotalCmp (cmpOf c))
    (root : Nat) (key : Bytes) (upd : Updater) (fuel d : Nat) (hf : d < fuel)
    {s : memBTreeStore} {iroot : Nat} {I : List Nat} {G : List Leaf}
    (ht : TreeOk s root (cmpOf c) d iroot I G) (hs : s.h + d + 4 < 2 ^ 56) :
    ∃ r s2 d2 iroot2 I2 G2,
      btree.put2Loop root c key upd fuel iroot 0 (-1) s = (r, s2) ∧
      TreeOk s2 root (cmpOf c) d2 iroot2 I2 G2 ∧
      PutSpec (cmpOf c) (kvs s.m G) (kvs s2.m G2) key upd r ∧ s.h ≤ s2.h ∧
      s2.h ≤ s.h + d + 4 := by
  obtain ⟨fuel, rfl⟩ : ∃ f, fuel = f + 1 := ⟨fuel - 1, by omega⟩
  cases d with
  | zero => exact put_root_leaf c hc root key upd fuel ht (by omega)
  | succ d =>
    obtain ⟨r, s2, d2, iroot2, I2, G2, w1, w2, w3, w4, w5⟩ :=
      put_root_index c hc root key upd fuel d (by omega) ht (by omega)
    exact ⟨r, s2, d2, iroot2, I2, G2, w1, w2, w3, w4, by omega⟩

/-! ## put2 on a tree -/

theorem EmptyOk.ctx {s : memBTreeStore} {root : Nat} (he : EmptyOk s root) :
    Ctx s [root] [] [] := by
  refine ⟨?_, ?_, ?_⟩
  · simp [handles, ovs]
  · intro h hh
    have : h = root := by simpa [handles, ovs] using hh
    subst this
    exact he.bound
  · intro h hh
    have := he.live h hh
    subst this
    simp [handles, ovs]

/-- `put2` on an empty tree with an updater that writes: the root record names a new
data page, whose one item holds the key and the value and which has no neighbour. -/
theorem put_empty_write (c : Option (Bytes → Bytes → Int)) (root : Nat)
    (key value : Bytes) (upd : Updater) (s : memBTreeStore) (he : EmptyOk s root)
    (hu : upd key none = .ok (value, true)) (hs : s.h + 3 < 2 ^ 56) :
    ∃ (s2 : memBTreeStore) (h : Nat) (x : Slot),
      btree.put2 root c key upd s = (.ok (none, true, [(key, none)]), s2) ∧
      TreeOk s2 root (cmpOf c) 0 h [] [(⟨h, [x]⟩ : Leaf)] ∧
      kvs s2.m [(⟨h, [x]⟩ : Leaf)] = [(key, value)] ∧
      s.h < h ∧ h = s2.h ∧ s2.h ≤ s.h + 3 ∧
      (∀ k, (mget s2.m k).isSome = true → k = root ∨ k = h ∨ k ∈ ovF x.1 ++ ovF x.2) := by
  have hb0 : b2h (zeros 7) = .ok 0 := by decide
  obtain ⟨n1, n2, n3, n4, n5, n6, n7, n8, n9, n10⟩ := newItem_facts s key value (by omega)
  have hins := insertItem_encD 0 0 [] [] (fun _ h => absurd h (List.not_mem_nil _))
    (fun _ h => absurd h (List.not_mem_nil _)) 0 rfl key value s
  change btreeDataPage.insertItem (encD 0 0 []) 0 key value s =
    (.ok (encD 0 0 [(newItem s key value).1]), (newItem s key value).2) at hins
  generalize hs4 : (newItem s key value).2 = s4 at hins n1 n2 n3 n4 n6 n7 n8 n9 n10
  generalize hx : (newItem s key value).1 = x at hins n4 n5 n6 n7 n8 n9 n10
  have hr0 := he.bound
  have hg : mget (mset s4.m (s4.h + 1) (encD 0 0 [x])) root = some (zeros 7) := by
    rw [mget_mset, if_neg (by omega), n3 root hr0.2]
    exact he.hroot
  obtain ⟨s2, hs2⟩ : ∃ s2 : memBTreeStore, s2 = ⟨s4.h + 1,
    mset (mset s4.m (s4.h + 1) (encD 0 0 [x])) root (h2bBytes (s4.h + 1))⟩ := ⟨_, rfl⟩
  have hsl : slice (h2bBytes (s4.h + 1)) 0 7 = .ok (h2bBytes (s4.h + 1)) := rfl
  have hrun : btree.put2 root c key upd s = (.ok (none, true, [(key, none)]), s2) := by
    simp only [btree.put2, M_bind, M_liftM, M_monadLift, M_pure, Get_ok s root _ he.hroot,
      hb0, if_true, newBTreeDataPage_eq, hu, Bool.not_true, Bool.false_eq_true, if_false,
      hins, memBTreeStore.Alloc, h2b_zeros, hsl,
      Realloc_ok ⟨s4.h + 1, mset s4.m (s4.h + 1) (encD 0 0 [x])⟩ root _ _ hg]
    rw [hs2]
  have hm : ∀ a, mget s2.m a = if root = a then some (h2bBytes (s4.h + 1))
      else if s4.h + 1 = a then some (encD 0 0 [x]) else mget s4.m a := by
    intro a
    rw [hs2]
    simp only [mget_mset]
  have hh2 : s2.h = s4.h + 1 := by rw [hs2]
  have hov : ∀ a ∈ ovF x.1 ++ ovF x.2, mget s2.m a = mget s4.m a := by
    intro a ha
    have := n6 a ha
    rw [hm, if_neg (by omega), if_neg (by omega)]
  have hf1 : FieldOk s2.m x.1 :=
    FieldOk_congr _ _ _ (fun h0 => hov _ (List.mem_append_left _ ((mem_ovF _ _).2 ⟨rfl, h0⟩)))
      n7
  have hf2 : FieldOk s2.m x.2 :=
    FieldOk_congr _ _ _ (fun h0 => hov _ (List.mem_append_right _ ((mem_ovF _ _).2 ⟨rfl, h0⟩)))
      n8
  have hv1 : fieldVal s2.m x.1 = key := by
    rw [fieldVal_congr _ _ _
      (fun h0 => hov _ (List.mem_append_left _ ((mem_ovF _ _).2 ⟨rfl, h0⟩)))]
    exact n9
  have hv2 : fieldVal s2.m x.2 = value := by
    rw [fieldVal_congr _ _ _
      (fun h0 => hov _ (List.mem_append_right _ ((mem_ovF _ _).2 ⟨rfl, h0⟩)))]
    exact n10
  have hkv : kvs s2.m [(⟨s4.h + 1, [x]⟩ : Leaf)] = [(key, value)] := by
    simp [kvs, slotKV, hv1, hv2]
  have hM : handles [root] [] [(⟨s4.h + 1, [x]⟩ : Leaf)] =
      handles [root] [] [] + (((s4.h + 1) :: (ovF x.1 ++ ovF x.2) : List Nat) : Multiset Nat) := by
    simp only [handles, ovs, List.flatMap_cons, List.flatMap_nil, List.append_nil,
      slotOv_eq, List.map_cons, List.map_nil, ← Multiset.coe_add, ← Multiset.cons_coe,
      ← Multiset.singleton_add, Multiset.coe_nil]
    abel
  have htree : TreeOk s2 root (cmpOf c) 0 (s4.h + 1) [] [(⟨s4.h + 1, [x]⟩ : Leaf)] := by
    refine ⟨?_, by simp [Idx], ⟨?_, ?_, ?_, ?_⟩, ?_, by omega⟩
    · rw [hm, if_pos rfl]
    · rw [Chain_single]
      show mget s2.m (s4.h + 1) = _
      rw [hm, if_neg (by omega), if_pos rfl]
    · intro l hl y hy
      simp only [List.mem_singleton] at hl
      subst hl
      simp only [List.mem_singleton] at hy
      subst hy
      exact ⟨hf1, hf2⟩
    · rw [hkv]
      simp
    · intro l hl
      simp only [List.mem_singleton] at hl
      subst hl
      simp [kData_eq]
    · show CtxM s2 _
      rw [hM]
      refine he.ctx.extend _ ?_ ?_ (by omega) ?_
      · refine List.nodup_cons.2 ⟨fun h => ?_, n5⟩
        have := n6 _ h
        omega
      · intro k hk
        rcases List.mem_cons.1 hk with h | h
        · omega
        · have := n6 k h
          omega
      · intro k hk
        rw [hm] at hk
        by_cases e1 : root = k
        · subst e1
          left
          rw [he.hroot]
          rfl
        · rw [if_neg e1] at hk
          by_cases e2 : s4.h + 1 = k
          · exact Or.inr (by simp [e2])
          · rw [if_neg e2] at hk
            rcases n4 k hk with h | h
            · exact Or.inl h
            · exact Or.inr (List.mem_cons_of_mem _ h)
  refine ⟨s2, s4.h + 1, x, hrun, htree, hkv, by omega, by omega, by omega, ?_⟩
  intro k hk
  have := htree.ctx.live k hk
  rw [mem_handles] at this
  rcases this with h | h | ⟨l, hl, h⟩ | h
  · exact Or.inl (by simpa using h)
  · cases h
  · simp only [List.mem_singleton] at hl
    subst hl
    exact Or.inr (Or.inl h.symm)
  · right; right
    simpa [ovs, slotOv_eq] using h

/-- `put2` on an empty tree: the tree is one leaf of one pair, if the updater writes. -/
theorem put_empty (c : Option (Bytes → Bytes → Int)) (hc : TotalCmp (cmpOf c)) (root : Nat)
    (key : Bytes) (upd : Updater) (s : memBTreeStore) (he : EmptyOk s root)
    (hs : s.h + 3 < 2 ^ 56) :
    ∃ r s2 K2, btree.put2 root c key upd s = (r, s2) ∧ Rep s2 root (cmpOf c) K2 ∧
      PutSpec (cmpOf c) [] K2 key upd r ∧ s.h ≤ s2.h ∧ s2.h ≤ s.h + 3 := by
  have hb0 : b2h (zeros 7) = .ok 0 := by decide
  have hrep : Rep s root (cmpOf c) [] := Or.inl ⟨rfl, he⟩
  have hnil : ∀ a ∈ ([] : List (Bytes × Bytes)), cmpOf c a.1 key < 0 := by
    intro a ha; cases ha
  have hnil2 : ∀ a ∈ ([] : List (Bytes × Bytes)), cmpOf c key a.1 < 0 := by
    intro a ha; cases ha
  cases hu : upd key none with
  | error e =>
    refine ⟨.error e, s, [], ?_, hrep, PutSpec.absent_err hc [] [] key upd e hnil hnil2 hu,
      Nat.le_refl _, by omega⟩
    simp only [btree.put2, M_bind, M_liftM, M_monadLift, M_pure, Get_ok s root _ he.hroot, hb0,
      if_true, newBTreeDataPage_eq, hu]
  | ok vw =>
    obtain ⟨value, w⟩ := vw
    cases w with
    | false =>
      refine ⟨.ok (none, false, [(key, none)]), s, [], ?_, hrep,
        PutSpec.absent_skip hc [] [] key value upd hnil hnil2 hu, Nat.le_refl _, by omega⟩
      simp only [btree.put2, M_bind, M_liftM, M_monadLift, M_pure, Get_ok s root _ he.hroot,
        hb0, if_true, newBTreeDataPage_eq, hu]
      rfl
    | true =>
      obtain ⟨s2, h, x, w1, w2, w3, w4, w5, w6, -⟩ := put_empty_write c root key value upd s he hu hs
      refine ⟨_, s2, [(key, value)], w1, Or.inr ⟨0, h, [], _, w2, w3.symm⟩, ?_,
        by omega, by omega⟩
      exact PutSpec.absent_write hc [] [] key value upd hnil hnil2 hu

/-- `put2` on a tree: the store holds a tree afterwards, whose pairs are those of before
with the pair that the updater wrote. -/
theorem put2_spec (c : Option (Bytes → Bytes → Int)) (hc : TotalCmp (cmpOf c)) (root : Nat)
    (key : Bytes) (upd : Updater) (s : memBTreeStore) (K : List (Bytes × Bytes))
    (h : Rep s root (cmpOf c) K) (hs : 2 * s.h + 4 < 2 ^ 56) :
    ∃ r s2 K2, btree.put2 root c key upd s = (r, s2) ∧ Rep s2 root (cmpOf c) K2 ∧
      PutSpec (cmpOf c) K K2 key upd r ∧ s.h ≤ s2.h ∧ s2.h ≤ 2 * s.h + 4 := by
  rcases h with ⟨rfl, he⟩ | ⟨d, iroot, I, G, ht, rfl⟩
  · obtain ⟨r, s2, K2, w1, w2, w3, w4, w5⟩ := put_empty c hc root key upd s he (by omega)
    exact ⟨r, s2, K2, w1, w2, w3, w4, by omega⟩
  · have hi := ht.iroot_mem
    have hi0 := (ht.ctx.bound _ hi).1
    have hd := ht.depth_lt
    obtain ⟨r, s2, d2, iroot2, I2, G2, w1, w2, w3, w4, w5⟩ :=
      put_root c hc root key upd (s.h + 1) d (by omega) ht (by omega)
    refine ⟨r, s2, _, ?_, Or.inr ⟨d2, iroot2, I2, G2, w2, rfl⟩, w3, w4, by omega⟩
    simp only [btree.put2, M_bind, M_liftM, M_monadLift, M_pure, Get_ok s _ _ ht.hroot,
      b2h_h2bBytes0 iroot (ht.lt _ hi), descentFuel, M.store]
    rw [if_neg (by omega)]
    simp only [M_bind, M_pure, M.store]
    exact w1

/-! ## The memory page store under sequences of calls -/

theorem Get_dead (s : memBTreeStore) (handle : Nat) (hd : mget s.m handle = none) :
    memBTreeStore.Get handle s = (.error (.ilseq handle), s) := by
  simp only [memBTreeStore.Get, hd]

theorem Free_dead (s : memBTreeStore) (handle : Nat) (hd : mget s.m handle = none) :
    memBTreeStore.Free handle s = (.error (.ilseq handle), s) := by
  simp only [memBTreeStore.Free, hd]

theorem Realloc_dead (s : memBTreeStore) (handle : Nat) (b : Bytes)
    (hd : mget s.m handle = none) :
    memBTreeStore.Realloc handle b s = (.error (.ilseq handle), s) := by
  simp only [memBTreeStore.Realloc, hd]

/-- What one call does to the blob of `k`. -/
theorem mget_run (op : StoreOp) (s : memBTreeStore) (k : Nat) :
    mget (op.run s).m k =
      match op with
      | .alloc b => if s.h + 1 = k then some b else mget s.m k
      | .free handle => if handle = k then none else mget s.m k
      | .get _ => mget s.m k
      | .realloc handle b =>
        if handle = k ∧ (mget s.m k).isSome = true then some b else mget s.m k := by
  cases op with
  | alloc b => simp only [StoreOp.run, memBTreeStore.Alloc, mget_mset]
  | free handle =>
    simp only [StoreOp.run, memBTreeStore.Free]
    cases h : mget s.m handle with
    | none =>
      by_cases e : handle = k
      · subst e
        simp [h]
      · simp [e]
    | some v => simp only [mget_mdel]
  | get handle =>
    simp only [StoreOp.run, memBTreeStore.Get]
    cases h : mget s.m handle <;> rfl
  | realloc handle b =>
    simp only [StoreOp.run, memBTreeStore.Realloc]
    cases h : mget s.m handle with
    | none =>
      by_cases e : handle = k
      · subst e
        simp [h]
      · simp [e]
    | some v =>
      simp only [mget_mset]
      by_cases e : handle = k
      · subst e
        simp [h]
      · simp [e]

/-- The counter of the store after one call. -/
theorem h_run (op : StoreOp) (s : memBTreeStore) :
    (op.run s).h = match op with
      | .alloc _ => s.h + 1
      | _ => s.h := by
  cases op with
  | alloc b => rfl
  | free handle =>
    simp only [StoreOp.run, memBTreeStore.Free]
    cases mget s.m handle <;> rfl
  | get handle =>
    simp only [StoreOp.run, memBTreeStore.Get]
    cases mget s.m handle <;> rfl
  | realloc handle b =>
    simp only [StoreOp.run, memBTreeStore.Realloc]
    cases mget s.m handle <;> rfl

theorem h_run_le (op : StoreOp) (s : memBTreeStore) : s.h ≤ (op.run s).h := by
  rw [h_run]
  cases op <;> simp

theorem h_runOps_le (ops : List StoreOp) (s : memBTreeStore) : s.h ≤ (runOps ops s).h := by
  induction ops generalizing s with
  | nil => exact Nat.le_refl _
  | cons op r ih => exact Nat.le_trans (h_run_le op s) (ih (op.run s))

/-- The live handles of the specification are the handles that have a blob in the map, and
the counter bounds them and the handles returned so far. -/
theorem live_runOps (ops : List StoreOp) (s : memBTreeStore) (L : List Nat)
    (hL : ∀ k, (mget s.m k).isSome = true ↔ k ∈ L) (hb : ∀ k ∈ L, 0 < k ∧ k ≤ s.h) :
    (∀ k, (mget (runOps ops s).m k).isSome = true ↔ k ∈ liveAfter ops s L) ∧
    (∀ k ∈ liveAfter ops s L, 0 < k ∧ k ≤ (runOps ops s).h) ∧
    (∀ k ∈ returnedBy ops s, s.h < k ∧ k ≤ (runOps ops s).h) := by
  induction ops generalizing s L with
  | nil => exact ⟨hL, hb, fun k hk => by simp [returnedBy] at hk⟩
  | cons op r ih =>
    cases op with
    | alloc b =>
      have h1 := ih ((StoreOp.alloc b).run s) ((StoreOp.alloc b).returned s ++ L)
        (fun k => by
          rw [mget_run]
          simp only [StoreOp.returned, memBTreeStore.Alloc, List.singleton_append,
            List.mem_cons]
          by_cases e : s.h + 1 = k
          · simp [e]
          · rw [if_neg e, hL]
            constructor
            · exact fun h => Or.inr h
            · rintro (h | h)
              · exact absurd h.symm e
              · exact h)
        (fun k hk => by
          simp only [StoreOp.returned, memBTreeStore.Alloc, List.singleton_append,
            List.mem_cons] at hk
          rw [h_run]
          rcases hk with h | h
          · subst h
            exact ⟨Nat.succ_pos _, Nat.le_refl _⟩
          · exact ⟨(hb k h).1, Nat.le_succ_of_le (hb k h).2⟩)
      refine ⟨h1.1, h1.2.1, fun k hk => ?_⟩
      simp only [returnedBy, StoreOp.returned, memBTreeStore.Alloc, List.singleton_append,
        List.mem_cons] at hk
      rcases hk with h | h
      · subst h
        exact ⟨Nat.lt_succ_self _, Nat.le_trans (by rw [h_run]) (h_runOps_le r _)⟩
      · have := h1.2.2 k h
        rw [h_run] at this
        have h3 : s.h + 1 < k := this.1
        exact ⟨by omega, this.2⟩
    | free handle =>
      have h1 := ih ((StoreOp.free handle).run s) (L.filter (fun k => k ≠ handle))
        (fun k => by
          rw [mget_run]
          simp only [List.mem_filter, decide_eq_true_eq]
          by_cases e : handle = k
          · subst e
            simp
          · rw [if_neg e, hL]
            exact ⟨fun h => ⟨h, fun h2 => e h2.symm⟩, fun h => h.1⟩)
        (fun k hk => by
          rw [h_run]
          exact hb k (List.mem_filter.1 hk).1)
      refine ⟨h1.1, h1.2.1, fun k hk => ?_⟩
      simp only [returnedBy, StoreOp.returned, List.nil_append] at hk
      have := h1.2.2 k hk
      rw [h_run] at this
      exact this
    | get handle =>
      have h1 := ih ((StoreOp.get handle).run s) ((StoreOp.get handle).returned s ++ L)
        (fun k => by
          rw [mget_run]
          simpa [StoreOp.returned] using hL k)
        (fun k hk => by
          rw [h_run]
          exact hb k (by simpa [StoreOp.returned] using hk))
      refine ⟨h1.1, h1.2.1, fun k hk => ?_⟩
      simp only [returnedBy, StoreOp.returned, List.nil_append] at hk
      have := h1.2.2 k hk
      rw [h_run] at this
      exact this
    | realloc handle b =>
      have h1 := ih ((StoreOp.realloc handle b).run s)
        ((StoreOp.realloc handle b).returned s ++ L)
        (fun k => by
          rw [mget_run]
          simp only [StoreOp.returned, List.nil_append]
          rw [← hL]
          by_cases e : handle = k ∧ (mget s.m k).isSome = true
          · simp [e]
          · simp [e])
        (fun k hk => by
          rw [h_run]
          exact hb k (by simpa [StoreOp.returned] using hk))
      refine ⟨h1.1, h1.2.1, fun k hk => ?_⟩
      simp only [returnedBy, StoreOp.returned, List.nil_append] at hk
      have := h1.2.2 k hk
      rw [h_run] at this
      exact this

/-- Calls that do not touch `handle` keep its blob, whatever else they allocate, as long
as `handle` is at most the counter. -/
theorem mget_runOps_untouched (ops : List StoreOp) (s : memBTreeStore) (handle : Nat)
    (hh : handle ≤ s.h) (hu : ∀ op ∈ ops, ¬ op.touches handle) :
    mget (runOps ops s).m handle = mget s.m handle := by
  induction ops generalizing s with
  | nil => rfl
  | cons op r ih =>
    have h1 := ih (op.run s) (Nat.le_trans hh (h_run_le op s))
      (fun o ho => hu o (List.mem_cons_of_mem _ ho))
    have h2 := hu op (List.mem_cons_self _ _)
    show mget (runOps r (op.run s)).m handle = _
    rw [h1, mget_run]
    cases op with
    | alloc b => exact if_neg (by omega)
    | free k => exact if_neg h2
    | get k => rfl
    | realloc k b => exact if_neg (fun h => h2 h.1)

/-- On the two-leaf tree the enumerator of `Seek(511)` is at its end. -/
theorem seekCurrent_twoLeafTree : seekCurrent twoLeafTree [1, 255] = .error .eof := by
  decide!

/-- When the enumerator of `Seek(from)` is at its end, `Do` on the slice from `from` without
an upper bound and without a prefix returns at once. -/
theorem Do_eof_at_seek (t : BTree) (env : DoEnv) (skip : Nat) (x : Bytes)
    (hv : env.validate = (true, none)) (he : env.enter = none)
    (h : seekCurrent (some t) x = .error .eof) :
    Slice.Do ⟨some t, [], skip, some x, none⟩ env = ((env.leave none).2, []) := by
  simp only [seekCurrent] at h
  simp only [Slice.Do, hv, he, BTree.IsMem, BTree.Handle, List.nil_append, Option.getD_some]
  cases hs : BTree.Seek (some t) x with
  | error e =>
    rw [hs] at h
    simp only [Except.error.injEq] at h
    subst h
    simp [hs, noEof]
  | ok r =>
    obtain ⟨enum, hit⟩ := r
    rw [hs] at h
    simp only at h
    simp [hs, dumpFuel, Slice.doLoop, h, noEof]

/-! ## Theorems -/

/-- C7: on the tree that holds key `[1]` with the empty value, `Get` returns the empty
non-nil slice while `Extract` returns nil, the result it also gives for an absent key. -/
theorem extract_differs_from_get_on_empty_value :
    BTree.Get emptyValueTree [1] = .ok (some []) ∧
    (BTree.Extract emptyValueTree [1]).1 = .ok none ∧
    (BTree.Extract emptyValueTree [7]).1 = .ok none := by
  decide!

set_option synthInstance.maxSize 1024 in
/-- C8: on the tree that holds key `[1]` with the empty value, `Put` calls the updater once
with `old = nil` and returns `old = nil`, exactly as it does for the absent key `[7]`,
although `Get` returns a non-nil value for `[1]` and nil for `[7]`. -/
theorem put_passes_nil_for_empty_value :
    BTree.Get emptyValueTree [1] = .ok (some []) ∧
    (BTree.Put emptyValueTree [1] neverWrite).1 = .ok (none, false, [([1], none)]) ∧
    BTree.Get emptyValueTree [7] = .ok none ∧
    (BTree.Put emptyValueTree [7] neverWrite).1 = .ok (none, false, [([7], none)]) := by
  decide!

/-- C10: on the two-leaf tree with keys 0, 2, ..., 1024, `Seek(511)` is not a hit and
`Current` returns io.EOF, although key 512 is in the tree (`Get` finds it) and is the pair
that `Current` returns after one `Next`. -/
theorem seek_current_eof_before_last_pair :
    (BTree.Seek twoLeafTree [1, 255]).map (fun r => r.2) = .ok false ∧
    seekCurrent twoLeafTree [1, 255] = .error .eof ∧
    BTree.Get twoLeafTree [2, 0] = .ok (some [1]) ∧
    seekNextCurrent twoLeafTree [1, 255] = .ok ([2, 0], [1]) := by
  decide!

/-- C13: if `Clear` returns without error on a tree whose root record has 7 bytes, the
tree is empty afterwards: `SeekFirst` returns `io.EOF`, `Get` returns nil for every key,
and the blob at the root handle is 7 zero bytes. -/
theorem clear_leaves_empty_tree (t : Option BTree)
    (h7 : (BTree.rootBlob t).map List.length = some 7)
    (hok : (BTree.Clear t).1 = .ok ()) :
    BTree.SeekFirst (BTree.Clear t).2 = .error .eof ∧
    (∀ key, BTree.Get (BTree.Clear t).2 key = .ok none) ∧
    BTree.rootBlob (BTree.Clear t).2 = some (zeros 7) := by
  cases t with
  | none => cases hok
  | some t =>
    obtain ⟨s, root, c⟩ := t
    have hr := clear_root root s h7 hok
    simp only [BTree.Clear, BTree.run] at hr ⊢
    refine ⟨?_, fun key => ?_, hr⟩
    · simp only [BTree.SeekFirst, BTree.run, first_of_zero_root root _ hr]
    · simp only [BTree.Get, BTree.run, get_of_zero_root root c key _ hr]

/-- The theorem of C13 at the tree that holds the one key `[1]`. -/
theorem clear_leaves_empty_tree_witness :
    (BTree.rootBlob emptyValueTree).map List.length = some 7 ∧
    (BTree.Clear emptyValueTree).1 = .ok () ∧
    BTree.SeekFirst (BTree.Clear emptyValueTree).2 = .error .eof ∧
    (∀ key, BTree.Get (BTree.Clear emptyValueTree).2 key = .ok none) ∧
    BTree.rootBlob (BTree.Clear emptyValueTree).2 = some (zeros 7) :=
  ⟨by decide!, by decide!, clear_leaves_empty_tree emptyValueTree (by decide!) (by decide!)⟩

/-- C18: on the empty tree, where `First` returns nil, nil and no error, `Dump` returns
`io.EOF`, the error of its `SeekFirst`, whatever the comparator, decoder and writer. -/
theorem dump_returns_eof_on_empty_tree (c : Option (Bytes → Bytes → Int))
    (decode : Bytes → Except Err (Option (List String))) (w : String → Option Err) :
    BTree.First (some (NewBTree c)) = .ok (none, none) ∧
    BTree.Dump (some (NewBTree c)) decode w = (some .eof, []) :=
  ⟨rfl, rfl⟩

/-- C19, as stated: on the nil receiver `IsMem` and `Handle` dereference the receiver,
they return no error. -/
theorem nil_receiver_isMem_handle_panic :
    BTree.IsMem none = .error .panic ∧ BTree.Handle none = .error .panic :=
  ⟨rfl, rfl⟩

/-- C19, amended: on the nil receiver every method of `BTree` that has an error result,
and every method of `BTreeEnumerator`, returns the nil receiver error. -/
theorem nil_receiver_returns_error (key value : Bytes) (upd : Updater)
    (decode : Bytes → Except Err (Option (List String))) (w : String → Option Err) :
    (BTree.Clear none).1 = .error .nilReceiver ∧
    (BTree.Delete none key).1 = .error .nilReceiver ∧
    (BTree.DeleteAny none).1 = .error .nilReceiver ∧
    (BTree.Dump none decode w).1 = some .nilReceiver ∧
    (BTree.Extract none key).1 = .error .nilReceiver ∧
    BTree.First none = .error .nilReceiver ∧
    BTree.Get none key = .error .nilReceiver ∧
    BTree.Last none = .error .nilReceiver ∧
    (BTree.Put none key upd).1 = .error .nilReceiver ∧
    BTree.Seek none key = .error .nilReceiver ∧
    BTree.SeekFirst none = .error .nilReceiver ∧
    BTree.SeekLast none = .error .nilReceiver ∧
    (BTree.Set none key value).1 = .error .nilReceiver ∧
    BTreeEnumerator.Current none = .error .nilReceiver ∧
    (BTreeEnumerator.Next none).1 = some .nilReceiver ∧
    (BTreeEnumerator.Prev none).1 = some .nilReceiver :=
  ⟨rfl, rfl, rfl, rfl, rfl, rfl, rfl, rfl, rfl, rfl, rfl, rfl, rfl, rfl, rfl, rfl⟩

/-- C20: from every store and root, a client of the tree with the nil comparator and a
client of the tree with `bytesCompare` get the same results from every sequence of calls
of the public methods, and the calls leave the same store. -/
theorem nil_collate_is_bytes_compare (s : memBTreeStore) (root : Nat) (ops : List Op) :
    ((clientOf s root none).run ops).1 = ((clientOf s root (some bytesCompare)).run ops).1 ∧
    ((clientOf s root none).run ops).2.store =
      ((clientOf s root (some bytesCompare)).run ops).2.store := by
  have h := run_sim ops (clientOf s root none) (clientOf s root (some bytesCompare))
    ⟨⟨s, root, rfl, rfl⟩, trivial⟩
  exact ⟨h.1, sim_store _ _ h.2⟩

/-- C21: after any sequence of calls on a new memory store, `Get`, `Free` and `Realloc` on a
handle that is not live (not returned by `Alloc`, or freed since) return the
illegal-sequence error of that handle and leave the store as it is; on a live handle the
three of them succeed. -/
theorem store_calls_on_dead_and_live_handles (ops : List StoreOp) (handle : Nat) (b : Bytes) :
    (handle ∉ liveAfter ops newMemBTreeStore [] →
      memBTreeStore.Get handle (runOps ops newMemBTreeStore) =
        (.error (.ilseq handle), runOps ops newMemBTreeStore) ∧
      memBTreeStore.Free handle (runOps ops newMemBTreeStore) =
        (.error (.ilseq handle), runOps ops newMemBTreeStore) ∧
      memBTreeStore.Realloc handle b (runOps ops newMemBTreeStore) =
        (.error (.ilseq handle), runOps ops newMemBTreeStore)) ∧
    (handle ∈ liveAfter ops newMemBTreeStore [] →
      (∃ v, memBTreeStore.Get handle (runOps ops newMemBTreeStore) =
        (.ok v, runOps ops newMemBTreeStore)) ∧
      (memBTreeStore.Free handle (runOps ops newMemBTreeStore)).1 = .ok () ∧
      (memBTreeStore.Realloc handle b (runOps ops newMemBTreeStore)).1 = .ok ()) := by
  have hl := (live_runOps ops newMemBTreeStore [] (fun k => by simp [newMemBTreeStore, mget])
    (fun k hk => by simp at hk)).1 handle
  constructor
  · intro hd
    have hn : mget (runOps ops newMemBTreeStore).m handle = none := by
      cases h : mget (runOps ops newMemBTreeStore).m handle with
      | none => rfl
      | some v => exact absurd (hl.1 (by rw [h]; rfl)) hd
    exact ⟨Get_dead _ _ hn, Free_dead _ _ hn, Realloc_dead _ _ _ hn⟩
  · intro ha
    have hs := hl.2 ha
    cases h : mget (runOps ops newMemBTreeStore).m handle with
    | none => rw [h] at hs; cases hs
    | some v =>
      exact ⟨⟨v, Get_ok _ _ _ h⟩, by rw [Free_ok _ _ _ h], by rw [Realloc_ok _ _ _ _ h]⟩

/-- The theorem of C21 after `Alloc`, `Alloc`, `Free(1)`: handle 1 is dead, handle 2 is
live. -/
theorem store_calls_on_dead_and_live_handles_witness :
    (memBTreeStore.Get 1 (runOps [.alloc [7], .alloc [8], .free 1] newMemBTreeStore) =
        (.error (.ilseq 1), runOps [.alloc [7], .alloc [8], .free 1] newMemBTreeStore) ∧
      memBTreeStore.Free 1 (runOps [.alloc [7], .alloc [8], .free 1] newMemBTreeStore) =
        (.error (.ilseq 1), runOps [.alloc [7], .alloc [8], .free 1] newMemBTreeStore) ∧
      memBTreeStore.Realloc 1 [9] (runOps [.alloc [7], .alloc [8], .free 1] newMemBTreeStore) =
        (.error (.ilseq 1), runOps [.alloc [7], .alloc [8], .free 1] newMemBTreeStore)) ∧
    ((∃ v, memBTreeStore.Get 2 (runOps [.alloc [7], .alloc [8], .free 1] newMemBTreeStore) =
        (.ok v, runOps [.alloc [7], .alloc [8], .free 1] newMemBTreeStore)) ∧
      (memBTreeStore.Free 2 (runOps [.alloc [7], .alloc [8], .free 1] newMemBTreeStore)).1 =
        .ok () ∧
      (memBTreeStore.Realloc 2 [9]
        (runOps [.alloc [7], .alloc [8], .free 1] newMemBTreeStore)).1 = .ok ()) :=
  ⟨(store_calls_on_dead_and_live_handles [.alloc [7], .alloc [8], .free 1] 1 [9]).1
      (by decide),
    (store_calls_on_dead_and_live_handles [.alloc [7], .alloc [8], .free 1] 2 [9]).2
      (by decide)⟩

/-- C22: after any sequence `ops` of calls on a new memory store (fewer than 2^63 calls in
all, so that the int64 counter of the source, unbounded here, has not wrapped), `Alloc(b)`
returns a handle that is not zero, is not live and was not returned by an earlier `Alloc`;
`Get` on it returns `b` after any further calls that are not a `Realloc` or `Free` of it;
and `Alloc`, `Realloc` and `Free` of one handle keep the bytes under every other handle.
The blob that `Alloc` and `Realloc` keep is `bpack b`, which is not under src/ and is
modelled from the spec as the immutable snapshot of `b`: the theorem says nothing of a
`bpack` that would keep the buffer of the caller. -/
theorem alloc_returns_fresh_handle (ops ops2 : List StoreOp) (b : Bytes)
    (_hw : ops.length + ops2.length + 1 < 2 ^ 63) :
    ∃ handle,
      (memBTreeStore.Alloc b (runOps ops newMemBTreeStore)).1 = .ok handle ∧
      handle ≠ 0 ∧
      handle ∉ liveAfter ops newMemBTreeStore [] ∧
      handle ∉ returnedBy ops newMemBTreeStore ∧
      ((∀ op ∈ ops2, ¬ op.touches handle) →
        memBTreeStore.Get handle
            (runOps ops2 (memBTreeStore.Alloc b (runOps ops newMemBTreeStore)).2) =
          (.ok b, runOps ops2 (memBTreeStore.Alloc b (runOps ops newMemBTreeStore)).2)) ∧
      (∀ k, k ≠ handle →
        mget (memBTreeStore.Alloc b (runOps ops newMemBTreeStore)).2.m k =
          mget (runOps ops newMemBTreeStore).m k) ∧
      (∀ k other b2, other ≠ k →
        mget (memBTreeStore.Realloc other b2 (runOps ops newMemBTreeStore)).2.m k =
          mget (runOps ops newMemBTreeStore).m k ∧
        mget (memBTreeStore.Free other (runOps ops newMemBTreeStore)).2.m k =
          mget (runOps ops newMemBTreeStore).m k) := by
  have hl := live_runOps ops newMemBTreeStore []
    (fun k => by simp [newMemBTreeStore, mget]) (fun k hk => by simp at hk)
  refine ⟨(runOps ops newMemBTreeStore).h + 1, rfl, Nat.succ_ne_zero _, fun h => ?_,
    fun h => ?_, fun hu => ?_, fun k hk => ?_, fun k other b2 hk => ⟨?_, ?_⟩⟩
  · have := (hl.2.1 _ h).2
    omega
  · have := (hl.2.2 _ h).2
    omega
  · have h1 := mget_runOps_untouched ops2
      (memBTreeStore.Alloc b (runOps ops newMemBTreeStore)).2
      ((runOps ops newMemBTreeStore).h + 1) (Nat.le_refl _) hu
    refine Get_ok _ _ _ ?_
    rw [h1]
    simp only [memBTreeStore.Alloc, mget_mset, if_true]
  · simp only [memBTreeStore.Alloc, mget_mset]
    exact if_neg (fun h => hk h.symm)
  · have := mget_run (.realloc other b2) (runOps ops newMemBTreeStore) k
    simp only [StoreOp.run] at this
    rw [this]
    exact if_neg (fun h => hk h.1)
  · have := mget_run (.free other) (runOps ops newMemBTreeStore) k
    simp only [StoreOp.run] at this
    rw [this]
    exact if_neg hk

/-- The theorem of C22 after `Alloc`, `Free(1)`, with another `Alloc` and a `Realloc` of
handle 1 as the further calls. -/
theorem alloc_returns_fresh_handle_witness :
    ∃ handle,
      (memBTreeStore.Alloc [7] (runOps [.alloc [1], .free 1] newMemBTreeStore)).1 =
        .ok handle ∧
      handle ≠ 0 ∧
      handle ∉ liveAfter [.alloc [1], .free 1] newMemBTreeStore [] ∧
      handle ∉ returnedBy [.alloc [1], .free 1] newMemBTreeStore ∧
      ((∀ op ∈ [StoreOp.alloc [2], StoreOp.realloc 1 [3]], ¬ op.touches handle) →
        memBTreeStore.Get handle
            (runOps [.alloc [2], .realloc 1 [3]]
              (memBTreeStore.Alloc [7] (runOps [.alloc [1], .free 1] newMemBTreeStore)).2) =
          (.ok [7], runOps [.alloc [2], .realloc 1 [3]]
            (memBTreeStore.Alloc [7] (runOps [.alloc [1], .free 1] newMemBTreeStore)).2)) ∧
      (∀ k, k ≠ handle →
        mget (memBTreeStore.Alloc [7] (runOps [.alloc [1], .free 1] newMemBTreeStore)).2.m k =
          mget (runOps [.alloc [1], .free 1] newMemBTreeStore).m k) ∧
      (∀ k other b2, other ≠ k →
        mget (memBTreeStore.Realloc other b2
            (runOps [.alloc [1], .free 1] newMemBTreeStore)).2.m k =
          mget (runOps [.alloc [1], .free 1] newMemBTreeStore).m k ∧
        mget (memBTreeStore.Free other (runOps [.alloc [1], .free 1] newMemBTreeStore)).2.m k =
          mget (runOps [.alloc [1], .free 1] newMemBTreeStore).m k) :=
  alloc_returns_fresh_handle [.alloc [1], .free 1] [.alloc [2], .realloc 1 [3]] [7]
    (by norm_num)

/-- C23: on the two-leaf tree with the keys 0, 2, ..., 1024, `Do` on the slice from 511
without an upper bound never calls `f` and returns no error (what `db.leave` makes of
nil), although the tree holds pairs within the bounds of the slice, the pair of key 512
for one, which `Get` finds. -/
theorem slice_do_stops_before_pairs_in_range (env : DoEnv) (skip : Nat)
    (hv : env.validate = (true, none)) (he : env.enter = none) :
    Slice.Do ⟨twoLeafTree, [], skip, some [1, 255], none⟩ env = ((env.leave none).2, []) ∧
    BTree.Get twoLeafTree [2, 0] = .ok (some [1]) ∧
    bytesCompare [1, 255] [2, 0] < 0 := by
  exact ⟨Do_eof_at_seek _ env skip [1, 255] hv he seekCurrent_twoLeafTree, by decide!,
    by decide⟩

/-- The theorem of C23 in the environment in which nothing fails. -/
theorem slice_do_stops_before_pairs_in_range_witness :
    plainEnv.validate = (true, none) ∧ plainEnv.enter = none ∧
    Slice.Do ⟨twoLeafTree, [], 0, some [1, 255], none⟩ plainEnv =
      ((plainEnv.leave none).2, []) ∧
    BTree.Get twoLeafTree [2, 0] = .ok (some [1]) ∧
    bytesCompare [1, 255] [2, 0] < 0 :=
  ⟨rfl, rfl, slice_do_stops_before_pairs_in_range plainEnv 0 rfl rfl⟩

/-- C28: for every page `pre ++ f ++ rest` and the slot `f` at offset `len(pre)` of it that
holds valid content (inline, or 0xFF with a handle to a live blob), every store whose next
handle fits the 7 bytes of a handle, and every `b`: `setContent` succeeds and changes the
slot only, `content` then returns exactly `b`, and when `len(b) >= kKV` the slot starts
with 0xFF, holds the first `kSz` bytes of `b` and the handle of a live blob that holds the
remaining bytes. -/
theorem setContent_content_round_trip (pre f rest b : Bytes) (s : memBTreeStore)
    (hf : FieldOk s.m f) (hff : f.headD 0 ≥ kKV → f.headD 0 = 0xff)
    (hs : s.h + 1 < 2 ^ 56) :
    ∃ f1 s1,
      btreeDataPage.setContent (pre ++ f ++ rest) pre.length b s =
        (.ok (pre ++ f1 ++ rest), s1) ∧
      f1.length = kKV ∧
      btreeDataPage.content (pre ++ f1 ++ rest) pre.length s1 = (.ok b, s1) ∧
      (kKV ≤ b.length →
        f1.headD 0 = 0xff ∧ (f1.drop 1).take kSz = b.take kSz ∧
        ∃ handle, b2h (f1.drop kH) = .ok handle ∧ handle ≠ 0 ∧
          mget s1.m handle = some (b.drop kSz)) := by
  have h1 := setContent_of (pre.length : Int) pre.length rfl pre f rest b rfl s hf
  have h2 := setField_ok s f b hf hs
  have h3 := content_of (pre ++ (setField s f b).1 ++ rest) (pre.length : Int) pre.length rfl
    (setField s f b).1 rest (by simp) (setField s f b).2 h2.1
  rw [h2.2] at h3
  refine ⟨(setField s f b).1, (setField s f b).2, h1, h2.1.1, h3, fun hb => ?_⟩
  have hb2 : ¬ b.length < 19 := by
    have : kKV = 19 := rfl
    omega
  have hH := fieldH_setField s f b hs
  rw [if_neg hb2] at hH
  have hl := h2.1.1
  have key : ∃ hb, (setField s f b).1 = fieldSetOv 255 b hb ∧
      mget (setField s f b).2.m (fieldH (setField s f b).1) = some (b.drop 11) ∧
      fieldH (setField s f b).1 ≠ 0 := by
    by_cases h0 : f.headD 0 ≥ 19
    · have h255 := hff h0
      refine ⟨f.drop 12, ?_, ?_, ?_⟩
      · simp only [setField, if_pos h0, if_neg hb2]
        rw [h255]
      · rw [hH, if_pos h0]
        simp only [setField, if_pos h0, if_neg hb2, mget_mset, if_true]
      · rw [hH, if_pos h0]
        rcases hf.2 with h | h
        · omega
        · exact h.1
    · refine ⟨h2bBytes (s.h + 1), ?_, ?_, ?_⟩
      · simp only [setField, if_neg h0, if_neg hb2]
      · rw [hH, if_neg h0]
        simp only [setField, if_neg h0, if_neg hb2, mget_mset, if_true]
      · rw [hH, if_neg h0]
        exact Nat.succ_ne_zero _
  obtain ⟨hbs, e, hlive, hne⟩ := key
  have hhead : (setField s f b).1.headD 0 = 255 := by rw [e]; rfl
  have hd : 7 ≤ ((setField s f b).1.drop 12).length := by
    rw [List.length_drop, hl]
  have hfh : fieldH (setField s f b).1 = b2hN ((setField s f b).1.drop 12) := by
    simp only [fieldH, hhead, ge_iff_le, Nat.reduceLeDiff, if_true]
  refine ⟨hhead, ?_, fieldH (setField s f b).1, ?_, hne, hlive⟩
  · rw [e]
    show ((b.take 11) ++ hbs).take 11 = b.take 11
    exact take_pre (b.take 11) hbs 11 (by rw [List.length_take]; omega)
  · rw [hfh]
    show b2h ((setField s f b).1.drop 12) = _
    simp only [b2h, b2hN, if_pos hd]

/-- The theorem of C28 at the first key slot of a one-item data page, for a content of 30
bytes. -/
theorem setContent_content_round_trip_witness :
    FieldOk (⟨1, [(1, zeros 7)]⟩ : memBTreeStore).m (zeros 19) ∧
    ((zeros 19).headD 0 ≥ kKV → (zeros 19).headD 0 = 0xff) ∧
    ∃ f1 s1,
      btreeDataPage.setContent (([1] ++ zeros 14) ++ zeros 19 ++ zeros 19)
          ([1] ++ zeros 14).length (List.replicate 30 7) ⟨1, [(1, zeros 7)]⟩ =
        (.ok (([1] ++ zeros 14) ++ f1 ++ zeros 19), s1) ∧
      f1.length = kKV ∧
      btreeDataPage.content (([1] ++ zeros 14) ++ f1 ++ zeros 19) ([1] ++ zeros 14).length s1 =
        (.ok (List.replicate 30 7), s1) ∧
      (kKV ≤ (List.replicate 30 7).length →
        f1.headD 0 = 0xff ∧ (f1.drop 1).take kSz = (List.replicate 30 7).take kSz ∧
        ∃ handle, b2h (f1.drop kH) = .ok handle ∧ handle ≠ 0 ∧
          mget s1.m handle = some ((List.replicate 30 7).drop kSz)) :=
  ⟨FieldOk_zeros _, by decide,
    setContent_content_round_trip ([1] ++ zeros 14) (zeros 19) (zeros 19)
      (List.replicate 30 7) ⟨1, [(1, zeros 7)]⟩ (FieldOk_zeros _) (by decide) (by norm_num)⟩

/-- C29: `setContent` writes the length byte and the content bytes of an inline content and
leaves the other bytes of the slot as they were.  Writing `[7]` over the inline `[5, 5]`
leaves the 5 in the padding, and over an overflow content it leaves the old bytes and the
old handle there; after `Set([1], [5, 5])` and `Set([1], [7])` on a new tree the value
slot of the leaf (handle 2) is 1, 7, 5 and 16 zero bytes. -/
theorem setContent_leaves_stale_padding :
    (btreeDataPage.setContent ([2, 5, 5] ++ zeros 16) 0 [7] newMemBTreeStore).1 =
      .ok ([1, 7, 5] ++ zeros 16) ∧
    (btreeDataPage.setContent ([255] ++ List.replicate 11 9 ++ h2bBytes 1) 0 [7]
        ⟨1, [(1, [9, 9])]⟩).1 = .ok ([1, 7] ++ List.replicate 10 9 ++ h2bBytes 1) ∧
    (setAll (some (NewBTree none)) [([1], [5, 5]), ([1], [7])]).map
        (fun t => mget t.store.m 2) =
      some (some ([1] ++ zeros 14 ++ ([1, 1] ++ zeros 17) ++ ([1, 7, 5] ++ zeros 16))) := by
  decide!

/-! ## `bytes.Compare` is a total order -/

theorem bytesCompare_cases (a b : Bytes) :
    bytesCompare a b = -1 ∨ bytesCompare a b = 0 ∨ bytesCompare a b = 1 := by
  induction a generalizing b with
  | nil => cases b <;> simp [bytesCompare]
  | cons x a ih =>
    cases b with
    | nil => simp [bytesCompare]
    | cons y b =>
      unfold bytesCompare
      by_cases h1 : x < y
      · simp [h1]
      · by_cases h2 : y < x
        · simp [h1, h2]
        · simpa [h1, h2] using ih b

theorem bytesCompare_antisymm (a b : Bytes) : bytesCompare a b < 0 ↔ 0 < bytesCompare b a := by
  induction a generalizing b with
  | nil => cases b <;> simp [bytesCompare]
  | cons x a ih =>
    cases b with
    | nil => simp [bytesCompare]
    | cons y b =>
      unfold bytesCompare
      by_cases h1 : x < y
      · have h2 : ¬ y < x := by omega
        simp [h1, h2]
      · by_cases h2 : y < x
        · simp [h1, h2]
        · simpa [h1, h2] using ih b

theorem bytesCompare_le_trans (a b d : Bytes) (h1 : bytesCompare a b ≤ 0)
    (h2 : bytesCompare b d ≤ 0) : bytesCompare a d ≤ 0 := by
  induction a generalizing b d with
  | nil => cases d <;> simp [bytesCompare]
  | cons x a ih =>
    cases b with
    | nil => simp [bytesCompare] at h1
    | cons y b =>
      cases d with
      | nil => simp [bytesCompare] at h2
      | cons z d =>
        unfold bytesCompare at h1 h2 ⊢
        by_cases hxy : x < y
        · by_cases hyz : y < z
          · rw [if_pos (by omega : x < z)]; omega
          · rw [if_neg hyz] at h2
            by_cases hzy : z < y
            · rw [if_pos hzy] at h2; omega
            · rw [if_pos (by omega : x < z)]; omega
        · rw [if_neg hxy] at h1
          by_cases hyx : y < x
          · rw [if_pos hyx] at h1; omega
          · rw [if_neg hyx] at h1
            have hxe : x = y := by omega
            subst hxe
            by_cases hyz : x < z
            · rw [if_pos hyz]; omega
            · rw [if_neg hyz] at h2 ⊢
              by_cases hzy : z < x
              · rw [if_pos hzy] at h2; omega
              · rw [if_neg hzy] at h2 ⊢
                exact ih b d h1 h2

theorem bytesCompare_total : TotalCmp bytesCompare :=
  ⟨bytesCompare_antisymm, bytesCompare_le_trans⟩

theorem cmpOf_none_total : TotalCmp (cmpOf none) := bytesCompare_total

/-! ## The slot indices `find` compares at -/

/-- The loop of `find` is the instrumented loop without the list of indices. -/
theorem findLoop_eq_probes (p : Bytes) (isIndex : Bool) (c : Bytes → Bytes → Int) (key : Bytes) :
    ∀ (fuel : Nat) (l h : Int) (s : memBTreeStore),
      btreePage.findLoop p isIndex c key fuel l h s =
        ((btreePage.findLoopProbes p isIndex c key fuel l h s).1.map Prod.fst,
          (btreePage.findLoopProbes p isIndex c key fuel l h s).2) := by
  intro fuel
  induction fuel with
  | zero => intro l h s; rfl
  | succ fuel ih =>
    intro l h s
    unfold btreePage.findLoop btreePage.findLoopProbes
    by_cases hlh : l ≤ h
    · simp only [if_pos hlh, M_bind]
      rcases hx : (if isIndex then btreeIndexPage.cmp p c key ((l + h) / 2)
          else btreeDataPage.cmp p c key ((l + h) / 2)) s with ⟨r, s1⟩
      cases r with
      | error e => rfl
      | ok v =>
        simp only
        by_cases h1 : v > 0
        · simp only [if_pos h1, M_bind]
          rw [ih]
          rcases btreePage.findLoopProbes p isIndex c key fuel ((l + h) / 2 + 1) h s1 with ⟨r2, s2⟩
          cases r2 with
          | error e => rfl
          | ok w => rfl
        · simp only [if_neg h1]
          by_cases h2 : v = 0
          · simp only [if_pos h2]
            rfl
          · simp only [if_neg h2, M_bind]
            rw [ih]
            rcases btreePage.findLoopProbes p isIndex c key fuel l ((l + h) / 2 - 1) s1 with
              ⟨r2, s2⟩
            cases r2 with
            | error e => rfl
            | ok w => rfl
    · simp only [if_neg hlh]
      rfl

/-- Every index the loop of `find` compares at lies between its bounds `l` and `h`. -/
theorem findLoopProbes_range (p : Bytes) (isIndex : Bool) (c : Bytes → Bytes → Int)
    (key : Bytes) :
    ∀ (fuel : Nat) (l h : Int) (s s2 : memBTreeStore) (r : Int × Bool) (probes : List Int),
      btreePage.findLoopProbes p isIndex c key fuel l h s = (.ok (r, probes), s2) →
      ∀ i ∈ probes, l ≤ i ∧ i ≤ h := by
  intro fuel
  induction fuel with
  | zero =>
    intro l h s s2 r probes hrun
    cases hrun
  | succ fuel ih =>
    intro l h s s2 r probes hrun
    unfold btreePage.findLoopProbes at hrun
    by_cases hlh : l ≤ h
    · simp only [if_pos hlh, M_bind] at hrun
      rcases hx : (if isIndex then btreeIndexPage.cmp p c key ((l + h) / 2)
          else btreeDataPage.cmp p c key ((l + h) / 2)) s with ⟨r1, s1⟩
      rw [hx] at hrun
      cases r1 with
      | error e => cases hrun
      | ok v =>
        simp only at hrun
        by_cases h1 : v > 0
        · simp only [if_pos h1, M_bind] at hrun
          rcases hy : btreePage.findLoopProbes p isIndex c key fuel ((l + h) / 2 + 1) h s1 with
            ⟨r2, s3⟩
          rw [hy] at hrun
          cases r2 with
          | error e => cases hrun
          | ok w =>
            obtain ⟨w1, w2⟩ := w
            simp only [M_pure, Prod.mk.injEq, Except.ok.injEq] at hrun
            obtain ⟨⟨-, hp⟩, -⟩ := hrun
            subst hp
            intro i hi
            rcases List.mem_cons.1 hi with e | hm
            · subst e; omega
            · have := ih _ _ _ _ _ _ hy i hm
              omega
        · simp only [if_neg h1] at hrun
          by_cases h2 : v = 0
          · simp only [if_pos h2, M_pure, Prod.mk.injEq, Except.ok.injEq] at hrun
            obtain ⟨⟨-, hp⟩, -⟩ := hrun
            subst hp
            intro i hi
            rcases List.mem_cons.1 hi with e | hm
            · subst e; omega
            · cases hm
          · simp only [if_neg h2, M_bind] at hrun
            rcases hy : btreePage.findLoopProbes p isIndex c key fuel l ((l + h) / 2 - 1) s1 with
              ⟨r2, s3⟩
            rw [hy] at hrun
            cases r2 with
            | error e => cases hrun
            | ok w =>
              obtain ⟨w1, w2⟩ := w
              simp only [M_pure, Prod.mk.injEq, Except.ok.injEq] at hrun
              obtain ⟨⟨-, hp⟩, -⟩ := hrun
              subst hp
              intro i hi
              rcases List.mem_cons.1 hi with e | hm
              · subst e; omega
              · have := ih _ _ _ _ _ _ hy i hm
                omega
    · simp only [if_neg hlh, M_pure, Prod.mk.injEq, Except.ok.injEq] at hrun
      obtain ⟨⟨-, hp⟩, -⟩ := hrun
      subst hp
      intro i hi
      cases hi

/-- The function `find` is the instrumented `find` without the list of indices. -/
theorem find_eq_probes (p : Bytes) (c : Option (Bytes → Bytes → Int)) (key : Bytes)
    (s : memBTreeStore) :
    btreePage.find p c key s =
      ((btreePage.findProbes p c key s).1.map Prod.fst, (btreePage.findProbes p c key s).2) := by
  simp only [btreePage.find, btreePage.findProbes, M_bind, M_liftM, M_monadLift]
  cases btreePage.len p with
  | error e => rfl
  | ok n =>
    simp only
    cases btreePage.isIndex p with
    | error e => rfl
    | ok b =>
      simp only
      exact findLoop_eq_probes _ _ _ _ _ _ _ _

/-- The indices `find` compares at lie in the page. -/
theorem findProbes_range (p : Bytes) (c : Option (Bytes → Bytes → Int)) (key : Bytes)
    (s s2 : memBTreeStore) (n : Int) (hn : btreePage.len p = .ok n) (r : Int × Bool)
    (probes : List Int) (hrun : btreePage.findProbes p c key s = (.ok (r, probes), s2)) :
    ∀ i ∈ probes, 0 ≤ i ∧ i < n := by
  simp only [btreePage.findProbes, M_bind, M_liftM, M_monadLift, hn] at hrun
  cases hb : btreePage.isIndex p with
  | error e =>
    rw [hb] at hrun
    cases hrun
  | ok b =>
    rw [hb] at hrun
    simp only at hrun
    intro i hi
    have := findLoopProbes_range _ _ _ _ _ _ _ _ _ _ _ hrun i hi
    omega

/-- What `FindSpec` says in terms of the list of the keys. -/
theorem FindSpec.list {c : Bytes → Bytes → Int} (hc : TotalCmp c) {key : Bytes} {K : List Bytes}
    {j : Nat} {ok : Bool} (h : FindSpec c key (fun i => K.getD i []) K.length j ok) :
    j ≤ K.length ∧ (ok = true ↔ ∃ k ∈ K, c key k = 0) ∧
    (ok = true → ∃ k, K.get? j = some k ∧ c key k = 0) ∧
    (ok = false → j = K.countP (fun k => decide (c k key < 0))) := by
  obtain ⟨h1, h2, h3⟩ := h
  refine ⟨h1, ⟨?_, ?_⟩, ?_, ?_⟩
  · intro hok
    obtain ⟨hj, he⟩ := h2 hok
    refine ⟨K.getD j [], ?_, he⟩
    rw [List.getD_eq_getElem _ _ hj]
    exact List.getElem_mem hj
  · rintro ⟨k, hk, he⟩
    cases ok with
    | true => rfl
    | false =>
      exfalso
      obtain ⟨i, hi, rfl⟩ := List.getElem_of_mem hk
      obtain ⟨h4, h5⟩ := h3 rfl
      by_cases hij : i < j
      · have := h4 i hij
        simp only [List.getD_eq_getElem _ _ hi] at this
        omega
      · have := h5 i (by omega) hi
        simp only [List.getD_eq_getElem _ _ hi] at this
        omega
  · intro hok
    obtain ⟨hj, he⟩ := h2 hok
    refine ⟨K.getD j [], ?_, he⟩
    rw [List.getD_eq_getElem _ _ hj, List.get?_eq_getElem?, List.getElem?_eq_getElem hj]
  · intro hok
    obtain ⟨h4, h5⟩ := h3 hok
    have e : K = K.take j ++ K.drop j := (List.take_append_drop j K).symm
    have c1 : (K.take j).countP (fun k => decide (c k key < 0)) = (K.take j).length := by
      rw [List.countP_eq_length]
      intro a ha
      obtain ⟨i, hi, rfl⟩ := List.getElem_of_mem ha
      have hi2 : i < j := by
        rw [List.length_take] at hi
        omega
      have hi3 : i < K.length := by omega
      have := h4 i hi2
      simp only [List.getD_eq_getElem _ _ hi3] at this
      rw [List.getElem_take]
      exact decide_eq_true ((hc.gt_iff key _).1 this)
    have c2 : (K.drop j).countP (fun k => decide (c k key < 0)) = 0 := by
      rw [List.countP_eq_zero]
      intro a ha
      obtain ⟨i, hi, rfl⟩ := List.getElem_of_mem ha
      rw [List.length_drop] at hi
      have hi3 : j + i < K.length := by omega
      have := h5 (j + i) (by omega) hi3
      simp only [List.getD_eq_getElem _ _ hi3] at this
      rw [List.getElem_drop]
      have h6 := (hc.antisymm key K[j + i]).1 this
      simp only [decide_eq_true_eq]
      omega
    rw [e, List.countP_append, c1, c2, List.length_take]
    omega

/-- The binary search of `find` on a page of strictly ascending keys: the result, and the
indices it compares at. -/
theorem find_page (c : Option (Bytes → Bytes → Int)) (hc : TotalCmp (cmpOf c)) (p key : Bytes)
    (s : memBTreeStore) (K : List Bytes) (hp : PageKeys s.m p K)
    (hK : K.Pairwise (fun a b => cmpOf c a b < 0)) :
    ∃ (j : Nat) (ok : Bool) (probes : List Int),
      btreePage.len p = .ok (K.length : Int) ∧
      btreePage.find p c key s = (.ok ((j : Int), ok), s) ∧
      btreePage.findProbes p c key s = (.ok (((j : Int), ok), probes), s) ∧
      (∀ i ∈ probes, 0 ≤ i ∧ i < (K.length : Int)) ∧
      j ≤ K.length ∧ (ok = true ↔ ∃ k ∈ K, cmpOf c key k = 0) ∧
      (ok = true → ∃ k, K.get? j = some k ∧ cmpOf c key k = 0) ∧
      (ok = false → j = K.countP (fun k => decide (cmpOf c k key < 0))) := by
  have key1 : ∃ (j : Nat) (ok : Bool), btreePage.len p = .ok (K.length : Int) ∧
      btreePage.find p c key s = (.ok ((j : Int), ok), s) ∧
      FindSpec (cmpOf c) key (fun i => K.getD i []) K.length j ok := by
    rcases hp with ⟨pv, nx, S, rfl, hS, rfl⟩ | ⟨hs, rfl, hl, hL⟩
    · obtain ⟨j, ok, h1, h2⟩ := find_data c hc pv nx S key s hS hK
      have hlen : (keysOf s.m S).length = S.length := by simp [keysOf]
      refine ⟨j, ok, ?_, h1, ?_⟩
      · simp only [btreePage.len, isIndex_encD, E_ok_bind, hlen]
        rw [dataLen_encD _ _ _ hS.slotsLen]
        rfl
      · rw [hlen]
        exact h2
    · obtain ⟨j, ok, h1, h2⟩ := find_index c hc hs K.length hl key s (fun i => K.getD i []) hL
        (by
          intro i j hij hj
          have := List.pairwise_iff_getElem.1 hK i j (by omega) hj hij
          show cmpOf c (K.getD i []) (K.getD j []) < 0
          rw [List.getD_eq_getElem _ _ hj, List.getD_eq_getElem _ _ (by omega : i < K.length)]
          exact this)
      refine ⟨j, ok, ?_, h1, h2⟩
      simp only [btreePage.len, isIndex_encH, E_ok_bind]
      rw [indexLen_of _ K.length (by rw [hl])]
      rfl
  obtain ⟨j, ok, hlen, hf, hspec⟩ := key1
  have he := find_eq_probes p c key s
  rw [hf] at he
  rcases hx : btreePage.findProbes p c key s with ⟨r, s2⟩
  rw [hx] at he
  cases r with
  | error e => cases he
  | ok w =>
    obtain ⟨w1, probes⟩ := w
    simp only [Except.map, Prod.mk.injEq, Except.ok.injEq] at he
    obtain ⟨e1, e2⟩ := he
    subst e1 e2
    obtain ⟨a1, a2, a3, a4⟩ := hspec.list hc
    exact ⟨j, ok, probes, hlen, hf, rfl, findProbes_range p c key s s _ hlen _ _ hx, a1, a2, a3, a4⟩

/-! ## The split of an index page, on the handles of the page -/

/-- The run of `split` on an index page of `2 * kIndex + 1` entries under a parent page:
the page keeps the handles `H1`, the new page `s.h + 1` gets the handles `H2`, and the
parent gets the separator `sep` and the new page behind the page. -/
theorem index_split_raw_parent (s : memBTreeStore) (H1 H2 A B : List Nat)
    (sep ph root P : Nat) (i : Nat) (j : Int) (b0 : Bytes)
    (h1 : H1.length = 2 * kIndex + 1) (h2 : H2.length = 2 * kIndex + 1) (hsep : sep < 2 ^ 56)
    (hph : mget s.m ph = some b0) (hP : mget s.m P = some (encH (A ++ B)))
    (hA : A.length = 2 * i + 1) (hB : B.length % 2 = 0) (hne : P ≠ ph) (hb : P ≤ s.h) :
    btreeIndexPage.split (encH (H1 ++ sep :: H2)) root ph P (i : Int) j s =
      (.ok (if j > (kIndex : Int) then (encH H2, s.h + 1, j - ((kIndex : Int) + 1))
          else (encH H1, ph, j)),
        ⟨s.h + 1, mset (mset (mset s.m ph (encH H1)) (s.h + 1) (encH H2)) P
          (encH (A ++ sep :: (s.h + 1) :: B))⟩) := by
  obtain ⟨p1, p2, p3, p4, p5⟩ := indexSplit_pages H1 H2 sep h1 h2 hsep
  have hg : mget (mset (mset s.m ph (encH H1)) (s.h + 1) (encH H2)) P =
      some (encH (A ++ B)) := by
    rw [mget_mset, if_neg (by omega), mget_mset, if_neg (fun e => hne e.symm)]
    exact hP
  have hins := insert3_encH A B (i : Int) i rfl hA hB sep (s.h + 1)
  have h0 : (i : Int) ≥ 0 := Int.natCast_nonneg _
  by_cases hj : j > (kIndex : Int)
  · simp only [btreeIndexPage.split, M_bind, M_liftM, M_monadLift, M_pure, newBTreeIndexPage_eq,
      p1, p2, p3, p4, p5, Realloc_ok s ph _ _ hph, memBTreeStore.Alloc, h0, if_true,
      Get_ok ⟨s.h + 1, mset (mset s.m ph (encH H1)) (s.h + 1) (encH H2)⟩ P _ hg, hins,
      Realloc_ok ⟨s.h + 1, mset (mset s.m ph (encH H1)) (s.h + 1) (encH H2)⟩ P _ _ hg, hj]
  · simp only [btreeIndexPage.split, M_bind, M_liftM, M_monadLift, M_pure, newBTreeIndexPage_eq,
      p1, p2, p3, p4, p5, Realloc_ok s ph _ _ hph, memBTreeStore.Alloc, h0, if_true,
      Get_ok ⟨s.h + 1, mset (mset s.m ph (encH H1)) (s.h + 1) (encH H2)⟩ P _ hg, hins,
      Realloc_ok ⟨s.h + 1, mset (mset s.m ph (encH H1)) (s.h + 1) (encH H2)⟩ P _ _ hg, hj,
      if_false]

/-- The run of `split` on a root index page of `2 * kIndex + 1` entries: the page keeps
the handles `H1`, the new page `s.h + 1` gets the handles `H2`, and the new index page
`s.h + 2`, of the one entry `sep`, becomes the root. -/
theorem index_split_raw_root (s : memBTreeStore) (H1 H2 : List Nat)
    (sep ph root P : Nat) (pi j : Int) (b0 b1 : Bytes)
    (h1 : H1.length = 2 * kIndex + 1) (h2 : H2.length = 2 * kIndex + 1) (hsep : sep < 2 ^ 56)
    (hph : mget s.m ph = some b0) (hroot : mget s.m root = some b1) (hpi : pi < 0)
    (hne : root ≠ ph) (hb : root ≤ s.h) :
    btreeIndexPage.split (encH (H1 ++ sep :: H2)) root ph P pi j s =
      (.ok (if j > (kIndex : Int) then (encH H2, s.h + 1, j - ((kIndex : Int) + 1))
          else (encH H1, ph, j)),
        ⟨s.h + 2, mset (mset (mset (mset s.m ph (encH H1)) (s.h + 1) (encH H2)) (s.h + 2)
          (encH [ph, sep, s.h + 1])) root (h2bBytes (s.h + 2))⟩) := by
  obtain ⟨p1, p2, p3, p4, p5⟩ := indexSplit_pages H1 H2 sep h1 h2 hsep
  have hins : btreeIndexPage.insert3 (encH [ph]) 0 sep (s.h + 1) =
      .ok (encH [ph, sep, s.h + 1]) := insert3_encH [ph] [] 0 0 rfl rfl rfl sep (s.h + 1)
  have hg : mget (mset (mset (mset s.m ph (encH H1)) (s.h + 1) (encH H2)) (s.h + 1 + 1)
      (encH [ph, sep, s.h + 1])) root = some b1 := by
    rw [mget_mset, if_neg (by omega), mget_mset, if_neg (by omega), mget_mset,
      if_neg (fun h => hne h.symm)]
    exact hroot
  have hn0 : ¬ (pi ≥ 0) := by omega
  by_cases hj : j > (kIndex : Int)
  · simp only [btreeIndexPage.split, M_bind, M_liftM, M_monadLift, M_pure, newBTreeIndexPage_eq,
      p1, p2, p3, p4, p5, Realloc_ok s ph _ _ hph, memBTreeStore.Alloc, hn0, if_false, if_true,
      hins, h2b_zeros,
      Realloc_ok ⟨s.h + 1 + 1, mset (mset (mset s.m ph (encH H1)) (s.h + 1) (encH H2))
        (s.h + 1 + 1) (encH [ph, sep, s.h + 1])⟩ root _ _ hg, hj]
  · simp only [btreeIndexPage.split, M_bind, M_liftM, M_monadLift, M_pure, newBTreeIndexPage_eq,
      p1, p2, p3, p4, p5, Realloc_ok s ph _ _ hph, memBTreeStore.Alloc, hn0, if_false, if_true,
      hins, h2b_zeros,
      Realloc_ok ⟨s.h + 1 + 1, mset (mset (mset s.m ph (encH H1)) (s.h + 1) (encH H2))
        (s.h + 1 + 1) (encH [ph, sep, s.h + 1])⟩ root _ _ hg, hj]

/-- The child at `j` of the page before the split is the child at the new index of the
page that `split` returns. -/
theorem index_split_child (H1 H2 : List Nat) (sep : Nat) (j : Nat)
    (h1 : H1.length = 2 * kIndex + 1) (h2 : H2.length = 2 * kIndex + 1)
    (hlt : ∀ x ∈ H1 ++ sep :: H2, x < 2 ^ 56) (hj : j ≤ 2 * kIndex + 1) :
    btreeIndexPage.child (encH (H1 ++ sep :: H2)) (j : Int) =
      .ok ((H1 ++ sep :: H2).getD (2 * j) 0) ∧
    (kIndex < j → btreeIndexPage.child (encH H2) ((j : Int) - ((kIndex : Int) + 1)) =
      .ok ((H1 ++ sep :: H2).getD (2 * j) 0)) ∧
    (¬ kIndex < j → btreeIndexPage.child (encH H1) (j : Int) =
      .ok ((H1 ++ sep :: H2).getD (2 * j) 0)) := by
  have hlen : (H1 ++ sep :: H2).length = 4 * kIndex + 3 := by
    simp only [List.length_append, List.length_cons, h1, h2]
    omega
  have hg : ∀ (L : List Nat) (n : Nat), n < L.length → L.getD n 0 ∈ L := by
    intro L n hn
    rw [List.getD_eq_getElem _ _ hn]
    exact List.getElem_mem hn
  refine ⟨child_at _ j (by omega) (hlt _ (hg _ _ (by omega))), ?_, ?_⟩
  · intro hk
    have e : ((j : Int) - ((kIndex : Int) + 1)) = ((j - (kIndex + 1) : Nat) : Int) := by omega
    have e2 : (H1 ++ sep :: H2).getD (2 * j) 0 = H2.getD (2 * (j - (kIndex + 1))) 0 := by
      have e3 : H1 ++ sep :: H2 = (H1 ++ [sep]) ++ H2 := by simp
      have e4 : 2 * j - (H1 ++ [sep]).length = 2 * (j - (kIndex + 1)) := by
        rw [List.length_append, h1, List.length_singleton]
        omega
      rw [e3, List.getD_append_right _ _ _ _
        (by rw [List.length_append, h1, List.length_singleton]; omega), e4]
    rw [e, e2]
    have hn : 2 * (j - (kIndex + 1)) < H2.length := by omega
    exact child_at _ _ hn (hlt _ (List.mem_append_right _ (List.mem_cons_of_mem _ (hg H2 _ hn))))
  · intro hk
    have hn : 2 * j < H1.length := by omega
    have e2 : (H1 ++ sep :: H2).getD (2 * j) 0 = H1.getD (2 * j) 0 := by
      rw [List.getD_append _ _ _ _ hn]
    rw [e2]
    exact child_at _ _ hn (hlt _ (List.mem_append_left _ (hg H1 _ hn)))

/-- The split of an index page of `2 * kIndex + 1` entries whose handles are `H1`, the
separator `sep` at position `kIndex`, and `H2`: the first `kIndex` entries stay in the
page, the last `kIndex` go to the new page `s.h + 1`, the separator goes to the parent (or
to the new root `s.h + 2`) with the new page behind it, and the page and index returned
name the child that `j` named. -/
theorem index_split_spec (s : memBTreeStore) (H1 H2 A B : List Nat) (sep ph root P : Nat)
    (pi : Int) (j : Nat) (b0 : Bytes)
    (h1 : H1.length = 2 * kIndex + 1) (h2 : H2.length = 2 * kIndex + 1)
    (hlt : ∀ x ∈ H1 ++ sep :: H2, x < 2 ^ 56) (hj : j ≤ 2 * kIndex + 1)
    (hph : mget s.m ph = some b0)
    (hst : ∀ a, (mget s.m a).isSome = true → a ≤ s.h)
    (hpar : 0 ≤ pi → P ≠ ph ∧ mget s.m P = some (encH (A ++ B)) ∧
      (A.length : Int) = 2 * pi + 1 ∧ B.length % 2 = 0)
    (hroot : pi < 0 → root ≠ ph ∧ (mget s.m root).isSome = true) :
    ∃ (p2 : Bytes) (ph2 : Nat) (j2 : Int) (s2 : memBTreeStore),
      btreeIndexPage.split (encH (H1 ++ sep :: H2)) root ph P pi (j : Int) s =
        (.ok (p2, ph2, j2), s2) ∧
      btreeIndexPage.len (encH (H1 ++ sep :: H2)) = ((2 * kIndex + 1 : Nat) : Int) ∧
      btreeIndexPage.dataPage (encH (H1 ++ sep :: H2)) (kIndex : Int) = .ok sep ∧
      mget s2.m ph = some (encH H1) ∧ btreeIndexPage.len (encH H1) = (kIndex : Int) ∧
      mget s.m (s.h + 1) = none ∧ mget s2.m (s.h + 1) = some (encH H2) ∧
      btreeIndexPage.len (encH H2) = (kIndex : Int) ∧
      (0 ≤ pi → s2.h = s.h + 1 ∧ mget s2.m P = some (encH (A ++ sep :: (s.h + 1) :: B))) ∧
      (pi < 0 → s2.h = s.h + 2 ∧ mget s.m (s.h + 2) = none ∧
        mget s2.m (s.h + 2) = some (encH [ph, sep, s.h + 1]) ∧
        mget s2.m root = some (h2bBytes (s.h + 2))) ∧
      (∀ a, a ≠ ph → a ≠ P → a ≠ root → a ≤ s.h → mget s2.m a = mget s.m a) ∧
      (if kIndex < j then p2 = encH H2 ∧ ph2 = s.h + 1 ∧ j2 = (j : Int) - ((kIndex : Int) + 1)
        else p2 = encH H1 ∧ ph2 = ph ∧ j2 = (j : Int)) ∧
      mget s2.m ph2 = some p2 ∧
      btreeIndexPage.child p2 j2 = btreeIndexPage.child (encH (H1 ++ sep :: H2)) (j : Int) ∧
      btreeIndexPage.child p2 j2 = .ok ((H1 ++ sep :: H2).getD (2 * j) 0) := by
  have hsep : sep < 2 ^ 56 := hlt sep (by simp)
  have hphb : ph ≤ s.h := hst ph (by rw [hph]; rfl)
  have hf1 : mget s.m (s.h + 1) = none := by
    cases hx : mget s.m (s.h + 1) with
    | none => rfl
    | some v =>
      have := hst (s.h + 1) (by rw [hx]; rfl)
      omega
  have hf2 : mget s.m (s.h + 2) = none := by
    cases hx : mget s.m (s.h + 2) with
    | none => rfl
    | some v =>
      have := hst (s.h + 2) (by rw [hx]; rfl)
      omega
  obtain ⟨c1, c2, c3⟩ := index_split_child H1 H2 sep j h1 h2 hlt hj
  obtain ⟨-, -, -, p4, -⟩ := indexSplit_pages H1 H2 sep h1 h2 hsep
  have hl0 : btreeIndexPage.len (encH (H1 ++ sep :: H2)) = ((2 * kIndex + 1 : Nat) : Int) :=
    indexLen_of _ _ (by simp only [List.length_append, List.length_cons, h1, h2]; omega)
  have hl1 : btreeIndexPage.len (encH H1) = (kIndex : Int) := indexLen_of _ _ h1
  have hl2 : btreeIndexPage.len (encH H2) = (kIndex : Int) := indexLen_of _ _ h2
  have hjj : ((j : Int) > (kIndex : Int)) ↔ kIndex < j := by omega
  by_cases hpi : 0 ≤ pi
  · obtain ⟨hne, hP, hA, hB⟩ := hpar hpi
    obtain ⟨i, rfl⟩ : ∃ i : Nat, pi = i := ⟨pi.toNat, by omega⟩
    have hPb : P ≤ s.h := hst P (by rw [hP]; rfl)
    have hrun := index_split_raw_parent s H1 H2 A B sep ph root P i (j : Int) b0 h1 h2 hsep hph
      hP (by omega) hB hne hPb
    have m1 : mget (mset (mset (mset s.m ph (encH H1)) (s.h + 1) (encH H2)) P
        (encH (A ++ sep :: (s.h + 1) :: B))) ph = some (encH H1) := by
      rw [mget_mset, if_neg hne, mget_mset, if_neg (by omega), mget_mset, if_pos rfl]
    have m2 : mget (mset (mset (mset s.m ph (encH H1)) (s.h + 1) (encH H2)) P
        (encH (A ++ sep :: (s.h + 1) :: B))) (s.h + 1) = some (encH H2) := by
      rw [mget_mset, if_neg (by omega), mget_mset, if_pos rfl]
    have m3 : mget (mset (mset (mset s.m ph (encH H1)) (s.h + 1) (encH H2)) P
        (encH (A ++ sep :: (s.h + 1) :: B))) P = some (encH (A ++ sep :: (s.h + 1) :: B)) := by
      rw [mget_mset, if_pos rfl]
    have m4 : ∀ a, a ≠ ph → a ≠ P → a ≠ root → a ≤ s.h →
        mget (mset (mset (mset s.m ph (encH H1)) (s.h + 1) (encH H2)) P
          (encH (A ++ sep :: (s.h + 1) :: B))) a = mget s.m a := by
      intro a a1 a2 _ a4
      rw [mget_mset, if_neg (fun e => a2 e.symm), mget_mset, if_neg (by omega), mget_mset,
        if_neg (fun e => a1 e.symm)]
    by_cases hk : kIndex < j
    · rw [if_pos (hjj.2 hk)] at hrun
      refine ⟨_, _, _, _, hrun, hl0, p4, m1, hl1, hf1, m2, hl2, fun _ => ⟨rfl, m3⟩,
        fun h => absurd h (by omega), m4, ?_, m2, ?_, c2 hk⟩
      · rw [if_pos hk]
        exact ⟨rfl, rfl, rfl⟩
      · rw [c2 hk, c1]
    · rw [if_neg (fun h => hk (hjj.1 h))] at hrun
      refine ⟨_, _, _, _, hrun, hl0, p4, m1, hl1, hf1, m2, hl2, fun _ => ⟨rfl, m3⟩,
        fun h => absurd h (by omega), m4, ?_, m1, ?_, c3 hk⟩
      · rw [if_neg hk]
        exact ⟨rfl, rfl, rfl⟩
      · rw [c3 hk, c1]
  · obtain ⟨hne, hr⟩ := hroot (by omega)
    obtain ⟨b1, hb1⟩ := Option.isSome_iff_exists.1 hr
    have hrb : root ≤ s.h := hst root hr
    have hrun := index_split_raw_root s H1 H2 sep ph root P pi (j : Int) b0 b1 h1 h2 hsep hph
      hb1 (by omega) hne hrb
    have m1 : mget (mset (mset (mset (mset s.m ph (encH H1)) (s.h + 1) (encH H2)) (s.h + 2)
        (encH [ph, sep, s.h + 1])) root (h2bBytes (s.h + 2))) ph = some (encH H1) := by
      rw [mget_mset, if_neg hne, mget_mset, if_neg (by omega), mget_mset, if_neg (by omega),
        mget_mset, if_pos rfl]
    have m2 : mget (mset (mset (mset (mset s.m ph (encH H1)) (s.h + 1) (encH H2)) (s.h + 2)
        (encH [ph, sep, s.h + 1])) root (h2bBytes (s.h + 2))) (s.h + 1) = some (encH H2) := by
      rw [mget_mset, if_neg (by omega), mget_mset, if_neg (by omega), mget_mset, if_pos rfl]
    have m3 : mget (mset (mset (mset (mset s.m ph (encH H1)) (s.h + 1) (encH H2)) (s.h + 2)
        (encH [ph, sep, s.h + 1])) root (h2bBytes (s.h + 2))) (s.h + 2) =
        some (encH [ph, sep, s.h + 1]) := by
      rw [mget_mset, if_neg (by omega), mget_mset, if_pos rfl]
    have m5 : mget (mset (mset (mset (mset s.m ph (encH H1)) (s.h + 1) (encH H2)) (s.h + 2)
        (encH [ph, sep, s.h + 1])) root (h2bBytes (s.h + 2))) root =
        some (h2bBytes (s.h + 2)) := by
      rw [mget_mset, if_pos rfl]
    have m4 : ∀ a, a ≠ ph → a ≠ P → a ≠ root → a ≤ s.h →
        mget (mset (mset (mset (mset s.m ph (encH H1)) (s.h + 1) (encH H2)) (s.h + 2)
          (encH [ph, sep, s.h + 1])) root (h2bBytes (s.h + 2))) a = mget s.m a := by
      intro a a1 _ a3 a4
      rw [mget_mset, if_neg (fun e => a3 e.symm), mget_mset, if_neg (by omega), mget_mset,
        if_neg (by omega), mget_mset, if_neg (fun e => a1 e.symm)]
    by_cases hk : kIndex < j
    · rw [if_pos (hjj.2 hk)] at hrun
      refine ⟨_, _, _, _, hrun, hl0, p4, m1, hl1, hf1, m2, hl2, fun h => absurd h hpi,
        fun _ => ⟨rfl, hf2, m3, m5⟩, m4, ?_, m2, ?_, c2 hk⟩
      · rw [if_pos hk]
        exact ⟨rfl, rfl, rfl⟩
      · rw [c2 hk, c1]
    · rw [if_neg (fun h => hk (hjj.1 h))] at hrun
      refine ⟨_, _, _, _, hrun, hl0, p4, m1, hl1, hf1, m2, hl2, fun h => absurd h hpi,
        fun _ => ⟨rfl, hf2, m3, m5⟩, m4, ?_, m1, ?_, c3 hk⟩
      · rw [if_neg hk]
        exact ⟨rfl, rfl, rfl⟩
      · rw [c3 hk, c1]

/-! ## `btreeDataPage.extract` on the items of a page -/

theorem freeItem_h (s : memBTreeStore) (x : Slot) : (freeItem s x).h = s.h := by
  unfold freeItem
  split_ifs <;> rfl

theorem mget_freeItem (s : memBTreeStore) (x : Slot) (k : Nat) :
    mget (freeItem s x).m k =
      if k ∈ ovF x.1 ++ ovF x.2 then none else mget s.m k := by
  unfold freeItem ovF
  by_cases h1 : fieldH x.1 = 0
  · by_cases h2 : fieldH x.2 = 0
    · simp [h1, h2]
    · simp only [h1, h2, if_true, if_false, List.nil_append, List.mem_singleton, mget_mdel]
      by_cases e : fieldH x.2 = k
      · rw [if_pos e, if_pos e.symm]
      · rw [if_neg e, if_neg (fun h => e h.symm)]
  · by_cases h2 : fieldH x.2 = 0
    · simp only [h1, h2, if_true, if_false, List.append_nil, List.mem_singleton, mget_mdel]
      by_cases e : fieldH x.1 = k
      · rw [if_pos e, if_pos e.symm]
      · rw [if_neg e, if_neg (fun h => e h.symm)]
    · simp only [h1, h2, if_false, List.singleton_append, List.mem_cons, List.mem_singleton,
        List.not_mem_nil, or_false, mget_mdel]
      by_cases e : fieldH x.2 = k
      · rw [if_pos e, if_pos (Or.inr e.symm)]
      · rw [if_neg e]
        by_cases e1 : fieldH x.1 = k
        · rw [if_pos e1, if_pos (Or.inl e1.symm)]
        · rw [if_neg e1, if_neg]
          rintro (h | h)
          · exact e1 h.symm
          · exact e h.symm

/-- The two `Free` calls of `extract` on the item `x` of a page. -/
theorem extractFree_encD (pr nx : Nat) (A B : List Slot) (x : Slot) (hA : SlotsLen A)
    (z : Int) (hz : z = A.length) (s : memBTreeStore) (hk : FieldOk s.m x.1)
    (hv : FieldOk s.m x.2) (hne : fieldH x.2 ≠ 0 → fieldH x.1 ≠ fieldH x.2) :
    btreeDataPage.extractFree (encD pr nx (A ++ x :: B)) z s = (.ok (), freeItem s x) := by
  obtain ⟨kf, vf⟩ := x
  simp only at hk hv hne
  have h1 := keyField_encD pr nx A B kf vf hA hk.1 z hz
  have h2 := valueField_encD pr nx A B kf vf hA hk.1 hv.1 z hz
  unfold btreeDataPage.extractFree freeItem
  simp only [M_bind, M_liftM, M_monadLift, h1, h2]
  by_cases e1 : fieldH kf = 0
  · by_cases e2 : fieldH vf = 0
    · simp only [e1, e2, ne_eq, not_true_eq_false, if_false, if_true, M_pure, M_bind, M_liftM]
    · obtain ⟨b, hb⟩ := Option.isSome_iff_exists.1 (hv.handle_live e2)
      simp only [e1, e2, ne_eq, not_true_eq_false, not_false_eq_true, if_true, if_false, M_pure,
        M_bind, M_liftM, Free_ok s _ _ hb]
  · obtain ⟨b, hb⟩ := Option.isSome_iff_exists.1 (hk.handle_live e1)
    by_cases e2 : fieldH vf = 0
    · simp only [e1, e2, ne_eq, not_true_eq_false, not_false_eq_true, if_true, if_false, M_pure,
        M_bind, M_liftM, Free_ok s _ _ hb]
    · obtain ⟨b2, hb2⟩ := Option.isSome_iff_exists.1 (hv.handle_live e2)
      have hb3 : mget (⟨s.h, mdel s.m (fieldH kf)⟩ : memBTreeStore).m (fieldH vf) = some b2 := by
        show mget (mdel s.m (fieldH kf)) (fieldH vf) = some b2
        rw [mget_mdel, if_neg (hne e2)]
        exact hb2
      simp only [e1, e2, ne_eq, not_false_eq_true, if_true, if_false, M_pure, M_bind, M_liftM,
        Free_ok s _ _ hb, Free_ok _ _ _ hb3]

/-- The page after `extract` took the item `x` out: the items behind it moved up. -/
theorem extract_page_encD (pr nx : Nat) (A B : List Slot) (x : Slot) (hA : SlotsLen A)
    (hB : SlotsLen B) (hx : SlotsLen [x]) (z : Int) (hz : z = A.length) :
    ∃ q, (if z < btreeDataPage.len (encD pr nx (A ++ x :: B)) - 1 then
          btreeDataPage.copy (encD pr nx (A ++ x :: B)) (encD pr nx (A ++ x :: B)) z (z + 1)
            (btreeDataPage.len (encD pr nx (A ++ x :: B)) - 1 - z)
        else pure (encD pr nx (A ++ x :: B)) : Except Err Bytes) = .ok q ∧
      btreeDataPage.setLen q (btreeDataPage.len (encD pr nx (A ++ x :: B)) - 1) =
        .ok (encD pr nx (A ++ B)) := by
  have hxB : SlotsLen (x :: B) := fun y hy => by
    rcases List.mem_cons.1 hy with e | e
    · subst e; exact hx y (by simp)
    · exact hB y e
  have hall : SlotsLen (A ++ x :: B) := SlotsLen_append hA hxB
  have hlen : btreeDataPage.len (encD pr nx (A ++ x :: B)) - 1 =
      ((A.length + B.length : Nat) : Int) := by
    rw [dataLen_encD _ _ _ hall]
    simp only [List.length_append, List.length_cons]
    push_cast
    ring
  rw [hlen]
  subst hz
  rcases List.eq_nil_or_concat B with e | ⟨B0, bl, e⟩
  · subst e
    rw [if_neg (by simp)]
    refine ⟨_, rfl, ?_⟩
    have := setLen_shrink pr nx A [x] hA hx ((A.length + ([] : List Slot).length : Nat) : Int)
      (by simp)
    simpa using this
  · rw [List.concat_eq_append] at e
    subst e
    have hB0 : SlotsLen B0 := SlotsLen_append_left hB
    have hbl : SlotsLen [bl] := SlotsLen_append_right hB
    rw [if_pos (by simp only [List.length_append, List.length_singleton]; push_cast; omega)]
    have hcopy := copy_encD pr nx pr nx A (x :: B0) [bl] (A ++ [x]) (B0 ++ [bl]) []
      hA (fun y hy => by
        rcases List.mem_cons.1 hy with e | e
        · subst e; exact hx y (by simp)
        · exact hB0 y e) hbl (SlotsLen_append hA hx) hB
      (fun _ h => absurd h (List.not_mem_nil _)) (by simp)
      (A ++ x :: (B0 ++ [bl])) (A ++ x :: (B0 ++ [bl])) (by simp) (by simp)
      (A.length : Int) ((A.length : Int) + 1)
      (((A.length + (B0 ++ [bl]).length : Nat) : Int) - (A.length : Int)) rfl
      (by simp)
      (by
        simp only [List.length_append, List.length_singleton, List.length_cons, List.length_nil]
        omega)
    refine ⟨_, hcopy, ?_⟩
    have := setLen_shrink pr nx (A ++ (B0 ++ [bl])) [bl] (SlotsLen_append hA hB) hbl
      ((A.length + (B0 ++ [bl]).length : Nat) : Int) (by simp)
    simpa [List.append_assoc] using this

/-- The function `extract` at the item `x` of a page: the value of the item, the page
without the item, and the overflow blobs of the item freed. -/
theorem extract_encD (pr nx : Nat) (A B : List Slot) (x : Slot) (hA : SlotsLen A)
    (hB : SlotsLen B) (z : Int) (hz : z = A.length) (s : memBTreeStore) (hk : FieldOk s.m x.1)
    (hv : FieldOk s.m x.2) (hne : fieldH x.2 ≠ 0 → fieldH x.1 ≠ fieldH x.2) :
    btreeDataPage.extract (encD pr nx (A ++ x :: B)) z s =
      (.ok (appendNil (fieldVal s.m x.2), encD pr nx (A ++ B), none), freeItem s x) := by
  have hx : SlotsLen [x] := fun y hy => by
    simp only [List.mem_singleton] at hy
    subst hy
    exact ⟨hk.1, hv.1⟩
  have h1 := valueCopy_encD pr nx A B x.1 x.2 hA hk.1 z hz s hv
  have h2 := extractFree_encD pr nx A B x hA z hz s hk hv hne
  obtain ⟨q, h3, h4⟩ := extract_page_encD pr nx A B x hA hB hx z hz
  unfold btreeDataPage.extract
  simp only [M_bind, M.attempt, h1, h2]
  by_cases hlt : z < btreeDataPage.len (encD pr nx (A ++ x :: B)) - 1
  · rw [if_pos hlt] at h3 ⊢
    simp only [M_liftM, h3, h4, M_pure]
  · rw [if_neg hlt] at h3 ⊢
    cases h3
    simp only [M_liftM, h4, M_pure]

/-! ## extract: an item taken out of a leaf -/

theorem CtxM.free_item {s : memBTreeStore} {M : Multiset Nat} (x : Slot)
    (h : CtxM s (M + ((ovF x.1 ++ ovF x.2 : List Nat) : Multiset Nat))) :
    CtxM (freeItem s x) M := by
  unfold freeItem
  unfold ovF at h
  by_cases h1 : fieldH x.1 = 0
  · by_cases h2 : fieldH x.2 = 0
    · simp only [h1, h2, if_true, List.append_nil, Multiset.coe_nil, add_zero] at h ⊢
      exact h
    · simp only [h1, h2, if_true, if_false, List.nil_append, Multiset.coe_singleton] at h ⊢
      exact h.free
  · by_cases h2 : fieldH x.2 = 0
    · simp only [h1, h2, if_true, if_false, List.append_nil, Multiset.coe_singleton] at h ⊢
      exact h.free
    · simp only [h1, h2, if_false, List.singleton_append] at h ⊢
      have e : M + (([fieldH x.1, fieldH x.2] : List Nat) : Multiset Nat) =
          (M + {fieldH x.2}) + {fieldH x.1} := by
        rw [← Multiset.cons_coe, ← Multiset.singleton_add, ← Multiset.coe_singleton]
        abel
      rw [e] at h
      exact h.free.free

/-- The leaves after `extract` took the item `x` out of the leaf `h` and the page was
written back: the other leaves and the pages outside are untouched, the overflow blobs
of the item are freed. -/
theorem leaf_remove (c : Bytes → Bytes → Int) (lo lo2 : Nat) (O I : List Nat)
    (A B : List Leaf) (h : Nat) (SA SB : List Slot) (x : Slot) (s : memBTreeStore)
    (hL : LeavesOk s.m c lo (A ++ (⟨h, SA ++ x :: SB⟩ : Leaf) :: B))
    (hC : Ctx s O I (A ++ (⟨h, SA ++ x :: SB⟩ : Leaf) :: B))
    (hlo : lo2 ≤ lo) (hlo2 : lo2 ≤ (SA ++ SB).length) :
    btreeDataPage.extract (encD (lastH 0 A) (headH B 0) (SA ++ x :: SB)) (SA.length : Int) s =
      (.ok (appendNil (fieldVal s.m x.2), encD (lastH 0 A) (headH B 0) (SA ++ SB), none),
        freeItem s x) ∧
    (mget (freeItem s x).m h).isSome = true ∧
    Ctx (freeItem s x) O I (A ++ (⟨h, SA ++ SB⟩ : Leaf) :: B) ∧
    (∀ k ∈ O ++ I, mget (freeItem s x).m k = mget s.m k) ∧
    LeavesOk (mset (freeItem s x).m h (encD (lastH 0 A) (headH B 0) (SA ++ SB))) c lo2
      (A ++ (⟨h, SA ++ SB⟩ : Leaf) :: B) ∧
    Ctx ⟨s.h, mset (freeItem s x).m h (encD (lastH 0 A) (headH B 0) (SA ++ SB))⟩ O I
      (A ++ (⟨h, SA ++ SB⟩ : Leaf) :: B) ∧
    (∀ k ∈ O ++ I, mget (mset (freeItem s x).m h (encD (lastH 0 A) (headH B 0) (SA ++ SB))) k =
      mget s.m k) ∧
    kvs (mset (freeItem s x).m h (encD (lastH 0 A) (headH B 0) (SA ++ SB)))
      (A ++ (⟨h, SA ++ SB⟩ : Leaf) :: B) =
        (slots A ++ SA).map (slotKV s.m) ++ (SB ++ slots B).map (slotKV s.m) := by
  have hlG : (⟨h, SA ++ x :: SB⟩ : Leaf) ∈ A ++ (⟨h, SA ++ x :: SB⟩ : Leaf) :: B := by simp
  have hlG2 : (⟨h, SA ++ SB⟩ : Leaf) ∈ A ++ (⟨h, SA ++ SB⟩ : Leaf) :: B := by simp
  have hfl : FieldsOk s.m (SA ++ x :: SB) := hL.fields _ hlG
  have hfx := hfl x (by simp)
  have hfSA : FieldsOk s.m SA := fun y hy => hfl y (List.mem_append_left _ hy)
  have hfSB : FieldsOk s.m SB := fun y hy =>
    hfl y (List.mem_append_right _ (List.mem_cons_of_mem _ hy))
  have hpage := Chain_mid s.m 0 0 A B _ hL.chain
  have hC0 : CtxM s (handles O I (A ++ (⟨h, SA ++ SB⟩ : Leaf) :: B) +
      ((ovF x.1 ++ ovF x.2 : List Nat) : Multiset Nat)) := by
    rw [← handles_insert]
    exact hC
  have hnd := Multiset.nodup_add.1 hC0.nodup
  have hXnd : (ovF x.1 ++ ovF x.2).Nodup := Multiset.coe_nodup.1 hnd.2.1
  have hdis : ∀ a ∈ handles O I (A ++ (⟨h, SA ++ SB⟩ : Leaf) :: B),
      a ∉ ovF x.1 ++ ovF x.2 := fun a ha hx =>
    Multiset.disjoint_left.1 hnd.2.2 ha (Multiset.mem_coe.2 hx)
  have hne : fieldH x.2 ≠ 0 → fieldH x.1 ≠ fieldH x.2 := by
    intro h2 e
    have h1 : fieldH x.1 ≠ 0 := by rw [e]; exact h2
    have := hXnd
    unfold ovF at this
    rw [if_neg h1, if_neg h2, e] at this
    simp at this
  have hC1 : Ctx (freeItem s x) O I (A ++ (⟨h, SA ++ SB⟩ : Leaf) :: B) := CtxM.free_item x hC0
  have hC2 := CtxM.realloc hC1 h (hC1.mem_leaf _ hlG2)
    (encD (lastH 0 A) (headH B 0) (SA ++ SB))
  rw [freeItem_h] at hC2
  have hfree : ∀ a ∈ handles O I (A ++ (⟨h, SA ++ SB⟩ : Leaf) :: B),
      mget (freeItem s x).m a = mget s.m a := by
    intro a ha
    rw [mget_freeItem, if_neg (hdis a ha)]
  have hold : ∀ a ∈ handles O I (A ++ (⟨h, SA ++ SB⟩ : Leaf) :: B), a ≠ h →
      mget (mset (freeItem s x).m h (encD (lastH 0 A) (headH B 0) (SA ++ SB))) a =
        mget s.m a := by
    intro a ha hah
    rw [mget_mset, if_neg (fun e => hah e.symm)]
    exact hfree a ha
  have hlive : (mget (freeItem s x).m h).isSome = true := by
    rw [hfree h (hC1.mem_leaf _ hlG2), hpage]
    rfl
  have hrun := extract_encD (lastH 0 A) (headH B 0) SA SB x hfSA.slotsLen hfSB.slotsLen
    (SA.length : Int) rfl s hfx.1 hfx.2 hne
  have hAB : ∀ a ∈ A ++ B, a ∈ A ++ (⟨h, SA ++ SB⟩ : Leaf) :: B := by
    intro a ha
    rcases List.mem_append.1 ha with h1 | h1
    · exact List.mem_append_left _ h1
    · exact List.mem_append_right _ (List.mem_cons_of_mem _ h1)
  have hovAB : ∀ k ∈ ovs (A ++ B), k ∈ ovs (A ++ (⟨h, SA ++ SB⟩ : Leaf) :: B) := by
    intro k hk
    rw [ovs_append] at hk
    rw [ovs_append, ovs_cons]
    rcases List.mem_append.1 hk with h1 | h1
    · exact List.mem_append_left _ h1
    · exact List.mem_append_right _ (List.mem_append_right _ h1)
  have hovS : ∀ k ∈ ovsS (SA ++ SB), k ∈ ovs (A ++ (⟨h, SA ++ SB⟩ : Leaf) :: B) := by
    intro k hk
    rw [ovs_append, ovs_cons]
    exact List.mem_append_right _ (List.mem_append_left _ hk)
  have hfrAB : ∀ k ∈ ovs (A ++ B),
      mget (mset (freeItem s x).m h (encD (lastH 0 A) (headH B 0) (SA ++ SB))) k =
        mget s.m k := fun k hk =>
    hold k (hC1.mem_ov k (hovAB k hk)) (hC1.leaf_ne_ov _ hlG2 k (hovAB k hk)).symm
  have hfrS : ∀ k ∈ ovsS (SA ++ SB),
      mget (mset (freeItem s x).m h (encD (lastH 0 A) (headH B 0) (SA ++ SB))) k =
        mget s.m k := fun k hk =>
    hold k (hC1.mem_ov k (hovS k hk)) (hC1.leaf_ne_ov _ hlG2 k (hovS k hk)).symm
  have hfSS : FieldsOk s.m (SA ++ SB) := FieldsOk_append.2 ⟨hfSA, hfSB⟩
  have hL0 : LeavesOk s.m c lo2 (A ++ (⟨h, SA ++ x :: SB⟩ : Leaf) :: B) :=
    hL.raise (fun l hl => Nat.le_trans hlo (hL.occ l hl).1)
  have hsorted := hL.sortedS
  rw [slots_append, slots_cons, keysOf_append, keysOf_append] at hsorted
  have hrep := @LeavesOk.replace _ _ _ A B (⟨h, SA ++ x :: SB⟩ : Leaf) hL0
    (mset (freeItem s x).m h (encD (lastH 0 A) (headH B 0) (SA ++ SB))) (SA ++ SB)
    (fun a ha => hold a.h (hC1.mem_leaf a (hAB a ha)) (hC.leaf_ne a ha))
    hfrAB (by rw [mget_mset, if_pos rfl])
    (FieldsOk_frame _ _ _ hfrS hfSS)
    (by
      rw [keysOf_frame _ _ _ hfrS, List.append_assoc]
      refine hsorted.sublist ?_
      refine List.Sublist.append (List.Sublist.refl _) (List.Sublist.append ?_ (List.Sublist.refl _))
      simp only [keysOf, List.map_append, List.map_cons]
      exact List.Sublist.append (List.Sublist.refl _) (List.sublist_cons_self _ _))
    ⟨hlo2, by
      have := (hL.occ _ hlG).2
      simp only [List.length_append, List.length_cons] at this ⊢
      omega⟩
  refine ⟨hrun, hlive, hC1, ?_, hrep, hC2, ?_, ?_⟩
  · intro k hk
    exact hfree k (hC1.mem_index k hk)
  · intro k hk
    exact hold k (hC1.mem_index k hk) (hC1.index_ne_leaf k hk _ hlG2)
  · rw [kvs_replace s.m _ A B h (SA ++ SB) hfrAB, slotKV_frame _ _ _ hfrS, kvs_eq_slots,
      kvs_eq_slots]
    simp

/-! ## extract: the loop on a leaf -/

set_option maxRecDepth 8000 in
/-- One turn of the loop of `extract`. -/
theorem extractLoop_succ (root iroot : Nat) (c : Option (Bytes → Bytes → Int)) (key : Bytes)
    (fuel ph parent : Nat) (parentIndex : Int) :
    btree.extractLoop root iroot c key (fuel + 1) ph parent parentIndex = (do
      let p ← memBTreeStore.Get ph
      let (index, ok) ← btreePage.find p c key
      if ok then
        if (← btreePage.isIndex p) then do
          let dph ← btreeIndexPage.dataPage p index
          let dp ← memBTreeStore.Get dph
          if btreeDataPage.len dp > kData then do
            let (value, dp, err) ← btreeDataPage.extract dp 0
            match err with
            | some e => M.fail e
            | none =>
              memBTreeStore.Realloc dph dp
              pure value
          else do
            let (p, ph, index) ← (if btreeIndexPage.len p < kIndex ∧ ph ≠ iroot then
                btreeIndexPage.underflow p root iroot parent ph parentIndex index
              else pure (p, ph, index))
            let parentIndex := index + 1
            let parent := ph
            let ph ← btreeIndexPage.child p parentIndex
            btree.extractLoop root iroot c key fuel ph parent parentIndex
        else do
          let (value, p, _) ← btreeDataPage.extract p index
          let _ ← btree.afterLeafExtract p root iroot parent ph parentIndex
          pure value
      else if !(← btreePage.isIndex p) then pure none
      else do
        let (p, ph, index) ← (if (← btreePage.len p) < kIndex ∧ ph ≠ iroot then
            btreeIndexPage.underflow p root iroot parent ph parentIndex index
          else pure (p, ph, index))
        let parentIndex := index
        let parent := ph
        let ph ← btreeIndexPage.child p index
        btree.extractLoop root iroot c key fuel ph parent parentIndex) := by
  delta btree.extractLoop
  rfl

/-- The turn of the loop of `extract` on a data page, given what `find` returns on it. -/
theorem extractLoop_leaf (root iroot : Nat) (c : Option (Bytes → Bytes → Int)) (key : Bytes)
    (fuel ph P : Nat) (pi : Int) (s : memBTreeStore) (pv nx : Nat)
    (S : List Slot) (hp : mget s.m ph = some (encD pv nx S))
    (j : Nat) (ok : Bool)
    (hfind : btreePage.find (encD pv nx S) c key s = (.ok ((j : Int), ok), s)) :
    btree.extractLoop root iroot c key (fuel + 1) ph P pi s =
      if ok then
        (do
          let (value, p, _) ← btreeDataPage.extract (encD pv nx S) (j : Int)
          let _ ← btree.afterLeafExtract p root iroot P ph pi
          pure value : M (Option Bytes)) s
      else (.ok none, s) := by
  rw [extractLoop_succ]
  refine (M_bind_ok _ _ _ _ _ (Get_ok s _ _ hp)).trans ?_
  refine (M_bind_ok _ _ _ _ _ hfind).trans ?_
  dsimp only
  cases ok with
  | true =>
    rw [if_pos rfl, if_pos rfl]
    refine (M_bind_ok _ _ s s false ?_).trans ?_
    · rw [M_liftM, isIndex_encD]
    · rw [if_neg (by simp)]
  | false =>
    rw [if_neg (by simp), if_neg (by simp)]
    refine (M_bind_ok _ _ s s false ?_).trans ?_
    · rw [M_liftM, isIndex_encD]
    · rfl

/-- The end of `extract` on the root leaf `ph` whose page, the item taken out, is
`encD 0 0 S`: the page is written back, or freed if it is empty. -/
theorem afterLeafExtract_root (S : List Slot) (hS : SlotsLen S) (root ph P : Nat) (pi : Int)
    (s : memBTreeStore) :
    btree.afterLeafExtract (encD 0 0 S) root ph P ph pi s =
      if S = [] then
        (do
          memBTreeStore.Free ph
          memBTreeStore.Realloc root (zeros 7)
          pure true : M Bool) s
      else
        (do
          memBTreeStore.Realloc ph (encD 0 0 S)
          pure false : M Bool) s := by
  have hlen : btreePage.len (encD 0 0 S) = .ok (S.length : Int) := len_encD 0 0 S hS
  unfold btree.afterLeafExtract
  refine (M_bind_ok _ _ s s (S.length : Int) ?_).trans ?_
  · rw [M_liftM, hlen]
  by_cases h1 : (S.length : Int) ≥ (kData : Int)
  · have hne : S ≠ [] := by
      intro e
      rw [e, kData_cast] at h1
      simp at h1
    rw [if_pos h1, if_neg hne]
  · rw [if_neg h1, if_neg (by simp)]
    refine (M_bind_ok _ _ s s (S.length : Int) ?_).trans ?_
    · rw [M_liftM, hlen]
    by_cases h2 : S = []
    · rw [if_pos h2, if_pos (by rw [h2]; rfl)]
    · rw [if_neg h2, if_neg]
      intro e
      exact h2 (List.length_eq_zero.1 (by exact_mod_cast e))

/-- `extract` on a tree that is one leaf: the key is not there and nothing changes, or
its item is taken out; the leaf is freed and the root record reset when it was the last
item. -/
theorem extract_root_leaf (c : Option (Bytes → Bytes → Int)) (hc : TotalCmp (cmpOf c))
    (root : Nat) (key : Bytes) (fuel : Nat) {s : memBTreeStore} {iroot : Nat}
    {I : List Nat} {G : List Leaf} (ht : TreeOk s root (cmpOf c) 0 iroot I G) :
    ∃ (A B : List Slot), I = [] ∧
      (∀ a ∈ A, cmpOf c (fieldVal s.m a.1) key < 0) ∧
      (∀ b ∈ B, cmpOf c key (fieldVal s.m b.1) < 0) ∧
      ((G = [⟨iroot, A ++ B⟩] ∧
          btree.extractLoop root iroot c key (fuel + 1) iroot 0 (-1) s = (.ok none, s)) ∨
       (∃ (x : Slot) (s2 : memBTreeStore), G = [⟨iroot, A ++ x :: B⟩] ∧
          cmpOf c key (fieldVal s.m x.1) = 0 ∧
          btree.extractLoop root iroot c key (fuel + 1) iroot 0 (-1) s =
            (.ok (appendNil (fieldVal s.m x.2)), s2) ∧ s2.h = s.h ∧
          (A ++ B = [] → EmptyOk s2 root ∧ mget s2.m iroot = none) ∧
          (A ++ B ≠ [] → TreeOk s2 root (cmpOf c) 0 iroot [] [⟨iroot, A ++ B⟩] ∧
            kvs s2.m [⟨iroot, A ++ B⟩] = (A ++ B).map (slotKV s.m)))) := by
  have hidx := ht.idx
  simp only [Idx] at hidx
  obtain ⟨l, hl, hlh⟩ := map_h_singleton G iroot hidx.1
  obtain ⟨-, hI⟩ := hidx
  subst hl hI hlh
  have hL : LeavesOk s.m (cmpOf c) 1 [l] := by simpa using ht.leaves
  have hC := ht.ctx
  have hpage : mget s.m l.h = some (encD 0 0 l.S) := Chain_mid s.m 0 0 [] [] l hL.chain
  have hS : FieldsOk s.m l.S := hL.fields l (by simp)
  have hsorted := hL.sorted
  change (keysG s.m [l]).Pairwise _ at hsorted
  rw [keysG_cons, keysG_nil, List.append_nil] at hsorted
  obtain ⟨j, ok, hf, A, B, hA, hlt, hgt, hcase⟩ := leaf_find c hc 0 0 l.S key s hS hsorted
  have hloop := extractLoop_leaf root l.h c key fuel l.h 0 (-1) s 0 0 l.S hpage j ok hf
  subst hA
  obtain ⟨lh, lS⟩ := l
  simp only at hcase hpage hS hloop hL hC
  refine ⟨A, B, rfl, hlt, hgt, ?_⟩
  rcases hcase with ⟨hok, x, hx, he⟩ | ⟨hok, hx⟩
  · right
    subst hok hx
    rw [if_pos rfl] at hloop
    obtain ⟨w1, w2, w3, w4, w5, w6, w7, w8⟩ := leaf_remove (cmpOf c) 1 0 [root] [] [] [] lh A B x s
      hL hC (by omega) (by omega)
    simp only [lastH, headH, List.nil_append, slots_nil, List.append_nil] at w1 w3 w5 w6 w7 w8
    have hocc := (hL.occ ⟨lh, A ++ x :: B⟩ (by simp)).2
    simp only [List.length_append, List.length_cons] at hocc
    have hSS : SlotsLen (A ++ B) := fun y hy =>
      hS.slotsLen y (by
        rcases List.mem_append.1 hy with h | h
        · exact List.mem_append_left _ h
        · exact List.mem_append_right _ (List.mem_cons_of_mem _ h))
    have hafter := afterLeafExtract_root (A ++ B) hSS root lh 0 (-1) (freeItem s x)
    have hrootl : mget (freeItem s x).m root = some (h2bBytes lh) := by
      rw [w4 root (by simp)]
      exact ht.hroot
    have hrl : root ≠ lh := hC.index_ne_leaf root (by simp) ⟨lh, A ++ x :: B⟩ (by simp)
    by_cases hnil : A ++ B = []
    · rw [if_pos hnil] at hafter
      obtain ⟨b0, hb0⟩ := Option.isSome_iff_exists.1 w2
      have hg2 : mget (⟨s.h, mdel (freeItem s x).m lh⟩ : memBTreeStore).m root =
          some (h2bBytes lh) := by
        show mget (mdel (freeItem s x).m lh) root = _
        rw [mget_mdel, if_neg (fun e => hrl e.symm)]
        exact hrootl
      have hafter2 : btree.afterLeafExtract (encD 0 0 (A ++ B)) root lh 0 lh (-1) (freeItem s x) =
          (.ok true, ⟨s.h, mset (mdel (freeItem s x).m lh) root (zeros 7)⟩) := by
        rw [hafter]
        simp only [M_bind, M_pure, Free_ok _ _ _ hb0, Realloc_ok _ _ _ _ hg2, freeItem_h]
      refine ⟨x, ⟨s.h, mset (mdel (freeItem s x).m lh) root (zeros 7)⟩, rfl, he, ?_, rfl,
        fun _ => ⟨?_, ?_⟩, fun h => absurd hnil h⟩
      · rw [hloop]
        simp only [M_bind, M_pure, w1, hafter2]
      · have hM : handles [root] [] [(⟨lh, A ++ B⟩ : Leaf)] =
            (([root] : List Nat) : Multiset Nat) + {lh} := by
          rw [hnil]
          simp [handles, ovs]
        have c1 : CtxM (freeItem s x) ((([root] : List Nat) : Multiset Nat) + {lh}) := by
          rw [← hM]
          exact w3
        have c2 := c1.free
        have c3 := c2.realloc root (by simp) (zeros 7)
        rw [freeItem_h] at c3
        refine ⟨by show mget (mset _ root (zeros 7)) root = _; rw [mget_mset, if_pos rfl],
          ?_, ht.hlt, ?_⟩
        · have := c3.bound root (by simp)
          exact this
        · intro k hk
          have := c3.live k hk
          simpa using this
      · show mget (mset (mdel (freeItem s x).m lh) root (zeros 7)) lh = none
        rw [mget_mset, if_neg hrl, mget_mdel, if_pos rfl]
    · rw [if_neg hnil] at hafter
      obtain ⟨b0, hb0⟩ := Option.isSome_iff_exists.1 w2
      have hafter2 : btree.afterLeafExtract (encD 0 0 (A ++ B)) root lh 0 lh (-1) (freeItem s x) =
          (.ok false, ⟨s.h, mset (freeItem s x).m lh (encD 0 0 (A ++ B))⟩) := by
        rw [hafter]
        simp only [M_bind, M_pure, Realloc_ok _ _ _ _ hb0, freeItem_h]
      have hpos : 1 ≤ (A ++ B).length := by
        cases hAB : A ++ B with
        | nil => exact absurd hAB hnil
        | cons a t => simp
      obtain ⟨-, -, -, -, v5, -, -, -⟩ := leaf_remove (cmpOf c) 1 1 [root] [] [] [] lh A B x s
        hL hC (by omega) hpos
      simp only [lastH, headH, List.nil_append] at v5
      refine ⟨x, ⟨s.h, mset (freeItem s x).m lh (encD 0 0 (A ++ B))⟩, rfl, he, ?_, rfl,
        fun h => absurd h hnil, fun _ => ⟨⟨?_, ?_, by simpa using v5, w6, ht.hlt⟩, ?_⟩⟩
      · rw [hloop]
        simp only [M_bind, M_pure, w1, hafter2]
      · show mget (mset (freeItem s x).m lh (encD 0 0 (A ++ B))) root = _
        rw [w7 root (by simp)]
        exact ht.hroot
      · simp [Idx]
      · rw [w8]
        simp
  · left
    subst hok hx
    rw [if_neg (by simp)] at hloop
    exact ⟨rfl, hloop⟩

/-! ## The root record: the first item, and the last one -/

/-- `put2` on an empty tree with an updater that does not write: nothing changes. -/
theorem put_empty_skip (c : Option (Bytes → Bytes → Int)) (root : Nat)
    (key value : Bytes) (upd : Updater) (s : memBTreeStore) (he : EmptyOk s root)
    (hu : upd key none = .ok (value, false)) :
    btree.put2 root c key upd s = (.ok (none, false, [(key, none)]), s) := by
  have hb0 : b2h (zeros 7) = .ok 0 := by decide
  simp only [btree.put2, M_bind, M_liftM, M_monadLift, M_pure, Get_ok s root _ he.hroot,
    hb0, if_true, newBTreeDataPage_eq, hu]
  rfl

/-- `extract` of the one key of a tree that is one leaf of one item: the leaf is freed
and the root record is reset, the store holds the empty tree. -/
theorem extract_sole_last (c : Option (Bytes → Bytes → Int)) (hc : TotalCmp (cmpOf c))
    (root : Nat) (key : Bytes) {s : memBTreeStore} {iroot : Nat} {x : Slot}
    (ht : TreeOk s root (cmpOf c) 0 iroot [] [(⟨iroot, [x]⟩ : Leaf)])
    (hk : cmpOf c key (fieldVal s.m x.1) = 0) :
    ∃ s2, btree.extract root c key s = (.ok (appendNil (fieldVal s.m x.2)), s2) ∧
      EmptyOk s2 root ∧ mget s2.m iroot = none ∧ s2.h = s.h := by
  have hi := ht.iroot_mem
  have hi0 := (ht.ctx.bound _ hi).1
  obtain ⟨A, B, -, hlt, hgt, hcase⟩ := extract_root_leaf c hc root key s.h ht
  have hrun : ∀ r s2, btree.extractLoop root iroot c key (s.h + 1) iroot 0 (-1) s = (r, s2) →
      btree.extract root c key s = (r, s2) := by
    intro r s2 h
    simp only [btree.extract, M_bind, M_liftM, M_monadLift, M_pure, Get_ok s _ _ ht.hroot,
      b2h_h2bBytes0 iroot (ht.lt _ hi), descentFuel, M.store]
    rw [if_neg (by omega)]
    simp only [M_bind, M_pure, M.store]
    exact h
  rcases hcase with ⟨hG, -⟩ | ⟨y, s2, hG, -, hl, hh, hE, -⟩
  · exfalso
    have e : [x] = A ++ B := by
      have := congrArg (fun G : List Leaf => G.map Leaf.S) hG
      simpa using this
    have hx : x ∈ A ++ B := by rw [← e]; simp
    rcases List.mem_append.1 hx with h | h
    · have h1 := hlt x h
      have h2 := (hc.antisymm _ _).1 h1
      omega
    · have h1 := hgt x h
      omega
  · have e : [x] = A ++ y :: B := by
      have := congrArg (fun G : List Leaf => G.map Leaf.S) hG
      simpa using this
    have hAB : A = [] ∧ y = x ∧ B = [] := by
      cases A with
      | nil =>
        simp only [List.nil_append, List.cons.injEq] at e
        exact ⟨rfl, e.1.symm, e.2.symm⟩
      | cons a A =>
        exfalso
        have := congrArg List.length e
        simp at this
    obtain ⟨rfl, rfl, rfl⟩ := hAB
    obtain ⟨h1, h2⟩ := hE rfl
    exact ⟨s2, hrun _ _ hl, h1, h2, hh⟩

/-! ## Set of new keys on a tree that is one leaf -/

/-- The turn of the loop of `put2` on a tree that is one leaf, for a key that is not in
the tree and an updater that writes: the leaf gets the item if it has room, and is split
under a new root otherwise. -/
theorem put_root_leaf_new (c : Option (Bytes → Bytes → Int)) (hc : TotalCmp (cmpOf c))
    (root : Nat) (key value : Bytes) (upd : Updater) (hu : upd key none = .ok (value, true))
    (fuel : Nat) {s : memBTreeStore} {iroot : Nat} {S : List Slot}
    (ht : TreeOk s root (cmpOf c) 0 iroot [] [(⟨iroot, S⟩ : Leaf)])
    (habs : ∀ k ∈ keysOf s.m S, cmpOf c key k ≠ 0) (hs : s.h + 4 < 2 ^ 56) :
    ∃ (s2 : memBTreeStore) (A B : List Slot), S = A ++ B ∧
      btree.put2Loop root c key upd (fuel + 1) iroot 0 (-1) s =
        (.ok (none, true, [(key, none)]), s2) ∧ s.h ≤ s2.h ∧ s2.h ≤ s.h + 4 ∧
      ((S.length < 2 * kData ∧ ∃ S2, TreeOk s2 root (cmpOf c) 0 iroot [] [(⟨iroot, S2⟩ : Leaf)] ∧
          kvs s2.m [(⟨iroot, S2⟩ : Leaf)] =
            A.map (slotKV s.m) ++ (key, value) :: B.map (slotKV s.m)) ∨
       (S.length = 2 * kData ∧ ∃ L R,
          TreeOk s2 root (cmpOf c) 1 (s.h + 2) [s.h + 2]
            [(⟨iroot, L⟩ : Leaf), (⟨s.h + 1, R⟩ : Leaf)] ∧
          kvs s2.m [(⟨iroot, L⟩ : Leaf), (⟨s.h + 1, R⟩ : Leaf)] =
            A.map (slotKV s.m) ++ (key, value) :: B.map (slotKV s.m))) := by
  have hL : LeavesOk s.m (cmpOf c) 1 [(⟨iroot, S⟩ : Leaf)] := by simpa using ht.leaves
  have hC := ht.ctx
  have hpage : mget s.m iroot = some (encD 0 0 S) :=
    Chain_mid s.m 0 0 [] [] (⟨iroot, S⟩ : Leaf) hL.chain
  have hS : FieldsOk s.m S := hL.fields (⟨iroot, S⟩ : Leaf) (by simp)
  have hsorted := hL.sorted
  change (keysG s.m [(⟨iroot, S⟩ : Leaf)]).Pairwise _ at hsorted
  rw [keysG_cons, keysG_nil, List.append_nil] at hsorted
  obtain ⟨j, ok, hf, A, B, hA, hlt, hgt, hcase⟩ := leaf_find c hc 0 0 S key s hS hsorted
  have hloop := put2Loop_leaf root c key upd fuel iroot 0 (-1) s 0 0 S hS.slotsLen hpage j ok hf
  subst hA
  have hrootS : (mget s.m root).isSome = true := by rw [ht.hroot]; rfl
  rcases hcase with ⟨hok, x, hx, he⟩ | ⟨hok, hx⟩
  · exfalso
    refine habs (fieldVal s.m x.1) ?_ he
    rw [hx]
    simp [keysOf]
  · subst hok hx
    rw [if_neg (by simp), hu] at hloop
    simp only [if_true] at hloop
    have hlow : ∀ k ∈ keysOf s.m A, cmpOf c k key < 0 := by
      intro a ha
      obtain ⟨y, hy, rfl⟩ := List.mem_map.1 ha
      exact hlt y hy
    have hhigh : ∀ k ∈ keysOf s.m B, cmpOf c key k < 0 := by
      intro a ha
      obtain ⟨y, hy, rfl⟩ := List.mem_map.1 ha
      exact hgt y hy
    by_cases hlen : (A ++ B).length < 2 * kData
    · rw [if_pos hlen] at hloop
      obtain ⟨s2, x, w1, w2, w3, w4, w5, w6, w7, w8⟩ :=
        leaf_insert (cmpOf c) 1 [root] [] [] [] iroot A B key value s hL hC hlen
          (by simpa [slots_nil] using hlow) (by simpa [slots_nil] using hhigh) (by omega)
      simp only [List.nil_append, lastH, headH] at w1 w2 w3 w4 w8
      refine ⟨s2, A, B, rfl, ?_, w6, by omega, Or.inl ⟨hlen, A ++ x :: B,
        ⟨?_, by simp [Idx], by simpa using w3, w4, by omega⟩, ?_⟩⟩
      · rw [hloop]
        simp only [M_bind, M_pure, w1, w2]
      · rw [w5 root (by simp)]
        exact ht.hroot
      · rw [w8]
        simp [slots_nil]
    · rw [if_neg hlen] at hloop
      have hfull : (A ++ B).length = 2 * kData := by
        have := (hL.occ ⟨iroot, A ++ B⟩ (by simp)).2
        simp only at this
        omega
      obtain ⟨s2, L, R, w1, w2, w3, w4, w5⟩ := split_root (cmpOf c) 1 ⟨iroot, A ++ B⟩ A B key
        value s root hL hC hrootS (by decide) rfl hfull hlow hhigh hs
      refine ⟨s2, A, B, rfl, ?_, w3, w4, Or.inr ⟨hfull, L, R, w2, w5⟩⟩
      rw [hloop]
      simp only [M_bind]
      rw [overflow_to_split _ root iroot 0 _ _ key value s 0 0 (checkSiblings_root s)
        (Or.inl rfl) (Or.inl rfl)]
      simp only [M_pure, w1]

/-- The root index page of a tree of one index level and two leaves: one entry, whose
separator is the right leaf, and the two leaves as children. -/
theorem TreeOk.two_leaves {s : memBTreeStore} {root : Nat} {c : Bytes → Bytes → Int}
    {iroot : Nat} {I : List Nat} {l1 l2 : Leaf} (ht : TreeOk s root c 1 iroot I [l1, l2]) :
    mget s.m iroot = some (encH [l1.h, l2.h, l2.h]) := by
  have hidx := ht.idx
  simp only [Idx] at hidx
  obtain ⟨kids, hp, -, -, hF, -, hk⟩ := hidx
  have hkid : ∀ k ∈ kids, k.2.1 = [k.1] := fun k hk1 => (hk k hk1).1
  have hfr : frOf kids = kids.map Prod.fst := frOf_leaves kids hkid
  rw [hfr] at hF
  simp only [List.map_cons, List.map_nil] at hF
  have hlen : kids.length = 2 := by
    have := congrArg List.length hF
    simpa using this.symm
  obtain ⟨k1, k2, rfl⟩ : ∃ k1 k2, kids = [k1, k2] := by
    match kids, hlen with
    | [k1, k2], _ => exact ⟨k1, k2, rfl⟩
  simp only [List.map_cons, List.map_nil, List.cons.injEq, and_true] at hF
  have e2 := hkid k2 (by simp)
  rw [hp]
  simp only [hsOf, sepsOf, List.flatMap_cons, List.flatMap_nil, List.append_nil,
    List.singleton_append, e2, List.headD_cons, ← hF.1, ← hF.2]

/-! ## Sequences of `Set` of new keys -/

theorem NewBTree_eq (c : Option (Bytes → Bytes → Int)) :
    NewBTree c = ⟨⟨1, [(1, zeros 7)]⟩, 1, c⟩ := rfl

theorem NewBTree_empty (c : Option (Bytes → Bytes → Int)) :
    EmptyOk (NewBTree c).store (NewBTree c).root := by
  rw [NewBTree_eq]
  refine ⟨rfl, ⟨Nat.one_pos, Nat.le_refl 1⟩, by norm_num, ?_⟩
  intro h hh
  simp only [mget] at hh
  by_contra hne
  rw [if_neg (fun e => hne e.symm)] at hh
  cases hh

theorem Set_some (s : memBTreeStore) (root : Nat) (c : Option (Bytes → Bytes → Int))
    (key value : Bytes) (r : Option Bytes) (s2 : memBTreeStore)
    (h : btree.put root c key value true s = (.ok r, s2)) :
    BTree.Set (some ⟨s, root, c⟩) key value = (.ok (), some ⟨s2, root, c⟩) := by
  simp only [BTree.Set, BTree.run, h]
  rfl

theorem setAll_append (t : Option BTree) (a b : List (Bytes × Bytes)) :
    setAll t (a ++ b) = setAll (setAll t a) b := by
  induction a generalizing t with
  | nil => rfl
  | cons x a ih =>
    obtain ⟨k, v⟩ := x
    simp only [List.cons_append, setAll]
    exact ih _

theorem setResults_append (t : Option BTree) (a b : List (Bytes × Bytes)) :
    setResults t (a ++ b) = setResults t a ++ setResults (setAll t a) b := by
  induction a generalizing t with
  | nil => rfl
  | cons x a ih =>
    obtain ⟨k, v⟩ := x
    show _ :: setResults _ (a ++ b) = _
    rw [ih]
    rfl

/-- `put` of a new key on a tree that is one leaf. -/
theorem put_leaf_tree_new (c : Option (Bytes → Bytes → Int)) (hc : TotalCmp (cmpOf c))
    (root : Nat) (key value : Bytes) {s : memBTreeStore} {iroot : Nat} {S : List Slot}
    (ht : TreeOk s root (cmpOf c) 0 iroot [] [(⟨iroot, S⟩ : Leaf)])
    (habs : ∀ k ∈ keysOf s.m S, cmpOf c key k ≠ 0) (hs : s.h + 4 < 2 ^ 56) :
    ∃ (s2 : memBTreeStore) (A B : List Slot), S = A ++ B ∧
      btree.put root c key value true s = (.ok none, s2) ∧ s.h ≤ s2.h ∧ s2.h ≤ s.h + 4 ∧
      ((S.length < 2 * kData ∧ ∃ S2, TreeOk s2 root (cmpOf c) 0 iroot [] [(⟨iroot, S2⟩ : Leaf)] ∧
          kvs s2.m [(⟨iroot, S2⟩ : Leaf)] =
            A.map (slotKV s.m) ++ (key, value) :: B.map (slotKV s.m)) ∨
       (S.length = 2 * kData ∧ ∃ L R,
          TreeOk s2 root (cmpOf c) 1 (s.h + 2) [s.h + 2]
            [(⟨iroot, L⟩ : Leaf), (⟨s.h + 1, R⟩ : Leaf)] ∧
          kvs s2.m [(⟨iroot, L⟩ : Leaf), (⟨s.h + 1, R⟩ : Leaf)] =
            A.map (slotKV s.m) ++ (key, value) :: B.map (slotKV s.m))) := by
  have hi := ht.iroot_mem
  have hi0 := (ht.ctx.bound _ hi).1
  obtain ⟨s2, A, B, hS, hrun, w1, w2, w3⟩ := put_root_leaf_new c hc root key value
    (fun _ _ => pure (value, true)) rfl s.h ht habs hs
  refine ⟨s2, A, B, hS, ?_, w1, w2, w3⟩
  simp only [btree.put, btree.put2, M_bind, M_liftM, M_monadLift, M_pure, Get_ok s _ _ ht.hroot,
    b2h_h2bBytes0 iroot (ht.lt _ hi), descentFuel, M.store]
  rw [if_neg (by omega)]
  simp only [M_bind, M_pure, M.store, hrun]

theorem kvs_single_length (m : Blobs) (h : Nat) (S : List Slot) :
    (kvs m [(⟨h, S⟩ : Leaf)]).length = S.length := by
  simp [kvs]

theorem keysOf_single (m : Blobs) (h : Nat) (S : List Slot) :
    keysOf m S = (kvs m [(⟨h, S⟩ : Leaf)]).map Prod.fst := by
  simp [kvs, keysOf, slotKV]

/-- `Set` of new keys, one after the other, on a tree that is one leaf with room for
them: every `Set` succeeds and the tree is one leaf that holds the keys. -/
theorem setAll_leaf (c : Option (Bytes → Bytes → Int)) (hc : TotalCmp (cmpOf c)) (root : Nat) :
    ∀ (kv : List (Bytes × Bytes)) (s : memBTreeStore) (iroot : Nat) (S : List Slot),
      TreeOk s root (cmpOf c) 0 iroot [] [(⟨iroot, S⟩ : Leaf)] →
      (kv.map Prod.fst).Pairwise (fun a b => cmpOf c a b ≠ 0) →
      (∀ k ∈ keysOf s.m S, ∀ a ∈ kv, cmpOf c a.1 k ≠ 0) →
      S.length + kv.length ≤ 2 * kData → s.h + 4 * kv.length + 4 < 2 ^ 56 →
      ∃ (s2 : memBTreeStore) (S2 : List Slot),
        setAll (some ⟨s, root, c⟩) kv = some ⟨s2, root, c⟩ ∧
        (∀ r ∈ setResults (some ⟨s, root, c⟩) kv, r = .ok ()) ∧
        TreeOk s2 root (cmpOf c) 0 iroot [] [(⟨iroot, S2⟩ : Leaf)] ∧
        S2.length = S.length + kv.length ∧ s2.h ≤ s.h + 4 * kv.length ∧
        (∀ k ∈ keysOf s2.m S2, k ∈ keysOf s.m S ∨ k ∈ kv.map Prod.fst) := by
  intro kv
  induction kv with
  | nil =>
    intro s iroot S ht _ _ _ _
    refine ⟨s, S, rfl, ?_, ht, rfl, by simp, fun k hk => Or.inl hk⟩
    intro r hr
    cases hr
  | cons x kv ih =>
    intro s iroot S ht hd habs hlen hs
    obtain ⟨key, value⟩ := x
    simp only [List.map_cons, List.pairwise_cons, List.length_cons] at hd hlen hs
    obtain ⟨s1, A, B, hS, hrun, w1, w2, w3⟩ := put_leaf_tree_new c hc root key value ht
      (fun k hk => habs k hk (key, value) (by simp)) (by omega)
    rcases w3 with ⟨-, S1, ht1, hk1⟩ | ⟨hfull, -⟩
    · have hl1 : S1.length = S.length + 1 := by
        have := congrArg List.length hk1
        rw [kvs_single_length] at this
        rw [this, hS]
        simp only [List.length_append, List.length_cons, List.length_map]
        omega
      have hkeys : ∀ k ∈ keysOf s1.m S1, k = key ∨ k ∈ keysOf s.m S := by
        intro k hk
        rw [keysOf_single s1.m iroot, hk1] at hk
        rw [hS]
        simp only [List.map_append, List.map_cons, List.map_map, List.mem_append, List.mem_cons,
          List.mem_map, Function.comp] at hk
        simp only [keysOf, List.map_append, List.mem_append, List.mem_map]
        rcases hk with ⟨y, hy, rfl⟩ | rfl | ⟨y, hy, rfl⟩
        · exact Or.inr (Or.inl ⟨y, hy, rfl⟩)
        · exact Or.inl rfl
        · exact Or.inr (Or.inr ⟨y, hy, rfl⟩)
      obtain ⟨s2, S2, v1, v2, v3, v4, v5, v6⟩ := ih s1 iroot S1 ht1 hd.2
        (by
          intro k hk a ha
          rcases hkeys k hk with rfl | h
          · intro e
            exact hd.1 a.1 (List.mem_map_of_mem _ ha) (hc.eq_symm e)
          · exact habs k h a (List.mem_cons_of_mem _ ha))
        (by omega) (by omega)
      have hset := Set_some s root c key value none s1 hrun
      refine ⟨s2, S2, ?_, ?_, v3, by simp only [List.length_cons]; omega,
        by simp only [List.length_cons]; omega, ?_⟩
      · simp only [setAll, hset]
        exact v1
      · intro r hr
        simp only [setResults, hset, List.mem_cons] at hr
        rcases hr with rfl | hr
        · rfl
        · exact v2 r hr
      · intro k hk
        rcases v6 k hk with h | h
        · rcases hkeys k h with rfl | h2
          · exact Or.inr (by simp)
          · exact Or.inl h2
        · exact Or.inr (List.mem_cons_of_mem _ h)
    · omega

/-! ## The first split: `2 * kData + 1` new keys on the empty tree -/

theorem kvs_pair_length (m : Blobs) (h1 h2 : Nat) (L R : List Slot) :
    (kvs m [(⟨h1, L⟩ : Leaf), (⟨h2, R⟩ : Leaf)]).length = L.length + R.length := by
  simp [kvs]

/-- `Set` of `2 * kData + 1` keys, no two of which compare equal, on a new tree, in any
order: every `Set` succeeds, and the tree is then two leaves under a root index page of
one entry (two children). -/
theorem set_sequence_splits_once (c : Option (Bytes → Bytes → Int)) (hc : TotalCmp (cmpOf c))
    (kv : List (Bytes × Bytes)) (hlen : kv.length = 2 * kData + 1)
    (hd : (kv.map Prod.fst).Pairwise (fun a b => cmpOf c a b ≠ 0)) :
    ∃ (s2 : memBTreeStore) (iroot lh rh : Nat) (L R : List Slot),
      setAll (some (NewBTree c)) kv = some ⟨s2, 1, c⟩ ∧
      (∀ r ∈ setResults (some (NewBTree c)) kv, r = .ok ()) ∧
      TreeOk s2 1 (cmpOf c) 1 iroot [iroot] [(⟨lh, L⟩ : Leaf), (⟨rh, R⟩ : Leaf)] ∧
      mget s2.m 1 = some (h2bBytes iroot) ∧
      mget s2.m iroot = some (encH [lh, rh, rh]) ∧
      btreeIndexPage.len (encH [lh, rh, rh]) = 1 ∧
      btreeIndexPage.child (encH [lh, rh, rh]) 0 = .ok lh ∧
      btreeIndexPage.child (encH [lh, rh, rh]) 1 = .ok rh ∧
      L.length + R.length = 2 * kData + 1 := by
  have hkd := kData_eq
  obtain ⟨x0, rest, rfl⟩ : ∃ x0 rest, kv = x0 :: rest := by
    cases kv with
    | nil => simp at hlen
    | cons a t => exact ⟨a, t, rfl⟩
  obtain ⟨k0, v0⟩ := x0
  obtain ⟨init, xl, rfl⟩ : ∃ init xl, rest = init ++ [xl] := by
    rcases List.eq_nil_or_concat rest with e | ⟨i, a, e⟩
    · subst e
      simp only [List.length_cons, List.length_nil] at hlen
      omega
    · exact ⟨i, a, by rw [e, List.concat_eq_append]⟩
  obtain ⟨kl, vl⟩ := xl
  simp only [List.length_cons, List.length_append, List.length_nil] at hlen
  simp only [List.map_cons, List.map_append, List.map_nil, List.pairwise_cons,
    List.pairwise_append, List.mem_append, List.mem_map, List.mem_singleton,
    List.Pairwise.nil, and_true, true_and, List.not_mem_nil, false_implies,
    implies_true] at hd
  obtain ⟨hd0, hdi, hdl⟩ := hd
  -- the first key
  have he := NewBTree_empty c
  rw [NewBTree_eq] at he ⊢
  simp only at he
  obtain ⟨s1, h, x, w1, w2, w3, w4, w5, w6, -⟩ := put_empty_write c 1 k0 v0
    (fun _ _ => pure (v0, true)) ⟨1, [(1, zeros 7)]⟩ he rfl (by norm_num)
  have hput1 : btree.put 1 c k0 v0 true ⟨1, [(1, zeros 7)]⟩ = (.ok none, s1) := by
    simp only [btree.put, M_bind, M_pure, w1]
  have hset1 := Set_some _ 1 c k0 v0 none s1 hput1
  have hs1 : s1.h ≤ 4 := by
    simp only at w6
    omega
  have hkeys1 : keysOf s1.m [x] = [k0] := by
    rw [keysOf_single s1.m h, w3]
    rfl
  -- the keys that fill the leaf
  obtain ⟨s2, S2, v1, v2, v3, v4, v5, v6⟩ := setAll_leaf c hc 1 init s1 h [x] w2 hdi
    (by
      intro k hk a ha
      rw [hkeys1, List.mem_singleton] at hk
      subst hk
      intro e
      exact hd0 a.1 (Or.inl ⟨a, ha, rfl⟩) (hc.eq_symm e))
    (by simp only [List.length_cons, List.length_nil]; omega)
    (by
      have : init.length = 511 := by omega
      rw [this]
      norm_num
      omega)
  simp only [List.length_cons, List.length_nil] at v4
  -- the key that splits it
  obtain ⟨s3, A, B, hS, hrun, u1, u2, u3⟩ := put_leaf_tree_new c hc 1 kl vl v3
    (by
      intro k hk e
      rcases v6 k hk with h1 | h1
      · rw [hkeys1, List.mem_singleton] at h1
        subst h1
        exact hd0 kl (Or.inr rfl) (hc.eq_symm e)
      · obtain ⟨a, ha, rfl⟩ := List.mem_map.1 h1
        exact hdl a.1 ⟨a, ha, rfl⟩ kl rfl (hc.eq_symm e))
    (by
      have : init.length = 511 := by omega
      rw [this] at v5
      norm_num at v5 ⊢
      omega)
  have hset3 := Set_some s2 1 c kl vl none s3 hrun
  rcases u3 with ⟨hlt, -⟩ | ⟨-, L, R, ht, hk⟩
  · omega
  · have hpage := ht.two_leaves
    simp only at hpage
    have hLR : L.length + R.length = 2 * kData + 1 := by
      have := congrArg List.length hk
      rw [kvs_pair_length] at this
      rw [this]
      simp only [List.length_append, List.length_cons, List.length_map]
      have := congrArg List.length hS
      simp only [List.length_append] at this
      omega
    have hb1 := ht.ctx.bound h (ht.ctx.mem_leaf ⟨h, L⟩ (by simp))
    have hb2 := ht.ctx.bound (s2.h + 1) (ht.ctx.mem_leaf ⟨s2.h + 1, R⟩ (by simp))
    have hlt := ht.hlt
    refine ⟨s3, s2.h + 2, h, s2.h + 1, L, R, ?_, ?_, ht, ht.hroot, hpage,
      indexLen_of _ 1 rfl, ?_, ?_, hLR⟩
    · rw [show ((k0, v0) :: (init ++ [(kl, vl)])) = ((k0, v0) :: init) ++ [(kl, vl)] from rfl,
        setAll_append]
      simp only [setAll, hset1, v1, hset3]
    · intro r hr
      rw [show ((k0, v0) :: (init ++ [(kl, vl)])) = ((k0, v0) :: init) ++ [(kl, vl)] from rfl,
        setResults_append] at hr
      simp only [setResults, setAll, hset1, v1, hset3, List.mem_append, List.mem_cons,
        List.mem_singleton, List.not_mem_nil, or_false] at hr
      rcases hr with (rfl | hr) | rfl
      · rfl
      · exact v2 r hr
      · rfl
    · exact child_encH [] [s2.h + 1, s2.h + 1] h (by omega) 0 0 rfl rfl
    · exact child_encH [h, s2.h + 1] [] (s2.h + 1) (by omega) 1 1 rfl rfl

/-! ## put2: what `overflow` does with a full leaf -/

/-- The full leaf `l` under the parent page `P` gets a new item: the cases of `overflow`.
The first item of the leaf goes to the left sibling if that has room; else the last item
of the leaf, or the new item itself if it comes last, goes to the right sibling if that
has room; else the leaf is split and `P` gets the new leaf `s.h + 1` as a child. -/
theorem overflow_delayed_cases {c : Bytes → Bytes → Int} (hc : TotalCmp c) {key : Bytes}
    (value : Bytes) (root : Nat) {s : memBTreeStore} {O : List Nat} {P : Nat}
    {pre post : List Kid} {k : Kid} {GA GB : List Leaf} {Fa Fb : List Nat} (l : Leaf)
    (h : PutPre c key s O P pre post k GA [l] GB Fa Fb 0)
    (A B : List Slot) (hS : l.S = A ++ B)
    (hA : ∀ a ∈ A, c (fieldVal s.m a.1) key < 0) (hB : ∀ b ∈ B, c key (fieldVal s.m b.1) < 0)
    (hfull : l.S.length = 2 * kData) (hs : s.h + 3 < 2 ^ 56) :
    ∃ (s2 : memBTreeStore) (G2 : List Leaf),
      btreeDataPage.overflow (encD (lastH 0 GA) (headH GB 0) l.S) root l.h P
        (pre.length : Int) (A.length : Int) key value s = (.ok (), s2) ∧
      LeavesOk s2.m c kData G2 ∧ Ctx s2 O [P] G2 ∧
      kvs s2.m G2 =
        (slots GA ++ A).map (slotKV s.m) ++ (key, value) :: (B ++ slots GB).map (slotKV s.m) ∧
      s.h ≤ s2.h ∧ s2.h ≤ s.h + 3 ∧ (∀ a ∈ O, mget s2.m a = mget s.m a) ∧
      ((∃ GA0 left x0 SA x, pre ≠ [] ∧ GA = GA0 ++ [left] ∧ left.S.length < 2 * kData ∧
          A = x0 :: SA ∧
          G2 = GA0 ++ (⟨left.h, left.S ++ [x0]⟩ : Leaf) :: (⟨l.h, SA ++ x :: B⟩ : Leaf) :: GB ∧
          mget s2.m P = mget s.m P) ∨
       ((pre = [] ∨ ∃ GA0 left, GA = GA0 ++ [left] ∧ ¬ left.S.length < 2 * kData) ∧
          ∃ right GB0, post ≠ [] ∧ GB = right :: GB0 ∧ right.S.length < 2 * kData ∧
          ((A.length < 2 * kData ∧ ∃ SB xl x, B = SB ++ [xl] ∧
              G2 = GA ++ (⟨l.h, A ++ x :: SB⟩ : Leaf) ::
                (⟨right.h, xl :: right.S⟩ : Leaf) :: GB0) ∨
           (A.length = 2 * kData ∧ ∃ x,
              G2 = GA ++ l :: (⟨right.h, x :: right.S⟩ : Leaf) :: GB0)) ∧
          mget s2.m P = mget s.m P) ∨
       ((pre = [] ∨ ∃ GA0 left, GA = GA0 ++ [left] ∧ ¬ left.S.length < 2 * kData) ∧
          (post = [] ∨ ∃ right GB0, GB = right :: GB0 ∧ ¬ right.S.length < 2 * kData) ∧
          ∃ L R, G2 = GA ++ (⟨l.h, L⟩ : Leaf) :: (⟨s.h + 1, R⟩ : Leaf) :: GB ∧
            mget s.m (s.h + 1) = none ∧
            mget s2.m P =
              some (encH (hsOf (pre ++ k :: (s.h + 1, [s.h + 1], []) :: post))))) := by
  obtain ⟨hL, hC, hlow, hhigh, hK, hlowX, hhighX⟩ := h.cut A B hS hA hB
  have hlG : l ∈ GA ++ l :: GB := by simp
  have hcs := checkSiblings_spec s P pre post k h.page (h.kids_lt (by omega))
  have hfrO : ∀ (s2 : memBTreeStore), (∀ a ∈ O ++ [P], mget s2.m a = mget s.m a) →
      ∀ a ∈ O, mget s2.m a = mget s.m a := fun s2 hf a ha => hf a (List.mem_append_left _ ha)
  -- the left sibling has room
  by_cases hleftroom : pre ≠ [] ∧ ∃ GA0 left, GA = GA0 ++ [left] ∧ left.S.length < 2 * kData
  · obtain ⟨hpre, GA0, left, e1, hroom⟩ := hleftroom
    subst e1
    have e2 : ((pre.getLast?).map Prod.fst).getD 0 = left.h := by
      rcases h.left_sibling with ⟨h1, -⟩ | ⟨GA1, left1, e3, e4, -⟩
      · exact absurd h1 hpre
      · obtain ⟨-, e5⟩ := List.append_inj' e3 rfl
        simp only [List.cons.injEq, and_true] at e5
        rw [e4, e5]
    rw [e2] at hcs
    have hmin := h.min hpre
    obtain ⟨x0, SA, rfl⟩ : ∃ x0 SA, A = x0 :: SA := by
      cases A with
      | nil =>
        exfalso
        cases B with
        | nil =>
          rw [hS] at hfull
          simp [kData_eq] at hfull
        | cons b B =>
          have h1 := hB b (List.mem_cons_self _ _)
          have h2 : minKey s.m [l] = fieldVal s.m b.1 := minKey_cons s.m l [] b B (by simpa using hS)
          rw [h2] at hmin
          have := (hc.antisymm key (fieldVal s.m b.1)).1 h1
          omega
      | cons x0 SA => exact ⟨x0, SA, rfl⟩
    have e3 : GA0 ++ [left] ++ l :: GB = GA0 ++ left :: l :: GB := by simp
    rw [e3] at hL hC
    obtain ⟨s2, x, w1, w2, w3, w4, w5, w6, w7⟩ := overflow_left c kData O [P] GA0 GB left l x0 SA
      B key value s root P _ (pre.length : Int) hcs hL hC hS hroom
      (by simpa [slots_append, slots_cons, slots_nil] using hlow) hhigh (by omega)
    rw [lastH_snoc]
    refine ⟨s2, _, ?_, w2, w3, ?_, w5, by omega, hfrO s2 w4, Or.inl ⟨GA0, left, x0, SA, x, hpre,
      rfl, hroom, rfl, rfl, w4 P (by simp)⟩⟩
    · have e4 : (((x0 :: SA).length : Nat) : Int) = ((SA.length + 1 : Nat) : Int) := rfl
      rw [e4]
      exact w1
    · rw [w7]
      simp [slots_append, slots_cons, slots_nil]
  · -- no room on the left
    have hnoleft : pre = [] ∨ ∃ GA0 left, GA = GA0 ++ [left] ∧ ¬ left.S.length < 2 * kData := by
      rcases h.left_sibling with ⟨h1, -⟩ | ⟨GA0, left, e1, -, hpre⟩
      · exact Or.inl h1
      · exact Or.inr ⟨GA0, left, e1, fun h3 => hleftroom ⟨hpre, GA0, left, e1, h3⟩⟩
    have hleft : ((pre.getLast?).map Prod.fst).getD 0 = 0 ∨
        ∃ pl, mget s.m (((pre.getLast?).map Prod.fst).getD 0) = some pl ∧
          ¬ (btreeDataPage.len pl < 2 * (kData : Int)) := by
      rcases h.left_sibling with ⟨-, h2⟩ | ⟨GA0, left, e1, e2, hpre⟩
      · exact Or.inl h2
      · right
        subst e1
        have hp := Chain_mid s.m 0 0 GA0 (l :: GB) left (by simpa using hL.chain)
        have hfl : FieldsOk s.m left.S := hL.fields left (by simp)
        refine ⟨_, by rw [e2]; exact hp, ?_⟩
        rw [dataLen_encD _ _ _ hfl.slotsLen]
        intro h3
        exact hleftroom ⟨hpre, GA0, left, rfl, by exact_mod_cast h3⟩
    by_cases hrightroom : post ≠ [] ∧ ∃ right GB0, GB = right :: GB0 ∧
        right.S.length < 2 * kData
    · obtain ⟨hpost, right, GB0, e1, hroom⟩ := hrightroom
      subst e1
      have e2 : ((post.head?).map Prod.fst).getD 0 = right.h := by
        rcases h.right_sibling with ⟨h1, -⟩ | ⟨right1, GB1, e3, e4⟩
        · exact absurd h1 hpost
        · simp only [List.cons.injEq] at e3
          rw [e4, ← e3.1]
      rw [e2] at hcs
      by_cases hidx : A.length < 2 * kData
      · obtain ⟨SB, xl, rfl⟩ : ∃ SB xl, B = SB ++ [xl] := by
          rcases List.eq_nil_or_concat B with e | ⟨SB, xl, e⟩
          · subst e
            rw [hS] at hfull
            simp only [List.append_nil] at hfull
            omega
          · exact ⟨SB, xl, by rw [e, List.concat_eq_append]⟩
        obtain ⟨s2, x, w1, w2, w3, w4, w5, w6, w7⟩ := overflow_right c kData O [P] GA GB0 l right
          xl A SB key value s root P _ (pre.length : Int) hcs hleft hL hC
          (by rw [hS, List.append_assoc]) hfull hroom hlow
          (by simpa [slots_cons] using hhigh) (by omega)
        refine ⟨s2, _, ?_, w2, w3, ?_, w5, by omega, hfrO s2 w4, Or.inr (Or.inl ⟨hnoleft, right,
          GB0, hpost, rfl, hroom, Or.inl ⟨hidx, SB, xl, x, rfl, rfl⟩, w4 P (by simp)⟩)⟩
        · simp only [headH]
          exact w1
        · rw [w7]
          simp [slots_cons]
      · have hAl : A.length = 2 * kData := by
          have := congrArg List.length hS
          simp only [List.length_append] at this
          omega
        have hBn : B = [] := by
          have := congrArg List.length hS
          simp only [List.length_append] at this
          exact List.length_eq_zero.1 (by omega)
        subst hBn
        simp only [List.append_nil] at hS
        obtain ⟨s2, x, w1, w2, w3, w4, w5, w6, w7⟩ := overflow_right0 c kData O [P] GA GB0 l right
          key value s root P _ (pre.length : Int) hcs hleft hL hC hroom
          (by rw [hS]; exact hlow) (by simpa [slots_cons] using hhigh) (by omega)
        refine ⟨s2, _, ?_, w2, w3, ?_, w5, by omega, hfrO s2 w4, Or.inr (Or.inl ⟨hnoleft, right,
          GB0, hpost, rfl, hroom, Or.inr ⟨hAl, x, rfl⟩, w4 P (by simp)⟩)⟩
        · rw [hAl]
          simp only [headH]
          exact w1
        · rw [w7, hS]
          simp [slots_cons]
    · -- no room on the right: split
      have hnoright : post = [] ∨ ∃ right GB0, GB = right :: GB0 ∧
          ¬ right.S.length < 2 * kData := by
        rcases h.right_sibling with ⟨h1, -⟩ | ⟨right, GB0, e1, e2⟩
        · exact Or.inl h1
        · by_cases hp : post = []
          · exact Or.inl hp
          · exact Or.inr ⟨right, GB0, e1, fun h3 => hrightroom ⟨hp, right, GB0, e1, h3⟩⟩
      have hright : ((post.head?).map Prod.fst).getD 0 = 0 ∨
          ∃ pr, mget s.m (((post.head?).map Prod.fst).getD 0) = some pr ∧
            ¬ (btreeDataPage.len pr < 2 * (kData : Int)) := by
        rcases h.right_sibling with ⟨-, h2⟩ | ⟨right, GB0, e1, e2⟩
        · exact Or.inl h2
        · by_cases hp : post = []
          · left
            rw [hp]
            rfl
          · right
            subst e1
            have hp2 := Chain_mid s.m 0 0 (GA ++ [l]) GB0 right (by simpa using hL.chain)
            have hfl : FieldsOk s.m right.S := hL.fields right (by simp)
            refine ⟨_, by rw [e2]; exact hp2, ?_⟩
            rw [dataLen_encD _ _ _ hfl.slotsLen]
            intro h3
            exact hrightroom ⟨hp, right, GB0, rfl, by exact_mod_cast h3⟩
      obtain ⟨s2, x, L, R, w1, w2, w3, w4, w5, w6, w7, w8, w9⟩ := split_parent c kData O [P] GA GB
        l A B key value s root P pre post k hL hC (Nat.le_refl _) hS hfull h.page (by simp) hlow
        hhigh hs
      have hPO : P ∉ O := by
        intro hPO
        have hn := hC.nodup
        unfold handles at hn
        have h1 := (Multiset.nodup_add.1 (Multiset.nodup_add.1 (Multiset.nodup_add.1 hn).1).1).2.2
        exact Multiset.disjoint_left.1 h1 (Multiset.mem_coe.2 hPO) (by simp)
      have hfresh : mget s.m (s.h + 1) = none := by
        cases hx : mget s.m (s.h + 1) with
        | none => rfl
        | some v =>
          have := (hC.bound _ (hC.live _ (by rw [hx]; rfl))).2
          omega
      refine ⟨s2, _, ?_, w3, w4, w9, w7, w8, ?_, Or.inr (Or.inr ⟨hnoleft, hnoright, L, R, rfl,
        hfresh, w5⟩)⟩
      · rw [overflow_to_split _ root l.h P _ _ key value s _ _ hcs hleft hright]
        exact w1
      · intro a ha
        exact w6 a (List.mem_append_left _ ha) (fun e => hPO (e ▸ ha))

/-- `overflow` on a full leaf that is the whole tree: there is no parent page, hence no
sibling, and the leaf is split under a new root index page. -/
theorem overflow_sole_leaf {c : Bytes → Bytes → Int} {key : Bytes} (value : Bytes)
    (root : Nat) {s : memBTreeStore} (l : Leaf) (ht : TreeOk s root c 0 l.h [] [l])
    (A B : List Slot) (hS : l.S = A ++ B)
    (hA : ∀ a ∈ A, c (fieldVal s.m a.1) key < 0) (hB : ∀ b ∈ B, c key (fieldVal s.m b.1) < 0)
    (hfull : l.S.length = 2 * kData) (hs : s.h + 4 < 2 ^ 56) :
    ∃ (s2 : memBTreeStore) (L R : List Slot),
      btreeDataPage.overflow (encD 0 0 l.S) root l.h 0 (-1) (A.length : Int) key value s =
        (.ok (), s2) ∧
      TreeOk s2 root c 1 (s.h + 2) [s.h + 2] [(⟨l.h, L⟩ : Leaf), (⟨s.h + 1, R⟩ : Leaf)] ∧
      mget s.m (s.h + 1) = none ∧ mget s.m (s.h + 2) = none ∧
      mget s2.m (s.h + 2) = some (encH [l.h, s.h + 1, s.h + 1]) ∧
      s.h ≤ s2.h ∧ s2.h ≤ s.h + 4 ∧
      kvs s2.m [(⟨l.h, L⟩ : Leaf), (⟨s.h + 1, R⟩ : Leaf)] =
        A.map (slotKV s.m) ++ (key, value) :: B.map (slotKV s.m) := by
  have hL : LeavesOk s.m c 1 [l] := by
    have := ht.leaves
    rwa [if_pos rfl] at this
  have hC := ht.ctx
  obtain ⟨s2, L, R, w1, w2, w3, w4, w5⟩ := split_root c 1 l A B key value s root hL hC
    (by rw [ht.hroot]; rfl) (by decide) hS hfull
    (fun k hk => by
      obtain ⟨a, ha, rfl⟩ := List.mem_map.1 hk
      exact hA a ha)
    (fun k hk => by
      obtain ⟨b, hb, rfl⟩ := List.mem_map.1 hk
      exact hB b hb)
    hs
  have hfresh : ∀ a, s.h < a → mget s.m a = none := by
    intro a ha
    cases hx : mget s.m a with
    | none => rfl
    | some v =>
      have := (hC.bound _ (hC.live _ (by rw [hx]; rfl))).2
      omega
  have hpage := w2.two_leaves
  refine ⟨s2, L, R, ?_, w2, hfresh _ (by omega), hfresh _ (by omega), hpage, w3, w4, w5⟩
  rw [overflow_to_split _ root l.h 0 _ _ key value s 0 0 (checkSiblings_root s)
    (Or.inl rfl) (Or.inl rfl)]
  exact w1

/-! ## The concrete tree of two leaves -/

theorem wKey_lt (i j : Nat) (hij : i < j) (_hj : j < 65536) :
    bytesCompare (wKey i) (wKey j) < 0 := by
  unfold wKey
  simp only [bytesCompare]
  by_cases h1 : i / 256 < j / 256
  · rw [if_pos h1]
    decide
  · rw [if_neg h1, if_neg (by omega)]
    have h2 : i % 256 < j % 256 := by omega
    rw [if_pos h2]
    decide

theorem wKey_ne (i j : Nat) (hij : i < j) (hj : j < 65536) :
    bytesCompare (wKey i) (wKey j) ≠ 0 := by
  have := wKey_lt i j hij hj
  omega

theorem fieldVal_wSlot_key (m : Blobs) (i : Nat) : fieldVal m (wSlot i).1 = wKey i := rfl

theorem fieldVal_wSlot_value (m : Blobs) (i : Nat) : fieldVal m (wSlot i).2 = [1] := rfl

theorem FieldOk_wSlot (m : Blobs) (i : Nat) : FieldOk m (wSlot i).1 ∧ FieldOk m (wSlot i).2 :=
  ⟨⟨rfl, Or.inl (show (2 : Nat) < 19 by decide)⟩, ⟨rfl, Or.inl (show (1 : Nat) < 19 by decide)⟩⟩

theorem slotOv_wSlot (i : Nat) : slotOv (wSlot i) = [] := rfl

theorem wSlots_add (lo a b : Nat) : wSlots lo (a + b) = wSlots lo a ++ wSlots (lo + a) b := by
  unfold wSlots
  rw [List.range_add, List.map_append, List.map_map]
  congr 1
  apply List.map_congr_left
  intro i _
  simp only [Function.comp, Nat.add_assoc]

theorem wSlots_succ (lo n : Nat) : wSlots lo (n + 1) = wSlot (2 * lo) :: wSlots (lo + 1) n := by
  rw [Nat.add_comm n 1, wSlots_add]
  rfl

theorem wSlots_length (lo n : Nat) : (wSlots lo n).length = n := by
  simp [wSlots]

theorem mem_wSlots (lo n : Nat) (x : Slot) (hx : x ∈ wSlots lo n) :
    ∃ i, i < n ∧ x = wSlot (2 * (lo + i)) := by
  unfold wSlots at hx
  obtain ⟨i, hi, rfl⟩ := List.mem_map.1 hx
  exact ⟨i, List.mem_range.1 hi, rfl⟩

theorem FieldsOk_wSlots (m : Blobs) (lo n : Nat) : FieldsOk m (wSlots lo n) := by
  intro x hx
  obtain ⟨i, -, rfl⟩ := mem_wSlots lo n x hx
  exact FieldOk_wSlot m _

theorem ovsS_wSlots (lo n : Nat) : ovsS (wSlots lo n) = [] := by
  unfold ovsS
  rw [List.flatMap_eq_nil_iff]
  intro x hx
  obtain ⟨i, -, rfl⟩ := mem_wSlots lo n x hx
  rfl

theorem keysOf_wSlots (m : Blobs) (lo n : Nat) :
    keysOf m (wSlots lo n) = (List.range n).map (fun i => wKey (2 * (lo + i))) := by
  unfold keysOf wSlots
  rw [List.map_map]
  rfl

theorem sorted_wSlots (m : Blobs) (lo n : Nat) (h : 2 * (lo + n) ≤ 65536) :
    (keysOf m (wSlots lo n)).Pairwise (fun a b => bytesCompare a b < 0) := by
  rw [keysOf_wSlots, List.pairwise_map]
  refine List.Pairwise.imp_of_mem ?_ (List.pairwise_lt_range n)
  intro a b _ hb hab
  have := List.mem_range.1 hb
  exact wKey_lt _ _ (by omega) (by omega)

theorem wPairs_length (n : Nat) : (wPairs n).length = n := by
  simp [wPairs]

theorem wPairs_distinct (n : Nat) (hn : n ≤ 65536) :
    ((wPairs n).map Prod.fst).Pairwise (fun a b => cmpOf none a b ≠ 0) := by
  unfold wPairs
  rw [List.map_map, List.pairwise_map]
  refine List.Pairwise.imp_of_mem ?_ (List.pairwise_lt_range n)
  intro a b _ hb hab
  have := List.mem_range.1 hb
  exact wKey_ne _ _ hab (by omega)

theorem mget_wStore (h : Nat) :
    mget wStore.m h =
      if 1 = h then some (h2bBytes 4)
      else if 2 = h then some (encD 0 3 (wSlots 0 256))
      else if 3 = h then some (encD 2 0 (wSlots 256 512))
      else if 4 = h then some (encH [2, 3, 3])
      else none := rfl

/-- The leaves of the concrete tree. -/
theorem wStore_leaves :
    LeavesOk wStore.m bytesCompare kData
      [(⟨2, wSlots 0 256⟩ : Leaf), (⟨3, wSlots 256 512⟩ : Leaf)] := by
  have hsl : slots [(⟨2, wSlots 0 256⟩ : Leaf), (⟨3, wSlots 256 512⟩ : Leaf)] =
      wSlots 0 768 := by
    rw [show (768 : Nat) = 256 + 512 from rfl, wSlots_add]
    simp [slots]
  refine LeavesOk.of_slots ?_ ?_ ?_ ?_
  · simp only [Chain, headH, and_true]
    refine ⟨?_, ?_⟩
    · rw [mget_wStore, if_neg (by decide), if_pos rfl]
    · rw [mget_wStore, if_neg (by decide), if_neg (by decide), if_pos rfl]
  · rw [hsl]
    exact FieldsOk_wSlots _ _ _
  · rw [hsl]
    exact sorted_wSlots _ _ _ (by norm_num)
  · intro l hl
    simp only [List.mem_cons, List.mem_singleton, List.not_mem_nil, or_false] at hl
    rcases hl with rfl | rfl
    · simp only [wSlots_length, kData_eq]
      omega
    · simp only [wSlots_length, kData_eq]
      omega

/-- The handles of the concrete tree. -/
theorem wStore_ctx :
    Ctx wStore [1] [4] [(⟨2, wSlots 0 256⟩ : Leaf), (⟨3, wSlots 256 512⟩ : Leaf)] := by
  have hov : ovs [(⟨2, wSlots 0 256⟩ : Leaf), (⟨3, wSlots 256 512⟩ : Leaf)] = [] := by
    rw [ovs_eq_slots, show slots [(⟨2, wSlots 0 256⟩ : Leaf), (⟨3, wSlots 256 512⟩ : Leaf)] =
      wSlots 0 256 ++ wSlots 256 512 by simp [slots], ovsS_append, ovsS_wSlots, ovsS_wSlots]
    rfl
  have hM : handles [1] [4] [(⟨2, wSlots 0 256⟩ : Leaf), (⟨3, wSlots 256 512⟩ : Leaf)] =
      (([1, 4, 2, 3] : List Nat) : Multiset Nat) := by
    unfold handles
    rw [hov]
    rfl
  show CtxM wStore _
  rw [hM]
  refine ⟨by decide, ?_, ?_⟩
  · intro h hh
    simp only [Multiset.mem_coe, List.mem_cons, List.mem_singleton, List.not_mem_nil,
      or_false] at hh
    have : wStore.h = 4 := rfl
    rcases hh with rfl | rfl | rfl | rfl <;> omega
  · intro h hh
    rw [mget_wStore] at hh
    simp only [Multiset.mem_coe, List.mem_cons, List.mem_singleton, List.not_mem_nil, or_false]
    by_cases h1 : 1 = h
    · exact Or.inl h1.symm
    · by_cases h2 : 2 = h
      · exact Or.inr (Or.inr (Or.inl h2.symm))
      · by_cases h3 : 3 = h
        · exact Or.inr (Or.inr (Or.inr h3.symm))
        · by_cases h4 : 4 = h
          · exact Or.inr (Or.inl h4.symm)
          · rw [if_neg h1, if_neg h2, if_neg h3, if_neg h4] at hh
            cases hh

/-- The concrete tree at its full leaf 3, for the new key `wKey 601`. -/
theorem wStore_pre :
    PutPre bytesCompare (wKey 601) wStore [1] 4 [(2, [2], [])] [] (3, [3], [])
      [(⟨2, wSlots 0 256⟩ : Leaf)] [(⟨3, wSlots 256 512⟩ : Leaf)] [] [] [] 0 := by
  refine ⟨rfl, by simp [kIndex_eq], ⟨rfl, rfl⟩, ?_, rfl, rfl, rfl, wStore_leaves, wStore_ctx,
    ?_, ?_, ?_⟩
  · intro q hq
    simp only [List.append_nil, List.mem_singleton] at hq
    subst hq
    exact ⟨rfl, rfl⟩
  · intro a ha
    rw [keysG_eq_slots, show slots [(⟨2, wSlots 0 256⟩ : Leaf)] = wSlots 0 256 by simp [slots],
      keysOf_wSlots] at ha
    obtain ⟨i, hi, rfl⟩ := List.mem_map.1 ha
    have := List.mem_range.1 hi
    exact wKey_lt _ _ (by omega) (by norm_num)
  · intro b hb
    cases hb
  · intro _
    have e0 : (⟨3, wSlots 256 512⟩ : Leaf).S = wSlot 512 :: wSlots 257 511 := by
      dsimp only
      exact wSlots_succ 256 511
    rw [minKey_cons wStore.m ⟨3, wSlots 256 512⟩ [] (wSlot 512) (wSlots 257 511) e0,
      fieldVal_wSlot_key]
    exact wKey_lt _ _ (by norm_num) (by norm_num)

theorem wStore_cut :
    wSlots 256 512 = wSlots 256 45 ++ wSlots 301 467 ∧
    (∀ a ∈ wSlots 256 45, bytesCompare (fieldVal wStore.m a.1) (wKey 601) < 0) ∧
    (∀ b ∈ wSlots 301 467, bytesCompare (wKey 601) (fieldVal wStore.m b.1) < 0) := by
  refine ⟨wSlots_add 256 45 467, ?_, ?_⟩
  · intro a ha
    obtain ⟨i, hi, rfl⟩ := mem_wSlots _ _ a ha
    rw [fieldVal_wSlot_key]
    exact wKey_lt _ _ (by omega) (by norm_num)
  · intro b hb
    obtain ⟨i, hi, rfl⟩ := mem_wSlots _ _ b hb
    rw [fieldVal_wSlot_key]
    exact wKey_lt _ _ (by omega) (by omega)

/-! ## The concrete tree of one full leaf -/

theorem mget_wFullLeaf (h : Nat) :
    mget wFullLeaf.m h =
      if 1 = h then some (h2bBytes 2)
      else if 2 = h then some (encD 0 0 (wSlots 0 512))
      else none := rfl

/-- The concrete tree of one full leaf is well formed. -/
theorem wFullLeaf_tree :
    TreeOk wFullLeaf 1 bytesCompare 0 2 [] [(⟨2, wSlots 0 512⟩ : Leaf)] := by
  have hsl : slots [(⟨2, wSlots 0 512⟩ : Leaf)] = wSlots 0 512 := by simp [slots]
  have hov : ovs [(⟨2, wSlots 0 512⟩ : Leaf)] = [] := by
    rw [ovs_eq_slots, hsl, ovsS_wSlots]
  have hM : handles [1] [] [(⟨2, wSlots 0 512⟩ : Leaf)] = (([1, 2] : List Nat) : Multiset Nat) := by
    unfold handles
    rw [hov]
    rfl
  refine ⟨rfl, ⟨rfl, rfl⟩, ?_, ?_, by decide⟩
  · rw [if_pos rfl]
    refine LeavesOk.of_slots ?_ ?_ ?_ ?_
    · simp only [Chain, headH, and_true]
      rw [mget_wFullLeaf, if_neg (by decide), if_pos rfl]
    · rw [hsl]
      exact FieldsOk_wSlots _ _ _
    · rw [hsl]
      exact sorted_wSlots _ _ _ (by norm_num)
    · intro l hl
      simp only [List.mem_singleton] at hl
      subst hl
      simp only [wSlots_length, kData_eq]
      omega
  · show CtxM wFullLeaf _
    rw [hM]
    refine ⟨by decide, ?_, ?_⟩
    · intro h hh
      simp only [Multiset.mem_coe, List.mem_cons, List.mem_singleton, List.not_mem_nil,
        or_false] at hh
      have : wFullLeaf.h = 2 := rfl
      rcases hh with rfl | rfl <;> omega
    · intro h hh
      rw [mget_wFullLeaf] at hh
      simp only [Multiset.mem_coe, List.mem_cons, List.mem_singleton, List.not_mem_nil,
        or_false]
      by_cases h1 : 1 = h
      · exact Or.inl h1.symm
      · by_cases h2 : 2 = h
        · exact Or.inr h2.symm
        · rw [if_neg h1, if_neg h2] at hh
          cases hh

theorem wFullLeaf_cut :
    wSlots 0 512 = wSlots 0 301 ++ wSlots 301 211 ∧
    (∀ a ∈ wSlots 0 301, bytesCompare (fieldVal wFullLeaf.m a.1) (wKey 601) < 0) ∧
    (∀ b ∈ wSlots 301 211, bytesCompare (wKey 601) (fieldVal wFullLeaf.m b.1) < 0) := by
  refine ⟨wSlots_add 0 301 211, ?_, ?_⟩
  · intro a ha
    obtain ⟨i, hi, rfl⟩ := mem_wSlots _ _ a ha
    rw [fieldVal_wSlot_key]
    exact wKey_lt _ _ (by omega) (by norm_num)
  · intro b hb
    obtain ⟨i, hi, rfl⟩ := mem_wSlots _ _ b hb
    rw [fieldVal_wSlot_key]
    exact wKey_lt _ _ (by omega) (by omega)

/-! ## The root record, at the public methods -/

theorem Put_some (s : memBTreeStore) (root : Nat) (c : Option (Bytes → Bytes → Int))
    (key : Bytes) (upd : Updater) (r : Except Err PutResult) (s2 : memBTreeStore)
    (h : btree.put2 root c key upd s = (r, s2)) :
    BTree.Put (some ⟨s, root, c⟩) key upd = (r, some ⟨s2, root, c⟩) := by
  simp only [BTree.Put, BTree.run, h]

theorem Delete_some (s : memBTreeStore) (root : Nat) (c : Option (Bytes → Bytes → Int))
    (key : Bytes) (r : Option Bytes) (s2 : memBTreeStore)
    (h : btree.extract root c key s = (.ok r, s2)) :
    BTree.Delete (some ⟨s, root, c⟩) key = (.ok (), some ⟨s2, root, c⟩) := by
  simp only [BTree.Delete, BTree.run, h]
  rfl

/-- The first item of a tree: what `put2` with an updater that writes leaves in the store
of an empty tree. -/
theorem first_item (c : Option (Bytes → Bytes → Int)) (root : Nat) (key value : Bytes)
    (upd : Updater) (s : memBTreeStore) (he : EmptyOk s root) (hs : s.h + 3 < 2 ^ 56)
    (hu : upd key none = .ok (value, true)) :
    ∃ (s2 : memBTreeStore) (h : Nat) (x : Slot),
      btree.put2 root c key upd s = (.ok (none, true, [(key, none)]), s2) ∧
      mget s2.m root = some (h2bBytes h) ∧ s.h < h ∧ mget s.m h = none ∧
      mget s2.m h = some (encD 0 0 [x]) ∧ slotKV s2.m x = (key, value) ∧
      btreeDataPage.len (encD 0 0 [x]) = 1 ∧
      btreeDataPage.prev (encD 0 0 [x]) = .ok 0 ∧ btreeDataPage.next (encD 0 0 [x]) = .ok 0 ∧
      TreeOk s2 root (cmpOf c) 0 h [] [(⟨h, [x]⟩ : Leaf)] := by
  obtain ⟨s2, h, x, w1, w2, w3, w4, w5, w6, -⟩ := put_empty_write c root key value upd s he hu hs
  have hL : LeavesOk s2.m (cmpOf c) 1 [(⟨h, [x]⟩ : Leaf)] := by simpa using w2.leaves
  have hpage : mget s2.m h = some (encD 0 0 [x]) :=
    Chain_mid s2.m 0 0 [] [] (⟨h, [x]⟩ : Leaf) hL.chain
  have hf : FieldsOk s2.m [x] := hL.fields (⟨h, [x]⟩ : Leaf) (by simp)
  have hfresh : mget s.m h = none := by
    cases hx : mget s.m h with
    | none => rfl
    | some v =>
      have := he.live h (by rw [hx]; rfl)
      have := he.bound
      omega
  have hkv : slotKV s2.m x = (key, value) := by
    have : [slotKV s2.m x] = [(key, value)] := by
      rw [← w3]
      simp [kvs]
    simpa using this
  refine ⟨s2, h, x, w1, w2.hroot, w4, hfresh, hpage, hkv, ?_, prev_encD 0 0 [x] (by norm_num),
    next_encD 0 0 [x] (by norm_num), w2⟩
  rw [dataLen_encD _ _ _ hf.slotsLen]
  rfl

/-- C31, as stated: after `Set` of the `2 * kData + 1` distinct keys `wKey 0`, ...,
`wKey 512` on a new tree, the root record names an index page of one entry, not of
two. -/
theorem set_distinct_keys_root_has_one_entry :
    (wPairs 513).length = 2 * kData + 1 ∧
    ((wPairs 513).map Prod.fst).Pairwise (fun a b => cmpOf none a b ≠ 0) ∧
    ∃ (s2 : memBTreeStore) (iroot : Nat) (p : Bytes),
      setAll (some (NewBTree none)) (wPairs 513) = some ⟨s2, 1, none⟩ ∧
      mget s2.m 1 = some (h2bBytes iroot) ∧ mget s2.m iroot = some p ∧
      btreeIndexPage.len p = 1 ∧ btreeIndexPage.len p ≠ 2 := by
  refine ⟨wPairs_length 513, wPairs_distinct 513 (by norm_num), ?_⟩
  obtain ⟨s2, iroot, lh, rh, L, R, h1, -, -, h4, h5, h6, -⟩ :=
    set_sequence_splits_once none cmpOf_none_total (wPairs 513) (wPairs_length 513)
      (wPairs_distinct 513 (by norm_num))
  exact ⟨s2, iroot, _, h1, h4, h5, h6, by rw [h6]; decide⟩

/-- C31, amended: after `Set` of `2 * kData + 1` keys, no two of which compare equal, on a
new tree, in any order, every `Set` has succeeded and exactly one split has occurred: the
root record names an index page of one entry and two children, the two leaves, which
hold the `2 * kData + 1` items between them. -/
theorem set_distinct_keys_splits_root_once (c : Option (Bytes → Bytes → Int))
    (hc : TotalCmp (cmpOf c)) (kv : List (Bytes × Bytes)) (hlen : kv.length = 2 * kData + 1)
    (hd : (kv.map Prod.fst).Pairwise (fun a b => cmpOf c a b ≠ 0)) :
    ∃ (s2 : memBTreeStore) (iroot lh rh : Nat) (L R : List Slot),
      setAll (some (NewBTree c)) kv = some ⟨s2, 1, c⟩ ∧
      (∀ r ∈ setResults (some (NewBTree c)) kv, r = .ok ()) ∧
      TreeOk s2 1 (cmpOf c) 1 iroot [iroot] [(⟨lh, L⟩ : Leaf), (⟨rh, R⟩ : Leaf)] ∧
      mget s2.m 1 = some (h2bBytes iroot) ∧
      mget s2.m iroot = some (encH [lh, rh, rh]) ∧
      btreeIndexPage.len (encH [lh, rh, rh]) = 1 ∧
      btreeIndexPage.child (encH [lh, rh, rh]) 0 = .ok lh ∧
      btreeIndexPage.child (encH [lh, rh, rh]) 1 = .ok rh ∧
      L.length + R.length = 2 * kData + 1 :=
  set_sequence_splits_once c hc kv hlen hd

/-- The theorem of C31 at the keys `wKey 0`, ..., `wKey 512`, with `bytes.Compare`. -/
theorem set_distinct_keys_splits_root_once_witness :
    (wPairs 513).length = 2 * kData + 1 ∧
    ((wPairs 513).map Prod.fst).Pairwise (fun a b => cmpOf none a b ≠ 0) ∧
    ∃ (s2 : memBTreeStore) (iroot lh rh : Nat) (L R : List Slot),
      setAll (some (NewBTree none)) (wPairs 513) = some ⟨s2, 1, none⟩ ∧
      (∀ r ∈ setResults (some (NewBTree none)) (wPairs 513), r = .ok ()) ∧
      TreeOk s2 1 (cmpOf none) 1 iroot [iroot] [(⟨lh, L⟩ : Leaf), (⟨rh, R⟩ : Leaf)] ∧
      mget s2.m 1 = some (h2bBytes iroot) ∧
      mget s2.m iroot = some (encH [lh, rh, rh]) ∧
      btreeIndexPage.len (encH [lh, rh, rh]) = 1 ∧
      btreeIndexPage.child (encH [lh, rh, rh]) 0 = .ok lh ∧
      btreeIndexPage.child (encH [lh, rh, rh]) 1 = .ok rh ∧
      L.length + R.length = 2 * kData + 1 :=
  ⟨wPairs_length 513, wPairs_distinct 513 (by norm_num),
    set_distinct_keys_splits_root_once none cmpOf_none_total (wPairs 513) (wPairs_length 513)
      (wPairs_distinct 513 (by norm_num))⟩

/-- C32: `overflow` on the full leaf `l` of a well-formed tree, for a new key that goes
between the items `A` and `B` of the leaf, in the two places where a leaf can be.
First part, the leaf is a child of the index page `P`.  `overflow` returns without error,
the leaves `G2` it leaves are well formed (keys ascending) and hold the pairs of before
with the new pair at its place, the live blobs are those of before and the overflow blobs
of the new item, plus a new data page in the third case only: the left sibling has room
and gets the first item of the leaf; or it has none (or there is no left sibling), the
right sibling has room and gets the last item of the leaf, or the new item at position 0
if that comes after all items of the leaf; or neither has room, and the leaf is split, the
new data page `s.h + 1` becoming a child of `P`.
Second part, the leaf is the whole tree: it has no parent page, hence no sibling, and it
is split.  `overflow` returns without error, the new data page `s.h + 1` and the leaf are
the two children of the new root index page `s.h + 2`, which the root record names, and
the two leaves are well formed and hold the pairs of before with the new pair at its
place. -/
theorem overflow_delays_split {c : Bytes → Bytes → Int} (hc : TotalCmp c) {key : Bytes}
    (value : Bytes) (root : Nat) {s : memBTreeStore} (l : Leaf)
    (A B : List Slot) (hS : l.S = A ++ B)
    (hA : ∀ a ∈ A, c (fieldVal s.m a.1) key < 0) (hB : ∀ b ∈ B, c key (fieldVal s.m b.1) < 0)
    (hfull : l.S.length = 2 * kData) :
    (∀ (O : List Nat) (P : Nat) (pre post : List Kid) (k : Kid) (GA GB : List Leaf)
      (Fa Fb : List Nat),
      PutPre c key s O P pre post k GA [l] GB Fa Fb 0 → s.h + 3 < 2 ^ 56 →
      ∃ (s2 : memBTreeStore) (G2 : List Leaf),
        btreeDataPage.overflow (encD (lastH 0 GA) (headH GB 0) l.S) root l.h P
          (pre.length : Int) (A.length : Int) key value s = (.ok (), s2) ∧
        LeavesOk s2.m c kData G2 ∧ Ctx s2 O [P] G2 ∧
        kvs s2.m G2 =
          (slots GA ++ A).map (slotKV s.m) ++
            (key, value) :: (B ++ slots GB).map (slotKV s.m) ∧
        s.h ≤ s2.h ∧ s2.h ≤ s.h + 3 ∧ (∀ a ∈ O, mget s2.m a = mget s.m a) ∧
        ((∃ GA0 left x0 SA x, pre ≠ [] ∧ GA = GA0 ++ [left] ∧ left.S.length < 2 * kData ∧
            A = x0 :: SA ∧
            G2 = GA0 ++ (⟨left.h, left.S ++ [x0]⟩ : Leaf) ::
              (⟨l.h, SA ++ x :: B⟩ : Leaf) :: GB ∧
            mget s2.m P = mget s.m P) ∨
         ((pre = [] ∨ ∃ GA0 left, GA = GA0 ++ [left] ∧ ¬ left.S.length < 2 * kData) ∧
            ∃ right GB0, post ≠ [] ∧ GB = right :: GB0 ∧ right.S.length < 2 * kData ∧
            ((A.length < 2 * kData ∧ ∃ SB xl x, B = SB ++ [xl] ∧
                G2 = GA ++ (⟨l.h, A ++ x :: SB⟩ : Leaf) ::
                  (⟨right.h, xl :: right.S⟩ : Leaf) :: GB0) ∨
             (A.length = 2 * kData ∧ ∃ x,
                G2 = GA ++ l :: (⟨right.h, x :: right.S⟩ : Leaf) :: GB0)) ∧
            mget s2.m P = mget s.m P) ∨
         ((pre = [] ∨ ∃ GA0 left, GA = GA0 ++ [left] ∧ ¬ left.S.length < 2 * kData) ∧
            (post = [] ∨ ∃ right GB0, GB = right :: GB0 ∧ ¬ right.S.length < 2 * kData) ∧
            ∃ L R, G2 = GA ++ (⟨l.h, L⟩ : Leaf) :: (⟨s.h + 1, R⟩ : Leaf) :: GB ∧
              mget s.m (s.h + 1) = none ∧
              mget s2.m P =
                some (encH (hsOf (pre ++ k :: (s.h + 1, [s.h + 1], []) :: post)))))) ∧
    (TreeOk s root c 0 l.h [] [l] → s.h + 4 < 2 ^ 56 →
      ∃ (s2 : memBTreeStore) (L R : List Slot),
        btreeDataPage.overflow (encD 0 0 l.S) root l.h 0 (-1) (A.length : Int) key value s =
          (.ok (), s2) ∧
        TreeOk s2 root c 1 (s.h + 2) [s.h + 2] [(⟨l.h, L⟩ : Leaf), (⟨s.h + 1, R⟩ : Leaf)] ∧
        mget s.m (s.h + 1) = none ∧ mget s.m (s.h + 2) = none ∧
        mget s2.m (s.h + 2) = some (encH [l.h, s.h + 1, s.h + 1]) ∧
        s.h ≤ s2.h ∧ s2.h ≤ s.h + 4 ∧
        kvs s2.m [(⟨l.h, L⟩ : Leaf), (⟨s.h + 1, R⟩ : Leaf)] =
          A.map (slotKV s.m) ++ (key, value) :: B.map (slotKV s.m)) :=
  ⟨fun _ _ _ _ _ _ _ _ _ h hs => overflow_delayed_cases hc value root l h A B hS hA hB hfull hs,
    fun ht hs => overflow_sole_leaf value root l ht A B hS hA hB hfull hs⟩

/-- The theorem of C32 for the new key `wKey 601` and the value `[9]`, on the tree `wStore`,
where the full leaf 3 (keys 512, ..., 1534) has the left sibling 2 (256 items), and on the
tree `wFullLeaf`, where the full leaf 2 (keys 0, ..., 1022) is the whole tree. -/
theorem overflow_delays_split_witness :
    (PutPre bytesCompare (wKey 601) wStore [1] 4 [(2, [2], [])] [] (3, [3], [])
        [(⟨2, wSlots 0 256⟩ : Leaf)] [(⟨3, wSlots 256 512⟩ : Leaf)] [] [] [] 0 ∧
      wSlots 256 512 = wSlots 256 45 ++ wSlots 301 467 ∧
      (∀ a ∈ wSlots 256 45, bytesCompare (fieldVal wStore.m a.1) (wKey 601) < 0) ∧
      (∀ b ∈ wSlots 301 467, bytesCompare (wKey 601) (fieldVal wStore.m b.1) < 0) ∧
      (wSlots 256 512).length = 2 * kData ∧
      ∃ (s2 : memBTreeStore) (G2 : List Leaf),
        btreeDataPage.overflow (encD 2 0 (wSlots 256 512)) 1 3 4 1 45 (wKey 601) [9] wStore =
          (.ok (), s2) ∧
        LeavesOk s2.m bytesCompare kData G2 ∧ Ctx s2 [1] [4] G2 ∧
        kvs s2.m G2 =
          (wSlots 0 256 ++ wSlots 256 45).map (slotKV wStore.m) ++
            (wKey 601, [9]) :: (wSlots 301 467).map (slotKV wStore.m)) ∧
    (TreeOk wFullLeaf 1 bytesCompare 0 2 [] [(⟨2, wSlots 0 512⟩ : Leaf)] ∧
      wSlots 0 512 = wSlots 0 301 ++ wSlots 301 211 ∧
      (∀ a ∈ wSlots 0 301, bytesCompare (fieldVal wFullLeaf.m a.1) (wKey 601) < 0) ∧
      (∀ b ∈ wSlots 301 211, bytesCompare (wKey 601) (fieldVal wFullLeaf.m b.1) < 0) ∧
      (wSlots 0 512).length = 2 * kData ∧
      ∃ (s2 : memBTreeStore) (L R : List Slot),
        btreeDataPage.overflow (encD 0 0 (wSlots 0 512)) 1 2 0 (-1) 301 (wKey 601) [9]
          wFullLeaf = (.ok (), s2) ∧
        TreeOk s2 1 bytesCompare 1 4 [4] [(⟨2, L⟩ : Leaf), (⟨3, R⟩ : Leaf)] ∧
        mget s2.m 4 = some (encH [2, 3, 3]) ∧
        kvs s2.m [(⟨2, L⟩ : Leaf), (⟨3, R⟩ : Leaf)] =
          (wSlots 0 301).map (slotKV wFullLeaf.m) ++
            (wKey 601, [9]) :: (wSlots 301 211).map (slotKV wFullLeaf.m)) := by
  constructor
  · obtain ⟨hS, hA, hB⟩ := wStore_cut
    have hfull : (wSlots 256 512).length = 2 * kData := wSlots_length 256 512
    refine ⟨wStore_pre, hS, hA, hB, hfull, ?_⟩
    have hS2 : (⟨3, wSlots 256 512⟩ : Leaf).S = wSlots 256 45 ++ wSlots 301 467 := by
      dsimp only
      exact hS
    have hfull2 : (⟨3, wSlots 256 512⟩ : Leaf).S.length = 2 * kData := by
      dsimp only
      exact hfull
    obtain ⟨s2, G2, w1, w2, w3, w4, -⟩ :=
      (overflow_delays_split bytesCompare_total [9] 1 (⟨3, wSlots 256 512⟩ : Leaf)
        (wSlots 256 45) (wSlots 301 467) hS2 hA hB hfull2).1 _ _ _ _ _ _ _ _ _ wStore_pre
        (show (4 : Nat) + 3 < 2 ^ 56 by norm_num)
    dsimp only at w1
    refine ⟨s2, G2, ?_, w2, w3, ?_⟩
    · have e : (((wSlots 256 45).length : Nat) : Int) = 45 := by rw [wSlots_length]; rfl
      rw [e] at w1
      exact w1
    · rw [w4]
      simp [slots]
  · obtain ⟨hS, hA, hB⟩ := wFullLeaf_cut
    have hfull : (wSlots 0 512).length = 2 * kData := wSlots_length 0 512
    refine ⟨wFullLeaf_tree, hS, hA, hB, hfull, ?_⟩
    have hS2 : (⟨2, wSlots 0 512⟩ : Leaf).S = wSlots 0 301 ++ wSlots 301 211 := by
      dsimp only
      exact hS
    have hfull2 : (⟨2, wSlots 0 512⟩ : Leaf).S.length = 2 * kData := by
      dsimp only
      exact hfull
    obtain ⟨s2, L, R, w1, w2, -, -, w5, -, -, w8⟩ :=
      (overflow_delays_split bytesCompare_total [9] 1 (⟨2, wSlots 0 512⟩ : Leaf)
        (wSlots 0 301) (wSlots 301 211) hS2 hA hB hfull2).2 wFullLeaf_tree
        (show (2 : Nat) + 4 < 2 ^ 56 by norm_num)
    dsimp only at w1
    refine ⟨s2, L, R, ?_, w2, w5, w8⟩
    have e : (((wSlots 0 301).length : Nat) : Int) = 301 := by rw [wSlots_length]; rfl
    rw [e] at w1
    exact w1

/-- C33: `find` on a page whose keys `K` are strictly ascending under the comparator of
the tree (a data page with the keys of its items, or an index page with the first keys of
the data pages that its separators name): it returns, and it returns `(i, true)` with
key `i` equal to `key` if a key of the page compares equal to `key`, else `(l, false)`
where `l` is the number of keys of the page below `key`; the slot indices it compares at
lie in `0 .. len - 1`. -/
theorem find_is_page_binary_search (c : Option (Bytes → Bytes → Int))
    (hc : TotalCmp (cmpOf c)) (p key : Bytes) (s : memBTreeStore) (K : List Bytes)
    (hp : PageKeys s.m p K) (hK : K.Pairwise (fun a b => cmpOf c a b < 0)) :
    ∃ (j : Nat) (ok : Bool) (probes : List Int),
      btreePage.len p = .ok (K.length : Int) ∧
      btreePage.find p c key s = (.ok ((j : Int), ok), s) ∧
      btreePage.findProbes p c key s = (.ok (((j : Int), ok), probes), s) ∧
      (∀ i ∈ probes, 0 ≤ i ∧ i < (K.length : Int)) ∧
      j ≤ K.length ∧ (ok = true ↔ ∃ k ∈ K, cmpOf c key k = 0) ∧
      (ok = true → ∃ k, K.get? j = some k ∧ cmpOf c key k = 0) ∧
      (ok = false → j = K.countP (fun k => decide (cmpOf c k key < 0))) :=
  find_page c hc p key s K hp hK

/-- The theorem of C33 on the data page of the keys `wKey 1` and `wKey 3`, for the key
`wKey 2`, with `bytes.Compare`. -/
theorem find_is_page_binary_search_witness :
    PageKeys (⟨0, []⟩ : memBTreeStore).m (encD 0 0 [wSlot 1, wSlot 3]) [wKey 1, wKey 3] ∧
    [wKey 1, wKey 3].Pairwise (fun a b => cmpOf none a b < 0) ∧
    ∃ (j : Nat) (ok : Bool) (probes : List Int),
      btreePage.len (encD 0 0 [wSlot 1, wSlot 3]) = .ok (([wKey 1, wKey 3].length : Nat) : Int) ∧
      btreePage.find (encD 0 0 [wSlot 1, wSlot 3]) none (wKey 2) ⟨0, []⟩ =
        (.ok ((j : Int), ok), ⟨0, []⟩) ∧
      btreePage.findProbes (encD 0 0 [wSlot 1, wSlot 3]) none (wKey 2) ⟨0, []⟩ =
        (.ok (((j : Int), ok), probes), ⟨0, []⟩) ∧
      (∀ i ∈ probes, 0 ≤ i ∧ i < (([wKey 1, wKey 3].length : Nat) : Int)) ∧
      j ≤ [wKey 1, wKey 3].length ∧
      (ok = true ↔ ∃ k ∈ [wKey 1, wKey 3], cmpOf none (wKey 2) k = 0) ∧
      (ok = true → ∃ k, [wKey 1, wKey 3].get? j = some k ∧ cmpOf none (wKey 2) k = 0) ∧
      (ok = false →
        j = [wKey 1, wKey 3].countP (fun k => decide (cmpOf none k (wKey 2) < 0))) := by
  have hp : PageKeys (⟨0, []⟩ : memBTreeStore).m (encD 0 0 [wSlot 1, wSlot 3])
      [wKey 1, wKey 3] := by
    refine Or.inl ⟨0, 0, [wSlot 1, wSlot 3], rfl, ?_, rfl⟩
    intro x hx
    simp only [List.mem_cons, List.mem_singleton, List.not_mem_nil, or_false] at hx
    rcases hx with rfl | rfl
    · exact FieldOk_wSlot _ _
    · exact FieldOk_wSlot _ _
  have hK : [wKey 1, wKey 3].Pairwise (fun a b => cmpOf none a b < 0) := by
    rw [List.pairwise_pair]
    exact wKey_lt 1 3 (by norm_num) (by norm_num)
  exact ⟨hp, hK, find_is_page_binary_search none cmpOf_none_total _ (wKey 2) ⟨0, []⟩ _ hp hK⟩

/-- C34: `split` of the index page `ph` of `2 * kIndex + 1` entries, whose handles in page
order are `H1` (children `0 .. kIndex` and the separators between them), the separator
`sep` at position `kIndex`, and `H2` (children `kIndex + 1 .. 2 * kIndex + 1` and the
separators between them).  The page keeps `H1` (`kIndex` entries), the newly allocated
page `s.h + 1` gets `H2` (`kIndex` entries); `sep` and the new page go into the parent
`P` behind the child `ph`, or, without a parent (`pi < 0`), into the newly allocated root
`s.h + 2`, which the root record then names; no other blob changes.  The page, handle and
index returned are the new page and `j - (kIndex + 1)` if `j > kIndex`, and else the page
and `j`; in both cases the child at the index returned is the child that `j` named. -/
theorem index_split_loses_nothing (s : memBTreeStore) (H1 H2 A B : List Nat)
    (sep ph root P : Nat) (pi : Int) (j : Nat) (b0 : Bytes)
    (h1 : H1.length = 2 * kIndex + 1) (h2 : H2.length = 2 * kIndex + 1)
    (hlt : ∀ x ∈ H1 ++ sep :: H2, x < 2 ^ 56) (hj : j ≤ 2 * kIndex + 1)
    (hph : mget s.m ph = some b0)
    (hst : ∀ a, (mget s.m a).isSome = true → a ≤ s.h)
    (hpar : 0 ≤ pi → P ≠ ph ∧ mget s.m P = some (encH (A ++ B)) ∧
      (A.length : Int) = 2 * pi + 1 ∧ B.length % 2 = 0)
    (hroot : pi < 0 → root ≠ ph ∧ (mget s.m root).isSome = true) :
    ∃ (p2 : Bytes) (ph2 : Nat) (j2 : Int) (s2 : memBTreeStore),
      btreeIndexPage.split (encH (H1 ++ sep :: H2)) root ph P pi (j : Int) s =
        (.ok (p2, ph2, j2), s2) ∧
      btreeIndexPage.len (encH (H1 ++ sep :: H2)) = ((2 * kIndex + 1 : Nat) : Int) ∧
      btreeIndexPage.dataPage (encH (H1 ++ sep :: H2)) (kIndex : Int) = .ok sep ∧
      mget s2.m ph = some (encH H1) ∧ btreeIndexPage.len (encH H1) = (kIndex : Int) ∧
      mget s.m (s.h + 1) = none ∧ mget s2.m (s.h + 1) = some (encH H2) ∧
      btreeIndexPage.len (encH H2) = (kIndex : Int) ∧
      (0 ≤ pi → s2.h = s.h + 1 ∧ mget s2.m P = some (encH (A ++ sep :: (s.h + 1) :: B))) ∧
      (pi < 0 → s2.h = s.h + 2 ∧ mget s.m (s.h + 2) = none ∧
        mget s2.m (s.h + 2) = some (encH [ph, sep, s.h + 1]) ∧
        mget s2.m root = some (h2bBytes (s.h + 2))) ∧
      (∀ a, a ≠ ph → a ≠ P → a ≠ root → a ≤ s.h → mget s2.m a = mget s.m a) ∧
      (if kIndex < j then p2 = encH H2 ∧ ph2 = s.h + 1 ∧ j2 = (j : Int) - ((kIndex : Int) + 1)
        else p2 = encH H1 ∧ ph2 = ph ∧ j2 = (j : Int)) ∧
      mget s2.m ph2 = some p2 ∧
      btreeIndexPage.child p2 j2 = btreeIndexPage.child (encH (H1 ++ sep :: H2)) (j : Int) ∧
      btreeIndexPage.child p2 j2 = .ok ((H1 ++ sep :: H2).getD (2 * j) 0) :=
  index_split_spec s H1 H2 A B sep ph root P pi j b0 h1 h2 hlt hj hph hst hpar hroot

/-- The theorem of C34 on the store `wIndexStore`: the split of the full index page 2,
the one child of the page 3, with the working index 300. -/
theorem index_split_loses_nothing_witness :
    mget wIndexStore.m 2 = some (encH (List.replicate (2 * kIndex + 1) 10 ++
      30 :: List.replicate (2 * kIndex + 1) 11)) ∧
    mget wIndexStore.m 3 = some (encH ([2] ++ [])) ∧
    ∃ (p2 : Bytes) (ph2 : Nat) (j2 : Int) (s2 : memBTreeStore),
      btreeIndexPage.split (encH (List.replicate (2 * kIndex + 1) 10 ++
        30 :: List.replicate (2 * kIndex + 1) 11)) 1 2 3 0 ((300 : Nat) : Int) wIndexStore =
        (.ok (p2, ph2, j2), s2) ∧
      mget s2.m 2 = some (encH (List.replicate (2 * kIndex + 1) 10)) ∧
      mget s2.m 4 = some (encH (List.replicate (2 * kIndex + 1) 11)) ∧
      mget s2.m 3 = some (encH [2, 30, 4]) ∧
      p2 = encH (List.replicate (2 * kIndex + 1) 11) ∧ ph2 = 4 ∧ j2 = 43 ∧
      btreeIndexPage.child p2 j2 = .ok 11 := by
  have hm2 : mget wIndexStore.m 2 = some (encH (List.replicate (2 * kIndex + 1) 10 ++
      30 :: List.replicate (2 * kIndex + 1) 11)) := rfl
  have hm3 : mget wIndexStore.m 3 = some (encH ([2] ++ [])) := rfl
  refine ⟨hm2, hm3, ?_⟩
  obtain ⟨p2, ph2, j2, s2, w1, -, -, w4, -, -, w7, -, w9, -, -, w12, -, -, w15⟩ :=
    index_split_loses_nothing wIndexStore (List.replicate (2 * kIndex + 1) 10)
      (List.replicate (2 * kIndex + 1) 11) [2] [] 30 2 1 3 0 300 _
      (List.length_replicate _ _) (List.length_replicate _ _)
      (by
        intro x hx
        simp only [List.mem_append, List.mem_cons, List.mem_replicate] at hx
        rcases hx with ⟨-, rfl⟩ | rfl | ⟨-, rfl⟩ <;> norm_num)
      (by rw [kIndex_eq]; norm_num) hm2
      (by
        intro a ha
        show a ≤ 3
        by_contra hc
        have e : mget wIndexStore.m a = none := by
          show mget [(1, _), (2, _), (3, _)] a = none
          simp only [mget]
          rw [if_neg (by omega), if_neg (by omega), if_neg (by omega)]
        rw [e] at ha
        cases ha)
      (fun _ => ⟨by decide, hm3, rfl, rfl⟩)
      (fun h => absurd h (by decide))
  obtain ⟨-, w9b⟩ := w9 (Int.le_refl 0)
  have hk : kIndex < 300 := by rw [kIndex_eq]; norm_num
  rw [if_pos hk] at w12
  obtain ⟨e1, e2, e3⟩ := w12
  have hh : wIndexStore.h = 3 := rfl
  rw [hh] at w7 w9b e2
  refine ⟨p2, ph2, j2, s2, w1, w4, w7, w9b, e1, e2, ?_, ?_⟩
  · rw [e3, kIndex_cast]
    norm_num
  · rw [w15]
    have hk1 : 2 * kIndex + 1 = 513 := by rw [kIndex_eq]
    rw [hk1, List.getD_append_right _ _ _ _ (by rw [List.length_replicate]; norm_num),
      List.length_replicate]
    show Except.ok ((30 :: List.replicate 513 11).getD (86 + 1) 0) = _
    rw [List.getD_cons_succ, List.getD_eq_getElem _ _ (by rw [List.length_replicate]; norm_num),
      List.getElem_replicate]

/-- C35: the root record.  On an empty tree (the root record is 7 zero bytes), a `Put`
whose updater writes, and a `Set`, leave the root record naming a newly allocated data
page that holds the one new item and has `prev = next = 0`; a `Put` whose updater does
not write leaves the store as it is.  On a tree that is one leaf of one item, `Delete` of
its key frees the leaf and resets the root record to 7 zero bytes: the tree is empty. -/
theorem root_record_state_machine (c : Option (Bytes → Bytes → Int)) (hc : TotalCmp (cmpOf c))
    (root : Nat) (key value : Bytes) (upd : Updater) (s : memBTreeStore) :
    (EmptyOk s root → s.h + 3 < 2 ^ 56 → upd key none = .ok (value, true) →
      ∃ (s2 : memBTreeStore) (h : Nat) (x : Slot),
        BTree.Put (some ⟨s, root, c⟩) key upd =
          (.ok (none, true, [(key, none)]), some ⟨s2, root, c⟩) ∧
        mget s2.m root = some (h2bBytes h) ∧ s.h < h ∧ mget s.m h = none ∧
        mget s2.m h = some (encD 0 0 [x]) ∧ slotKV s2.m x = (key, value) ∧
        btreeDataPage.len (encD 0 0 [x]) = 1 ∧
        btreeDataPage.prev (encD 0 0 [x]) = .ok 0 ∧
        btreeDataPage.next (encD 0 0 [x]) = .ok 0) ∧
    (EmptyOk s root → s.h + 3 < 2 ^ 56 →
      ∃ (s2 : memBTreeStore) (h : Nat) (x : Slot),
        BTree.Set (some ⟨s, root, c⟩) key value = (.ok (), some ⟨s2, root, c⟩) ∧
        mget s2.m root = some (h2bBytes h) ∧ s.h < h ∧ mget s.m h = none ∧
        mget s2.m h = some (encD 0 0 [x]) ∧ slotKV s2.m x = (key, value) ∧
        btreeDataPage.len (encD 0 0 [x]) = 1 ∧
        btreeDataPage.prev (encD 0 0 [x]) = .ok 0 ∧
        btreeDataPage.next (encD 0 0 [x]) = .ok 0) ∧
    (EmptyOk s root → upd key none = .ok (value, false) →
      BTree.Put (some ⟨s, root, c⟩) key upd =
        (.ok (none, false, [(key, none)]), some ⟨s, root, c⟩)) ∧
    (∀ (iroot : Nat) (x : Slot),
      TreeOk s root (cmpOf c) 0 iroot [] [(⟨iroot, [x]⟩ : Leaf)] →
      cmpOf c key (fieldVal s.m x.1) = 0 →
      ∃ s2 : memBTreeStore,
        BTree.Delete (some ⟨s, root, c⟩) key = (.ok (), some ⟨s2, root, c⟩) ∧
        mget s2.m iroot = none ∧ mget s2.m root = some (zeros 7) ∧ EmptyOk s2 root) := by
  refine ⟨?_, ?_, ?_, ?_⟩
  · intro he hs hu
    obtain ⟨s2, h, x, w1, w2, w3, w4, w5, w6, w7, w8, w9, -⟩ :=
      first_item c root key value upd s he hs hu
    exact ⟨s2, h, x, Put_some s root c key upd _ s2 w1, w2, w3, w4, w5, w6, w7, w8, w9⟩
  · intro he hs
    obtain ⟨s2, h, x, w1, w2, w3, w4, w5, w6, w7, w8, w9, -⟩ :=
      first_item c root key value (fun _ _ => pure (value, true)) s he hs rfl
    refine ⟨s2, h, x, Set_some s root c key value none s2 ?_, w2, w3, w4, w5, w6, w7, w8, w9⟩
    simp only [btree.put, M_bind, M_pure, w1]
  · intro he hu
    exact Put_some s root c key upd _ s (put_empty_skip c root key value upd s he hu)
  · intro iroot x ht hk
    obtain ⟨s2, w1, w2, w3, -⟩ := extract_sole_last c hc root key ht hk
    exact ⟨s2, Delete_some s root c key _ s2 w1, w3, w2.hroot, w2⟩

/-- The theorem of C35 with `bytes.Compare`, on the new tree and on the tree `wOneLeaf`,
for the key `wKey 5`. -/
theorem root_record_state_machine_witness :
    EmptyOk ⟨1, [(1, zeros 7)]⟩ 1 ∧
    (∃ (s2 : memBTreeStore) (h : Nat) (x : Slot),
      BTree.Put (some ⟨⟨1, [(1, zeros 7)]⟩, 1, none⟩) (wKey 5) (fun _ _ => .ok ([1], true)) =
        (.ok (none, true, [(wKey 5, none)]), some ⟨s2, 1, none⟩) ∧
      mget s2.m 1 = some (h2bBytes h) ∧ mget s2.m h = some (encD 0 0 [x]) ∧
      slotKV s2.m x = (wKey 5, [1])) ∧
    (∃ (s2 : memBTreeStore) (h : Nat) (x : Slot),
      BTree.Set (some ⟨⟨1, [(1, zeros 7)]⟩, 1, none⟩) (wKey 5) [1] =
        (.ok (), some ⟨s2, 1, none⟩) ∧
      mget s2.m 1 = some (h2bBytes h) ∧ mget s2.m h = some (encD 0 0 [x]) ∧
      slotKV s2.m x = (wKey 5, [1])) ∧
    BTree.Put (some ⟨⟨1, [(1, zeros 7)]⟩, 1, none⟩) (wKey 5) neverWrite =
      (.ok (none, false, [(wKey 5, none)]), some ⟨⟨1, [(1, zeros 7)]⟩, 1, none⟩) ∧
    TreeOk wOneLeaf 1 (cmpOf none) 0 2 [] [(⟨2, [wSlot 5]⟩ : Leaf)] ∧
    (∃ s2 : memBTreeStore,
      BTree.Delete (some ⟨wOneLeaf, 1, none⟩) (wKey 5) = (.ok (), some ⟨s2, 1, none⟩) ∧
      mget s2.m 2 = none ∧ mget s2.m 1 = some (zeros 7) ∧ EmptyOk s2 1) := by
  have he : EmptyOk ⟨1, [(1, zeros 7)]⟩ 1 := NewBTree_empty none
  have hs : (⟨1, [(1, zeros 7)]⟩ : memBTreeStore).h + 3 < 2 ^ 56 := by
    show 1 + 3 < 2 ^ 56
    norm_num
  have ht : TreeOk wOneLeaf 1 (cmpOf none) 0 2 [] [(⟨2, [wSlot 5]⟩ : Leaf)] := by
    refine ⟨rfl, ⟨rfl, rfl⟩, ?_, ?_, ?_⟩
    · refine LeavesOk.of_slots ?_ ?_ ?_ ?_
      · exact ⟨rfl, trivial⟩
      · intro x hx
        simp only [slots, List.flatMap_cons, List.flatMap_nil, List.append_nil,
          List.mem_singleton] at hx
        subst hx
        exact FieldOk_wSlot _ _
      · simp [slots, keysOf]
      · intro l hl
        simp only [List.mem_singleton] at hl
        subst hl
        simp [kData_eq]
    · show CtxM wOneLeaf _
      have hM : handles [1] [] [(⟨2, [wSlot 5]⟩ : Leaf)] = (([1, 2] : List Nat) : Multiset Nat) :=
        rfl
      rw [hM]
      refine ⟨by decide, ?_, ?_⟩
      · intro h hh
        simp only [Multiset.mem_coe, List.mem_cons, List.mem_singleton, List.not_mem_nil,
          or_false] at hh
        have : wOneLeaf.h = 2 := rfl
        rcases hh with rfl | rfl <;> omega
      · intro h hh
        simp only [Multiset.mem_coe, List.mem_cons, List.mem_singleton, List.not_mem_nil,
          or_false]
        by_contra hne
        have e : mget wOneLeaf.m h = none := by
          show mget [(1, _), (2, _)] h = none
          simp only [mget]
          rw [if_neg (fun e => hne (Or.inl e.symm)), if_neg (fun e => hne (Or.inr e.symm))]
        rw [e] at hh
        cases hh
    · show (2 : Nat) < 2 ^ 56
      norm_num
  have hk : cmpOf none (wKey 5) (fieldVal wOneLeaf.m (wSlot 5).1) = 0 :=
    cmpOf_none_total.refl _
  obtain ⟨s2, h, x, a1, a2, -, -, a5, a6, -⟩ :=
    (root_record_state_machine none cmpOf_none_total 1 (wKey 5) [1]
      (fun _ _ => .ok ([1], true)) ⟨1, [(1, zeros 7)]⟩).1 he hs rfl
  obtain ⟨s3, h3, x3, b1, b2, -, -, b5, b6, -⟩ :=
    (root_record_state_machine none cmpOf_none_total 1 (wKey 5) [1]
      (fun _ _ => .ok ([1], true)) ⟨1, [(1, zeros 7)]⟩).2.1 he hs
  have hc3 := (root_record_state_machine none cmpOf_none_total 1 (wKey 5) []
      neverWrite ⟨1, [(1, zeros 7)]⟩).2.2.1 he rfl
  obtain ⟨s4, d1, d2, d3, d4⟩ :=
    (root_record_state_machine none cmpOf_none_total 1 (wKey 5) [1]
      (fun _ _ => .ok ([1], true)) wOneLeaf).2.2.2 2 (wSlot 5) ht hk
  exact ⟨he, ⟨s2, h, x, a1, a2, a5, a6⟩, ⟨s3, h3, x3, b1, b2, b5, b6⟩, hc3, ht,
    ⟨s4, d1, d2, d3, d4⟩⟩

end Lldb
